import Mathlib

/-!
Memgraph query operators, recovery and storage accessors: a shallow embedding

The development embeds the pull-based cursors of `src/query/plan/operator.cpp`
(variable-length expansion in its depth-first, breadth-first and weighted
flavours, single-hop expansion, aggregation, filter, skip, limit, edge uniqueness
filter, accumulate, range scan, unwind, merge, optional, distinct, union and
cartesian product) as Lean functions over explicit cursor state, the recovery from
a snapshot and from the write-ahead log of `src/durability/recovery.cpp` as
functions over the recovery data, the removal of a vertex and the creation of a
vertex and of an edge of `src/storage/vertex_accessor.cpp` and
`src/database/graph_db_accessor.cpp` as functions over the database as one
transaction sees it, and the integer utilities of `src/utils/math.hpp` as functions
on natural numbers below `2^64`, and proves properties of these functions.

Conventions of the embedding.

* A vertex is identified by its gid (a natural number); an edge accessor is the
  record of its gid, endpoints and type, and two accessors are equal when the
  records are equal.
* The storage is the list of its edges, in creation order.
* `TypedValue D` is parametric in the carrier `D` of the `Double` alternative.
  The operators never inspect `D` except through the order, the addition and the
  conversion of integers that the weighted expansion uses; what is assumed of
  them is gathered in `WeightCarrier`, whose laws hold of exact arithmetic and of
  the rounded addition of machine doubles wherever no NaN arises.
* `int64_t` quantities are unbounded integers: no path or stack in the model
  approaches `2^63` elements.
* A `while (true)` loop is a function that is recursive in a fuel argument; each
  loop body is a separate definition.
* Containers keep a canonical order: a hash map is the list of its entries in the
  order of insertion, and the priority queue of the weighted expansion is the
  list of its entries, from which `pqPop` takes an entry of least weight.
* Operations on `TypedValue` that are defined outside of the operators (the
  comparison and arithmetic operators used by the aggregation) are parameters of
  the model, gathered in `TypedValueOps`.
* What a cursor does over several calls of `Pull` is its log (`pullLog`): the list
  of the outcomes of the calls, where the caller hands the frame of one call to
  the next.
* A child cursor of an operator is, like its input, the list of the tuples it
  yields; `Reset` puts it back to the start.
* Transaction ids are natural numbers; where the source converts or adds in
  `uint64_t`, the model reduces modulo `2^64`.
* A failed `CHECK` ends the process; it is an outcome of its own of the function
  in which it can fail.
* Where C++ leaves a result undefined (a left shift of a `uint64_t` by 64 or
  more), the result is a parameter of the model of which nothing is assumed.
-/

namespace Memgraph

/-! ## Part I: definitions -/

/-- A vertex accessor is identified by the gid of its vertex. -/
abbrev VertexAccessor := Nat

/-- A symbol is identified by its position on the frame. -/
abbrev Symbol := Nat

/-- An edge accessor: gid, the two endpoints (`From()`, `To()`) and the type. -/
structure EdgeAccessor where
  gid : Nat
  From : VertexAccessor
  To : VertexAccessor
  edge_type : Nat
  deriving DecidableEq, Repr

/-- The expansion direction `EdgeAtom::Direction`. -/
inductive Direction where
  | IN
  | OUT
  | BOTH
  deriving DecidableEq, Repr

/-- The storage seen by a query: its edges in creation order. -/
structure Graph where
  edges : List EdgeAccessor

/-- Edge-type filter of `InEdges`/`OutEdges`: an empty vector of types admits
every edge. -/
def typeOk (edge_types : List Nat) (e : EdgeAccessor) : Bool :=
  edge_types.isEmpty || edge_types.contains e.edge_type

/-- Modelled from the spec: `VertexAccessor::OutEdges(view, edge_types)` of the
storage layer, the edges leaving the vertex whose type passes the filter. -/
def OutEdges (g : Graph) (vertex : VertexAccessor) (edge_types : List Nat) : List EdgeAccessor :=
  g.edges.filter (fun e => decide (e.From = vertex) && typeOk edge_types e)

/-- Modelled from the spec: `VertexAccessor::InEdges(view, edge_types)` of the
storage layer, the edges entering the vertex whose type passes the filter. -/
def InEdges (g : Graph) (vertex : VertexAccessor) (edge_types : List Nat) : List EdgeAccessor :=
  g.edges.filter (fun e => decide (e.To = vertex) && typeOk edge_types e)

/-- Runtime values, `TypedValue::Type`. -/
inductive TypedValue (D : Type) where
  | Null
  | Bool (b : Bool)
  | Int (i : Int)
  | Double (d : D)
  | String (s : String)
  | List (l : List (TypedValue D))
  | Map (m : List (String × TypedValue D))
  | Vertex (v : VertexAccessor)
  | Edge (e : EdgeAccessor)
  | Path (start : VertexAccessor) (es : List EdgeAccessor)

/-- The frame: one value per symbol. -/
abbrev Frame (D : Type) := Symbol → TypedValue D

/-- Assignment `frame[sym] = v`. -/
def Frame.set {D : Type} (frame : Frame D) (sym : Symbol) (v : TypedValue D) : Frame D :=
  fun s => if s = sym then v else frame s

/-- Exceptions a cursor can raise. -/
inductive Exception where
  | HintedAbortError
  | QueryRuntimeException
  | TypedValueException
  | OutOfRange
  deriving DecidableEq, Repr

/-- Outcome of one `Pull` (or of one of its helper loops): it returned `true` or
`false` leaving a state behind, it raised, or the model ran out of fuel. -/
inductive PullResult (σ : Type) where
  | ok (emitted : Bool) (s : σ)
  | raised (e : Exception)
  | out_of_fuel

/-- The part of the execution context the operators read. -/
structure ExecutionContext where
  must_abort : Bool

/-- The cooperative cancellation check. -/
def MustAbort (context : ExecutionContext) : Bool := context.must_abort

/-- An expression is its evaluation on a frame. -/
abbrev Expression (D : Type) := Frame D → TypedValue D

/-- An expansion lambda: two inner symbols and an optional expression. -/
structure ExpansionLambda (D : Type) where
  inner_edge_symbol : Symbol
  inner_node_symbol : Symbol
  expression : Option (Expression D)

/-- The `ExpandVariable` logical operator (with `common_` flattened). -/
structure ExpandVariable (D : Type) where
  input_symbol : Symbol
  node_symbol : Symbol
  edge_symbol : Symbol
  direction : Direction
  edge_types : List Nat
  existing_node : Bool
  is_reverse : Bool
  lower_bound : Option (Expression D)
  upper_bound : Option (Expression D)
  filter_lambda : ExpansionLambda D
  weight_lambda : Option (ExpansionLambda D)
  total_weight : Option Symbol

/-- The largest `int64_t`. -/
def INT64_MAX : Int := 9223372036854775807

/-- Modelled from the spec: `EvaluateInt` of the expression evaluator, which
yields the integer an expression evaluates to and raises otherwise. -/
def EvaluateInt {D : Type} (frame : Frame D) (expr : Expression D) : Except Exception Int :=
  match expr frame with
  | .Int i => .ok i
  | _ => .error .QueryRuntimeException

/-- `EvaluateFilter`: null is false, a boolean is itself, anything else raises. -/
def EvaluateFilter {D : Type} (frame : Frame D) (filter : Expression D) : Except Exception Bool :=
  match filter frame with
  | .Null => .ok false
  | .Bool b => .ok b
  | _ => .error .QueryRuntimeException

/-- `CheckExistingNode`: false on null, raises on a non-vertex, else compares. -/
def CheckExistingNode {D : Type} (new_node : VertexAccessor) (existing_node_sym : Symbol)
    (frame : Frame D) : Except Exception Bool :=
  match frame existing_node_sym with
  | .Null => .ok false
  | .Vertex v => .ok (decide (v = new_node))
  | _ => .error .QueryRuntimeException

/-- `ExpandFromVertex`: the chain of `(edge, direction)` pairs, in-edges first. -/
def ExpandFromVertex (g : Graph) (vertex : VertexAccessor) (direction : Direction)
    (edge_types : List Nat) : List (EdgeAccessor × Direction) :=
  (if direction ≠ Direction.OUT then (InEdges g vertex edge_types).map (fun e => (e, Direction.IN))
   else []) ++
  (if direction ≠ Direction.IN then (OutEdges g vertex edge_types).map (fun e => (e, Direction.OUT))
   else [])

/-! ### Depth-first variable expansion: `ExpandVariableCursor` -/

/-- State of `ExpandVariableCursor`. `input_cursor` is the input still to come:
each successful input pull applies the next element to the frame. `edges_` is
the stack of edge iterables with the back of the vector at the head of the list;
each entry holds what its iterator in `edges_it_` has not consumed yet. -/
structure ExpandVariableCursor (D : Type) where
  input_cursor : List (Frame D → Frame D)
  upper_bound_ : Int
  lower_bound_ : Int
  edges_ : List (List (EdgeAccessor × Direction))

/-- A freshly made cursor over the given input. -/
def ExpandVariableCursor.init {D : Type} (input : List (Frame D → Frame D)) :
    ExpandVariableCursor D :=
  { input_cursor := input, upper_bound_ := -1, lower_bound_ := -1, edges_ := [] }

/-- The bound computation `calc_bound` of `PullInput`. -/
def calc_bound {D : Type} (frame : Frame D) (bound : Expression D) : Except Exception Int :=
  match EvaluateInt frame bound with
  | .ok value => if value < 0 then .error .QueryRuntimeException else .ok value
  | .error e => .error e

/-- A bound of the cursor: `calc_bound` of the bound expression when the operator
has one, the default otherwise. -/
def boundOrDefault {D : Type} (frame : Frame D) (bound : Option (Expression D)) (dflt : Int) :
    Except Exception Int :=
  match bound with
  | some b => calc_bound frame b
  | none => .ok dflt

/-- `ExpandVariableCursor::PullInput`. The loop skips null input vertices; it is
recursive in the remaining input. -/
def PullInput {D : Type} (self : ExpandVariable D) (g : Graph) (context : ExecutionContext) :
    List (Frame D → Frame D) → ExpandVariableCursor D → Frame D →
      PullResult (ExpandVariableCursor D × Frame D)
  | [], cur, frame =>
    if MustAbort context then .raised .HintedAbortError
    else .ok false ({ cur with input_cursor := [] }, frame)
  | t :: rest, cur, frame =>
    if MustAbort context then .raised .HintedAbortError
    else
      let frame1 := t frame
      match frame1 self.input_symbol with
      | .Null => PullInput self g context rest cur frame1
      | .Vertex vertex =>
        match boundOrDefault frame1 self.lower_bound 1 with
        | .error e => .raised e
        | .ok lower_bound_ =>
          match boundOrDefault frame1 self.upper_bound INT64_MAX with
          | .error e => .raised e
          | .ok upper_bound_ =>
            let edges_ := if upper_bound_ > 0 then
                ExpandFromVertex g vertex self.direction self.edge_types :: cur.edges_
              else cur.edges_
            .ok true ({ input_cursor := rest, upper_bound_ := upper_bound_,
                        lower_bound_ := lower_bound_, edges_ := edges_ },
                      frame1.set self.edge_symbol (.List []))
      | _ => .raised .QueryRuntimeException

/-- The inner `while` of `Expand`: pop while the level on top is exhausted. -/
def popExhausted {α : Type} : List (List α) → List (List α)
  | [] :: rest => popExhausted rest
  | s => s

/-- Keep at most `n` edges of the list on the frame: the first `n` in forward
mode (`resize`), the last `n` in reverse mode (`erase` at the front). -/
def keepEdges {α : Type} (is_reverse : Bool) (n : Nat) (l : List α) : List α :=
  if is_reverse then l.drop (l.length - min l.length n) else l.take (min l.length n)

/-- `ExpandVariableCursor::AppendEdge` for a stack of `size` levels. -/
def AppendEdge {D : Type} (is_reverse : Bool) (size : Nat) (new_edge : EdgeAccessor)
    (edges_on_frame : List (TypedValue D)) : List (TypedValue D) :=
  if is_reverse then .Edge new_edge :: keepEdges true (size - 1) edges_on_frame
  else keepEdges false (size - 1) edges_on_frame ++ [.Edge new_edge]

/-- The uniqueness test of `Expand`: does the edge occur in the list? -/
def found_existing {D : Type} (current : EdgeAccessor) (edges_on_frame : List (TypedValue D)) :
    Bool :=
  edges_on_frame.any (fun tv => match tv with
    | .Edge e => decide (current = e)
    | _ => false)

/-- Outcome of one iteration of the loop of `Expand`. -/
inductive ExpandStep (σ : Type) where
  | continue_ (s : σ)
  | return_ (b : Bool) (s : σ)
  | throw_ (e : Exception)

/-- The vertex an expansion step arrives at: `From()` of an in-edge, `To()` of an
out-edge. -/
def arrival (current_edge : EdgeAccessor × Direction) : VertexAccessor :=
  if current_edge.2 = Direction.IN then current_edge.1.From else current_edge.1.To

/-- The assignments one iteration of `Expand` makes to the frame once the edge
is known to be new: the appended edge list, the node symbol unless the node
exists already, and the two inner symbols of the filter lambda. -/
def placeOnFrame {D : Type} (self : ExpandVariable D) (frame : Frame D)
    (appended : List (TypedValue D)) (current_edge : EdgeAccessor)
    (current_vertex : VertexAccessor) : Frame D :=
  let frame1 := frame.set self.edge_symbol (.List appended)
  let frame2 := if self.existing_node then frame1
    else frame1.set self.node_symbol (.Vertex current_vertex)
  (frame2.set self.filter_lambda.inner_edge_symbol (.Edge current_edge)).set
    self.filter_lambda.inner_node_symbol (.Vertex current_vertex)

/-- The end of one iteration of `Expand`, after the filter accepted the
expansion: push the next level when the upper bound allows, check the existing
node, and yield when the lower bound is met. `cur1` is the cursor with the
iterator on top already advanced and `size` is `edges_.size()` before the push. -/
def expandAccepted {D : Type} (self : ExpandVariable D) (g : Graph)
    (cur1 : ExpandVariableCursor D) (size : Nat) (current_vertex : VertexAccessor)
    (frame3 : Frame D) : ExpandStep (ExpandVariableCursor D × Frame D) :=
  let cur2 := if cur1.upper_bound_ > (size : Int) then
      { cur1 with edges_ :=
          ExpandFromVertex g current_vertex self.direction self.edge_types :: cur1.edges_ }
    else cur1
  let node_ok := if self.existing_node then
      CheckExistingNode current_vertex self.node_symbol frame3
    else .ok true
  match node_ok with
  | .error e => .throw_ e
  | .ok false => .continue_ (cur2, frame3)
  | .ok true =>
    match frame3 self.edge_symbol with
    | .List final =>
      if (final.length : Int) ≥ cur1.lower_bound_ then .return_ true (cur2, frame3)
      else .continue_ (cur2, frame3)
    | _ => .throw_ .TypedValueException

/-- One iteration of `Expand` from the point where the current edge has been
taken off the iterator on top: trim the list on the frame, test uniqueness,
append, evaluate the filter. -/
def expandEdge {D : Type} (self : ExpandVariable D) (g : Graph)
    (cur1 : ExpandVariableCursor D) (size : Nat) (current_edge : EdgeAccessor × Direction)
    (on_frame : List (TypedValue D)) (frame : Frame D) :
    ExpandStep (ExpandVariableCursor D × Frame D) :=
  let edges_on_frame := keepEdges self.is_reverse size on_frame
  if found_existing current_edge.1 edges_on_frame then
    .continue_ (cur1, frame.set self.edge_symbol (.List edges_on_frame))
  else
    let appended := AppendEdge self.is_reverse size current_edge.1 edges_on_frame
    let frame3 := placeOnFrame self frame appended current_edge.1 (arrival current_edge)
    let passes := match self.filter_lambda.expression with
      | some f => EvaluateFilter frame3 f
      | none => .ok true
    match passes with
    | .error e => .throw_ e
    | .ok false => .continue_ (cur1, frame3)
    | .ok true => expandAccepted self g cur1 size (arrival current_edge) frame3

/-- One iteration of the `while (true)` loop of `ExpandVariableCursor::Expand`. -/
def ExpandBody {D : Type} (self : ExpandVariable D) (g : Graph) (context : ExecutionContext)
    (cur : ExpandVariableCursor D) (frame : Frame D) :
    ExpandStep (ExpandVariableCursor D × Frame D) :=
  if MustAbort context then .throw_ .HintedAbortError
  else
    match popExhausted cur.edges_ with
    | [] => .return_ false ({ cur with edges_ := [] }, frame)
    | [] :: rest => .return_ false ({ cur with edges_ := rest }, frame)
    | (current_edge :: it) :: rest =>
      match frame self.edge_symbol with
      | .List on_frame =>
        expandEdge self g { cur with edges_ := it :: rest } (rest.length + 1) current_edge
          on_frame frame
      | _ => .throw_ .TypedValueException

/-- `ExpandVariableCursor::Expand`: iterate the loop body. -/
def Expand {D : Type} (self : ExpandVariable D) (g : Graph) (context : ExecutionContext) :
    Nat → ExpandVariableCursor D → Frame D → PullResult (ExpandVariableCursor D × Frame D)
  | 0, _, _ => .out_of_fuel
  | fuel + 1, cur, frame =>
    match ExpandBody self g context cur frame with
    | .continue_ (cur1, frame1) => Expand self g context fuel cur1 frame1
    | .return_ b s => .ok b s
    | .throw_ e => .raised e

/-- `ExpandVariableCursor::Pull`. -/
def ExpandVariableCursor.Pull {D : Type} (self : ExpandVariable D) (g : Graph)
    (context : ExecutionContext) :
    Nat → ExpandVariableCursor D → Frame D → PullResult (ExpandVariableCursor D × Frame D)
  | 0, _, _ => .out_of_fuel
  | fuel + 1, cur, frame =>
    match Expand self g context (fuel + 1) cur frame with
    | .ok true s => .ok true s
    | .raised e => .raised e
    | .out_of_fuel => .out_of_fuel
    | .ok false (cur1, frame1) =>
      match PullInput self g context cur1.input_cursor cur1 frame1 with
      | .ok false s => .ok false s
      | .raised e => .raised e
      | .out_of_fuel => .out_of_fuel
      | .ok true (cur2, frame2) =>
        if cur2.lower_bound_ = 0 then
          match frame2 self.input_symbol with
          | .Vertex start_vertex =>
            if !self.existing_node then
              .ok true (cur2, frame2.set self.node_symbol (.Vertex start_vertex))
            else
              match CheckExistingNode start_vertex self.node_symbol frame2 with
              | .error e => .raised e
              | .ok true => .ok true (cur2, frame2)
              | .ok false => ExpandVariableCursor.Pull self g context fuel cur2 frame2
          | _ => .raised .TypedValueException
        else ExpandVariableCursor.Pull self g context fuel cur2 frame2

/-- The edges of a list value, for reading results off the frame. -/
def edgesOf {D : Type} : TypedValue D → List EdgeAccessor
  | .List l => l.filterMap (fun tv => match tv with
      | .Edge e => some e
      | _ => none)
  | _ => []

/-- The list that `AppendEdge` leaves on the frame, on edge accessors. -/
def appendEdges (r : Bool) (size : Nat) (e : EdgeAccessor) (es : List EdgeAccessor) :
    List EdgeAccessor :=
  if r then e :: keepEdges true (size - 1) es else keepEdges false (size - 1) es ++ [e]

/-- A bound held by the cursor is the default when the operator has no bound
expression, and otherwise a non-negative integer the expression evaluated to. -/
def BoundOf {D : Type} (bound : Option (Expression D)) (dflt val : Int) : Prop :=
  match bound with
  | none => val = dflt
  | some b => 0 ≤ val ∧ ∃ fr, b fr = TypedValue.Int val

/-- Invariant of the depth-first cursor between loop iterations: while the stack
is not empty it is no deeper than the upper bound, the bounds are the evaluated
ones, and the part of the edge list on the frame that the stack depth keeps has
no repeated edge. -/
def ExpandVariableCursor.Inv {D : Type} (self : ExpandVariable D)
    (cur : ExpandVariableCursor D) (frame : Frame D) : Prop :=
  cur.edges_ ≠ [] →
    (cur.edges_.length : Int) ≤ cur.upper_bound_ ∧
    BoundOf self.lower_bound 1 cur.lower_bound_ ∧
    BoundOf self.upper_bound INT64_MAX cur.upper_bound_ ∧
    ∀ l, frame self.edge_symbol = .List l →
      ∃ es : List EdgeAccessor, l = es.map .Edge ∧
        (keepEdges self.is_reverse cur.edges_.length es).Nodup

/-- What holds of a tuple the depth-first cursor emits. -/
def ExpandVariableCursor.GoodTuple {D : Type} (self : ExpandVariable D)
    (cur : ExpandVariableCursor D) (frame : Frame D) : Prop :=
  BoundOf self.lower_bound 1 cur.lower_bound_ ∧
  BoundOf self.upper_bound INT64_MAX cur.upper_bound_ ∧
  ∃ es : List EdgeAccessor, frame self.edge_symbol = .List (es.map .Edge) ∧ es.Nodup ∧
    cur.lower_bound_ ≤ (es.length : Int) ∧ (es.length : Int) ≤ cur.upper_bound_

/-- Postcondition of one loop iteration of `Expand`. -/
def ExpandVariableCursor.StepPost {D : Type} (self : ExpandVariable D) :
    ExpandStep (ExpandVariableCursor D × Frame D) → Prop
  | .continue_ s => ExpandVariableCursor.Inv self s.1 s.2
  | .return_ true s => ExpandVariableCursor.Inv self s.1 s.2 ∧
      ExpandVariableCursor.GoodTuple self s.1 s.2
  | .return_ false s => s.1.edges_ = []
  | .throw_ _ => True

/-- The states an `ExpandVariableCursor` and its frame can be in between two
calls of `Pull`: a fresh cursor on any frame, the state a `Pull` returned, and
any of these after other operators assigned symbols other than the edge symbol. -/
inductive ExpandVariableCursor.Reachable {D : Type} (self : ExpandVariable D) (g : Graph)
    (context : ExecutionContext) : ExpandVariableCursor D × Frame D → Prop where
  | fresh (input : List (Frame D → Frame D)) (frame : Frame D) :
      Reachable self g context (ExpandVariableCursor.init input, frame)
  | pull (fuel : Nat) (b : Bool) (s s1 : ExpandVariableCursor D × Frame D) :
      Reachable self g context s →
      ExpandVariableCursor.Pull self g context fuel s.1 s.2 = .ok b s1 →
      Reachable self g context s1
  | touch (cur : ExpandVariableCursor D) (frame frame1 : Frame D) :
      Reachable self g context (cur, frame) →
      frame1 self.edge_symbol = frame self.edge_symbol →
      Reachable self g context (cur, frame1)

/-- The state a result carries, or the given one when it carries none. -/
def PullResult.stateD {σ : Type} (r : PullResult σ) (d : σ) : σ :=
  match r with
  | .ok _ s => s
  | _ => d

/-! ### Breadth-first expansion to a bound sink: `STShortestPathCursor` -/

/-- The map `VertexEdgeMapT`: each visited vertex with the edge used to reach it
(`none` for the root of the search), most recent entry first. -/
abbrev VertexEdgeMapT := List (VertexAccessor × Option EdgeAccessor)

/-- `utils::Contains` on a `VertexEdgeMapT`. -/
def Contains (m : VertexEdgeMapT) (v : VertexAccessor) : Bool := (m.lookup v).isSome

/-- `emplace` on a `VertexEdgeMapT`: a key that is present keeps its value. -/
def emplace (m : VertexEdgeMapT) (v : VertexAccessor) (e : Option EdgeAccessor) :
    VertexEdgeMapT :=
  if Contains m v then m else (v, e) :: m

/-- The endpoint of `e` other than `v`, as the path reconstruction computes it:
`last_edge->From() == last_vertex ? last_edge->To() : last_edge->From()`. -/
def otherEnd (e : EdgeAccessor) (v : VertexAccessor) : VertexAccessor :=
  if e.From = v then e.To else e.From

/-- Conversion of an `int64_t` to `size_t`/`uint64_t`, as the comparison of a
`size_t` with an `int64_t` performs it. -/
def toUInt64 (x : Int) : Nat := (x % 18446744073709551616).toNat

/-- Result of `FindPath` and of its helper loops. -/
inductive FindPathResult where
  | found (p : List EdgeAccessor)
  | not_found
  | raised (e : Exception)
  | out_of_fuel
  deriving DecidableEq, Repr

/-- One of the two loops of `ReconstructPath`: follow the recorded edges from
`last_vertex` until the root of the search (whose entry is `nullopt`). The edges
are collected in the order they are met. `at` raises on a missing key. -/
def chainEdges (m : VertexEdgeMapT) : Nat → VertexAccessor → FindPathResult
  | 0, _ => .out_of_fuel
  | fuel + 1, last_vertex =>
    match m.lookup last_vertex with
    | none => .raised .OutOfRange
    | some none => .found []
    | some (some last_edge) =>
      match chainEdges m fuel (otherEnd last_edge last_vertex) with
      | .found l => .found (last_edge :: l)
      | r => r

/-- `STShortestPathCursor::ReconstructPath`: the edges from the midpoint back to
the source, reversed, followed by the edges from the midpoint on to the sink. -/
def ReconstructPath (midpoint : VertexAccessor) (in_edge out_edge : VertexEdgeMapT) :
    FindPathResult :=
  match chainEdges in_edge (in_edge.length + 1) midpoint with
  | .found l1 =>
    match chainEdges out_edge (out_edge.length + 1) midpoint with
    | .found l2 => .found (l1.reverse ++ l2)
    | r => r
  | r => r

/-- `STShortestPathCursor::ShouldExpand`. The expression is evaluated on the
frame with the two inner symbols assigned; these assignments are not kept. -/
def ShouldExpand {D : Type} (self : ExpandVariable D) (frame : Frame D)
    (vertex : VertexAccessor) (edge : EdgeAccessor) : Except Exception Bool :=
  match self.filter_lambda.expression with
  | none => .ok true
  | some f =>
    match f ((frame.set self.filter_lambda.inner_node_symbol (.Vertex vertex)).set
        self.filter_lambda.inner_edge_symbol (.Edge edge)) with
    | .Null => .ok false
    | .Bool b => .ok b
    | _ => .error .QueryRuntimeException

/-- What the top-down step examines from a vertex of the source frontier, in
order: each out-edge with `To()` unless the direction is `IN`, then each in-edge
with `From()` unless the direction is `OUT`. A candidate is the edge, the vertex
it leads to, and the vertex handed to `ShouldExpand` (here the same vertex). -/
def sourceCandidates (g : Graph) (direction : Direction) (edge_types : List Nat)
    (vertex : VertexAccessor) : List (EdgeAccessor × VertexAccessor × VertexAccessor) :=
  (if direction ≠ Direction.IN then
      (OutEdges g vertex edge_types).map (fun e => (e, e.To, e.To)) else []) ++
  (if direction ≠ Direction.OUT then
      (InEdges g vertex edge_types).map (fun e => (e, e.From, e.From)) else [])

/-- What the bottom-up step examines from a vertex of the sink frontier, in
order: each out-edge with `To()` unless the direction is `OUT`, then each in-edge
with `From()` unless the direction is `IN`. `ShouldExpand` is handed the frontier
vertex. -/
def sinkCandidates (g : Graph) (direction : Direction) (edge_types : List Nat)
    (vertex : VertexAccessor) : List (EdgeAccessor × VertexAccessor × VertexAccessor) :=
  (if direction ≠ Direction.OUT then
      (OutEdges g vertex edge_types).map (fun e => (e, e.To, vertex)) else []) ++
  (if direction ≠ Direction.IN then
      (InEdges g vertex edge_types).map (fun e => (e, e.From, vertex)) else [])

/-- Outcome of expanding one frontier. -/
inductive FrontierResult where
  | next (visited : VertexEdgeMapT) (next : List VertexAccessor)
  | meet (visited : VertexEdgeMapT) (v : VertexAccessor)
  | raised (e : Exception)

/-- The body shared by the four `for (const auto &edge : ...)` loops of
`FindPath`, run over the candidates of a whole frontier: a candidate that passes
`ShouldExpand` and leads to a vertex this side has not visited is recorded in
`mine`; when the other side has visited the vertex the two searches meet there,
and otherwise the vertex joins the next frontier. -/
def expandCandidates (should_expand : VertexAccessor → EdgeAccessor → Except Exception Bool)
    (other : VertexEdgeMapT) :
    List (EdgeAccessor × VertexAccessor × VertexAccessor) → VertexEdgeMapT →
      List VertexAccessor → FrontierResult
  | [], mine, next => .next mine next
  | (edge, target, arg) :: cs, mine, next =>
    match should_expand arg edge with
    | .error e => .raised e
    | .ok false => expandCandidates should_expand other cs mine next
    | .ok true =>
      if Contains mine target then expandCandidates should_expand other cs mine next
      else
        if Contains other target then .meet (emplace mine target (some edge)) target
        else expandCandidates should_expand other cs (emplace mine target (some edge))
          (next ++ [target])

/-- The local state of `FindPath` at the head of its loop. -/
structure FindPathState where
  source_frontier : List VertexAccessor
  sink_frontier : List VertexAccessor
  in_edge : VertexEdgeMapT
  out_edge : VertexEdgeMapT
  current_length : Nat

/-- What `FindPath` does when the two searches meet at `v` with the given
`current_length`: reconstruct and return true when the lower bound is met,
return false otherwise. The comparison is between a `size_t` and an `int64_t`. -/
def onMeeting (lower_bound : Int) (current_length : Nat) (v : VertexAccessor)
    (in_edge out_edge : VertexEdgeMapT) : FindPathResult :=
  if current_length ≥ toUInt64 lower_bound then ReconstructPath v in_edge out_edge
  else .not_found

/-- The `while (true)` loop of `STShortestPathCursor::FindPath`. -/
def FindPathLoop {D : Type} (self : ExpandVariable D) (g : Graph) (context : ExecutionContext)
    (frame : Frame D) (lower_bound upper_bound : Int) : Nat → FindPathState → FindPathResult
  | 0, _ => .out_of_fuel
  | fuel + 1, st =>
    if MustAbort context then .raised .HintedAbortError
    else
      let length1 := st.current_length + 1
      if length1 > toUInt64 upper_bound then .not_found
      else
        match expandCandidates (ShouldExpand self frame) st.out_edge
            (st.source_frontier.flatMap (sourceCandidates g self.direction self.edge_types))
            st.in_edge [] with
        | .raised e => .raised e
        | .meet in_edge v => onMeeting lower_bound length1 v in_edge st.out_edge
        | .next in_edge source_next =>
          if source_next.isEmpty then .not_found
          else
            let length2 := length1 + 1
            if length2 > toUInt64 upper_bound then .not_found
            else
              match expandCandidates (ShouldExpand self frame) in_edge
                  (st.sink_frontier.flatMap (sinkCandidates g self.direction self.edge_types))
                  st.out_edge [] with
              | .raised e => .raised e
              | .meet out_edge v => onMeeting lower_bound length2 v in_edge out_edge
              | .next out_edge sink_next =>
                if sink_next.isEmpty then .not_found
                else
                  FindPathLoop self g context frame lower_bound upper_bound fuel
                    { source_frontier := source_next, sink_frontier := sink_next,
                      in_edge := in_edge, out_edge := out_edge, current_length := length2 }

/-- `STShortestPathCursor::FindPath`. Every round of the loop visits a new
vertex, so the fuel below is never used up. -/
def FindPath {D : Type} (self : ExpandVariable D) (g : Graph) (context : ExecutionContext)
    (frame : Frame D) (source sink : VertexAccessor) (lower_bound upper_bound : Int) :
    FindPathResult :=
  if source = sink then .not_found
  else
    FindPathLoop self g context frame lower_bound upper_bound (2 * g.edges.length + 2)
      { source_frontier := [source], sink_frontier := [sink],
        in_edge := [(source, none)], out_edge := [(sink, none)], current_length := 0 }

/-- A bound of the breadth-first cursors: `EvaluateInt` of the bound expression
when the operator has one, the default otherwise. -/
def bfsBound {D : Type} (frame : Frame D) (bound : Option (Expression D)) (dflt : Int) :
    Except Exception Int :=
  match bound with
  | some b => EvaluateInt frame b
  | none => .ok dflt

/-- `STShortestPathCursor::Pull`, recursive in the input still to come. -/
def STShortestPathCursor.Pull {D : Type} (self : ExpandVariable D) (g : Graph)
    (context : ExecutionContext) :
    List (Frame D → Frame D) → Frame D → PullResult (List (Frame D → Frame D) × Frame D)
  | [], frame => .ok false ([], frame)
  | t :: rest, frame =>
    let frame1 := t frame
    match frame1 self.input_symbol, frame1 self.node_symbol with
    | .Null, _ => STShortestPathCursor.Pull self g context rest frame1
    | _, .Null => STShortestPathCursor.Pull self g context rest frame1
    | .Vertex source, .Vertex sink =>
      match bfsBound frame1 self.lower_bound 1 with
      | .error e => .raised e
      | .ok lower_bound =>
        match bfsBound frame1 self.upper_bound INT64_MAX with
        | .error e => .raised e
        | .ok upper_bound =>
          if upper_bound < 1 ∨ lower_bound > upper_bound then
            STShortestPathCursor.Pull self g context rest frame1
          else
            match FindPath self g context frame1 source sink lower_bound upper_bound with
            | .found p => .ok true (rest, frame1.set self.edge_symbol (.List (p.map .Edge)))
            | .not_found => STShortestPathCursor.Pull self g context rest frame1
            | .raised e => .raised e
            | .out_of_fuel => .out_of_fuel
    | _, _ => .raised .TypedValueException

/-! ### Breadth-first expansion from a single source: `SingleSourceShortestPathCursor` -/

/-- State of `SingleSourceShortestPathCursor`. The two vectors of expansions are
held with the back of the vector at the head of the list, so that `emplace_back`
is `cons` and `back`/`pop_back` take the head. -/
structure SingleSourceShortestPathCursor (D : Type) where
  input_cursor : List (Frame D → Frame D)
  lower_bound_ : Int
  upper_bound_ : Int
  processed_ : VertexEdgeMapT
  to_visit_current_ : List (EdgeAccessor × VertexAccessor)
  to_visit_next_ : List (EdgeAccessor × VertexAccessor)

/-- A freshly made cursor over the given input. -/
def SingleSourceShortestPathCursor.init {D : Type} (input : List (Frame D → Frame D)) :
    SingleSourceShortestPathCursor D :=
  { input_cursor := input, lower_bound_ := -1, upper_bound_ := -1, processed_ := [],
    to_visit_current_ := [], to_visit_next_ := [] }

/-- What `expand_pair` and `expand_from_vertex` work on: the frame, `processed_`
and `to_visit_next_`. -/
structure ExpandPairState (D : Type) where
  frame : Frame D
  processed_ : VertexEdgeMapT
  to_visit_next_ : List (EdgeAccessor × VertexAccessor)

/-- The lambda `expand_pair` of `SingleSourceShortestPathCursor::Pull`. -/
def expand_pair {D : Type} (self : ExpandVariable D) (st : ExpandPairState D)
    (edge : EdgeAccessor) (vertex : VertexAccessor) : Except Exception (ExpandPairState D) :=
  if Contains st.processed_ vertex then .ok st
  else
    let frame1 := (st.frame.set self.filter_lambda.inner_edge_symbol (.Edge edge)).set
      self.filter_lambda.inner_node_symbol (.Vertex vertex)
    let add : ExpandPairState D :=
      { frame := frame1, processed_ := emplace st.processed_ vertex (some edge),
        to_visit_next_ := (edge, vertex) :: st.to_visit_next_ }
    match self.filter_lambda.expression with
    | none => .ok add
    | some f =>
      match f frame1 with
      | .Null => .ok { st with frame := frame1 }
      | .Bool true => .ok add
      | .Bool false => .ok { st with frame := frame1 }
      | _ => .error .QueryRuntimeException

/-- The lambda `expand_from_vertex`, as the loop over the candidates of the
vertex: each out-edge with `To()` unless the direction is `IN`, then each in-edge
with `From()` unless the direction is `OUT`. -/
def expandPairs {D : Type} (self : ExpandVariable D) :
    List (EdgeAccessor × VertexAccessor × VertexAccessor) → ExpandPairState D →
      Except Exception (ExpandPairState D)
  | [], st => .ok st
  | (edge, vertex, _) :: cs, st =>
    match expand_pair self st edge vertex with
    | .error e => .error e
    | .ok st1 => expandPairs self cs st1

/-- The lambda `expand_from_vertex` of `SingleSourceShortestPathCursor::Pull`. -/
def expand_from_vertex {D : Type} (self : ExpandVariable D) (g : Graph)
    (st : ExpandPairState D) (vertex : VertexAccessor) : Except Exception (ExpandPairState D) :=
  expandPairs self (sourceCandidates g self.direction self.edge_types vertex) st

/-- The part of the loop of `SingleSourceShortestPathCursor::Pull` that pulls the
input when there is nothing left to visit. -/
def pullSource {D : Type} (self : ExpandVariable D) (g : Graph)
    (cur : SingleSourceShortestPathCursor D) (frame : Frame D) :
    ExpandStep (SingleSourceShortestPathCursor D × Frame D) :=
  match cur.input_cursor with
  | [] => .return_ false (cur, frame)
  | t :: rest =>
    let frame1 := t frame
    let cur1 := { cur with input_cursor := rest, to_visit_current_ := [], to_visit_next_ := [],
                           processed_ := [] }
    match frame1 self.input_symbol with
    | .Null => .continue_ (cur1, frame1)
    | vertex_value =>
      match bfsBound frame1 self.lower_bound 1 with
      | .error e => .throw_ e
      | .ok lower =>
        match bfsBound frame1 self.upper_bound INT64_MAX with
        | .error e => .throw_ e
        | .ok upper =>
          let cur2 := { cur1 with lower_bound_ := lower, upper_bound_ := upper }
          if upper < 1 ∨ lower > upper then .continue_ (cur2, frame1)
          else
            match vertex_value with
            | .Vertex vertex =>
              match expand_from_vertex self g
                  { frame := frame1, processed_ := emplace cur2.processed_ vertex none,
                    to_visit_next_ := cur2.to_visit_next_ } vertex with
              | .error e => .throw_ e
              | .ok st =>
                .continue_ ({ cur2 with processed_ := st.processed_,
                                        to_visit_next_ := st.to_visit_next_ }, st.frame)
            | _ => .throw_ .TypedValueException

/-- The part of the loop of `SingleSourceShortestPathCursor::Pull` that takes the
next expansion from the queue: rebuild its edge list from `processed_`, expand
from its vertex when the list is shorter than the upper bound, and yield when the
list is not shorter than the lower bound. `cur` is the cursor with the expansion
already popped. -/
def visitExpansion {D : Type} (self : ExpandVariable D) (g : Graph)
    (cur : SingleSourceShortestPathCursor D) (frame : Frame D)
    (expansion : EdgeAccessor × VertexAccessor) :
    ExpandStep (SingleSourceShortestPathCursor D × Frame D) :=
  match chainEdges cur.processed_ (cur.processed_.length + 1)
      (otherEnd expansion.1 expansion.2) with
  | .found l =>
    let edge_list := expansion.1 :: l
    let expanded : Except Exception (ExpandPairState D) :=
      if (edge_list.length : Int) < cur.upper_bound_ then
        expand_from_vertex self g
          { frame := frame, processed_ := cur.processed_, to_visit_next_ := cur.to_visit_next_ }
          expansion.2
      else .ok { frame := frame, processed_ := cur.processed_,
                 to_visit_next_ := cur.to_visit_next_ }
    match expanded with
    | .error e => .throw_ e
    | .ok st =>
      let cur1 := { cur with processed_ := st.processed_, to_visit_next_ := st.to_visit_next_ }
      if (edge_list.length : Int) < cur.lower_bound_ then .continue_ (cur1, st.frame)
      else
        .return_ true (cur1, (st.frame.set self.node_symbol (.Vertex expansion.2)).set
          self.edge_symbol (.List (edge_list.reverse.map .Edge)))
  | .raised e => .throw_ e
  | _ => .throw_ .OutOfRange

/-- One iteration of the `while (true)` loop of
`SingleSourceShortestPathCursor::Pull`. -/
def SingleSourceBody {D : Type} (self : ExpandVariable D) (g : Graph)
    (context : ExecutionContext) (cur : SingleSourceShortestPathCursor D) (frame : Frame D) :
    ExpandStep (SingleSourceShortestPathCursor D × Frame D) :=
  if MustAbort context then .throw_ .HintedAbortError
  else
    let cur0 := if cur.to_visit_current_.isEmpty then
        { cur with to_visit_current_ := cur.to_visit_next_,
                   to_visit_next_ := cur.to_visit_current_ }
      else cur
    match cur0.to_visit_current_ with
    | [] => pullSource self g cur0 frame
    | expansion :: rest => visitExpansion self g { cur0 with to_visit_current_ := rest } frame
        expansion

/-- `SingleSourceShortestPathCursor::Pull`: iterate the loop body. -/
def SingleSourceShortestPathCursor.Pull {D : Type} (self : ExpandVariable D) (g : Graph)
    (context : ExecutionContext) :
    Nat → SingleSourceShortestPathCursor D → Frame D →
      PullResult (SingleSourceShortestPathCursor D × Frame D)
  | 0, _, _ => .out_of_fuel
  | fuel + 1, cur, frame =>
    match SingleSourceBody self g context cur frame with
    | .continue_ (cur1, frame1) => SingleSourceShortestPathCursor.Pull self g context fuel cur1 frame1
    | .return_ b s => .ok b s
    | .throw_ e => .raised e

/-- The tuples the single-source cursor emits from a state until `Pull` returns
false: the values it leaves under the node symbol, in the order of emission. -/
inductive Emissions {D : Type} (self : ExpandVariable D) (g : Graph)
    (context : ExecutionContext) :
    SingleSourceShortestPathCursor D × Frame D → List (TypedValue D) → Prop where
  | done (fuel : Nat) (s s1 : SingleSourceShortestPathCursor D × Frame D) :
      SingleSourceShortestPathCursor.Pull self g context fuel s.1 s.2 = .ok false s1 →
      Emissions self g context s []
  | emit (fuel : Nat) (s s1 : SingleSourceShortestPathCursor D × Frame D)
      (l : List (TypedValue D)) :
      SingleSourceShortestPathCursor.Pull self g context fuel s.1 s.2 = .ok true s1 →
      Emissions self g context s1 l →
      Emissions self g context s (s1.2 self.node_symbol :: l)

/-! ### Weighted shortest paths: `ExpandWeightedShortestPathCursor` -/

/-- The carrier of the `Double` alternative as far as the weighted expansion uses
it: a linear order with a zero, an addition and the conversion of integers, where
adding the same number to both sides keeps the order, adding a non-negative
number does not decrease, and a non-negative integer converts to a non-negative
number. Exact arithmetic satisfies these laws, and so does the addition of
machine doubles wherever no NaN arises, since it rounds monotonically. -/
class WeightCarrier (D : Type) extends LinearOrder D, Zero D, Add D, IntCast D where
  add_mono : ∀ a b w : D, a ≤ b → a + w ≤ b + w
  add_nonneg_ge : ∀ a w : D, 0 ≤ w → a ≤ a + w
  cast_nonneg : ∀ i : Int, 0 ≤ i → (0 : D) ≤ ((i : Int) : D)

instance (D : Type) [LinearOrderedRing D] : WeightCarrier D where
  add_mono := fun _ _ w h => add_le_add_right h w
  add_nonneg_ge := fun _ _ h => le_add_of_nonneg_right h
  cast_nonneg := fun _ h => Int.cast_nonneg.mpr h

/-- A state of the weighted search: a vertex and a depth. -/
abbrev WspState := VertexAccessor × Int

/-- An entry of the priority queue: accumulated weight, depth, vertex and the
edge used to reach it. -/
structure PqEntry (D : Type) where
  weight : D
  depth : Int
  vertex : VertexAccessor
  edge : Option EdgeAccessor

/-- State of `ExpandWeightedShortestPathCursor`. The priority queue is held as
the list of its entries, most recently pushed first. -/
structure ExpandWeightedShortestPathCursor (D : Type) where
  input_cursor : List (Frame D → Frame D)
  upper_bound_ : Int
  upper_bound_set_ : Bool
  total_cost_ : List (WspState × D)
  previous_ : List (WspState × Option EdgeAccessor)
  yielded_vertices_ : List VertexAccessor
  pq_ : List (PqEntry D)

/-- A freshly made cursor over the given input. -/
def ExpandWeightedShortestPathCursor.init {D : Type} (input : List (Frame D → Frame D)) :
    ExpandWeightedShortestPathCursor D :=
  { input_cursor := input, upper_bound_ := -1, upper_bound_set_ := false, total_cost_ := [],
    previous_ := [], yielded_vertices_ := [], pq_ := [] }

/-- Modelled from the spec: `top()` followed by `pop()` on the
`std::priority_queue` ordered by `PriorityQueueComparator`, which keeps an entry
of lowest weight on top. Among entries of equal weight the most recently pushed
one is taken. -/
def pqPop {D : Type} [WeightCarrier D] : List (PqEntry D) → Option (PqEntry D × List (PqEntry D))
  | [] => none
  | e :: q =>
    match pqPop q with
    | none => some (e, [])
    | some (m, r) => if m.weight < e.weight then some (m, e :: r) else some (e, q)

/-- The lambda `create_state` of `ExpandWeightedShortestPathCursor::Pull`. -/
def ExpandWeightedShortestPathCursor.create_state {D : Type}
    (cur : ExpandWeightedShortestPathCursor D) (vertex : VertexAccessor) (depth : Int) :
    WspState :=
  (vertex, if cur.upper_bound_set_ then depth else 0)

/-- `emplace` on one of the maps keyed by the states of the search: a key that is
present keeps its value. -/
def emplaceState {α : Type} (m : List (WspState × α)) (k : WspState) (x : α) :
    List (WspState × α) :=
  if (m.lookup k).isSome then m else (k, x) :: m

/-- What `expand_pair` and `expand_from_vertex` of the weighted cursor work on:
the frame and the priority queue. -/
structure WspExpandState (D : Type) where
  frame : Frame D
  pq_ : List (PqEntry D)

/-- Modelled from the spec: the weight that `expand_pair` adds, from the value of
the weight lambda. A value that is not numeric raises, and so does a number for
which `typed_weight < TypedValue(0)` holds. -/
def checkedWeight {D : Type} [WeightCarrier D] (typed_weight : TypedValue D) :
    Except Exception D :=
  match typed_weight with
  | .Int i => if i < 0 then .error .QueryRuntimeException else .ok (i : D)
  | .Double d => if d < 0 then .error .QueryRuntimeException else .ok d
  | _ => .error .QueryRuntimeException

/-- The filter step of `expand_pair` of the weighted cursor: with a filter lambda,
set its inner symbols and evaluate it. Returns whether the pair passes, and the
frame. -/
def weightedFilter {D : Type} (self : ExpandVariable D) (frame : Frame D) (edge : EdgeAccessor)
    (vertex : VertexAccessor) : Except Exception (Bool × Frame D) :=
  match self.filter_lambda.expression with
  | none => .ok (true, frame)
  | some f =>
    let frame1 := (frame.set self.filter_lambda.inner_edge_symbol (.Edge edge)).set
      self.filter_lambda.inner_node_symbol (.Vertex vertex)
    match EvaluateFilter frame1 f with
    | .error e => .error e
    | .ok b => .ok (b, frame1)

/-- The lambda `expand_pair` of `ExpandWeightedShortestPathCursor::Pull`. An
operator without a weight lambda is outside of what the source defines; the model
raises there. -/
def ExpandWeightedShortestPathCursor.expand_pair {D : Type} [WeightCarrier D]
    (self : ExpandVariable D) (cur : ExpandWeightedShortestPathCursor D)
    (st : WspExpandState D) (edge : EdgeAccessor) (vertex : VertexAccessor) (weight : D)
    (depth : Int) : Except Exception (WspExpandState D) :=
  match weightedFilter self st.frame edge vertex with
  | .error e => .error e
  | .ok (false, frame1) => .ok { st with frame := frame1 }
  | .ok (true, frame1) =>
    match self.weight_lambda with
    | none => .error .OutOfRange
    | some wl =>
      let frame2 := (frame1.set wl.inner_edge_symbol (.Edge edge)).set wl.inner_node_symbol
        (.Vertex vertex)
      match wl.expression with
      | none => .error .OutOfRange
      | some expression =>
        match checkedWeight (expression frame2) with
        | .error e => .error e
        | .ok typed_weight =>
          let next_state := cur.create_state vertex depth
          let next_weight := weight + typed_weight
          match cur.total_cost_.lookup next_state with
          | some found =>
            if found ≤ next_weight then .ok { st with frame := frame2 }
            else .ok { frame := frame2, pq_ := ⟨next_weight, depth + 1, vertex, some edge⟩ :: st.pq_ }
          | none =>
            .ok { frame := frame2, pq_ := ⟨next_weight, depth + 1, vertex, some edge⟩ :: st.pq_ }

/-- The loop of `expand_from_vertex` of the weighted cursor over the candidates
of the vertex. -/
def weightedExpandPairs {D : Type} [WeightCarrier D] (self : ExpandVariable D)
    (cur : ExpandWeightedShortestPathCursor D) (weight : D) (depth : Int) :
    List (EdgeAccessor × VertexAccessor × VertexAccessor) → WspExpandState D →
      Except Exception (WspExpandState D)
  | [], st => .ok st
  | (edge, vertex, _) :: cs, st =>
    match ExpandWeightedShortestPathCursor.expand_pair self cur st edge vertex weight depth with
    | .error e => .error e
    | .ok st1 => weightedExpandPairs self cur weight depth cs st1

/-- The lambda `expand_from_vertex` of `ExpandWeightedShortestPathCursor::Pull`:
each out-edge with `To()` unless the direction is `IN`, then each in-edge with
`From()` unless the direction is `OUT`. -/
def ExpandWeightedShortestPathCursor.expand_from_vertex {D : Type} [WeightCarrier D]
    (self : ExpandVariable D) (g : Graph) (cur : ExpandWeightedShortestPathCursor D)
    (st : WspExpandState D) (vertex : VertexAccessor) (weight : D) (depth : Int) :
    Except Exception (WspExpandState D) :=
  weightedExpandPairs self cur weight depth
    (sourceCandidates g self.direction self.edge_types vertex) st

/-- The path reconstruction of `ExpandWeightedShortestPathCursor::Pull`: follow
`previous_` from the state of `last_vertex` back to the state without an edge.
The edges come out last edge first. -/
def reconstructWeighted {D : Type} (cur : ExpandWeightedShortestPathCursor D) :
    Nat → VertexAccessor → Int → FindPathResult
  | 0, _, _ => .out_of_fuel
  | fuel + 1, last_vertex, last_depth =>
    match cur.previous_.lookup (cur.create_state last_vertex last_depth) with
    | none => .raised .OutOfRange
    | some none => .found []
    | some (some previous_edge) =>
      match reconstructWeighted cur fuel (otherEnd previous_edge last_vertex) (last_depth - 1) with
      | .found l => .found (previous_edge :: l)
      | r => r

/-- The part of the loop of `ExpandWeightedShortestPathCursor::Pull` that runs
when the priority queue is empty: pull the input, evaluate the upper bound, clear
the maps and push the source. -/
def weightedPullInput {D : Type} [WeightCarrier D] (self : ExpandVariable D)
    (cur : ExpandWeightedShortestPathCursor D) (frame : Frame D) :
    ExpandStep (ExpandWeightedShortestPathCursor D × Frame D) :=
  match cur.input_cursor with
  | [] => .return_ false (cur, frame)
  | t :: rest =>
    let frame1 := t frame
    let cur1 := { cur with input_cursor := rest }
    match frame1 self.input_symbol with
    | .Null => .continue_ (cur1, frame1)
    | .Vertex vertex =>
      let skip : Bool :=
        self.existing_node && (match frame1 self.node_symbol with | .Null => true | _ => false)
      if skip then .continue_ (cur1, frame1)
      else
        let bound : Except Exception (Int × Bool) :=
          match self.upper_bound with
          | some b =>
            match EvaluateInt frame1 b with
            | .error e => .error e
            | .ok i => .ok (i, true)
          | none => .ok (INT64_MAX, false)
        match bound with
        | .error e => .throw_ e
        | .ok (upper, is_set) =>
          if upper < 1 then .throw_ .QueryRuntimeException
          else
            .continue_ ({ cur1 with upper_bound_ := upper, upper_bound_set_ := is_set,
                                    previous_ := [], total_cost_ := [],
                                    yielded_vertices_ := [vertex],
                                    pq_ := [⟨0, 0, vertex, none⟩] }, frame1)
    | _ => .throw_ .TypedValueException

/-- Placing the destination node on the frame, with the existence flag: `none`
when the pre-bound node is another vertex, otherwise the cursor (with the queue
cleared when the node was pre-bound) and the frame. The comparison of the
pre-bound value with the vertex is modelled from the spec of `TypedValue`: a null
makes `ValueBool` raise and a value of another type is unequal. -/
def placeDestination {D : Type} (self : ExpandVariable D)
    (cur : ExpandWeightedShortestPathCursor D) (frame : Frame D)
    (current_vertex : VertexAccessor) :
    Except Exception (Option (ExpandWeightedShortestPathCursor D × Frame D)) :=
  if self.existing_node then
    match frame self.node_symbol with
    | .Vertex node => if node ≠ current_vertex then .ok none
                      else .ok (some ({ cur with pq_ := [] }, frame))
    | .Null => .error .TypedValueException
    | _ => .ok none
  else .ok (some (cur, frame.set self.node_symbol (.Vertex current_vertex)))

/-- The end of an iteration of the inner loop of
`ExpandWeightedShortestPathCursor::Pull`, after the expansion: skip a vertex that
was yielded already, reconstruct the path, place the destination node and yield
the tuple of the entry `top`. -/
def weightedYield {D : Type} (self : ExpandVariable D)
    (cur : ExpandWeightedShortestPathCursor D) (frame : Frame D) (top : PqEntry D) :
    ExpandStep (ExpandWeightedShortestPathCursor D × Frame D) :=
  if top.vertex ∈ cur.yielded_vertices_ then .continue_ (cur, frame)
  else
    match reconstructWeighted cur (cur.previous_.length + 1) top.vertex top.depth with
    | .found edge_list =>
      match placeDestination self cur frame top.vertex with
      | .error e => .throw_ e
      | .ok none => .continue_ (cur, frame)
      | .ok (some (cur3, frame3)) =>
        match self.total_weight with
        | none => .throw_ .OutOfRange
        | some total_weight =>
          let l := if self.is_reverse then edge_list else edge_list.reverse
          .return_ true
            ({ cur3 with yielded_vertices_ := top.vertex :: cur3.yielded_vertices_ },
             (frame3.set self.edge_symbol (.List (l.map .Edge))).set total_weight
               (.Double top.weight))
    | .raised e => .throw_ e
    | _ => .throw_ .OutOfRange

/-- One iteration of the inner `while (!pq_.empty())` loop of
`ExpandWeightedShortestPathCursor::Pull`, for the entry `top` taken from the
queue and the queue `rest` left behind. -/
def weightedVisit {D : Type} [WeightCarrier D] (self : ExpandVariable D) (g : Graph)
    (cur : ExpandWeightedShortestPathCursor D) (frame : Frame D) (top : PqEntry D)
    (rest : List (PqEntry D)) : ExpandStep (ExpandWeightedShortestPathCursor D × Frame D) :=
  let cur0 := { cur with pq_ := rest }
  let current_state := cur0.create_state top.vertex top.depth
  if (cur0.total_cost_.lookup current_state).isSome then .continue_ (cur0, frame)
  else
    let cur1 := { cur0 with previous_ := emplaceState cur0.previous_ current_state top.edge,
                            total_cost_ := emplaceState cur0.total_cost_ current_state top.weight }
    let expanded : Except Exception (WspExpandState D) :=
      if top.depth < cur1.upper_bound_ then
        ExpandWeightedShortestPathCursor.expand_from_vertex self g cur1
          { frame := frame, pq_ := cur1.pq_ } top.vertex top.weight top.depth
      else .ok { frame := frame, pq_ := cur1.pq_ }
    match expanded with
    | .error e => .throw_ e
    | .ok st => weightedYield self { cur1 with pq_ := st.pq_ } st.frame top

/-- One iteration of the loops of `ExpandWeightedShortestPathCursor::Pull`: with
an empty queue the outer loop pulls the input, otherwise the inner loop visits
the top of the queue. -/
def WeightedBody {D : Type} [WeightCarrier D] (self : ExpandVariable D) (g : Graph)
    (context : ExecutionContext) (cur : ExpandWeightedShortestPathCursor D) (frame : Frame D) :
    ExpandStep (ExpandWeightedShortestPathCursor D × Frame D) :=
  if MustAbort context then .throw_ .HintedAbortError
  else
    match pqPop cur.pq_ with
    | none => weightedPullInput self cur frame
    | some (top, rest) => weightedVisit self g cur frame top rest

/-- `ExpandWeightedShortestPathCursor::Pull`: iterate the loop body. -/
def ExpandWeightedShortestPathCursor.Pull {D : Type} [WeightCarrier D]
    (self : ExpandVariable D) (g : Graph) (context : ExecutionContext) :
    Nat → ExpandWeightedShortestPathCursor D → Frame D →
      PullResult (ExpandWeightedShortestPathCursor D × Frame D)
  | 0, _, _ => .out_of_fuel
  | fuel + 1, cur, frame =>
    match WeightedBody self g context cur frame with
    | .continue_ (cur1, frame1) =>
      ExpandWeightedShortestPathCursor.Pull self g context fuel cur1 frame1
    | .return_ b s => .ok b s
    | .throw_ e => .raised e

/-! ### Aggregation: `AggregateCursor` -/

/-- The operations on `TypedValue` that the aggregation uses and that are defined
outside of the operators: `TypedValue::BoolEqual`, the operators `<`, `>`, `+` and
`/`, which can raise `TypedValueException`, and the conversion of a count to a
double. (`typed_value.hpp` defines `a > b` inline as `!(a <= b)` and `a <= b` as
`a < b || a == b`, in terms of operators that are defined elsewhere, so `>` is a
parameter of its own here.) -/
structure TypedValueOps (D : Type) where
  bool_equal : TypedValue D → TypedValue D → Bool
  less : TypedValue D → TypedValue D → Except Exception (TypedValue D)
  greater : TypedValue D → TypedValue D → Except Exception (TypedValue D)
  add : TypedValue D → TypedValue D → Except Exception (TypedValue D)
  divide : TypedValue D → TypedValue D → Except Exception (TypedValue D)
  of_count : Int → D

/-- The aggregation operations `Aggregation::Op`. -/
inductive AggregationOp where
  | COUNT
  | MIN
  | MAX
  | SUM
  | AVG
  | COLLECT_LIST
  | COLLECT_MAP
  deriving DecidableEq, Repr

/-- An aggregation of the operator, `Aggregate::Element`. -/
structure AggregateElement (D : Type) where
  value : Option (Expression D)
  key : Option (Expression D)
  op : AggregationOp
  output_sym : Symbol

/-- The `Aggregate` logical operator. -/
structure Aggregate (D : Type) where
  aggregations : List (AggregateElement D)
  group_by : List (Expression D)
  remember : List Symbol

/-- The cache of one group, `AggregateCursor::AggregationValue`. -/
structure AggregationValue (D : Type) where
  counts_ : List Int
  values_ : List (TypedValue D)
  remember_ : List (TypedValue D)

/-- State of `AggregateCursor`. The map `aggregation_` is held as the list of its
entries in the order of insertion, and the iterator `aggregation_it_` as a
position in that list. -/
structure AggregateCursor (D : Type) where
  input_cursor : List (Frame D → Frame D)
  aggregation_ : List (List (TypedValue D) × AggregationValue D)
  aggregation_it_ : Nat
  pulled_all_input_ : Bool

/-- A freshly made cursor over the given input. -/
def AggregateCursor.init {D : Type} (input : List (Frame D → Frame D)) : AggregateCursor D :=
  { input_cursor := input, aggregation_ := [], aggregation_it_ := 0,
    pulled_all_input_ := false }

/-- `DefaultAggregationOpValue`: the value of an aggregation without inputs. -/
def DefaultAggregationOpValue {D : Type} (element : AggregateElement D) : TypedValue D :=
  match element.op with
  | .COUNT => .Int 0
  | .SUM => .Null
  | .MIN => .Null
  | .MAX => .Null
  | .AVG => .Null
  | .COLLECT_LIST => .List []
  | .COLLECT_MAP => .Map []

/-- `TypedValueVectorEqual`: element-wise `BoolEqual` on two vectors. -/
def TypedValueVectorEqual {D : Type} (ops : TypedValueOps D) :
    List (TypedValue D) → List (TypedValue D) → Bool
  | [], [] => true
  | a :: l, b :: r => ops.bool_equal a b && TypedValueVectorEqual ops l r
  | _, _ => false

/-- `EnsureOkForMinMax`: booleans, numbers and strings are allowed. -/
def EnsureOkForMinMax {D : Type} (value : TypedValue D) : Except Exception Unit :=
  match value with
  | .Bool _ => .ok ()
  | .Int _ => .ok ()
  | .Double _ => .ok ()
  | .String _ => .ok ()
  | _ => .error .QueryRuntimeException

/-- `EnsureOkForAvgSum`: numbers are allowed. -/
def EnsureOkForAvgSum {D : Type} (value : TypedValue D) : Except Exception Unit :=
  match value with
  | .Int _ => .ok ()
  | .Double _ => .ok ()
  | _ => .error .QueryRuntimeException

/-- `ValueList().push_back(input_value)` on an aggregated value. -/
def pushToList {D : Type} (value input_value : TypedValue D) : Except Exception (TypedValue D) :=
  match value with
  | .List l => .ok (.List (l ++ [input_value]))
  | _ => .error .TypedValueException

/-- The two statements of the `COLLECT_MAP` cases of `Update`: the key must be a
string, and `ValueMap().emplace(key, input_value)` keeps the value of a key that
is present. -/
def emplaceToMap {D : Type} (frame : Frame D) (key : Option (Expression D))
    (value input_value : TypedValue D) : Except Exception (TypedValue D) :=
  match key with
  | none => .error .OutOfRange
  | some k =>
    match k frame with
    | .String name =>
      match value with
      | .Map m => if m.any (fun kv => kv.1 == name) then .ok (.Map m)
                  else .ok (.Map (m ++ [(name, input_value)]))
      | _ => .error .TypedValueException
    | _ => .error .QueryRuntimeException

/-- The `MIN` and `MAX` cases of `Update` for a group that holds a value: the
comparison of the input with the value, where a `TypedValueException` of the
comparison or of `ValueBool` is turned into a `QueryRuntimeException`. -/
def replaceWhen {D : Type} (compare : TypedValue D → TypedValue D → Except Exception (TypedValue D))
    (value input_value : TypedValue D) : Except Exception (TypedValue D) :=
  match EnsureOkForMinMax input_value with
  | .error e => .error e
  | .ok _ =>
    match compare input_value value with
    | .ok (.Bool true) => .ok input_value
    | .ok (.Bool false) => .ok value
    | .ok _ => .error .QueryRuntimeException
    | .error .TypedValueException => .error .QueryRuntimeException
    | .error e => .error e

/-- The body of the loop of `AggregateCursor::Update` for one aggregation: the new
count and value. -/
def updateElement {D : Type} (ops : TypedValueOps D) (frame : Frame D)
    (agg_elem : AggregateElement D) (count : Int) (value : TypedValue D) :
    Except Exception (Int × TypedValue D) :=
  match agg_elem.value with
  | none => .ok (count + 1, .Int (count + 1))
  | some input_expr =>
    match input_expr frame with
    | .Null => .ok (count, value)
    | input_value =>
      let count1 := count + 1
      if count1 = 1 then
        match agg_elem.op with
        | .MIN => (EnsureOkForMinMax input_value).map (fun _ => (count1, input_value))
        | .MAX => (EnsureOkForMinMax input_value).map (fun _ => (count1, input_value))
        | .SUM => (EnsureOkForAvgSum input_value).map (fun _ => (count1, input_value))
        | .AVG => (EnsureOkForAvgSum input_value).map (fun _ => (count1, input_value))
        | .COUNT => .ok (count1, .Int 1)
        | .COLLECT_LIST => (pushToList value input_value).map (fun v => (count1, v))
        | .COLLECT_MAP =>
          (emplaceToMap frame agg_elem.key value input_value).map (fun v => (count1, v))
      else
        match agg_elem.op with
        | .COUNT => .ok (count1, .Int count1)
        | .MIN => (replaceWhen ops.less value input_value).map (fun v => (count1, v))
        | .MAX => (replaceWhen ops.greater value input_value).map (fun v => (count1, v))
        | .AVG =>
          match EnsureOkForAvgSum input_value with
          | .error e => .error e
          | .ok _ => (ops.add value input_value).map (fun v => (count1, v))
        | .SUM =>
          match EnsureOkForAvgSum input_value with
          | .error e => .error e
          | .ok _ => (ops.add value input_value).map (fun v => (count1, v))
        | .COLLECT_LIST => (pushToList value input_value).map (fun v => (count1, v))
        | .COLLECT_MAP =>
          (emplaceToMap frame agg_elem.key value input_value).map (fun v => (count1, v))

/-- The loop of `AggregateCursor::Update` over the counts, the values and the
aggregations at once; it runs as long as there are counts. -/
def updateAll {D : Type} (ops : TypedValueOps D) (frame : Frame D) :
    List (AggregateElement D) → List Int → List (TypedValue D) →
      Except Exception (List Int × List (TypedValue D))
  | agg_elem :: elems, count :: counts, value :: values =>
    match updateElement ops frame agg_elem count value with
    | .error e => .error e
    | .ok (count1, value1) =>
      match updateAll ops frame elems counts values with
      | .error e => .error e
      | .ok (counts1, values1) => .ok (count1 :: counts1, value1 :: values1)
  | _, counts, values => .ok (counts, values)

/-- `AggregateCursor::EnsureInitialized`. -/
def EnsureInitialized {D : Type} (self : Aggregate D) (frame : Frame D)
    (agg_value : AggregationValue D) : AggregationValue D :=
  if !agg_value.values_.isEmpty then agg_value
  else
    { values_ := agg_value.values_ ++ self.aggregations.map DefaultAggregationOpValue,
      counts_ := (agg_value.counts_ ++
        List.replicate (self.aggregations.length - agg_value.counts_.length) 0).take
          self.aggregations.length,
      remember_ := agg_value.remember_ ++ self.remember.map frame }

/-- `AggregateCursor::Update`. -/
def AggregateCursor.Update {D : Type} (ops : TypedValueOps D) (self : Aggregate D)
    (frame : Frame D) (agg_value : AggregationValue D) : Except Exception (AggregationValue D) :=
  match updateAll ops frame self.aggregations agg_value.counts_ agg_value.values_ with
  | .error e => .error e
  | .ok (counts, values) => .ok { agg_value with counts_ := counts, values_ := values }

/-- The part of `ProcessOne` after the group key is computed: `try_emplace` finds
the group of the key or adds an empty one at the end, then `EnsureInitialized` and
`Update` run on it. -/
def processGroup {D : Type} (ops : TypedValueOps D) (self : Aggregate D) (frame : Frame D)
    (group_by : List (TypedValue D)) :
    List (List (TypedValue D) × AggregationValue D) →
      Except Exception (List (List (TypedValue D) × AggregationValue D))
  | [] =>
    match AggregateCursor.Update ops self frame (EnsureInitialized self frame ⟨[], [], []⟩) with
    | .error e => .error e
    | .ok agg_value => .ok [(group_by, agg_value)]
  | (key, agg_value) :: rest =>
    if TypedValueVectorEqual ops key group_by then
      match AggregateCursor.Update ops self frame (EnsureInitialized self frame agg_value) with
      | .error e => .error e
      | .ok agg_value1 => .ok ((key, agg_value1) :: rest)
    else
      match processGroup ops self frame group_by rest with
      | .error e => .error e
      | .ok rest1 => .ok ((key, agg_value) :: rest1)

/-- `AggregateCursor::ProcessOne`. -/
def AggregateCursor.ProcessOne {D : Type} (ops : TypedValueOps D) (self : Aggregate D)
    (frame : Frame D) (aggregation : List (List (TypedValue D) × AggregationValue D)) :
    Except Exception (List (List (TypedValue D) × AggregationValue D)) :=
  processGroup ops self frame (self.group_by.map (fun expression => expression frame)) aggregation

/-- The first loop of `ProcessAll`: pull the input until it is exhausted and
process each tuple. -/
def processInput {D : Type} (ops : TypedValueOps D) (self : Aggregate D) :
    List (Frame D → Frame D) → Frame D → List (List (TypedValue D) × AggregationValue D) →
      Except Exception (Frame D × List (List (TypedValue D) × AggregationValue D))
  | [], frame, aggregation => .ok (frame, aggregation)
  | t :: rest, frame, aggregation =>
    match AggregateCursor.ProcessOne ops self (t frame) aggregation with
    | .error e => .error e
    | .ok aggregation1 => processInput ops self rest (t frame) aggregation1

/-- The assignment to `values_[pos]` in the second loop of `ProcessAll`. -/
def divideAt {D : Type} (ops : TypedValueOps D) (count : Int) :
    Nat → List (TypedValue D) → Except Exception (List (TypedValue D))
  | _, [] => .ok []
  | 0, value :: values =>
    (ops.divide value (.Double (ops.of_count count))).map (fun v => v :: values)
  | pos + 1, value :: values => (divideAt ops count pos values).map (fun vs => value :: vs)

/-- The inner loop of the second loop of `ProcessAll`: for the aggregation at
`pos`, divide the sum of every group with a positive count by the count. -/
def averageGroups {D : Type} (ops : TypedValueOps D) (pos : Nat) :
    List (List (TypedValue D) × AggregationValue D) →
      Except Exception (List (List (TypedValue D) × AggregationValue D))
  | [] => .ok []
  | (key, agg_value) :: rest =>
    let count := agg_value.counts_.getD pos 0
    let divided : Except Exception (AggregationValue D) :=
      if count > 0 then
        (divideAt ops count pos agg_value.values_).map (fun vs => { agg_value with values_ := vs })
      else .ok agg_value
    match divided with
    | .error e => .error e
    | .ok agg_value1 =>
      match averageGroups ops pos rest with
      | .error e => .error e
      | .ok rest1 => .ok ((key, agg_value1) :: rest1)

/-- The second loop of `ProcessAll`, over the positions of the aggregations. -/
def averageAll {D : Type} (ops : TypedValueOps D) :
    List (AggregateElement D) → Nat → List (List (TypedValue D) × AggregationValue D) →
      Except Exception (List (List (TypedValue D) × AggregationValue D))
  | [], _, aggregation => .ok aggregation
  | elem :: elems, pos, aggregation =>
    if elem.op ≠ AggregationOp.AVG then averageAll ops elems (pos + 1) aggregation
    else
      match averageGroups ops pos aggregation with
      | .error e => .error e
      | .ok aggregation1 => averageAll ops elems (pos + 1) aggregation1

/-- `AggregateCursor::ProcessAll`. -/
def AggregateCursor.ProcessAll {D : Type} (ops : TypedValueOps D) (self : Aggregate D)
    (cur : AggregateCursor D) (frame : Frame D) : Except Exception (AggregateCursor D × Frame D) :=
  match processInput ops self cur.input_cursor frame cur.aggregation_ with
  | .error e => .error e
  | .ok (frame1, aggregation1) =>
    match averageAll ops self.aggregations 0 aggregation1 with
    | .error e => .error e
    | .ok aggregation2 =>
      .ok ({ cur with input_cursor := [], aggregation_ := aggregation2 }, frame1)

/-- The loop of `Pull` that places the default value of every aggregation on the
frame. -/
def placeDefaults {D : Type} (frame : Frame D) : List (AggregateElement D) → Frame D
  | [] => frame
  | elem :: elems => placeDefaults (frame.set elem.output_sym (DefaultAggregationOpValue elem)) elems

/-- The loop of `Pull` that places null on the frame for every remembered
symbol. -/
def placeNulls {D : Type} (frame : Frame D) : List Symbol → Frame D
  | [] => frame
  | remember_sym :: syms => placeNulls (frame.set remember_sym .Null) syms

/-- The loops of `Pull` that place the values of a group on the frame, one value
per symbol in order. -/
def placeValues {D : Type} (frame : Frame D) : List Symbol → List (TypedValue D) → Frame D
  | sym :: syms, value :: values => placeValues (frame.set sym value) syms values
  | _, _ => frame

/-- The end of `AggregateCursor::Pull`: return false at the end of the cache,
otherwise place the values of the group under the iterator on the frame and
advance the iterator. -/
def emitGroup {D : Type} (self : Aggregate D) (cur : AggregateCursor D) (frame : Frame D) :
    PullResult (AggregateCursor D × Frame D) :=
  match cur.aggregation_.get? cur.aggregation_it_ with
  | none => .ok false (cur, frame)
  | some (_, agg_value) =>
    let frame1 := placeValues frame (self.aggregations.map (fun e => e.output_sym))
      agg_value.values_
    let frame2 := placeValues frame1 self.remember agg_value.remember_
    .ok true ({ cur with aggregation_it_ := cur.aggregation_it_ + 1 }, frame2)

/-- `AggregateCursor::Pull`. -/
def AggregateCursor.Pull {D : Type} (ops : TypedValueOps D) (self : Aggregate D)
    (cur : AggregateCursor D) (frame : Frame D) : PullResult (AggregateCursor D × Frame D) :=
  if !cur.pulled_all_input_ then
    match AggregateCursor.ProcessAll ops self cur frame with
    | .error e => .raised e
    | .ok (cur1, frame1) =>
      let cur2 := { cur1 with pulled_all_input_ := true, aggregation_it_ := 0 }
      if cur2.aggregation_.isEmpty && self.group_by.isEmpty then
        .ok true (cur2, placeNulls (placeDefaults frame1 self.aggregations) self.remember)
      else emitGroup self cur2 frame1
  else emitGroup self cur frame

/-! ### Walks -/

/-- The vertex reached from `u` over the edge `e` when the expansion may follow
`e` from `u`: the edge is in the storage, its type passes the filter, and it
leaves `u` (direction not `IN`) or enters `u` (direction not `OUT`). -/
def stepTo (g : Graph) (direction : Direction) (edge_types : List Nat) (u : VertexAccessor)
    (e : EdgeAccessor) : Option VertexAccessor :=
  if e ∈ g.edges ∧ typeOk edge_types e = true then
    if direction ≠ Direction.IN ∧ e.From = u then some e.To
    else if direction ≠ Direction.OUT ∧ e.To = u then some e.From
    else none
  else none

/-- The end of the walk that starts at `u` and follows the edges of `p` in order
along the allowed direction and edge types, when `p` is such a walk. -/
def walkEnd (g : Graph) (direction : Direction) (edge_types : List Nat) :
    VertexAccessor → List EdgeAccessor → Option VertexAccessor
  | u, [] => some u
  | u, e :: p =>
    match stepTo g direction edge_types u e with
    | some w => walkEnd g direction edge_types w p
    | none => none

/-- The edge list `p` is a walk from `u` to `v` along the allowed direction and
edge types. -/
def IsWalk (g : Graph) (direction : Direction) (edge_types : List Nat) (u : VertexAccessor)
    (p : List EdgeAccessor) (v : VertexAccessor) : Prop :=
  walkEnd g direction edge_types u p = some v

instance (g : Graph) (direction : Direction) (edge_types : List Nat) (u : VertexAccessor)
    (p : List EdgeAccessor) (v : VertexAccessor) :
    Decidable (IsWalk g direction edge_types u p v) := by
  unfold IsWalk
  infer_instance

/-- The breadth-first distance of `v` from `s` is `d`: some walk from `s` to `v`
along the allowed direction and edge types has `d` edges and none has fewer. -/
def IsDist (g : Graph) (direction : Direction) (edge_types : List Nat) (s v : VertexAccessor)
    (d : Nat) : Prop :=
  (∃ p, IsWalk g direction edge_types s p v ∧ p.length = d) ∧
  ∀ q, IsWalk g direction edge_types s q v → d ≤ q.length

/-- How a walk is laid out on the frame by the depth-first cursor: in walk order
in forward mode, reversed when `is_reverse` is set. -/
def onFrame (is_reverse : Bool) (p : List EdgeAccessor) : List EdgeAccessor :=
  if is_reverse then p.reverse else p

/-- Number of edges of the storage that do not occur in `p`. -/
def unused (g : Graph) (p : List EdgeAccessor) : Nat :=
  (g.edges.filter (fun e => decide (e ∉ p))).length

/-- A positive number of successive calls of `Expand`, each of which returns
true, leads from the first state to the second. -/
inductive ExpandsTo {D : Type} (self : ExpandVariable D) (g : Graph)
    (context : ExecutionContext) :
    ExpandVariableCursor D × Frame D → ExpandVariableCursor D × Frame D → Prop where
  | one (fuel : Nat) (s s1 : ExpandVariableCursor D × Frame D) :
      Expand self g context fuel s.1 s.2 = .ok true s1 → ExpandsTo self g context s s1
  | more (fuel : Nat) (s s1 s2 : ExpandVariableCursor D × Frame D) :
      Expand self g context fuel s.1 s.2 = .ok true s1 → ExpandsTo self g context s1 s2 →
      ExpandsTo self g context s s2

/-- A positive number of successive calls of `Pull`, each of which emits a
tuple, leads from the first state to the second: the second state is the cursor
and the frame as the last of these calls leaves them. -/
inductive PullsTo {D : Type} (self : ExpandVariable D) (g : Graph)
    (context : ExecutionContext) :
    ExpandVariableCursor D × Frame D → ExpandVariableCursor D × Frame D → Prop where
  | one (fuel : Nat) (s s1 : ExpandVariableCursor D × Frame D) :
      ExpandVariableCursor.Pull self g context fuel s.1 s.2 = .ok true s1 →
      PullsTo self g context s s1
  | more (fuel : Nat) (s s1 s2 : ExpandVariableCursor D × Frame D) :
      ExpandVariableCursor.Pull self g context fuel s.1 s.2 = .ok true s1 →
      PullsTo self g context s1 s2 → PullsTo self g context s s2

/-- The setting of the completeness statement: no cancellation, no filter
lambda, no pre-bound target node, and an edge symbol that none of the other
symbols the cursor assigns coincides with. -/
structure PlainExpansion {D : Type} (self : ExpandVariable D) (context : ExecutionContext) :
    Prop where
  no_abort : context.must_abort = false
  no_filter : self.filter_lambda.expression = none
  no_target : self.existing_node = false
  node_sym : self.edge_symbol ≠ self.node_symbol
  inner_edge_sym : self.edge_symbol ≠ self.filter_lambda.inner_edge_symbol
  inner_node_sym : self.edge_symbol ≠ self.filter_lambda.inner_node_symbol
  input_sym : self.edge_symbol ≠ self.input_symbol

/-- Running the loop of `Expand` from the state, over as many calls as it takes,
reaches a call that returns true in a state that satisfies `P`. -/
def EmitsSome {D : Type} (self : ExpandVariable D) (g : Graph) (context : ExecutionContext)
    (P : ExpandVariableCursor D × Frame D → Prop) (s : ExpandVariableCursor D × Frame D) : Prop :=
  ∃ s1, ExpandsTo self g context s s1 ∧ P s1

/-- The cursor and the frame right after `PullInput` took an input tuple whose
source is the vertex `v`: `frame1` is the frame as the input left it, `lower`
and `upper` are the evaluated bounds. -/
def startOf {D : Type} (self : ExpandVariable D) (g : Graph)
    (rest : List (Frame D → Frame D)) (lower upper : Int) (v : VertexAccessor)
    (frame1 : Frame D) : ExpandVariableCursor D × Frame D :=
  (⟨rest, upper, lower,
    if upper > 0 then [ExpandFromVertex g v self.direction self.edge_types] else []⟩,
   frame1.set self.edge_symbol (.List []))

/-! ### Search trees of the breadth-first cursors -/

/-- The recorded edges lead from `v` back to the root of a search: `l` lists them
in the order the reconstruction meets them. -/
inductive Chain (m : VertexEdgeMapT) : VertexAccessor → List EdgeAccessor → Prop where
  | root (v : VertexAccessor) : m.lookup v = some none → Chain m v []
  | step (v : VertexAccessor) (e : EdgeAccessor) (l : List EdgeAccessor) :
      m.lookup v = some (some e) → Chain m (otherEnd e v) l → Chain m v (e :: l)

/-- A walk of a search, read backwards: `l` lists edges from `v` back to `root`,
each of them a candidate of the vertex before it that leads to the vertex after
it. `cand` gives the candidates of a vertex. -/
inductive BackWalk (cand : VertexAccessor → List (EdgeAccessor × VertexAccessor × VertexAccessor))
    (root : VertexAccessor) : VertexAccessor → List EdgeAccessor → Prop where
  | root : BackWalk cand root root []
  | step (v : VertexAccessor) (e : EdgeAccessor) (l : List EdgeAccessor) (a : VertexAccessor) :
      (e, v, a) ∈ cand (otherEnd e v) → BackWalk cand root (otherEnd e v) l →
      BackWalk cand root v (e :: l)

/-- What one side of the bidirectional search has established once it has
expanded `a` whole levels (without a filter lambda): every visited vertex has a
recorded chain of at most `a` edges that is a walk of the search, the frontier is
visited, every vertex within `a` steps of the root is visited, and the visited
set is closed under the candidates of all vertices outside the frontier. -/
structure SideInv (cand : VertexAccessor → List (EdgeAccessor × VertexAccessor × VertexAccessor))
    (root : VertexAccessor) (m : VertexEdgeMapT) (frontier : List VertexAccessor) (a : Nat) :
    Prop where
  chain : ∀ v, Contains m v = true → ∃ l, Chain m v l ∧ BackWalk cand root v l ∧ l.length ≤ a
  front : ∀ v ∈ frontier, Contains m v = true
  complete : ∀ v l, BackWalk cand root v l → l.length ≤ a → Contains m v = true
  closed : ∀ u, Contains m u = true → u ∉ frontier → ∀ c ∈ cand u, Contains m c.2.1 = true
  size : a + 1 ≤ m.length
  nodup : (m.map Prod.fst).Nodup

/-- What holds in the middle of the expansion of a frontier: `m0` is the map at
the start of the step, `mine` the map now, `next` the next frontier so far and
`seen` the candidates examined so far. -/
structure FoldInv (cand : VertexAccessor → List (EdgeAccessor × VertexAccessor × VertexAccessor))
    (root : VertexAccessor) (m0 other : VertexEdgeMapT) (a : Nat)
    (seen : List (EdgeAccessor × VertexAccessor × VertexAccessor)) (mine : VertexEdgeMapT)
    (next : List VertexAccessor) : Prop where
  ext : ∀ v x, m0.lookup v = some x → mine.lookup v = some x
  keys : ∀ v, Contains mine v = true ↔ (Contains m0 v = true ∨ v ∈ next)
  fresh : ∀ v ∈ next, Contains other v = false
  chain : ∀ v, Contains mine v = true →
    ∃ l, Chain mine v l ∧ BackWalk cand root v l ∧ l.length ≤ a + 1
  examined : ∀ c ∈ seen, Contains mine c.2.1 = true
  size : mine.length = m0.length + next.length
  nodup : (mine.map Prod.fst).Nodup

/-- What the expansion of a frontier returns, without a filter lambda. -/
def FrontierPost (cand : VertexAccessor → List (EdgeAccessor × VertexAccessor × VertexAccessor))
    (root : VertexAccessor) (m0 other : VertexEdgeMapT) (a : Nat)
    (all : List (EdgeAccessor × VertexAccessor × VertexAccessor)) : FrontierResult → Prop
  | .next m1 nxt => FoldInv cand root m0 other a all m1 nxt
  | .meet m1 v => Contains m0 v = false ∧ Contains other v = true ∧ a + 2 ≤ m1.length ∧
      ∃ l, Chain m1 v l ∧ BackWalk cand root v l ∧ l.length ≤ a + 1
  | .raised _ => False

/-- The vertices a search from `root` can ever visit: the root and the endpoints
of the edges of the storage. -/
def searchUniverse (g : Graph) (root : VertexAccessor) : List VertexAccessor :=
  root :: g.edges.flatMap (fun e => [e.From, e.To])

/-- Invariant of the loop of `FindPath` at the head of round `a` (counted from 0),
without a filter lambda: `current_length` is `2 * a`, both sides have established
`a` levels, and no vertex has been visited from both sides. -/
structure LoopInv (g : Graph) (direction : Direction) (edge_types : List Nat)
    (s t : VertexAccessor) (st : FindPathState) (a : Nat) : Prop where
  length : st.current_length = 2 * a
  source : SideInv (sourceCandidates g direction edge_types) s st.in_edge st.source_frontier a
  sink : SideInv (sinkCandidates g direction edge_types) t st.out_edge st.sink_frontier a
  disjoint : ∀ v, Contains st.in_edge v = true → Contains st.out_edge v = false

/-- What `FindPath` returns, without a filter lambda and without cancellation: a
returned path is a walk from the source to the sink that is no longer than the
upper bound and no longer than any other such walk; nothing is raised and the
fuel is not used up. -/
def FindPathPost (g : Graph) (direction : Direction) (edge_types : List Nat)
    (s t : VertexAccessor) (upper_bound : Int) : FindPathResult → Prop
  | .found p => IsWalk g direction edge_types s p t ∧ p.length ≤ toUInt64 upper_bound ∧
      ∀ q, IsWalk g direction edge_types s q t → p.length ≤ q.length
  | .not_found => True
  | .raised _ => False
  | .out_of_fuel => False

/-- The frame after the input cursor has produced the given tuples in turn. -/
def applyInputs {D : Type} (ts : List (Frame D → Frame D)) (frame : Frame D) : Frame D :=
  ts.foldl (fun f t => t f) frame

/-! ### Levels of the single-source search -/

/-- The run of the loop of `SingleSourceShortestPathCursor::Pull` from a state,
iteration by iteration, up to the state in which nothing is left to visit and the
input still to come is `rest`, so that the next iteration pulls from `rest`: the
values left under the node symbol by the iterations that return true. -/
inductive BodyTrace {D : Type} (self : ExpandVariable D) (g : Graph)
    (context : ExecutionContext) (rest : List (Frame D → Frame D)) :
    SingleSourceShortestPathCursor D × Frame D → List (TypedValue D) → Prop where
  | done (s : SingleSourceShortestPathCursor D × Frame D) :
      s.1.to_visit_current_ = [] → s.1.to_visit_next_ = [] → s.1.input_cursor = rest →
      BodyTrace self g context rest s []
  | step (s s1 : SingleSourceShortestPathCursor D × Frame D) (l : List (TypedValue D)) :
      SingleSourceBody self g context s.1 s.2 = .continue_ s1 →
      BodyTrace self g context rest s1 l → BodyTrace self g context rest s l
  | emit (s s1 : SingleSourceShortestPathCursor D × Frame D) (l : List (TypedValue D)) :
      SingleSourceBody self g context s.1 s.2 = .return_ true s1 →
      BodyTrace self g context rest s1 l →
      BodyTrace self g context rest s (s1.2 self.node_symbol :: l)

/-- What the single-source search has established when it starts on level `k`
(without a filter lambda): `m` is `processed_` and `frontier` the vertices queued
for this level. Every processed vertex has a recorded chain of at most `k` edges
that is a walk of the search, every vertex within `k` steps of the root is
processed, the processed set is closed under the candidates of the vertices
outside the frontier, the frontier vertices are exactly `k` steps away and every
other processed vertex is nearer. -/
structure LevelStart (cand : VertexAccessor → List (EdgeAccessor × VertexAccessor × VertexAccessor))
    (root : VertexAccessor) (m : VertexEdgeMapT) (frontier : List VertexAccessor) (k : Nat) :
    Prop where
  chain : ∀ v, Contains m v = true → ∃ l, Chain m v l ∧ BackWalk cand root v l ∧ l.length ≤ k
  front : ∀ v ∈ frontier, Contains m v = true
  complete : ∀ v l, BackWalk cand root v l → l.length ≤ k → Contains m v = true
  closed : ∀ u, Contains m u = true → u ∉ frontier → ∀ c ∈ cand u, Contains m c.2.1 = true
  size : frontier ≠ [] → k + 1 ≤ m.length
  nodup : (m.map Prod.fst).Nodup
  far : ∀ v ∈ frontier, ∀ l, BackWalk cand root v l → k ≤ l.length
  settled : ∀ v, Contains m v = true →
    v ∈ frontier ∨ ∃ l, BackWalk cand root v l ∧ l.length < k
  distinct : frontier.Nodup

/-- What holds of `processed_` and `to_visit_next_` while level `k` is being
visited: `m0` is `processed_` at the start of the level and `seen` the candidates
examined so far. -/
structure NextInv (cand : VertexAccessor → List (EdgeAccessor × VertexAccessor × VertexAccessor))
    (root : VertexAccessor) (m0 : VertexEdgeMapT) (k : Nat)
    (seen : List (EdgeAccessor × VertexAccessor × VertexAccessor)) (processed : VertexEdgeMapT)
    (next : List (EdgeAccessor × VertexAccessor)) : Prop where
  fold : FoldInv cand root m0 [] k seen processed (next.map Prod.snd).reverse
  keys_eq : processed.map Prod.fst = next.map Prod.snd ++ m0.map Prod.fst
  recorded : ∀ x ∈ next, processed.lookup x.2 = some (some x.1)

/-! ### Costs of walks and the invariant of the weighted search -/

/-- The weights `w e v` of the edges `e` of the walk `p` from `u`, each taken with
the vertex `v` it leads to, added one after the other to `acc`, as the cursor
accumulates them. -/
def walkCostFrom {D : Type} [WeightCarrier D] (g : Graph) (direction : Direction)
    (edge_types : List Nat) (w : EdgeAccessor → VertexAccessor → D) :
    D → VertexAccessor → List EdgeAccessor → D
  | acc, _, [] => acc
  | acc, u, e :: p =>
    match stepTo g direction edge_types u e with
    | some v => walkCostFrom g direction edge_types w (acc + w e v) v p
    | none => acc

/-- The cost of the walk `p` from `u`: the sum of the weights of its edges,
accumulated from zero in the order of the walk. -/
def walkCost {D : Type} [WeightCarrier D] (g : Graph) (direction : Direction)
    (edge_types : List Nat) (w : EdgeAccessor → VertexAccessor → D) (u : VertexAccessor)
    (p : List EdgeAccessor) : D :=
  walkCostFrom g direction edge_types w 0 u p

/-- The setting of the claim about the weighted cursor: no filter lambda, no upper
bound, a weight lambda that yields for every edge `e` and vertex `v` the
non-negative number `w e v`, and an input symbol that none of the assignments of
the cursor overwrites. -/
structure PlainWeighted {D : Type} [WeightCarrier D] (self : ExpandVariable D)
    (wl : ExpansionLambda D) (expression : Expression D) (total_weight : Symbol)
    (w : EdgeAccessor → VertexAccessor → D) : Prop where
  no_filter : self.filter_lambda.expression = none
  no_upper : self.upper_bound = none
  has_weight : self.weight_lambda = some wl
  has_expression : wl.expression = some expression
  has_total : self.total_weight = some total_weight
  weight_of : ∀ (frame : Frame D) (e : EdgeAccessor) (v : VertexAccessor),
    checkedWeight (expression ((frame.set wl.inner_edge_symbol (.Edge e)).set
      wl.inner_node_symbol (.Vertex v))) = .ok (w e v)
  input_sym : self.input_symbol ≠ wl.inner_edge_symbol ∧
    self.input_symbol ≠ wl.inner_node_symbol ∧ self.input_symbol ≠ self.node_symbol ∧
    self.input_symbol ≠ self.edge_symbol ∧ self.input_symbol ≠ total_weight
  node_sym : self.node_symbol ≠ wl.inner_edge_symbol ∧
    self.node_symbol ≠ wl.inner_node_symbol ∧ self.node_symbol ≠ self.edge_symbol ∧
    self.node_symbol ≠ total_weight

/-- Invariant of the weighted search from the source `s`, without an upper bound:
every settled vertex carries the least cost of a walk from `s`, every queued
entry carries the cost of some walk from `s` to its vertex, the source is settled
or queued with cost at most zero, and every candidate of a settled vertex is
settled or queued with at most the cost through that vertex. -/
structure WeightedInv {D : Type} [WeightCarrier D] (g : Graph) (direction : Direction)
    (edge_types : List Nat) (w : EdgeAccessor → VertexAccessor → D) (s : VertexAccessor)
    (cur : ExpandWeightedShortestPathCursor D) : Prop where
  unbounded : cur.upper_bound_set_ = false ∧ cur.upper_bound_ = INT64_MAX
  settled_walk : ∀ v c, cur.total_cost_.lookup (v, 0) = some c →
    (∃ p, IsWalk g direction edge_types s p v ∧ walkCost g direction edge_types w s p = c) ∧
    ∀ q, IsWalk g direction edge_types s q v → c ≤ walkCost g direction edge_types w s q
  queued_walk : ∀ x ∈ cur.pq_, ∃ p, IsWalk g direction edge_types s p x.vertex ∧
    walkCost g direction edge_types w s p = x.weight
  source : (cur.total_cost_.lookup (s, 0)).isSome = true ∨
    ∃ x ∈ cur.pq_, x.vertex = s ∧ x.weight ≤ 0
  relaxed : ∀ u c, cur.total_cost_.lookup (u, 0) = some c →
    ∀ e v, stepTo g direction edge_types u e = some v →
      (cur.total_cost_.lookup (v, 0)).isSome = true ∨
      ∃ x ∈ cur.pq_, x.vertex = v ∧ x.weight ≤ c + w e v
  depth_le : ∀ x ∈ cur.pq_, 0 ≤ x.depth ∧ x.depth ≤ cur.total_cost_.length
  keys : ∀ k ∈ cur.total_cost_.map Prod.fst, k.2 = 0 ∧ k.1 ∈ searchUniverse g s
  keys_nodup : (cur.total_cost_.map Prod.fst).Nodup

/-- What holds between the iterations of the loop of the weighted cursor: the
queue is empty, or the frame holds the source of the search under the input
symbol and the invariant of the search holds. -/
def WeightedOk {D : Type} [WeightCarrier D] (self : ExpandVariable D) (g : Graph)
    (w : EdgeAccessor → VertexAccessor → D)
    (s : ExpandWeightedShortestPathCursor D × Frame D) : Prop :=
  s.1.pq_ = [] ∨
  ∃ src, s.2 self.input_symbol = .Vertex src ∧
    WeightedInv g self.direction self.edge_types w src s.1

/-- The tuple on the frame carries the least cost: the frame holds the source
under the input symbol, a vertex under the node symbol and, under the symbol of
the total weight, the cost of a walk from the source to that vertex that repeats
no edge and that no walk from the source to that vertex undercuts. -/
def LeastCostTuple {D : Type} [WeightCarrier D] (self : ExpandVariable D) (g : Graph)
    (total_weight : Symbol) (w : EdgeAccessor → VertexAccessor → D) (frame : Frame D) : Prop :=
  ∃ (src v : VertexAccessor) (c : D),
    frame self.input_symbol = .Vertex src ∧ frame self.node_symbol = .Vertex v ∧
    frame total_weight = .Double c ∧
    (∃ p, IsWalk g self.direction self.edge_types src p v ∧ p.Nodup ∧
      walkCost g self.direction self.edge_types w src p = c) ∧
    ∀ q, IsWalk g self.direction self.edge_types src q v →
      c ≤ walkCost g self.direction self.edge_types w src q

/-- What an iteration of the loop of the weighted cursor leaves behind in the
plain setting: the invariant between iterations, and a tuple of least cost when
the iteration yields. -/
def WeightedStepPost {D : Type} [WeightCarrier D] (self : ExpandVariable D) (g : Graph)
    (total_weight : Symbol) (w : EdgeAccessor → VertexAccessor → D) :
    ExpandStep (ExpandWeightedShortestPathCursor D × Frame D) → Prop
  | .continue_ s1 => WeightedOk self g w s1
  | .return_ b s1 => WeightedOk self g w s1 ∧
      (b = true → LeastCostTuple self g total_weight w s1.2)
  | .throw_ _ => True

/-- A value of the weight lambda that `expand_pair` rejects: a value that is not
an integer or a double, or a number below zero. -/
def BadWeight {D : Type} [WeightCarrier D] : TypedValue D → Prop
  | .Int i => i < 0
  | .Double d => d < 0
  | _ => True

/-- The loop of `ExpandWeightedShortestPathCursor::Pull` gets from the first
state to the second by `n` iterations that neither return nor raise. -/
inductive WeightedContinues {D : Type} [WeightCarrier D] (self : ExpandVariable D)
    (g : Graph) (context : ExecutionContext) :
    Nat → ExpandWeightedShortestPathCursor D × Frame D →
      ExpandWeightedShortestPathCursor D × Frame D → Prop where
  | refl (s : ExpandWeightedShortestPathCursor D × Frame D) :
      WeightedContinues self g context 0 s s
  | step (n : Nat) (s s1 s2 : ExpandWeightedShortestPathCursor D × Frame D) :
      WeightedBody self g context s.1 s.2 = .continue_ s1 →
      WeightedContinues self g context n s1 s2 →
      WeightedContinues self g context (n + 1) s s2

/-- The states of the weighted cursor met by a client that makes the cursor and
then calls `Pull` any number of times. -/
inductive WeightedReachable {D : Type} [WeightCarrier D] (self : ExpandVariable D)
    (g : Graph) (context : ExecutionContext) :
    ExpandWeightedShortestPathCursor D × Frame D → Prop where
  | fresh (input : List (Frame D → Frame D)) (frame : Frame D) :
      WeightedReachable self g context (ExpandWeightedShortestPathCursor.init input, frame)
  | pull (fuel : Nat) (s s1 : ExpandWeightedShortestPathCursor D × Frame D) (b : Bool) :
      WeightedReachable self g context s →
      ExpandWeightedShortestPathCursor.Pull self g context fuel s.1 s.2 = .ok b s1 →
      WeightedReachable self g context s1

/-! ### The input of a cursor and the log of successive pulls -/

/-- The frames the input of a cursor yields, one per tuple: each input pull applies
the next element of the input to the frame as the pull before it left it. -/
def inputFrames {D : Type} : List (Frame D → Frame D) → Frame D → List (Frame D)
  | [], _ => []
  | t :: rest, frame => t frame :: inputFrames rest (t frame)

/-- What a call of `Pull` looks like from the outside: it returned true with a
frame, it returned false, it raised, or the model ran out of fuel. -/
inductive Outcome (D : Type) where
  | row (frame : Frame D)
  | done
  | raised (e : Exception)
  | out_of_fuel

/-- The outcomes of `k` successive calls of `pull` together with the state they
leave behind. The caller hands the frame of one call unchanged to the next call
and makes no further call after an exception. -/
def pullRun {σ D : Type} (pull : σ → Frame D → PullResult (σ × Frame D)) :
    Nat → σ → Frame D → List (Outcome D) × σ × Frame D
  | 0, s, frame => ([], s, frame)
  | k + 1, s, frame =>
    match pull s frame with
    | .ok true (s1, frame1) =>
      let r := pullRun pull k s1 frame1
      (.row frame1 :: r.1, r.2)
    | .ok false (s1, frame1) =>
      let r := pullRun pull k s1 frame1
      (.done :: r.1, r.2)
    | .raised e => ([.raised e], s, frame)
    | .out_of_fuel => ([.out_of_fuel], s, frame)

/-- The outcomes of `k` successive calls of `pull`. -/
def pullLog {σ D : Type} (pull : σ → Frame D → PullResult (σ × Frame D)) (k : Nat) (s : σ)
    (frame : Frame D) : List (Outcome D) :=
  (pullRun pull k s frame).1

/-- The log of a cursor that emits the given frames and returns false from then
on, cut after `k` calls. -/
def rowsThenDone {D : Type} (rows : List (Frame D)) (k : Nat) : List (Outcome D) :=
  (rows.map Outcome.row ++ List.replicate k Outcome.done).take k

/-! ### `Filter`, `Skip` and `Limit` -/

/-- The `Filter` logical operator. -/
structure Filter (D : Type) where
  expression : Expression D

/-- State of `FilterCursor`: the input still to come. -/
structure FilterCursor (D : Type) where
  input_cursor : List (Frame D → Frame D)

/-- A freshly made cursor over the given input. -/
def FilterCursor.init {D : Type} (input : List (Frame D → Frame D)) : FilterCursor D :=
  { input_cursor := input }

/-- The loop of `FilterCursor::Pull`, recursive in the remaining input. -/
def FilterCursor.PullFrom {D : Type} (self : Filter D) :
    List (Frame D → Frame D) → Frame D → PullResult (FilterCursor D × Frame D)
  | [], frame => .ok false ({ input_cursor := [] }, frame)
  | t :: rest, frame =>
    match EvaluateFilter (t frame) self.expression with
    | .error e => .raised e
    | .ok true => .ok true ({ input_cursor := rest }, t frame)
    | .ok false => FilterCursor.PullFrom self rest (t frame)

/-- `FilterCursor::Pull`. -/
def FilterCursor.Pull {D : Type} (self : Filter D) (cur : FilterCursor D) (frame : Frame D) :
    PullResult (FilterCursor D × Frame D) :=
  FilterCursor.PullFrom self cur.input_cursor frame

/-- The `Skip` logical operator. -/
structure Skip (D : Type) where
  expression : Expression D

/-- State of `SkipCursor`. -/
structure SkipCursor (D : Type) where
  input_cursor : List (Frame D → Frame D)
  to_skip_ : Int
  skipped_ : Int

/-- A freshly made cursor over the given input. -/
def SkipCursor.init {D : Type} (input : List (Frame D → Frame D)) : SkipCursor D :=
  { input_cursor := input, to_skip_ := -1, skipped_ := 0 }

/-- The evaluation of the count of `Skip` and of `Limit`: the expression must
yield an integer, and the integer must not be negative. -/
def evaluateCount {D : Type} (expression : Expression D) (frame : Frame D) :
    Except Exception Int :=
  match expression frame with
  | .Int count => if count < 0 then .error .QueryRuntimeException else .ok count
  | _ => .error .QueryRuntimeException

/-- The loop of `SkipCursor::Pull`, recursive in the remaining input. -/
def SkipCursor.PullFrom {D : Type} (self : Skip D) :
    List (Frame D → Frame D) → SkipCursor D → Frame D → PullResult (SkipCursor D × Frame D)
  | [], cur, frame => .ok false ({ cur with input_cursor := [] }, frame)
  | t :: rest, cur, frame =>
    let to_skip : Except Exception Int :=
      if cur.to_skip_ = -1 then evaluateCount self.expression (t frame) else .ok cur.to_skip_
    match to_skip with
    | .error e => .raised e
    | .ok to_skip_ =>
      if cur.skipped_ < to_skip_ then
        SkipCursor.PullFrom self rest
          { input_cursor := rest, to_skip_ := to_skip_, skipped_ := cur.skipped_ + 1 } (t frame)
      else
        .ok true ({ input_cursor := rest, to_skip_ := to_skip_, skipped_ := cur.skipped_ + 1 },
          t frame)

/-- `SkipCursor::Pull`. -/
def SkipCursor.Pull {D : Type} (self : Skip D) (cur : SkipCursor D) (frame : Frame D) :
    PullResult (SkipCursor D × Frame D) :=
  SkipCursor.PullFrom self cur.input_cursor cur frame

/-- The `Limit` logical operator. -/
structure Limit (D : Type) where
  expression : Expression D

/-- An input cursor that counts the calls of its `Pull`. -/
structure CountedCursor (D : Type) where
  input_cursor : List (Frame D → Frame D)
  pulls : Nat

/-- `Pull` of the counted input: the next tuple if there is one. -/
def CountedCursor.Pull {D : Type} (cur : CountedCursor D) (frame : Frame D) :
    PullResult (CountedCursor D × Frame D) :=
  match cur.input_cursor with
  | [] => .ok false ({ cur with pulls := cur.pulls + 1 }, frame)
  | t :: rest => .ok true ({ input_cursor := rest, pulls := cur.pulls + 1 }, t frame)

/-- State of `LimitCursor`, over an input that counts its pulls. -/
structure LimitCursor (D : Type) where
  input_cursor : CountedCursor D
  limit_ : Int
  pulled_ : Int

/-- A freshly made cursor over the given input. -/
def LimitCursor.init {D : Type} (input : List (Frame D → Frame D)) : LimitCursor D :=
  { input_cursor := { input_cursor := input, pulls := 0 }, limit_ := -1, pulled_ := 0 }

/-- `LimitCursor::Pull`. -/
def LimitCursor.Pull {D : Type} (self : Limit D) (cur : LimitCursor D) (frame : Frame D) :
    PullResult (LimitCursor D × Frame D) :=
  let limit : Except Exception Int :=
    if cur.limit_ = -1 then evaluateCount self.expression frame else .ok cur.limit_
  match limit with
  | .error e => .raised e
  | .ok limit_ =>
    if cur.pulled_ ≥ limit_ then
      .ok false ({ cur with limit_ := limit_, pulled_ := cur.pulled_ + 1 }, frame)
    else
      match CountedCursor.Pull cur.input_cursor frame with
      | .ok b (input1, frame1) =>
        .ok b ({ input_cursor := input1, limit_ := limit_, pulled_ := cur.pulled_ + 1 }, frame1)
      | .raised e => .raised e
      | .out_of_fuel => .out_of_fuel

/-- Whether a value is the boolean true. -/
def isTrue {D : Type} (value : TypedValue D) : Bool :=
  match value with
  | .Bool true => true
  | _ => false

/-- Whether a value is a boolean or null. -/
def isBoolOrNull {D : Type} (value : TypedValue D) : Bool :=
  match value with
  | .Null => true
  | .Bool _ => true
  | _ => false

/-! ### Groups of the aggregation -/

/-- Whether a value is null. -/
def isNull {D : Type} (value : TypedValue D) : Bool :=
  match value with
  | .Null => true
  | _ => false

/-- Whether a value is numeric: an integer or a double. -/
def isNumeric {D : Type} (value : TypedValue D) : Bool :=
  match value with
  | .Int _ => true
  | .Double _ => true
  | _ => false

/-- Whether a value is a character string. -/
def isString {D : Type} (value : TypedValue D) : Bool :=
  match value with
  | .String _ => true
  | _ => false

/-- The vector of group-by values of a tuple, as `ProcessOne` computes it. -/
def groupKey {D : Type} (self : Aggregate D) (frame : Frame D) : List (TypedValue D) :=
  self.group_by.map (fun expression => expression frame)

/-- A property of an aggregation, its count and its value holds at every position
of the three vectors, which have the same length. -/
inductive AllThree {D : Type} (P : AggregateElement D → Int → TypedValue D → Prop) :
    List (AggregateElement D) → List Int → List (TypedValue D) → Prop where
  | nil : AllThree P [] [] []
  | cons {e : AggregateElement D} {c : Int} {v : TypedValue D} {es : List (AggregateElement D)}
      {cs : List Int} {vs : List (TypedValue D)} :
      P e c v → AllThree P es cs vs → AllThree P (e :: es) (c :: cs) (v :: vs)

/-- The property holds in every group of the cache. -/
def GroupsInv {D : Type} (P : AggregateElement D → Int → TypedValue D → Prop)
    (self : Aggregate D) (aggregation : List (List (TypedValue D) × AggregationValue D)) : Prop :=
  ∀ g ∈ aggregation, AllThree P self.aggregations g.2.counts_ g.2.values_

/-- The frame after `Pull` has placed the values of a group on it. -/
def placeGroup {D : Type} (self : Aggregate D) (frame : Frame D) (agg_value : AggregationValue D) :
    Frame D :=
  placeValues (placeValues frame (self.aggregations.map (fun e => e.output_sym)) agg_value.values_)
    self.remember agg_value.remember_

/-- The cursor after `ProcessAll` has filled the cache, with the iterator at the
given position. -/
def AggregateCursor.filled {D : Type}
    (aggregation : List (List (TypedValue D) × AggregationValue D)) (pos : Nat) :
    AggregateCursor D :=
  { input_cursor := [], aggregation_ := aggregation, aggregation_it_ := pos,
    pulled_all_input_ := true }

/-- What the count and the value of a `COUNT` aggregation are after the given
tuples were aggregated into its group: the number of the tuples when it has no
value expression, the number of the tuples on which the value expression is not
null when it has one. -/
def CountInv {D : Type} (tuples : List (Frame D)) (e : AggregateElement D) (c : Int)
    (v : TypedValue D) : Prop :=
  e.op = AggregationOp.COUNT →
    (e.value = none → c = (tuples.length : Int)) ∧
    (∀ expr, e.value = some expr →
      c = ((tuples.filter (fun f => !isNull (expr f))).length : Int)) ∧
    v = .Int c

/-- Whether a value is a boolean. -/
def isBool {D : Type} (value : TypedValue D) : Bool :=
  match value with
  | .Bool _ => true
  | _ => false

/-- The values `EnsureOkForMinMax` lets pass: booleans, numbers and character
strings. -/
def isOkForMinMax {D : Type} (value : TypedValue D) : Bool :=
  isBool value || isNumeric value || isString value

/-- What `typed_value.hpp` documents of a comparison operator: it returns true,
false or null, or it throws `TypedValueException`. -/
def Comparison {D : Type}
    (compare : TypedValue D → TypedValue D → Except Exception (TypedValue D)) : Prop :=
  ∀ a b, (∃ r, compare a b = .ok (.Bool r)) ∨ compare a b = .ok .Null ∨
    compare a b = .error .TypedValueException

/-- What the count and the value of a `MIN` or `MAX` aggregation with a value
expression are while all its non-null inputs are of the kind `T`: the count is not
negative, and the value is of that kind once the count is positive. -/
def KindInv {D : Type} (T : TypedValue D → Bool) (e : AggregateElement D) (c : Int)
    (v : TypedValue D) : Prop :=
  0 ≤ c ∧ (e.value ≠ none → 0 < c → T v = true)

/-- The part of an expansion operator that `Expand` keeps in `common_`. -/
structure ExpandCommon where
  node_symbol : Symbol
  edge_symbol : Symbol
  direction : Direction
  edge_types : List Nat
  existing_node : Bool

/-- The `Expand` logical operator of `operator.cpp` (in this development the name
`Expand` is the member function of the variable expansion). -/
structure ExpandOperator where
  input_symbol : Symbol
  common_ : ExpandCommon

/-- Modelled from the spec: `EdgeAccessor::IsCycle` of the accessor layer, which
holds of an edge from a vertex to itself. -/
def EdgeAccessor.IsCycle (edge : EdgeAccessor) : Bool := decide (edge.From = edge.To)

/-- Modelled from the spec: `VertexAccessor::InEdges(view, edge_types, destination)`
of the storage layer with a given other endpoint, the edges entering the vertex
that leave `existing_node`. -/
def InEdgesFrom (g : Graph) (vertex : VertexAccessor) (edge_types : List Nat)
    (existing_node : VertexAccessor) : List EdgeAccessor :=
  (InEdges g vertex edge_types).filter (fun e => decide (e.From = existing_node))

/-- Modelled from the spec: `VertexAccessor::OutEdges(view, edge_types, destination)`
of the storage layer with a given other endpoint, the edges leaving the vertex
that enter `existing_node`. -/
def OutEdgesTo (g : Graph) (vertex : VertexAccessor) (edge_types : List Nat)
    (existing_node : VertexAccessor) : List EdgeAccessor :=
  (OutEdges g vertex edge_types).filter (fun e => decide (e.To = existing_node))

/-- State of `ExpandCursor`. An iterator is held as the list of the edges it has
not consumed yet. -/
structure ExpandCursor (D : Type) where
  input_cursor : List (Frame D → Frame D)
  in_edges_ : Option (List EdgeAccessor)
  in_edges_it_ : Option (List EdgeAccessor)
  out_edges_ : Option (List EdgeAccessor)
  out_edges_it_ : Option (List EdgeAccessor)

/-- A freshly made cursor over the given input. -/
def ExpandCursor.init {D : Type} (input : List (Frame D → Frame D)) : ExpandCursor D :=
  { input_cursor := input, in_edges_ := none, in_edges_it_ := none, out_edges_ := none,
    out_edges_it_ := none }

/-- The helper `pull_node` of `ExpandCursor::Pull`. -/
def pull_node {D : Type} (self : ExpandOperator) (frame : Frame D) (new_edge : EdgeAccessor)
    (direction : Direction) : Frame D :=
  if self.common_.existing_node then frame
  else
    match direction with
    | .IN => frame.set self.common_.node_symbol (.Vertex new_edge.From)
    | .OUT => frame.set self.common_.node_symbol (.Vertex new_edge.To)
    | .BOTH => frame

/-- One of the two blocks of `InitEdges`, for the edges of one direction: the
edges are emplaced unless the node exists and is null on the frame (then the
optional keeps what it held), and the iterator is set to the begin of the edges
when the optional holds edges. `all` are the edges without a given other endpoint
and `towards` those with one. -/
def initSide {D : Type} (self : ExpandOperator) (frame : Frame D)
    (edges_ edges_it_ : Option (List EdgeAccessor)) (all : List EdgeAccessor)
    (towards : VertexAccessor → List EdgeAccessor) :
    Except Exception (Option (List EdgeAccessor) × Option (List EdgeAccessor)) :=
  let emplaced : Except Exception (Option (List EdgeAccessor)) :=
    if self.common_.existing_node then
      match frame self.common_.node_symbol with
      | .Null => .ok edges_
      | .Vertex existing_node => .ok (some (towards existing_node))
      | _ => .error .QueryRuntimeException
    else .ok (some all)
  match emplaced with
  | .error e => .error e
  | .ok none => .ok (none, edges_it_)
  | .ok (some edges) => .ok (some edges, some edges)

/-- `ExpandCursor::InitEdges`. The loop skips null input vertices; it is recursive
in the remaining input. -/
def ExpandCursor.InitEdges {D : Type} (self : ExpandOperator) (g : Graph) :
    List (Frame D → Frame D) → ExpandCursor D → Frame D →
      Except Exception (Bool × ExpandCursor D × Frame D)
  | [], cur, frame => .ok (false, { cur with input_cursor := [] }, frame)
  | t :: rest, cur, frame =>
    let frame1 := t frame
    match frame1 self.input_symbol with
    | .Null => ExpandCursor.InitEdges self g rest cur frame1
    | .Vertex vertex =>
      let direction := self.common_.direction
      let in_side :=
        if direction = Direction.IN ∨ direction = Direction.BOTH then
          initSide self frame1 cur.in_edges_ cur.in_edges_it_
            (InEdges g vertex self.common_.edge_types)
            (InEdgesFrom g vertex self.common_.edge_types)
        else .ok (cur.in_edges_, cur.in_edges_it_)
      match in_side with
      | .error e => .error e
      | .ok (in_edges_, in_edges_it_) =>
        let out_side :=
          if direction = Direction.OUT ∨ direction = Direction.BOTH then
            initSide self frame1 cur.out_edges_ cur.out_edges_it_
              (OutEdges g vertex self.common_.edge_types)
              (OutEdgesTo g vertex self.common_.edge_types)
          else .ok (cur.out_edges_, cur.out_edges_it_)
        match out_side with
        | .error e => .error e
        | .ok (out_edges_, out_edges_it_) =>
          .ok (true, { input_cursor := rest, in_edges_ := in_edges_,
                       in_edges_it_ := in_edges_it_, out_edges_ := out_edges_,
                       out_edges_it_ := out_edges_it_ }, frame1)
    | _ => .error .QueryRuntimeException

/-- The edges an iterator of the cursor has yet to yield: those of the iterator
when the edges are initialized, none otherwise. -/
def pendingEdges (edges_ edges_it_ : Option (List EdgeAccessor)) : List EdgeAccessor :=
  match edges_, edges_it_ with
  | some _, some remaining => remaining
  | _, _ => []

/-- One iteration of the `while (true)` loop of `ExpandCursor::Pull`. -/
def ExpandCursor.Body {D : Type} (self : ExpandOperator) (g : Graph)
    (context : ExecutionContext) (cur : ExpandCursor D) (frame : Frame D) :
    ExpandStep (ExpandCursor D × Frame D) :=
  if MustAbort context then .throw_ .HintedAbortError
  else
    match pendingEdges cur.in_edges_ cur.in_edges_it_ with
    | edge :: remaining =>
      .return_ true ({ cur with in_edges_it_ := some remaining },
        pull_node self (frame.set self.common_.edge_symbol (.Edge edge)) edge .IN)
    | [] =>
      match pendingEdges cur.out_edges_ cur.out_edges_it_ with
      | edge :: remaining =>
        if self.common_.direction = Direction.BOTH ∧ edge.IsCycle = true then
          .continue_ ({ cur with out_edges_it_ := some remaining }, frame)
        else
          .return_ true ({ cur with out_edges_it_ := some remaining },
            pull_node self (frame.set self.common_.edge_symbol (.Edge edge)) edge .OUT)
      | [] =>
        match ExpandCursor.InitEdges self g cur.input_cursor cur frame with
        | .ok (true, s) => .continue_ s
        | .ok (false, s) => .return_ false s
        | .error e => .throw_ e

/-- `ExpandCursor::Pull`, recursive in the fuel. -/
def ExpandCursor.Pull {D : Type} (self : ExpandOperator) (g : Graph)
    (context : ExecutionContext) : Nat → ExpandCursor D → Frame D →
      PullResult (ExpandCursor D × Frame D)
  | 0, _, _ => .out_of_fuel
  | fuel + 1, cur, frame =>
    match ExpandCursor.Body self g context cur frame with
    | .continue_ s => ExpandCursor.Pull self g context fuel s.1 s.2
    | .return_ b s => .ok b s
    | .throw_ e => .raised e

/-- The expansions of a vertex in both directions, as pairs of an edge and the
vertex at its other end: one per in-edge, followed by one per out-edge that is not
a self-loop. -/
def expansionOf (self : ExpandOperator) (g : Graph) (vertex : VertexAccessor) :
    List (EdgeAccessor × VertexAccessor) :=
  (InEdges g vertex self.common_.edge_types).map (fun e => (e, e.From)) ++
    ((OutEdges g vertex self.common_.edge_types).filter (fun e => !e.IsCycle)).map
      (fun e => (e, e.To))

/-- The frames of the rows for the given expansions, emitted one after another:
each row binds the edge symbol and the node symbol on the frame of the row before
it. -/
def expandRowsFor {D : Type} (self : ExpandOperator) (frame : Frame D) :
    List (EdgeAccessor × VertexAccessor) → List (Frame D)
  | [] => []
  | (e, n) :: rest =>
    ((frame.set self.common_.edge_symbol (.Edge e)).set self.common_.node_symbol (.Vertex n)) ::
      expandRowsFor self
        ((frame.set self.common_.edge_symbol (.Edge e)).set self.common_.node_symbol (.Vertex n))
        rest

/-- The frames of the rows of an expansion in both directions over the given
input: for each input tuple with a source vertex the rows of its expansions, where
the next input tuple is applied to the frame of the last row. -/
def expandRows {D : Type} (self : ExpandOperator) (g : Graph) :
    List (Frame D → Frame D) → Frame D → List (Frame D)
  | [], _ => []
  | t :: rest, frame =>
    match t frame self.input_symbol with
    | .Vertex vertex =>
      expandRowsFor self (t frame) (expansionOf self g vertex) ++
        expandRows self g rest
          ((expandRowsFor self (t frame) (expansionOf self g vertex)).getLastD (t frame))
    | _ => expandRows self g rest (t frame)

/-- The expansions a cursor has yet to emit for the vertex it works on. -/
def pendingPairs {D : Type} (cur : ExpandCursor D) : List (EdgeAccessor × VertexAccessor) :=
  (pendingEdges cur.in_edges_ cur.in_edges_it_).map (fun e => (e, e.From)) ++
    ((pendingEdges cur.out_edges_ cur.out_edges_it_).filter (fun e => !e.IsCycle)).map
      (fun e => (e, e.To))

/-- The frames of the rows a cursor has yet to emit. -/
def restRows {D : Type} (self : ExpandOperator) (g : Graph) (cur : ExpandCursor D)
    (frame : Frame D) : List (Frame D) :=
  expandRowsFor self frame (pendingPairs cur) ++
    expandRows self g cur.input_cursor
      ((expandRowsFor self frame (pendingPairs cur)).getLastD frame)

/-- Whether a value is a vertex or null. -/
def isVertexOrNull {D : Type} (value : TypedValue D) : Bool :=
  match value with
  | .Null => true
  | .Vertex _ => true
  | _ => false
/-- The bound on the iterations of the loop of `ExpandCursor::Pull`: the out-edges
still to be looked at, and for every input tuple still to come one call of
`InitEdges` and the out-edges of its vertex. -/
def expandMeasure {D : Type} (g : Graph) (cur : ExpandCursor D) : Nat :=
  (pendingEdges cur.out_edges_ cur.out_edges_it_).length +
    cur.input_cursor.length * (g.edges.length + 1)

/-! ### `EdgeUniquenessFilter` -/

/-- The `EdgeUniquenessFilter` logical operator. -/
structure EdgeUniquenessFilter where
  expand_symbol : Symbol
  previous_symbols : List Symbol

/-- State of `EdgeUniquenessFilterCursor`: the input still to come. -/
structure EdgeUniquenessFilterCursor (D : Type) where
  input_cursor : List (Frame D → Frame D)

/-- A freshly made cursor over the given input. -/
def EdgeUniquenessFilterCursor.init {D : Type} (input : List (Frame D → Frame D)) :
    EdgeUniquenessFilterCursor D :=
  { input_cursor := input }

mutual
/-- `ContainsSameEdge`: a list on either side is compared element by element with
the other side; two values that are no lists are compared as edges, where
`ValueEdge` raises `TypedValueException` on a value that is no edge. -/
def ContainsSameEdge {D : Type} (a b : TypedValue D) : Except Exception Bool :=
  match a with
  | .List list => compare_to_list list b
  | a =>
    match b with
    | .List list => compare_to_list list a
    | b =>
      match a, b with
      | .Edge x, .Edge y => .ok (decide (x = y))
      | _, _ => .error .TypedValueException
termination_by (sizeOf a + sizeOf b, 0)
decreasing_by
  all_goals simp_wf
  all_goals (apply Prod.Lex.left; omega)

/-- The lambda `compare_to_list` of `ContainsSameEdge`: true at the first element
of the list that contains an edge of the other value. -/
def compare_to_list {D : Type} (list : List (TypedValue D)) (other : TypedValue D) :
    Except Exception Bool :=
  match list with
  | [] => .ok false
  | list_elem :: rest =>
    match ContainsSameEdge list_elem other with
    | .error e => .error e
    | .ok true => .ok true
    | .ok false => compare_to_list rest other
termination_by (sizeOf list + sizeOf other, 1)
decreasing_by
  all_goals simp_wf
  all_goals (apply Prod.Lex.left; omega)
end

/-- The lambda `expansion_ok` of `EdgeUniquenessFilterCursor::Pull` as a loop over
the previous symbols. -/
def expansion_ok {D : Type} (expand_symbol : Symbol) (frame : Frame D) :
    List Symbol → Except Exception Bool
  | [] => .ok true
  | previous_symbol :: rest =>
    match ContainsSameEdge (frame previous_symbol) (frame expand_symbol) with
    | .error e => .error e
    | .ok true => .ok false
    | .ok false => expansion_ok expand_symbol frame rest

/-- The loop of `EdgeUniquenessFilterCursor::Pull`, recursive in the remaining
input. -/
def EdgeUniquenessFilterCursor.PullFrom {D : Type} (self : EdgeUniquenessFilter) :
    List (Frame D → Frame D) → Frame D → PullResult (EdgeUniquenessFilterCursor D × Frame D)
  | [], frame => .ok false ({ input_cursor := [] }, frame)
  | t :: rest, frame =>
    match expansion_ok self.expand_symbol (t frame) self.previous_symbols with
    | .error e => .raised e
    | .ok true => .ok true ({ input_cursor := rest }, t frame)
    | .ok false => EdgeUniquenessFilterCursor.PullFrom self rest (t frame)

/-- `EdgeUniquenessFilterCursor::Pull`. -/
def EdgeUniquenessFilterCursor.Pull {D : Type} (self : EdgeUniquenessFilter)
    (cur : EdgeUniquenessFilterCursor D) (frame : Frame D) :
    PullResult (EdgeUniquenessFilterCursor D × Frame D) :=
  EdgeUniquenessFilterCursor.PullFrom self cur.input_cursor frame

/-- Whether a value is a single edge or a list of edges. -/
def isEdges {D : Type} (value : TypedValue D) : Bool :=
  match value with
  | .Edge _ => true
  | .List l => l.all (fun tv => match tv with
      | .Edge _ => true
      | _ => false)
  | _ => false

/-- The edges contained in a value: the edge itself, or the edges of a list. -/
def containedEdges {D : Type} (value : TypedValue D) : List EdgeAccessor :=
  match value with
  | .Edge e => [e]
  | other => edgesOf other

/-- Whether a value is a single edge. -/
def isEdge {D : Type} (value : TypedValue D) : Bool :=
  match value with
  | .Edge _ => true
  | _ => false

/-- Whether an edge contained in the value of one of the previous symbols equals an
edge contained in the value of the expand symbol. -/
def sharesEdge {D : Type} (self : EdgeUniquenessFilter) (frame : Frame D) : Bool :=
  self.previous_symbols.any (fun previous_symbol =>
    (containedEdges (frame previous_symbol)).any (fun e =>
      (containedEdges (frame self.expand_symbol)).contains e))

/-! ### `Accumulate` -/

/-- The `Accumulate` logical operator. -/
structure Accumulate where
  symbols_ : List Symbol
  advance_command_ : Bool

/-- State of `AccumulateCursor`, over an input that counts its pulls;
`cache_it_` is a position in `cache_`. -/
structure AccumulateCursor (D : Type) where
  input_cursor : CountedCursor D
  cache_ : List (List (TypedValue D))
  cache_it_ : Nat
  pulled_all_input_ : Bool

/-- A freshly made cursor over the given input. -/
def AccumulateCursor.init {D : Type} (input : List (Frame D → Frame D)) : AccumulateCursor D :=
  { input_cursor := { input_cursor := input, pulls := 0 }, cache_ := [], cache_it_ := 0,
    pulled_all_input_ := false }

/-- The caching loop of `AccumulateCursor::Pull`: while the input yields a tuple,
append the row of the values of the symbols to the cache. The last pull of the
input is the one that returns false. -/
def AccumulateCursor.cacheAll {D : Type} (self : Accumulate) :
    List (Frame D → Frame D) → Nat → List (List (TypedValue D)) → Frame D →
      CountedCursor D × List (List (TypedValue D)) × Frame D
  | [], pulls, cache_, frame => ({ input_cursor := [], pulls := pulls + 1 }, cache_, frame)
  | t :: rest, pulls, cache_, frame =>
    AccumulateCursor.cacheAll self rest (pulls + 1)
      (cache_ ++ [self.symbols_.map (fun symbol => t frame symbol)]) (t frame)

/-- `AccumulateCursor::Pull`. The state holds, next to the cursor, the number of
times the command of the database accessor of the context has been advanced. -/
def AccumulateCursor.Pull {D : Type} (self : Accumulate) (context : ExecutionContext)
    (s : AccumulateCursor D × Nat) (frame : Frame D) :
    PullResult ((AccumulateCursor D × Nat) × Frame D) :=
  let cached : (AccumulateCursor D × Nat) × Frame D :=
    if !s.1.pulled_all_input_ then
      let r := AccumulateCursor.cacheAll self s.1.input_cursor.input_cursor
        s.1.input_cursor.pulls s.1.cache_ frame
      (({ input_cursor := r.1, cache_ := r.2.1, cache_it_ := 0, pulled_all_input_ := true },
        if self.advance_command_ then s.2 + 1 else s.2), r.2.2)
    else (s, frame)
  if MustAbort context then .raised .HintedAbortError
  else
    match cached.1.1.cache_.get? cached.1.1.cache_it_ with
    | none => .ok false cached
    | some row =>
      .ok true (({ cached.1.1 with cache_it_ := cached.1.1.cache_it_ + 1 }, cached.1.2),
        placeValues cached.2 self.symbols_ row)

/-- The frames of the rows that hold the accumulated values of the given frames,
emitted one after another: each row places its values on the frame of the row
before it. -/
def accumulatedRows {D : Type} (symbols : List Symbol) :
    List (Frame D) → Frame D → List (Frame D)
  | [], _ => []
  | f :: rest, frame =>
    placeValues frame symbols (symbols.map (fun symbol => f symbol)) ::
      accumulatedRows symbols rest
        (placeValues frame symbols (symbols.map (fun symbol => f symbol)))

/-! ### `Unwind` -/

/-- The `Unwind` logical operator. -/
structure Unwind (D : Type) where
  input_expression_ : Expression D
  output_symbol_ : Symbol

/-- State of `UnwindCursor`; `input_value_it_` is a position in `input_value_`,
at the end when it is the length of the list. -/
structure UnwindCursor (D : Type) where
  input_cursor : List (Frame D → Frame D)
  input_value_ : List (TypedValue D)
  input_value_it_ : Nat

/-- A freshly made cursor over the given input: no values, the iterator at the
end. -/
def UnwindCursor.init {D : Type} (input : List (Frame D → Frame D)) : UnwindCursor D :=
  { input_cursor := input, input_value_ := [], input_value_it_ := 0 }

/-- The loop of `UnwindCursor::Pull`, recursive in the remaining input: every
`continue` follows a pull of the input. -/
def UnwindCursor.PullFrom {D : Type} (self : Unwind D) (context : ExecutionContext) :
    List (Frame D → Frame D) → List (TypedValue D) → Nat → Frame D →
      PullResult (UnwindCursor D × Frame D)
  | input, input_value_, input_value_it_, frame =>
    if MustAbort context then .raised .HintedAbortError
    else
      match input_value_.get? input_value_it_, input with
      | some value, _ =>
        .ok true ({ input_cursor := input, input_value_ := input_value_,
                    input_value_it_ := input_value_it_ + 1 },
          frame.set self.output_symbol_ value)
      | none, [] =>
        .ok false ({ input_cursor := [], input_value_ := input_value_,
                     input_value_it_ := input_value_it_ }, frame)
      | none, t :: rest =>
        match self.input_expression_ (t frame) with
        | .List [] => UnwindCursor.PullFrom self context rest [] 0 (t frame)
        | .List (value :: values) =>
          .ok true ({ input_cursor := rest, input_value_ := value :: values,
                      input_value_it_ := 1 },
            (t frame).set self.output_symbol_ value)
        | _ => .raised .QueryRuntimeException

/-- `UnwindCursor::Pull`. -/
def UnwindCursor.Pull {D : Type} (self : Unwind D) (context : ExecutionContext)
    (cur : UnwindCursor D) (frame : Frame D) : PullResult (UnwindCursor D × Frame D) :=
  UnwindCursor.PullFrom self context cur.input_cursor cur.input_value_ cur.input_value_it_ frame

/-- Whether a value is a list. -/
def isList {D : Type} (value : TypedValue D) : Bool :=
  match value with
  | .List _ => true
  | _ => false

/-- The frames of the rows for the given values, emitted one after another: each
row binds the output symbol on the frame of the row before it. -/
def unwindRowsFor {D : Type} (output_symbol : Symbol) (frame : Frame D) :
    List (TypedValue D) → List (Frame D)
  | [] => []
  | value :: values =>
    frame.set output_symbol value :: unwindRowsFor output_symbol (frame.set output_symbol value)
      values

/-- The frames of the rows of an `Unwind` over the given input: for each input
tuple in turn the rows of the list the expression yields on it, where the next input
tuple is applied to the frame of the last row; nothing from a tuple on where the
expression yields no list. -/
def unwindRows {D : Type} (self : Unwind D) : List (Frame D → Frame D) → Frame D → List (Frame D)
  | [], _ => []
  | t :: rest, frame =>
    match self.input_expression_ (t frame) with
    | .List l =>
      unwindRowsFor self.output_symbol_ (t frame) l ++
        unwindRows self rest ((unwindRowsFor self.output_symbol_ (t frame) l).getLastD (t frame))
    | _ => []

/-- The lists the expression of an `Unwind` yields on the input tuples in turn,
up to the first tuple on which it yields no list. -/
def unwindLists {D : Type} (self : Unwind D) :
    List (Frame D → Frame D) → Frame D → List (List (TypedValue D))
  | [], _ => []
  | t :: rest, frame =>
    match self.input_expression_ (t frame) with
    | .List l =>
      l :: unwindLists self rest
        ((unwindRowsFor self.output_symbol_ (t frame) l).getLastD (t frame))
    | _ => []

/-! ### `ScanAllCursor` and `ScanAllByLabelPropertyRange` -/

/-- State of `ScanAllCursor`: the input still to come, the vertices of the current
input tuple and, as iterator, the vertices still to emit. -/
structure ScanAllCursor (D : Type) where
  input_cursor : List (Frame D → Frame D)
  vertices_ : Option (List VertexAccessor)
  vertices_it_ : Option (List VertexAccessor)

/-- A freshly made cursor over the given input. -/
def ScanAllCursor.init {D : Type} (input : List (Frame D → Frame D)) : ScanAllCursor D :=
  { input_cursor := input, vertices_ := none, vertices_it_ := none }

/-- The loop of `ScanAllCursor::Pull` and the emission after it, recursive in the
remaining input: while there are no vertices or the iterator is at the end, pull the
input and get the vertices for the tuple, where no vertices (`nullopt`) leaves the
state as it is; then place the vertex under the iterator on the frame and advance
the iterator. -/
def ScanAllCursor.PullFrom {D : Type} (output_symbol : Symbol)
    (get_vertices : Frame D → Except Exception (Option (List VertexAccessor))) :
    List (Frame D → Frame D) → Option (List VertexAccessor) → Option (List VertexAccessor) →
      Frame D → PullResult (ScanAllCursor D × Frame D)
  | input, vertices_, vertices_it_, frame =>
    match vertices_, vertices_it_, input with
    | some vertices, some (vertex :: more), _ =>
      .ok true ({ input_cursor := input, vertices_ := some vertices, vertices_it_ := some more },
        frame.set output_symbol (.Vertex vertex))
    | _, _, [] =>
      .ok false ({ input_cursor := [], vertices_ := vertices_, vertices_it_ := vertices_it_ },
        frame)
    | _, _, t :: rest =>
      match get_vertices (t frame) with
      | .error e => .raised e
      | .ok none =>
        ScanAllCursor.PullFrom output_symbol get_vertices rest vertices_ vertices_it_ (t frame)
      | .ok (some next_vertices) =>
        ScanAllCursor.PullFrom output_symbol get_vertices rest (some next_vertices)
          (some next_vertices) (t frame)

/-- `ScanAllCursor::Pull`. -/
def ScanAllCursor.Pull {D : Type} (output_symbol : Symbol)
    (get_vertices : Frame D → Except Exception (Option (List VertexAccessor)))
    (context : ExecutionContext) (cur : ScanAllCursor D) (frame : Frame D) :
    PullResult (ScanAllCursor D × Frame D) :=
  if MustAbort context then .raised .HintedAbortError
  else
    ScanAllCursor.PullFrom output_symbol get_vertices cur.input_cursor cur.vertices_
      cur.vertices_it_ frame

/-- The kind of a bound, `utils::BoundType`. -/
inductive BoundType where
  | INCLUSIVE
  | EXCLUSIVE
  deriving DecidableEq, Repr

/-- A bound of a range scan as the operator holds it: an expression and the kind
of the bound. -/
structure Bound (D : Type) where
  value : Expression D
  type : BoundType

/-- A bound as the storage takes it: a property value, held as the runtime value
it was converted from, and the kind of the bound. -/
structure PropertyBound (D : Type) where
  value : TypedValue D
  type : BoundType

/-- The `ScanAllByLabelPropertyRange` logical operator. -/
structure ScanAllByLabelPropertyRange (D : Type) where
  output_symbol_ : Symbol
  label_ : Nat
  property_ : Nat
  lower_bound_ : Option (Bound D)
  upper_bound_ : Option (Bound D)

mutual
/-- Modelled from the spec: `TypedValue::IsPropertyValue`, whether a runtime value
can be converted into a property value. Property values are null, booleans,
numbers, strings, lists and maps; a vertex, an edge or a path, also inside a list or
a map, has no property value. -/
def IsPropertyValue {D : Type} : TypedValue D → Bool
  | .Vertex _ => false
  | .Edge _ => false
  | .Path _ _ => false
  | .List l => allPropertyValues l
  | .Map m => allPropertyEntries m
  | _ => true

/-- Modelled from the spec: every element of a list can be converted into a
property value. -/
def allPropertyValues {D : Type} : List (TypedValue D) → Bool
  | [] => true
  | value :: values => IsPropertyValue value && allPropertyValues values

/-- Modelled from the spec: every value of a map can be converted into a property
value. -/
def allPropertyEntries {D : Type} : List (String × TypedValue D) → Bool
  | [] => true
  | (_, value) :: entries => IsPropertyValue value && allPropertyEntries entries
end

/-- The lambda `convert` of `ScanAllByLabelPropertyRange::MakeCursor`. The
conversion to a property value raises `TypedValueException` on a value that has
none, which is rethrown as `QueryRuntimeException`; a property value that is a
boolean, a list or a map raises `QueryRuntimeException`. -/
def ScanAllByLabelPropertyRange.convert {D : Type} (frame : Frame D)
    (bound : Option (Bound D)) :
    Except Exception (Option (PropertyBound D)) :=
  match bound with
  | none => .ok none
  | some bound =>
    if IsPropertyValue (bound.value frame) then
      match bound.value frame with
      | .Bool _ => .error .QueryRuntimeException
      | .List _ => .error .QueryRuntimeException
      | .Map _ => .error .QueryRuntimeException
      | property_value => .ok (some { value := property_value, type := bound.type })
    else .error .QueryRuntimeException

/-- Whether a converted bound is there and its value is null. -/
def boundIsNull {D : Type} (bound : Option (PropertyBound D)) : Bool :=
  match bound with
  | some { value := .Null, .. } => true
  | _ => false

/-- The lambda `vertices` of `ScanAllByLabelPropertyRange::MakeCursor`; `Vertices`
stands for the range lookup `db->Vertices(view_, label, property, lower, upper)` of
the storage. -/
def ScanAllByLabelPropertyRange.vertices {D : Type} (self : ScanAllByLabelPropertyRange D)
    (Vertices : Nat → Nat → Option (PropertyBound D) → Option (PropertyBound D) →
      List VertexAccessor)
    (frame : Frame D) : Except Exception (Option (List VertexAccessor)) :=
  match ScanAllByLabelPropertyRange.convert frame self.lower_bound_ with
  | .error e => .error e
  | .ok maybe_lower =>
    match ScanAllByLabelPropertyRange.convert frame self.upper_bound_ with
    | .error e => .error e
    | .ok maybe_upper =>
      if boundIsNull maybe_lower then .ok none
      else if boundIsNull maybe_upper then .ok none
      else .ok (some (Vertices self.label_ self.property_ maybe_lower maybe_upper))

/-- The exit test of the loop of `ScanAllCursor::Pull`, negated: there are no
vertices or the iterator is at the end. -/
def ScanAllCursor.exhausted {D : Type} (cur : ScanAllCursor D) : Bool :=
  match cur.vertices_, cur.vertices_it_ with
  | some _, some (_ :: _) => false
  | _, _ => true

/-- Whether a value is one a bound of a range scan may take: null, a number or a
string. -/
def isRangeValue {D : Type} (value : TypedValue D) : Bool :=
  match value with
  | .Null => true
  | .Int _ => true
  | .Double _ => true
  | .String _ => true
  | _ => false

/-- Whether a bound expression is there and yields null on the frame. -/
def yieldsNull {D : Type} (bound : Option (Bound D)) (frame : Frame D) : Bool :=
  match bound with
  | some bound => isNull (bound.value frame)
  | none => false

/-- Whether a bound expression, if it is there, yields null, a number or a string
on the frame. -/
def yieldsRangeValue {D : Type} (bound : Option (Bound D)) (frame : Frame D) : Bool :=
  match bound with
  | some bound => isRangeValue (bound.value frame)
  | none => true

/-! ### `Merge`, `Optional`, `Distinct`, `Union` and `Cartesian`

The cursors of the branches of these operators are, like the input, the tuples
they yield; `Reset` of a branch puts its cursor back to the start. A cursor of this
kind reads nothing of the execution context handed down to it. -/

/-- The `Merge` logical operator: the match branch and the create branch. -/
structure Merge (D : Type) where
  merge_match_ : List (Frame D → Frame D)
  merge_create_ : List (Frame D → Frame D)

/-- State of `MergeCursor`. -/
structure MergeCursor (D : Type) where
  input_cursor_ : List (Frame D → Frame D)
  merge_match_cursor_ : List (Frame D → Frame D)
  merge_create_cursor_ : List (Frame D → Frame D)
  pull_input_ : Bool

/-- A freshly made cursor over the given input. -/
def MergeCursor.init {D : Type} (self : Merge D) (input : List (Frame D → Frame D)) :
    MergeCursor D :=
  { input_cursor_ := input, merge_match_cursor_ := self.merge_match_,
    merge_create_cursor_ := self.merge_create_, pull_input_ := true }

/-- The end of an iteration of the loop of `MergeCursor::Pull`, after the input
has been dealt with: pull the match branch; when it yields nothing right after an
input pull, pull the create branch, whose result is only asserted, and return true;
when it yields nothing later, go on with the next input tuple. -/
def MergeCursor.pullMatch {D : Type} (cur : MergeCursor D) (frame : Frame D) :
    ExpandStep (MergeCursor D × Frame D) :=
  match cur.merge_match_cursor_ with
  | m :: more =>
    .return_ true ({ cur with merge_match_cursor_ := more, pull_input_ := false }, m frame)
  | [] =>
    if cur.pull_input_ then
      match cur.merge_create_cursor_ with
      | c :: more => .return_ true ({ cur with merge_create_cursor_ := more }, c frame)
      | [] => .return_ true (cur, frame)
    else .continue_ ({ cur with pull_input_ := true }, frame)

/-- One iteration of the loop of `MergeCursor::Pull`. -/
def MergeCursor.Body {D : Type} (self : Merge D) (_context : ExecutionContext)
    (cur : MergeCursor D) (frame : Frame D) : ExpandStep (MergeCursor D × Frame D) :=
  if cur.pull_input_ then
    match cur.input_cursor_ with
    | t :: rest =>
      MergeCursor.pullMatch
        { cur with input_cursor_ := rest, merge_match_cursor_ := self.merge_match_,
                   merge_create_cursor_ := self.merge_create_ } (t frame)
    | [] => .return_ false (cur, frame)
  else MergeCursor.pullMatch cur frame

/-- `MergeCursor::Pull`, recursive in the fuel. -/
def MergeCursor.Pull {D : Type} (self : Merge D) (context : ExecutionContext) :
    Nat → MergeCursor D → Frame D → PullResult (MergeCursor D × Frame D)
  | 0, _, _ => .out_of_fuel
  | fuel + 1, cur, frame =>
    match MergeCursor.Body self context cur frame with
    | .continue_ s => MergeCursor.Pull self context fuel s.1 s.2
    | .return_ b s => .ok b s
    | .throw_ e => .raised e

/-- The `Optional` logical operator: the optional branch and its symbols. -/
structure Optional (D : Type) where
  optional_ : List (Frame D → Frame D)
  optional_symbols_ : List Symbol

/-- State of `OptionalCursor`. -/
structure OptionalCursor (D : Type) where
  input_cursor_ : List (Frame D → Frame D)
  optional_cursor_ : List (Frame D → Frame D)
  pull_input_ : Bool

/-- A freshly made cursor over the given input. -/
def OptionalCursor.init {D : Type} (self : Optional D) (input : List (Frame D → Frame D)) :
    OptionalCursor D :=
  { input_cursor_ := input, optional_cursor_ := self.optional_, pull_input_ := true }

/-- The end of an iteration of the loop of `OptionalCursor::Pull`, after the
input has been dealt with: pull the optional branch; when it yields nothing right
after an input pull, set the optional symbols to null and return true; when it
yields nothing later, go on with the next input tuple. -/
def OptionalCursor.pullOptional {D : Type} (self : Optional D) (cur : OptionalCursor D)
    (frame : Frame D) : ExpandStep (OptionalCursor D × Frame D) :=
  match cur.optional_cursor_ with
  | o :: more =>
    .return_ true ({ cur with optional_cursor_ := more, pull_input_ := false }, o frame)
  | [] =>
    if cur.pull_input_ then
      .return_ true ({ cur with pull_input_ := true }, placeNulls frame self.optional_symbols_)
    else .continue_ ({ cur with pull_input_ := true }, frame)

/-- One iteration of the loop of `OptionalCursor::Pull`. -/
def OptionalCursor.Body {D : Type} (self : Optional D) (_context : ExecutionContext)
    (cur : OptionalCursor D) (frame : Frame D) : ExpandStep (OptionalCursor D × Frame D) :=
  if cur.pull_input_ then
    match cur.input_cursor_ with
    | t :: rest =>
      OptionalCursor.pullOptional self
        { cur with input_cursor_ := rest, optional_cursor_ := self.optional_ } (t frame)
    | [] => .return_ false (cur, frame)
  else OptionalCursor.pullOptional self cur frame

/-- `OptionalCursor::Pull`, recursive in the fuel. -/
def OptionalCursor.Pull {D : Type} (self : Optional D) (context : ExecutionContext) :
    Nat → OptionalCursor D → Frame D → PullResult (OptionalCursor D × Frame D)
  | 0, _, _ => .out_of_fuel
  | fuel + 1, cur, frame =>
    match OptionalCursor.Body self context cur frame with
    | .continue_ s => OptionalCursor.Pull self context fuel s.1 s.2
    | .return_ b s => .ok b s
    | .throw_ e => .raised e

/-- The `Distinct` logical operator. -/
structure Distinct where
  value_symbols_ : List Symbol

/-- State of `DistinctCursor`: the input still to come and the rows seen, a set
under `TypedValueVectorEqual`. -/
structure DistinctCursor (D : Type) where
  input_cursor_ : List (Frame D → Frame D)
  seen_rows_ : List (List (TypedValue D))

/-- A freshly made cursor over the given input. -/
def DistinctCursor.init {D : Type} (input : List (Frame D → Frame D)) : DistinctCursor D :=
  { input_cursor_ := input, seen_rows_ := [] }

/-- The loop of `DistinctCursor::Pull`, recursive in the remaining input. -/
def DistinctCursor.PullFrom {D : Type} (ops : TypedValueOps D) (self : Distinct)
    (context : ExecutionContext) :
    List (Frame D → Frame D) → List (List (TypedValue D)) → Frame D →
      PullResult (DistinctCursor D × Frame D)
  | [], seen_rows_, frame => .ok false ({ input_cursor_ := [], seen_rows_ := seen_rows_ }, frame)
  | t :: rest, seen_rows_, frame =>
    if seen_rows_.any
        (TypedValueVectorEqual ops (self.value_symbols_.map (fun symbol => t frame symbol))) then
      DistinctCursor.PullFrom ops self context rest seen_rows_ (t frame)
    else
      .ok true ({ input_cursor_ := rest,
                  seen_rows_ := seen_rows_ ++
                    [self.value_symbols_.map (fun symbol => t frame symbol)] }, t frame)

/-- `DistinctCursor::Pull`. -/
def DistinctCursor.Pull {D : Type} (ops : TypedValueOps D) (self : Distinct)
    (context : ExecutionContext) (cur : DistinctCursor D) (frame : Frame D) :
    PullResult (DistinctCursor D × Frame D) :=
  DistinctCursor.PullFrom ops self context cur.input_cursor_ cur.seen_rows_ frame

/-- The `Union` logical operator. -/
structure Union where
  union_symbols_ : List Symbol
  left_symbols_ : List Symbol
  right_symbols_ : List Symbol

/-- State of `UnionCursor`. -/
structure UnionCursor (D : Type) where
  left_cursor_ : List (Frame D → Frame D)
  right_cursor_ : List (Frame D → Frame D)

/-- The assignment `results[key] = value` on the map of `UnionCursor::Pull`. -/
def assignResult {D : Type} (results : List (String × TypedValue D)) (key : String)
    (value : TypedValue D) : List (String × TypedValue D) :=
  match results with
  | [] => [(key, value)]
  | (k, v) :: more =>
    if k = key then (k, value) :: more else (k, v) :: assignResult more key value

/-- The loops of `UnionCursor::Pull` that collect the values from a child. -/
def collectResults {D : Type} (name : Symbol → String) (frame : Frame D) :
    List Symbol → List (String × TypedValue D) → List (String × TypedValue D)
  | [], results => results
  | output_symbol :: symbols, results =>
    collectResults name frame symbols
      (assignResult results (name output_symbol) (frame output_symbol))

/-- The loop of `UnionCursor::Pull` that puts the collected values on the frame
under the union symbols; reading a key that is not in the map yields null. -/
def placeResults {D : Type} (name : Symbol → String) (results : List (String × TypedValue D))
    (frame : Frame D) : List Symbol → Frame D
  | [] => frame
  | symbol :: symbols =>
    placeResults name results
      (frame.set symbol ((results.lookup (name symbol)).getD .Null)) symbols

/-- `UnionCursor::Pull`; `name` gives the name of a symbol. -/
def UnionCursor.Pull {D : Type} (name : Symbol → String) (self : Union)
    (_context : ExecutionContext) (cur : UnionCursor D) (frame : Frame D) :
    PullResult (UnionCursor D × Frame D) :=
  match cur.left_cursor_ with
  | l :: more =>
    .ok true ({ cur with left_cursor_ := more },
      placeResults name (collectResults name (l frame) self.left_symbols_ []) (l frame)
        self.union_symbols_)
  | [] =>
    match cur.right_cursor_ with
    | r :: more =>
      .ok true ({ cur with right_cursor_ := more },
        placeResults name (collectResults name (r frame) self.right_symbols_ []) (r frame)
          self.union_symbols_)
    | [] => .ok false (cur, frame)

/-- The `Cartesian` logical operator. -/
structure Cartesian where
  left_symbols_ : List Symbol
  right_symbols_ : List Symbol

/-- State of `CartesianCursor`; `left_op_frames_it_` holds the frames of the left
operator still to combine with the frame of the right operator, at the end when it
is empty. -/
structure CartesianCursor (D : Type) where
  left_op_frames_ : List (Frame D)
  right_op_frame_ : Frame D
  left_op_cursor_ : List (Frame D → Frame D)
  right_op_cursor_ : List (Frame D → Frame D)
  left_op_frames_it_ : List (Frame D)
  cartesian_pull_initialized_ : Bool

/-- A freshly made cursor over the given children. -/
def CartesianCursor.init {D : Type} (left right : List (Frame D → Frame D)) :
    CartesianCursor D :=
  { left_op_frames_ := [], right_op_frame_ := fun _ => .Null, left_op_cursor_ := left,
    right_op_cursor_ := right, left_op_frames_it_ := [], cartesian_pull_initialized_ := false }

/-- The lambda `restore_frame` of `CartesianCursor::Pull`. -/
def restore_frame {D : Type} (frame : Frame D) (restore_from : Frame D) : List Symbol → Frame D
  | [] => frame
  | symbol :: symbols => restore_frame (frame.set symbol (restore_from symbol)) restore_from symbols

/-- The first part of `CartesianCursor::Pull`: pull all the frames of the left
operator, once. -/
def CartesianCursor.pullLeft {D : Type} (cur : CartesianCursor D) (frame : Frame D) :
    CartesianCursor D × Frame D :=
  if !cur.cartesian_pull_initialized_ then
    ({ cur with left_op_frames_ := cur.left_op_frames_ ++ inputFrames cur.left_op_cursor_ frame,
                left_op_cursor_ := [], left_op_frames_it_ := [],
                cartesian_pull_initialized_ := true },
      applyInputs cur.left_op_cursor_ frame)
  else (cur, frame)

/-- `CartesianCursor::Pull`. -/
def CartesianCursor.Pull {D : Type} (self : Cartesian) (context : ExecutionContext)
    (cur : CartesianCursor D) (frame : Frame D) : PullResult (CartesianCursor D × Frame D) :=
  let s := CartesianCursor.pullLeft cur frame
  match s.1.left_op_frames_ with
  | [] => .ok false s
  | first :: others =>
    match s.1.left_op_frames_it_ with
    | [] =>
      match s.1.right_op_cursor_ with
      | [] => .ok false s
      | r :: more =>
        if MustAbort context then .raised .HintedAbortError
        else
          .ok true ({ s.1 with right_op_cursor_ := more, right_op_frame_ := r s.2,
                               left_op_frames_it_ := others },
            restore_frame (r s.2) first self.left_symbols_)
    | left_frame :: more =>
      if MustAbort context then .raised .HintedAbortError
      else
        .ok true ({ s.1 with left_op_frames_it_ := more },
          restore_frame (restore_frame s.2 s.1.right_op_frame_ self.right_symbols_) left_frame
            self.left_symbols_)

/-! ### Recovery: `RecoverSnapshot` and `RecoverWal` -/

/-- A transaction id, `tx::TransactionId`: an unsigned 64-bit integer. -/
abbrev TransactionId := Nat

/-- The data exchanged between the recovery functions, `RecoveryData`. -/
structure RecoveryData where
  snapshooter_tx_id : TransactionId
  wal_max_recovered_tx_id : TransactionId
  snapshooter_tx_snapshot : List TransactionId
  indexes : List (String × String)
  deriving DecidableEq, Repr

/-- A freshly made `RecoveryData`. -/
def RecoveryData.init : RecoveryData :=
  { snapshooter_tx_id := 0, wal_max_recovered_tx_id := 0, snapshooter_tx_snapshot := [],
    indexes := [] }

/-- The kinds of WAL records `RecoverWal` tells apart, `StateDelta::Type`; every
kind that changes the graph falls under `default` of the `switch` and is `OTHER`
here, with a number to tell the changes apart. -/
inductive StateDeltaType where
  | TRANSACTION_BEGIN
  | TRANSACTION_COMMIT
  | TRANSACTION_ABORT
  | BUILD_INDEX
  | OTHER (change : Nat)
  deriving DecidableEq, Repr

/-- A WAL record, `StateDelta`. -/
structure StateDelta where
  type : StateDeltaType
  transaction_id : TransactionId
  label_name : String
  property_name : String
  deriving DecidableEq, Repr

/-- A WAL file: the transaction id in its name, if the name holds one, whether the
file can be opened, and the records `StateDelta::Decode` yields until it yields
none. -/
structure WalFile where
  max_tx_id : Option TransactionId
  opens : Bool
  deltas : List StateDelta
  deriving DecidableEq, Repr

/-- The variable `first_to_recover` of `RecoverWal`. `std::min` is applied to the
two iterators `begin()` and `end()`, not to the elements: of a non-empty vector it
returns `begin()`, so that the first element is taken. -/
def first_to_recover (recovery_data : RecoveryData) : TransactionId :=
  match recovery_data.snapshooter_tx_snapshot with
  | [] => (recovery_data.snapshooter_tx_id + 1) % 18446744073709551616
  | first :: _ => first

/-- The lambda `should_skip` of `RecoverWal`. -/
def should_skip (recovery_data : RecoveryData) (tx_id : TransactionId) : Bool :=
  decide (tx_id < first_to_recover recovery_data) ||
    (decide (tx_id < recovery_data.snapshooter_tx_id) &&
      !recovery_data.snapshooter_tx_snapshot.contains tx_id)

/-- The state `RecoverWal` works on. An accessor is the list of the records
applied to it; `committed` and `aborted` log the accessors on which `Commit` and
`Abort` were called, and `ensured` the arguments of `EnsureNextIdGreater`. -/
structure WalRecovery where
  accessors : List (TransactionId × List StateDelta)
  committed : List (TransactionId × List StateDelta)
  aborted : List (TransactionId × List StateDelta)
  recovery_data : RecoveryData
  max_observed_tx_id : TransactionId
  ensured : List TransactionId
  deriving DecidableEq, Repr

/-- The state at the start of `RecoverWal`. -/
def WalRecovery.init (recovery_data : RecoveryData) : WalRecovery :=
  { accessors := [], committed := [], aborted := [], recovery_data := recovery_data,
    max_observed_tx_id := 0, ensured := [] }

/-- How a call of `RecoverWal` ends: it returns, or a `CHECK` fails and ends the
process in the given state. -/
inductive WalResult where
  | returned (r : Bool) (s : WalRecovery)
  | check_failed (s : WalRecovery)
  deriving DecidableEq, Repr

/-- The body of the loop of `RecoverWal` over the records of a file, for one
record; `none` when the `CHECK` of `get_accessor` fails. The skip predicate is the
one of the recovery data at the start of `RecoverWal`. -/
def readDelta (skip : TransactionId → Bool) (s : WalRecovery) (delta : StateDelta) :
    Option WalRecovery :=
  let s1 := { s with max_observed_tx_id := max s.max_observed_tx_id delta.transaction_id }
  if skip delta.transaction_id then some s1
  else
    match delta.type with
    | .TRANSACTION_BEGIN =>
      match s1.accessors.lookup delta.transaction_id with
      | some _ => some s1
      | none => some { s1 with accessors := s1.accessors ++ [(delta.transaction_id, [])] }
    | .TRANSACTION_ABORT =>
      match s1.accessors.lookup delta.transaction_id with
      | none => none
      | some accessor =>
        some { s1 with
          aborted := s1.aborted ++ [(delta.transaction_id, accessor)],
          accessors := s1.accessors.filter (fun p => p.1 ≠ delta.transaction_id) }
    | .TRANSACTION_COMMIT =>
      match s1.accessors.lookup delta.transaction_id with
      | none => none
      | some accessor =>
        some { s1 with
          committed := s1.committed ++ [(delta.transaction_id, accessor)],
          recovery_data :=
            { s1.recovery_data with wal_max_recovered_tx_id := delta.transaction_id },
          accessors := s1.accessors.filter (fun p => p.1 ≠ delta.transaction_id) }
    | .BUILD_INDEX =>
      some { s1 with
        recovery_data :=
          { s1.recovery_data with
            indexes := s1.recovery_data.indexes ++ [(delta.label_name, delta.property_name)] } }
    | .OTHER _ =>
      match s1.accessors.lookup delta.transaction_id with
      | none => none
      | some _ =>
        some { s1 with
          accessors := s1.accessors.map (fun p =>
            if p.1 = delta.transaction_id then (p.1, p.2 ++ [delta]) else p) }

/-- The loop of `RecoverWal` over the records of a file: the state after the last
record, or the state in which a `CHECK` failed. -/
def readDeltas (skip : TransactionId → Bool) :
    WalRecovery → List StateDelta → Except WalRecovery WalRecovery
  | s, [] => .ok s
  | s, delta :: deltas =>
    match readDelta skip s delta with
    | none => .error s
    | some s1 => readDeltas skip s1 deltas

/-- The loop of `RecoverWal` over the WAL files, followed by the end of the
function. -/
def readFiles (first : TransactionId) (skip : TransactionId → Bool) :
    WalRecovery → List WalFile → WalResult
  | s, [] =>
    .returned true { s with ensured := s.ensured ++ [s.max_observed_tx_id] }
  | s, wal_file :: wal_files =>
    match wal_file.max_tx_id with
    | none => readFiles first skip s wal_files
    | some wal_file_max_tx_id =>
      if wal_file_max_tx_id < first then readFiles first skip s wal_files
      else if !wal_file.opens then .returned false s
      else
        match readDeltas skip s wal_file.deltas with
        | .error s1 => .check_failed s1
        | .ok s1 => readFiles first skip s1 wal_files

/-- `RecoverWal`, over the WAL files of the directory in the order of their names;
a directory that does not exist is one without files. -/
def RecoverWal (wal_files : List WalFile) (recovery_data : RecoveryData) : WalResult :=
  readFiles (first_to_recover recovery_data) (should_skip recovery_data)
    (WalRecovery.init recovery_data) wal_files

/-- The state a call of `RecoverWal` ends in. -/
def WalResult.state : WalResult → WalRecovery
  | .returned _ s => s
  | .check_failed s => s

/-- The records `RecoverWal` reads when no `CHECK` fails: those of the files it
does not pass over, up to the first file that cannot be opened. -/
def walDeltas (first : TransactionId) : List WalFile → List StateDelta
  | [] => []
  | wal_file :: wal_files =>
    match wal_file.max_tx_id with
    | none => walDeltas first wal_files
    | some wal_file_max_tx_id =>
      if wal_file_max_tx_id < first then walDeltas first wal_files
      else if !wal_file.opens then []
      else wal_file.deltas ++ walDeltas first wal_files

/-- What holds of the accessors of `RecoverWal` in terms of the records seen so
far: a committed accessor belongs to a transaction that is not skipped and has a
commit record, and an accessor, committed or not, holds records of its own
transaction only. -/
def WalSound (skip : TransactionId → Bool) (seen : List StateDelta) (s : WalRecovery) : Prop :=
  (∀ p ∈ s.committed, skip p.1 = false ∧
    (∃ d ∈ seen, d.type = .TRANSACTION_COMMIT ∧ d.transaction_id = p.1) ∧
    ∀ d ∈ p.2, d.transaction_id = p.1 ∧ d ∈ seen) ∧
  (∀ p ∈ s.accessors, skip p.1 = false ∧ ∀ d ∈ p.2, d.transaction_id = p.1 ∧ d ∈ seen)

/-- Every commit record seen so far of a transaction that is not skipped has led
to a committed accessor of the transaction. -/
def WalComplete (skip : TransactionId → Bool) (seen : List StateDelta) (s : WalRecovery) :
    Prop :=
  ∀ d ∈ seen, d.type = .TRANSACTION_COMMIT → skip d.transaction_id = false →
    ∃ ds, (d.transaction_id, ds) ∈ s.committed

/-- A value the snapshot decoder yields, `DecodedValue`. -/
inductive DecodedValue where
  | Int (i : Int)
  | String (s : String)
  | List (l : List DecodedValue)
  | Other

/-- A snapshot file as `RecoverSnapshot` reads it: whether it can be opened,
whether it starts with the magic number, whether the summary at its end can be read,
the values the decoder yields up to the list of the indexes, whether all the
vertices and edges after them can be decoded, and whether the hash agrees when the
reader is closed. -/
structure SnapshotFile where
  opens : Bool
  magic_number : Bool
  summary : Bool
  header : List DecodedValue
  graph : Bool
  hash : Bool

/-- How a call of `RecoverSnapshot` ends: its return value, the recovery data, and
the argument it passed to `EnsureNextIdGreater`, if it got that far. -/
structure SnapshotResult where
  success : Bool
  recovery_data : RecoveryData
  ensured : Option TransactionId
  deriving DecidableEq, Repr

/-- The loop of `RecoverSnapshot` over the transaction snapshot: every value must
be an integer and is appended, as an unsigned integer, to the list; `false` at the
first value that is none. -/
def readTxSnapshot : List DecodedValue → List TransactionId → Bool × List TransactionId
  | [], snapshot => (true, snapshot)
  | .Int value :: values, snapshot => readTxSnapshot values (snapshot ++ [toUInt64 value])
  | _ :: _, snapshot => (false, snapshot)

/-- The loop of `RecoverSnapshot` over the list of the indexes: pairs of a label
and a property, both strings. -/
def readIndexes : List DecodedValue → List (String × String) → Bool × List (String × String)
  | [], indexes => (true, indexes)
  | .String label :: .String property :: values, indexes =>
    readIndexes values (indexes ++ [(label, property)])
  | _, indexes => (false, indexes)

/-- `std::max_element` on a vector of transaction ids that is not empty. -/
def max_element (first : TransactionId) (rest : List TransactionId) : TransactionId :=
  rest.foldl (fun best id => if best < id then id else best) first

/-- The variable `max_id` of `RecoverSnapshot`: the id of the snapshooter, or the
greatest id of its transaction snapshot when that is not empty. -/
def RecoverSnapshot.max_id (recovery_data : RecoveryData) : TransactionId :=
  match recovery_data.snapshooter_tx_snapshot with
  | [] => recovery_data.snapshooter_tx_id
  | first :: rest => max_element first rest

/-- The end of `RecoverSnapshot`, once the header is read: the vertices and the
edges are decoded, the hash is compared, and `max_id` is passed to
`EnsureNextIdGreater`. -/
def RecoverSnapshot.finish (snapshot_file : SnapshotFile) (recovery_data : RecoveryData) :
    SnapshotResult :=
  if !snapshot_file.graph then ⟨false, recovery_data, none⟩
  else if !snapshot_file.hash then ⟨false, recovery_data, none⟩
  else ⟨true, recovery_data, some (RecoverSnapshot.max_id recovery_data)⟩

/-- The part of `RecoverSnapshot` that reads the transaction snapshot and the list
of the indexes. -/
def RecoverSnapshot.lists (snapshot_file : SnapshotFile) (recovery_data : RecoveryData)
    (values : List DecodedValue) : SnapshotResult :=
  match values with
  | .List tx_snapshot :: after_tx_snapshot =>
    let snap := readTxSnapshot tx_snapshot recovery_data.snapshooter_tx_snapshot
    let recovery_data2 := { recovery_data with snapshooter_tx_snapshot := snap.2 }
    if !snap.1 then ⟨false, recovery_data2, none⟩
    else
      match after_tx_snapshot with
      | .List index_value :: _ =>
        let indexes := readIndexes index_value recovery_data2.indexes
        let recovery_data3 := { recovery_data2 with indexes := indexes.2 }
        if !indexes.1 then ⟨false, recovery_data3, none⟩
        else RecoverSnapshot.finish snapshot_file recovery_data3
      | _ => ⟨false, recovery_data2, none⟩
  | _ => ⟨false, recovery_data, none⟩

/-- `RecoverSnapshot`, as far as the recovery data and the transaction engine go:
what it does to the storage (the id generators, the vertices and the edges) is left
out. `kVersion` is the version of the format and `WorkerId` the id of the worker. -/
def RecoverSnapshot (kVersion WorkerId : Int) (snapshot_file : SnapshotFile)
    (recovery_data : RecoveryData) : SnapshotResult :=
  if !snapshot_file.opens then ⟨false, recovery_data, none⟩
  else if !snapshot_file.magic_number then ⟨false, recovery_data, none⟩
  else if !snapshot_file.summary then ⟨false, recovery_data, none⟩
  else
    match snapshot_file.header with
    | .Int version :: .Int worker_id :: .Int _ :: .Int _ :: .Int tx_id :: after_tx_id =>
      if version ≠ kVersion then ⟨false, recovery_data, none⟩
      else if worker_id ≠ WorkerId then ⟨false, recovery_data, none⟩
      else
        RecoverSnapshot.lists snapshot_file
          { recovery_data with snapshooter_tx_id := toUInt64 tx_id } after_tx_id
    | _ => ⟨false, recovery_data, none⟩

/-! ### Storage: `VertexAccessor` and `GraphDbAccessor`

Version lists are identified by their addresses. The storage is modelled as one
transaction sees it: every version list has the record the transaction views and
updates. A vertex accessor is the address of the version list of its vertex. -/

/-- The record of a vertex, `Vertex`: the version lists of its out-edges and
in-edges and its labels. -/
structure Vertex where
  out_ : List Nat
  in_ : List Nat
  labels_ : List Nat
  deriving DecidableEq, Repr

/-- The record of an edge, `Edge`: the version lists of its endpoints and its
type. -/
structure Edge where
  from_ : Nat
  to_ : Nat
  edge_type_ : Nat
  deriving DecidableEq, Repr

/-- The exception `CreationException`. -/
structure CreationException where
  message : String
  deriving DecidableEq, Repr

/-- The database as the accessor of one transaction works on it: the containers
`vertices_` and `edges_` of version lists, the records of the version lists, the
vertex version lists whose record the transaction has removed, and the next address
`new` hands out. -/
structure GraphDbAccessor where
  vertices_ : List Nat
  edges_ : List Nat
  vertex_record : Nat → Vertex
  edge_record : Nat → Edge
  removed : List Nat
  next_address : Nat

/-- `VertexAccessor::out_degree`. -/
def VertexAccessor.out_degree (db_accessor_ : GraphDbAccessor) (self : VertexAccessor) : Nat :=
  (db_accessor_.vertex_record self).out_.length

/-- `VertexAccessor::in_degree`. -/
def VertexAccessor.in_degree (db_accessor_ : GraphDbAccessor) (self : VertexAccessor) : Nat :=
  (db_accessor_.vertex_record self).in_.length

/-- Modelled from the spec: `VersionList::remove` for the record the transaction
views, which marks the record as deleted by the transaction. -/
def VersionList.remove (db_accessor_ : GraphDbAccessor) (vlist_ : Nat) : GraphDbAccessor :=
  { db_accessor_ with removed := db_accessor_.removed ++ [vlist_] }

/-- `VertexAccessor::remove`: the return value and the database after the call. -/
def VertexAccessor.remove (db_accessor_ : GraphDbAccessor) (self : VertexAccessor) :
    Bool × GraphDbAccessor :=
  if VertexAccessor.out_degree db_accessor_ self > 0 ∨
      VertexAccessor.in_degree db_accessor_ self > 0 then
    (false, db_accessor_)
  else (true, VersionList.remove db_accessor_ self)

/-- `VertexAccessor::attach_in`: the record the transaction updates gains the edge
at the end of `in_`. -/
def VertexAccessor.attach_in (db_accessor_ : GraphDbAccessor) (self : VertexAccessor)
    (edge_vlist : Nat) : GraphDbAccessor :=
  { db_accessor_ with
    vertex_record := fun vlist =>
      if vlist = self then
        { db_accessor_.vertex_record self with
          in_ := (db_accessor_.vertex_record self).in_ ++ [edge_vlist] }
      else db_accessor_.vertex_record vlist }

/-- `VertexAccessor::attach_out`: the record the transaction updates gains the
edge at the end of `out_`. -/
def VertexAccessor.attach_out (db_accessor_ : GraphDbAccessor) (self : VertexAccessor)
    (edge_vlist : Nat) : GraphDbAccessor :=
  { db_accessor_ with
    vertex_record := fun vlist =>
      if vlist = self then
        { db_accessor_.vertex_record self with
          out_ := (db_accessor_.vertex_record self).out_ ++ [edge_vlist] }
      else db_accessor_.vertex_record vlist }

/-- Modelled from the spec: `VertexAccessor::add_to_in`, which `insert_edge` calls
and the header declares. The out-set and the in-set of the endpoints of a created
edge contain the edge; the member of this effect in the source is `attach_in`. -/
def VertexAccessor.add_to_in (db_accessor_ : GraphDbAccessor) (self : VertexAccessor)
    (edge_vlist : Nat) : GraphDbAccessor :=
  VertexAccessor.attach_in db_accessor_ self edge_vlist

/-- Modelled from the spec: `VertexAccessor::add_to_out`, which `insert_edge` calls
and the header declares; the member of this effect in the source is
`attach_out`. -/
def VertexAccessor.add_to_out (db_accessor_ : GraphDbAccessor) (self : VertexAccessor)
    (edge_vlist : Nat) : GraphDbAccessor :=
  VertexAccessor.attach_out db_accessor_ self edge_vlist

/-- The loop of the creation paths over the attempts to insert a version list into
a container: up to `attempts` calls of `insert`, which yields whether the item was
inserted and the container after the call. The result is whether a call inserted
the item, after which no further call is made, and the container after the last
call. -/
def insertAttempts (insert : List Nat → Nat → Bool × List Nat) :
    Nat → List Nat → Nat → Bool × List Nat
  | 0, container, _ => (false, container)
  | attempts + 1, container, vlist =>
    if (insert container vlist).1 then (true, (insert container vlist).2)
    else insertAttempts insert attempts (insert container vlist).2 vlist

/-- `GraphDbAccessor::insert_edge`: the version list of the new edge and the
database after the call, or the exception with the database as the call leaves it.
`insert` is the insertion into the container of the edges of the storage. -/
def GraphDbAccessor.insert_edge (insert : List Nat → Nat → Bool × List Nat)
    (self : GraphDbAccessor) (from_vertex to_vertex : VertexAccessor) (type : Nat) :
    Except (CreationException × GraphDbAccessor) (Nat × GraphDbAccessor) :=
  let edge_vlist := self.next_address
  let db1 : GraphDbAccessor :=
    { self with
      next_address := self.next_address + 1,
      edge_record := fun vlist =>
        if vlist = edge_vlist then
          { from_ := from_vertex, to_ := to_vertex, edge_type_ := type }
        else self.edge_record vlist }
  let db2 := VertexAccessor.add_to_out db1 from_vertex edge_vlist
  let db3 := VertexAccessor.add_to_in db2 to_vertex edge_vlist
  let inserted := insertAttempts insert 5 db3.edges_ edge_vlist
  if inserted.1 then .ok (edge_vlist, { db3 with edges_ := inserted.2 })
  else
    .error (⟨"Unable to create an Edge after 5 attempts"⟩, { db3 with edges_ := inserted.2 })

/-- `GraphDbAccessor::insert_vertex`: the version list of the new vertex and the
database after the call, or the exception with the database as the call leaves it.
`insert` is the insertion into the container of the vertices of the storage. -/
def GraphDbAccessor.insert_vertex (insert : List Nat → Nat → Bool × List Nat)
    (self : GraphDbAccessor) :
    Except (CreationException × GraphDbAccessor) (VertexAccessor × GraphDbAccessor) :=
  let vertex_vlist := self.next_address
  let db1 : GraphDbAccessor :=
    { self with
      next_address := self.next_address + 1,
      vertex_record := fun vlist =>
        if vlist = vertex_vlist then { out_ := [], in_ := [], labels_ := [] }
        else self.vertex_record vlist }
  let inserted := insertAttempts insert 5 db1.vertices_ vertex_vlist
  if inserted.1 then .ok (vertex_vlist, { db1 with vertices_ := inserted.2 })
  else
    .error (⟨"Unable to create a Vertex after 5 attempts"⟩, { db1 with vertices_ := inserted.2 })

/-! ### Recovery: `Recover` -/

/-- `RecoveryData::Clear`, which leaves `wal_max_recovered_tx_id` as it is. -/
def RecoveryData.Clear (self : RecoveryData) : RecoveryData :=
  { self with snapshooter_tx_id := 0, snapshooter_tx_snapshot := [], indexes := [] }

/-- Modelled from the spec: the result of `Recover`, `RecoveryInfo`, which the
absent header declares: the id of the transaction of the recovered snapshot and
the greatest id of a transaction recovered from the WAL. -/
structure RecoveryInfo where
  snapshot_tx_id : TransactionId
  max_wal_tx_id : TransactionId
  deriving DecidableEq, Repr

/-- The loop of `Recover` over the snapshot files, newest first. A file is the
transaction id in its name, if the name holds one, and its content. The result is
the recovery data at the end of the loop. -/
def recoverSnapshots (kVersion WorkerId : Int) (required_recovery_info : Option RecoveryInfo) :
    RecoveryData → List (Option TransactionId × SnapshotFile) → RecoveryData
  | recovery_data, [] => recovery_data
  | recovery_data, snapshot_file :: snapshot_files =>
    if required_recovery_info.any
        (fun required => snapshot_file.1 ≠ some required.snapshot_tx_id) then
      recoverSnapshots kVersion WorkerId required_recovery_info recovery_data snapshot_files
    else
      let recovered := RecoverSnapshot kVersion WorkerId snapshot_file.2 recovery_data
      if !recovered.success then
        recoverSnapshots kVersion WorkerId required_recovery_info
          recovered.recovery_data.Clear snapshot_files
      else recovered.recovery_data

/-- `Recover`, over the snapshot files of the directory, newest first, and the WAL
files in the order of their names: the `RecoveryInfo` it returns, or `none` when a
`CHECK` of `RecoverWal` fails and ends the process. The recovery of the indexes
after the WAL has no part in the result and is left out. -/
def Recover (kVersion WorkerId : Int)
    (snapshot_files : List (Option TransactionId × SnapshotFile)) (wal_files : List WalFile)
    (required_recovery_info : Option RecoveryInfo) : Option RecoveryInfo :=
  let recovery_data :=
    recoverSnapshots kVersion WorkerId required_recovery_info RecoveryData.init snapshot_files
  if required_recovery_info.any
      (fun required => recovery_data.snapshooter_tx_id ≠ required.snapshot_tx_id) then
    some { snapshot_tx_id := recovery_data.snapshooter_tx_id, max_wal_tx_id := 0 }
  else
    match RecoverWal wal_files recovery_data with
    | .check_failed _ => none
    | .returned _ s =>
      some { snapshot_tx_id := s.recovery_data.snapshooter_tx_id,
             max_wal_tx_id := s.recovery_data.wal_max_recovered_tx_id }

/-! ### Integer utilities of `utils/math.hpp`

The values are `uint64_t`: natural numbers below `2^64`, every operation reduced
modulo `2^64`. -/

/-- The number of leading zero bits among the lowest `bits` bits of `val`, found
by scanning from the highest of these bits downwards. -/
def clzFrom : Nat → Nat → Nat
  | 0, _ => 0
  | bits + 1, val => if val / 2 ^ bits % 2 = 1 then 0 else 1 + clzFrom bits val

/-- The builtin `__builtin_clzl` on a 64-bit value: the number of leading zero
bits. -/
def builtin_clzl (val : Nat) : Nat := clzFrom 64 val

/-- The left shift `x << n` of a `uint64_t`. For a count below 64 the result is
`x * 2^n` reduced modulo `2^64`. For a count of 64 or more C++ leaves the result
undefined; it is what the parameter `overshift` yields, of which nothing is
assumed. -/
def shiftLeft64 (overshift : Nat → Nat → Nat) (x n : Nat) : Nat :=
  if n < 64 then x * 2 ^ n % 2 ^ 64 else overshift x n

/-- The function `Log2`. -/
def Log2 (val : Nat) : Nat :=
  if val = 0 then 0
  else
    let ret := builtin_clzl val
    (64 + 2 ^ 64 - ret % 2 ^ 64 - 1) % 2 ^ 64

/-- The function `IsPow2`. -/
def IsPow2 (val : Nat) : Bool :=
  val != 0 && (val &&& ((val + 2 ^ 64 - 1) % 2 ^ 64)) == 0

/-- The function `Ceil2`; `overshift` is the result of a shift by 64 or more,
which C++ leaves undefined. -/
def Ceil2 (overshift : Nat → Nat → Nat) (val : Nat) : Nat :=
  if val = 0 ∨ val = 1 then 1
  else shiftLeft64 overshift 1 ((Log2 ((val + 2 ^ 64 - 1) % 2 ^ 64) + 1) % 2 ^ 64)

/-- The function `RoundUint64ToMultiple`; `none` is `std::nullopt`. -/
def RoundUint64ToMultiple (val multiple : Nat) : Option Nat :=
  if multiple = 0 then none
  else
    let numerator := (val + multiple + 2 ^ 64 - 1) % 2 ^ 64
    if numerator < val then none
    else some (numerator / multiple * multiple % 2 ^ 64)

/-- The edge lists on the frame after each of up to `pulls` successive calls of
`ExpandVariableCursor::Pull`, as long as the calls emit a tuple. -/
def emittedEdgeLists {D : Type} (self : ExpandVariable D) (g : Graph)
    (context : ExecutionContext) (fuel : Nat) :
    Nat → ExpandVariableCursor D × Frame D → List (List EdgeAccessor)
  | 0, _ => []
  | pulls + 1, s =>
    match ExpandVariableCursor.Pull self g context fuel s.1 s.2 with
    | .ok true s1 =>
      edgesOf (s1.2 self.edge_symbol) :: emittedEdgeLists self g context fuel pulls s1
    | _ => []

/-- Whether the call of `ExpandVariableCursor::Pull` that follows `pulls` emitting
calls returns `false`: the cursor is exhausted. -/
def exhaustedAfter {D : Type} (self : ExpandVariable D) (g : Graph)
    (context : ExecutionContext) (fuel : Nat) :
    Nat → ExpandVariableCursor D × Frame D → Bool
  | 0, s =>
    match ExpandVariableCursor.Pull self g context fuel s.1 s.2 with
    | .ok false _ => true
    | _ => false
  | pulls + 1, s =>
    match ExpandVariableCursor.Pull self g context fuel s.1 s.2 with
    | .ok true s1 => exhaustedAfter self g context fuel pulls s1
    | _ => false

/-! ### Termination of the depth-first expansion -/

/-- The weight of an edge still to be taken from a level of the stack of
`ExpandVariableCursor` that has `r` levels of room above it, on a graph of `n`
edges: taking the edge is one iteration, after which a new level of at most
`2 * n` edges with one level less of room may be pushed. -/
def expandWeight (n : Nat) : Nat → Nat
  | 0 => 1
  | r + 1 => 1 + 2 * n * expandWeight n r

/-- The number of iterations the loop of `Expand` can still make on a stack (the
back of the vector at the head of the list) over a graph of `n` edges: every edge
still to be taken from a level counts with the weight of the level. -/
def stackMeasure {α : Type} (n : Nat) : List (List α) → Nat
  | [] => 0
  | top :: rest => top.length * expandWeight n (n - rest.length) + stackMeasure n rest

/-- A number of iterations that suffices for every call of `Expand` on a graph of
`n` edges. -/
def expandFuel (n : Nat) : Nat := (n + 1) * (2 * n * expandWeight n n) + 1

/-- What holds of the depth-first cursor on a finite graph between the iterations
of the loop of `Expand`: the stack has at most one level more than the graph has
edges, every level holds at most twice as many edges as the graph has, all of
them edges of the graph, and while the stack is not empty the edge list on the
frame has at most one edge less than the stack has levels, and the part of it
that the stack depth keeps consists of edges of the graph, none repeated. -/
def ExpandVariableCursor.Bounded {D : Type} (self : ExpandVariable D) (g : Graph)
    (cur : ExpandVariableCursor D) (frame : Frame D) : Prop :=
  cur.edges_.length ≤ g.edges.length + 1 ∧
  (∀ level ∈ cur.edges_, level.length ≤ 2 * g.edges.length ∧ ∀ c ∈ level, c.1 ∈ g.edges) ∧
  (cur.edges_ ≠ [] → ∀ l, frame self.edge_symbol = .List l →
    ∃ es : List EdgeAccessor, l = es.map .Edge ∧ cur.edges_.length - 1 ≤ es.length ∧
      (keepEdges self.is_reverse cur.edges_.length es).Nodup ∧
      ∀ e ∈ keepEdges self.is_reverse cur.edges_.length es, e ∈ g.edges)

/-- What one iteration of the loop of `Expand` leaves behind when it starts with
the measure `before`: the bounds hold again, a further iteration starts with a
smaller measure, and the stack is empty when the loop returns false. -/
def ExpandVariableCursor.StepBounded {D : Type} (self : ExpandVariable D) (g : Graph)
    (before : Nat) : ExpandStep (ExpandVariableCursor D × Frame D) → Prop
  | .continue_ s => ExpandVariableCursor.Bounded self g s.1 s.2 ∧
      stackMeasure g.edges.length s.1.edges_ < before
  | .return_ true s => ExpandVariableCursor.Bounded self g s.1 s.2
  | .return_ false s => s.1.edges_ = [] ∧ ExpandVariableCursor.Bounded self g s.1 s.2
  | .throw_ _ => True

/-- The states the loop of `Expand` passes through when it starts in the first
state: the states at the head of the loop, iteration after iteration, and the
state in which it returns. -/
inductive ExpandPasses {D : Type} (self : ExpandVariable D) (g : Graph)
    (context : ExecutionContext) :
    ExpandVariableCursor D × Frame D → ExpandVariableCursor D × Frame D → Prop where
  | start (s : ExpandVariableCursor D × Frame D) : ExpandPasses self g context s s
  | step (s s1 s2 : ExpandVariableCursor D × Frame D) :
      ExpandBody self g context s.1 s.2 = .continue_ s1 →
      ExpandPasses self g context s1 s2 → ExpandPasses self g context s s2
  | stop (s s1 : ExpandVariableCursor D × Frame D) (b : Bool) :
      ExpandBody self g context s.1 s.2 = .return_ b s1 → ExpandPasses self g context s s1

/-! ### `TypedValue::BoolEqual` and the equality of group keys -/

mutual
/-- Modelled from the spec: `TypedValue::BoolEqual`, declared in `typed_value.hpp`
and defined outside of it. Two nulls are equal and null equals nothing else;
numbers are equal when they have the same value, an integer and a double
included; booleans, character strings, vertices, edges and paths are equal when
they are the same; lists are equal when they have the same length and their
elements are equal in turn, and so are maps, entry by entry; values of different
kinds are not equal. -/
def BoolEqual {D : Type} [DecidableEq D] [IntCast D] : TypedValue D → TypedValue D → Bool
  | .Null, right =>
    match right with
    | .Null => true
    | _ => false
  | .Bool x, right =>
    match right with
    | .Bool y => decide (x = y)
    | _ => false
  | .Int x, right =>
    match right with
    | .Int y => decide (x = y)
    | .Double y => decide ((x : D) = y)
    | _ => false
  | .Double x, right =>
    match right with
    | .Int y => decide (x = (y : D))
    | .Double y => decide (x = y)
    | _ => false
  | .String x, right =>
    match right with
    | .String y => decide (x = y)
    | _ => false
  | .List l, right =>
    match right with
    | .List r => BoolEqual.list l r
    | _ => false
  | .Map m, right =>
    match right with
    | .Map n => BoolEqual.map m n
    | _ => false
  | .Vertex v, right =>
    match right with
    | .Vertex w => decide (v = w)
    | _ => false
  | .Edge e, right =>
    match right with
    | .Edge f => decide (e = f)
    | _ => false
  | .Path start es, right =>
    match right with
    | .Path start1 es1 => decide (start = start1) && decide (es = es1)
    | _ => false

/-- Modelled from the spec: the equality of two lists under `BoolEqual`. -/
def BoolEqual.list {D : Type} [DecidableEq D] [IntCast D] :
    List (TypedValue D) → List (TypedValue D) → Bool
  | [], right => right.isEmpty
  | a :: l, right =>
    match right with
    | b :: r => BoolEqual a b && BoolEqual.list l r
    | [] => false

/-- Modelled from the spec: the equality of two maps under `BoolEqual`, as the
lists of their entries. -/
def BoolEqual.map {D : Type} [DecidableEq D] [IntCast D] :
    List (String × TypedValue D) → List (String × TypedValue D) → Bool
  | [], right => right.isEmpty
  | (k, a) :: m, right =>
    match right with
    | (k1, b) :: n => decide (k = k1) && BoolEqual a b && BoolEqual.map m n
    | [] => false
end

/-- Sample storage: the edges `0 → 1`, `1 → 2`, `0 → 3`, `3 → 2`, all of type 0. -/
def sampleGraph : Graph :=
  ⟨[⟨0, 0, 1, 0⟩, ⟨1, 1, 2, 0⟩, ⟨2, 0, 3, 0⟩, ⟨3, 3, 2, 0⟩]⟩

/-- Sample operator: expansion along out-edges of any type, input symbol 0, node
symbol 1, edge symbol 2, no bound expressions, no filter. -/
def sampleExpand : ExpandVariable Int :=
  { input_symbol := 0, node_symbol := 1, edge_symbol := 2, direction := .OUT, edge_types := [],
    existing_node := false, is_reverse := false, lower_bound := none, upper_bound := none,
    filter_lambda := ⟨3, 4, none⟩, weight_lambda := none, total_weight := none }

/-- Sample frame: every symbol is null. -/
def sampleFrame : Frame Int := fun _ => .Null

/-- Sample input: one tuple that binds symbol 0 to the vertex `v`. -/
def sampleInput (v : VertexAccessor) : List (Frame Int → Frame Int) :=
  [fun f => f.set 0 (.Vertex v)]

/-- The sample operator in reverse mode. -/
def sampleReverse : ExpandVariable Int := { sampleExpand with is_reverse := true }

/-- The sample operator with the lower bound 0. -/
def sampleFromZero : ExpandVariable Int :=
  { sampleExpand with lower_bound := some (fun _ => .Int 0) }

/-- The state after `n` successive calls of `Pull` (with fuel 10) on the sample
storage. -/
def samplePulls (self : ExpandVariable Int) :
    Nat → ExpandVariableCursor Int × Frame Int → ExpandVariableCursor Int × Frame Int
  | 0, s => s
  | n + 1, s =>
    samplePulls self n ((ExpandVariableCursor.Pull self sampleGraph ⟨false⟩ 10 s.1 s.2).stateD s)

/-- The sample operator as a breadth-first expansion to a bound sink (node
symbol 1 is bound by the input). -/
def sampleKnownSink : ExpandVariable Int := { sampleExpand with existing_node := true }

/-- Sample input: one tuple that binds symbol 0 to the vertex `s` and symbol 1 to
the vertex `t`. -/
def sampleInputPair (s t : VertexAccessor) : List (Frame Int → Frame Int) :=
  [fun f => (f.set 0 (.Vertex s)).set 1 (.Vertex t)]

/-- The frame the sample s-t expansion from vertex 0 to vertex 2 emits. -/
def sampleShortestFrame : Frame Int :=
  ((sampleFrame.set 0 (.Vertex 0)).set 1 (.Vertex 2)).set 2
    (.List ([⟨0, 0, 1, 0⟩, ⟨1, 1, 2, 0⟩].map .Edge))

/-- The state after the first `Pull` of the sample depth-first expansion from
vertex 0. -/
def sampleFirstPull : ExpandVariableCursor Int × Frame Int :=
  (ExpandVariableCursor.Pull sampleExpand sampleGraph ⟨false⟩ 5
    (ExpandVariableCursor.init (sampleInput 0)) sampleFrame).stateD
      (ExpandVariableCursor.init [], sampleFrame)

/-- Sample graph with weights: the edges 0 → 1 (gid 0), 0 → 2 (gid 1) and
2 → 1 (gid 2). -/
def weightedGraph : Graph := ⟨[⟨0, 0, 1, 0⟩, ⟨1, 0, 2, 0⟩, ⟨2, 2, 1, 0⟩]⟩

/-- Sample weights: 5 for the edge with gid 0 and 1 for the others. -/
def sampleWeights : EdgeAccessor → VertexAccessor → Int := fun e _ => if e.gid = 0 then 5 else 1

/-- Sample weight expression: the sample weight of the edge under symbol 5. -/
def sampleWeightExpression : Expression Int := fun frame =>
  match frame 5 with
  | .Edge e => .Int (sampleWeights e 0)
  | _ => .Null

/-- Sample weight lambda, with inner symbols 5 and 6. -/
def sampleWeightLambda : ExpansionLambda Int := ⟨5, 6, some sampleWeightExpression⟩

/-- The sample operator as a weighted expansion with the total weight under
symbol 7. -/
def sampleWeighted : ExpandVariable Int :=
  { sampleExpand with weight_lambda := some sampleWeightLambda, total_weight := some 7 }

/-- The sample weighted operator with a weight lambda that yields -1. -/
def sampleNegative : ExpandVariable Int :=
  { sampleExpand with weight_lambda := some ⟨5, 6, some (fun _ => .Int (-1))⟩,
                      total_weight := some 7 }

/-- Sample operations on values, for runs that never reach them: equality holds
of nothing and the operators raise. -/
def sampleOps : TypedValueOps Int :=
  { bool_equal := fun _ _ => false,
    less := fun _ _ => .error .TypedValueException,
    greater := fun _ _ => .error .TypedValueException,
    add := fun _ _ => .error .TypedValueException,
    divide := fun _ _ => .error .TypedValueException,
    of_count := fun i => i }

/-- Sample aggregation without group-by: `COUNT(*)` and one aggregation of every
operation over the value under symbol 0, with outputs under the symbols 10 to 17,
remembering the symbols 20 and 21. -/
def sampleAggregate : Aggregate Int :=
  { aggregations :=
      [⟨none, none, .COUNT, 10⟩, ⟨some (fun f => f 0), none, .COUNT, 11⟩,
       ⟨some (fun f => f 0), none, .MIN, 12⟩, ⟨some (fun f => f 0), none, .MAX, 13⟩,
       ⟨some (fun f => f 0), none, .SUM, 14⟩, ⟨some (fun f => f 0), none, .AVG, 15⟩,
       ⟨some (fun f => f 0), none, .COLLECT_LIST, 16⟩,
       ⟨some (fun f => f 0), some (fun _ => .String "k"), .COLLECT_MAP, 17⟩],
    group_by := [],
    remember := [20, 21] }

/-- Sample input: one tuple per value, which binds symbol 0 to the value. -/
def sampleTuples (values : List (TypedValue Int)) : List (Frame Int → Frame Int) :=
  values.map (fun value frame => frame.set 0 value)

/-- Sample filter: the value under symbol 0. -/
def sampleFilter : Filter Int := ⟨fun frame => frame 0⟩

/-- Sample skip with a constant count. -/
def sampleSkip (count : TypedValue Int) : Skip Int := ⟨fun _ => count⟩

/-- Sample limit with a constant count. -/
def sampleLimit (count : TypedValue Int) : Limit Int := ⟨fun _ => count⟩

/-- The sample aggregation grouped by the value under symbol 1. -/
def sampleGrouped : Aggregate Int := { sampleAggregate with group_by := [fun frame => frame 1] }

/-- Sample operations on values that behave as `typed_value.hpp` documents the
operators on nulls, numbers and character strings: a comparison or a sum with null
is null, numbers are compared, added and divided as numbers (the carrier of the
doubles is the integers here), character strings are compared as strings, and
every other pair of operands raises `TypedValueException`. The equality is
`BoolEqual`. -/
def documentedOps : TypedValueOps Int :=
  { bool_equal := BoolEqual,
    less := fun a b =>
      match a, b with
      | .Null, .Null => .ok .Null
      | .Null, .Int _ => .ok .Null
      | .Null, .Double _ => .ok .Null
      | .Null, .String _ => .ok .Null
      | .Int _, .Null => .ok .Null
      | .Double _, .Null => .ok .Null
      | .String _, .Null => .ok .Null
      | .Int x, .Int y => .ok (.Bool (decide (x < y)))
      | .Int x, .Double y => .ok (.Bool (decide (x < y)))
      | .Double x, .Int y => .ok (.Bool (decide (x < y)))
      | .Double x, .Double y => .ok (.Bool (decide (x < y)))
      | .String x, .String y => .ok (.Bool (decide (x < y)))
      | _, _ => .error .TypedValueException,
    greater := fun a b =>
      match a, b with
      | .Null, .Null => .ok .Null
      | .Null, .Int _ => .ok .Null
      | .Null, .Double _ => .ok .Null
      | .Null, .String _ => .ok .Null
      | .Int _, .Null => .ok .Null
      | .Double _, .Null => .ok .Null
      | .String _, .Null => .ok .Null
      | .Int x, .Int y => .ok (.Bool (decide (y < x)))
      | .Int x, .Double y => .ok (.Bool (decide (y < x)))
      | .Double x, .Int y => .ok (.Bool (decide (y < x)))
      | .Double x, .Double y => .ok (.Bool (decide (y < x)))
      | .String x, .String y => .ok (.Bool (decide (y < x)))
      | _, _ => .error .TypedValueException,
    add := fun a b =>
      match a, b with
      | .Int x, .Int y => .ok (.Int (x + y))
      | .Int x, .Double y => .ok (.Double (x + y))
      | .Double x, .Int y => .ok (.Double (x + y))
      | .Double x, .Double y => .ok (.Double (x + y))
      | _, _ => .error .TypedValueException,
    divide := fun a b =>
      match a, b with
      | .Int x, .Double y => .ok (.Double (x / y))
      | .Double x, .Double y => .ok (.Double (x / y))
      | _, _ => .error .TypedValueException,
    of_count := fun i => i }

/-- Sample aggregation without group-by: `COUNT(*)` and the `COUNT` of the value
under symbol 0, with outputs under the symbols 10 and 11. -/
def sampleCounts : Aggregate Int :=
  { aggregations := [⟨none, none, .COUNT, 10⟩, ⟨some (fun f => f 0), none, .COUNT, 11⟩],
    group_by := [],
    remember := [] }

/-- Sample aggregation without group-by: the `MIN` of the value under symbol 0,
with its output under symbol 10. -/
def sampleMin : Aggregate Int :=
  { aggregations := [⟨some (fun f => f 0), none, .MIN, 10⟩], group_by := [], remember := [] }

/-- Sample storage with a self-loop: the edges `0 → 0`, `0 → 1` and `1 → 0`, all of
type 0. -/
def loopGraph : Graph := ⟨[⟨0, 0, 0, 0⟩, ⟨1, 0, 1, 0⟩, ⟨2, 1, 0, 0⟩]⟩

/-- Sample single-hop expansion in both directions along edges of any type to a
new node: input symbol 0, node symbol 1, edge symbol 2. -/
def sampleExpandBoth : ExpandOperator :=
  { input_symbol := 0,
    common_ := { node_symbol := 1, edge_symbol := 2, direction := .BOTH, edge_types := [],
                 existing_node := false } }

/-- Sample edge uniqueness filter: expand symbol 2, previous symbols 0 and 1. -/
def sampleUniqueness : EdgeUniquenessFilter := ⟨2, [0, 1]⟩

/-- Sample input: one tuple per triple of values, which binds the symbols 0, 1 and
2 to them. -/
def sampleTriples (rows : List (TypedValue Int × TypedValue Int × TypedValue Int)) :
    List (Frame Int → Frame Int) :=
  rows.map (fun row frame => ((frame.set 0 row.1).set 1 row.2.1).set 2 row.2.2)

/-- Sample rows of edges: the expand symbol of the first row holds an edge of the
list under symbol 1, the second row holds three different edges, the expand symbol
of the third row holds the edge under symbol 0. -/
def sampleEdgeRows : List (TypedValue Int × TypedValue Int × TypedValue Int) :=
  [(.Edge ⟨0, 0, 1, 0⟩, .List [.Edge ⟨1, 1, 2, 0⟩, .Edge ⟨2, 0, 3, 0⟩], .Edge ⟨2, 0, 3, 0⟩),
   (.Edge ⟨0, 0, 1, 0⟩, .List [.Edge ⟨1, 1, 2, 0⟩], .Edge ⟨2, 0, 3, 0⟩),
   (.Edge ⟨3, 3, 2, 0⟩, .List [], .Edge ⟨3, 3, 2, 0⟩)]

/-- Sample accumulation of the symbol 0, without advancing the command. -/
def sampleAccumulate : Accumulate := ⟨[0], false⟩

/-- Sample unwind: the list under symbol 0 is unwound into symbol 1. -/
def sampleUnwind : Unwind Int := ⟨fun frame => frame 0, 1⟩

/-- Sample range scan into symbol 1: the lower bound is the value under symbol 0,
the upper bound is the given constant. -/
def sampleRange (upper : TypedValue Int) : ScanAllByLabelPropertyRange Int :=
  { output_symbol_ := 1, label_ := 0, property_ := 0,
    lower_bound_ := some ⟨fun frame => frame 0, .INCLUSIVE⟩,
    upper_bound_ := some ⟨fun _ => upper, .EXCLUSIVE⟩ }

/-- Sample range lookup: the vertices 7 and 8 whatever the bounds. -/
def sampleVertices : Nat → Nat → Option (PropertyBound Int) → Option (PropertyBound Int) →
    List VertexAccessor :=
  fun _ _ _ _ => [7, 8]

/-- Sample distinct over the symbol 0. -/
def sampleDistinct : Distinct := ⟨[0]⟩

/-- Sample union: the symbol 0 of either child under the union symbol 1; every
symbol has the name `x`. -/
def sampleUnion : Union := ⟨[1], [0], [0]⟩

/-- Sample optional with a branch that yields nothing, and the optional symbol 1. -/
def sampleOptional : Optional Int := ⟨[], [1]⟩

/-- Sample merge: the match branch yields nothing, the create branch binds the
symbol 1 to the vertex 9. -/
def sampleMerge : Merge Int := ⟨[], [fun frame => frame.set 1 (.Vertex 9)]⟩

/-- Sample cartesian product of the symbol 0 on the left and the symbol 1 on the
right. -/
def sampleCartesian : Cartesian := ⟨[0], [1]⟩

/-- Sample snapshot of the format version 6 on worker 0: written by the
transaction 10 while the transactions 3 and 5 were active, with no indexes. -/
def sampleSnapshot : SnapshotFile :=
  { opens := true, magic_number := true, summary := true,
    header := [.Int 6, .Int 0, .Int 0, .Int 0, .Int 10, .List [.Int 3, .Int 5], .List []],
    graph := true, hash := true }

/-- A sample WAL record of the given type and transaction. -/
def sampleDelta (type : StateDeltaType) (transaction_id : TransactionId) : StateDelta :=
  ⟨type, transaction_id, "", ""⟩

/-- Sample WAL in one file: the transaction 1 begins, changes the graph and
commits; the transaction 2 begins, changes the graph and aborts; the transaction 3
begins and changes the graph, and the log ends. -/
def sampleWal : List WalFile :=
  [⟨some 3, true,
    [sampleDelta .TRANSACTION_BEGIN 1, sampleDelta (.OTHER 0) 1,
      sampleDelta .TRANSACTION_BEGIN 2, sampleDelta (.OTHER 1) 2,
      sampleDelta .TRANSACTION_COMMIT 1, sampleDelta .TRANSACTION_ABORT 2,
      sampleDelta .TRANSACTION_BEGIN 3, sampleDelta (.OTHER 2) 3]⟩]

/-- Sample database: the vertices 0, 1 and 2 and the edge 10 from 0 to 1; the
vertex 2 has no edges. -/
def sampleDb : GraphDbAccessor :=
  { vertices_ := [0, 1, 2], edges_ := [10],
    vertex_record := fun vlist =>
      if vlist = 0 then ⟨[10], [], []⟩ else if vlist = 1 then ⟨[], [10], []⟩ else ⟨[], [], []⟩,
    edge_record := fun _ => ⟨0, 1, 0⟩,
    removed := [], next_address := 11 }

/-- Sample insertion into a container: the item goes to the end of the container
unless it is there already. -/
def sampleInsert : List Nat → Nat → Bool × List Nat :=
  fun container vlist =>
    if container.contains vlist then (false, container) else (true, container ++ [vlist])

/-- Sample insertion into a container that never succeeds and leaves the container
as it is. -/
def sampleInsertFails : List Nat → Nat → Bool × List Nat :=
  fun container _ => (false, container)

/-- Sample insertion into a container that fails while the container is shorter
than `size` and grows it by a placeholder each time, and then inserts the item. -/
def sampleInsertLate (size : Nat) : List Nat → Nat → Bool × List Nat :=
  fun container vlist =>
    if container.length < size then (false, container ++ [0])
    else (true, container ++ [vlist])

/-- Sample WAL in one file: the transactions 3 and 5 begin and change the graph,
the transaction 5 commits and then the transaction 3 commits. -/
def sampleWalCommits : List WalFile :=
  [⟨some 5, true,
    [sampleDelta .TRANSACTION_BEGIN 3, sampleDelta .TRANSACTION_BEGIN 5,
      sampleDelta (.OTHER 0) 3, sampleDelta (.OTHER 1) 5,
      sampleDelta .TRANSACTION_COMMIT 5, sampleDelta .TRANSACTION_COMMIT 3]⟩]

/-- Sample storage with a self-loop: the edge 0 from the vertex 0 to itself and
the edge 1 from the vertex 1 to the vertex 0. -/
def selfLoopGraph : Graph := ⟨[⟨0, 0, 0, 0⟩, ⟨1, 1, 0, 0⟩]⟩

/-- The sample operator expanding in both directions. -/
def sampleVariableBoth : ExpandVariable Int := { sampleExpand with direction := .BOTH }

/-- Sample storage with the single edge `0 → 1`. -/
def oneEdgeGraph : Graph := ⟨[⟨0, 0, 1, 0⟩]⟩

/-- The sample operator as a breadth-first expansion to a bound sink with the lower
bound -1. -/
def sampleNegativeSink : ExpandVariable Int :=
  { sampleKnownSink with lower_bound := some (fun _ => .Int (-1)) }

theorem keepEdges_false {α : Type} (n : Nat) (l : List α) : keepEdges false n l = l.take n := by
  simp only [keepEdges, Bool.false_eq_true, if_false]
  rcases Nat.le_total l.length n with h | h
  · rw [Nat.min_eq_left h, List.take_of_length_le h, List.take_of_length_le (le_refl _)]
  · rw [Nat.min_eq_right h]

theorem keepEdges_true {α : Type} (n : Nat) (l : List α) :
    keepEdges true n l = l.drop (l.length - n) := by
  simp only [keepEdges, if_true]
  rcases Nat.le_total l.length n with h | h
  · rw [Nat.min_eq_left h]; simp [Nat.sub_eq_zero_of_le h]
  · rw [Nat.min_eq_right h]

theorem keepEdges_map {α β : Type} (f : α → β) (r : Bool) (n : Nat) (l : List α) :
    keepEdges r n (l.map f) = (keepEdges r n l).map f := by
  cases r
  · simp [keepEdges_false, List.map_take]
  · simp [keepEdges_true, List.map_drop]

theorem keepEdges_length_le {α : Type} (r : Bool) (n : Nat) (l : List α) :
    (keepEdges r n l).length ≤ n := by
  cases r
  · simp [keepEdges_false]
  · simp [keepEdges_true]; omega

theorem keepEdges_sublist {α : Type} (r : Bool) (n : Nat) (l : List α) :
    (keepEdges r n l).Sublist l := by
  cases r
  · rw [keepEdges_false]; exact List.take_sublist _ _
  · rw [keepEdges_true]; exact List.drop_sublist _ _

theorem keepEdges_keepEdges {α : Type} (r : Bool) (m n : Nat) (h : m ≤ n) (l : List α) :
    keepEdges r m (keepEdges r n l) = keepEdges r m l := by
  cases r
  · simp [keepEdges_false, List.take_take, Nat.min_eq_left h]
  · simp only [keepEdges_true, List.length_drop, List.drop_drop]
    congr 1
    omega

theorem keepEdges_of_length_le {α : Type} (r : Bool) (n : Nat) (l : List α) (h : l.length ≤ n) :
    keepEdges r n l = l := by
  cases r
  · rw [keepEdges_false, List.take_of_length_le h]
  · rw [keepEdges_true, Nat.sub_eq_zero_of_le h, List.drop_zero]

theorem keepEdges_nodup_mono {α : Type} (r : Bool) (m n : Nat) (h : m ≤ n) (l : List α)
    (hn : (keepEdges r n l).Nodup) : (keepEdges r m l).Nodup := by
  rw [← keepEdges_keepEdges r m n h l]
  exact hn.sublist (keepEdges_sublist _ _ _)

theorem found_existing_map {D : Type} (e : EdgeAccessor) (es : List EdgeAccessor) :
    found_existing (D := D) e (es.map TypedValue.Edge) = decide (e ∈ es) := by
  induction es with
  | nil => simp [found_existing]
  | cons a t ih =>
    simp only [found_existing, List.map_cons, List.any_cons, List.mem_cons] at ih ⊢
    rw [ih]
    by_cases h : e = a <;> simp [h]

theorem AppendEdge_map {D : Type} (r : Bool) (size : Nat) (e : EdgeAccessor)
    (es : List EdgeAccessor) :
    AppendEdge (D := D) r size e (es.map TypedValue.Edge) =
      (appendEdges r size e es).map TypedValue.Edge := by
  cases r <;> simp [AppendEdge, appendEdges, keepEdges_map]

theorem appendEdges_nodup (r : Bool) (size : Nat) (e : EdgeAccessor) (es : List EdgeAccessor)
    (hn : (keepEdges r size es).Nodup) (he : e ∉ keepEdges r size es) :
    (appendEdges r size e (keepEdges r size es)).Nodup := by
  have hk : keepEdges r (size - 1) (keepEdges r size es) = keepEdges r (size - 1) es :=
    keepEdges_keepEdges r _ _ (Nat.sub_le _ _) es
  have hsub : (keepEdges r (size - 1) es).Sublist (keepEdges r size es) := by
    rw [← hk]; exact keepEdges_sublist _ _ _
  have hnd : (keepEdges r (size - 1) es).Nodup := hn.sublist hsub
  have hne : e ∉ keepEdges r (size - 1) es := fun h => he (hsub.subset h)
  cases r
  · simp only [appendEdges, Bool.false_eq_true, if_false, hk]
    exact List.Nodup.append hnd (List.nodup_singleton e) (by simpa using hne)
  · simp only [appendEdges, if_true, hk]
    exact List.nodup_cons.mpr ⟨hne, hnd⟩

theorem appendEdges_length_le (r : Bool) (size : Nat) (hs : 0 < size) (e : EdgeAccessor)
    (es : List EdgeAccessor) : (appendEdges r size e es).length ≤ size := by
  have := keepEdges_length_le r (size - 1) es
  cases r <;> simp [appendEdges] at * <;> omega

theorem popExhausted_suffix {α : Type} (s : List (List α)) :
    ∃ pre, s = pre ++ popExhausted s := by
  induction s with
  | nil => exact ⟨[], rfl⟩
  | cons a t ih =>
    cases a with
    | nil =>
      obtain ⟨pre, h⟩ := ih
      refine ⟨[] :: pre, ?_⟩
      simp only [popExhausted, List.cons_append]
      rw [← h]
    | cons x xs => exact ⟨[], rfl⟩

theorem popExhausted_length_le {α : Type} (s : List (List α)) :
    (popExhausted s).length ≤ s.length := by
  obtain ⟨pre, h⟩ := popExhausted_suffix s
  conv_rhs => rw [h]
  simp

theorem popExhausted_head_ne_nil {α : Type} (s rest : List (List α)) :
    popExhausted s ≠ [] :: rest := by
  induction s with
  | nil => simp [popExhausted]
  | cons a t ih =>
    cases a with
    | nil => simpa [popExhausted] using ih
    | cons x xs => simp [popExhausted]

/-! ### The frame after one iteration -/

theorem placeOnFrame_list {D : Type} (self : ExpandVariable D) (frame : Frame D)
    (appended l : List (TypedValue D)) (e : EdgeAccessor) (v : VertexAccessor)
    (h : placeOnFrame self frame appended e v self.edge_symbol = .List l) : l = appended := by
  unfold placeOnFrame Frame.set at h
  by_cases h3 : self.edge_symbol = self.filter_lambda.inner_node_symbol
  · rw [if_pos h3] at h; cases h
  · rw [if_neg h3] at h
    by_cases h2 : self.edge_symbol = self.filter_lambda.inner_edge_symbol
    · rw [if_pos h2] at h; cases h
    · rw [if_neg h2] at h
      cases hb : self.existing_node
      · rw [hb] at h
        simp only [Bool.false_eq_true, if_false] at h
        by_cases h1 : self.edge_symbol = self.node_symbol
        · rw [if_pos h1] at h; cases h
        · rw [if_neg h1] at h
          simp only [if_true] at h
          injection h with h
          exact h.symm
      · rw [hb] at h
        simp only [if_true] at h
        injection h with h
        exact h.symm

/-! ### Invariant of the loop of `Expand` -/

theorem expandAccepted_post {D : Type} (self : ExpandVariable D) (g : Graph)
    (cur1 : ExpandVariableCursor D) (size : Nat) (v : VertexAccessor) (frame3 : Frame D)
    (hsize : cur1.edges_.length = size)
    (hub : (size : Int) ≤ cur1.upper_bound_)
    (hbl : BoundOf self.lower_bound 1 cur1.lower_bound_)
    (hbu : BoundOf self.upper_bound INT64_MAX cur1.upper_bound_)
    (app : List EdgeAccessor) (happ : app.Nodup) (hlen : app.length ≤ size)
    (hfr : ∀ l, frame3 self.edge_symbol = .List l → l = app.map .Edge) :
    ExpandVariableCursor.StepPost self (expandAccepted self g cur1 size v frame3) := by
  have hinv2 : ExpandVariableCursor.Inv self
      (if cur1.upper_bound_ > (size : Int) then
        { cur1 with edges_ :=
            ExpandFromVertex g v self.direction self.edge_types :: cur1.edges_ }
      else cur1) frame3 := by
    intro _
    split_ifs with hgt
    · refine ⟨?_, hbl, hbu, ?_⟩
      · simp only [List.length_cons, hsize]; push_cast; omega
      · intro l hl
        refine ⟨app, hfr l hl, ?_⟩
        rw [keepEdges_of_length_le]
        · exact happ
        · simp only [List.length_cons, hsize]; omega
    · refine ⟨by rw [hsize]; exact hub, hbl, hbu, ?_⟩
      intro l hl
      refine ⟨app, hfr l hl, ?_⟩
      rw [keepEdges_of_length_le _ _ _ (by rw [hsize]; exact hlen)]
      exact happ
  have h2l : (if cur1.upper_bound_ > (size : Int) then
        { cur1 with edges_ :=
            ExpandFromVertex g v self.direction self.edge_types :: cur1.edges_ }
      else cur1).lower_bound_ = cur1.lower_bound_ := by split_ifs <;> rfl
  have h2u : (if cur1.upper_bound_ > (size : Int) then
        { cur1 with edges_ :=
            ExpandFromVertex g v self.direction self.edge_types :: cur1.edges_ }
      else cur1).upper_bound_ = cur1.upper_bound_ := by split_ifs <;> rfl
  unfold expandAccepted
  simp only
  generalize (if cur1.upper_bound_ > (size : Int) then
        { cur1 with edges_ :=
            ExpandFromVertex g v self.direction self.edge_types :: cur1.edges_ }
      else cur1) = cur2 at hinv2 h2l h2u ⊢
  split
  · trivial
  · exact hinv2
  · split
    · next final hfinal =>
      have hf := hfr _ hfinal
      split_ifs with hge
      · refine ⟨hinv2, by rw [h2l]; exact hbl, by rw [h2u]; exact hbu, app, ?_, happ, ?_, ?_⟩
        · show frame3 self.edge_symbol = _
          rw [hfinal, hf]
        · show cur2.lower_bound_ ≤ _
          rw [h2l]; rw [hf, List.length_map] at hge; exact hge
        · show _ ≤ cur2.upper_bound_
          rw [h2u]; have : (app.length : Int) ≤ size := by exact_mod_cast hlen
          omega
      · exact hinv2
    · trivial

theorem expandEdge_post {D : Type} (self : ExpandVariable D) (g : Graph)
    (cur1 : ExpandVariableCursor D) (size : Nat) (current_edge : EdgeAccessor × Direction)
    (es : List EdgeAccessor) (frame : Frame D)
    (hsize : cur1.edges_.length = size) (hpos : 0 < size)
    (hub : (size : Int) ≤ cur1.upper_bound_)
    (hbl : BoundOf self.lower_bound 1 cur1.lower_bound_)
    (hbu : BoundOf self.upper_bound INT64_MAX cur1.upper_bound_)
    (hnd : (keepEdges self.is_reverse size es).Nodup) :
    ExpandVariableCursor.StepPost self
      (expandEdge self g cur1 size current_edge (es.map .Edge) frame) := by
  have hne : cur1.edges_ ≠ [] := by
    intro h; rw [h] at hsize; simp at hsize; omega
  unfold expandEdge
  simp only [keepEdges_map, found_existing_map, AppendEdge_map, decide_eq_true_eq]
  split_ifs with hfound
  · intro _
    refine ⟨by rw [hsize]; exact hub, hbl, hbu, ?_⟩
    intro l hl
    simp only [Frame.set, if_true] at hl
    injection hl with hl
    refine ⟨_, hl.symm, ?_⟩
    rw [hsize, keepEdges_keepEdges _ _ _ (le_refl _)]
    exact hnd
  · have happ := appendEdges_nodup _ _ _ _ hnd hfound
    have hlen := appendEdges_length_le self.is_reverse size hpos current_edge.1
      (keepEdges self.is_reverse size es)
    have hfr : ∀ l, placeOnFrame self frame
        ((appendEdges self.is_reverse size current_edge.1
          (keepEdges self.is_reverse size es)).map TypedValue.Edge) current_edge.1
        (arrival current_edge) self.edge_symbol = .List l →
        l = (appendEdges self.is_reverse size current_edge.1
          (keepEdges self.is_reverse size es)).map TypedValue.Edge :=
      fun l hl => placeOnFrame_list self frame _ l _ _ hl
    split
    · trivial
    · intro _
      refine ⟨by rw [hsize]; exact hub, hbl, hbu, ?_⟩
      intro l hl
      refine ⟨_, hfr l hl, ?_⟩
      rw [keepEdges_of_length_le _ _ _ (by rw [hsize]; exact hlen)]
      exact happ
    · exact expandAccepted_post self g cur1 size _ _ hsize hub hbl hbu _ happ hlen hfr

theorem ExpandBody_post {D : Type} (self : ExpandVariable D) (g : Graph)
    (context : ExecutionContext) (cur : ExpandVariableCursor D) (frame : Frame D)
    (hinv : ExpandVariableCursor.Inv self cur frame) :
    ExpandVariableCursor.StepPost self (ExpandBody self g context cur frame) := by
  unfold ExpandBody
  split
  · trivial
  · have hlen := popExhausted_length_le cur.edges_
    split
    · rfl
    · next rest hpop => exact absurd hpop (popExhausted_head_ne_nil _ _)
    · next current_edge it rest hpop =>
      rw [hpop] at hlen
      have hne : cur.edges_ ≠ [] := by
        intro h; rw [h] at hlen; simp at hlen
      obtain ⟨hub, hbl, hbu, hfr⟩ := hinv hne
      have hsz : rest.length + 1 ≤ cur.edges_.length := by simpa using hlen
      split
      · next on_frame hfe =>
        obtain ⟨es, rfl, hnd⟩ := hfr _ hfe
        have hnd1 := keepEdges_nodup_mono _ _ _ hsz _ hnd
        refine expandEdge_post self g _ (rest.length + 1) current_edge es frame ?_ ?_ ?_ hbl hbu
          hnd1
        · simp
        · omega
        · show ((rest.length + 1 : Nat) : Int) ≤ cur.upper_bound_
          have : ((rest.length + 1 : Nat) : Int) ≤ (cur.edges_.length : Int) := by
            exact_mod_cast hsz
          omega
      · trivial

theorem Expand_post {D : Type} (self : ExpandVariable D) (g : Graph)
    (context : ExecutionContext) (fuel : Nat) :
    ∀ (cur : ExpandVariableCursor D) (frame : Frame D),
      ExpandVariableCursor.Inv self cur frame →
      ∀ b s, Expand self g context fuel cur frame = .ok b s →
        (b = true → ExpandVariableCursor.Inv self s.1 s.2 ∧
          ExpandVariableCursor.GoodTuple self s.1 s.2) ∧
        (b = false → s.1.edges_ = []) := by
  induction fuel with
  | zero => intro cur frame _ b s h; simp [Expand] at h
  | succ n ih =>
    intro cur frame hinv b s h
    have hpost := ExpandBody_post self g context cur frame hinv
    unfold Expand at h
    split at h
    · next cur1 frame1 hbody =>
      rw [hbody] at hpost
      exact ih cur1 frame1 hpost b s h
    · next b1 s1 hbody =>
      rw [hbody] at hpost
      injection h with hb hs
      subst hb; subst hs
      cases b1
      · exact ⟨fun h => absurd h (by decide), fun _ => hpost⟩
      · exact ⟨fun _ => hpost, fun h => absurd h (by decide)⟩
    · cases h

/-! ### `PullInput` and `Pull` -/

theorem calc_bound_ok {D : Type} (frame : Frame D) (b : Expression D) (val : Int)
    (h : calc_bound frame b = .ok val) : 0 ≤ val ∧ b frame = .Int val := by
  unfold calc_bound EvaluateInt at h
  split at h
  · next value hv =>
    split at hv
    · next i hi =>
      injection hv with hv
      subst hv
      split_ifs at h with hneg
      injection h with h
      subst h
      exact ⟨by omega, hi⟩
    · cases hv
  · cases h

theorem BoundOf_of_eval {D : Type} (frame : Frame D) (bound : Option (Expression D))
    (dflt val : Int)
    (h : boundOrDefault frame bound dflt = .ok val) : BoundOf bound dflt val := by
  unfold boundOrDefault at h
  cases bound with
  | none =>
    simp only at h
    injection h with h
    exact h.symm
  | some b =>
    obtain ⟨h0, hb⟩ := calc_bound_ok frame b val h
    exact ⟨h0, frame, hb⟩

theorem BoundOf_nonneg {D : Type} (bound : Option (Expression D)) (dflt val : Int)
    (hd : 0 ≤ dflt) (h : BoundOf bound dflt val) : 0 ≤ val := by
  cases bound with
  | none => simp only [BoundOf] at h; omega
  | some b => exact h.1

/-- Postcondition of `PullInput` when it is called with an empty stack. -/
theorem PullInput_post {D : Type} (self : ExpandVariable D) (g : Graph)
    (context : ExecutionContext) (input : List (Frame D → Frame D)) :
    ∀ (cur : ExpandVariableCursor D) (frame : Frame D), cur.edges_ = [] →
      ∀ b s, PullInput self g context input cur frame = .ok b s →
        (b = false → s.1.edges_ = []) ∧
        (b = true → s.1.edges_.length ≤ 1 ∧
          ((s.1.edges_.length : Int) ≤ s.1.upper_bound_) ∧
          BoundOf self.lower_bound 1 s.1.lower_bound_ ∧
          BoundOf self.upper_bound INT64_MAX s.1.upper_bound_ ∧
          s.2 self.edge_symbol = .List []) := by
  induction input with
  | nil =>
    intro cur frame hcur b s h
    unfold PullInput at h
    split_ifs at h
    injection h with hb hs
    subst hb; subst hs
    exact ⟨fun _ => hcur, fun h => absurd h (by decide)⟩
  | cons t rest ih =>
    intro cur frame hcur b s h
    unfold PullInput at h
    split_ifs at h
    simp only at h
    split at h
    · exact ih cur (t frame) hcur b s h
    · next vertex hvx =>
      split at h
      · cases h
      · next lower_bound_ hlow =>
        split at h
        · cases h
        · next upper_bound_ hup =>
          injection h with hb hs
          subst hb; subst hs
          refine ⟨fun h => absurd h (by decide), fun _ => ?_⟩
          have hbl := BoundOf_of_eval _ _ _ _ hlow
          have hbu := BoundOf_of_eval _ _ _ _ hup
          have hu0 := BoundOf_nonneg _ _ _ (by decide) hbu
          refine ⟨?_, ?_, hbl, hbu, ?_⟩
          · simp only [hcur]; split_ifs <;> simp
          · simp only [hcur]; split_ifs with hpos
            · simp only [List.length_cons, List.length_nil]; omega
            · simpa using hu0
          · simp [Frame.set]
    · cases h

theorem Inv_of_list_nil {D : Type} (self : ExpandVariable D) (cur : ExpandVariableCursor D)
    (frame : Frame D) (hub : (cur.edges_.length : Int) ≤ cur.upper_bound_)
    (hbl : BoundOf self.lower_bound 1 cur.lower_bound_)
    (hbu : BoundOf self.upper_bound INT64_MAX cur.upper_bound_)
    (hfr : ∀ l, frame self.edge_symbol = .List l → l = []) :
    ExpandVariableCursor.Inv self cur frame := by
  intro _
  refine ⟨hub, hbl, hbu, ?_⟩
  intro l hl
  refine ⟨[], by rw [hfr l hl]; rfl, ?_⟩
  rw [keepEdges_of_length_le _ _ _ (by simp)]
  exact List.nodup_nil

/-- Postcondition of `Pull`: the invariant is kept, and an emitted tuple is good
whenever the node symbol and the edge symbol are different symbols. -/
theorem Pull_post {D : Type} (self : ExpandVariable D) (g : Graph)
    (context : ExecutionContext) (fuel : Nat) :
    ∀ (cur : ExpandVariableCursor D) (frame : Frame D),
      ExpandVariableCursor.Inv self cur frame →
      ∀ b s, ExpandVariableCursor.Pull self g context fuel cur frame = .ok b s →
        ExpandVariableCursor.Inv self s.1 s.2 ∧
        (b = true → self.node_symbol ≠ self.edge_symbol →
          ExpandVariableCursor.GoodTuple self s.1 s.2) := by
  induction fuel with
  | zero => intro cur frame _ b s h; simp [ExpandVariableCursor.Pull] at h
  | succ n ih =>
    intro cur frame hinv b s h
    unfold ExpandVariableCursor.Pull at h
    split at h
    · next s1 hexp =>
      injection h with hb hs
      subst hb; subst hs
      have := (Expand_post self g context _ cur frame hinv true s1 hexp).1 rfl
      exact ⟨this.1, fun _ _ => this.2⟩
    · cases h
    · cases h
    · next cur1 frame1 hexp =>
      have hnil := (Expand_post self g context _ cur frame hinv false _ hexp).2 rfl
      split at h
      · next s1 hpi =>
        injection h with hb hs
        subst hb; subst hs
        have := (PullInput_post self g context _ cur1 frame1 hnil false s1 hpi).1 rfl
        exact ⟨fun hne => absurd this hne, fun h => absurd h (by decide)⟩
      · cases h
      · cases h
      · next cur2 frame2 hpi =>
        obtain ⟨_, hub, hbl, hbu, hfl⟩ :=
          (PullInput_post self g context _ cur1 frame1 hnil true _ hpi).2 rfl
        dsimp only at hub hbl hbu hfl
        have hinv2 : ExpandVariableCursor.Inv self cur2 frame2 :=
          Inv_of_list_nil self cur2 frame2 hub hbl hbu (fun l hl => by
            rw [hfl] at hl; injection hl with hl; exact hl.symm)
        have hu0 : (0 : Int) ≤ cur2.upper_bound_ := BoundOf_nonneg _ _ _ (by decide) hbu
        by_cases hzero : cur2.lower_bound_ = 0
        · rw [if_pos hzero] at h
          split at h
          · next start_vertex hsv =>
            cases hex : self.existing_node
            · simp only [hex, Bool.not_false, if_true] at h
              injection h with hb hs
              subst hb; subst hs
              refine ⟨?_, fun _ hsym => ?_⟩
              · refine Inv_of_list_nil self cur2 _ hub hbl hbu (fun l hl => ?_)
                simp only [Frame.set] at hl
                split_ifs at hl
                rw [hfl] at hl; injection hl with hl; exact hl.symm
              · refine ⟨hbl, hbu, [], ?_, List.nodup_nil, ?_, ?_⟩
                · show (frame2.set self.node_symbol _) self.edge_symbol = _
                  simp only [Frame.set, if_neg (Ne.symm hsym)]
                  exact hfl
                · show cur2.lower_bound_ ≤ _
                  rw [hzero]; simp
                · show _ ≤ cur2.upper_bound_
                  simpa using hu0
            · simp only [hex, Bool.not_true, Bool.false_eq_true, if_false] at h
              split at h
              · cases h
              · injection h with hb hs
                subst hb; subst hs
                refine ⟨hinv2, fun _ _ => ⟨hbl, hbu, [], hfl, List.nodup_nil, ?_, ?_⟩⟩
                · show cur2.lower_bound_ ≤ _
                  rw [hzero]; simp
                · show _ ≤ cur2.upper_bound_
                  simpa using hu0
              · exact ih cur2 frame2 hinv2 b s h
          · cases h
        · rw [if_neg hzero] at h
          exact ih cur2 frame2 hinv2 b s h

theorem Reachable_inv {D : Type} (self : ExpandVariable D) (g : Graph)
    (context : ExecutionContext) (s : ExpandVariableCursor D × Frame D)
    (h : ExpandVariableCursor.Reachable self g context s) :
    ExpandVariableCursor.Inv self s.1 s.2 := by
  induction h with
  | fresh input frame => intro hne; exact absurd rfl hne
  | pull fuel b s s1 _ hpull ih => exact (Pull_post self g context fuel s.1 s.2 ih b s1 hpull).1
  | touch cur frame frame1 _ hsame ih =>
    intro hne
    obtain ⟨h1, h2, h3, h4⟩ := ih hne
    refine ⟨h1, h2, h3, ?_⟩
    intro l hl
    exact h4 l (hsame.symm.trans hl)

/-- Every tuple the depth-first cursor emits is good. -/
theorem Pull_emits_good {D : Type} (self : ExpandVariable D) (g : Graph)
    (context : ExecutionContext) (hsym : self.node_symbol ≠ self.edge_symbol)
    (s : ExpandVariableCursor D × Frame D)
    (hs : ExpandVariableCursor.Reachable self g context s) (fuel : Nat)
    (s1 : ExpandVariableCursor D × Frame D)
    (hpull : ExpandVariableCursor.Pull self g context fuel s.1 s.2 = .ok true s1) :
    ExpandVariableCursor.GoodTuple self s1.1 s1.2 :=
  (Pull_post self g context fuel s.1 s.2 (Reachable_inv self g context s hs) true s1 hpull).2
    rfl hsym

/-- C4: every tuple the depth-first cursor emits carries an edge list whose
length lies between the lower and the upper bound the cursor evaluated for the
current input tuple (1 and the largest 64-bit integer when the operator has no
bound expression), whatever the graph, the input and the filter lambda. -/
theorem ExpandVariableCursor_length_within_bounds {D : Type} (self : ExpandVariable D)
    (g : Graph) (context : ExecutionContext) (hsym : self.node_symbol ≠ self.edge_symbol)
    (s : ExpandVariableCursor D × Frame D)
    (hs : ExpandVariableCursor.Reachable self g context s) (fuel : Nat)
    (s1 : ExpandVariableCursor D × Frame D)
    (hpull : ExpandVariableCursor.Pull self g context fuel s.1 s.2 = .ok true s1) :
    BoundOf self.lower_bound 1 s1.1.lower_bound_ ∧
    BoundOf self.upper_bound INT64_MAX s1.1.upper_bound_ ∧
    ∃ es : List EdgeAccessor, s1.2 self.edge_symbol = .List (es.map .Edge) ∧
      s1.1.lower_bound_ ≤ (es.length : Int) ∧ (es.length : Int) ≤ s1.1.upper_bound_ := by
  obtain ⟨hbl, hbu, es, hes, _, hl, hu⟩ := Pull_emits_good self g context hsym s hs fuel s1 hpull
  exact ⟨hbl, hbu, es, hes, hl, hu⟩

theorem ExpandVariableCursor_length_within_bounds_witness :
    BoundOf sampleExpand.lower_bound 1 sampleFirstPull.1.lower_bound_ ∧
    BoundOf sampleExpand.upper_bound INT64_MAX sampleFirstPull.1.upper_bound_ ∧
    ∃ es : List EdgeAccessor, sampleFirstPull.2 sampleExpand.edge_symbol = .List (es.map .Edge) ∧
      sampleFirstPull.1.lower_bound_ ≤ (es.length : Int) ∧
      (es.length : Int) ≤ sampleFirstPull.1.upper_bound_ :=
  ExpandVariableCursor_length_within_bounds sampleExpand sampleGraph ⟨false⟩ (by decide)
    (ExpandVariableCursor.init (sampleInput 0), sampleFrame)
    (ExpandVariableCursor.Reachable.fresh _ _) 5 sampleFirstPull rfl

/-- C5: in every tuple the depth-first cursor emits, in forward mode and in
reverse mode alike, the value under the edge symbol is a list of edges in which
no edge occurs more than once. -/
theorem ExpandVariableCursor_edges_unique {D : Type} (self : ExpandVariable D)
    (g : Graph) (context : ExecutionContext) (hsym : self.node_symbol ≠ self.edge_symbol)
    (s : ExpandVariableCursor D × Frame D)
    (hs : ExpandVariableCursor.Reachable self g context s) (fuel : Nat)
    (s1 : ExpandVariableCursor D × Frame D)
    (hpull : ExpandVariableCursor.Pull self g context fuel s.1 s.2 = .ok true s1) :
    ∃ es : List EdgeAccessor, s1.2 self.edge_symbol = .List (es.map .Edge) ∧ es.Nodup := by
  obtain ⟨_, _, es, hes, hnd, _, _⟩ := Pull_emits_good self g context hsym s hs fuel s1 hpull
  exact ⟨es, hes, hnd⟩

theorem ExpandVariableCursor_edges_unique_witness :
    ∃ es : List EdgeAccessor,
      (samplePulls sampleReverse 2 (ExpandVariableCursor.init (sampleInput 0), sampleFrame)).2
        sampleReverse.edge_symbol = .List (es.map .Edge) ∧ es.Nodup :=
  ExpandVariableCursor_edges_unique sampleReverse sampleGraph ⟨false⟩ (by decide)
    (samplePulls sampleReverse 1 (ExpandVariableCursor.init (sampleInput 0), sampleFrame))
    (ExpandVariableCursor.Reachable.pull 10 true
      (ExpandVariableCursor.init (sampleInput 0), sampleFrame) _
      (ExpandVariableCursor.Reachable.fresh _ _) rfl)
    10 (samplePulls sampleReverse 2 (ExpandVariableCursor.init (sampleInput 0), sampleFrame)) rfl

/-! ### Completeness of the depth-first expansion -/

theorem mem_ExpandFromVertex (g : Graph) (u : VertexAccessor) (direction : Direction)
    (edge_types : List Nat) (e : EdgeAccessor) (d : Direction) :
    (e, d) ∈ ExpandFromVertex g u direction edge_types ↔
      e ∈ g.edges ∧ typeOk edge_types e = true ∧
        ((d = Direction.IN ∧ direction ≠ Direction.OUT ∧ e.To = u) ∨
         (d = Direction.OUT ∧ direction ≠ Direction.IN ∧ e.From = u)) := by
  unfold ExpandFromVertex InEdges OutEdges
  simp only [List.mem_append]
  constructor
  · rintro (h | h)
    · split_ifs at h with hd
      · simp only [List.mem_map, List.mem_filter, Bool.and_eq_true, decide_eq_true_eq,
          Prod.mk.injEq] at h
        obtain ⟨a, ⟨ha, hto, hty⟩, rfl, rfl⟩ := h
        exact ⟨ha, hty, Or.inl ⟨rfl, hd, hto⟩⟩
      · simp at h
    · split_ifs at h with hd
      · simp only [List.mem_map, List.mem_filter, Bool.and_eq_true, decide_eq_true_eq,
          Prod.mk.injEq] at h
        obtain ⟨a, ⟨ha, hfrom, hty⟩, rfl, rfl⟩ := h
        exact ⟨ha, hty, Or.inr ⟨rfl, hd, hfrom⟩⟩
      · simp at h
  · rintro ⟨he, hty, (⟨rfl, hd, hto⟩ | ⟨rfl, hd, hfrom⟩)⟩
    · left
      rw [if_pos hd]
      simp only [List.mem_map, List.mem_filter, Bool.and_eq_true, decide_eq_true_eq,
        Prod.mk.injEq]
      exact ⟨e, ⟨he, hto, hty⟩, rfl, trivial⟩
    · right
      rw [if_pos hd]
      simp only [List.mem_map, List.mem_filter, Bool.and_eq_true, decide_eq_true_eq,
        Prod.mk.injEq]
      exact ⟨e, ⟨he, hfrom, hty⟩, rfl, trivial⟩

theorem mem_edges_of_mem_ExpandFromVertex (g : Graph) (u : VertexAccessor)
    (direction : Direction) (edge_types : List Nat) (c : EdgeAccessor × Direction)
    (h : c ∈ ExpandFromVertex g u direction edge_types) : c.1 ∈ g.edges :=
  ((mem_ExpandFromVertex g u direction edge_types c.1 c.2).mp h).1

/-- An edge the walk may follow from `u` to `w` is offered by `ExpandFromVertex`,
and every occurrence of the edge among the offers arrives at `w`. -/
theorem stepTo_offered (g : Graph) (direction : Direction) (edge_types : List Nat)
    (u w : VertexAccessor) (e : EdgeAccessor)
    (h : stepTo g direction edge_types u e = some w) :
    (∃ d, (e, d) ∈ ExpandFromVertex g u direction edge_types) ∧
    ∀ d, (e, d) ∈ ExpandFromVertex g u direction edge_types → arrival (e, d) = w := by
  unfold stepTo at h
  split_ifs at h with h1 h2 h3
  · injection h with h
    refine ⟨⟨Direction.OUT, (mem_ExpandFromVertex _ _ _ _ _ _).mpr
      ⟨h1.1, h1.2, Or.inr ⟨rfl, h2.1, h2.2⟩⟩⟩, ?_⟩
    intro d hd
    rcases ((mem_ExpandFromVertex _ _ _ _ _ _).mp hd).2.2 with ⟨rfl, _, hto⟩ | ⟨rfl, _, _⟩
    · simp only [arrival, if_true]
      rw [h2.2, ← hto, h]
    · simp only [arrival]
      rw [if_neg (by decide)]
      exact h
  · injection h with h
    refine ⟨⟨Direction.IN, (mem_ExpandFromVertex _ _ _ _ _ _).mpr
      ⟨h1.1, h1.2, Or.inl ⟨rfl, h3.1, h3.2⟩⟩⟩, ?_⟩
    intro d hd
    rcases ((mem_ExpandFromVertex _ _ _ _ _ _).mp hd).2.2 with ⟨rfl, _, _⟩ | ⟨rfl, hdir, hfrom⟩
    · simp only [arrival, if_true]
      exact h
    · exact absurd ⟨hdir, hfrom⟩ h2

theorem unused_append_lt (g : Graph) (p : List EdgeAccessor) (e : EdgeAccessor)
    (he : e ∈ g.edges) (hp : e ∉ p) : unused g (p ++ [e]) < unused g p := by
  unfold unused
  generalize g.edges = l at he
  induction l with
  | nil => simp at he
  | cons a t ih =>
    simp only [List.filter_cons]
    by_cases hae : a = e
    · subst hae
      have h1 : decide (a ∉ p ++ [a]) = false := by simp
      have h2 : decide (a ∉ p) = true := by simpa using hp
      rw [h1, h2]
      simp only [Bool.false_eq_true, if_false, if_true, List.length_cons]
      have : (t.filter (fun e => decide (e ∉ p ++ [a]))).length ≤
          (t.filter (fun e => decide (e ∉ p))).length := by
        apply List.Sublist.length_le
        apply List.monotone_filter_right
        intro x hx
        simp only [decide_eq_true_eq, List.mem_append, List.mem_singleton, not_or] at hx ⊢
        exact hx.1
      omega
    · have het : e ∈ t := by
        rcases List.mem_cons.mp he with h | h
        · exact absurd h.symm hae
        · exact h
      have := ih het
      have hd : decide (a ∉ p ++ [e]) = decide (a ∉ p) := by
        simp [hae]
      rw [hd]
      split_ifs
      · simp only [List.length_cons]; omega
      · exact this

theorem onFrame_append (r : Bool) (p : List EdgeAccessor) (e : EdgeAccessor) :
    onFrame r (p ++ [e]) = if r then e :: onFrame true p else onFrame false p ++ [e] := by
  cases r <;> simp [onFrame]

theorem onFrame_length (r : Bool) (p : List EdgeAccessor) : (onFrame r p).length = p.length := by
  cases r <;> simp [onFrame]

theorem mem_onFrame (r : Bool) (p : List EdgeAccessor) (e : EdgeAccessor) :
    e ∈ onFrame r p ↔ e ∈ p := by
  cases r <;> simp [onFrame]

/-- Appending to a list whose kept part is the walk so far yields the longer walk. -/
theorem appendEdges_onFrame (r : Bool) (p l : List EdgeAccessor) (e : EdgeAccessor)
    (hl : keepEdges r p.length l = onFrame r p) :
    appendEdges r (p.length + 1) e (keepEdges r (p.length + 1) l) = onFrame r (p ++ [e]) := by
  have hk : keepEdges r p.length (keepEdges r (p.length + 1) l) = onFrame r p := by
    rw [keepEdges_keepEdges r _ _ (Nat.le_succ _), hl]
  rw [onFrame_append]
  cases r
  · simp only [appendEdges, Bool.false_eq_true, if_false, Nat.add_sub_cancel]
    rw [hk]
  · simp only [appendEdges, if_true, Nat.add_sub_cancel]
    rw [hk]

theorem keepEdges_onFrame_append (r : Bool) (p : List EdgeAccessor) (e : EdgeAccessor) :
    keepEdges r p.length (onFrame r (p ++ [e])) = onFrame r p := by
  cases r
  · simp [keepEdges_false, onFrame]
  · simp [keepEdges_true, onFrame]

/-! #### One iteration of the loop in the plain setting -/

theorem popExhausted_cons_cons {α : Type} (c : α) (it : List α) (rest : List (List α)) :
    popExhausted ((c :: it) :: rest) = (c :: it) :: rest := rfl

theorem placeOnFrame_plain {D : Type} (self : ExpandVariable D) (context : ExecutionContext)
    (hp : PlainExpansion self context) (frame : Frame D) (appended : List (TypedValue D))
    (e : EdgeAccessor) (v : VertexAccessor) :
    placeOnFrame self frame appended e v self.edge_symbol = .List appended := by
  obtain ⟨_, _, ht, hn, hie, hin, _⟩ := hp
  unfold placeOnFrame Frame.set
  simp only [ht, Bool.false_eq_true, if_false, if_neg hin, if_neg hie, if_neg hn, if_true]

/-- The iteration on an edge that the kept part of the list already holds. -/
theorem ExpandBody_found {D : Type} (self : ExpandVariable D) (g : Graph)
    (context : ExecutionContext) (hp : PlainExpansion self context)
    (inp : List (Frame D → Frame D)) (ub lb : Int) (c : EdgeAccessor × Direction)
    (it : List (EdgeAccessor × Direction)) (rest : List (List (EdgeAccessor × Direction)))
    (frame : Frame D) (l : List EdgeAccessor)
    (hfr : frame self.edge_symbol = .List (l.map .Edge))
    (hfound : c.1 ∈ keepEdges self.is_reverse (rest.length + 1) l) :
    ExpandBody self g context ⟨inp, ub, lb, (c :: it) :: rest⟩ frame =
      .continue_ (⟨inp, ub, lb, it :: rest⟩,
        frame.set self.edge_symbol
          (.List ((keepEdges self.is_reverse (rest.length + 1) l).map .Edge))) := by
  obtain ⟨ha, _, _, _, _, _, _⟩ := hp
  unfold ExpandBody
  simp only [MustAbort, ha, Bool.false_eq_true, if_false, popExhausted_cons_cons, hfr]
  unfold expandEdge
  simp only [keepEdges_map, found_existing_map, decide_eq_true_eq, if_pos hfound]

/-- The iteration on an edge that the kept part of the list does not hold. -/
theorem ExpandBody_new {D : Type} (self : ExpandVariable D) (g : Graph)
    (context : ExecutionContext) (hp : PlainExpansion self context)
    (inp : List (Frame D → Frame D)) (ub lb : Int) (c : EdgeAccessor × Direction)
    (it : List (EdgeAccessor × Direction)) (rest : List (List (EdgeAccessor × Direction)))
    (frame : Frame D) (l : List EdgeAccessor)
    (hfr : frame self.edge_symbol = .List (l.map .Edge))
    (hnew : c.1 ∉ keepEdges self.is_reverse (rest.length + 1) l) :
    ExpandBody self g context ⟨inp, ub, lb, (c :: it) :: rest⟩ frame =
      (if lb ≤ ((appendEdges self.is_reverse (rest.length + 1) c.1
            (keepEdges self.is_reverse (rest.length + 1) l)).length : Int)
        then ExpandStep.return_ true else ExpandStep.continue_)
        (⟨inp, ub, lb,
          if ub > ((rest.length + 1 : Nat) : Int) then
            ExpandFromVertex g (arrival c) self.direction self.edge_types :: it :: rest
          else it :: rest⟩,
         placeOnFrame self frame
          ((appendEdges self.is_reverse (rest.length + 1) c.1
            (keepEdges self.is_reverse (rest.length + 1) l)).map .Edge) c.1 (arrival c)) := by
  have hpl := placeOnFrame_plain self context hp
  obtain ⟨ha, hf, ht, _, _, _, _⟩ := hp
  unfold ExpandBody
  simp only [MustAbort, ha, Bool.false_eq_true, if_false, popExhausted_cons_cons, hfr]
  unfold expandEdge
  simp only [keepEdges_map, found_existing_map, decide_eq_true_eq, if_neg hnew, AppendEdge_map,
    hf]
  unfold expandAccepted
  simp only [ht, Bool.false_eq_true, if_false,
    hpl, List.length_map, ge_iff_le]
  split_ifs <;> rfl

/-! #### Reaching an emission -/

theorem Expand_congr {D : Type} (self : ExpandVariable D) (g : Graph)
    (context : ExecutionContext) (s s1 : ExpandVariableCursor D × Frame D)
    (h : ExpandBody self g context s.1 s.2 = ExpandBody self g context s1.1 s1.2) (fuel : Nat) :
    Expand self g context fuel s.1 s.2 = Expand self g context fuel s1.1 s1.2 := by
  cases fuel with
  | zero => rfl
  | succ n => unfold Expand; rw [h]

theorem EmitsSome_congr {D : Type} (self : ExpandVariable D) (g : Graph)
    (context : ExecutionContext) (P : ExpandVariableCursor D × Frame D → Prop)
    (s s1 : ExpandVariableCursor D × Frame D)
    (h : ExpandBody self g context s.1 s.2 = ExpandBody self g context s1.1 s1.2)
    (he : EmitsSome self g context P s1) : EmitsSome self g context P s := by
  obtain ⟨t, ht, hP⟩ := he
  refine ⟨t, ?_, hP⟩
  cases ht with
  | one fuel _ _ hx =>
    exact ExpandsTo.one fuel s t (by rw [Expand_congr self g context s s1 h]; exact hx)
  | more fuel _ m _ hx hrest =>
    exact ExpandsTo.more fuel s m t (by rw [Expand_congr self g context s s1 h]; exact hx) hrest

theorem EmitsSome_here {D : Type} (self : ExpandVariable D) (g : Graph)
    (context : ExecutionContext) (P : ExpandVariableCursor D × Frame D → Prop)
    (s s1 : ExpandVariableCursor D × Frame D)
    (h : ExpandBody self g context s.1 s.2 = .return_ true s1) (hP : P s1) :
    EmitsSome self g context P s :=
  ⟨s1, ExpandsTo.one 1 s s1 (by unfold Expand; rw [h]), hP⟩

theorem EmitsSome_after {D : Type} (self : ExpandVariable D) (g : Graph)
    (context : ExecutionContext) (P : ExpandVariableCursor D × Frame D → Prop)
    (s s1 : ExpandVariableCursor D × Frame D)
    (h : ExpandBody self g context s.1 s.2 = .return_ true s1)
    (he : EmitsSome self g context P s1) : EmitsSome self g context P s := by
  obtain ⟨t, ht, hP⟩ := he
  exact ⟨t, ExpandsTo.more 1 s s1 t (by unfold Expand; rw [h]) ht, hP⟩

theorem EmitsSome_step {D : Type} (self : ExpandVariable D) (g : Graph)
    (context : ExecutionContext) (P : ExpandVariableCursor D × Frame D → Prop)
    (s s1 : ExpandVariableCursor D × Frame D)
    (h : ExpandBody self g context s.1 s.2 = .continue_ s1)
    (he : EmitsSome self g context P s1) : EmitsSome self g context P s := by
  have hx : ∀ fuel, Expand self g context (fuel + 1) s.1 s.2 =
      Expand self g context fuel s1.1 s1.2 := by
    intro fuel
    conv_lhs => unfold Expand
    rw [h]
  obtain ⟨t, ht, hP⟩ := he
  refine ⟨t, ?_, hP⟩
  cases ht with
  | one fuel _ _ hy => exact ExpandsTo.one (fuel + 1) s t (by rw [hx]; exact hy)
  | more fuel _ m _ hy hrest => exact ExpandsTo.more (fuel + 1) s m t (by rw [hx]; exact hy) hrest

/-- Either way an iteration ends the search for an emission goes on from the
state it leaves. -/
theorem EmitsSome_next {D : Type} (self : ExpandVariable D) (g : Graph)
    (context : ExecutionContext) (P : ExpandVariableCursor D × Frame D → Prop)
    (s s1 : ExpandVariableCursor D × Frame D) (b : Prop) [Decidable b]
    (h : ExpandBody self g context s.1 s.2 =
      (if b then ExpandStep.return_ true else ExpandStep.continue_) s1)
    (he : EmitsSome self g context P s1) : EmitsSome self g context P s := by
  by_cases hb : b
  · rw [if_pos hb] at h; exact EmitsSome_after self g context P s s1 h he
  · rw [if_neg hb] at h; exact EmitsSome_step self g context P s s1 h he

theorem EmitsSome_pop {D : Type} (self : ExpandVariable D) (g : Graph)
    (context : ExecutionContext) (P : ExpandVariableCursor D × Frame D → Prop)
    (inp : List (Frame D → Frame D)) (ub lb : Int)
    (stack : List (List (EdgeAccessor × Direction))) (frame : Frame D)
    (he : EmitsSome self g context P (⟨inp, ub, lb, stack⟩, frame)) :
    EmitsSome self g context P (⟨inp, ub, lb, [] :: stack⟩, frame) :=
  EmitsSome_congr self g context P _ _ (by simp only [ExpandBody, popExhausted]) he

theorem mem_keepEdges_of_mem_walk (r : Bool) (p l : List EdgeAccessor) (n : Nat)
    (hn : p.length ≤ n) (hl : keepEdges r p.length l = onFrame r p) (x : EdgeAccessor)
    (hx : x ∈ p) : x ∈ keepEdges r n l := by
  have h1 : x ∈ keepEdges r p.length (keepEdges r n l) := by
    rw [keepEdges_keepEdges r _ _ hn, hl]
    exact (mem_onFrame r p x).mpr hx
  exact (keepEdges_sublist _ _ _).subset h1

/-- The exploration below a level comes back to the level: from a state whose top
iterator still holds `pre ++ post`, the loop reaches a state whose top iterator
holds `post`, with the walk `p` of the levels below unchanged on the frame.
Stated for whatever is to be reached afterwards. -/
theorem subtree_done {D : Type} (self : ExpandVariable D) (g : Graph)
    (context : ExecutionContext) (hp : PlainExpansion self context)
    (P : ExpandVariableCursor D × Frame D → Prop) (inp : List (Frame D → Frame D))
    (ub lb : Int) (d : Nat) :
    ∀ (p : List EdgeAccessor), unused g p < d →
    ∀ (pre post : List (EdgeAccessor × Direction))
      (rest : List (List (EdgeAccessor × Direction))) (frame : Frame D)
      (l S : List EdgeAccessor),
      rest.length = p.length →
      (∀ c ∈ pre, c.1 ∈ g.edges) →
      frame self.edge_symbol = .List (l.map .Edge) →
      keepEdges self.is_reverse p.length l = onFrame self.is_reverse p →
      (∀ x ∈ keepEdges self.is_reverse (p.length + 1) l, x ∈ p ∨ x ∈ S) →
      (∀ (frame1 : Frame D) (l1 : List EdgeAccessor),
        frame1 self.edge_symbol = .List (l1.map .Edge) →
        keepEdges self.is_reverse p.length l1 = onFrame self.is_reverse p →
        (∀ x ∈ keepEdges self.is_reverse (p.length + 1) l1,
          x ∈ p ∨ x ∈ S ∨ x ∈ pre.map Prod.fst) →
        EmitsSome self g context P (⟨inp, ub, lb, post :: rest⟩, frame1)) →
      EmitsSome self g context P (⟨inp, ub, lb, (pre ++ post) :: rest⟩, frame) := by
  induction d with
  | zero => intro p h; exact absurd h (Nat.not_lt_zero _)
  | succ d ihd =>
    intro p hd pre
    induction pre with
    | nil =>
      intro post rest frame l S _ _ hfr hl hsib hk
      exact hk frame l hfr hl (fun x hx => (hsib x hx).elim Or.inl (fun h => Or.inr (Or.inl h)))
    | cons c pre1 ih =>
      intro post rest frame l S hrest hpre hfr hl hsib hk
      have hpre1 : ∀ c1 ∈ pre1, c1.1 ∈ g.edges := fun c1 h => hpre c1 (List.mem_cons_of_mem _ h)
      by_cases hfound : c.1 ∈ keepEdges self.is_reverse (rest.length + 1) l
      · have hbody := ExpandBody_found self g context hp inp ub lb c (pre1 ++ post) rest frame l
          hfr hfound
        refine EmitsSome_step self g context P _ _ hbody ?_
        rw [hrest]
        refine ih post rest _ (keepEdges self.is_reverse (p.length + 1) l) S hrest hpre1 ?_ ?_ ?_ ?_
        · simp [Frame.set]
        · rw [keepEdges_keepEdges _ _ _ (Nat.le_succ _), hl]
        · intro x hx
          rw [keepEdges_keepEdges _ _ _ (le_refl _)] at hx
          exact hsib x hx
        · intro frame1 l1 h1 h2 h3
          refine hk frame1 l1 h1 h2 (fun x hx => ?_)
          rcases h3 x hx with h | h | h
          · exact Or.inl h
          · exact Or.inr (Or.inl h)
          · exact Or.inr (Or.inr (List.mem_cons_of_mem _ h))
      · have hbody := ExpandBody_new self g context hp inp ub lb c (pre1 ++ post) rest frame l
          hfr hfound
        rw [hrest] at hbody hfound
        rw [appendEdges_onFrame _ _ _ _ hl] at hbody
        refine EmitsSome_next self g context P _ _ _ hbody ?_
        have hfr3 := placeOnFrame_plain self context hp frame
          ((onFrame self.is_reverse (p ++ [c.1])).map TypedValue.Edge) c.1 (arrival c)
        have hcp : c.1 ∉ p := fun h =>
          hfound (mem_keepEdges_of_mem_walk _ _ _ _ (Nat.le_succ _) hl _ h)
        have hce : c.1 ∈ g.edges := hpre c (List.mem_cons_self _ _)
        have hlen2 : (onFrame self.is_reverse (p ++ [c.1])).length = p.length + 1 := by
          rw [onFrame_length]; simp
        -- what the rest of this level needs, whatever list `l1` is on the frame
        have hback : ∀ (frame1 : Frame D) (l1 : List EdgeAccessor),
            frame1 self.edge_symbol = .List (l1.map .Edge) →
            keepEdges self.is_reverse (p.length + 1) l1 = onFrame self.is_reverse (p ++ [c.1]) →
            EmitsSome self g context P (⟨inp, ub, lb, (pre1 ++ post) :: rest⟩, frame1) := by
          intro frame1 l1 h1 h2
          refine ih post rest frame1 l1 (c.1 :: S) hrest hpre1 h1 ?_ ?_ ?_
          · rw [← keepEdges_keepEdges _ _ _ (Nat.le_succ _), h2, keepEdges_onFrame_append]
          · intro x hx
            rw [h2, mem_onFrame] at hx
            rcases List.mem_append.mp hx with h | h
            · exact Or.inl h
            · right
              rw [List.mem_singleton] at h
              rw [h]
              exact List.mem_cons_self _ _
          · intro frame2 l2 k1 k2 k3
            refine hk frame2 l2 k1 k2 (fun x hx => ?_)
            rcases k3 x hx with h | h | h
            · exact Or.inl h
            · rcases List.mem_cons.mp h with h | h
              · right; right
                rw [h]
                exact List.mem_cons_self _ _
              · exact Or.inr (Or.inl h)
            · exact Or.inr (Or.inr (List.mem_cons_of_mem _ h))
        by_cases hub : ub > ((p.length + 1 : Nat) : Int)
        · rw [if_pos hub]
          have hlt : unused g (p ++ [c.1]) < d := by
            have := unused_append_lt g p c.1 hce hcp
            omega
          have := ihd (p ++ [c.1]) hlt
            (ExpandFromVertex g (arrival c) self.direction self.edge_types) []
            ((pre1 ++ post) :: rest) _ (onFrame self.is_reverse (p ++ [c.1])) []
            (by simp [hrest])
            (fun c1 h => mem_edges_of_mem_ExpandFromVertex _ _ _ _ c1 h) hfr3
            (by rw [keepEdges_of_length_le]; rw [hlen2]; simp)
            (fun x hx => Or.inl ((mem_onFrame _ _ _).mp ((keepEdges_sublist _ _ _).subset hx)))
            (fun frame1 l1 h1 h2 _ =>
              EmitsSome_pop self g context P inp ub lb _ frame1
                (hback frame1 l1 h1 (by
                  have : (p ++ [c.1]).length = p.length + 1 := by simp
                  rw [this] at h2
                  exact h2)))
          rw [List.append_nil] at this
          exact this
        · rw [if_neg hub]
          refine hback _ _ hfr3 ?_
          rw [keepEdges_of_length_le]
          rw [hlen2]

theorem first_occurrence (L : List (EdgeAccessor × Direction)) (e : EdgeAccessor)
    (h : ∃ d, (e, d) ∈ L) :
    ∃ pre c post, L = pre ++ c :: post ∧ c.1 = e ∧ e ∉ pre.map Prod.fst := by
  induction L with
  | nil => obtain ⟨d, hd⟩ := h; simp at hd
  | cons a t ih =>
    by_cases ha : a.1 = e
    · exact ⟨[], a, t, rfl, ha, by simp⟩
    · obtain ⟨d, hd⟩ := h
      have ht : ∃ d, (e, d) ∈ t := by
        rcases List.mem_cons.mp hd with h1 | h1
        · exact absurd (by rw [← h1]) ha
        · exact ⟨d, h1⟩
      obtain ⟨pre, c, post, hL, hc, hpre⟩ := ih ht
      refine ⟨a :: pre, c, post, by rw [hL]; rfl, hc, ?_⟩
      simp only [List.map_cons, List.mem_cons, not_or]
      exact ⟨fun h => ha h.symm, hpre⟩

/-- Every walk of distinct edges within the bounds is emitted: from the state in
which the level above the walk `p` so far has just been pushed, the loop reaches
an emission of `p` extended by any walk `e :: q` that goes on from the end of
`p`. -/
theorem walk_emitted {D : Type} (self : ExpandVariable D) (g : Graph)
    (context : ExecutionContext) (hp : PlainExpansion self context)
    (inp : List (Frame D → Frame D)) (ub lb : Int) (q : List EdgeAccessor) :
    ∀ (p : List EdgeAccessor) (u v : VertexAccessor) (e : EdgeAccessor)
      (rest : List (List (EdgeAccessor × Direction))) (frame : Frame D),
      rest.length = p.length →
      frame self.edge_symbol = .List ((onFrame self.is_reverse p).map .Edge) →
      IsWalk g self.direction self.edge_types u (e :: q) v →
      (p ++ e :: q).Nodup →
      lb ≤ ((p ++ e :: q).length : Int) → ((p ++ e :: q).length : Int) ≤ ub →
      EmitsSome self g context
        (fun s => s.2 self.edge_symbol =
            .List ((onFrame self.is_reverse (p ++ e :: q)).map .Edge) ∧
          s.1.input_cursor = inp)
        (⟨inp, ub, lb, ExpandFromVertex g u self.direction self.edge_types :: rest⟩, frame) := by
  induction q with
  | nil =>
    intro p u v e rest frame hrest hfr hwalk hnd hlb hub
    unfold IsWalk walkEnd at hwalk
    split at hwalk
    · next w hstep =>
      obtain ⟨hoff, _⟩ := stepTo_offered _ _ _ _ _ _ hstep
      obtain ⟨pre, c, post, hL, hc, hpre⟩ := first_occurrence _ e hoff
      rw [hL]
      have hep : e ∉ p := by
        intro h
        have := List.disjoint_of_nodup_append hnd h
        exact this (List.mem_cons_self _ _)
      refine subtree_done self g context hp _ inp ub lb (unused g p + 1) p (Nat.lt_succ_self _)
        pre (c :: post) rest frame (onFrame self.is_reverse p) [] hrest ?_ hfr ?_ ?_ ?_
      · intro c1 h1
        refine mem_edges_of_mem_ExpandFromVertex g u self.direction self.edge_types c1 ?_
        rw [hL]
        exact List.mem_append_left _ h1
      · rw [keepEdges_of_length_le]; rw [onFrame_length]
      · intro x hx
        exact Or.inl ((mem_onFrame _ _ _).mp ((keepEdges_sublist _ _ _).subset hx))
      · intro frame1 l1 h1 h2 h3
        have hnew : c.1 ∉ keepEdges self.is_reverse (rest.length + 1) l1 := by
          rw [hrest, hc]
          intro hx
          rcases h3 e hx with h | h | h
          · exact hep h
          · simp at h
          · exact hpre h
        have hbody := ExpandBody_new self g context hp inp ub lb c post rest frame1 l1 h1 hnew
        rw [hrest, appendEdges_onFrame _ _ _ _ h2, hc] at hbody
        have hlen2 : ((onFrame self.is_reverse (p ++ [e])).length : Int) =
            ((p ++ [e]).length : Int) := by rw [onFrame_length]
        rw [if_pos (by rw [hlen2]; exact hlb)] at hbody
        refine EmitsSome_here self g context _ _ _ hbody ⟨?_, rfl⟩
        exact placeOnFrame_plain self context hp frame1 _ _ _
    · cases hwalk
  | cons e2 q ih =>
    intro p u v e rest frame hrest hfr hwalk hnd hlb hub
    unfold IsWalk walkEnd at hwalk
    split at hwalk
    · next w hstep =>
      obtain ⟨hoff, harr⟩ := stepTo_offered _ _ _ _ _ _ hstep
      obtain ⟨pre, c, post, hL, hc, hpre⟩ := first_occurrence _ e hoff
      have hcmem : (e, c.2) ∈ ExpandFromVertex g u self.direction self.edge_types := by
        rw [hL, ← hc]
        exact List.mem_append_right _ (List.mem_cons_self _ _)
      have hcw : arrival c = w := by
        have := harr c.2 hcmem
        rw [← hc] at this
        exact this
      rw [hL]
      have hep : e ∉ p := by
        intro h
        have := List.disjoint_of_nodup_append hnd h
        exact this (List.mem_cons_self _ _)
      refine subtree_done self g context hp _ inp ub lb (unused g p + 1) p (Nat.lt_succ_self _)
        pre (c :: post) rest frame (onFrame self.is_reverse p) [] hrest ?_ hfr ?_ ?_ ?_
      · intro c1 h1
        refine mem_edges_of_mem_ExpandFromVertex g u self.direction self.edge_types c1 ?_
        rw [hL]
        exact List.mem_append_left _ h1
      · rw [keepEdges_of_length_le]; rw [onFrame_length]
      · intro x hx
        exact Or.inl ((mem_onFrame _ _ _).mp ((keepEdges_sublist _ _ _).subset hx))
      · intro frame1 l1 h1 h2 h3
        have hnew : c.1 ∉ keepEdges self.is_reverse (rest.length + 1) l1 := by
          rw [hrest, hc]
          intro hx
          rcases h3 e hx with h | h | h
          · exact hep h
          · simp at h
          · exact hpre h
        have hbody := ExpandBody_new self g context hp inp ub lb c post rest frame1 l1 h1 hnew
        rw [hrest, appendEdges_onFrame _ _ _ _ h2, hc, hcw] at hbody
        have hgt : ub > ((p.length + 1 : Nat) : Int) := by
          simp only [List.length_append, List.length_cons] at hub
          push_cast at hub ⊢
          omega
        rw [if_pos hgt] at hbody
        refine EmitsSome_next self g context _ _ _ _ hbody ?_
        have hassoc : p ++ e :: e2 :: q = (p ++ [e]) ++ e2 :: q := by simp
        rw [hassoc] at hnd hlb hub ⊢
        exact ih (p ++ [e]) w v e2 (post :: rest) _ (by simp [hrest])
          (placeOnFrame_plain self context hp frame1 _ _ _) hwalk hnd hlb hub
    · cases hwalk

theorem ExpandsTo_PullsTo {D : Type} (self : ExpandVariable D) (g : Graph)
    (context : ExecutionContext) (s s1 : ExpandVariableCursor D × Frame D)
    (h : ExpandsTo self g context s s1) : PullsTo self g context s s1 := by
  have hx : ∀ fuel (a b : ExpandVariableCursor D × Frame D),
      Expand self g context fuel a.1 a.2 = .ok true b →
      ExpandVariableCursor.Pull self g context fuel a.1 a.2 = .ok true b := by
    intro fuel a b hab
    cases fuel with
    | zero => simp [Expand] at hab
    | succ n => unfold ExpandVariableCursor.Pull; rw [hab]
  induction h with
  | one fuel a b hab => exact PullsTo.one fuel a b (hx fuel a b hab)
  | more fuel a b c hab _ ih => exact PullsTo.more fuel a b c (hx fuel a b hab) ih

/-! ### `Pull` does not depend on the fuel once the fuel suffices -/

theorem Expand_fuel_succ {D : Type} (self : ExpandVariable D) (g : Graph)
    (context : ExecutionContext) (fuel : Nat) :
    ∀ (cur : ExpandVariableCursor D) (frame : Frame D) (r : PullResult _),
      Expand self g context fuel cur frame = r → r ≠ .out_of_fuel →
      Expand self g context (fuel + 1) cur frame = r := by
  induction fuel with
  | zero => intro cur frame r h hne; simp only [Expand] at h; exact absurd h.symm hne
  | succ n ih =>
    intro cur frame r h hne
    unfold Expand at h ⊢
    split at h
    · next cur1 frame1 hbody => exact ih cur1 frame1 r h hne
    · exact h
    · exact h

theorem Pull_fuel_succ {D : Type} (self : ExpandVariable D) (g : Graph)
    (context : ExecutionContext) (fuel : Nat) :
    ∀ (cur : ExpandVariableCursor D) (frame : Frame D) (r : PullResult _),
      ExpandVariableCursor.Pull self g context fuel cur frame = r → r ≠ .out_of_fuel →
      ExpandVariableCursor.Pull self g context (fuel + 1) cur frame = r := by
  induction fuel with
  | zero =>
    intro cur frame r h hne
    simp only [ExpandVariableCursor.Pull] at h
    exact absurd h.symm hne
  | succ n ih =>
    intro cur frame r h hne
    unfold ExpandVariableCursor.Pull at h ⊢
    have hexp : Expand self g context (n + 1) cur frame ≠ .out_of_fuel := by
      intro hx
      rw [hx] at h
      exact hne h.symm
    rw [Expand_fuel_succ self g context (n + 1) cur frame _ rfl hexp]
    split at h
    · exact h
    · exact h
    · exact h
    · next cur1 frame1 _ =>
      split at h
      · exact h
      · exact h
      · exact h
      · next cur2 frame2 _ =>
        by_cases hz : cur2.lower_bound_ = 0
        · rw [if_pos hz] at h ⊢
          split at h
          · next start_vertex _ =>
            cases hex : self.existing_node
            · simp only [hex, Bool.not_false, if_true] at h ⊢
              exact h
            · simp only [hex, Bool.not_true, Bool.false_eq_true, if_false] at h ⊢
              split at h
              · exact h
              · exact h
              · exact ih cur2 frame2 r h hne
          · exact h
        · rw [if_neg hz] at h ⊢
          exact ih cur2 frame2 r h hne

theorem Pull_fuel_le {D : Type} (self : ExpandVariable D) (g : Graph)
    (context : ExecutionContext) (cur : ExpandVariableCursor D) (frame : Frame D)
    (r : PullResult _) (hne : r ≠ .out_of_fuel) (f1 f2 : Nat) (hle : f1 ≤ f2)
    (h : ExpandVariableCursor.Pull self g context f1 cur frame = r) :
    ExpandVariableCursor.Pull self g context f2 cur frame = r := by
  induction hle with
  | refl => exact h
  | step _ ih => exact Pull_fuel_succ self g context _ cur frame r ih hne

/-- Two calls of `Pull` on the same state that both return agree. -/
theorem Pull_deterministic {D : Type} (self : ExpandVariable D) (g : Graph)
    (context : ExecutionContext) (cur : ExpandVariableCursor D) (frame : Frame D)
    (f1 f2 : Nat) (b1 b2 : Bool) (s1 s2 : ExpandVariableCursor D × Frame D)
    (h1 : ExpandVariableCursor.Pull self g context f1 cur frame = .ok b1 s1)
    (h2 : ExpandVariableCursor.Pull self g context f2 cur frame = .ok b2 s2) :
    b1 = b2 ∧ s1 = s2 := by
  have k1 := Pull_fuel_le self g context cur frame _ (by simp) f1 (max f1 f2) (le_max_left _ _) h1
  have k2 := Pull_fuel_le self g context cur frame _ (by simp) f2 (max f1 f2) (le_max_right _ _) h2
  rw [k1] at k2
  injection k2 with hb hs
  exact ⟨hb, hs⟩

/-- When a call of `Pull` on `s` emits and leaves `c`, the states that emitting
pulls lead to from `s` are `c` and those they lead to from `c`. -/
theorem PullsTo_of_emit {D : Type} (self : ExpandVariable D) (g : Graph)
    (context : ExecutionContext) (s c s1 : ExpandVariableCursor D × Frame D) (fuel : Nat)
    (h : ExpandVariableCursor.Pull self g context fuel s.1 s.2 = .ok true c)
    (hp : PullsTo self g context s s1) : s1 = c ∨ PullsTo self g context c s1 := by
  cases hp with
  | one f _ _ hx => exact Or.inl (Pull_deterministic self g context _ _ _ _ _ _ _ _ hx h).2
  | more f _ m _ hx hrest =>
    have := (Pull_deterministic self g context _ _ _ _ _ _ _ _ hx h).2
    subst this
    exact Or.inr hrest

/-- When a call of `Pull` on `s` returns false, no emitting pull starts at `s`. -/
theorem PullsTo_of_exhausted {D : Type} (self : ExpandVariable D) (g : Graph)
    (context : ExecutionContext) (s c s1 : ExpandVariableCursor D × Frame D) (fuel : Nat)
    (h : ExpandVariableCursor.Pull self g context fuel s.1 s.2 = .ok false c)
    (hp : PullsTo self g context s s1) : False := by
  cases hp with
  | one f _ _ hx =>
    exact absurd (Pull_deterministic self g context _ _ _ _ _ _ _ _ hx h).1 (by decide)
  | more f _ m _ hx hrest =>
    exact absurd (Pull_deterministic self g context _ _ _ _ _ _ _ _ hx h).1 (by decide)

/-! ### The first `Pull` on a new input tuple -/

/-- With an empty stack, `Pull` takes the next input tuple: when the lower bound
is 0 and the target is not pre-bound it emits at once, and otherwise it goes on
from the state `PullInput` leaves. -/
theorem Pull_next_input {D : Type} (self : ExpandVariable D) (g : Graph)
    (context : ExecutionContext) (ha : context.must_abort = false)
    (hin : self.edge_symbol ≠ self.input_symbol)
    (cur : ExpandVariableCursor D) (frame : Frame D) (t : Frame D → Frame D)
    (rest : List (Frame D → Frame D)) (v : VertexAccessor) (lower upper : Int)
    (hstack : cur.edges_ = []) (hinput : cur.input_cursor = t :: rest)
    (hv : t frame self.input_symbol = .Vertex v)
    (hlower : boundOrDefault (t frame) self.lower_bound 1 = .ok lower)
    (hupper : boundOrDefault (t frame) self.upper_bound INT64_MAX = .ok upper) (fuel : Nat) :
    ExpandVariableCursor.Pull self g context (fuel + 1) cur frame =
      if lower = 0 ∧ self.existing_node = false then
        .ok true ((startOf self g rest lower upper v (t frame)).1,
          (startOf self g rest lower upper v (t frame)).2.set self.node_symbol (.Vertex v))
      else if lower = 0 then
        match CheckExistingNode v self.node_symbol (startOf self g rest lower upper v (t frame)).2
          with
        | .error e => .raised e
        | .ok true => .ok true (startOf self g rest lower upper v (t frame))
        | .ok false => ExpandVariableCursor.Pull self g context fuel
            (startOf self g rest lower upper v (t frame)).1
            (startOf self g rest lower upper v (t frame)).2
      else ExpandVariableCursor.Pull self g context fuel
        (startOf self g rest lower upper v (t frame)).1
        (startOf self g rest lower upper v (t frame)).2 := by
  have hexp : Expand self g context (fuel + 1) cur frame =
      .ok false ({ cur with edges_ := [] }, frame) := by
    unfold Expand ExpandBody
    simp only [MustAbort, ha, Bool.false_eq_true, if_false, hstack, popExhausted]
  have hpi : ∀ c : ExpandVariableCursor D, c.edges_ = [] →
      PullInput self g context (t :: rest) c frame =
      .ok true (⟨rest, upper, lower,
        if upper > 0 then [ExpandFromVertex g v self.direction self.edge_types] else []⟩,
        (t frame).set self.edge_symbol (.List [])) := by
    intro c hc
    unfold PullInput
    simp only [MustAbort, ha, Bool.false_eq_true, if_false, hv, hlower, hupper, hc]
  have hsv : ((t frame).set self.edge_symbol (.List [])) self.input_symbol = .Vertex v := by
    simp only [Frame.set, if_neg (Ne.symm hin)]
    exact hv
  conv_lhs => unfold ExpandVariableCursor.Pull
  rw [hexp]
  simp only [hinput]
  rw [hpi ⟨t :: rest, cur.upper_bound_, cur.lower_bound_, []⟩ rfl]
  simp only [startOf]
  by_cases hz : lower = 0
  · subst hz
    rw [if_pos rfl, hsv]
    cases hex : self.existing_node
    · simp
    · simp only [Bool.not_true, Bool.false_eq_true, Bool.true_eq_false, if_false, and_false,
        if_true]
  · have hno : ¬ (lower = 0 ∧ self.existing_node = false) := fun h => hz h.1
    simp only [if_neg hz, if_neg hno]

/-! ### Claims about the depth-first expansion -/

/-- Every walk of distinct edges from the source of a new input tuple whose length
is within the bounds is emitted before the next input tuple is pulled. -/
theorem every_walk_emitted {D : Type} (self : ExpandVariable D)
    (g : Graph) (context : ExecutionContext) (hp : PlainExpansion self context)
    (cur : ExpandVariableCursor D) (frame : Frame D) (t : Frame D → Frame D)
    (rest : List (Frame D → Frame D)) (v : VertexAccessor) (lower upper : Int)
    (hstack : cur.edges_ = []) (hinput : cur.input_cursor = t :: rest)
    (hv : t frame self.input_symbol = .Vertex v)
    (hlower : boundOrDefault (t frame) self.lower_bound 1 = .ok lower)
    (hupper : boundOrDefault (t frame) self.upper_bound INT64_MAX = .ok upper)
    (p : List EdgeAccessor) (w : VertexAccessor)
    (hwalk : IsWalk g self.direction self.edge_types v p w) (hnd : p.Nodup)
    (hlo : max lower 1 ≤ (p.length : Int)) (hup : (p.length : Int) ≤ upper) :
    ∃ s1, PullsTo self g context (cur, frame) s1 ∧
      s1.2 self.edge_symbol = .List ((onFrame self.is_reverse p).map .Edge) ∧
      s1.1.input_cursor = rest := by
  obtain ⟨hna, _, hnt, hns, _, _, his⟩ := id hp
  have hpull := Pull_next_input self g context hna his cur frame t rest v
    lower upper hstack hinput hv hlower hupper
  cases p with
  | nil => simp at hlo
  | cons e q =>
    have hpos : upper > 0 := by
      simp only [List.length_cons] at hup
      push_cast at hup
      omega
    have hlb : lower ≤ (([] ++ e :: q : List EdgeAccessor).length : Int) := by
      simp only [List.nil_append]
      exact le_trans (le_max_left _ _) hlo
    -- the search from the state after the input pull, on any frame with an empty list
    have hsearch : ∀ fr : Frame D, fr self.edge_symbol = .List [] →
        ∃ s1, PullsTo self g context
          (⟨rest, upper, lower, [ExpandFromVertex g v self.direction self.edge_types]⟩, fr) s1 ∧
          s1.2 self.edge_symbol = .List ((onFrame self.is_reverse (e :: q)).map .Edge) ∧
          s1.1.input_cursor = rest := by
      intro fr hfr
      obtain ⟨s1, hto, h1, h2⟩ := walk_emitted self g context hp rest upper lower q [] v w e []
        fr rfl (by rw [hfr]; cases self.is_reverse <;> rfl) hwalk (by simpa using hnd) hlb
        (by simpa using hup)
      exact ⟨s1, ExpandsTo_PullsTo self g context _ _ hto, h1, h2⟩
    have hstart : startOf self g rest lower upper v (t frame) =
        (⟨rest, upper, lower, [ExpandFromVertex g v self.direction self.edge_types]⟩,
          (t frame).set self.edge_symbol (.List [])) := by
      simp only [startOf, if_pos hpos]
    rw [hstart] at hpull
    by_cases hz : lower = 0
    · have h1 := hpull 0
      rw [if_pos ⟨hz, hnt⟩] at h1
      obtain ⟨s1, hto, hres⟩ := hsearch
        (((t frame).set self.edge_symbol (.List [])).set self.node_symbol (.Vertex v))
        (by simp only [Frame.set, if_neg hns, if_true])
      exact ⟨s1, PullsTo.more 1 _ _ _ h1 hto, hres⟩
    · obtain ⟨s1, hto, hres⟩ := hsearch ((t frame).set self.edge_symbol (.List []))
        (by simp only [Frame.set, if_true])
      refine ⟨s1, ?_, hres⟩
      have hno : ¬ (lower = 0 ∧ self.existing_node = false) := fun h => hz h.1
      cases hto with
      | one fuel _ _ hx =>
        have h1 := hpull fuel
        rw [if_neg hno, if_neg hz] at h1
        exact PullsTo.one (fuel + 1) _ _ (h1.trans hx)
      | more fuel _ m _ hx hrest =>
        have h1 := hpull fuel
        rw [if_neg hno, if_neg hz] at h1
        exact PullsTo.more (fuel + 1) _ m _ (h1.trans hx) hrest

/-- C3 (amended): depth-first expansion yields every walk whose length is in
range. For every graph and every input tuple with source vertex `v`, with the
evaluated bounds `lower` and `upper`, no filter lambda and no pre-bound target,
every walk `p` of pairwise distinct edges from `v` along the allowed direction
and edge types with `max lower 1 ≤ |p| ≤ upper` is emitted before the next input
tuple is pulled: after finitely many emitting pulls the edge list on the frame is
`p` in forward mode and `p` reversed in reverse mode. -/
theorem ExpandVariableCursor_emits_every_walk {D : Type} (self : ExpandVariable D)
    (g : Graph) (context : ExecutionContext) (hp : PlainExpansion self context)
    (cur : ExpandVariableCursor D) (frame : Frame D) (t : Frame D → Frame D)
    (rest : List (Frame D → Frame D)) (v : VertexAccessor) (lower upper : Int)
    (hstack : cur.edges_ = []) (hinput : cur.input_cursor = t :: rest)
    (hv : t frame self.input_symbol = .Vertex v)
    (hlower : boundOrDefault (t frame) self.lower_bound 1 = .ok lower)
    (hupper : boundOrDefault (t frame) self.upper_bound INT64_MAX = .ok upper)
    (p : List EdgeAccessor) (w : VertexAccessor)
    (hwalk : IsWalk g self.direction self.edge_types v p w) (hnd : p.Nodup)
    (hlo : max lower 1 ≤ (p.length : Int)) (hup : (p.length : Int) ≤ upper) :
    ∃ s1, PullsTo self g context (cur, frame) s1 ∧
      s1.2 self.edge_symbol = .List ((onFrame self.is_reverse p).map .Edge) ∧
      s1.1.input_cursor = rest :=
  every_walk_emitted self g context hp cur frame t rest v lower upper hstack hinput hv hlower
    hupper p w hwalk hnd hlo hup

theorem ExpandVariableCursor_emits_every_walk_witness :
    ∃ s1, PullsTo sampleExpand sampleGraph ⟨false⟩
        (ExpandVariableCursor.init (sampleInput 0), sampleFrame) s1 ∧
      s1.2 sampleExpand.edge_symbol =
        .List ((onFrame sampleExpand.is_reverse [⟨0, 0, 1, 0⟩, ⟨1, 1, 2, 0⟩]).map .Edge) ∧
      s1.1.input_cursor = [] :=
  ExpandVariableCursor_emits_every_walk sampleExpand sampleGraph ⟨false⟩
    ⟨rfl, rfl, rfl, by decide, by decide, by decide, by decide⟩
    (ExpandVariableCursor.init (sampleInput 0)) sampleFrame (fun f => f.set 0 (.Vertex 0)) []
    0 1 INT64_MAX rfl rfl rfl rfl rfl [⟨0, 0, 1, 0⟩, ⟨1, 1, 2, 0⟩] 2 (by decide) (by decide)
    (by decide) (by decide)

/-- C3, as stated, fails in reverse mode: on the sample storage the walk
`0 → 1 → 2` from vertex 0 has two distinct edges and a length within the default
bounds, yet no pull of the reverse-mode cursor leaves exactly that sequence on
the frame (the list it leaves for the walk is the reversed sequence). -/
theorem ExpandVariableCursor_reverse_counterexample :
    sampleReverse.filter_lambda.expression = none ∧ sampleReverse.existing_node = false ∧
    IsWalk sampleGraph sampleReverse.direction sampleReverse.edge_types 0
      [⟨0, 0, 1, 0⟩, ⟨1, 1, 2, 0⟩] 2 ∧
    ([⟨0, 0, 1, 0⟩, ⟨1, 1, 2, 0⟩] : List EdgeAccessor).Nodup ∧
    ¬ ∃ s1, PullsTo sampleReverse sampleGraph ⟨false⟩
        (ExpandVariableCursor.init (sampleInput 0), sampleFrame) s1 ∧
      s1.2 sampleReverse.edge_symbol =
        .List (([⟨0, 0, 1, 0⟩, ⟨1, 1, 2, 0⟩] : List EdgeAccessor).map .Edge) := by
  refine ⟨rfl, rfl, by decide, by decide, ?_⟩
  rintro ⟨s1, hto, hfr⟩
  have hfr1 := congrArg edgesOf hfr
  have e1 : ExpandVariableCursor.Pull sampleReverse sampleGraph ⟨false⟩ 10
      (ExpandVariableCursor.init (sampleInput 0), sampleFrame).1
      (ExpandVariableCursor.init (sampleInput 0), sampleFrame).2 =
      .ok true (samplePulls sampleReverse 1
        (ExpandVariableCursor.init (sampleInput 0), sampleFrame)) := rfl
  have e2 : ExpandVariableCursor.Pull sampleReverse sampleGraph ⟨false⟩ 10
      (samplePulls sampleReverse 1 (ExpandVariableCursor.init (sampleInput 0), sampleFrame)).1
      (samplePulls sampleReverse 1 (ExpandVariableCursor.init (sampleInput 0), sampleFrame)).2 =
      .ok true (samplePulls sampleReverse 2
        (ExpandVariableCursor.init (sampleInput 0), sampleFrame)) := rfl
  have e3 : ExpandVariableCursor.Pull sampleReverse sampleGraph ⟨false⟩ 10
      (samplePulls sampleReverse 2 (ExpandVariableCursor.init (sampleInput 0), sampleFrame)).1
      (samplePulls sampleReverse 2 (ExpandVariableCursor.init (sampleInput 0), sampleFrame)).2 =
      .ok true (samplePulls sampleReverse 3
        (ExpandVariableCursor.init (sampleInput 0), sampleFrame)) := rfl
  have e4 : ExpandVariableCursor.Pull sampleReverse sampleGraph ⟨false⟩ 10
      (samplePulls sampleReverse 3 (ExpandVariableCursor.init (sampleInput 0), sampleFrame)).1
      (samplePulls sampleReverse 3 (ExpandVariableCursor.init (sampleInput 0), sampleFrame)).2 =
      .ok true (samplePulls sampleReverse 4
        (ExpandVariableCursor.init (sampleInput 0), sampleFrame)) := rfl
  have e5 : ExpandVariableCursor.Pull sampleReverse sampleGraph ⟨false⟩ 10
      (samplePulls sampleReverse 4 (ExpandVariableCursor.init (sampleInput 0), sampleFrame)).1
      (samplePulls sampleReverse 4 (ExpandVariableCursor.init (sampleInput 0), sampleFrame)).2 =
      .ok false (samplePulls sampleReverse 5
        (ExpandVariableCursor.init (sampleInput 0), sampleFrame)) := rfl
  rcases PullsTo_of_emit _ _ _ _ _ _ _ e1 hto with h | hto
  · rw [h] at hfr1; revert hfr1; decide
  rcases PullsTo_of_emit _ _ _ _ _ _ _ e2 hto with h | hto
  · rw [h] at hfr1; revert hfr1; decide
  rcases PullsTo_of_emit _ _ _ _ _ _ _ e3 hto with h | hto
  · rw [h] at hfr1; revert hfr1; decide
  rcases PullsTo_of_emit _ _ _ _ _ _ _ e4 hto with h | hto
  · rw [h] at hfr1; revert hfr1; decide
  exact PullsTo_of_exhausted _ _ _ _ _ _ _ e5 hto

/-- C6: with a lower bound that evaluates to 0 and a target that is not
pre-bound, the pull that takes an input tuple with source vertex `v` emits the
zero-length path: the edge list on the frame is empty and the node symbol holds
`v` itself. The cursor is left on the expansions of `v`, and (without a filter
lambda) every walk of distinct edges from `v` of length between 1 and the upper
bound is emitted by a later pull for the same input tuple. -/
theorem ExpandVariableCursor_zero_length_path {D : Type} (self : ExpandVariable D)
    (g : Graph) (context : ExecutionContext) (ha : context.must_abort = false)
    (hex : self.existing_node = false) (hns : self.edge_symbol ≠ self.node_symbol)
    (hin : self.edge_symbol ≠ self.input_symbol)
    (cur : ExpandVariableCursor D) (frame : Frame D) (t : Frame D → Frame D)
    (rest : List (Frame D → Frame D)) (v : VertexAccessor) (upper : Int)
    (hstack : cur.edges_ = []) (hinput : cur.input_cursor = t :: rest)
    (hv : t frame self.input_symbol = .Vertex v)
    (hlower : boundOrDefault (t frame) self.lower_bound 1 = .ok 0)
    (hupper : boundOrDefault (t frame) self.upper_bound INT64_MAX = .ok upper) (fuel : Nat) :
    (∃ s, ExpandVariableCursor.Pull self g context (fuel + 1) cur frame = .ok true s ∧
      s.2 self.edge_symbol = .List [] ∧ s.2 self.node_symbol = .Vertex v ∧
      s.1.input_cursor = rest ∧
      s.1.edges_ =
        if upper > 0 then [ExpandFromVertex g v self.direction self.edge_types] else []) ∧
    (self.filter_lambda.expression = none →
      self.edge_symbol ≠ self.filter_lambda.inner_edge_symbol →
      self.edge_symbol ≠ self.filter_lambda.inner_node_symbol →
      ∀ (p : List EdgeAccessor) (w : VertexAccessor),
        IsWalk g self.direction self.edge_types v p w → p.Nodup →
        1 ≤ p.length → (p.length : Int) ≤ upper →
        ∃ s1, PullsTo self g context (cur, frame) s1 ∧
          s1.2 self.edge_symbol = .List ((onFrame self.is_reverse p).map .Edge) ∧
          s1.1.input_cursor = rest) := by
  constructor
  · have hpull := Pull_next_input self g context ha hin cur frame t rest v 0 upper hstack hinput
      hv hlower hupper fuel
    rw [if_pos ⟨rfl, hex⟩] at hpull
    refine ⟨_, hpull, ?_, ?_, rfl, rfl⟩
    · simp only [startOf, Frame.set, if_neg hns, if_true]
    · simp only [Frame.set, if_true]
  · intro hnf hie hinn p w hwalk hnd hlo hup
    refine every_walk_emitted self g context ⟨ha, hnf, hex, hns, hie, hinn, hin⟩ cur frame t rest v
      0 upper hstack hinput hv hlower hupper p w hwalk hnd ?_ hup
    have : (1 : Int) ≤ (p.length : Int) := by exact_mod_cast hlo
    simpa using this

theorem ExpandVariableCursor_zero_length_path_witness :
    (∃ s, ExpandVariableCursor.Pull sampleFromZero sampleGraph ⟨false⟩ (0 + 1)
        (ExpandVariableCursor.init (sampleInput 0)) sampleFrame = .ok true s ∧
      s.2 sampleFromZero.edge_symbol = .List [] ∧
      s.2 sampleFromZero.node_symbol = .Vertex 0 ∧
      s.1.input_cursor = [] ∧
      s.1.edges_ =
        if INT64_MAX > 0 then
          [ExpandFromVertex sampleGraph 0 sampleFromZero.direction sampleFromZero.edge_types]
        else []) ∧
    (sampleFromZero.filter_lambda.expression = none →
      sampleFromZero.edge_symbol ≠ sampleFromZero.filter_lambda.inner_edge_symbol →
      sampleFromZero.edge_symbol ≠ sampleFromZero.filter_lambda.inner_node_symbol →
      ∀ (p : List EdgeAccessor) (w : VertexAccessor),
        IsWalk sampleGraph sampleFromZero.direction sampleFromZero.edge_types 0 p w → p.Nodup →
        1 ≤ p.length → (p.length : Int) ≤ INT64_MAX →
        ∃ s1, PullsTo sampleFromZero sampleGraph ⟨false⟩
            (ExpandVariableCursor.init (sampleInput 0), sampleFrame) s1 ∧
          s1.2 sampleFromZero.edge_symbol =
            .List ((onFrame sampleFromZero.is_reverse p).map .Edge) ∧
          s1.1.input_cursor = []) :=
  ExpandVariableCursor_zero_length_path sampleFromZero sampleGraph ⟨false⟩ rfl rfl (by decide)
    (by decide) (ExpandVariableCursor.init (sampleInput 0)) sampleFrame
    (fun f => f.set 0 (.Vertex 0)) [] 0 INT64_MAX rfl rfl rfl rfl rfl 0

/-! ### Maps of visited vertices -/

theorem lookup_cons_self (m : VertexEdgeMapT) (w : VertexAccessor) (x : Option EdgeAccessor) :
    List.lookup w ((w, x) :: m) = some x := by
  simp [List.lookup]

theorem lookup_cons_ne (m : VertexEdgeMapT) (v w : VertexAccessor) (x : Option EdgeAccessor)
    (h : v ≠ w) : List.lookup v ((w, x) :: m) = List.lookup v m := by
  have : (v == w) = false := by simpa using h
  simp [List.lookup, this]

theorem Contains_cons (m : VertexEdgeMapT) (v w : VertexAccessor) (x : Option EdgeAccessor) :
    Contains ((w, x) :: m) v = true ↔ v = w ∨ Contains m v = true := by
  unfold Contains
  by_cases h : v = w
  · subst h; simp [lookup_cons_self]
  · rw [lookup_cons_ne m v w x h]; simp [h]

theorem Contains_of_lookup (m : VertexEdgeMapT) (v : VertexAccessor) (x : Option EdgeAccessor)
    (h : List.lookup v m = some x) : Contains m v = true := by
  simp [Contains, h]

theorem Contains_iff_mem_keys (m : VertexEdgeMapT) (v : VertexAccessor) :
    Contains m v = true ↔ v ∈ m.map Prod.fst := by
  induction m with
  | nil => simp [Contains, List.lookup]
  | cons a t ih =>
    obtain ⟨w, x⟩ := a
    rw [Contains_cons, ih]
    simp

theorem emplace_new (m : VertexEdgeMapT) (v : VertexAccessor) (e : Option EdgeAccessor)
    (h : ¬ Contains m v = true) : emplace m v e = (v, e) :: m := by
  simp [emplace, h]

theorem Chain_contains (m : VertexEdgeMapT) (v : VertexAccessor) (l : List EdgeAccessor)
    (h : Chain m v l) : Contains m v = true := by
  cases h with
  | root _ h1 => exact Contains_of_lookup m v _ h1
  | step _ e l1 h1 _ => exact Contains_of_lookup m v _ h1

/-- A new entry does not disturb the chains that are recorded already. -/
theorem Chain_cons (m : VertexEdgeMapT) (w : VertexAccessor) (x : Option EdgeAccessor)
    (hw : ¬ Contains m w = true) (v : VertexAccessor) (l : List EdgeAccessor)
    (h : Chain m v l) : Chain ((w, x) :: m) v l := by
  induction h with
  | root v h1 =>
    have hne : v ≠ w := fun hvw => hw (by rw [← hvw]; exact Contains_of_lookup m v _ h1)
    exact Chain.root v (by rw [lookup_cons_ne m v w x hne]; exact h1)
  | step v e l1 h1 _ ih =>
    have hne : v ≠ w := fun hvw => hw (by rw [← hvw]; exact Contains_of_lookup m v _ h1)
    exact Chain.step v e l1 (by rw [lookup_cons_ne m v w x hne]; exact h1) ih

theorem Chain_unique (m : VertexEdgeMapT) (v : VertexAccessor) (l1 l2 : List EdgeAccessor)
    (h1 : Chain m v l1) (h2 : Chain m v l2) : l1 = l2 := by
  induction h1 generalizing l2 with
  | root v hv =>
    cases h2 with
    | root _ _ => rfl
    | step _ e l hv2 _ => rw [hv] at hv2; cases hv2
  | step v e l hv _ ih =>
    cases h2 with
    | root _ hv2 => rw [hv] at hv2; cases hv2
    | step _ e2 l2 hv2 hc2 =>
      rw [hv] at hv2
      injection hv2 with hv2
      injection hv2 with hv2
      subst hv2
      rw [ih l2 hc2]

theorem chainEdges_found (m : VertexEdgeMapT) (fuel : Nat) :
    ∀ (v : VertexAccessor) (l : List EdgeAccessor),
      chainEdges m fuel v = .found l → Chain m v l := by
  induction fuel with
  | zero => intro v l h; simp [chainEdges] at h
  | succ n ih =>
    intro v l h
    unfold chainEdges at h
    split at h
    · cases h
    · next hl =>
      injection h with h
      subst h
      exact Chain.root v hl
    · next e hl =>
      split at h
      · next l1 hrec =>
        injection h with h
        subst h
        exact Chain.step v e l1 hl (ih _ _ hrec)
      · next r hne =>
        cases hr : chainEdges m n (otherEnd e v) with
        | found l1 => exact absurd hr (hne l1)
        | not_found => rw [hr] at h; cases h
        | raised e1 => rw [hr] at h; cases h
        | out_of_fuel => rw [hr] at h; cases h

/-- The path `ReconstructPath` returns consists of the two recorded chains. -/
theorem ReconstructPath_found (v : VertexAccessor) (in_edge out_edge : VertexEdgeMapT)
    (p : List EdgeAccessor) (h : ReconstructPath v in_edge out_edge = .found p) :
    ∃ l1 l2, Chain in_edge v l1 ∧ Chain out_edge v l2 ∧ p = l1.reverse ++ l2 := by
  unfold ReconstructPath at h
  split at h
  · next l1 h1 =>
    split at h
    · next l2 h2 =>
      injection h with h
      exact ⟨l1, l2, chainEdges_found _ _ _ _ h1, chainEdges_found _ _ _ _ h2, h.symm⟩
    · next r hne =>
      cases hr : chainEdges out_edge (out_edge.length + 1) v with
      | found l2 => exact absurd hr (hne l2)
      | not_found => rw [hr] at h; cases h
      | raised e1 => rw [hr] at h; cases h
      | out_of_fuel => rw [hr] at h; cases h
  · next r hne =>
    cases hr : chainEdges in_edge (in_edge.length + 1) v with
    | found l1 => exact absurd hr (hne l1)
    | not_found => rw [hr] at h; cases h
    | raised e1 => rw [hr] at h; cases h
    | out_of_fuel => rw [hr] at h; cases h

/-! ### Expanding one frontier -/

theorem FoldInv_start
    (cand : VertexAccessor → List (EdgeAccessor × VertexAccessor × VertexAccessor))
    (root : VertexAccessor) (m0 other : VertexEdgeMapT) (frontier : List VertexAccessor)
    (a : Nat) (hinv : SideInv cand root m0 frontier a) :
    FoldInv cand root m0 other a [] m0 [] where
  ext := fun _ _ h => h
  keys := fun v => by simp
  fresh := fun v h => by simp at h
  chain := fun v hv => by
    obtain ⟨l, h1, h2, h3⟩ := hinv.chain v hv
    exact ⟨l, h1, h2, Nat.le_succ_of_le h3⟩
  examined := fun c h => by simp at h
  size := by simp
  nodup := hinv.nodup

theorem Chain_ext (m0 mine : VertexEdgeMapT)
    (hext : ∀ v x, m0.lookup v = some x → mine.lookup v = some x) (v : VertexAccessor)
    (l : List EdgeAccessor) (h : Chain m0 v l) : Chain mine v l := by
  induction h with
  | root v hv => exact Chain.root v (hext v _ hv)
  | step v e1 l1 hv _ ih => exact Chain.step v e1 l1 (hext v _ hv) ih

/-- The chain of a vertex that a candidate of a frontier vertex leads to. -/
theorem chain_of_candidate
    (cand : VertexAccessor → List (EdgeAccessor × VertexAccessor × VertexAccessor))
    (hjoin : ∀ u c, c ∈ cand u → otherEnd c.1 c.2.1 = u)
    (root : VertexAccessor) (m0 other : VertexEdgeMapT) (frontier : List VertexAccessor)
    (a : Nat) (hinv : SideInv cand root m0 frontier a)
    (seen : List (EdgeAccessor × VertexAccessor × VertexAccessor)) (mine : VertexEdgeMapT)
    (next : List VertexAccessor) (hf : FoldInv cand root m0 other a seen mine next)
    (u : VertexAccessor) (hu : u ∈ frontier) (e : EdgeAccessor) (w arg : VertexAccessor)
    (hc : (e, w, arg) ∈ cand u) (hw : ¬ Contains mine w = true) :
    ∃ l, Chain ((w, some e) :: mine) w l ∧ BackWalk cand root w l ∧ l.length ≤ a + 1 := by
  have hou : otherEnd e w = u := hjoin u _ hc
  obtain ⟨l, h1, h2, h3⟩ := hinv.chain u (hinv.front u hu)
  have h1m : Chain mine u l := Chain_ext m0 mine hf.ext u l h1
  refine ⟨e :: l, ?_, ?_, by simp; omega⟩
  · refine Chain.step w e l (lookup_cons_self mine w (some e)) ?_
    rw [hou]
    exact Chain_cons mine w (some e) hw u l h1m
  · refine BackWalk.step w e l arg ?_ ?_
    · rw [hou]; exact hc
    · rw [hou]; exact h2

theorem FoldInv_skip
    (cand : VertexAccessor → List (EdgeAccessor × VertexAccessor × VertexAccessor))
    (root : VertexAccessor) (m0 other : VertexEdgeMapT) (a : Nat)
    (seen : List (EdgeAccessor × VertexAccessor × VertexAccessor)) (mine : VertexEdgeMapT)
    (next : List VertexAccessor) (hf : FoldInv cand root m0 other a seen mine next)
    (c : EdgeAccessor × VertexAccessor × VertexAccessor) (hc : Contains mine c.2.1 = true) :
    FoldInv cand root m0 other a (seen ++ [c]) mine next where
  ext := hf.ext
  keys := hf.keys
  fresh := hf.fresh
  chain := hf.chain
  examined := fun c1 h => by
    rcases List.mem_append.mp h with h | h
    · exact hf.examined c1 h
    · rw [List.mem_singleton] at h; rw [h]; exact hc
  size := hf.size
  nodup := hf.nodup

theorem FoldInv_visit
    (cand : VertexAccessor → List (EdgeAccessor × VertexAccessor × VertexAccessor))
    (hjoin : ∀ u c, c ∈ cand u → otherEnd c.1 c.2.1 = u)
    (root : VertexAccessor) (m0 other : VertexEdgeMapT) (frontier : List VertexAccessor)
    (a : Nat) (hinv : SideInv cand root m0 frontier a)
    (seen : List (EdgeAccessor × VertexAccessor × VertexAccessor)) (mine : VertexEdgeMapT)
    (next : List VertexAccessor) (hf : FoldInv cand root m0 other a seen mine next)
    (u : VertexAccessor) (hu : u ∈ frontier) (e : EdgeAccessor) (w arg : VertexAccessor)
    (hc : (e, w, arg) ∈ cand u) (hw : ¬ Contains mine w = true)
    (ho : Contains other w = false) :
    FoldInv cand root m0 other a (seen ++ [(e, w, arg)]) ((w, some e) :: mine)
      (next ++ [w]) where
  ext := fun v x h => by
    have hne : v ≠ w := fun hvw =>
      hw ((hf.keys w).mpr (Or.inl (by rw [← hvw]; exact Contains_of_lookup m0 v x h)))
    rw [lookup_cons_ne mine v w _ hne]
    exact hf.ext v x h
  keys := fun v => by
    rw [Contains_cons, hf.keys v, List.mem_append, List.mem_singleton]
    tauto
  fresh := fun v h => by
    rcases List.mem_append.mp h with h | h
    · exact hf.fresh v h
    · rw [List.mem_singleton] at h; rw [h]; exact ho
  chain := fun v hv => by
    rcases (Contains_cons mine v w (some e)).mp hv with h | h
    · rw [h]
      exact chain_of_candidate cand hjoin root m0 other frontier a hinv seen mine next hf u hu e w
        arg hc hw
    · obtain ⟨l, h1, h2, h3⟩ := hf.chain v h
      exact ⟨l, Chain_cons mine w (some e) hw v l h1, h2, h3⟩
  examined := fun c1 h => by
    rcases List.mem_append.mp h with h | h
    · exact (Contains_cons mine _ w (some e)).mpr (Or.inr (hf.examined c1 h))
    · rw [List.mem_singleton] at h
      rw [h]
      exact (Contains_cons mine _ w (some e)).mpr (Or.inl rfl)
  size := by
    simp only [List.length_cons, List.length_append, List.length_nil, hf.size]
    omega
  nodup := by
    simp only [List.map_cons, List.nodup_cons]
    exact ⟨fun h => hw ((Contains_iff_mem_keys mine w).mpr h), hf.nodup⟩

theorem expandCandidates_post
    (cand : VertexAccessor → List (EdgeAccessor × VertexAccessor × VertexAccessor))
    (hjoin : ∀ u c, c ∈ cand u → otherEnd c.1 c.2.1 = u)
    (root : VertexAccessor) (m0 other : VertexEdgeMapT) (frontier : List VertexAccessor)
    (a : Nat) (hinv : SideInv cand root m0 frontier a)
    (se : VertexAccessor → EdgeAccessor → Except Exception Bool)
    (hse : ∀ v e, se v e = .ok true)
    (todo : List (EdgeAccessor × VertexAccessor × VertexAccessor)) :
    ∀ (seen : List (EdgeAccessor × VertexAccessor × VertexAccessor)) (mine : VertexEdgeMapT)
      (next : List VertexAccessor),
      (∀ c ∈ todo, ∃ u ∈ frontier, c ∈ cand u) →
      FoldInv cand root m0 other a seen mine next →
      FrontierPost cand root m0 other a (seen ++ todo)
        (expandCandidates se other todo mine next) := by
  induction todo with
  | nil =>
    intro seen mine next _ hf
    simp only [expandCandidates, List.append_nil]
    exact hf
  | cons c rest ih =>
    intro seen mine next hall hf
    obtain ⟨e, w, arg⟩ := c
    obtain ⟨u, hu, hc⟩ := hall (e, w, arg) (List.mem_cons_self _ _)
    have hall1 : ∀ c ∈ rest, ∃ u ∈ frontier, c ∈ cand u :=
      fun c h => hall c (List.mem_cons_of_mem _ h)
    have happ : seen ++ (e, w, arg) :: rest = (seen ++ [(e, w, arg)]) ++ rest := by simp
    simp only [expandCandidates, hse]
    rw [happ]
    by_cases hw : Contains mine w = true
    · rw [if_pos hw]
      exact ih _ mine next hall1 (FoldInv_skip cand root m0 other a seen mine next hf _ hw)
    · rw [if_neg hw]
      by_cases ho : Contains other w = true
      · rw [if_pos ho, emplace_new mine w _ hw]
        refine ⟨?_, ho, ?_, chain_of_candidate cand hjoin root m0 other frontier a hinv seen mine
          next hf u hu e w arg hc hw⟩
        · cases h0 : Contains m0 w
          · rfl
          · exact absurd ((hf.keys w).mpr (Or.inl h0)) hw
        · have h1 := hf.size
          have h2 := hinv.size
          simp only [List.length_cons]
          omega
      · rw [if_neg ho, emplace_new mine w _ hw]
        have ho1 : Contains other w = false := by simpa using ho
        exact ih _ _ _ hall1 (FoldInv_visit cand hjoin root m0 other frontier a hinv seen mine next
          hf u hu e w arg hc hw ho1)

/-- After the whole frontier has been expanded and the next frontier is not empty,
the side has established one more level. -/
theorem SideInv_next
    (cand : VertexAccessor → List (EdgeAccessor × VertexAccessor × VertexAccessor))
    (root : VertexAccessor) (m0 other : VertexEdgeMapT) (frontier : List VertexAccessor)
    (a : Nat) (hinv : SideInv cand root m0 frontier a) (m1 : VertexEdgeMapT)
    (nxt : List VertexAccessor)
    (hf : FoldInv cand root m0 other a (frontier.flatMap cand) m1 nxt) (hne : nxt ≠ []) :
    SideInv cand root m1 nxt (a + 1) where
  chain := hf.chain
  front := fun v hv => (hf.keys v).mpr (Or.inr hv)
  complete := fun v l hw hl => by
    cases hw with
    | root => exact (hf.keys root).mpr (Or.inl (hinv.complete root [] BackWalk.root (by simp)))
    | step _ e l1 arg hc hrest =>
      have hu : Contains m0 (otherEnd e v) = true :=
        hinv.complete _ l1 hrest (by simp at hl; omega)
      by_cases hfr : otherEnd e v ∈ frontier
      · exact hf.examined (e, v, arg) (List.mem_flatMap.mpr ⟨_, hfr, hc⟩)
      · exact (hf.keys v).mpr (Or.inl (hinv.closed _ hu hfr (e, v, arg) hc))
  closed := fun u hu hnot c hc => by
    have hu0 : Contains m0 u = true := ((hf.keys u).mp hu).resolve_right hnot
    by_cases hfr : u ∈ frontier
    · exact hf.examined c (List.mem_flatMap.mpr ⟨u, hfr, hc⟩)
    · exact (hf.keys _).mpr (Or.inl (hinv.closed u hu0 hfr c hc))
  size := by
    have h1 := hf.size
    have h2 := hinv.size
    have h3 : 0 < nxt.length := List.length_pos.mpr hne
    omega
  nodup := hf.nodup

theorem FoldInv_disjoint
    (cand : VertexAccessor → List (EdgeAccessor × VertexAccessor × VertexAccessor))
    (root : VertexAccessor) (m0 other : VertexEdgeMapT) (a : Nat)
    (seen : List (EdgeAccessor × VertexAccessor × VertexAccessor)) (m1 : VertexEdgeMapT)
    (nxt : List VertexAccessor) (hf : FoldInv cand root m0 other a seen m1 nxt)
    (hdisj : ∀ v, Contains m0 v = true → Contains other v = false) :
    ∀ v, Contains m1 v = true → Contains other v = false := by
  intro v hv
  rcases (hf.keys v).mp hv with h | h
  · exact hdisj v h
  · exact hf.fresh v h

/-! ### Candidates and walks -/

theorem stepTo_iff (g : Graph) (direction : Direction) (edge_types : List Nat)
    (u w : VertexAccessor) (e : EdgeAccessor) :
    stepTo g direction edge_types u e = some w ↔
      e ∈ g.edges ∧ typeOk edge_types e = true ∧
        ((direction ≠ Direction.IN ∧ e.From = u ∧ w = e.To) ∨
         (direction ≠ Direction.OUT ∧ e.To = u ∧ w = e.From)) := by
  unfold stepTo
  constructor
  · intro h
    split_ifs at h with h1 h2 h3
    · injection h with h
      exact ⟨h1.1, h1.2, Or.inl ⟨h2.1, h2.2, h.symm⟩⟩
    · injection h with h
      exact ⟨h1.1, h1.2, Or.inr ⟨h3.1, h3.2, h.symm⟩⟩
  · rintro ⟨he, hty, h⟩
    rw [if_pos ⟨he, hty⟩]
    rcases h with ⟨hd, hfrom, hw⟩ | ⟨hd, hto, hw⟩
    · rw [if_pos ⟨hd, hfrom⟩, hw]
    · by_cases h2 : direction ≠ Direction.IN ∧ e.From = u
      · rw [if_pos h2, hw, hto, h2.2]
      · rw [if_neg h2, if_pos ⟨hd, hto⟩, hw]

theorem mem_sourceCandidates (g : Graph) (direction : Direction) (edge_types : List Nat)
    (u w arg : VertexAccessor) (e : EdgeAccessor) :
    (e, w, arg) ∈ sourceCandidates g direction edge_types u ↔
      arg = w ∧ stepTo g direction edge_types u e = some w := by
  rw [stepTo_iff]
  unfold sourceCandidates OutEdges InEdges
  simp only [List.mem_append]
  constructor
  · rintro (h | h)
    · split_ifs at h with hd
      · simp only [List.mem_map, List.mem_filter, Bool.and_eq_true, decide_eq_true_eq,
          Prod.mk.injEq] at h
        obtain ⟨x, ⟨hx, hfrom, hty⟩, rfl, rfl, rfl⟩ := h
        exact ⟨rfl, hx, hty, Or.inl ⟨hd, hfrom, rfl⟩⟩
      · simp at h
    · split_ifs at h with hd
      · simp only [List.mem_map, List.mem_filter, Bool.and_eq_true, decide_eq_true_eq,
          Prod.mk.injEq] at h
        obtain ⟨x, ⟨hx, hto, hty⟩, rfl, rfl, rfl⟩ := h
        exact ⟨rfl, hx, hty, Or.inr ⟨hd, hto, rfl⟩⟩
      · simp at h
  · rintro ⟨rfl, he, hty, (⟨hd, hfrom, rfl⟩ | ⟨hd, hto, rfl⟩)⟩
    · left
      rw [if_pos hd]
      simp only [List.mem_map, List.mem_filter, Bool.and_eq_true, decide_eq_true_eq,
        Prod.mk.injEq]
      exact ⟨e, ⟨he, hfrom, hty⟩, rfl, rfl, rfl⟩
    · right
      rw [if_pos hd]
      simp only [List.mem_map, List.mem_filter, Bool.and_eq_true, decide_eq_true_eq,
        Prod.mk.injEq]
      exact ⟨e, ⟨he, hto, hty⟩, rfl, rfl, rfl⟩

theorem mem_sinkCandidates (g : Graph) (direction : Direction) (edge_types : List Nat)
    (u w arg : VertexAccessor) (e : EdgeAccessor) :
    (e, w, arg) ∈ sinkCandidates g direction edge_types u ↔
      arg = u ∧ stepTo g direction edge_types w e = some u := by
  rw [stepTo_iff]
  unfold sinkCandidates OutEdges InEdges
  simp only [List.mem_append]
  constructor
  · rintro (h | h)
    · split_ifs at h with hd
      · simp only [List.mem_map, List.mem_filter, Bool.and_eq_true, decide_eq_true_eq,
          Prod.mk.injEq] at h
        obtain ⟨x, ⟨hx, hfrom, hty⟩, rfl, rfl, rfl⟩ := h
        exact ⟨rfl, hx, hty, Or.inr ⟨hd, rfl, hfrom.symm⟩⟩
      · simp at h
    · split_ifs at h with hd
      · simp only [List.mem_map, List.mem_filter, Bool.and_eq_true, decide_eq_true_eq,
          Prod.mk.injEq] at h
        obtain ⟨x, ⟨hx, hto, hty⟩, rfl, rfl, rfl⟩ := h
        exact ⟨rfl, hx, hty, Or.inl ⟨hd, rfl, hto.symm⟩⟩
      · simp at h
  · rintro ⟨rfl, he, hty, (⟨hd, hfrom, hw⟩ | ⟨hd, hto, hw⟩)⟩
    · right
      rw [if_pos hd]
      simp only [List.mem_map, List.mem_filter, Bool.and_eq_true, decide_eq_true_eq,
        Prod.mk.injEq]
      exact ⟨e, ⟨he, hw.symm, hty⟩, rfl, hfrom, trivial⟩
    · left
      rw [if_pos hd]
      simp only [List.mem_map, List.mem_filter, Bool.and_eq_true, decide_eq_true_eq,
        Prod.mk.injEq]
      exact ⟨e, ⟨he, hw.symm, hty⟩, rfl, hto, trivial⟩

/-- An edge that leads from `u` to `w` has `u` as its end other than `w`. -/
theorem otherEnd_of_stepTo (g : Graph) (direction : Direction) (edge_types : List Nat)
    (u w : VertexAccessor) (e : EdgeAccessor)
    (h : stepTo g direction edge_types u e = some w) : otherEnd e w = u ∧ otherEnd e u = w := by
  obtain ⟨_, _, h⟩ := (stepTo_iff g direction edge_types u w e).mp h
  unfold otherEnd
  rcases h with ⟨_, hfrom, hw⟩ | ⟨_, hto, hw⟩
  · constructor
    · by_cases hx : e.From = w
      · rw [if_pos hx, ← hw, ← hfrom, hx]
      · rw [if_neg hx, hfrom]
    · rw [if_pos hfrom, hw]
  · constructor
    · rw [if_pos hw.symm, hto]
    · by_cases hx : e.From = u
      · rw [if_pos hx, hto, hw, hx]
      · rw [if_neg hx, hw]

theorem sourceCandidates_join (g : Graph) (direction : Direction) (edge_types : List Nat) :
    ∀ u c, c ∈ sourceCandidates g direction edge_types u → otherEnd c.1 c.2.1 = u := by
  rintro u ⟨e, w, arg⟩ hc
  exact (otherEnd_of_stepTo g direction edge_types u w e
    ((mem_sourceCandidates g direction edge_types u w arg e).mp hc).2).1

theorem sinkCandidates_join (g : Graph) (direction : Direction) (edge_types : List Nat) :
    ∀ u c, c ∈ sinkCandidates g direction edge_types u → otherEnd c.1 c.2.1 = u := by
  rintro u ⟨e, w, arg⟩ hc
  exact (otherEnd_of_stepTo g direction edge_types w u e
    ((mem_sinkCandidates g direction edge_types u w arg e).mp hc).2).2

theorem IsWalk_nil (g : Graph) (direction : Direction) (edge_types : List Nat)
    (u v : VertexAccessor) : IsWalk g direction edge_types u [] v ↔ u = v := by
  simp [IsWalk, walkEnd]

theorem IsWalk_cons (g : Graph) (direction : Direction) (edge_types : List Nat)
    (u v : VertexAccessor) (e : EdgeAccessor) (p : List EdgeAccessor) :
    IsWalk g direction edge_types u (e :: p) v ↔
      ∃ w, stepTo g direction edge_types u e = some w ∧ IsWalk g direction edge_types w p v := by
  unfold IsWalk
  conv_lhs => unfold walkEnd
  cases h : stepTo g direction edge_types u e with
  | none => simp
  | some w => simp

theorem IsWalk_append (g : Graph) (direction : Direction) (edge_types : List Nat)
    (p q : List EdgeAccessor) :
    ∀ (u v : VertexAccessor), IsWalk g direction edge_types u (p ++ q) v ↔
      ∃ x, IsWalk g direction edge_types u p x ∧ IsWalk g direction edge_types x q v := by
  induction p with
  | nil =>
    intro u v
    simp only [List.nil_append, IsWalk_nil]
    constructor
    · intro h; exact ⟨u, rfl, h⟩
    · rintro ⟨x, rfl, h⟩; exact h
  | cons e p ih =>
    intro u v
    simp only [List.cons_append, IsWalk_cons, ih]
    constructor
    · rintro ⟨w, hs, x, h1, h2⟩; exact ⟨x, ⟨w, hs, h1⟩, h2⟩
    · rintro ⟨x, ⟨w, hs, h1⟩, h2⟩; exact ⟨w, hs, x, h1, h2⟩

/-- A walk of the search from the source, read backwards, is a walk of the graph
from the source. -/
theorem BackWalk_source_iff (g : Graph) (direction : Direction) (edge_types : List Nat)
    (s : VertexAccessor) (l : List EdgeAccessor) :
    ∀ v, BackWalk (sourceCandidates g direction edge_types) s v l ↔
      IsWalk g direction edge_types s l.reverse v := by
  induction l with
  | nil =>
    intro v
    simp only [List.reverse_nil, IsWalk_nil]
    constructor
    · intro h; cases h; rfl
    · rintro rfl; exact BackWalk.root
  | cons e l ih =>
    intro v
    simp only [List.reverse_cons, IsWalk_append, IsWalk_cons, IsWalk_nil]
    constructor
    · intro h
      cases h with
      | step _ _ _ arg hc hrest =>
        have hs := ((mem_sourceCandidates g direction edge_types _ v arg e).mp hc).2
        exact ⟨_, (ih _).mp hrest, v, hs, rfl⟩
    · rintro ⟨x, hx, w, hs, rfl⟩
      have ho := (otherEnd_of_stepTo g direction edge_types x w e hs).1
      refine BackWalk.step w e l w ?_ ?_
      · rw [ho]; exact (mem_sourceCandidates g direction edge_types x w w e).mpr ⟨rfl, hs⟩
      · rw [ho]; exact (ih x).mpr hx

/-- A walk of the search from the sink, read backwards, is a walk of the graph to
the sink. -/
theorem BackWalk_sink_iff (g : Graph) (direction : Direction) (edge_types : List Nat)
    (t : VertexAccessor) (l : List EdgeAccessor) :
    ∀ v, BackWalk (sinkCandidates g direction edge_types) t v l ↔
      IsWalk g direction edge_types v l t := by
  induction l with
  | nil =>
    intro v
    simp only [IsWalk_nil]
    constructor
    · intro h; cases h; rfl
    · rintro rfl; exact BackWalk.root
  | cons e l ih =>
    intro v
    simp only [IsWalk_cons]
    constructor
    · intro h
      cases h with
      | step _ _ _ arg hc hrest =>
        have hs := ((mem_sinkCandidates g direction edge_types _ v arg e).mp hc).2
        exact ⟨_, hs, (ih _).mp hrest⟩
    · rintro ⟨w, hs, hw⟩
      have ho := (otherEnd_of_stepTo g direction edge_types v w e hs).2
      refine BackWalk.step v e l w ?_ ?_
      · rw [ho]; exact (mem_sinkCandidates g direction edge_types w v w e).mpr ⟨rfl, hs⟩
      · rw [ho]; exact (ih w).mpr hw

/-- While the two searches have not met, every walk from the source to the sink
is longer than the levels the two sides have established together. -/
theorem walk_longer_than_levels (g : Graph) (direction : Direction) (edge_types : List Nat)
    (s t : VertexAccessor) (in_edge out_edge : VertexEdgeMapT)
    (fs ft : List VertexAccessor) (a b : Nat)
    (hs : SideInv (sourceCandidates g direction edge_types) s in_edge fs a)
    (ht : SideInv (sinkCandidates g direction edge_types) t out_edge ft b)
    (hdisj : ∀ v, Contains in_edge v = true → Contains out_edge v = false)
    (q : List EdgeAccessor) (hq : IsWalk g direction edge_types s q t) : a + b < q.length := by
  by_contra hle
  have hq1 : IsWalk g direction edge_types s (q.take a ++ q.drop a) t := by
    rw [List.take_append_drop]; exact hq
  obtain ⟨x, hx1, hx2⟩ := (IsWalk_append g direction edge_types _ _ s t).mp hq1
  have h1 : Contains in_edge x = true := by
    refine hs.complete x (q.take a).reverse ?_ ?_
    · rw [BackWalk_source_iff, List.reverse_reverse]; exact hx1
    · simp
  have h2 : Contains out_edge x = true := by
    refine ht.complete x (q.drop a) ?_ ?_
    · rw [BackWalk_sink_iff]; exact hx2
    · simp; omega
  rw [hdisj x h1] at h2
  cases h2


/-! ### Repeated edges on a walk -/

theorem exists_repeated_edge (q : List EdgeAccessor) (h : ¬ q.Nodup) :
    ∃ (a : List EdgeAccessor) (e : EdgeAccessor) (b c : List EdgeAccessor),
      q = a ++ e :: (b ++ e :: c) := by
  induction q with
  | nil => exact absurd List.nodup_nil h
  | cons x t ih =>
    by_cases hx : x ∈ t
    · obtain ⟨b, c, hbc⟩ := List.append_of_mem hx
      exact ⟨[], x, b, c, by rw [hbc]; rfl⟩
    · have ht : ¬ t.Nodup := fun hn => h (List.nodup_cons.mpr ⟨hx, hn⟩)
      obtain ⟨a, e, b, c, habc⟩ := ih ht
      exact ⟨x :: a, e, b, c, by rw [habc]; rfl⟩

/-- Two traversals of the same edge: the second one starts where the first one
starts, or ends there. -/
theorem stepTo_twice (g : Graph) (direction : Direction) (edge_types : List Nat)
    (e : EdgeAccessor) (x y z u : VertexAccessor)
    (h1 : stepTo g direction edge_types x e = some y)
    (h2 : stepTo g direction edge_types z e = some u) : (x = z ∧ y = u) ∨ u = x := by
  by_cases hxz : x = z
  · subst hxz
    rw [h1] at h2
    injection h2 with h2
    exact Or.inl ⟨rfl, h2⟩
  · right
    obtain ⟨_, _, ha⟩ := (stepTo_iff g direction edge_types x y e).mp h1
    obtain ⟨_, _, hb⟩ := (stepTo_iff g direction edge_types z u e).mp h2
    rcases ha with ⟨_, hx, _⟩ | ⟨_, hx, _⟩ <;> rcases hb with ⟨_, hz, hu⟩ | ⟨_, hz, hu⟩
    · exact absurd (hx.symm.trans hz) hxz
    · rw [hu, hx]
    · rw [hu, hx]
    · exact absurd (hx.symm.trans hz) hxz

/-- A walk that no walk between the same vertices undercuts in length repeats no
edge. -/
theorem shortest_walk_nodup (g : Graph) (direction : Direction) (edge_types : List Nat)
    (s v : VertexAccessor) (p : List EdgeAccessor)
    (hp : IsWalk g direction edge_types s p v)
    (hmin : ∀ q, IsWalk g direction edge_types s q v → p.length ≤ q.length) : p.Nodup := by
  by_contra hnd
  obtain ⟨a, e, b, c, habc⟩ := exists_repeated_edge p hnd
  subst habc
  obtain ⟨x, hax, hrest⟩ := (IsWalk_append g direction edge_types a _ s v).mp hp
  obtain ⟨y, hxy, hrest1⟩ := (IsWalk_cons g direction edge_types x v e _).mp hrest
  obtain ⟨z, hbz, hrest2⟩ := (IsWalk_append g direction edge_types b _ y v).mp hrest1
  obtain ⟨u, hzu, hcu⟩ := (IsWalk_cons g direction edge_types z v e c).mp hrest2
  rcases stepTo_twice g direction edge_types e x y z u hxy hzu with ⟨_, hyu⟩ | hux
  · subst hyu
    have := hmin (a ++ e :: c) ((IsWalk_append g direction edge_types a _ s v).mpr
      ⟨x, hax, (IsWalk_cons g direction edge_types x v e c).mpr ⟨y, hxy, hcu⟩⟩)
    simp only [List.length_append, List.length_cons] at this
    omega
  · subst hux
    have := hmin (a ++ c) ((IsWalk_append g direction edge_types a _ s v).mpr ⟨u, hax, hcu⟩)
    simp only [List.length_append, List.length_cons] at this
    omega

/-! ### The loop of `FindPath` -/

theorem BackWalk_source_universe (g : Graph) (direction : Direction) (edge_types : List Nat)
    (s v : VertexAccessor) (l : List EdgeAccessor)
    (h : BackWalk (sourceCandidates g direction edge_types) s v l) : v ∈ searchUniverse g s := by
  cases h with
  | root => exact List.mem_cons_self _ _
  | step _ e l1 arg hc _ =>
    have hs := ((mem_sourceCandidates g direction edge_types _ v arg e).mp hc).2
    obtain ⟨he, _, h⟩ := (stepTo_iff g direction edge_types _ v e).mp hs
    refine List.mem_cons_of_mem _ (List.mem_flatMap.mpr ⟨e, he, ?_⟩)
    rcases h with ⟨_, _, hw⟩ | ⟨_, _, hw⟩
    · rw [hw]; simp
    · rw [hw]; simp

/-- The source side never holds more vertices than the root and the endpoints of
the edges of the storage. -/
theorem SideInv_source_length (g : Graph) (direction : Direction) (edge_types : List Nat)
    (s : VertexAccessor) (m : VertexEdgeMapT) (frontier : List VertexAccessor) (a : Nat)
    (h : SideInv (sourceCandidates g direction edge_types) s m frontier a) :
    m.length ≤ 2 * g.edges.length + 1 := by
  have hsub : m.map Prod.fst ⊆ searchUniverse g s := by
    intro v hv
    obtain ⟨l, _, hw, _⟩ := h.chain v ((Contains_iff_mem_keys m v).mpr hv)
    exact BackWalk_source_universe g direction edge_types s v l hw
  have hlen := (List.subperm_of_subset h.nodup hsub).length_le
  have hfl : ∀ es : List EdgeAccessor,
      (es.flatMap (fun e => [e.From, e.To])).length = 2 * es.length := by
    intro es
    induction es with
    | nil => rfl
    | cons x xs ih =>
      simp only [List.flatMap_cons, List.length_append, List.length_cons, List.length_nil, ih]
      omega
  have hu : (searchUniverse g s).length = 2 * g.edges.length + 1 := by
    unfold searchUniverse
    rw [List.length_cons, hfl]
  rw [List.length_map] at hlen
  omega

theorem ShouldExpand_no_filter {D : Type} (self : ExpandVariable D) (frame : Frame D)
    (hf : self.filter_lambda.expression = none) (v : VertexAccessor) (e : EdgeAccessor) :
    ShouldExpand self frame v e = .ok true := by
  simp [ShouldExpand, hf]

theorem chainEdges_of_chain (m : VertexEdgeMapT) (v : VertexAccessor) (l : List EdgeAccessor)
    (h : Chain m v l) : ∀ fuel, l.length < fuel → chainEdges m fuel v = .found l := by
  induction h with
  | root v hv =>
    intro fuel hf
    cases fuel with
    | zero => omega
    | succ n => simp only [chainEdges, hv]
  | step v e l1 hv _ ih =>
    intro fuel hf
    cases fuel with
    | zero => omega
    | succ n =>
      simp only [List.length_cons] at hf
      simp only [chainEdges, hv, ih n (by omega)]

/-- The path returned when the searches meet at `v`, from the chains of `v`. -/
theorem onMeeting_post (g : Graph) (direction : Direction) (edge_types : List Nat)
    (s t : VertexAccessor) (lower_bound upper_bound : Int) (len : Nat) (v : VertexAccessor)
    (in_edge out_edge : VertexEdgeMapT) (l1 l2 : List EdgeAccessor)
    (h1 : Chain in_edge v l1) (h2 : Chain out_edge v l2)
    (hf1 : l1.length ≤ in_edge.length) (hf2 : l2.length ≤ out_edge.length)
    (hw1 : BackWalk (sourceCandidates g direction edge_types) s v l1)
    (hw2 : BackWalk (sinkCandidates g direction edge_types) t v l2)
    (hlen : l1.length + l2.length ≤ len) (hub : len ≤ toUInt64 upper_bound)
    (hmin : ∀ q, IsWalk g direction edge_types s q t → len ≤ q.length) :
    FindPathPost g direction edge_types s t upper_bound
      (onMeeting lower_bound len v in_edge out_edge) := by
  have hr : ReconstructPath v in_edge out_edge = .found (l1.reverse ++ l2) := by
    unfold ReconstructPath
    rw [chainEdges_of_chain in_edge v l1 h1 _ (by omega),
      chainEdges_of_chain out_edge v l2 h2 _ (by omega)]
  unfold onMeeting
  split_ifs
  · rw [hr]
    refine ⟨?_, by simp; omega, fun q hq => by have := hmin q hq; simp; omega⟩
    rw [IsWalk_append]
    exact ⟨v, (BackWalk_source_iff g direction edge_types s l1 v).mp hw1,
      (BackWalk_sink_iff g direction edge_types t l2 v).mp hw2⟩
  · trivial

theorem disjoint_symm (m1 m2 : VertexEdgeMapT)
    (h : ∀ v, Contains m1 v = true → Contains m2 v = false) :
    ∀ v, Contains m2 v = true → Contains m1 v = false := by
  intro v hv
  cases h1 : Contains m1 v
  · rfl
  · rw [h v h1] at hv; cases hv

theorem mem_flatMap_frontier
    (cand : VertexAccessor → List (EdgeAccessor × VertexAccessor × VertexAccessor))
    (frontier : List VertexAccessor) :
    ∀ c ∈ frontier.flatMap cand, ∃ u ∈ frontier, c ∈ cand u := by
  intro c hc
  obtain ⟨u, hu, h⟩ := List.mem_flatMap.mp hc
  exact ⟨u, hu, h⟩

/-- The loop of `FindPath` returns what `FindPathPost` says, from every state that
satisfies the loop invariant, when the fuel covers the vertices not visited yet. -/
theorem FindPathLoop_post {D : Type} (self : ExpandVariable D) (g : Graph)
    (context : ExecutionContext) (frame : Frame D) (lower_bound upper_bound : Int)
    (ha : context.must_abort = false) (hf : self.filter_lambda.expression = none)
    (s t : VertexAccessor) (fuel : Nat) :
    ∀ (st : FindPathState) (a : Nat),
      LoopInv g self.direction self.edge_types s t st a →
      2 * g.edges.length + 3 ≤ fuel + st.in_edge.length →
      FindPathPost g self.direction self.edge_types s t upper_bound
        (FindPathLoop self g context frame lower_bound upper_bound fuel st) := by
  induction fuel with
  | zero =>
    intro st a hinv hfuel
    have := SideInv_source_length g self.direction self.edge_types s _ _ _ hinv.source
    omega
  | succ n ih =>
    intro st a hinv hfuel
    have hse := ShouldExpand_no_filter self frame hf
    unfold FindPathLoop
    simp only [MustAbort, ha, Bool.false_eq_true, if_false]
    by_cases hu1 : st.current_length + 1 > toUInt64 upper_bound
    · rw [if_pos hu1]; trivial
    rw [if_neg hu1]
    have hpost1 := expandCandidates_post (sourceCandidates g self.direction self.edge_types)
      (sourceCandidates_join g self.direction self.edge_types) s st.in_edge st.out_edge
      st.source_frontier a hinv.source (ShouldExpand self frame) hse
      (st.source_frontier.flatMap (sourceCandidates g self.direction self.edge_types)) []
      st.in_edge [] (mem_flatMap_frontier _ _)
      (FoldInv_start _ s st.in_edge st.out_edge st.source_frontier a hinv.source)
    rw [List.nil_append] at hpost1
    have hlen := hinv.length
    generalize expandCandidates (ShouldExpand self frame) st.out_edge
      (st.source_frontier.flatMap (sourceCandidates g self.direction self.edge_types))
      st.in_edge [] = r1 at hpost1
    cases r1 with
    | raised e => exact hpost1.elim
    | meet m1 v =>
      obtain ⟨_, ho, hsz, l1, c1, w1, hl1⟩ := hpost1
      obtain ⟨l2, c2, w2, hl2⟩ := hinv.sink.chain v ho
      have hsz2 := hinv.sink.size
      refine onMeeting_post g self.direction self.edge_types s t lower_bound upper_bound _ v m1
        st.out_edge l1 l2 c1 c2 (by omega) (by omega) w1 w2 (by omega) (by omega) ?_
      intro q hq
      have := walk_longer_than_levels g self.direction self.edge_types s t _ _ _ _ a a
        hinv.source hinv.sink hinv.disjoint q hq
      omega
    | next m1 nxt =>
      simp only
      by_cases he1 : nxt.isEmpty = true
      · rw [if_pos he1]; trivial
      rw [if_neg he1]
      have hne1 : nxt ≠ [] := by
        intro h; rw [h] at he1; exact he1 rfl
      have hs1 := SideInv_next _ s st.in_edge st.out_edge st.source_frontier a hinv.source m1 nxt
        hpost1 hne1
      have hd1 := FoldInv_disjoint _ s st.in_edge st.out_edge a _ m1 nxt hpost1 hinv.disjoint
      by_cases hu2 : st.current_length + 1 + 1 > toUInt64 upper_bound
      · rw [if_pos hu2]; trivial
      rw [if_neg hu2]
      have hpost2 := expandCandidates_post (sinkCandidates g self.direction self.edge_types)
        (sinkCandidates_join g self.direction self.edge_types) t st.out_edge m1
        st.sink_frontier a hinv.sink (ShouldExpand self frame) hse
        (st.sink_frontier.flatMap (sinkCandidates g self.direction self.edge_types)) []
        st.out_edge [] (mem_flatMap_frontier _ _)
        (FoldInv_start _ t st.out_edge m1 st.sink_frontier a hinv.sink)
      rw [List.nil_append] at hpost2
      generalize expandCandidates (ShouldExpand self frame) m1
        (st.sink_frontier.flatMap (sinkCandidates g self.direction self.edge_types))
        st.out_edge [] = r2 at hpost2
      cases r2 with
      | raised e => exact hpost2.elim
      | meet m2 v =>
        obtain ⟨_, ho, hsz, l2, c2, w2, hl2⟩ := hpost2
        obtain ⟨l1, c1, w1, hl1⟩ := hs1.chain v ho
        have hsz1 := hs1.size
        refine onMeeting_post g self.direction self.edge_types s t lower_bound upper_bound _ v m1
          m2 l1 l2 c1 c2 (by omega) (by omega) w1 w2 (by omega) (by omega) ?_
        intro q hq
        have := walk_longer_than_levels g self.direction self.edge_types s t _ _ _ _ (a + 1) a
          hs1 hinv.sink hd1 q hq
        omega
      | next m2 nxt2 =>
        simp only
        by_cases he2 : nxt2.isEmpty = true
        · rw [if_pos he2]; trivial
        rw [if_neg he2]
        have hne2 : nxt2 ≠ [] := by
          intro h; rw [h] at he2; exact he2 rfl
        have ht1 := SideInv_next _ t st.out_edge m1 st.sink_frontier a hinv.sink m2 nxt2
          hpost2 hne2
        have hd2 := disjoint_symm _ _ (FoldInv_disjoint _ t st.out_edge m1 a _ m2 nxt2 hpost2
          (disjoint_symm _ _ hd1))
        refine ih _ (a + 1) ⟨by simp only; omega, hs1, ht1, hd2⟩ ?_
        have h1 := hpost1.size
        have h2 : 0 < nxt.length := List.length_pos.mpr hne1
        simp only
        omega

/-! ### `FindPath` and the pull of the s-t cursor -/

theorem LoopInv_start (g : Graph) (direction : Direction) (edge_types : List Nat)
    (s t : VertexAccessor) (hst : s ≠ t) :
    LoopInv g direction edge_types s t
      { source_frontier := [s], sink_frontier := [t], in_edge := [(s, none)],
        out_edge := [(t, none)], current_length := 0 } 0 := by
  have hside : ∀ (cand : VertexAccessor → List (EdgeAccessor × VertexAccessor × VertexAccessor))
      (r : VertexAccessor), SideInv cand r [(r, none)] [r] 0 := by
    intro cand r
    have hkey : ∀ v, Contains [(r, none)] v = true → v = r := by
      intro v hv
      rcases (Contains_cons [] v r none).mp hv with h | h
      · exact h
      · simp [Contains, List.lookup] at h
    refine ⟨?_, ?_, ?_, ?_, by simp, by simp⟩
    · intro v hv
      rw [hkey v hv]
      exact ⟨[], Chain.root r (lookup_cons_self [] r none), BackWalk.root, le_refl _⟩
    · intro v hv
      rw [List.mem_singleton] at hv
      rw [hv]
      exact (Contains_cons [] r r none).mpr (Or.inl rfl)
    · intro v l hw hl
      have hnil : l = [] := List.eq_nil_of_length_eq_zero (by omega)
      subst hnil
      cases hw
      exact (Contains_cons [] r r none).mpr (Or.inl rfl)
    · intro u hu hnot
      exact absurd (List.mem_singleton.mpr (hkey u hu)) hnot
  refine ⟨rfl, hside _ s, hside _ t, ?_⟩
  intro v hv
  have hvs : v = s := by
    rcases (Contains_cons [] v s none).mp hv with h | h
    · exact h
    · simp [Contains, List.lookup] at h
  cases hc : Contains [(t, none)] v
  · rfl
  · rcases (Contains_cons [] v t none).mp hc with h | h
    · exact absurd (hvs.symm.trans h) hst
    · simp [Contains, List.lookup] at h

/-- `FindPath` without a filter lambda: a returned path is a shortest walk from the
source to the sink, within the upper bound; nothing is raised and the fuel is
enough. -/
theorem FindPath_post {D : Type} (self : ExpandVariable D) (g : Graph)
    (context : ExecutionContext) (frame : Frame D) (lower_bound upper_bound : Int)
    (ha : context.must_abort = false) (hf : self.filter_lambda.expression = none)
    (s t : VertexAccessor) :
    FindPathPost g self.direction self.edge_types s t upper_bound
      (FindPath self g context frame s t lower_bound upper_bound) := by
  unfold FindPath
  by_cases hst : s = t
  · rw [if_pos hst]; trivial
  · rw [if_neg hst]
    exact FindPathLoop_post self g context frame lower_bound upper_bound ha hf s t _ _ 0
      (LoopInv_start g self.direction self.edge_types s t hst) (by simp)

theorem toUInt64_of_int64 (x : Int) (h0 : 0 ≤ x) (h1 : x ≤ INT64_MAX) :
    ((toUInt64 x : Nat) : Int) = x := by
  unfold toUInt64
  unfold INT64_MAX at h1
  rw [Int.emod_eq_of_lt h0 (by omega)]
  exact Int.toNat_of_nonneg h0

/-- A tuple the s-t cursor emits comes from one input tuple, which the pull
consumes together with the tuples it skipped before; the edge list on the frame
is a shortest walk between the vertices that tuple binds. -/
theorem STPull_emits {D : Type} (self : ExpandVariable D) (g : Graph)
    (context : ExecutionContext) (ha : context.must_abort = false)
    (hf : self.filter_lambda.expression = none)
    (input : List (Frame D → Frame D)) :
    ∀ (frame : Frame D) (rest1 : List (Frame D → Frame D)) (frame1 : Frame D),
      STShortestPathCursor.Pull self g context input frame = .ok true (rest1, frame1) →
      ∃ (pre : List (Frame D → Frame D)) (t : Frame D → Frame D)
        (source sink : VertexAccessor) (p : List EdgeAccessor),
        input = pre ++ t :: rest1 ∧
        applyInputs (pre ++ [t]) frame self.input_symbol = .Vertex source ∧
        applyInputs (pre ++ [t]) frame self.node_symbol = .Vertex sink ∧
        frame1 = (applyInputs (pre ++ [t]) frame).set self.edge_symbol (.List (p.map .Edge)) ∧
        IsWalk g self.direction self.edge_types source p sink ∧
        ∀ q, IsWalk g self.direction self.edge_types source q sink → p.length ≤ q.length := by
  induction input with
  | nil => intro frame rest1 frame1 h; simp [STShortestPathCursor.Pull] at h
  | cons t rest ih =>
    intro frame rest1 frame1 h
    have hskip : STShortestPathCursor.Pull self g context rest (t frame) =
        .ok true (rest1, frame1) →
        ∃ (pre : List (Frame D → Frame D)) (t1 : Frame D → Frame D)
          (source sink : VertexAccessor) (p : List EdgeAccessor),
          t :: rest = pre ++ t1 :: rest1 ∧
          applyInputs (pre ++ [t1]) frame self.input_symbol = .Vertex source ∧
          applyInputs (pre ++ [t1]) frame self.node_symbol = .Vertex sink ∧
          frame1 = (applyInputs (pre ++ [t1]) frame).set self.edge_symbol
            (.List (p.map .Edge)) ∧
          IsWalk g self.direction self.edge_types source p sink ∧
          ∀ q, IsWalk g self.direction self.edge_types source q sink → p.length ≤ q.length := by
      intro hrec
      obtain ⟨pre, t1, source, sink, p, h1, h2, h3, h4, h5, h6⟩ := ih (t frame) rest1 frame1 hrec
      exact ⟨t :: pre, t1, source, sink, p, by rw [h1]; rfl, h2, h3, h4, h5, h6⟩
    unfold STShortestPathCursor.Pull at h
    simp only at h
    split at h
    · exact hskip h
    · exact hskip h
    · next source sink hsrc hsnk =>
      split at h
      · cases h
      · next lower _ =>
        split at h
        · cases h
        · next upper _ =>
          split_ifs at h with hb
          · exact hskip h
          · have hpost := FindPath_post self g context (t frame) lower upper ha hf source sink
            split at h
            · next p hp =>
              rw [hp] at hpost
              injection h with _ hs
              injection hs with hr hfr
              subst hr
              exact ⟨[], t, source, sink, p, rfl, hsrc, hsnk, hfr.symm, hpost.1, hpost.2.2⟩
            · exact hskip h
            · cases h
            · cases h
    · cases h

/-! ### Claims about the breadth-first expansion to a bound sink -/

/-- C1: with no filter lambda (and whatever the bounds, so in particular with the
default bounds), a tuple the s-t cursor emits comes from one input tuple, which
that pull consumes, so that an input tuple yields at most one tuple; the input
tuple binds the source and the sink symbol to two vertices, and the edge list
placed on the frame is a walk from the source to the sink along the allowed
direction and edge types that repeats no edge and is no longer than any other
such walk. On the
sample storage `0 → 1`, `1 → 2`, `0 → 3`, `3 → 2` with source 0 and sink 2 the
cursor emits one path, of length 2, and the next pull returns false. -/
theorem STShortestPathCursor_emits_one_shortest_path :
    (∀ (D : Type) (self : ExpandVariable D) (g : Graph) (context : ExecutionContext)
      (input : List (Frame D → Frame D)) (frame : Frame D)
      (rest1 : List (Frame D → Frame D)) (frame1 : Frame D),
      context.must_abort = false → self.filter_lambda.expression = none →
      STShortestPathCursor.Pull self g context input frame = .ok true (rest1, frame1) →
      ∃ (pre : List (Frame D → Frame D)) (t : Frame D → Frame D)
        (source sink : VertexAccessor) (p : List EdgeAccessor),
        input = pre ++ t :: rest1 ∧
        applyInputs (pre ++ [t]) frame self.input_symbol = .Vertex source ∧
        applyInputs (pre ++ [t]) frame self.node_symbol = .Vertex sink ∧
        frame1 = (applyInputs (pre ++ [t]) frame).set self.edge_symbol (.List (p.map .Edge)) ∧
        IsWalk g self.direction self.edge_types source p sink ∧ p.Nodup ∧
        ∀ q, IsWalk g self.direction self.edge_types source q sink → p.length ≤ q.length) ∧
    (∃ frame1 : Frame Int,
      STShortestPathCursor.Pull sampleKnownSink sampleGraph ⟨false⟩ (sampleInputPair 0 2)
        sampleFrame = .ok true ([], frame1) ∧
      (edgesOf (frame1 sampleKnownSink.edge_symbol)).length = 2 ∧
      STShortestPathCursor.Pull sampleKnownSink sampleGraph ⟨false⟩ [] frame1 =
        .ok false ([], frame1)) := by
  refine ⟨fun D self g context input frame rest1 frame1 ha hf h => ?_, ?_⟩
  · obtain ⟨pre, t, source, sink, p, h1, h2, h3, h4, h5, h6⟩ :=
      STPull_emits self g context ha hf input frame rest1 frame1 h
    exact ⟨pre, t, source, sink, p, h1, h2, h3, h4, h5,
      shortest_walk_nodup g self.direction self.edge_types source sink p h5 h6, h6⟩
  · exact ⟨_, rfl, by decide, rfl⟩

theorem STShortestPathCursor_emits_one_shortest_path_witness :
    ∃ (pre : List (Frame Int → Frame Int)) (t : Frame Int → Frame Int)
      (source sink : VertexAccessor) (p : List EdgeAccessor),
      sampleInputPair 0 2 = pre ++ t :: [] ∧
      applyInputs (pre ++ [t]) sampleFrame sampleKnownSink.input_symbol = .Vertex source ∧
      applyInputs (pre ++ [t]) sampleFrame sampleKnownSink.node_symbol = .Vertex sink ∧
      sampleShortestFrame =
        (applyInputs (pre ++ [t]) sampleFrame).set sampleKnownSink.edge_symbol
          (.List (p.map .Edge)) ∧
      IsWalk sampleGraph sampleKnownSink.direction sampleKnownSink.edge_types source p sink ∧
      p.Nodup ∧
      ∀ q, IsWalk sampleGraph sampleKnownSink.direction sampleKnownSink.edge_types source q sink →
        p.length ≤ q.length :=
  STShortestPathCursor_emits_one_shortest_path.1 Int sampleKnownSink sampleGraph ⟨false⟩
    (sampleInputPair 0 2) sampleFrame [] sampleShortestFrame rfl rfl rfl

theorem sample_no_walk_from_2 (q : List EdgeAccessor) (v : VertexAccessor)
    (h : IsWalk sampleGraph Direction.OUT [] 2 q v) : q = [] ∧ v = 2 := by
  cases q with
  | nil => exact ⟨rfl, ((IsWalk_nil _ _ _ _ _).mp h).symm⟩
  | cons e q =>
    obtain ⟨w, hs, _⟩ := (IsWalk_cons _ _ _ _ _ _ _).mp h
    obtain ⟨he, _, hd⟩ := (stepTo_iff _ _ _ _ _ _).mp hs
    exfalso
    simp only [sampleGraph, List.mem_cons, List.mem_singleton, List.not_mem_nil, or_false] at he
    rcases hd with ⟨_, hfrom, _⟩ | ⟨hdir, _, _⟩
    · rcases he with rfl | rfl | rfl | rfl <;> simp at hfrom
    · exact hdir rfl

/-- C8: when no walk from the source to the sink along the allowed direction and
edge types has a length within the upper bound, `FindPath` (without a filter
lambda) returns false, whatever the graph and the lower bound, and the pull of
the s-t cursor emits nothing for that input tuple: it goes on to the next input
tuple. -/
theorem STShortestPathCursor_unreachable_sink {D : Type} (self : ExpandVariable D)
    (g : Graph) (context : ExecutionContext) (ha : context.must_abort = false)
    (hf : self.filter_lambda.expression = none) (source sink : VertexAccessor)
    (lower upper : Int) (hu : upper ≤ INT64_MAX)
    (hunreach : ¬ ∃ q, IsWalk g self.direction self.edge_types source q sink ∧
      (q.length : Int) ≤ upper) :
    (∀ frame : Frame D, 0 ≤ upper →
      FindPath self g context frame source sink lower upper = .not_found) ∧
    (∀ (t : Frame D → Frame D) (rest : List (Frame D → Frame D)) (frame : Frame D),
      t frame self.input_symbol = .Vertex source → t frame self.node_symbol = .Vertex sink →
      bfsBound (t frame) self.lower_bound 1 = .ok lower →
      bfsBound (t frame) self.upper_bound INT64_MAX = .ok upper →
      STShortestPathCursor.Pull self g context (t :: rest) frame =
        STShortestPathCursor.Pull self g context rest (t frame)) := by
  have hfind : ∀ frame : Frame D, 0 ≤ upper →
      FindPath self g context frame source sink lower upper = .not_found := by
    intro frame h0
    have hpost := FindPath_post self g context frame lower upper ha hf source sink
    cases hr : FindPath self g context frame source sink lower upper with
    | found p =>
      rw [hr] at hpost
      exfalso
      refine hunreach ⟨p, hpost.1, ?_⟩
      rw [← toUInt64_of_int64 upper h0 hu]
      exact_mod_cast hpost.2.1
    | not_found => rfl
    | raised e => rw [hr] at hpost; exact hpost.elim
    | out_of_fuel => rw [hr] at hpost; exact hpost.elim
  refine ⟨hfind, ?_⟩
  intro t rest frame hs ht hl hup
  conv_lhs => unfold STShortestPathCursor.Pull
  simp only [hs, ht, hl, hup]
  split_ifs with hb
  · rfl
  · rw [hfind (t frame) (by omega)]

theorem STShortestPathCursor_unreachable_sink_witness :
    (∀ frame : Frame Int, 0 ≤ INT64_MAX →
      FindPath sampleKnownSink sampleGraph ⟨false⟩ frame 2 0 1 INT64_MAX = .not_found) ∧
    (∀ (t : Frame Int → Frame Int) (rest : List (Frame Int → Frame Int)) (frame : Frame Int),
      t frame sampleKnownSink.input_symbol = .Vertex 2 →
      t frame sampleKnownSink.node_symbol = .Vertex 0 →
      bfsBound (t frame) sampleKnownSink.lower_bound 1 = .ok 1 →
      bfsBound (t frame) sampleKnownSink.upper_bound INT64_MAX = .ok INT64_MAX →
      STShortestPathCursor.Pull sampleKnownSink sampleGraph ⟨false⟩ (t :: rest) frame =
        STShortestPathCursor.Pull sampleKnownSink sampleGraph ⟨false⟩ rest (t frame)) :=
  STShortestPathCursor_unreachable_sink sampleKnownSink sampleGraph ⟨false⟩ rfl rfl 2 0 1
    INT64_MAX (le_refl _)
    (fun ⟨q, hq, _⟩ => absurd (sample_no_walk_from_2 q 0 hq).2 (by decide))

/-! ### The single-source search, level by level -/

theorem LevelStart_side
    (cand : VertexAccessor → List (EdgeAccessor × VertexAccessor × VertexAccessor))
    (root : VertexAccessor) (m : VertexEdgeMapT) (frontier : List VertexAccessor) (k : Nat)
    (h : LevelStart cand root m frontier k) (hne : frontier ≠ []) :
    SideInv cand root m frontier k where
  chain := h.chain
  front := h.front
  complete := h.complete
  closed := h.closed
  size := h.size hne
  nodup := h.nodup

theorem LevelStart_zero
    (cand : VertexAccessor → List (EdgeAccessor × VertexAccessor × VertexAccessor))
    (root : VertexAccessor) : LevelStart cand root [(root, none)] [root] 0 where
  chain := fun v hv => by
    have hv1 : v = root := by
      rcases (Contains_cons [] v root none).mp hv with h | h
      · exact h
      · simp [Contains] at h
    rw [hv1]
    exact ⟨[], Chain.root root (lookup_cons_self [] root none), BackWalk.root, le_refl _⟩
  front := fun v hv => by
    rw [List.mem_singleton] at hv
    rw [hv]
    exact (Contains_cons [] root root none).mpr (Or.inl rfl)
  complete := fun v l hw hl => by
    cases hw with
    | root => exact (Contains_cons [] root root none).mpr (Or.inl rfl)
    | step _ e l1 arg hc hrest => simp at hl
  closed := fun u hu hnot => by
    rcases (Contains_cons [] u root none).mp hu with h | h
    · exact absurd (List.mem_singleton.mpr h) hnot
    · simp [Contains] at h
  size := fun _ => by simp
  nodup := by simp
  far := fun _ _ _ _ => Nat.zero_le _
  settled := fun v hv => by
    rcases (Contains_cons [] v root none).mp hv with h | h
    · exact Or.inl (List.mem_singleton.mpr h)
    · simp [Contains] at h
  distinct := by simp

theorem NextInv_start
    (cand : VertexAccessor → List (EdgeAccessor × VertexAccessor × VertexAccessor))
    (root : VertexAccessor) (m : VertexEdgeMapT) (frontier : List VertexAccessor) (k : Nat)
    (h : LevelStart cand root m frontier k) (hne : frontier ≠ []) :
    NextInv cand root m k [] m [] where
  fold := FoldInv_start cand root m [] frontier k (LevelStart_side cand root m frontier k h hne)
  keys_eq := by simp
  recorded := fun x hx => by simp at hx

theorem NextInv_skip
    (cand : VertexAccessor → List (EdgeAccessor × VertexAccessor × VertexAccessor))
    (root : VertexAccessor) (m0 : VertexEdgeMapT) (k : Nat)
    (seen : List (EdgeAccessor × VertexAccessor × VertexAccessor)) (processed : VertexEdgeMapT)
    (next : List (EdgeAccessor × VertexAccessor))
    (h : NextInv cand root m0 k seen processed next)
    (c : EdgeAccessor × VertexAccessor × VertexAccessor)
    (hc : Contains processed c.2.1 = true) :
    NextInv cand root m0 k (seen ++ [c]) processed next where
  fold := FoldInv_skip cand root m0 [] k seen processed _ h.fold c hc
  keys_eq := h.keys_eq
  recorded := h.recorded

theorem NextInv_visit
    (cand : VertexAccessor → List (EdgeAccessor × VertexAccessor × VertexAccessor))
    (hjoin : ∀ u c, c ∈ cand u → otherEnd c.1 c.2.1 = u)
    (root : VertexAccessor) (m0 : VertexEdgeMapT) (frontier : List VertexAccessor) (k : Nat)
    (hstart : LevelStart cand root m0 frontier k)
    (seen : List (EdgeAccessor × VertexAccessor × VertexAccessor)) (processed : VertexEdgeMapT)
    (next : List (EdgeAccessor × VertexAccessor))
    (h : NextInv cand root m0 k seen processed next)
    (u : VertexAccessor) (hu : u ∈ frontier) (e : EdgeAccessor) (w arg : VertexAccessor)
    (hc : (e, w, arg) ∈ cand u) (hw : ¬ Contains processed w = true) :
    NextInv cand root m0 k (seen ++ [(e, w, arg)]) ((w, some e) :: processed)
      ((e, w) :: next) where
  fold := by
    have hne : frontier ≠ [] := List.ne_nil_of_mem hu
    have := FoldInv_visit cand hjoin root m0 [] frontier k
      (LevelStart_side cand root m0 frontier k hstart hne) seen processed _ h.fold u hu e w arg
      hc hw (by simp [Contains])
    simpa using this
  keys_eq := by simp [h.keys_eq]
  recorded := fun x hx => by
    rcases List.mem_cons.mp hx with hx | hx
    · rw [hx]
      exact lookup_cons_self processed w (some e)
    · have hr := h.recorded x hx
      have hne : x.2 ≠ w := fun hxw => hw (by rw [← hxw]; exact Contains_of_lookup _ _ _ hr)
      rw [lookup_cons_ne processed x.2 w _ hne]
      exact hr

theorem expand_pair_plain {D : Type} (self : ExpandVariable D)
    (hf : self.filter_lambda.expression = none) (st : ExpandPairState D) (edge : EdgeAccessor)
    (vertex : VertexAccessor) :
    expand_pair self st edge vertex =
      .ok (if Contains st.processed_ vertex = true then st
        else
          { frame := (st.frame.set self.filter_lambda.inner_edge_symbol (.Edge edge)).set
              self.filter_lambda.inner_node_symbol (.Vertex vertex),
            processed_ := emplace st.processed_ vertex (some edge),
            to_visit_next_ := (edge, vertex) :: st.to_visit_next_ }) := by
  unfold expand_pair
  by_cases h : Contains st.processed_ vertex = true
  · rw [if_pos h, if_pos h]
  · rw [if_neg h, if_neg h]
    simp only [hf]

/-- Without a filter lambda, expanding candidates of a frontier vertex keeps the
invariant of the level. -/
theorem expandPairs_post {D : Type} (self : ExpandVariable D)
    (hf : self.filter_lambda.expression = none)
    (cand : VertexAccessor → List (EdgeAccessor × VertexAccessor × VertexAccessor))
    (hjoin : ∀ u c, c ∈ cand u → otherEnd c.1 c.2.1 = u)
    (root : VertexAccessor) (m0 : VertexEdgeMapT) (frontier : List VertexAccessor) (k : Nat)
    (hstart : LevelStart cand root m0 frontier k) (u : VertexAccessor) (hu : u ∈ frontier)
    (todo : List (EdgeAccessor × VertexAccessor × VertexAccessor)) :
    ∀ (seen : List (EdgeAccessor × VertexAccessor × VertexAccessor)) (st : ExpandPairState D),
      (∀ c ∈ todo, c ∈ cand u) →
      NextInv cand root m0 k seen st.processed_ st.to_visit_next_ →
      ∃ st1, expandPairs self todo st = .ok st1 ∧
        NextInv cand root m0 k (seen ++ todo) st1.processed_ st1.to_visit_next_ := by
  induction todo with
  | nil =>
    intro seen st _ h
    exact ⟨st, rfl, by simpa using h⟩
  | cons c rest ih =>
    intro seen st hall h
    obtain ⟨e, w, arg⟩ := c
    have hc : (e, w, arg) ∈ cand u := hall _ (List.mem_cons_self _ _)
    have hall1 : ∀ c ∈ rest, c ∈ cand u := fun c hc1 => hall c (List.mem_cons_of_mem _ hc1)
    have happ : seen ++ (e, w, arg) :: rest = (seen ++ [(e, w, arg)]) ++ rest := by simp
    simp only [expandPairs, expand_pair_plain self hf]
    rw [happ]
    by_cases hw : Contains st.processed_ w = true
    · rw [if_pos hw]
      exact ih _ st hall1 (NextInv_skip cand root m0 k seen _ _ h _ hw)
    · rw [if_neg hw]
      refine ih _ _ hall1 ?_
      simp only [emplace_new st.processed_ w _ hw]
      exact NextInv_visit cand hjoin root m0 frontier k hstart seen _ _ h u hu e w arg hc hw

/-- The recorded chain of a frontier vertex has exactly `k` edges and starts with
the edge the vertex was queued with. -/
theorem frontier_chain
    (cand : VertexAccessor → List (EdgeAccessor × VertexAccessor × VertexAccessor))
    (root : VertexAccessor) (m0 : VertexEdgeMapT) (frontier : List VertexAccessor) (k : Nat)
    (hstart : LevelStart cand root m0 frontier k)
    (seen : List (EdgeAccessor × VertexAccessor × VertexAccessor)) (processed : VertexEdgeMapT)
    (next : List (EdgeAccessor × VertexAccessor))
    (h : NextInv cand root m0 k seen processed next)
    (x : EdgeAccessor × VertexAccessor) (hx : x.2 ∈ frontier)
    (hrec : m0.lookup x.2 = some (some x.1)) :
    ∃ l, chainEdges processed (processed.length + 1) (otherEnd x.1 x.2) = .found l ∧
      l.length + 1 = k := by
  obtain ⟨l, h1, h2, h3⟩ := hstart.chain x.2 (hstart.front x.2 hx)
  have hk : k ≤ l.length := hstart.far x.2 hx l h2
  have h1p : Chain processed x.2 l := Chain_ext m0 processed h.fold.ext x.2 l h1
  have hrecp : processed.lookup x.2 = some (some x.1) := h.fold.ext _ _ hrec
  have hsz := hstart.size (List.ne_nil_of_mem hx)
  have hsz2 := h.fold.size
  cases h1p with
  | root _ hv => rw [hrecp] at hv; cases hv
  | step _ e l1 hv hrest =>
    rw [hrecp] at hv
    injection hv with hv
    injection hv with hv
    subst hv
    refine ⟨l1, chainEdges_of_chain processed _ l1 hrest _ ?_, ?_⟩
    · simp only [List.length_cons] at h3
      omega
    · simp only [List.length_cons] at h3 hk
      omega

/-! ### One visit -/

/-- Without a filter lambda, visiting an expansion of level `k`: the edge list has
`k` edges, the vertex is expanded when `k` is below the upper bound, and the
visit yields the vertex unless `k` is below the lower bound. -/
theorem visitExpansion_post {D : Type} (self : ExpandVariable D) (g : Graph)
    (hf : self.filter_lambda.expression = none) (hsym : self.node_symbol ≠ self.edge_symbol)
    (root : VertexAccessor) (m0 : VertexEdgeMapT) (frontier : List VertexAccessor) (k : Nat)
    (hstart : LevelStart (sourceCandidates g self.direction self.edge_types) root m0 frontier k)
    (seen : List (EdgeAccessor × VertexAccessor × VertexAccessor))
    (cur : SingleSourceShortestPathCursor D) (frame : Frame D)
    (x : EdgeAccessor × VertexAccessor) (hx : x.2 ∈ frontier)
    (hrec : m0.lookup x.2 = some (some x.1))
    (hinv : NextInv (sourceCandidates g self.direction self.edge_types) root m0 k seen
      cur.processed_ cur.to_visit_next_)
    (hidle : ¬ (k : Int) < cur.upper_bound_ → cur.to_visit_next_ = []) :
    ∃ cur1 frame1 seen1,
      visitExpansion self g cur frame x =
        (if (k : Int) < cur.lower_bound_ then .continue_ (cur1, frame1)
         else .return_ true (cur1, frame1)) ∧
      (¬ (k : Int) < cur.lower_bound_ → frame1 self.node_symbol = .Vertex x.2) ∧
      cur1.input_cursor = cur.input_cursor ∧ cur1.lower_bound_ = cur.lower_bound_ ∧
      cur1.upper_bound_ = cur.upper_bound_ ∧ cur1.to_visit_current_ = cur.to_visit_current_ ∧
      NextInv (sourceCandidates g self.direction self.edge_types) root m0 k seen1
        cur1.processed_ cur1.to_visit_next_ ∧
      (∀ c ∈ seen, c ∈ seen1) ∧
      ((k : Int) < cur.upper_bound_ →
        ∀ c ∈ sourceCandidates g self.direction self.edge_types x.2, c ∈ seen1) ∧
      (¬ (k : Int) < cur.upper_bound_ → cur1.to_visit_next_ = []) := by
  obtain ⟨l, hl, hlen⟩ := frontier_chain _ root m0 frontier k hstart seen _ _ hinv x hx hrec
  have hlen1 : (((x.1 :: l).length : Nat) : Int) = (k : Int) := by
    simp only [List.length_cons]
    exact_mod_cast hlen
  unfold visitExpansion
  rw [hl]
  simp only [hlen1]
  by_cases hup : (k : Int) < cur.upper_bound_
  · rw [if_pos hup]
    obtain ⟨st1, hst1, hinv1⟩ := expandPairs_post self hf _
      (sourceCandidates_join g self.direction self.edge_types) root m0 frontier k hstart x.2 hx
      (sourceCandidates g self.direction self.edge_types x.2) seen
      { frame := frame, processed_ := cur.processed_, to_visit_next_ := cur.to_visit_next_ }
      (fun c hc => hc) hinv
    unfold expand_from_vertex
    rw [hst1]
    simp only
    by_cases hlo : (k : Int) < cur.lower_bound_
    · rw [if_pos hlo]
      exact ⟨{ cur with processed_ := st1.processed_, to_visit_next_ := st1.to_visit_next_ },
        st1.frame, _, by rw [if_pos hlo], fun h => absurd hlo h, rfl, rfl, rfl, rfl, hinv1,
        fun c hc => List.mem_append_left _ hc, fun _ c hc => List.mem_append_right _ hc,
        fun h => absurd hup h⟩
    · rw [if_neg hlo]
      refine ⟨{ cur with processed_ := st1.processed_, to_visit_next_ := st1.to_visit_next_ },
        (st1.frame.set self.node_symbol (.Vertex x.2)).set self.edge_symbol
          (.List (((x.1 :: l).reverse).map .Edge)), _, by rw [if_neg hlo], fun _ => ?_,
        rfl, rfl, rfl, rfl, hinv1,
        fun c hc => List.mem_append_left _ hc, fun _ c hc => List.mem_append_right _ hc,
        fun h => absurd hup h⟩
      simp only [Frame.set, if_neg hsym, if_true]
  · rw [if_neg hup]
    simp only
    by_cases hlo : (k : Int) < cur.lower_bound_
    · rw [if_pos hlo]
      exact ⟨{ cur with processed_ := cur.processed_, to_visit_next_ := cur.to_visit_next_ },
        frame, seen, by rw [if_pos hlo], fun h => absurd hlo h, rfl, rfl, rfl, rfl, hinv,
        fun c hc => hc, fun h => absurd h hup, fun _ => hidle hup⟩
    · rw [if_neg hlo]
      refine ⟨{ cur with processed_ := cur.processed_, to_visit_next_ := cur.to_visit_next_ },
        (frame.set self.node_symbol (.Vertex x.2)).set self.edge_symbol
          (.List (((x.1 :: l).reverse).map .Edge)), seen, by rw [if_neg hlo], fun _ => ?_,
        rfl, rfl, rfl, rfl, hinv,
        fun c hc => hc, fun h => absurd h hup, fun _ => hidle hup⟩
      simp only [Frame.set, if_neg hsym, if_true]

theorem SingleSourceBody_pop {D : Type} (self : ExpandVariable D) (g : Graph)
    (context : ExecutionContext) (ha : MustAbort context = false)
    (cur : SingleSourceShortestPathCursor D) (frame : Frame D)
    (x : EdgeAccessor × VertexAccessor) (rest : List (EdgeAccessor × VertexAccessor))
    (h : cur.to_visit_current_ = x :: rest) :
    SingleSourceBody self g context cur frame =
      visitExpansion self g { cur with to_visit_current_ := rest } frame x := by
  unfold SingleSourceBody
  simp only [ha, h, List.isEmpty_cons, Bool.false_eq_true, if_false]

theorem SingleSourceBody_swap {D : Type} (self : ExpandVariable D) (g : Graph)
    (context : ExecutionContext) (ha : MustAbort context = false)
    (cur : SingleSourceShortestPathCursor D) (frame : Frame D)
    (x : EdgeAccessor × VertexAccessor) (rest : List (EdgeAccessor × VertexAccessor))
    (h1 : cur.to_visit_current_ = []) (h2 : cur.to_visit_next_ = x :: rest) :
    SingleSourceBody self g context cur frame =
      visitExpansion self g { cur with to_visit_current_ := rest, to_visit_next_ := [] } frame
        x := by
  unfold SingleSourceBody
  simp only [ha, h1, h2, List.isEmpty_nil, Bool.false_eq_true, if_false, if_true]

theorem SingleSourceBody_end {D : Type} (self : ExpandVariable D) (g : Graph)
    (context : ExecutionContext) (ha : MustAbort context = false)
    (cur : SingleSourceShortestPathCursor D) (frame : Frame D)
    (h1 : cur.to_visit_current_ = []) (h2 : cur.to_visit_next_ = [])
    (h3 : cur.input_cursor = []) :
    ∃ s1, SingleSourceBody self g context cur frame = .return_ false s1 := by
  unfold SingleSourceBody
  simp only [ha, h1, h2, List.isEmpty_nil, Bool.false_eq_true, if_false, if_true, pullSource, h3]
  exact ⟨_, rfl⟩

/-! ### One level -/

/-- Without a filter lambda, the visits of a whole level: starting with the visit
of `x` and with `R` still queued, the loop yields each of these vertices, unless
the level is below the lower bound, and reaches a state with nothing left to
visit at this level. -/
theorem level_visit {D : Type} (self : ExpandVariable D) (g : Graph)
    (context : ExecutionContext) (ha : MustAbort context = false)
    (hf : self.filter_lambda.expression = none) (hsym : self.node_symbol ≠ self.edge_symbol)
    (root : VertexAccessor) (m0 : VertexEdgeMapT) (frontier : List VertexAccessor) (k : Nat)
    (hstart : LevelStart (sourceCandidates g self.direction self.edge_types) root m0 frontier k)
    (lower upper : Int) (rest : List (Frame D → Frame D)) :
    ∀ (R : List (EdgeAccessor × VertexAccessor)) (x : EdgeAccessor × VertexAccessor)
      (cur : SingleSourceShortestPathCursor D) (frame : Frame D)
      (seen : List (EdgeAccessor × VertexAccessor × VertexAccessor)),
      cur.to_visit_current_ = R → cur.lower_bound_ = lower → cur.upper_bound_ = upper →
      (∀ y ∈ x :: R, y.2 ∈ frontier ∧ m0.lookup y.2 = some (some y.1)) →
      NextInv (sourceCandidates g self.direction self.edge_types) root m0 k seen
        cur.processed_ cur.to_visit_next_ →
      (¬ (k : Int) < upper → cur.to_visit_next_ = []) →
      ∃ cur1 frame1 seen1,
        cur1.to_visit_current_ = [] ∧ cur1.input_cursor = cur.input_cursor ∧
        cur1.lower_bound_ = lower ∧ cur1.upper_bound_ = upper ∧
        NextInv (sourceCandidates g self.direction self.edge_types) root m0 k seen1
          cur1.processed_ cur1.to_visit_next_ ∧
        (∀ c ∈ seen, c ∈ seen1) ∧
        ((k : Int) < upper → ∀ y ∈ x :: R,
          ∀ c ∈ sourceCandidates g self.direction self.edge_types y.2, c ∈ seen1) ∧
        (¬ (k : Int) < upper → cur1.to_visit_next_ = []) ∧
        ∀ (s : SingleSourceShortestPathCursor D × Frame D) (l : List (TypedValue D)),
          SingleSourceBody self g context s.1 s.2 = visitExpansion self g cur frame x →
          BodyTrace self g context rest (cur1, frame1) l →
          BodyTrace self g context rest s
            ((if (k : Int) < lower then []
              else (x :: R).map (fun y => TypedValue.Vertex y.2)) ++ l) := by
  intro R
  induction R with
  | nil =>
    intro x cur frame seen hR hlow hupp hall hinv hidle
    obtain ⟨hxF, hxrec⟩ := hall x (List.mem_cons_self _ _)
    obtain ⟨cur1, frame1, seen1, hv, hnode, hi, hlo1, hup1, hcur1, hinv1, hsub, hex, hidle1⟩ :=
      visitExpansion_post self g hf hsym root m0 frontier k hstart seen cur frame x hxF hxrec
        hinv (by rw [hupp]; exact hidle)
    rw [hlow] at hv hnode
    rw [hupp] at hex hidle1
    refine ⟨cur1, frame1, seen1, by rw [hcur1, hR], hi, by rw [hlo1, hlow], by rw [hup1, hupp],
      hinv1, hsub, ?_, hidle1, ?_⟩
    · intro hk y hy c hc
      rw [List.mem_singleton] at hy
      rw [hy] at hc
      exact hex hk c hc
    · intro s l hs ht
      rw [hv] at hs
      by_cases hlo : (k : Int) < lower
      · rw [if_pos hlo] at hs
        rw [if_pos hlo]
        exact BodyTrace.step s (cur1, frame1) l hs ht
      · rw [if_neg hlo] at hs
        rw [if_neg hlo]
        have := BodyTrace.emit s (cur1, frame1) l hs ht
        dsimp only at this
        rw [hnode hlo] at this
        simpa using this
  | cons y R1 ih =>
    intro x cur frame seen hR hlow hupp hall hinv hidle
    obtain ⟨hxF, hxrec⟩ := hall x (List.mem_cons_self _ _)
    obtain ⟨cur1, frame1, seen1, hv, hnode, hi, hlo1, hup1, hcur1, hinv1, hsub, hex, hidle1⟩ :=
      visitExpansion_post self g hf hsym root m0 frontier k hstart seen cur frame x hxF hxrec
        hinv (by rw [hupp]; exact hidle)
    rw [hlow] at hv hnode
    rw [hupp] at hex hidle1
    have hc1 : cur1.to_visit_current_ = y :: R1 := by rw [hcur1, hR]
    obtain ⟨cur2, frame2, seen2, h1, h2, h3, h4, hinv2, hsub2, hex2, hidle2, htr⟩ :=
      ih y { cur1 with to_visit_current_ := R1 } frame1 seen1 rfl (by rw [← hlow, ← hlo1])
        (by rw [← hupp, ← hup1]) (fun z hz => hall z (List.mem_cons_of_mem _ hz)) hinv1 hidle1
    refine ⟨cur2, frame2, seen2, h1, by rw [h2, ← hi], h3, h4, hinv2,
      fun c hc => hsub2 c (hsub c hc), ?_, hidle2, ?_⟩
    · intro hk z hz c hc
      rcases List.mem_cons.mp hz with hz | hz
      · rw [hz] at hc
        exact hsub2 c (hex hk c hc)
      · exact hex2 hk z hz c hc
    · intro s l hs ht
      have hmid := htr (cur1, frame1) l
        (SingleSourceBody_pop self g context ha cur1 frame1 y R1 hc1) ht
      rw [hv] at hs
      by_cases hlo : (k : Int) < lower
      · rw [if_pos hlo] at hs hmid
        rw [if_pos hlo]
        exact BodyTrace.step s (cur1, frame1) _ hs hmid
      · rw [if_neg hlo] at hs hmid
        rw [if_neg hlo]
        have := BodyTrace.emit s (cur1, frame1) _ hs hmid
        dsimp only at this
        rw [hnode hlo] at this
        simpa using this

/-- After a whole level has been expanded, the search starts on the next level. -/
theorem LevelStart_next
    (cand : VertexAccessor → List (EdgeAccessor × VertexAccessor × VertexAccessor))
    (root : VertexAccessor) (m0 : VertexEdgeMapT) (frontier : List VertexAccessor) (k : Nat)
    (hstart : LevelStart cand root m0 frontier k) (hne : frontier ≠ [])
    (seen : List (EdgeAccessor × VertexAccessor × VertexAccessor)) (processed : VertexEdgeMapT)
    (next : List (EdgeAccessor × VertexAccessor))
    (h : NextInv cand root m0 k seen processed next)
    (hseen : ∀ u ∈ frontier, ∀ c ∈ cand u, c ∈ seen) :
    LevelStart cand root processed (next.map Prod.snd) (k + 1) := by
  have hmem : ∀ v, v ∈ (next.map Prod.snd).reverse ↔ v ∈ next.map Prod.snd :=
    fun v => List.mem_reverse
  have hnd : (next.map Prod.snd ++ m0.map Prod.fst).Nodup := by
    rw [← h.keys_eq]; exact h.fold.nodup
  have hnew : ∀ v ∈ next.map Prod.snd, ¬ Contains m0 v = true := by
    intro v hv hc
    exact (List.nodup_append.mp hnd).2.2 hv ((Contains_iff_mem_keys m0 v).mp hc)
  refine ⟨h.fold.chain, ?_, ?_, ?_, ?_, h.fold.nodup, ?_, ?_, (List.nodup_append.mp hnd).1⟩
  · intro v hv
    exact (h.fold.keys v).mpr (Or.inr ((hmem v).mpr hv))
  · intro v l hw hl
    cases hw with
    | root =>
      exact (h.fold.keys root).mpr (Or.inl (hstart.complete root [] BackWalk.root (by simp)))
    | step _ e l1 arg hc hrest =>
      have hu : Contains m0 (otherEnd e v) = true :=
        hstart.complete _ l1 hrest (by simp at hl; omega)
      by_cases hfr : otherEnd e v ∈ frontier
      · exact h.fold.examined (e, v, arg) (hseen _ hfr _ hc)
      · exact (h.fold.keys v).mpr (Or.inl (hstart.closed _ hu hfr (e, v, arg) hc))
  · intro u hu hnot c hc
    have hu0 : Contains m0 u = true :=
      ((h.fold.keys u).mp hu).resolve_right (fun hx => hnot ((hmem u).mp hx))
    by_cases hfr : u ∈ frontier
    · exact h.fold.examined c (hseen u hfr c hc)
    · exact (h.fold.keys _).mpr (Or.inl (hstart.closed u hu0 hfr c hc))
  · intro hn
    have h1 := h.fold.size
    have h2 := hstart.size hne
    have h3 : 0 < next.length := by
      cases next with
      | nil => simp at hn
      | cons a b => simp
    simp only [List.length_reverse, List.length_map] at h1
    omega
  · intro v hv l hw
    by_contra hlt
    exact hnew v hv (hstart.complete v l hw (by omega))
  · intro v hv
    rcases (h.fold.keys v).mp hv with h0 | h0
    · obtain ⟨l, _, h2, h3⟩ := hstart.chain v h0
      exact Or.inr ⟨l, h2, by omega⟩
    · exact Or.inl ((hmem v).mp h0)

/-! ### Levels and distances -/

theorem IsDist_unique (g : Graph) (direction : Direction) (edge_types : List Nat)
    (s v : VertexAccessor) (d1 d2 : Nat) (h1 : IsDist g direction edge_types s v d1)
    (h2 : IsDist g direction edge_types s v d2) : d1 = d2 := by
  obtain ⟨⟨p1, hp1, hl1⟩, hmin1⟩ := h1
  obtain ⟨⟨p2, hp2, hl2⟩, hmin2⟩ := h2
  have a := hmin1 p2 hp2
  have b := hmin2 p1 hp1
  omega

/-- The vertices queued for level `k` are the vertices at distance `k`. -/
theorem level_is_dist (g : Graph) (direction : Direction) (edge_types : List Nat)
    (s : VertexAccessor) (m : VertexEdgeMapT) (frontier : List VertexAccessor) (k : Nat)
    (h : LevelStart (sourceCandidates g direction edge_types) s m frontier k)
    (v : VertexAccessor) : v ∈ frontier ↔ IsDist g direction edge_types s v k := by
  constructor
  · intro hv
    obtain ⟨l, _, h2, h3⟩ := h.chain v (h.front v hv)
    have h4 := h.far v hv l h2
    refine ⟨⟨l.reverse, (BackWalk_source_iff g direction edge_types s l v).mp h2, ?_⟩, ?_⟩
    · simp only [List.length_reverse]; omega
    · intro q hq
      have hb : BackWalk (sourceCandidates g direction edge_types) s v q.reverse :=
        (BackWalk_source_iff g direction edge_types s q.reverse v).mpr (by simpa using hq)
      simpa using h.far v hv _ hb
  · rintro ⟨⟨p, hp, hl⟩, hmin⟩
    have hb : BackWalk (sourceCandidates g direction edge_types) s v p.reverse :=
      (BackWalk_source_iff g direction edge_types s p.reverse v).mpr (by simpa using hp)
    have hc : Contains m v = true := h.complete v _ hb (by simp; omega)
    rcases h.settled v hc with hfr | ⟨l, hl1, hl2⟩
    · exact hfr
    · have := hmin l.reverse ((BackWalk_source_iff g direction edge_types s l v).mp hl1)
      simp only [List.length_reverse] at this
      omega

/-- When nothing is queued for level `k`, every vertex the search can reach is
nearer than `k`. -/
theorem no_further_level (g : Graph) (direction : Direction) (edge_types : List Nat)
    (s : VertexAccessor) (m : VertexEdgeMapT) (k : Nat)
    (h : LevelStart (sourceCandidates g direction edge_types) s m [] k)
    (v : VertexAccessor) (d : Nat) (hd : IsDist g direction edge_types s v d) : d < k := by
  have hreach : ∀ (l : List EdgeAccessor) (w : VertexAccessor),
      BackWalk (sourceCandidates g direction edge_types) s w l → Contains m w = true := by
    intro l w hw
    induction hw with
    | root => exact h.complete s [] BackWalk.root (by simp)
    | step w e l1 arg hc _ ih => exact h.closed _ ih (by simp) (e, w, arg) hc
  obtain ⟨⟨p, hp, hl⟩, hmin⟩ := hd
  have hb : BackWalk (sourceCandidates g direction edge_types) s v p.reverse :=
    (BackWalk_source_iff g direction edge_types s p.reverse v).mpr (by simpa using hp)
  rcases h.settled v (hreach _ v hb) with hfr | ⟨l, hl1, hl2⟩
  · simp at hfr
  · have := hmin l.reverse ((BackWalk_source_iff g direction edge_types s l v).mp hl1)
    simp only [List.length_reverse] at this
    omega

/-- Putting the vertices of level `k` in front of those of the later levels. -/
theorem level_assemble (g : Graph) (direction : Direction) (edge_types : List Nat)
    (s : VertexAccessor) (k : Nat) (lower upper : Int) (hk : (k : Int) ≤ upper)
    (F L1 : List VertexAccessor) (hF : F.Nodup)
    (hFd : ∀ v, v ∈ F ↔ IsDist g direction edge_types s v k) (hL1 : L1.Nodup)
    (hL1d : ∀ v, v ∈ L1 ↔ ∃ d : Nat, IsDist g direction edge_types s v d ∧ k + 1 ≤ d ∧
      lower ≤ (d : Int) ∧ (d : Int) ≤ upper) :
    ((if (k : Int) < lower then [] else F) ++ L1).Nodup ∧
    ∀ v, v ∈ (if (k : Int) < lower then [] else F) ++ L1 ↔
      ∃ d : Nat, IsDist g direction edge_types s v d ∧ k ≤ d ∧
        lower ≤ (d : Int) ∧ (d : Int) ≤ upper := by
  have hdisj : ∀ v, v ∈ F → v ∈ L1 → False := by
    intro v h1 h2
    obtain ⟨d, hd, hkd, _, _⟩ := (hL1d v).mp h2
    have := IsDist_unique g direction edge_types s v k d ((hFd v).mp h1) hd
    omega
  by_cases hlo : (k : Int) < lower
  · rw [if_pos hlo]
    refine ⟨by simpa using hL1, fun v => ?_⟩
    simp only [List.nil_append]
    rw [hL1d v]
    constructor
    · rintro ⟨d, h1, h2, h3, h4⟩
      exact ⟨d, h1, by omega, h3, h4⟩
    · rintro ⟨d, h1, h2, h3, h4⟩
      exact ⟨d, h1, by omega, h3, h4⟩
  · rw [if_neg hlo]
    refine ⟨List.nodup_append.mpr ⟨hF, hL1, fun {a} h1 h2 => hdisj a h1 h2⟩, fun v => ?_⟩
    rw [List.mem_append, hFd v, hL1d v]
    constructor
    · rintro (h | ⟨d, h1, h2, h3, h4⟩)
      · exact ⟨k, h, le_refl _, by omega, hk⟩
      · exact ⟨d, h1, by omega, h3, h4⟩
    · rintro ⟨d, h1, h2, h3, h4⟩
      by_cases hdk : d = k
      · left; rw [← hdk]; exact h1
      · right; exact ⟨d, h1, by omega, h3, h4⟩

/-! ### The whole search from one source -/

/-- Without a filter lambda, from the start of level `k` the loop yields, once
each, the vertices whose distance is at least `k` and within the bounds, and then
returns false. -/
theorem levels_run {D : Type} (self : ExpandVariable D) (g : Graph)
    (context : ExecutionContext) (ha : MustAbort context = false)
    (hf : self.filter_lambda.expression = none) (hsym : self.node_symbol ≠ self.edge_symbol)
    (s : VertexAccessor) (lower upper : Int) (rest : List (Frame D → Frame D)) :
    ∀ (n k : Nat) (cur : SingleSourceShortestPathCursor D) (frame : Frame D),
      (k : Int) + n = upper → cur.to_visit_current_ = [] → cur.input_cursor = rest →
      cur.lower_bound_ = lower → cur.upper_bound_ = upper →
      LevelStart (sourceCandidates g self.direction self.edge_types) s cur.processed_
        (cur.to_visit_next_.map Prod.snd) k →
      (∀ x ∈ cur.to_visit_next_, cur.processed_.lookup x.2 = some (some x.1)) →
      ∃ L : List VertexAccessor,
        BodyTrace self g context rest (cur, frame) (L.map TypedValue.Vertex) ∧ L.Nodup ∧
        ∀ v, v ∈ L ↔ ∃ d : Nat, IsDist g self.direction self.edge_types s v d ∧ k ≤ d ∧
          lower ≤ (d : Int) ∧ (d : Int) ≤ upper := by
  intro n
  induction n with
  | zero =>
    intro k cur frame hkn hcur hin hlow hupp hstart hrec
    cases hN : cur.to_visit_next_ with
    | nil =>
      refine ⟨[], BodyTrace.done (cur, frame) hcur hN hin, List.nodup_nil, fun v => ?_⟩
      rw [hN] at hstart
      constructor
      · intro h; simp at h
      · rintro ⟨d, hd, hkd, _, _⟩
        have := no_further_level g self.direction self.edge_types s _ k hstart v d hd
        omega
    | cons x N1 =>
      rw [hN] at hstart hrec
      have hne : (x :: N1).map Prod.snd ≠ [] := by simp
      obtain ⟨cur1, frame1, seen1, h1, h2, h3, h4, hinv1, _, hex, hidle, htr⟩ :=
        level_visit self g context ha hf hsym s cur.processed_ _ k hstart lower upper rest N1 x
          { cur with to_visit_current_ := N1, to_visit_next_ := [] } frame [] rfl hlow hupp
          (fun y hy => ⟨List.mem_map_of_mem _ hy, hrec y hy⟩)
          (NextInv_start _ s _ _ k hstart hne) (fun _ => rfl)
      have hku : ¬ (k : Int) < upper := by omega
      have htrace := htr (cur, frame) []
        (SingleSourceBody_swap self g context ha cur frame x N1 hcur hN)
        (BodyTrace.done (cur1, frame1) h1 (hidle hku) (by rw [h2]; exact hin))
      obtain ⟨hnd, hmem⟩ := level_assemble g self.direction self.edge_types s k lower upper
        (by omega) ((x :: N1).map Prod.snd) [] hstart.distinct
        (level_is_dist g self.direction self.edge_types s _ _ k hstart) List.nodup_nil
        (fun v => by
          constructor
          · intro h; simp at h
          · rintro ⟨d, _, h5, _, h6⟩; omega)
      refine ⟨(if (k : Int) < lower then [] else (x :: N1).map Prod.snd) ++ [], ?_, hnd, hmem⟩
      convert htrace using 1
      by_cases hlo : (k : Int) < lower
      · simp only [if_pos hlo, List.map_nil, List.append_nil]
      · simp only [if_neg hlo, List.map_map, List.append_nil]
        rfl
  | succ n ih =>
    intro k cur frame hkn hcur hin hlow hupp hstart hrec
    cases hN : cur.to_visit_next_ with
    | nil =>
      refine ⟨[], BodyTrace.done (cur, frame) hcur hN hin, List.nodup_nil, fun v => ?_⟩
      rw [hN] at hstart
      constructor
      · intro h; simp at h
      · rintro ⟨d, hd, hkd, _, _⟩
        have := no_further_level g self.direction self.edge_types s _ k hstart v d hd
        omega
    | cons x N1 =>
      rw [hN] at hstart hrec
      have hne : (x :: N1).map Prod.snd ≠ [] := by simp
      obtain ⟨cur1, frame1, seen1, h1, h2, h3, h4, hinv1, _, hex, hidle, htr⟩ :=
        level_visit self g context ha hf hsym s cur.processed_ _ k hstart lower upper rest N1 x
          { cur with to_visit_current_ := N1, to_visit_next_ := [] } frame [] rfl hlow hupp
          (fun y hy => ⟨List.mem_map_of_mem _ hy, hrec y hy⟩)
          (NextInv_start _ s _ _ k hstart hne) (fun _ => rfl)
      have hku : (k : Int) < upper := by omega
      have hnext := LevelStart_next _ s cur.processed_ _ k hstart hne seen1 _ _ hinv1
        (fun u hu c hc => by
          obtain ⟨y, hy, hyu⟩ := List.mem_map.mp hu
          rw [← hyu] at hc
          exact hex hku y hy c hc)
      obtain ⟨L1, htr1, hnd1, hmem1⟩ := ih (k + 1) cur1 frame1 (by push_cast; omega) h1
        (by rw [h2]; exact hin) h3 h4 hnext hinv1.recorded
      have htrace := htr (cur, frame) _
        (SingleSourceBody_swap self g context ha cur frame x N1 hcur hN) htr1
      obtain ⟨hnd, hmem⟩ := level_assemble g self.direction self.edge_types s k lower upper
        (by omega) ((x :: N1).map Prod.snd) L1 hstart.distinct
        (level_is_dist g self.direction self.edge_types s _ _ k hstart) hnd1 hmem1
      refine ⟨(if (k : Int) < lower then [] else (x :: N1).map Prod.snd) ++ L1, ?_, hnd, hmem⟩
      convert htrace using 1
      by_cases hlo : (k : Int) < lower
      · simp only [if_pos hlo, List.map_nil, List.nil_append]
      · simp only [if_neg hlo, List.map_map, List.map_append]
        rfl

/-- Without a filter lambda, the iteration that pulls the input tuple expands from
the source and leaves the search at the start of level 1. -/
theorem SingleSourceBody_start {D : Type} (self : ExpandVariable D) (g : Graph)
    (context : ExecutionContext) (ha : MustAbort context = false)
    (hf : self.filter_lambda.expression = none)
    (cur : SingleSourceShortestPathCursor D) (frame : Frame D) (t : Frame D → Frame D)
    (s : VertexAccessor) (lower upper : Int)
    (rest : List (Frame D → Frame D))
    (hq1 : cur.to_visit_current_ = []) (hq2 : cur.to_visit_next_ = [])
    (hin : cur.input_cursor = t :: rest) (hs : t frame self.input_symbol = .Vertex s)
    (hlo : bfsBound (t frame) self.lower_bound 1 = .ok lower)
    (hup : bfsBound (t frame) self.upper_bound INT64_MAX = .ok upper)
    (h1 : 1 ≤ upper) (h2 : lower ≤ upper) :
    ∃ cur1 frame1, SingleSourceBody self g context cur frame = .continue_ (cur1, frame1) ∧
      cur1.to_visit_current_ = [] ∧ cur1.input_cursor = rest ∧
      cur1.lower_bound_ = lower ∧ cur1.upper_bound_ = upper ∧
      LevelStart (sourceCandidates g self.direction self.edge_types) s cur1.processed_
        (cur1.to_visit_next_.map Prod.snd) 1 ∧
      (∀ x ∈ cur1.to_visit_next_, cur1.processed_.lookup x.2 = some (some x.1)) := by
  have hz := LevelStart_zero (sourceCandidates g self.direction self.edge_types) s
  obtain ⟨st1, hst1, hinv1⟩ := expandPairs_post self hf _
    (sourceCandidates_join g self.direction self.edge_types) s [(s, none)] [s] 0 hz s
    (List.mem_singleton.mpr rfl) (sourceCandidates g self.direction self.edge_types s) []
    { frame := t frame, processed_ := [(s, none)], to_visit_next_ := [] }
    (fun c hc => hc) (NextInv_start _ s _ _ 0 hz (by simp))
  have hnext := LevelStart_next _ s [(s, none)] [s] 0 hz (by simp) _ _ _ hinv1
    (fun u hu c hc => by
      rw [List.mem_singleton] at hu
      rw [hu] at hc
      exact List.mem_append_right _ hc)
  have hbad : ¬ (upper < 1 ∨ lower > upper) := by omega
  have hem : emplace ([] : VertexEdgeMapT) s none = [(s, none)] :=
    emplace_new [] s none (by simp [Contains])
  refine ⟨{ cur with input_cursor := rest, to_visit_current_ := [], lower_bound_ := lower,
                     upper_bound_ := upper, processed_ := st1.processed_,
                     to_visit_next_ := st1.to_visit_next_ }, st1.frame, ?_, rfl, rfl, rfl, rfl,
    hnext, hinv1.recorded⟩
  unfold SingleSourceBody
  simp only [ha, hq1, hq2, List.isEmpty_nil, Bool.false_eq_true, if_false, if_true, pullSource,
    hin, hs, hlo, hup, if_neg hbad, expand_from_vertex, hem, hst1]

/-! ### From the iterations of the loop to the pulls -/

theorem SingleSourcePull_fuel {D : Type} (self : ExpandVariable D) (g : Graph)
    (context : ExecutionContext) (b : Bool)
    (s1 : SingleSourceShortestPathCursor D × Frame D) :
    ∀ (fuel n : Nat) (cur : SingleSourceShortestPathCursor D) (frame : Frame D),
      SingleSourceShortestPathCursor.Pull self g context fuel cur frame = .ok b s1 →
      SingleSourceShortestPathCursor.Pull self g context (fuel + n) cur frame = .ok b s1 := by
  intro fuel
  induction fuel with
  | zero => intro n cur frame h; simp [SingleSourceShortestPathCursor.Pull] at h
  | succ fuel ih =>
    intro n cur frame h
    rw [show fuel + 1 + n = (fuel + n) + 1 by omega]
    unfold SingleSourceShortestPathCursor.Pull at h ⊢
    cases hb : SingleSourceBody self g context cur frame with
    | continue_ s2 =>
      rw [hb] at h
      obtain ⟨cur2, frame2⟩ := s2
      exact ih n cur2 frame2 h
    | return_ b2 s2 => rw [hb] at h; exact h
    | throw_ e => rw [hb] at h; exact h

theorem SingleSourcePull_deterministic {D : Type} (self : ExpandVariable D) (g : Graph)
    (context : ExecutionContext) (cur : SingleSourceShortestPathCursor D) (frame : Frame D)
    (f1 f2 : Nat) (b1 b2 : Bool) (s1 s2 : SingleSourceShortestPathCursor D × Frame D)
    (h1 : SingleSourceShortestPathCursor.Pull self g context f1 cur frame = .ok b1 s1)
    (h2 : SingleSourceShortestPathCursor.Pull self g context f2 cur frame = .ok b2 s2) :
    b1 = b2 ∧ s1 = s2 := by
  have a := SingleSourcePull_fuel self g context b1 s1 f1 f2 cur frame h1
  have b := SingleSourcePull_fuel self g context b2 s2 f2 f1 cur frame h2
  rw [Nat.add_comm] at b
  rw [a] at b
  injection b with hb hs
  exact ⟨hb, hs⟩

theorem Emissions_of_trace {D : Type} (self : ExpandVariable D) (g : Graph)
    (context : ExecutionContext) (ha : MustAbort context = false)
    (s : SingleSourceShortestPathCursor D × Frame D)
    (l : List (TypedValue D)) (h : BodyTrace self g context [] s l) :
    Emissions self g context s l := by
  induction h with
  | done s h1 h2 h3 =>
    obtain ⟨s1, hb⟩ := SingleSourceBody_end self g context ha s.1 s.2 h1 h2 h3
    refine Emissions.done 1 s s1 ?_
    simp only [SingleSourceShortestPathCursor.Pull, hb]
  | step s s1 l hb _ ih =>
    cases ih with
    | done fuel _ s2 hp =>
      refine Emissions.done (fuel + 1) s s2 ?_
      simp only [SingleSourceShortestPathCursor.Pull, hb]
      exact hp
    | emit fuel _ s2 l2 hp hrest =>
      refine Emissions.emit (fuel + 1) s s2 l2 ?_ hrest
      simp only [SingleSourceShortestPathCursor.Pull, hb]
      exact hp
  | emit s s1 l hb _ ih =>
    refine Emissions.emit 1 s s1 l ?_ ih
    simp only [SingleSourceShortestPathCursor.Pull, hb]

theorem Emissions_unique {D : Type} (self : ExpandVariable D) (g : Graph)
    (context : ExecutionContext) (s : SingleSourceShortestPathCursor D × Frame D)
    (l1 : List (TypedValue D)) (h1 : Emissions self g context s l1) :
    ∀ l2, Emissions self g context s l2 → l1 = l2 := by
  induction h1 with
  | done fuel s s1 hp =>
    intro l2 h2
    cases h2 with
    | done _ _ _ _ => rfl
    | emit f2 _ s2 l3 hp2 _ =>
      exact absurd (SingleSourcePull_deterministic self g context _ _ _ _ _ _ _ _ hp hp2).1
        (by decide)
  | emit fuel s s1 l hp _ ih =>
    intro l2 h2
    cases h2 with
    | done f2 _ s2 hp2 =>
      exact absurd (SingleSourcePull_deterministic self g context _ _ _ _ _ _ _ _ hp hp2).1
        (by decide)
    | emit f2 _ s2 l3 hp2 hrest =>
      have := (SingleSourcePull_deterministic self g context _ _ _ _ _ _ _ _ hp hp2).2
      subst this
      rw [ih l3 hrest]

/-! ### The run of the loop is determined -/

theorem visitExpansion_input {D : Type} (self : ExpandVariable D) (g : Graph)
    (cur : SingleSourceShortestPathCursor D) (frame : Frame D)
    (x : EdgeAccessor × VertexAccessor)
    (s1 : SingleSourceShortestPathCursor D × Frame D) (b : Bool)
    (h : visitExpansion self g cur frame x = .continue_ s1 ∨
      visitExpansion self g cur frame x = .return_ b s1) :
    s1.1.input_cursor = cur.input_cursor := by
  unfold visitExpansion at h
  cases hch : chainEdges cur.processed_ (cur.processed_.length + 1) (otherEnd x.1 x.2) with
  | found l =>
    rw [hch] at h
    simp only at h
    split at h
    · rcases h with h | h <;> cases h
    · split_ifs at h
      · rcases h with h | h
        · injection h with h; rw [← h]
        · cases h
      · rcases h with h | h
        · cases h
        · injection h with _ h; rw [← h]
  | not_found => rw [hch] at h; rcases h with h | h <;> cases h
  | raised e => rw [hch] at h; rcases h with h | h <;> cases h
  | out_of_fuel => rw [hch] at h; rcases h with h | h <;> cases h

theorem pullSource_input {D : Type} (self : ExpandVariable D) (g : Graph)
    (cur : SingleSourceShortestPathCursor D) (frame : Frame D)
    (t : Frame D → Frame D) (rest : List (Frame D → Frame D))
    (hin : cur.input_cursor = t :: rest)
    (s1 : SingleSourceShortestPathCursor D × Frame D) (b : Bool)
    (h : pullSource self g cur frame = .continue_ s1 ∨
      pullSource self g cur frame = .return_ b s1) :
    s1.1.input_cursor = rest := by
  unfold pullSource at h
  rw [hin] at h
  simp only at h
  split at h
  · rcases h with h | h
    · injection h with h; rw [← h]
    · cases h
  · split at h
    · rcases h with h | h <;> cases h
    · split at h
      · rcases h with h | h <;> cases h
      · split_ifs at h
        · rcases h with h | h
          · injection h with h; rw [← h]
          · cases h
        · split at h
          · split at h
            · rcases h with h | h <;> cases h
            · rcases h with h | h
              · injection h with h; rw [← h]
              · cases h
          · rcases h with h | h <;> cases h

theorem SingleSourceBody_idle {D : Type} (self : ExpandVariable D) (g : Graph)
    (context : ExecutionContext) (ha : MustAbort context = false)
    (cur : SingleSourceShortestPathCursor D) (frame : Frame D)
    (h1 : cur.to_visit_current_ = []) (h2 : cur.to_visit_next_ = []) :
    SingleSourceBody self g context cur frame =
      pullSource self g { cur with to_visit_current_ := [], to_visit_next_ := [] } frame := by
  unfold SingleSourceBody
  simp only [ha, h1, h2, List.isEmpty_nil, Bool.false_eq_true, if_false, if_true]

theorem pullSource_nil {D : Type} (self : ExpandVariable D) (g : Graph)
    (cur : SingleSourceShortestPathCursor D) (frame : Frame D) (hin : cur.input_cursor = []) :
    pullSource self g cur frame = .return_ false (cur, frame) := by
  unfold pullSource
  rw [hin]

/-- An iteration of the loop does not add to the input still to come. -/
theorem SingleSourceBody_input_le {D : Type} (self : ExpandVariable D) (g : Graph)
    (context : ExecutionContext) (s s1 : SingleSourceShortestPathCursor D × Frame D) (b : Bool)
    (h : SingleSourceBody self g context s.1 s.2 = .continue_ s1 ∨
      SingleSourceBody self g context s.1 s.2 = .return_ b s1) :
    s1.1.input_cursor.length ≤ s.1.input_cursor.length := by
  cases ha : MustAbort context with
  | true =>
    have : SingleSourceBody self g context s.1 s.2 = .throw_ .HintedAbortError := by
      unfold SingleSourceBody
      rw [if_pos ha]
    rw [this] at h
    rcases h with h | h <;> cases h
  | false =>
    cases hcur : s.1.to_visit_current_ with
    | cons x R =>
      rw [SingleSourceBody_pop self g context ha s.1 s.2 x R hcur] at h
      rw [visitExpansion_input self g _ s.2 x s1 b h]
    | nil =>
      cases hnext : s.1.to_visit_next_ with
      | cons x N =>
        rw [SingleSourceBody_swap self g context ha s.1 s.2 x N hcur hnext] at h
        rw [visitExpansion_input self g _ s.2 x s1 b h]
      | nil =>
        rw [SingleSourceBody_idle self g context ha s.1 s.2 hcur hnext] at h
        by_cases hin : s.1.input_cursor = []
        · rw [pullSource_nil self g { s.1 with to_visit_current_ := [], to_visit_next_ := [] } s.2 hin] at h
          rcases h with h | h
          · cases h
          · injection h with hb hs
            rw [← hs]
        · obtain ⟨t, rest, htr⟩ := List.exists_cons_of_ne_nil hin
          rw [pullSource_input self g { s.1 with to_visit_current_ := [], to_visit_next_ := [] } s.2 t
            rest htr s1 b h, htr]
          simp

/-- An iteration of the loop that starts with nothing left to visit, and does not
return false, takes a tuple from the input. -/
theorem SingleSourceBody_consumes {D : Type} (self : ExpandVariable D) (g : Graph)
    (context : ExecutionContext) (s s1 : SingleSourceShortestPathCursor D × Frame D)
    (hcur : s.1.to_visit_current_ = []) (hnext : s.1.to_visit_next_ = [])
    (h : SingleSourceBody self g context s.1 s.2 = .continue_ s1 ∨
      SingleSourceBody self g context s.1 s.2 = .return_ true s1) :
    s1.1.input_cursor.length < s.1.input_cursor.length := by
  cases ha : MustAbort context with
  | true =>
    have : SingleSourceBody self g context s.1 s.2 = .throw_ .HintedAbortError := by
      unfold SingleSourceBody
      rw [if_pos ha]
    rw [this] at h
    rcases h with h | h <;> cases h
  | false =>
    rw [SingleSourceBody_idle self g context ha s.1 s.2 hcur hnext] at h
    by_cases hin : s.1.input_cursor = []
    · rw [pullSource_nil self g { s.1 with to_visit_current_ := [], to_visit_next_ := [] } s.2 hin] at h
      rcases h with h | h
      · cases h
      · injection h with hb _
        cases hb
    · obtain ⟨t, rest, htr⟩ := List.exists_cons_of_ne_nil hin
      rw [pullSource_input self g { s.1 with to_visit_current_ := [], to_visit_next_ := [] } s.2 t
        rest htr s1 true h, htr]
      simp

theorem BodyTrace_input_le {D : Type} (self : ExpandVariable D) (g : Graph)
    (context : ExecutionContext) (rest : List (Frame D → Frame D))
    (s : SingleSourceShortestPathCursor D × Frame D) (l : List (TypedValue D))
    (h : BodyTrace self g context rest s l) : rest.length ≤ s.1.input_cursor.length := by
  induction h with
  | done s _ _ h3 => rw [h3]
  | step s s1 l hb _ ih =>
    exact le_trans ih (SingleSourceBody_input_le self g context s s1 true (Or.inl hb))
  | emit s s1 l hb _ ih =>
    exact le_trans ih (SingleSourceBody_input_le self g context s s1 true (Or.inr hb))

/-- The run of the loop for one input tuple is determined by the state it starts
from. -/
theorem BodyTrace_unique {D : Type} (self : ExpandVariable D) (g : Graph)
    (context : ExecutionContext) (rest : List (Frame D → Frame D))
    (s : SingleSourceShortestPathCursor D × Frame D) (l1 : List (TypedValue D))
    (h1 : BodyTrace self g context rest s l1) :
    ∀ l2, BodyTrace self g context rest s l2 → l1 = l2 := by
  have hstop : ∀ (s s1 : SingleSourceShortestPathCursor D × Frame D) (l : List (TypedValue D)),
      s.1.to_visit_current_ = [] → s.1.to_visit_next_ = [] → s.1.input_cursor = rest →
      (SingleSourceBody self g context s.1 s.2 = .continue_ s1 ∨
        SingleSourceBody self g context s.1 s.2 = .return_ true s1) →
      BodyTrace self g context rest s1 l → False := by
    intro s s1 l hq1 hq2 hin hb htr
    have hlt := SingleSourceBody_consumes self g context s s1 hq1 hq2 hb
    have hle := BodyTrace_input_le self g context rest s1 l htr
    rw [hin] at hlt
    omega
  induction h1 with
  | done s hq1 hq2 hin =>
    intro l2 h2
    cases h2 with
    | done _ _ _ _ => rfl
    | step _ s1 _ hb htr => exact (hstop s s1 _ hq1 hq2 hin (Or.inl hb) htr).elim
    | emit _ s1 _ hb htr => exact (hstop s s1 _ hq1 hq2 hin (Or.inr hb) htr).elim
  | step s s1 l hb htr ih =>
    intro l2 h2
    cases h2 with
    | done _ hq1 hq2 hin => exact (hstop s s1 l hq1 hq2 hin (Or.inl hb) htr).elim
    | step _ s2 l3 hb2 htr2 =>
      rw [hb] at hb2
      injection hb2 with hb2
      subst hb2
      exact ih l2 htr2
    | emit _ s2 l3 hb2 htr2 => rw [hb] at hb2; cases hb2
  | emit s s1 l hb htr ih =>
    intro l2 h2
    cases h2 with
    | done _ hq1 hq2 hin => exact (hstop s s1 l hq1 hq2 hin (Or.inr hb) htr).elim
    | step _ s2 l3 hb2 htr2 => rw [hb] at hb2; cases hb2
    | emit _ s2 l3 hb2 htr2 =>
      rw [hb] at hb2
      injection hb2 with _ hb2
      subst hb2
      rw [ih l3 htr2]

/-! ### Claim about the single-source cursor -/

/-- C7. For every graph and every input tuple that binds the source to a vertex
`s` and evaluates the bounds to `lower` and `upper` with `1 ≤ lower ≤ upper`, the
single-source cursor without a filter lambda emits for that tuple exactly the
list `L` of vertices: `L` has no vertex twice, and a vertex is in `L` if and only
if it is not `s` and its breadth-first distance `d` from `s` satisfies
`lower ≤ d ≤ upper`. The emissions for the tuple are those of the iterations of
the loop of `Pull` from the state in which the tuple is next in the input to the
state in which nothing is left to visit, and when the tuple is the last of the
input they are the tuples that the calls of `Pull` return until one returns
false. (The node symbol of the operator is not its edge symbol.) -/
theorem SingleSourceShortestPathCursor_emits_each_vertex_once {D : Type}
    (self : ExpandVariable D) (g : Graph) (context : ExecutionContext)
    (cur : SingleSourceShortestPathCursor D) (frame : Frame D) (t : Frame D → Frame D)
    (rest : List (Frame D → Frame D)) (s : VertexAccessor) (lower upper : Int)
    (ha : MustAbort context = false) (hf : self.filter_lambda.expression = none)
    (hsym : self.node_symbol ≠ self.edge_symbol)
    (hq1 : cur.to_visit_current_ = []) (hq2 : cur.to_visit_next_ = [])
    (hin : cur.input_cursor = t :: rest) (hs : t frame self.input_symbol = .Vertex s)
    (hlo : bfsBound (t frame) self.lower_bound 1 = .ok lower)
    (hup : bfsBound (t frame) self.upper_bound INT64_MAX = .ok upper)
    (h1 : 1 ≤ lower) (h2 : lower ≤ upper) :
    ∃ L : List VertexAccessor,
      BodyTrace self g context rest (cur, frame) (L.map TypedValue.Vertex) ∧
      (∀ l, BodyTrace self g context rest (cur, frame) l → l = L.map TypedValue.Vertex) ∧
      (rest = [] →
        Emissions self g context (cur, frame) (L.map TypedValue.Vertex) ∧
        ∀ l, Emissions self g context (cur, frame) l → l = L.map TypedValue.Vertex) ∧
      L.Nodup ∧
      ∀ v, v ∈ L ↔
        (v ≠ s ∧ ∃ d : Nat, IsDist g self.direction self.edge_types s v d ∧
          lower ≤ (d : Int) ∧ (d : Int) ≤ upper) := by
  obtain ⟨cur1, frame1, hbody, hc1, hi1, hl1, hu1, hstart, hrec⟩ :=
    SingleSourceBody_start self g context ha hf cur frame t s lower upper rest hq1 hq2 hin hs
      hlo hup (by omega) h2
  obtain ⟨L, htr, hnd, hmem⟩ := levels_run self g context ha hf hsym s lower upper rest
    (upper - 1).toNat 1 cur1 frame1 (by omega) hc1 hi1 hl1 hu1 hstart hrec
  have htrace : BodyTrace self g context rest (cur, frame) (L.map TypedValue.Vertex) :=
    BodyTrace.step (cur, frame) (cur1, frame1) _ hbody htr
  refine ⟨L, htrace, fun l hl => BodyTrace_unique self g context rest _ _ hl _ htrace, ?_, hnd,
    fun v => ?_⟩
  · intro hrest
    subst hrest
    have hem := Emissions_of_trace self g context ha _ _ htrace
    exact ⟨hem, fun l hl => Emissions_unique self g context _ _ hl _ hem⟩
  · rw [hmem v]
    constructor
    · rintro ⟨d, hd, h3, h4, h5⟩
      refine ⟨fun hvs => ?_, d, hd, h4, h5⟩
      have := hd.2 [] ((IsWalk_nil g self.direction self.edge_types s v).mpr hvs.symm)
      simp at this
      omega
    · rintro ⟨_, d, hd, h4, h5⟩
      exact ⟨d, hd, by omega, h4, h5⟩

theorem SingleSourceShortestPathCursor_emits_each_vertex_once_witness :
    ∃ L : List VertexAccessor,
      BodyTrace sampleExpand sampleGraph ⟨false⟩ []
        (SingleSourceShortestPathCursor.init (sampleInput 0), sampleFrame)
        (L.map TypedValue.Vertex) ∧
      (∀ l, BodyTrace sampleExpand sampleGraph ⟨false⟩ []
        (SingleSourceShortestPathCursor.init (sampleInput 0), sampleFrame) l →
        l = L.map TypedValue.Vertex) ∧
      (([] : List (Frame Int → Frame Int)) = [] →
        Emissions sampleExpand sampleGraph ⟨false⟩
          (SingleSourceShortestPathCursor.init (sampleInput 0), sampleFrame)
          (L.map TypedValue.Vertex) ∧
        ∀ l, Emissions sampleExpand sampleGraph ⟨false⟩
          (SingleSourceShortestPathCursor.init (sampleInput 0), sampleFrame) l →
          l = L.map TypedValue.Vertex) ∧
      L.Nodup ∧
      ∀ v, v ∈ L ↔
        (v ≠ 0 ∧ ∃ d : Nat,
          IsDist sampleGraph sampleExpand.direction sampleExpand.edge_types 0 v d ∧
          (1 : Int) ≤ (d : Int) ∧ (d : Int) ≤ INT64_MAX) :=
  SingleSourceShortestPathCursor_emits_each_vertex_once sampleExpand sampleGraph ⟨false⟩
    (SingleSourceShortestPathCursor.init (sampleInput 0)) sampleFrame
    (fun f => f.set 0 (.Vertex 0)) [] 0 1 INT64_MAX rfl rfl (by decide) rfl rfl rfl rfl rfl rfl
    (by decide) (by decide)

/-! ### The priority queue and the maps of the weighted search -/

theorem pqPop_none {D : Type} [WeightCarrier D] (q : List (PqEntry D)) :
    pqPop q = none ↔ q = [] := by
  cases q with
  | nil => simp [pqPop]
  | cons e q =>
    simp only [pqPop]
    cases pqPop q with
    | none => simp
    | some mr =>
      obtain ⟨m, r⟩ := mr
      by_cases h : m.weight < e.weight <;> simp [h]

/-- What `top()` and `pop()` give: an entry of the queue of least weight, and the
other entries. -/
theorem pqPop_some {D : Type} [WeightCarrier D] :
    ∀ (q : List (PqEntry D)) (m : PqEntry D) (r : List (PqEntry D)),
      pqPop q = some (m, r) →
      m ∈ q ∧ (∀ x ∈ r, x ∈ q) ∧ (∀ x ∈ q, x = m ∨ x ∈ r) ∧ ∀ x ∈ q, m.weight ≤ x.weight := by
  intro q
  induction q with
  | nil => intro m r h; simp [pqPop] at h
  | cons e q ih =>
    intro m r h
    simp only [pqPop] at h
    cases hq : pqPop q with
    | none =>
      rw [hq] at h
      simp only [Option.some.injEq, Prod.mk.injEq] at h
      obtain ⟨rfl, rfl⟩ := h
      have hnil : q = [] := (pqPop_none q).mp hq
      subst hnil
      simp
    | some mr =>
      obtain ⟨m1, r1⟩ := mr
      rw [hq] at h
      obtain ⟨h1, h2, h3, h4⟩ := ih m1 r1 hq
      by_cases hlt : m1.weight < e.weight
      · simp only [hlt, if_true, Option.some.injEq, Prod.mk.injEq] at h
        obtain ⟨rfl, rfl⟩ := h
        refine ⟨List.mem_cons_of_mem _ h1, ?_, ?_, ?_⟩
        · intro x hx
          rcases List.mem_cons.mp hx with hx | hx
          · rw [hx]; exact List.mem_cons_self _ _
          · exact List.mem_cons_of_mem _ (h2 x hx)
        · intro x hx
          rcases List.mem_cons.mp hx with hx | hx
          · right; rw [hx]; exact List.mem_cons_self _ _
          · rcases h3 x hx with h | h
            · left; exact h
            · right; exact List.mem_cons_of_mem _ h
        · intro x hx
          rcases List.mem_cons.mp hx with hx | hx
          · rw [hx]; exact le_of_lt hlt
          · exact h4 x hx
      · simp only [hlt, if_false, Option.some.injEq, Prod.mk.injEq] at h
        obtain ⟨rfl, rfl⟩ := h
        refine ⟨List.mem_cons_self _ _, fun x hx => List.mem_cons_of_mem _ hx, ?_, ?_⟩
        · intro x hx
          rcases List.mem_cons.mp hx with hx | hx
          · left; exact hx
          · right; exact hx
        · intro x hx
          rcases List.mem_cons.mp hx with hx | hx
          · rw [hx]
          · exact le_trans (not_lt.mp hlt) (h4 x hx)

theorem state_lookup_cons_self {α : Type} (m : List (WspState × α)) (k : WspState) (x : α) :
    List.lookup k ((k, x) :: m) = some x := by
  simp [List.lookup]

theorem state_lookup_cons_ne {α : Type} (m : List (WspState × α)) (k k1 : WspState) (x : α)
    (h : k ≠ k1) : List.lookup k ((k1, x) :: m) = List.lookup k m := by
  have : (k == k1) = false := by simpa using h
  simp [List.lookup, this]

theorem state_lookup_mem_keys {α : Type} (m : List (WspState × α)) (k : WspState) :
    (List.lookup k m).isSome = true ↔ k ∈ m.map Prod.fst := by
  induction m with
  | nil => simp [List.lookup]
  | cons a t ih =>
    obtain ⟨k1, x⟩ := a
    by_cases h : k = k1
    · subst h; simp [state_lookup_cons_self]
    · rw [state_lookup_cons_ne t k k1 x h, ih]
      simp [h]

theorem emplaceState_new {α : Type} (m : List (WspState × α)) (k : WspState) (x : α)
    (h : ¬ (List.lookup k m).isSome = true) : emplaceState m k x = (k, x) :: m := by
  unfold emplaceState
  rw [if_neg h]

/-! ### Costs of walks -/

theorem checkedWeight_nonneg {D : Type} [WeightCarrier D] (x : TypedValue D) (d : D)
    (h : checkedWeight x = .ok d) : 0 ≤ d := by
  unfold checkedWeight at h
  cases x with
  | Int i =>
    simp only at h
    by_cases hi : i < 0
    · rw [if_pos hi] at h; cases h
    · rw [if_neg hi] at h
      injection h with h
      rw [← h]
      exact WeightCarrier.cast_nonneg i (not_lt.mp hi)
  | Double d1 =>
    simp only at h
    by_cases hi : d1 < 0
    · rw [if_pos hi] at h; cases h
    · rw [if_neg hi] at h
      injection h with h
      rw [← h]
      exact not_lt.mp hi
  | Null => cases h
  | Bool b => cases h
  | String s => cases h
  | List l => cases h
  | Map m => cases h
  | Vertex v => cases h
  | Edge e => cases h
  | Path a b => cases h

theorem walkCostFrom_cons {D : Type} [WeightCarrier D] (g : Graph) (direction : Direction)
    (edge_types : List Nat) (w : EdgeAccessor → VertexAccessor → D) (acc : D)
    (u v : VertexAccessor) (e : EdgeAccessor) (p : List EdgeAccessor)
    (h : stepTo g direction edge_types u e = some v) :
    walkCostFrom g direction edge_types w acc u (e :: p) =
      walkCostFrom g direction edge_types w (acc + w e v) v p := by
  conv_lhs => unfold walkCostFrom
  rw [h]

/-- Accumulating non-negative weights along a walk does not decrease. -/
theorem walkCostFrom_ge {D : Type} [WeightCarrier D] (g : Graph) (direction : Direction)
    (edge_types : List Nat) (w : EdgeAccessor → VertexAccessor → D) (hw : ∀ e v, 0 ≤ w e v)
    (p : List EdgeAccessor) :
    ∀ (acc : D) (u : VertexAccessor), acc ≤ walkCostFrom g direction edge_types w acc u p := by
  induction p with
  | nil => intro acc u; exact le_refl _
  | cons e p ih =>
    intro acc u
    unfold walkCostFrom
    cases stepTo g direction edge_types u e with
    | none => exact le_refl _
    | some v => exact le_trans (WeightCarrier.add_nonneg_ge acc (w e v) (hw e v)) (ih _ v)

/-- Accumulating along a walk keeps the order of the starting values. -/
theorem walkCostFrom_mono {D : Type} [WeightCarrier D] (g : Graph) (direction : Direction)
    (edge_types : List Nat) (w : EdgeAccessor → VertexAccessor → D) (p : List EdgeAccessor) :
    ∀ (a b : D) (u : VertexAccessor), a ≤ b →
      walkCostFrom g direction edge_types w a u p ≤
        walkCostFrom g direction edge_types w b u p := by
  induction p with
  | nil => intro a b u h; exact h
  | cons e p ih =>
    intro a b u h
    unfold walkCostFrom
    cases stepTo g direction edge_types u e with
    | none => exact h
    | some v => exact ih _ _ v (WeightCarrier.add_mono a b (w e v) h)

theorem walkCostFrom_append {D : Type} [WeightCarrier D] (g : Graph) (direction : Direction)
    (edge_types : List Nat) (w : EdgeAccessor → VertexAccessor → D) (p q : List EdgeAccessor) :
    ∀ (acc : D) (u x : VertexAccessor), IsWalk g direction edge_types u p x →
      walkCostFrom g direction edge_types w acc u (p ++ q) =
        walkCostFrom g direction edge_types w (walkCostFrom g direction edge_types w acc u p)
          x q := by
  induction p with
  | nil =>
    intro acc u x h
    have hux : u = x := (IsWalk_nil g direction edge_types u x).mp h
    subst hux
    rfl
  | cons e p ih =>
    intro acc u x h
    obtain ⟨y, hy, hrest⟩ := (IsWalk_cons g direction edge_types u x e p).mp h
    simp only [List.cons_append]
    rw [walkCostFrom_cons g direction edge_types w acc u y e _ hy,
      walkCostFrom_cons g direction edge_types w acc u y e _ hy, ih _ y x hrest]

theorem walkCost_nonneg {D : Type} [WeightCarrier D] (g : Graph) (direction : Direction)
    (edge_types : List Nat) (w : EdgeAccessor → VertexAccessor → D) (hw : ∀ e v, 0 ≤ w e v)
    (p : List EdgeAccessor) (u : VertexAccessor) :
    0 ≤ walkCost g direction edge_types w u p :=
  walkCostFrom_ge g direction edge_types w hw p 0 u

/-- Extending a walk by one edge adds the weight of the edge to the cost. -/
theorem walk_snoc {D : Type} [WeightCarrier D] (g : Graph) (direction : Direction)
    (edge_types : List Nat) (w : EdgeAccessor → VertexAccessor → D) (e : EdgeAccessor)
    (v y : VertexAccessor) (he : stepTo g direction edge_types v e = some y)
    (p : List EdgeAccessor) (s : VertexAccessor) (hp : IsWalk g direction edge_types s p v) :
    IsWalk g direction edge_types s (p ++ [e]) y ∧
    walkCost g direction edge_types w s (p ++ [e]) =
      walkCost g direction edge_types w s p + w e y := by
  refine ⟨(IsWalk_append g direction edge_types p [e] s y).mpr ⟨v, hp,
    (IsWalk_cons g direction edge_types v y e []).mpr
      ⟨y, he, (IsWalk_nil g direction edge_types y y).mpr rfl⟩⟩, ?_⟩
  unfold walkCost
  rw [walkCostFrom_append g direction edge_types w p [e] 0 s v hp,
    walkCostFrom_cons g direction edge_types w _ v y e [] he]
  rfl

theorem IsWalk_universe (g : Graph) (direction : Direction) (edge_types : List Nat)
    (s v : VertexAccessor) (p : List EdgeAccessor) (h : IsWalk g direction edge_types s p v) :
    v ∈ searchUniverse g s := by
  refine BackWalk_source_universe g direction edge_types s v p.reverse ?_
  exact (BackWalk_source_iff g direction edge_types s p.reverse v).mpr (by simpa using h)

/-! ### Walks without a repeated edge -/

/-- With non-negative weights, below every walk there is a walk between the same
vertices that repeats no edge and costs no more. -/
theorem trail_below_walk {D : Type} [WeightCarrier D] (g : Graph)
    (direction : Direction) (edge_types : List Nat) (w : EdgeAccessor → VertexAccessor → D)
    (hw : ∀ e v, 0 ≤ w e v) :
    ∀ (n : Nat) (q : List EdgeAccessor), q.length ≤ n →
      ∀ (s v : VertexAccessor), IsWalk g direction edge_types s q v →
        ∃ p, IsWalk g direction edge_types s p v ∧ p.Nodup ∧
          walkCost g direction edge_types w s p ≤ walkCost g direction edge_types w s q := by
  intro n
  induction n with
  | zero =>
    intro q hq s v h
    have hnil : q = [] := List.length_eq_zero.mp (Nat.le_zero.mp hq)
    subst hnil
    exact ⟨[], h, List.nodup_nil, le_refl _⟩
  | succ n ih =>
    intro q hq s v h
    by_cases hnd : q.Nodup
    · exact ⟨q, h, hnd, le_refl _⟩
    · obtain ⟨a, e, b, c, habc⟩ := exists_repeated_edge q hnd
      subst habc
      obtain ⟨x, hax, hrest⟩ := (IsWalk_append g direction edge_types a _ s v).mp h
      obtain ⟨y, hxy, hrest1⟩ := (IsWalk_cons g direction edge_types x v e _).mp hrest
      obtain ⟨z, hbz, hrest2⟩ := (IsWalk_append g direction edge_types b _ y v).mp hrest1
      obtain ⟨u, hzu, hcu⟩ := (IsWalk_cons g direction edge_types z v e c).mp hrest2
      have hcost : walkCost g direction edge_types w s (a ++ e :: (b ++ e :: c)) =
          walkCostFrom g direction edge_types w
            (walkCostFrom g direction edge_types w
              (walkCost g direction edge_types w s a + w e y) y b + w e u) u c := by
        unfold walkCost
        rw [walkCostFrom_append g direction edge_types w a _ 0 s x hax,
          walkCostFrom_cons g direction edge_types w _ x y e _ hxy,
          walkCostFrom_append g direction edge_types w b _ _ y z hbz,
          walkCostFrom_cons g direction edge_types w _ z u e _ hzu]
      have hb0 := walkCostFrom_ge g direction edge_types w hw b
        (walkCost g direction edge_types w s a + w e y) y
      simp only [List.length_append, List.length_cons] at hq
      rcases stepTo_twice g direction edge_types e x y z u hxy hzu with ⟨_, hyu⟩ | hux
      · subst hyu
        have hwalk : IsWalk g direction edge_types s (a ++ e :: c) v :=
          (IsWalk_append g direction edge_types a _ s v).mpr
            ⟨x, hax, (IsWalk_cons g direction edge_types x v e c).mpr ⟨y, hxy, hcu⟩⟩
        obtain ⟨p, hp1, hp2, hp3⟩ := ih (a ++ e :: c)
          (by simp only [List.length_append, List.length_cons]; omega) s v hwalk
        refine ⟨p, hp1, hp2, le_trans hp3 ?_⟩
        rw [hcost]
        have hshort : walkCost g direction edge_types w s (a ++ e :: c) =
            walkCostFrom g direction edge_types w
              (walkCost g direction edge_types w s a + w e y) y c := by
          unfold walkCost
          rw [walkCostFrom_append g direction edge_types w a _ 0 s x hax,
            walkCostFrom_cons g direction edge_types w _ x y e _ hxy]
        rw [hshort]
        exact walkCostFrom_mono g direction edge_types w c _ _ y
          (le_trans hb0 (WeightCarrier.add_nonneg_ge _ _ (hw e y)))
      · subst hux
        have hwalk : IsWalk g direction edge_types s (a ++ c) v :=
          (IsWalk_append g direction edge_types a _ s v).mpr ⟨u, hax, hcu⟩
        obtain ⟨p, hp1, hp2, hp3⟩ := ih (a ++ c)
          (by simp only [List.length_append]; omega) s v hwalk
        refine ⟨p, hp1, hp2, le_trans hp3 ?_⟩
        rw [hcost]
        have hshort : walkCost g direction edge_types w s (a ++ c) =
            walkCostFrom g direction edge_types w (walkCost g direction edge_types w s a) u c := by
          unfold walkCost
          rw [walkCostFrom_append g direction edge_types w a _ 0 s u hax]
        rw [hshort]
        exact walkCostFrom_mono g direction edge_types w c _ _ u
          (le_trans (WeightCarrier.add_nonneg_ge _ _ (hw e y))
            (le_trans hb0 (WeightCarrier.add_nonneg_ge _ _ (hw e u))))

/-! ### The entry on top of the queue carries the least cost -/

/-- Along a walk from a settled vertex to a vertex that is not settled, the queue
holds an entry that costs no more than the cost of the settled vertex with the
weights of the walk added. -/
theorem queued_below_walk {D : Type} [WeightCarrier D] (g : Graph) (direction : Direction)
    (edge_types : List Nat) (w : EdgeAccessor → VertexAccessor → D) (hw : ∀ e v, 0 ≤ w e v)
    (s : VertexAccessor) (cur : ExpandWeightedShortestPathCursor D)
    (hinv : WeightedInv g direction edge_types w s cur) (y : VertexAccessor)
    (hy : ¬ (cur.total_cost_.lookup (y, 0)).isSome = true) (q : List EdgeAccessor) :
    ∀ (u : VertexAccessor) (c : D), cur.total_cost_.lookup (u, 0) = some c →
      IsWalk g direction edge_types u q y →
      ∃ x ∈ cur.pq_, x.weight ≤ walkCostFrom g direction edge_types w c u q := by
  induction q with
  | nil =>
    intro u c hu hq
    have huy : u = y := (IsWalk_nil g direction edge_types u y).mp hq
    subst huy
    rw [hu] at hy
    simp at hy
  | cons e q ih =>
    intro u c hu hq
    obtain ⟨u1, hstep, hrest⟩ := (IsWalk_cons g direction edge_types u y e q).mp hq
    rw [walkCostFrom_cons g direction edge_types w c u u1 e q hstep]
    rcases hinv.relaxed u c hu e u1 hstep with h | ⟨x, hx, _, hxw⟩
    · obtain ⟨c1, hc1⟩ := Option.isSome_iff_exists.mp h
      obtain ⟨p, hp, hpc⟩ := (hinv.settled_walk u c hu).1
      obtain ⟨hp1, hpc1⟩ := walk_snoc g direction edge_types w e u u1 hstep p s hp
      have hle : c1 ≤ c + w e u1 := by
        have := (hinv.settled_walk u1 c1 hc1).2 _ hp1
        rw [hpc1, hpc] at this
        exact this
      obtain ⟨x, hx, hxw⟩ := ih u1 c1 hc1 hrest
      exact ⟨x, hx, le_trans hxw (walkCostFrom_mono g direction edge_types w q _ _ u1 hle)⟩
    · exact ⟨x, hx, le_trans hxw (walkCostFrom_ge g direction edge_types w hw q _ u1)⟩

/-- The entry of least weight in the queue, when its vertex is not settled,
costs no more than any walk from the source to its vertex. -/
theorem top_is_least {D : Type} [WeightCarrier D] (g : Graph) (direction : Direction)
    (edge_types : List Nat) (w : EdgeAccessor → VertexAccessor → D) (hw : ∀ e v, 0 ≤ w e v)
    (s : VertexAccessor) (cur : ExpandWeightedShortestPathCursor D)
    (hinv : WeightedInv g direction edge_types w s cur) (top : PqEntry D)
    (hmin : ∀ x ∈ cur.pq_, top.weight ≤ x.weight) (y : VertexAccessor)
    (hy : ¬ (cur.total_cost_.lookup (y, 0)).isSome = true) (q : List EdgeAccessor)
    (hq : IsWalk g direction edge_types s q y) :
    top.weight ≤ walkCost g direction edge_types w s q := by
  rcases hinv.source with h | ⟨x, hx, _, hxw⟩
  · obtain ⟨c, hc⟩ := Option.isSome_iff_exists.mp h
    have hc0 : c ≤ 0 :=
      (hinv.settled_walk s c hc).2 [] ((IsWalk_nil g direction edge_types s s).mpr rfl)
    obtain ⟨x, hx, hxw⟩ := queued_below_walk g direction edge_types w hw s cur hinv y hy q s c hc hq
    exact le_trans (hmin x hx)
      (le_trans hxw (walkCostFrom_mono g direction edge_types w q _ _ s hc0))
  · exact le_trans (hmin x hx) (le_trans hxw (walkCost_nonneg g direction edge_types w hw q s))

/-! ### The invariant of the weighted search is kept -/

theorem settled_count_le {D : Type} [WeightCarrier D] (g : Graph) (direction : Direction)
    (edge_types : List Nat) (w : EdgeAccessor → VertexAccessor → D) (s : VertexAccessor)
    (cur : ExpandWeightedShortestPathCursor D)
    (hinv : WeightedInv g direction edge_types w s cur) :
    cur.total_cost_.length ≤ 2 * g.edges.length + 1 := by
  have hnd : ((cur.total_cost_.map Prod.fst).map Prod.fst).Nodup := by
    refine List.Nodup.map_on ?_ hinv.keys_nodup
    intro a ha b hb hab
    exact Prod.ext hab (by rw [(hinv.keys a ha).1, (hinv.keys b hb).1])
  have hsub : (cur.total_cost_.map Prod.fst).map Prod.fst ⊆ searchUniverse g s := by
    intro v hv
    obtain ⟨k, hk, hkv⟩ := List.mem_map.mp hv
    rw [← hkv]
    exact (hinv.keys k hk).2
  have hlen := (List.Nodup.subperm hnd hsub).length_le
  have huni : (searchUniverse g s).length = 2 * g.edges.length + 1 := by
    unfold searchUniverse
    have : ∀ l : List EdgeAccessor,
        (l.flatMap (fun e => [e.From, e.To])).length = 2 * l.length := by
      intro l
      induction l with
      | nil => simp
      | cons a t ih =>
        simp only [List.flatMap_cons, List.length_append, List.length_cons, List.length_nil, ih]
        omega
    simp only [List.length_cons, this g.edges]
  simp only [List.length_map] at hlen
  omega

/-- Dropping from the queue an entry whose vertex is settled keeps the invariant. -/
theorem WeightedInv_skip {D : Type} [WeightCarrier D] (g : Graph) (direction : Direction)
    (edge_types : List Nat) (w : EdgeAccessor → VertexAccessor → D) (s : VertexAccessor)
    (cur cur0 : ExpandWeightedShortestPathCursor D)
    (hinv : WeightedInv g direction edge_types w s cur) (top : PqEntry D)
    (hsplit : ∀ x ∈ cur.pq_, x = top ∨ x ∈ cur0.pq_) (hsub : ∀ x ∈ cur0.pq_, x ∈ cur.pq_)
    (hset : (cur.total_cost_.lookup (top.vertex, 0)).isSome = true)
    (h1 : cur0.upper_bound_set_ = cur.upper_bound_set_) (h2 : cur0.upper_bound_ = cur.upper_bound_)
    (h3 : cur0.total_cost_ = cur.total_cost_) :
    WeightedInv g direction edge_types w s cur0 where
  unbounded := by rw [h1, h2]; exact hinv.unbounded
  settled_walk := by rw [h3]; exact hinv.settled_walk
  queued_walk := fun x hx => hinv.queued_walk x (hsub x hx)
  source := by
    rw [h3]
    rcases hinv.source with h | ⟨x, hx, hxv, hxw⟩
    · exact Or.inl h
    · rcases hsplit x hx with h | h
      · left; rw [← hxv, h]; exact hset
      · exact Or.inr ⟨x, h, hxv, hxw⟩
  relaxed := by
    rw [h3]
    intro u c hu e v hstep
    rcases hinv.relaxed u c hu e v hstep with h | ⟨x, hx, hxv, hxw⟩
    · exact Or.inl h
    · rcases hsplit x hx with h | h
      · left; rw [← hxv, h]; exact hset
      · exact Or.inr ⟨x, h, hxv, hxw⟩
  depth_le := by rw [h3]; exact fun x hx => hinv.depth_le x (hsub x hx)
  keys := by rw [h3]; exact hinv.keys
  keys_nodup := by rw [h3]; exact hinv.keys_nodup

/-- Settling the vertex of the entry of least weight and relaxing its candidates
keeps the invariant. -/
theorem WeightedInv_settle {D : Type} [WeightCarrier D] (g : Graph)
    (direction : Direction) (edge_types : List Nat) (w : EdgeAccessor → VertexAccessor → D)
    (hw : ∀ e v, 0 ≤ w e v) (s : VertexAccessor)
    (cur cur2 : ExpandWeightedShortestPathCursor D)
    (hinv : WeightedInv g direction edge_types w s cur) (top : PqEntry D)
    (rest : List (PqEntry D)) (htop : top ∈ cur.pq_)
    (hsplit : ∀ x ∈ cur.pq_, x = top ∨ x ∈ rest) (hsub : ∀ x ∈ rest, x ∈ cur.pq_)
    (hmin : ∀ x ∈ cur.pq_, top.weight ≤ x.weight)
    (hnot : ¬ (cur.total_cost_.lookup (top.vertex, 0)).isSome = true)
    (h1 : cur2.upper_bound_set_ = cur.upper_bound_set_) (h2 : cur2.upper_bound_ = cur.upper_bound_)
    (h3 : cur2.total_cost_ = ((top.vertex, 0), top.weight) :: cur.total_cost_)
    (hold : ∀ x ∈ rest, x ∈ cur2.pq_)
    (hnew : ∀ x ∈ cur2.pq_, x ∈ rest ∨ ∃ e y, stepTo g direction edge_types top.vertex e = some y ∧
      x = ⟨top.weight + w e y, top.depth + 1, y, some e⟩)
    (hrel : ∀ e y, stepTo g direction edge_types top.vertex e = some y →
      (cur2.total_cost_.lookup (y, 0)).isSome = true ∨
      ∃ x ∈ cur2.pq_, x.vertex = y ∧ x.weight ≤ top.weight + w e y) :
    WeightedInv g direction edge_types w s cur2 := by
  obtain ⟨ptop, hptop, hctop⟩ := hinv.queued_walk top htop
  have hlook : ∀ v, (v = top.vertex → cur2.total_cost_.lookup (v, 0) = some top.weight) ∧
      (v ≠ top.vertex → cur2.total_cost_.lookup (v, 0) = cur.total_cost_.lookup (v, 0)) := by
    intro v
    rw [h3]
    constructor
    · intro hv; rw [hv]; exact state_lookup_cons_self _ _ _
    · intro hv
      exact state_lookup_cons_ne _ _ _ _ (fun h => hv (congrArg Prod.fst h))
  have hmono : ∀ v, (cur.total_cost_.lookup (v, 0)).isSome = true →
      (cur2.total_cost_.lookup (v, 0)).isSome = true := by
    intro v hv
    by_cases hvt : v = top.vertex
    · rw [(hlook v).1 hvt]; rfl
    · rw [(hlook v).2 hvt]; exact hv
  have hsettled : ∀ v c, cur2.total_cost_.lookup (v, 0) = some c →
      (∃ p, IsWalk g direction edge_types s p v ∧ walkCost g direction edge_types w s p = c) ∧
      ∀ q, IsWalk g direction edge_types s q v → c ≤ walkCost g direction edge_types w s q := by
    intro v c hv
    by_cases hvt : v = top.vertex
    · rw [(hlook v).1 hvt] at hv
      injection hv with hv
      subst hv
      rw [hvt]
      exact ⟨⟨ptop, hptop, hctop⟩, fun q hq =>
        top_is_least g direction edge_types w hw s cur hinv top hmin top.vertex hnot q hq⟩
    · rw [(hlook v).2 hvt] at hv
      exact hinv.settled_walk v c hv
  refine ⟨by rw [h1, h2]; exact hinv.unbounded, hsettled, ?_, ?_, ?_, ?_, ?_, ?_⟩
  · intro x hx
    rcases hnew x hx with h | ⟨e, y, hstep, hxe⟩
    · exact hinv.queued_walk x (hsub x h)
    · obtain ⟨hp1, hpc1⟩ := walk_snoc g direction edge_types w e top.vertex y hstep ptop s hptop
      rw [hxe]
      exact ⟨_, hp1, by rw [hpc1, hctop]⟩
  · rcases hinv.source with h | ⟨x, hx, hxv, hxw⟩
    · exact Or.inl (hmono s h)
    · rcases hsplit x hx with h | h
      · left
        rw [← hxv, h, (hlook top.vertex).1 rfl]
        rfl
      · exact Or.inr ⟨x, hold x h, hxv, hxw⟩
  · intro u c hu e v hstep
    by_cases hut : u = top.vertex
    · rw [(hlook u).1 hut] at hu
      injection hu with hu
      subst hu
      rw [hut] at hstep
      exact hrel e v hstep
    · rw [(hlook u).2 hut] at hu
      rcases hinv.relaxed u c hu e v hstep with h | ⟨x, hx, hxv, hxw⟩
      · exact Or.inl (hmono v h)
      · rcases hsplit x hx with h | h
        · left
          rw [← hxv, h, (hlook top.vertex).1 rfl]
          rfl
        · exact Or.inr ⟨x, hold x h, hxv, hxw⟩
  · intro x hx
    have hlen : cur2.total_cost_.length = cur.total_cost_.length + 1 := by rw [h3]; simp
    rw [hlen]
    rcases hnew x hx with h | ⟨e, y, _, hxe⟩
    · have := hinv.depth_le x (hsub x h)
      push_cast
      omega
    · have := hinv.depth_le top htop
      rw [hxe]
      push_cast
      omega
  · intro k hk
    rw [h3] at hk
    simp only [List.map_cons, List.mem_cons] at hk
    rcases hk with hk | hk
    · rw [hk]
      exact ⟨rfl, IsWalk_universe g direction edge_types s top.vertex ptop hptop⟩
    · exact hinv.keys k hk
  · rw [h3]
    simp only [List.map_cons, List.nodup_cons]
    exact ⟨fun h => hnot ((state_lookup_mem_keys _ _).mpr h), hinv.keys_nodup⟩

/-! ### One expansion of the weighted search -/

theorem weighted_expand_pair_plain {D : Type} [WeightCarrier D] (self : ExpandVariable D)
    (wl : ExpansionLambda D) (expression : Expression D) (total_weight : Symbol)
    (w : EdgeAccessor → VertexAccessor → D)
    (hp : PlainWeighted self wl expression total_weight w)
    (cur : ExpandWeightedShortestPathCursor D) (hset : cur.upper_bound_set_ = false)
    (st : WspExpandState D) (edge : EdgeAccessor) (vertex : VertexAccessor) (weight : D)
    (depth : Int) :
    ExpandWeightedShortestPathCursor.expand_pair self cur st edge vertex weight depth =
      .ok (match cur.total_cost_.lookup (vertex, 0) with
        | some found =>
          if found ≤ weight + w edge vertex then
            { st with frame := ((st.frame.set wl.inner_edge_symbol (.Edge edge)).set
                wl.inner_node_symbol (.Vertex vertex)) }
          else
            { frame := (st.frame.set wl.inner_edge_symbol (.Edge edge)).set
                wl.inner_node_symbol (.Vertex vertex),
              pq_ := ⟨weight + w edge vertex, depth + 1, vertex, some edge⟩ :: st.pq_ }
        | none =>
          { frame := (st.frame.set wl.inner_edge_symbol (.Edge edge)).set
              wl.inner_node_symbol (.Vertex vertex),
            pq_ := ⟨weight + w edge vertex, depth + 1, vertex, some edge⟩ :: st.pq_ }) := by
  obtain ⟨hf, _, hwl, hex, _, hwof, _, _⟩ := hp
  unfold ExpandWeightedShortestPathCursor.expand_pair weightedFilter
  simp only [hf, hwl, hex, hwof, ExpandWeightedShortestPathCursor.create_state, hset,
    Bool.false_eq_true, if_false]
  cases cur.total_cost_.lookup (vertex, 0) with
  | none => rfl
  | some found =>
    simp only
    by_cases h : found ≤ weight + w edge vertex
    · rw [if_pos h, if_pos h]
    · rw [if_neg h, if_neg h]

/-- In the plain setting the expansion from a vertex does not raise, keeps the
input and node symbols of the frame, keeps the queued entries, queues only
entries for candidates, and leaves every candidate settled or queued. -/
theorem weightedExpandPairs_post {D : Type} [WeightCarrier D] (self : ExpandVariable D)
    (wl : ExpansionLambda D) (expression : Expression D) (total_weight : Symbol)
    (w : EdgeAccessor → VertexAccessor → D)
    (hp : PlainWeighted self wl expression total_weight w)
    (cur : ExpandWeightedShortestPathCursor D) (hset : cur.upper_bound_set_ = false)
    (weight : D) (depth : Int)
    (cs : List (EdgeAccessor × VertexAccessor × VertexAccessor)) :
    ∀ st : WspExpandState D,
      ∃ st1, weightedExpandPairs self cur weight depth cs st = .ok st1 ∧
        st1.frame self.input_symbol = st.frame self.input_symbol ∧
        st1.frame self.node_symbol = st.frame self.node_symbol ∧
        (∀ x ∈ st.pq_, x ∈ st1.pq_) ∧
        (∀ x ∈ st1.pq_, x ∈ st.pq_ ∨
          ∃ c ∈ cs, x = ⟨weight + w c.1 c.2.1, depth + 1, c.2.1, some c.1⟩) ∧
        ∀ c ∈ cs, (cur.total_cost_.lookup (c.2.1, 0)).isSome = true ∨
          ∃ x ∈ st1.pq_, x.vertex = c.2.1 ∧ x.weight ≤ weight + w c.1 c.2.1 := by
  obtain ⟨_, _, _, _, _, _, hin, hnd⟩ := id hp
  induction cs with
  | nil =>
    intro st
    exact ⟨st, rfl, rfl, rfl, fun x hx => hx, fun x hx => Or.inl hx,
      fun c hc => by simp at hc⟩
  | cons c cs ih =>
    intro st
    obtain ⟨e, v, a⟩ := c
    simp only [weightedExpandPairs,
      weighted_expand_pair_plain self wl expression total_weight w hp cur hset]
    have hfr : ∀ fr : Frame D,
        ((fr.set wl.inner_edge_symbol (.Edge e)).set wl.inner_node_symbol (.Vertex v))
          self.input_symbol = fr self.input_symbol ∧
        ((fr.set wl.inner_edge_symbol (.Edge e)).set wl.inner_node_symbol (.Vertex v))
          self.node_symbol = fr self.node_symbol := by
      intro fr
      simp only [Frame.set, if_neg hin.1, if_neg hin.2.1, if_neg hnd.1, if_neg hnd.2.1]
      exact ⟨trivial, trivial⟩
    cases hl : cur.total_cost_.lookup (v, 0) with
    | none =>
      simp only
      obtain ⟨st1, h1, h2, h3, h4, h5, h6⟩ := ih
        { frame := (st.frame.set wl.inner_edge_symbol (.Edge e)).set wl.inner_node_symbol
            (.Vertex v),
          pq_ := ⟨weight + w e v, depth + 1, v, some e⟩ :: st.pq_ }
      refine ⟨st1, h1, by rw [h2]; exact (hfr st.frame).1, by rw [h3]; exact (hfr st.frame).2,
        fun x hx => h4 x (List.mem_cons_of_mem _ hx), ?_, ?_⟩
      · intro x hx
        rcases h5 x hx with h | ⟨c, hc, hxc⟩
        · rcases List.mem_cons.mp h with h | h
          · exact Or.inr ⟨(e, v, a), List.mem_cons_self _ _, h⟩
          · exact Or.inl h
        · exact Or.inr ⟨c, List.mem_cons_of_mem _ hc, hxc⟩
      · intro c hc
        rcases List.mem_cons.mp hc with hc | hc
        · rw [hc]
          exact Or.inr ⟨_, h4 _ (List.mem_cons_self _ _), rfl, le_refl _⟩
        · exact h6 c hc
    | some found =>
      simp only
      by_cases hle : found ≤ weight + w e v
      · rw [if_pos hle]
        obtain ⟨st1, h1, h2, h3, h4, h5, h6⟩ := ih
          { st with frame := ((st.frame.set wl.inner_edge_symbol (.Edge e)).set
              wl.inner_node_symbol (.Vertex v)) }
        refine ⟨st1, h1, by rw [h2]; exact (hfr st.frame).1, by rw [h3]; exact (hfr st.frame).2,
          h4, ?_, ?_⟩
        · intro x hx
          rcases h5 x hx with h | ⟨c, hc, hxc⟩
          · exact Or.inl h
          · exact Or.inr ⟨c, List.mem_cons_of_mem _ hc, hxc⟩
        · intro c hc
          rcases List.mem_cons.mp hc with hc | hc
          · rw [hc]
            left
            simp only
            rw [hl]
            rfl
          · exact h6 c hc
      · rw [if_neg hle]
        obtain ⟨st1, h1, h2, h3, h4, h5, h6⟩ := ih
          { frame := (st.frame.set wl.inner_edge_symbol (.Edge e)).set wl.inner_node_symbol
              (.Vertex v),
            pq_ := ⟨weight + w e v, depth + 1, v, some e⟩ :: st.pq_ }
        refine ⟨st1, h1, by rw [h2]; exact (hfr st.frame).1, by rw [h3]; exact (hfr st.frame).2,
          fun x hx => h4 x (List.mem_cons_of_mem _ hx), ?_, ?_⟩
        · intro x hx
          rcases h5 x hx with h | ⟨c, hc, hxc⟩
          · rcases List.mem_cons.mp h with h | h
            · exact Or.inr ⟨(e, v, a), List.mem_cons_self _ _, h⟩
            · exact Or.inl h
          · exact Or.inr ⟨c, List.mem_cons_of_mem _ hc, hxc⟩
        · intro c hc
          rcases List.mem_cons.mp hc with hc | hc
          · rw [hc]
            exact Or.inr ⟨_, h4 _ (List.mem_cons_self _ _), rfl, le_refl _⟩
          · exact h6 c hc

/-! ### One iteration of the loop of the weighted cursor -/

theorem placeDestination_some {D : Type} (self : ExpandVariable D)
    (cur cur3 : ExpandWeightedShortestPathCursor D) (frame frame3 : Frame D)
    (v : VertexAccessor) (hne : self.input_symbol ≠ self.node_symbol)
    (h : placeDestination self cur frame v = .ok (some (cur3, frame3))) :
    frame3 self.input_symbol = frame self.input_symbol ∧
    frame3 self.node_symbol = .Vertex v ∧
    (cur3.pq_ = [] ∨ cur3 = cur) := by
  unfold placeDestination at h
  by_cases hex : self.existing_node = true
  · rw [if_pos hex] at h
    cases hnode : frame self.node_symbol with
    | Vertex node =>
      rw [hnode] at h
      simp only at h
      by_cases hn : node ≠ v
      · rw [if_pos hn] at h
        cases h
      · rw [if_neg hn] at h
        injection h with h
        injection h with h
        injection h with h1 h2
        rw [← h1, ← h2]
        refine ⟨rfl, ?_, Or.inl rfl⟩
        rw [hnode]
        congr 1
        exact not_not.mp hn
    | Null => rw [hnode] at h; cases h
    | Bool b => rw [hnode] at h; cases h
    | Int i => rw [hnode] at h; cases h
    | Double d => rw [hnode] at h; cases h
    | String s => rw [hnode] at h; cases h
    | List l => rw [hnode] at h; cases h
    | Map m => rw [hnode] at h; cases h
    | Edge e => rw [hnode] at h; cases h
    | Path a b => rw [hnode] at h; cases h
  · rw [if_neg hex] at h
    injection h with h
    injection h with h
    injection h with h1 h2
    rw [← h1, ← h2]
    refine ⟨?_, ?_, Or.inr rfl⟩
    · simp only [Frame.set, if_neg hne]
    · simp only [Frame.set, if_true]

/-- In the plain setting, the end of an iteration for a settled entry keeps the
invariant and yields only a tuple of least cost. -/
theorem weightedYield_post {D : Type} [WeightCarrier D] (self : ExpandVariable D)
    (g : Graph) (wl : ExpansionLambda D) (expression : Expression D) (total_weight : Symbol)
    (w : EdgeAccessor → VertexAccessor → D)
    (hp : PlainWeighted self wl expression total_weight w)
    (s : VertexAccessor) (cur : ExpandWeightedShortestPathCursor D) (frame : Frame D)
    (top : PqEntry D)
    (hinv : WeightedInv g self.direction self.edge_types w s cur)
    (hfr : frame self.input_symbol = .Vertex s)
    (hcost : cur.total_cost_.lookup (top.vertex, 0) = some top.weight) :
    WeightedStepPost self g total_weight w (weightedYield self cur frame top) := by
  obtain ⟨_, _, _, _, htw, hwof, hin, hnd⟩ := id hp
  have hw : ∀ e v, 0 ≤ w e v := fun e v => checkedWeight_nonneg _ _ (hwof frame e v)
  have hok : WeightedOk self g w (cur, frame) := Or.inr ⟨s, hfr, hinv⟩
  have hleast : (∃ p, IsWalk g self.direction self.edge_types s p top.vertex ∧ p.Nodup ∧
        walkCost g self.direction self.edge_types w s p = top.weight) ∧
      ∀ q, IsWalk g self.direction self.edge_types s q top.vertex →
        top.weight ≤ walkCost g self.direction self.edge_types w s q := by
    obtain ⟨⟨p, hp1, hp2⟩, hmin⟩ := hinv.settled_walk top.vertex top.weight hcost
    obtain ⟨p1, h1, h2, h3⟩ := trail_below_walk g self.direction self.edge_types w hw p.length p
      (le_refl _) s top.vertex hp1
    exact ⟨⟨p1, h1, h2, le_antisymm (by rw [← hp2]; exact h3) (hmin p1 h1)⟩, hmin⟩
  unfold weightedYield
  by_cases hy : top.vertex ∈ cur.yielded_vertices_
  · rw [if_pos hy]
    exact hok
  · rw [if_neg hy]
    cases hrec : reconstructWeighted cur (cur.previous_.length + 1) top.vertex top.depth with
    | found edge_list =>
      simp only
      cases hpd : placeDestination self cur frame top.vertex with
      | error e => exact trivial
      | ok r =>
        cases r with
        | none => exact hok
        | some r1 =>
          obtain ⟨cur3, frame3⟩ := r1
          obtain ⟨h1, h2, h3⟩ := placeDestination_some self cur cur3 frame frame3 top.vertex
            hin.2.2.1 hpd
          simp only [htw]
          have hinput : ((frame3.set self.edge_symbol
              (.List ((if self.is_reverse = true then edge_list else edge_list.reverse).map
                TypedValue.Edge))).set total_weight (.Double top.weight)) self.input_symbol =
              .Vertex s := by
            simp only [Frame.set, if_neg hin.2.2.2.1, if_neg hin.2.2.2.2]
            rw [h1, hfr]
          refine ⟨?_, fun _ => ⟨s, top.vertex, top.weight, hinput, ?_, ?_, hleast⟩⟩
          · rcases h3 with h3 | h3
            · exact Or.inl h3
            · refine Or.inr ⟨s, hinput, ?_⟩
              rw [h3]
              exact ⟨hinv.unbounded, hinv.settled_walk, hinv.queued_walk, hinv.source,
                hinv.relaxed, hinv.depth_le, hinv.keys, hinv.keys_nodup⟩
          · simp only [Frame.set, if_neg hnd.2.2.1, if_neg hnd.2.2.2]
            exact h2
          · simp only [Frame.set, if_true]
    | raised e => exact trivial
    | not_found => exact trivial
    | out_of_fuel => exact trivial

/-- In the plain setting, on a graph small enough for its depths to fit, visiting
the top of the queue keeps the invariant and yields only a tuple of least
cost. -/
theorem weightedVisit_post {D : Type} [WeightCarrier D] (self : ExpandVariable D)
    (g : Graph) (wl : ExpansionLambda D) (expression : Expression D) (total_weight : Symbol)
    (w : EdgeAccessor → VertexAccessor → D)
    (hp : PlainWeighted self wl expression total_weight w)
    (hsize : (2 * (g.edges.length : Int) + 1) < INT64_MAX)
    (s : VertexAccessor) (cur : ExpandWeightedShortestPathCursor D) (frame : Frame D)
    (top : PqEntry D) (rest : List (PqEntry D))
    (hinv : WeightedInv g self.direction self.edge_types w s cur)
    (hfr : frame self.input_symbol = .Vertex s)
    (hpop : pqPop cur.pq_ = some (top, rest)) :
    WeightedStepPost self g total_weight w (weightedVisit self g cur frame top rest) := by
  obtain ⟨_, _, _, _, _, hwof, _, _⟩ := id hp
  have hw : ∀ e v, 0 ≤ w e v := fun e v => checkedWeight_nonneg _ _ (hwof frame e v)
  obtain ⟨htop, hsub, hsplit, hmin⟩ := pqPop_some cur.pq_ top rest hpop
  obtain ⟨hset, hub⟩ := hinv.unbounded
  have hcs : ExpandWeightedShortestPathCursor.create_state { cur with pq_ := rest } top.vertex
      top.depth = (top.vertex, 0) := by
    simp [ExpandWeightedShortestPathCursor.create_state, hset]
  unfold weightedVisit
  simp only [hcs]
  by_cases hsettled : (cur.total_cost_.lookup (top.vertex, 0)).isSome = true
  · rw [if_pos hsettled]
    exact Or.inr ⟨s, hfr, WeightedInv_skip g _ _ w s cur _ hinv top hsplit hsub hsettled rfl rfl
      rfl⟩
  · rw [if_neg hsettled]
    have hdepth : top.depth < cur.upper_bound_ := by
      have h1 := (hinv.depth_le top htop).2
      have h2 := settled_count_le g _ _ w s cur hinv
      rw [hub]
      have h3 : (cur.total_cost_.length : Int) ≤ 2 * (g.edges.length : Int) + 1 := by
        exact_mod_cast h2
      omega
    rw [if_pos hdepth]
    unfold ExpandWeightedShortestPathCursor.expand_from_vertex
    obtain ⟨st1, h1, h2, _, h4, h5, h6⟩ := weightedExpandPairs_post self wl expression
      total_weight w hp
      { cur with pq_ := rest,
                 previous_ := emplaceState cur.previous_ (top.vertex, 0) top.edge,
                 total_cost_ := emplaceState cur.total_cost_ (top.vertex, 0) top.weight }
      hset top.weight top.depth (sourceCandidates g self.direction self.edge_types top.vertex)
      { frame := frame, pq_ := rest }
    rw [h1]
    simp only
    have htc : emplaceState cur.total_cost_ (top.vertex, 0) top.weight =
        ((top.vertex, 0), top.weight) :: cur.total_cost_ := emplaceState_new _ _ _ hsettled
    refine weightedYield_post self g wl expression total_weight w hp s _ st1.frame top ?_
      (by rw [h2]; exact hfr) ?_
    · refine WeightedInv_settle g _ _ w hw s cur _ hinv top rest htop hsplit hsub hmin hsettled
        rfl rfl htc h4 ?_ ?_
      · intro x hx
        rcases h5 x hx with h | ⟨c, hc, hxc⟩
        · exact Or.inl h
        · obtain ⟨e, y, a⟩ := c
          exact Or.inr ⟨e, y,
            ((mem_sourceCandidates g self.direction self.edge_types _ y a e).mp hc).2, hxc⟩
      · intro e y hstep
        exact h6 (e, y, y)
          ((mem_sourceCandidates g self.direction self.edge_types _ y y e).mpr ⟨rfl, hstep⟩)
    · show List.lookup (top.vertex, 0)
        (emplaceState cur.total_cost_ (top.vertex, 0) top.weight) = some top.weight
      rw [htc]
      exact state_lookup_cons_self _ _ _

theorem weightedPullInput_post {D : Type} [WeightCarrier D] (self : ExpandVariable D)
    (g : Graph) (wl : ExpansionLambda D) (expression : Expression D) (total_weight : Symbol)
    (w : EdgeAccessor → VertexAccessor → D)
    (hp : PlainWeighted self wl expression total_weight w)
    (cur : ExpandWeightedShortestPathCursor D) (frame : Frame D) (hq : cur.pq_ = []) :
    WeightedStepPost self g total_weight w (weightedPullInput self cur frame) := by
  obtain ⟨_, hnu, _, _, _, _, _, _⟩ := id hp
  unfold weightedPullInput
  cases hin : cur.input_cursor with
  | nil => exact ⟨Or.inl hq, fun h => absurd h (by decide)⟩
  | cons t rest =>
    simp only
    have hskip : WeightedOk self g w ({ cur with input_cursor := rest }, t frame) := Or.inl hq
    cases hv : t frame self.input_symbol with
    | Null => exact hskip
    | Vertex vertex =>
      simp only [hnu]
      split_ifs with h1 h2
      · exact hskip
      · exact absurd h2 (by decide)
      · refine Or.inr ⟨vertex, hv, ?_⟩
        refine ⟨⟨rfl, rfl⟩, ?_, ?_, ?_, ?_, ?_, ?_, ?_⟩
        · intro v c hc
          simp [List.lookup] at hc
        · intro x hx
          simp only [List.mem_singleton] at hx
          rw [hx]
          exact ⟨[], (IsWalk_nil g self.direction self.edge_types vertex vertex).mpr rfl, rfl⟩
        · exact Or.inr ⟨_, List.mem_singleton.mpr rfl, rfl, le_refl _⟩
        · intro u c hc
          simp [List.lookup] at hc
        · intro x hx
          simp only [List.mem_singleton] at hx
          rw [hx]
          simp
        · intro k hk
          simp at hk
        · simp
    | Bool b => exact trivial
    | Int i => exact trivial
    | Double d => exact trivial
    | String s => exact trivial
    | List l => exact trivial
    | Map m => exact trivial
    | Edge e => exact trivial
    | Path a b => exact trivial

/-- In the plain setting, an iteration of the loop keeps the invariant and yields
only a tuple of least cost. -/
theorem WeightedBody_post {D : Type} [WeightCarrier D] (self : ExpandVariable D)
    (g : Graph) (context : ExecutionContext) (wl : ExpansionLambda D)
    (expression : Expression D) (total_weight : Symbol) (w : EdgeAccessor → VertexAccessor → D)
    (hp : PlainWeighted self wl expression total_weight w)
    (hsize : (2 * (g.edges.length : Int) + 1) < INT64_MAX)
    (cur : ExpandWeightedShortestPathCursor D) (frame : Frame D)
    (hok : WeightedOk self g w (cur, frame)) :
    WeightedStepPost self g total_weight w (WeightedBody self g context cur frame) := by
  unfold WeightedBody
  by_cases ha : MustAbort context = true
  · rw [if_pos ha]; exact trivial
  · rw [if_neg ha]
    cases hpop : pqPop cur.pq_ with
    | none =>
      exact weightedPullInput_post self g wl expression total_weight w hp cur frame
        ((pqPop_none cur.pq_).mp hpop)
    | some tr =>
      obtain ⟨top, rest⟩ := tr
      rcases hok with h | ⟨s, hfr, hinv⟩
      · have h1 : cur.pq_ = [] := h
        rw [h1] at hpop
        simp [pqPop] at hpop
      · exact weightedVisit_post self g wl expression total_weight w hp hsize s cur frame top rest
          hinv hfr hpop

theorem WeightedPull_post {D : Type} [WeightCarrier D] (self : ExpandVariable D)
    (g : Graph) (context : ExecutionContext) (wl : ExpansionLambda D)
    (expression : Expression D) (total_weight : Symbol) (w : EdgeAccessor → VertexAccessor → D)
    (hp : PlainWeighted self wl expression total_weight w)
    (hsize : (2 * (g.edges.length : Int) + 1) < INT64_MAX) :
    ∀ (fuel : Nat) (cur : ExpandWeightedShortestPathCursor D) (frame : Frame D) (b : Bool)
      (s1 : ExpandWeightedShortestPathCursor D × Frame D),
      WeightedOk self g w (cur, frame) →
      ExpandWeightedShortestPathCursor.Pull self g context fuel cur frame = .ok b s1 →
      WeightedOk self g w s1 ∧ (b = true → LeastCostTuple self g total_weight w s1.2) := by
  intro fuel
  induction fuel with
  | zero =>
    intro cur frame b s1 _ h
    simp [ExpandWeightedShortestPathCursor.Pull] at h
  | succ fuel ih =>
    intro cur frame b s1 hok h
    have hpost := WeightedBody_post self g context wl expression total_weight w hp hsize cur
      frame hok
    unfold ExpandWeightedShortestPathCursor.Pull at h
    cases hb : WeightedBody self g context cur frame with
    | continue_ s2 =>
      rw [hb] at h hpost
      obtain ⟨cur2, frame2⟩ := s2
      exact ih cur2 frame2 b s1 hpost h
    | return_ b2 s2 =>
      rw [hb] at h hpost
      simp only [PullResult.ok.injEq] at h
      obtain ⟨rfl, rfl⟩ := h
      exact hpost
    | throw_ e =>
      rw [hb] at h
      cases h

theorem WeightedReachable_ok {D : Type} [WeightCarrier D] (self : ExpandVariable D)
    (g : Graph) (context : ExecutionContext) (wl : ExpansionLambda D)
    (expression : Expression D) (total_weight : Symbol) (w : EdgeAccessor → VertexAccessor → D)
    (hp : PlainWeighted self wl expression total_weight w)
    (hsize : (2 * (g.edges.length : Int) + 1) < INT64_MAX)
    (s : ExpandWeightedShortestPathCursor D × Frame D)
    (h : WeightedReachable self g context s) : WeightedOk self g w s := by
  induction h with
  | fresh input frame => exact Or.inl rfl
  | pull fuel s s1 b _ hpull ih =>
    exact (WeightedPull_post self g context wl expression total_weight w hp hsize fuel s.1 s.2 b
      s1 ih hpull).1

/-! ### Claim about the weighted cursor -/

theorem sampleWeighted_plain :
    PlainWeighted sampleWeighted sampleWeightLambda sampleWeightExpression 7 sampleWeights where
  no_filter := rfl
  no_upper := rfl
  has_weight := rfl
  has_expression := rfl
  has_total := rfl
  weight_of := fun frame e v => by
    have h : ((frame.set sampleWeightLambda.inner_edge_symbol (.Edge e)).set
        sampleWeightLambda.inner_node_symbol (.Vertex v)) 5 = .Edge e := by
      simp [Frame.set, sampleWeightLambda]
    unfold sampleWeightExpression
    rw [h]
    unfold checkedWeight sampleWeights
    by_cases hg : e.gid = 0
    · simp [hg]
    · simp [hg]
  input_sym := by decide
  node_sym := by decide

/-- C2. For every graph (small enough for the depths of the search to fit an
`int64_t`: `2 * edges + 1 < INT64_MAX`), every weight lambda that yields a
non-negative number `w e v` for every edge `e` and vertex `v`, with no upper
bound and no filter lambda, every tuple that the weighted cursor emits, at any
`Pull` after it was made, holds the source under the input symbol, a vertex under
the node symbol, and under the total-weight symbol the cost of a walk from the
source to that vertex along the allowed direction and edge types that repeats no
edge, which is the least cost of all walks from the source to that vertex (so of
all paths, whether or not a path may repeat an edge). The cost of a walk is the
sum of the weights of its edges, added in the order of the walk, in any carrier
of doubles that satisfies the laws of `WeightCarrier`. On the graph with the
edges 0 → 1 of weight 5, 0 → 2 of weight 1 and 2 → 1 of weight 1, the cursor
emits from source 0 the vertex 2 and then the vertex 1 with total weight 2, and
nothing more. -/
theorem ExpandWeightedShortestPathCursor_emits_least_weight :
    (∀ (D : Type) [WeightCarrier D] (self : ExpandVariable D) (g : Graph)
      (context : ExecutionContext) (wl : ExpansionLambda D) (expression : Expression D)
      (total_weight : Symbol) (w : EdgeAccessor → VertexAccessor → D)
      (s s1 : ExpandWeightedShortestPathCursor D × Frame D) (fuel : Nat),
      PlainWeighted self wl expression total_weight w →
      (2 * (g.edges.length : Int) + 1) < INT64_MAX →
      WeightedReachable self g context s →
      ExpandWeightedShortestPathCursor.Pull self g context fuel s.1 s.2 = .ok true s1 →
      LeastCostTuple self g total_weight w s1.2) ∧
    (∃ s1 s2 s3,
      ExpandWeightedShortestPathCursor.Pull sampleWeighted weightedGraph ⟨false⟩ 10
        (ExpandWeightedShortestPathCursor.init (sampleInput 0)) sampleFrame = .ok true s1 ∧
      s1.2 sampleWeighted.node_symbol = .Vertex 2 ∧
      ExpandWeightedShortestPathCursor.Pull sampleWeighted weightedGraph ⟨false⟩ 10 s1.1 s1.2 =
        .ok true s2 ∧
      s2.2 sampleWeighted.node_symbol = .Vertex 1 ∧ s2.2 7 = .Double 2 ∧
      ExpandWeightedShortestPathCursor.Pull sampleWeighted weightedGraph ⟨false⟩ 10 s2.1 s2.2 =
        .ok false s3) := by
  refine ⟨?_, _, _, _, rfl, rfl, rfl, rfl, rfl, rfl⟩
  intro D _ self g context wl expression total_weight w s s1 fuel hp hsize hreach hpull
  exact (WeightedPull_post self g context wl expression total_weight w hp hsize fuel s.1 s.2 true
    s1 (WeightedReachable_ok self g context wl expression total_weight w hp hsize s hreach)
    hpull).2 rfl

theorem ExpandWeightedShortestPathCursor_emits_least_weight_witness :
    ∃ s1,
      ExpandWeightedShortestPathCursor.Pull sampleWeighted weightedGraph ⟨false⟩ 10
        (ExpandWeightedShortestPathCursor.init (sampleInput 0)) sampleFrame = .ok true s1 ∧
      LeastCostTuple sampleWeighted weightedGraph 7 sampleWeights s1.2 :=
  ⟨_, rfl, ExpandWeightedShortestPathCursor_emits_least_weight.1 Int sampleWeighted
    weightedGraph ⟨false⟩ sampleWeightLambda sampleWeightExpression 7 sampleWeights
    (ExpandWeightedShortestPathCursor.init (sampleInput 0), sampleFrame) _ 10
    sampleWeighted_plain (by decide) (WeightedReachable.fresh _ _) rfl⟩

/-! ### Weights that `expand_pair` rejects -/

theorem checkedWeight_bad {D : Type} [WeightCarrier D] (x : TypedValue D)
    (h : BadWeight x) : checkedWeight x = .error .QueryRuntimeException := by
  cases x with
  | Int i => exact if_pos h
  | Double d => exact if_pos h
  | Null => rfl
  | Bool b => rfl
  | String s => rfl
  | List l => rfl
  | Map m => rfl
  | Vertex v => rfl
  | Edge e => rfl
  | Path a b => rfl

/-- A pair that passes the filter and gets a rejected weight makes `expand_pair`
raise. -/
theorem expand_pair_raises {D : Type} [WeightCarrier D] (self : ExpandVariable D)
    (cur : ExpandWeightedShortestPathCursor D) (st : WspExpandState D) (edge : EdgeAccessor)
    (vertex : VertexAccessor) (weight : D) (depth : Int) (wl : ExpansionLambda D)
    (expression : Expression D) (frame1 : Frame D)
    (hwl : self.weight_lambda = some wl) (hex : wl.expression = some expression)
    (hfilter : weightedFilter self st.frame edge vertex = .ok (true, frame1))
    (hbad : BadWeight (expression ((frame1.set wl.inner_edge_symbol (.Edge edge)).set
      wl.inner_node_symbol (.Vertex vertex)))) :
    ExpandWeightedShortestPathCursor.expand_pair self cur st edge vertex weight depth =
      .error .QueryRuntimeException := by
  unfold ExpandWeightedShortestPathCursor.expand_pair
  rw [hfilter]
  simp only [hwl, hex, checkedWeight_bad _ hbad]

theorem weightedExpandPairs_append {D : Type} [WeightCarrier D]
    (self : ExpandVariable D) (cur : ExpandWeightedShortestPathCursor D) (weight : D)
    (depth : Int) (pre post : List (EdgeAccessor × VertexAccessor × VertexAccessor)) :
    ∀ (st st1 : WspExpandState D), weightedExpandPairs self cur weight depth pre st = .ok st1 →
      weightedExpandPairs self cur weight depth (pre ++ post) st =
        weightedExpandPairs self cur weight depth post st1 := by
  induction pre with
  | nil =>
    intro st st1 h
    simp only [weightedExpandPairs] at h
    injection h with h
    rw [h]
    rfl
  | cons c pre ih =>
    intro st st1 h
    obtain ⟨e, v, a⟩ := c
    simp only [weightedExpandPairs, List.cons_append] at h ⊢
    cases hpair : ExpandWeightedShortestPathCursor.expand_pair self cur st e v weight depth with
    | error err => rw [hpair] at h; cases h
    | ok st2 =>
      rw [hpair] at h
      exact ih st2 st1 h

/-- An iteration whose expansion meets a pair that passes the filter and gets a
rejected weight raises. -/
theorem WeightedBody_raises {D : Type} [WeightCarrier D] (self : ExpandVariable D)
    (g : Graph) (context : ExecutionContext) (cur : ExpandWeightedShortestPathCursor D)
    (frame : Frame D) (wl : ExpansionLambda D) (expression : Expression D) (top : PqEntry D)
    (rest : List (PqEntry D)) (pre post : List (EdgeAccessor × VertexAccessor × VertexAccessor))
    (edge : EdgeAccessor) (vertex arg : VertexAccessor) (st1 : WspExpandState D)
    (frame1 : Frame D)
    (ha : MustAbort context = false)
    (hwl : self.weight_lambda = some wl) (hex : wl.expression = some expression)
    (hpop : pqPop cur.pq_ = some (top, rest))
    (hnew : (cur.total_cost_.lookup (cur.create_state top.vertex top.depth)).isSome = false)
    (hdepth : top.depth < cur.upper_bound_)
    (hcs : sourceCandidates g self.direction self.edge_types top.vertex =
      pre ++ (edge, vertex, arg) :: post)
    (hpre : weightedExpandPairs self
      { cur with pq_ := rest,
                 previous_ := emplaceState cur.previous_ (cur.create_state top.vertex top.depth)
                   top.edge,
                 total_cost_ := emplaceState cur.total_cost_
                   (cur.create_state top.vertex top.depth) top.weight }
      top.weight top.depth pre { frame := frame, pq_ := rest } = .ok st1)
    (hfilter : weightedFilter self st1.frame edge vertex = .ok (true, frame1))
    (hbad : BadWeight (expression ((frame1.set wl.inner_edge_symbol (.Edge edge)).set
      wl.inner_node_symbol (.Vertex vertex)))) :
    WeightedBody self g context cur frame = .throw_ .QueryRuntimeException := by
  have hcs1 : ExpandWeightedShortestPathCursor.create_state { cur with pq_ := rest } top.vertex
      top.depth = cur.create_state top.vertex top.depth := rfl
  unfold WeightedBody
  simp only [ha, Bool.false_eq_true, if_false, hpop]
  unfold weightedVisit
  simp only [hcs1, hnew, Bool.false_eq_true, if_false, if_pos hdepth,
    ExpandWeightedShortestPathCursor.expand_from_vertex, hcs]
  rw [weightedExpandPairs_append self _ top.weight top.depth pre _ _ st1 hpre]
  simp only [weightedExpandPairs,
    expand_pair_raises self _ st1 edge vertex top.weight top.depth wl expression frame1 hwl hex
      hfilter hbad]

/-! ### Claim about rejected weights -/

/-- C9. Whenever the loop of `Pull` of the weighted cursor, after `n` iterations
that neither return nor raise, expands from the vertex on top of the queue and
the weight lambda, evaluated for a candidate edge that passes the filter, yields a
value that is not an integer or a double, or a number below zero, `Pull` raises
`QueryRuntimeException` and emits nothing: with more than `n` iterations of fuel
the model of `Pull` raises, and with less it has not returned. -/
theorem ExpandWeightedShortestPathCursor_raises_on_bad_weight {D : Type}
    [WeightCarrier D] (self : ExpandVariable D) (g : Graph) (context : ExecutionContext)
    (n : Nat) (s0 : ExpandWeightedShortestPathCursor D × Frame D)
    (cur : ExpandWeightedShortestPathCursor D) (frame : Frame D) (wl : ExpansionLambda D)
    (expression : Expression D) (top : PqEntry D) (rest : List (PqEntry D))
    (pre post : List (EdgeAccessor × VertexAccessor × VertexAccessor))
    (edge : EdgeAccessor) (vertex arg : VertexAccessor) (st1 : WspExpandState D)
    (frame1 : Frame D)
    (hsteps : WeightedContinues self g context n s0 (cur, frame))
    (ha : MustAbort context = false)
    (hwl : self.weight_lambda = some wl) (hex : wl.expression = some expression)
    (hpop : pqPop cur.pq_ = some (top, rest))
    (hnew : (cur.total_cost_.lookup (cur.create_state top.vertex top.depth)).isSome = false)
    (hdepth : top.depth < cur.upper_bound_)
    (hcs : sourceCandidates g self.direction self.edge_types top.vertex =
      pre ++ (edge, vertex, arg) :: post)
    (hpre : weightedExpandPairs self
      { cur with pq_ := rest,
                 previous_ := emplaceState cur.previous_ (cur.create_state top.vertex top.depth)
                   top.edge,
                 total_cost_ := emplaceState cur.total_cost_
                   (cur.create_state top.vertex top.depth) top.weight }
      top.weight top.depth pre { frame := frame, pq_ := rest } = .ok st1)
    (hfilter : weightedFilter self st1.frame edge vertex = .ok (true, frame1))
    (hbad : BadWeight (expression ((frame1.set wl.inner_edge_symbol (.Edge edge)).set
      wl.inner_node_symbol (.Vertex vertex)))) :
    ∀ fuel, ExpandWeightedShortestPathCursor.Pull self g context fuel s0.1 s0.2 =
      if fuel ≤ n then .out_of_fuel else .raised .QueryRuntimeException := by
  have hbody := WeightedBody_raises self g context cur frame wl expression top rest pre post
    edge vertex arg st1 frame1 ha hwl hex hpop hnew hdepth hcs hpre hfilter hbad
  clear hpop hnew hdepth hcs hpre hfilter hbad
  generalize hs : (cur, frame) = s at hsteps
  induction hsteps with
  | refl s =>
    subst hs
    intro fuel
    cases fuel with
    | zero => rfl
    | succ fuel =>
      rw [if_neg (by omega)]
      simp only [ExpandWeightedShortestPathCursor.Pull, hbody]
  | step n s s1 s2 hstep _ ih =>
    intro fuel
    cases fuel with
    | zero => rfl
    | succ fuel =>
      have := ih hs fuel
      obtain ⟨cur1, frame1⟩ := s1
      simp only [ExpandWeightedShortestPathCursor.Pull, hstep]
      rw [this]
      by_cases h : fuel ≤ n
      · rw [if_pos h, if_pos (by omega)]
      · rw [if_neg h, if_neg (by omega)]

theorem ExpandWeightedShortestPathCursor_raises_on_bad_weight_witness :
    ExpandWeightedShortestPathCursor.Pull sampleNegative weightedGraph ⟨false⟩ 5
        (ExpandWeightedShortestPathCursor.init (sampleInput 0)) sampleFrame =
      .raised .QueryRuntimeException :=
  ExpandWeightedShortestPathCursor_raises_on_bad_weight sampleNegative weightedGraph ⟨false⟩ 1
    (ExpandWeightedShortestPathCursor.init (sampleInput 0), sampleFrame)
    { input_cursor := [], upper_bound_ := INT64_MAX, upper_bound_set_ := false,
      total_cost_ := [], previous_ := [], yielded_vertices_ := [0], pq_ := [⟨0, 0, 0, none⟩] }
    (sampleFrame.set 0 (.Vertex 0)) ⟨5, 6, some (fun _ => .Int (-1))⟩ (fun _ => .Int (-1))
    ⟨0, 0, 0, none⟩ [] [] [(⟨1, 0, 2, 0⟩, 2, 2)] ⟨0, 0, 1, 0⟩ 1 1
    { frame := sampleFrame.set 0 (.Vertex 0), pq_ := [] } (sampleFrame.set 0 (.Vertex 0))
    (WeightedContinues.step 0 _ _ _ rfl (WeightedContinues.refl _)) rfl rfl rfl rfl rfl
    (by decide) rfl rfl rfl (by show (-1 : Int) < 0; decide) 5

/-! ### Aggregation without input -/

theorem placeDefaults_other {D : Type} (elems : List (AggregateElement D)) :
    ∀ (frame : Frame D) (sym : Symbol), sym ∉ elems.map (fun e => e.output_sym) →
      placeDefaults frame elems sym = frame sym := by
  induction elems with
  | nil => intro frame sym _; rfl
  | cons e elems ih =>
    intro frame sym h
    simp only [List.map_cons, List.mem_cons, not_or] at h
    simp only [placeDefaults]
    rw [ih _ sym h.2]
    simp only [Frame.set, if_neg h.1]

/-- When no two aggregations share their output symbol, the loop leaves under the
output symbol of every aggregation its default value. -/
theorem placeDefaults_mem {D : Type} (elems : List (AggregateElement D)) :
    ∀ (frame : Frame D), (elems.map (fun e => e.output_sym)).Nodup →
      ∀ elem ∈ elems, placeDefaults frame elems elem.output_sym =
        DefaultAggregationOpValue elem := by
  induction elems with
  | nil => intro frame _ elem h; simp at h
  | cons e elems ih =>
    intro frame hnd elem h
    simp only [List.map_cons, List.nodup_cons] at hnd
    simp only [placeDefaults]
    rcases List.mem_cons.mp h with h | h
    · rw [h, placeDefaults_other elems _ _ hnd.1]
      simp only [Frame.set, if_true]
    · exact ih _ hnd.2 elem h

theorem placeNulls_other {D : Type} (syms : List Symbol) :
    ∀ (frame : Frame D) (sym : Symbol), sym ∉ syms → placeNulls frame syms sym = frame sym := by
  induction syms with
  | nil => intro frame sym _; rfl
  | cons a syms ih =>
    intro frame sym h
    simp only [List.mem_cons, not_or] at h
    simp only [placeNulls]
    rw [ih _ sym h.2]
    simp only [Frame.set, if_neg h.1]

theorem placeNulls_mem {D : Type} (syms : List Symbol) :
    ∀ (frame : Frame D), ∀ sym ∈ syms, placeNulls frame syms sym = .Null := by
  induction syms with
  | nil => intro frame sym h; simp at h
  | cons a syms ih =>
    intro frame sym h
    simp only [placeNulls]
    by_cases hs : sym ∈ syms
    · exact ih _ sym hs
    · rw [placeNulls_other syms _ sym hs]
      rcases List.mem_cons.mp h with h | h
      · simp only [Frame.set, h, if_true]
      · exact absurd h hs

theorem averageAll_nil {D : Type} (ops : TypedValueOps D) (elems : List (AggregateElement D)) :
    ∀ pos, averageAll ops elems pos [] = .ok [] := by
  induction elems with
  | nil => intro pos; rfl
  | cons e elems ih =>
    intro pos
    simp only [averageAll]
    by_cases h : e.op ≠ AggregationOp.AVG
    · rw [if_pos h]; exact ih _
    · rw [if_neg h]
      simp only [averageGroups]
      exact ih _

/-! ### Claim about the aggregation without input -/

/-- C10. When the input of an `Aggregate` without group-by expressions yields no
tuple, the first `Pull` of the cursor emits a row and the `Pull` after it returns
false; in that row every `COUNT` is the integer 0, every `SUM`, `AVG`, `MIN` and
`MAX` is null, every `COLLECT_LIST` is the empty list, every `COLLECT_MAP` is the
empty map, and every remembered symbol is null. (The output symbols of the
aggregations are pairwise different and none of them is remembered.) -/
theorem AggregateCursor_default_row_without_input {D : Type} (ops : TypedValueOps D)
    (self : Aggregate D) (frame : Frame D)
    (hgroup : self.group_by = [])
    (hout : (self.aggregations.map (fun e => e.output_sym)).Nodup)
    (hrem : ∀ elem ∈ self.aggregations, elem.output_sym ∉ self.remember) :
    ∃ cur1 frame1,
      AggregateCursor.Pull ops self (AggregateCursor.init []) frame = .ok true (cur1, frame1) ∧
      AggregateCursor.Pull ops self cur1 frame1 = .ok false (cur1, frame1) ∧
      (∀ elem ∈ self.aggregations,
        (elem.op = .COUNT → frame1 elem.output_sym = .Int 0) ∧
        (elem.op = .SUM → frame1 elem.output_sym = .Null) ∧
        (elem.op = .AVG → frame1 elem.output_sym = .Null) ∧
        (elem.op = .MIN → frame1 elem.output_sym = .Null) ∧
        (elem.op = .MAX → frame1 elem.output_sym = .Null) ∧
        (elem.op = .COLLECT_LIST → frame1 elem.output_sym = .List []) ∧
        (elem.op = .COLLECT_MAP → frame1 elem.output_sym = .Map [])) ∧
      ∀ sym ∈ self.remember, frame1 sym = .Null := by
  refine ⟨{ input_cursor := [], aggregation_ := [], aggregation_it_ := 0,
            pulled_all_input_ := true },
    placeNulls (placeDefaults frame self.aggregations) self.remember, ?_, ?_, ?_, ?_⟩
  · simp [AggregateCursor.Pull, AggregateCursor.ProcessAll, AggregateCursor.init, processInput,
      averageAll_nil, hgroup]
  · simp [AggregateCursor.Pull, emitGroup]
  · intro elem helem
    have hval : placeNulls (placeDefaults frame self.aggregations) self.remember
        elem.output_sym = DefaultAggregationOpValue elem := by
      rw [placeNulls_other _ _ _ (hrem elem helem)]
      exact placeDefaults_mem _ frame hout elem helem
    rw [hval]
    unfold DefaultAggregationOpValue
    refine ⟨?_, ?_, ?_, ?_, ?_, ?_, ?_⟩ <;> intro h <;> rw [h]
  · intro sym hsym
    exact placeNulls_mem _ _ sym hsym

theorem AggregateCursor_default_row_without_input_witness :
    ∃ cur1 frame1,
      AggregateCursor.Pull sampleOps sampleAggregate (AggregateCursor.init []) sampleFrame =
        .ok true (cur1, frame1) ∧
      AggregateCursor.Pull sampleOps sampleAggregate cur1 frame1 = .ok false (cur1, frame1) ∧
      (∀ elem ∈ sampleAggregate.aggregations,
        (elem.op = .COUNT → frame1 elem.output_sym = .Int 0) ∧
        (elem.op = .SUM → frame1 elem.output_sym = .Null) ∧
        (elem.op = .AVG → frame1 elem.output_sym = .Null) ∧
        (elem.op = .MIN → frame1 elem.output_sym = .Null) ∧
        (elem.op = .MAX → frame1 elem.output_sym = .Null) ∧
        (elem.op = .COLLECT_LIST → frame1 elem.output_sym = .List []) ∧
        (elem.op = .COLLECT_MAP → frame1 elem.output_sym = .Map [])) ∧
      ∀ sym ∈ sampleAggregate.remember, frame1 sym = .Null :=
  AggregateCursor_default_row_without_input sampleOps sampleAggregate sampleFrame rfl
    (by decide) (by decide)

/-! ### Logs of successive pulls -/

theorem rowsThenDone_zero {D : Type} (rows : List (Frame D)) : rowsThenDone rows 0 = [] := by
  simp [rowsThenDone]

theorem rowsThenDone_nil {D : Type} (k : Nat) :
    rowsThenDone ([] : List (Frame D)) (k + 1) = Outcome.done :: rowsThenDone [] k := by
  simp [rowsThenDone, List.replicate_succ]

theorem rowsThenDone_cons {D : Type} (f : Frame D) (rows : List (Frame D)) (k : Nat) :
    rowsThenDone (f :: rows) (k + 1) = Outcome.row f :: rowsThenDone rows k := by
  simp only [rowsThenDone, List.map_cons, List.cons_append, List.take_succ_cons]
  congr 1
  rw [List.replicate_succ', ← List.append_assoc, List.take_append_of_le_length]
  simp

theorem pullLog_zero {σ D : Type} (pull : σ → Frame D → PullResult (σ × Frame D)) (s : σ)
    (frame : Frame D) : pullLog pull 0 s frame = [] := rfl

theorem pullLog_row {σ D : Type} (pull : σ → Frame D → PullResult (σ × Frame D)) (k : Nat)
    (s s1 : σ) (frame frame1 : Frame D) (h : pull s frame = .ok true (s1, frame1)) :
    pullLog pull (k + 1) s frame = Outcome.row frame1 :: pullLog pull k s1 frame1 := by
  simp only [pullLog, pullRun, h]

theorem pullLog_done {σ D : Type} (pull : σ → Frame D → PullResult (σ × Frame D)) (k : Nat)
    (s s1 : σ) (frame frame1 : Frame D) (h : pull s frame = .ok false (s1, frame1)) :
    pullLog pull (k + 1) s frame = Outcome.done :: pullLog pull k s1 frame1 := by
  simp only [pullLog, pullRun, h]

theorem pullLog_raised {σ D : Type} (pull : σ → Frame D → PullResult (σ × Frame D)) (k : Nat)
    (s : σ) (frame : Frame D) (e : Exception) (h : pull s frame = .raised e) :
    pullLog pull (k + 1) s frame = [Outcome.raised e] := by
  simp only [pullLog, pullRun, h]

/-- The first call decides the log: two states on which `pull` agrees have the
same log. -/
theorem pullLog_congr {σ D : Type} (pull : σ → Frame D → PullResult (σ × Frame D)) (k : Nat)
    (s s1 : σ) (frame frame1 : Frame D) (h : pull s frame = pull s1 frame1) :
    pullLog pull k s frame = pullLog pull k s1 frame1 := by
  cases k with
  | zero => rfl
  | succ k =>
    simp only [pullLog, pullRun, h]
    cases pull s1 frame1 with
    | ok b st => cases b <;> rfl
    | raised e => rfl
    | out_of_fuel => rfl

/-! ### Claim about the grouped aggregation without input -/

theorem AggregateCursor_pull_at_end {D : Type} (ops : TypedValueOps D) (self : Aggregate D)
    (cur : AggregateCursor D) (frame : Frame D) (hall : cur.pulled_all_input_ = true)
    (hend : cur.aggregation_.length ≤ cur.aggregation_it_) :
    AggregateCursor.Pull ops self cur frame = .ok false (cur, frame) := by
  simp only [AggregateCursor.Pull, hall, Bool.not_true, Bool.false_eq_true, if_false, emitGroup,
    List.get?_eq_none.mpr hend]

theorem AggregateCursor_log_at_end {D : Type} (ops : TypedValueOps D) (self : Aggregate D)
    (cur : AggregateCursor D) (frame : Frame D) (hall : cur.pulled_all_input_ = true)
    (hend : cur.aggregation_.length ≤ cur.aggregation_it_) (k : Nat) :
    pullLog (AggregateCursor.Pull ops self) k cur frame = List.replicate k Outcome.done := by
  induction k with
  | zero => rfl
  | succ k ih =>
    rw [pullLog_done _ k _ cur frame frame (AggregateCursor_pull_at_end ops self cur frame hall hend),
      ih, List.replicate_succ]

/-- C11. When the input of an `Aggregate` with at least one group-by expression
yields no tuple, the cursor emits no row, whatever the aggregations are: the first
`Pull` returns false, and so does every `Pull` after it. -/
theorem AggregateCursor_no_row_without_input {D : Type} (ops : TypedValueOps D)
    (self : Aggregate D) (frame : Frame D) (hgroup : self.group_by ≠ []) :
    (∃ cur1, AggregateCursor.Pull ops self (AggregateCursor.init []) frame =
      .ok false (cur1, frame)) ∧
    ∀ k, pullLog (AggregateCursor.Pull ops self) k (AggregateCursor.init []) frame =
      List.replicate k Outcome.done := by
  have hne : self.group_by.isEmpty = false := by
    cases h : self.group_by with
    | nil => exact absurd h hgroup
    | cons a l => rfl
  have hp : AggregateCursor.Pull ops self (AggregateCursor.init []) frame =
      .ok false ({ input_cursor := [], aggregation_ := [], aggregation_it_ := 0,
                   pulled_all_input_ := true }, frame) := by
    simp [AggregateCursor.Pull, AggregateCursor.ProcessAll, AggregateCursor.init, processInput,
      averageAll_nil, hne, emitGroup]
  refine ⟨⟨_, hp⟩, ?_⟩
  intro k
  cases k with
  | zero => rfl
  | succ k =>
    rw [pullLog_done _ k _ _ _ _ hp,
      AggregateCursor_log_at_end ops self _ frame rfl (Nat.le_refl _) k, List.replicate_succ]

theorem AggregateCursor_no_row_without_input_witness :
    (∃ cur1, AggregateCursor.Pull sampleOps sampleGrouped (AggregateCursor.init []) sampleFrame =
      .ok false (cur1, sampleFrame)) ∧
    ∀ k, pullLog (AggregateCursor.Pull sampleOps sampleGrouped) k (AggregateCursor.init [])
      sampleFrame = List.replicate k Outcome.done :=
  AggregateCursor_no_row_without_input sampleOps sampleGrouped sampleFrame (by
    intro h
    cases h)

/-! ### `Filter` -/

theorem FilterCursor_log_nil {D : Type} (self : Filter D) (frame : Frame D) (k : Nat) :
    pullLog (FilterCursor.Pull self) k (FilterCursor.init []) frame = rowsThenDone [] k := by
  induction k with
  | zero => rw [rowsThenDone_zero]; rfl
  | succ k ih =>
    rw [pullLog_done _ k _ (FilterCursor.init []) frame frame rfl, ih, rowsThenDone_nil]

theorem FilterCursor_log_ok {D : Type} (self : Filter D) (input : List (Frame D → Frame D)) :
    ∀ (frame : Frame D) (k : Nat),
      (∀ f ∈ inputFrames input frame, isBoolOrNull (self.expression f) = true) →
      pullLog (FilterCursor.Pull self) k (FilterCursor.init input) frame =
        rowsThenDone ((inputFrames input frame).filter (fun f => isTrue (self.expression f))) k := by
  induction input with
  | nil => intro frame k _; exact FilterCursor_log_nil self frame k
  | cons t rest ih =>
    intro frame k hall
    have hrest : ∀ f ∈ inputFrames rest (t frame), isBoolOrNull (self.expression f) = true :=
      fun f hf => hall f (List.mem_cons_of_mem _ hf)
    have hhead := hall (t frame) (List.mem_cons_self _ _)
    have hskip : EvaluateFilter (t frame) self.expression = .ok false →
        pullLog (FilterCursor.Pull self) k (FilterCursor.init (t :: rest)) frame =
          pullLog (FilterCursor.Pull self) k (FilterCursor.init rest) (t frame) := by
      intro he
      apply pullLog_congr
      simp only [FilterCursor.Pull, FilterCursor.init, FilterCursor.PullFrom, he]
    simp only [inputFrames, List.filter_cons]
    cases hv : self.expression (t frame) with
    | Null =>
      rw [hskip (by simp only [EvaluateFilter, hv]), ih _ _ hrest]
      simp [isTrue]
    | Bool b =>
      cases b with
      | false =>
        rw [hskip (by simp only [EvaluateFilter, hv]), ih _ _ hrest]
        simp [isTrue]
      | true =>
        have hp : FilterCursor.Pull self (FilterCursor.init (t :: rest)) frame =
            .ok true (FilterCursor.init rest, t frame) := by
          simp only [FilterCursor.Pull, FilterCursor.init, FilterCursor.PullFrom, EvaluateFilter, hv]
        cases k with
        | zero => rw [rowsThenDone_zero]; rfl
        | succ k =>
          rw [pullLog_row _ k _ _ _ _ hp, ih _ _ hrest]
          simp only [isTrue, if_true, rowsThenDone_cons]
    | Int i => rw [hv] at hhead; simp [isBoolOrNull] at hhead
    | Double d => rw [hv] at hhead; simp [isBoolOrNull] at hhead
    | String s => rw [hv] at hhead; simp [isBoolOrNull] at hhead
    | List l => rw [hv] at hhead; simp [isBoolOrNull] at hhead
    | Map m => rw [hv] at hhead; simp [isBoolOrNull] at hhead
    | Vertex v => rw [hv] at hhead; simp [isBoolOrNull] at hhead
    | Edge e => rw [hv] at hhead; simp [isBoolOrNull] at hhead
    | Path s es => rw [hv] at hhead; simp [isBoolOrNull] at hhead

theorem EvaluateFilter_raises {D : Type} (frame : Frame D) (filter : Expression D)
    (h : isBoolOrNull (filter frame) = false) :
    EvaluateFilter frame filter = .error .QueryRuntimeException := by
  unfold EvaluateFilter
  cases hv : filter frame <;> simp_all [isBoolOrNull]

theorem FilterCursor_log_raises {D : Type} (self : Filter D) (f : Frame D)
    (post : List (Frame D)) (hbad : isBoolOrNull (self.expression f) = false) :
    ∀ (pre : List (Frame D)) (input : List (Frame D → Frame D)) (frame : Frame D) (k : Nat),
      inputFrames input frame = pre ++ f :: post →
      (∀ g ∈ pre, isBoolOrNull (self.expression g) = true) →
      (pre.filter (fun g => isTrue (self.expression g))).length < k →
      pullLog (FilterCursor.Pull self) k (FilterCursor.init input) frame =
        (pre.filter (fun g => isTrue (self.expression g))).map Outcome.row ++
          [Outcome.raised .QueryRuntimeException] := by
  intro pre
  induction pre with
  | nil =>
    intro input frame k hin _ hk
    cases input with
    | nil => simp [inputFrames] at hin
    | cons t rest =>
      simp only [inputFrames, List.nil_append, List.cons.injEq] at hin
      obtain ⟨k, rfl⟩ : ∃ j, k = j + 1 := ⟨k - 1, by simp at hk; omega⟩
      have hp : FilterCursor.Pull self (FilterCursor.init (t :: rest)) frame =
          .raised .QueryRuntimeException := by
        simp only [FilterCursor.Pull, FilterCursor.init, FilterCursor.PullFrom, hin.1,
          EvaluateFilter_raises f self.expression hbad]
      rw [pullLog_raised _ k _ _ _ hp]
      rfl
  | cons g pre ih =>
    intro input frame k hin hall hk
    cases input with
    | nil => simp [inputFrames] at hin
    | cons t rest =>
      simp only [inputFrames, List.cons_append, List.cons.injEq] at hin
      obtain ⟨hg, hin⟩ := hin
      have hrest : ∀ g ∈ pre, isBoolOrNull (self.expression g) = true :=
        fun x hx => hall x (List.mem_cons_of_mem _ hx)
      have hhead := hall g (List.mem_cons_self _ _)
      have hskip : EvaluateFilter (t frame) self.expression = .ok false →
          pullLog (FilterCursor.Pull self) k (FilterCursor.init (t :: rest)) frame =
            pullLog (FilterCursor.Pull self) k (FilterCursor.init rest) (t frame) := by
        intro he
        apply pullLog_congr
        simp only [FilterCursor.Pull, FilterCursor.init, FilterCursor.PullFrom, he]
      cases hv : self.expression g with
      | Null =>
        have hf : ¬ isTrue (self.expression g) = true := by rw [hv]; simp [isTrue]
        rw [List.filter_cons, if_neg hf] at hk ⊢
        rw [hskip (by simp only [EvaluateFilter, hg, hv]), ih rest (t frame) k hin hrest hk]
      | Bool b =>
        cases b with
        | false =>
          have hf : ¬ isTrue (self.expression g) = true := by rw [hv]; simp [isTrue]
          rw [List.filter_cons, if_neg hf] at hk ⊢
          rw [hskip (by simp only [EvaluateFilter, hg, hv]), ih rest (t frame) k hin hrest hk]
        | true =>
          have hf : isTrue (self.expression g) = true := by rw [hv]; rfl
          rw [List.filter_cons, if_pos hf] at hk ⊢
          simp only [List.length_cons] at hk
          obtain ⟨k, rfl⟩ : ∃ j, k = j + 1 := ⟨k - 1, by omega⟩
          have hp : FilterCursor.Pull self (FilterCursor.init (t :: rest)) frame =
              .ok true (FilterCursor.init rest, t frame) := by
            simp only [FilterCursor.Pull, FilterCursor.init, FilterCursor.PullFrom,
              EvaluateFilter, hg, hv]
          rw [pullLog_row _ k _ _ _ _ hp, ih rest (t frame) k hin hrest (by omega), hg]
          rfl
      | Int i => rw [hv] at hhead; simp [isBoolOrNull] at hhead
      | Double d => rw [hv] at hhead; simp [isBoolOrNull] at hhead
      | String s => rw [hv] at hhead; simp [isBoolOrNull] at hhead
      | List l => rw [hv] at hhead; simp [isBoolOrNull] at hhead
      | Map m => rw [hv] at hhead; simp [isBoolOrNull] at hhead
      | Vertex v => rw [hv] at hhead; simp [isBoolOrNull] at hhead
      | Edge e => rw [hv] at hhead; simp [isBoolOrNull] at hhead
      | Path s es => rw [hv] at hhead; simp [isBoolOrNull] at hhead

/-! ### `Skip` -/

theorem SkipCursor_log_nil {D : Type} (self : Skip D) (cur : SkipCursor D)
    (hcur : cur.input_cursor = []) (frame : Frame D) (k : Nat) :
    pullLog (SkipCursor.Pull self) k cur frame = rowsThenDone [] k := by
  induction k with
  | zero => rw [rowsThenDone_zero]; rfl
  | succ k ih =>
    have hp : SkipCursor.Pull self cur frame = .ok false (cur, frame) := by
      cases cur with
      | mk input_cursor to_skip_ skipped_ =>
        simp only at hcur
        subst hcur
        rfl
    rw [pullLog_done _ k _ cur frame frame hp, ih, rowsThenDone_nil]

/-- The log of a cursor that knows the count `n` and has let `skipped` tuples
pass. -/
theorem SkipCursor_log_known {D : Type} (self : Skip D) (n : Nat)
    (input : List (Frame D → Frame D)) :
    ∀ (skipped : Nat) (frame : Frame D) (k : Nat),
      pullLog (SkipCursor.Pull self) k
          { input_cursor := input, to_skip_ := (n : Int), skipped_ := (skipped : Int) } frame =
        rowsThenDone ((inputFrames input frame).drop (n - skipped)) k := by
  induction input with
  | nil =>
    intro skipped frame k
    rw [SkipCursor_log_nil self _ rfl]
    simp [inputFrames]
  | cons t rest ih =>
    intro skipped frame k
    have hne : ¬ ((n : Int) = -1) := by omega
    by_cases hlt : skipped < n
    · have hp : SkipCursor.Pull self
            { input_cursor := t :: rest, to_skip_ := (n : Int), skipped_ := (skipped : Int) }
            frame =
          SkipCursor.Pull self
            { input_cursor := rest, to_skip_ := (n : Int), skipped_ := ((skipped + 1 : Nat) : Int) }
            (t frame) := by
        have hlt1 : (skipped : Int) < (n : Int) := by omega
        simp only [SkipCursor.Pull, SkipCursor.PullFrom, if_neg hne, if_pos hlt1]
        rfl
      rw [pullLog_congr _ k _ _ _ _ hp, ih]
      have hd : n - skipped = (n - (skipped + 1)) + 1 := by omega
      rw [hd]
      rfl
    · have hp : SkipCursor.Pull self
            { input_cursor := t :: rest, to_skip_ := (n : Int), skipped_ := (skipped : Int) }
            frame =
          .ok true ({ input_cursor := rest, to_skip_ := (n : Int),
                      skipped_ := ((skipped + 1 : Nat) : Int) }, t frame) := by
        have hlt1 : ¬ (skipped : Int) < (n : Int) := by omega
        simp only [SkipCursor.Pull, SkipCursor.PullFrom, if_neg hne, if_neg hlt1]
        rfl
      have hd : n - skipped = 0 := by omega
      have hd1 : n - (skipped + 1) = 0 := by omega
      cases k with
      | zero => rw [rowsThenDone_zero]; rfl
      | succ k =>
        rw [pullLog_row _ k _ _ _ _ hp, ih, hd, hd1]
        simp only [List.drop_zero, inputFrames, rowsThenDone_cons]

theorem evaluateCount_int {D : Type} (expression : Expression D) (frame : Frame D) (n : Nat)
    (h : expression frame = .Int (n : Int)) : evaluateCount expression frame = .ok (n : Int) := by
  have hn : ¬ ((n : Int) < 0) := by omega
  simp only [evaluateCount, h, if_neg hn]

/-- Whether a value is admitted as a count: a non-negative integer is, everything
else is not. -/
theorem evaluateCount_raises {D : Type} (expression : Expression D) (frame : Frame D)
    (h : ∀ n : Nat, expression frame ≠ .Int (n : Int)) :
    evaluateCount expression frame = .error .QueryRuntimeException := by
  unfold evaluateCount
  cases hv : expression frame with
  | Int i =>
    by_cases hi : i < 0
    · simp only [if_pos hi]
    · exfalso
      apply h i.toNat
      rw [hv]
      congr 1
      omega
  | _ => rfl

theorem SkipCursor_first_pull {D : Type} (self : Skip D) (n : Nat) (t : Frame D → Frame D)
    (rest : List (Frame D → Frame D)) (frame : Frame D)
    (h : self.expression (t frame) = .Int (n : Int)) :
    SkipCursor.Pull self (SkipCursor.init (t :: rest)) frame =
      SkipCursor.Pull self { input_cursor := t :: rest, to_skip_ := (n : Int), skipped_ := 0 }
        frame := by
  have hne : ¬ ((n : Int) = -1) := by omega
  simp only [SkipCursor.Pull, SkipCursor.init, SkipCursor.PullFrom, if_neg hne, if_true,
    evaluateCount_int _ _ n h]

/-! ### `Limit` -/

theorem LimitCursor_limit {D : Type} (self : Limit D) (n : Nat) (cur : LimitCursor D)
    (frame : Frame D)
    (hlimit : cur.limit_ = (n : Int) ∨
      (cur.limit_ = -1 ∧ evaluateCount self.expression frame = .ok (n : Int))) :
    (if cur.limit_ = -1 then evaluateCount self.expression frame else .ok cur.limit_) =
      .ok (n : Int) := by
  rcases hlimit with h | ⟨h, he⟩
  · have hne : ¬ (cur.limit_ = -1) := by omega
    rw [if_neg hne, h]
  · rw [if_pos h, he]

/-- A cursor that has been pulled as often as the limit allows returns false from
then on and leaves its input alone. -/
theorem LimitCursor_run_exhausted {D : Type} (self : Limit D) (n : Nat) (k : Nat) :
    ∀ (cur : LimitCursor D) (frame : Frame D), cur.limit_ = (n : Int) →
      (n : Int) ≤ cur.pulled_ →
      (pullRun (LimitCursor.Pull self) k cur frame).1 = rowsThenDone [] k ∧
      (pullRun (LimitCursor.Pull self) k cur frame).2.1.input_cursor = cur.input_cursor := by
  induction k with
  | zero => intro cur frame _ _; exact ⟨by rw [rowsThenDone_zero]; rfl, rfl⟩
  | succ k ih =>
    intro cur frame hl hp
    have hne : ¬ (cur.limit_ = -1) := by omega
    have hge : cur.pulled_ ≥ cur.limit_ := by omega
    have hpull : LimitCursor.Pull self cur frame =
        .ok false ({ cur with limit_ := cur.limit_, pulled_ := cur.pulled_ + 1 }, frame) := by
      simp only [LimitCursor.Pull, if_neg hne, if_pos hge]
    have h := ih { cur with limit_ := cur.limit_, pulled_ := cur.pulled_ + 1 } frame hl
      (by simp only; omega)
    simp only [pullRun, hpull]
    exact ⟨by rw [h.1, rowsThenDone_nil], h.2⟩

/-- The run of a cursor whose pulls so far all pulled the input: it emits what
the limit still allows, and its input is pulled `min (pulled + k) n` times after
`k` further calls. -/
theorem LimitCursor_run_known {D : Type} (self : Limit D) (n : Nat) (k : Nat) :
    ∀ (input : List (Frame D → Frame D)) (pulled : Nat) (cur : LimitCursor D) (frame : Frame D),
      pulled ≤ n → cur.input_cursor = { input_cursor := input, pulls := pulled } →
      cur.pulled_ = (pulled : Int) →
      (cur.limit_ = (n : Int) ∨
        (cur.limit_ = -1 ∧ evaluateCount self.expression frame = .ok (n : Int))) →
      (pullRun (LimitCursor.Pull self) k cur frame).1 =
        rowsThenDone ((inputFrames input frame).take (n - pulled)) k ∧
      (pullRun (LimitCursor.Pull self) k cur frame).2.1.input_cursor.pulls =
        min (pulled + k) n := by
  induction k with
  | zero =>
    intro input pulled cur frame hle hin _ _
    refine ⟨by rw [rowsThenDone_zero]; rfl, ?_⟩
    simp only [pullRun, hin, Nat.add_zero]
    omega
  | succ k ih =>
    intro input pulled cur frame hle hin hp hlimit
    have hev := LimitCursor_limit self n cur frame hlimit
    by_cases hlt : pulled < n
    · have hge : ¬ (cur.pulled_ ≥ (n : Int)) := by omega
      cases input with
      | nil =>
        have hpull : LimitCursor.Pull self cur frame =
            .ok false ({ input_cursor := { input_cursor := [], pulls := pulled + 1 },
                         limit_ := (n : Int), pulled_ := cur.pulled_ + 1 }, frame) := by
          simp only [LimitCursor.Pull, hev, if_neg hge, hin, CountedCursor.Pull]
        have h := ih [] (pulled + 1) ⟨⟨[], pulled + 1⟩, (n : Int), cur.pulled_ + 1⟩ frame
          (by omega) rfl
          (by simp only [hp]; push_cast; rfl) (Or.inl rfl)
        simp only [pullRun, hpull]
        refine ⟨?_, ?_⟩
        · rw [h.1]
          simp only [inputFrames, List.take_nil, rowsThenDone_nil]
        · rw [h.2]
          congr 1
          omega
      | cons t rest =>
        have hpull : LimitCursor.Pull self cur frame =
            .ok true ({ input_cursor := { input_cursor := rest, pulls := pulled + 1 },
                        limit_ := (n : Int), pulled_ := cur.pulled_ + 1 }, t frame) := by
          simp only [LimitCursor.Pull, hev, if_neg hge, hin, CountedCursor.Pull]
        have h := ih rest (pulled + 1) ⟨⟨rest, pulled + 1⟩, (n : Int), cur.pulled_ + 1⟩ (t frame)
          (by omega) rfl
          (by simp only [hp]; push_cast; rfl) (Or.inl rfl)
        simp only [pullRun, hpull]
        refine ⟨?_, ?_⟩
        · rw [h.1]
          have hd : n - pulled = (n - (pulled + 1)) + 1 := by omega
          rw [hd]
          simp only [inputFrames, List.take_succ_cons, rowsThenDone_cons]
        · rw [h.2]
          congr 1
          omega
    · have hge : cur.pulled_ ≥ (n : Int) := by omega
      have hpull : LimitCursor.Pull self cur frame =
          .ok false ({ cur with limit_ := (n : Int), pulled_ := cur.pulled_ + 1 }, frame) := by
        simp only [LimitCursor.Pull, hev, if_pos hge]
      have h := LimitCursor_run_exhausted self n k
        { cur with limit_ := (n : Int), pulled_ := cur.pulled_ + 1 } frame rfl
        (by simp only; omega)
      simp only [pullRun, hpull]
      refine ⟨?_, ?_⟩
      · rw [h.1]
        have hd : n - pulled = 0 := by omega
        rw [hd]
        simp only [List.take_zero, rowsThenDone_nil]
      · rw [h.2]
        simp only [hin]
        omega

/-! ### Claims about `Skip`, `Limit` and `Filter` -/

theorem inputFrames_length {D : Type} (input : List (Frame D → Frame D)) :
    ∀ frame : Frame D, (inputFrames input frame).length = input.length := by
  induction input with
  | nil => intro frame; rfl
  | cons t rest ih => intro frame; simp only [inputFrames, List.length_cons, ih]

theorem rowsThenDone_nil_eq {D : Type} (k : Nat) :
    rowsThenDone ([] : List (Frame D)) k = List.replicate k Outcome.done := by
  simp [rowsThenDone]

/-- C16. Let the count expression of a `Skip` evaluate to the non-negative integer
`n` on the first tuple its input yields. Then, for every input sequence and every
number `k` of successive pulls, the cursor emits exactly the input tuples after the
first `n`, in order, and returns false from then on; when the input has at most `n`
tuples every pull returns false. -/
theorem SkipCursor_emits_after_first_n {D : Type} (self : Skip D) (n : Nat)
    (input : List (Frame D → Frame D)) (frame : Frame D)
    (hcount : ∀ f ∈ (inputFrames input frame).head?, self.expression f = .Int (n : Int)) :
    (∀ k, pullLog (SkipCursor.Pull self) k (SkipCursor.init input) frame =
      rowsThenDone ((inputFrames input frame).drop n) k) ∧
    (input.length ≤ n → ∀ k, pullLog (SkipCursor.Pull self) k (SkipCursor.init input) frame =
      List.replicate k Outcome.done) := by
  have hlog : ∀ k, pullLog (SkipCursor.Pull self) k (SkipCursor.init input) frame =
      rowsThenDone ((inputFrames input frame).drop n) k := by
    intro k
    cases input with
    | nil =>
      rw [SkipCursor_log_nil self _ rfl]
      simp [inputFrames]
    | cons t rest =>
      have h := hcount (t frame) (by simp [inputFrames])
      rw [pullLog_congr _ k _ _ _ _ (SkipCursor_first_pull self n t rest frame h)]
      exact SkipCursor_log_known self n (t :: rest) 0 frame k
  refine ⟨hlog, ?_⟩
  intro hlen k
  rw [hlog k, List.drop_of_length_le (by rw [inputFrames_length]; exact hlen),
    rowsThenDone_nil_eq]

theorem SkipCursor_emits_after_first_n_witness :
    (∀ k, pullLog (SkipCursor.Pull (sampleSkip (.Int 1))) k
        (SkipCursor.init (sampleTuples [.Int 5, .Int 6, .Int 7])) sampleFrame =
      rowsThenDone ((inputFrames (sampleTuples [.Int 5, .Int 6, .Int 7]) sampleFrame).drop 1) k) ∧
    ((sampleTuples [.Int 5, .Int 6, .Int 7]).length ≤ 1 →
      ∀ k, pullLog (SkipCursor.Pull (sampleSkip (.Int 1))) k
        (SkipCursor.init (sampleTuples [.Int 5, .Int 6, .Int 7])) sampleFrame =
      List.replicate k Outcome.done) :=
  SkipCursor_emits_after_first_n (sampleSkip (.Int 1)) 1 (sampleTuples [.Int 5, .Int 6, .Int 7])
    sampleFrame (fun _ _ => rfl)

/-- C17. Let the count expression of a `Limit` evaluate to the non-negative
integer `n` on the frame of the first pull. Then, for every input sequence and
every number `k` of successive pulls, the cursor emits exactly the first
`min n length` input tuples, in order, and returns false from then on; after `k`
pulls its input has been pulled `min k n` times: at most `n` times, and not at all
when `n` is 0. -/
theorem LimitCursor_emits_first_n {D : Type} (self : Limit D) (n : Nat)
    (input : List (Frame D → Frame D)) (frame : Frame D)
    (hcount : self.expression frame = .Int (n : Int)) (k : Nat) :
    pullLog (LimitCursor.Pull self) k (LimitCursor.init input) frame =
      rowsThenDone ((inputFrames input frame).take n) k ∧
    ((inputFrames input frame).take n).length = min n input.length ∧
    (pullRun (LimitCursor.Pull self) k (LimitCursor.init input) frame).2.1.input_cursor.pulls =
      min k n := by
  have h := LimitCursor_run_known self n k input 0 (LimitCursor.init input) frame (Nat.zero_le _)
    rfl rfl (Or.inr ⟨rfl, evaluateCount_int _ _ n hcount⟩)
  refine ⟨h.1, ?_, ?_⟩
  · rw [List.length_take, inputFrames_length]
  · rw [h.2, Nat.zero_add]

theorem LimitCursor_emits_first_n_witness :
    pullLog (LimitCursor.Pull (sampleLimit (.Int 2))) 4
        (LimitCursor.init (sampleTuples [.Int 5, .Int 6, .Int 7])) sampleFrame =
      rowsThenDone ((inputFrames (sampleTuples [.Int 5, .Int 6, .Int 7]) sampleFrame).take 2) 4 ∧
    ((inputFrames (sampleTuples [.Int 5, .Int 6, .Int 7]) sampleFrame).take 2).length =
      min 2 (sampleTuples [.Int 5, .Int 6, .Int 7]).length ∧
    (pullRun (LimitCursor.Pull (sampleLimit (.Int 2))) 4
        (LimitCursor.init (sampleTuples [.Int 5, .Int 6, .Int 7]))
        sampleFrame).2.1.input_cursor.pulls = min 4 2 :=
  LimitCursor_emits_first_n (sampleLimit (.Int 2)) 2 (sampleTuples [.Int 5, .Int 6, .Int 7])
    sampleFrame rfl 4

/-- C18, as stated, fails for `Skip` over the empty input: the count expression
of the sample `Skip` yields -1 on every frame, yet the pull of its cursor over the
empty input returns false and raises nothing. -/
theorem SkipCursor_empty_input_counterexample :
    (∀ f : Frame Int, (sampleSkip (.Int (-1))).expression f = .Int (-1)) ∧
    SkipCursor.Pull (sampleSkip (.Int (-1))) (SkipCursor.init []) sampleFrame =
      .ok false (SkipCursor.init [], sampleFrame) :=
  ⟨fun _ => rfl, rfl⟩

/-- C18, amended. Let the count expression yield something other than a
non-negative integer (a negative integer or a value that is no integer). The first
pull of a `Limit` cursor raises `QueryRuntimeException` for every input sequence,
the empty one included, and without pulling its input; the first pull of a `Skip`
cursor raises `QueryRuntimeException` for every non-empty input sequence, where the
expression is evaluated on the first input tuple; over the empty input the pull of
a `Skip` cursor returns false and evaluates nothing. -/
theorem SkipCursor_LimitCursor_raise_on_bad_count {D : Type} (expression : Expression D)
    (input : List (Frame D → Frame D)) (frame : Frame D) :
    ((∀ n : Nat, expression frame ≠ .Int (n : Int)) →
      LimitCursor.Pull ⟨expression⟩ (LimitCursor.init input) frame =
        .raised .QueryRuntimeException) ∧
    (∀ t rest, input = t :: rest → (∀ n : Nat, expression (t frame) ≠ .Int (n : Int)) →
      SkipCursor.Pull ⟨expression⟩ (SkipCursor.init input) frame =
        .raised .QueryRuntimeException) ∧
    (input = [] →
      SkipCursor.Pull ⟨expression⟩ (SkipCursor.init input) frame =
        .ok false (SkipCursor.init [], frame)) := by
  refine ⟨?_, ?_, ?_⟩
  · intro hbad
    simp only [LimitCursor.Pull, LimitCursor.init, if_true,
      evaluateCount_raises expression frame hbad]
  · intro t rest hin hbad
    subst hin
    simp only [SkipCursor.Pull, SkipCursor.init, SkipCursor.PullFrom, if_true,
      evaluateCount_raises expression (t frame) hbad]
  · intro hin
    subst hin
    rfl

theorem SkipCursor_LimitCursor_raise_on_bad_count_witness :
    LimitCursor.Pull (sampleLimit (.Int (-1))) (LimitCursor.init []) sampleFrame =
        .raised .QueryRuntimeException ∧
    SkipCursor.Pull (sampleSkip (.String "x")) (SkipCursor.init (sampleTuples [.Int 5]))
        sampleFrame = .raised .QueryRuntimeException :=
  ⟨(SkipCursor_LimitCursor_raise_on_bad_count (fun _ => .Int (-1)) [] sampleFrame).1
      (fun n h => by
        have h1 := TypedValue.Int.inj h
        omega),
   (SkipCursor_LimitCursor_raise_on_bad_count (fun _ => .String "x") (sampleTuples [.Int 5])
      sampleFrame).2.1 _ _ rfl (fun n h => by cases h)⟩

/-- C19. For every input sequence on whose tuples the predicate of a `Filter`
yields a boolean or null, the cursor emits exactly the input tuples on which the
predicate yields the boolean true, in the order of the input, and returns false
from then on: the tuples on which it yields false or null are dropped. When the
predicate yields a value that is neither a boolean nor null on some tuple, the
cursor emits the tuples before it on which the predicate yields true and then
raises `QueryRuntimeException`. -/
theorem FilterCursor_emits_true_tuples {D : Type} (self : Filter D)
    (input : List (Frame D → Frame D)) (frame : Frame D) :
    ((∀ f ∈ inputFrames input frame, isBoolOrNull (self.expression f) = true) →
      ∀ k, pullLog (FilterCursor.Pull self) k (FilterCursor.init input) frame =
        rowsThenDone ((inputFrames input frame).filter (fun f => isTrue (self.expression f)))
          k) ∧
    (∀ pre f post, inputFrames input frame = pre ++ f :: post →
      (∀ g ∈ pre, isBoolOrNull (self.expression g) = true) →
      isBoolOrNull (self.expression f) = false →
      ∀ k, (pre.filter (fun g => isTrue (self.expression g))).length < k →
        pullLog (FilterCursor.Pull self) k (FilterCursor.init input) frame =
          (pre.filter (fun g => isTrue (self.expression g))).map Outcome.row ++
            [Outcome.raised .QueryRuntimeException]) :=
  ⟨fun hall k => FilterCursor_log_ok self input frame k hall,
   fun pre f post hin hall hbad k hk =>
     FilterCursor_log_raises self f post hbad pre input frame k hin hall hk⟩

theorem FilterCursor_emits_true_tuples_witness :
    pullLog (FilterCursor.Pull sampleFilter) 3
        (FilterCursor.init (sampleTuples [.Bool true, .Null, .Bool false, .Bool true]))
        sampleFrame =
      rowsThenDone ((inputFrames (sampleTuples [.Bool true, .Null, .Bool false, .Bool true])
        sampleFrame).filter (fun f => isTrue (sampleFilter.expression f))) 3 ∧
    pullLog (FilterCursor.Pull sampleFilter) 2
        (FilterCursor.init (sampleTuples [.Bool true, .Null, .Int 1, .Bool true]))
        sampleFrame =
      [Outcome.row (sampleFrame.set 0 (.Bool true)),
       Outcome.raised .QueryRuntimeException] :=
  ⟨(FilterCursor_emits_true_tuples sampleFilter
      (sampleTuples [.Bool true, .Null, .Bool false, .Bool true]) sampleFrame).1
      (by
        intro f hf
        simp only [sampleTuples, inputFrames, List.map, List.mem_cons, List.mem_singleton,
          List.not_mem_nil, or_false] at hf
        rcases hf with h | h | h | h <;> rw [h] <;> rfl) 3,
   (FilterCursor_emits_true_tuples sampleFilter
      (sampleTuples [.Bool true, .Null, .Int 1, .Bool true]) sampleFrame).2
      [sampleFrame.set 0 (.Bool true), (sampleFrame.set 0 (.Bool true)).set 0 .Null]
      (((sampleFrame.set 0 (.Bool true)).set 0 .Null).set 0 (.Int 1))
      [(((sampleFrame.set 0 (.Bool true)).set 0 .Null).set 0 (.Int 1)).set 0 (.Bool true)]
      rfl
      (by
        intro g hg
        simp only [List.mem_cons, List.mem_singleton, List.not_mem_nil, or_false] at hg
        rcases hg with h | h <;> rw [h] <;> rfl)
      rfl 2 (by decide)⟩

/-! ### The vectors of a group -/

theorem AllThree.mono {D : Type} {P Q : AggregateElement D → Int → TypedValue D → Prop}
    {es : List (AggregateElement D)} {cs : List Int} {vs : List (TypedValue D)}
    (h : AllThree P es cs vs) (hPQ : ∀ e ∈ es, ∀ c v, P e c v → Q e c v) : AllThree Q es cs vs := by
  induction h with
  | nil => exact .nil
  | cons hp _ ih =>
    exact .cons (hPQ _ (List.mem_cons_self _ _) _ _ hp)
      (ih (fun e he => hPQ e (List.mem_cons_of_mem _ he)))

theorem AllThree.init {D : Type} {P : AggregateElement D → Int → TypedValue D → Prop}
    (es : List (AggregateElement D)) (h : ∀ e ∈ es, P e 0 (DefaultAggregationOpValue e)) :
    AllThree P es (List.replicate es.length 0) (es.map DefaultAggregationOpValue) := by
  induction es with
  | nil => exact .nil
  | cons e es ih =>
    exact .cons (h e (List.mem_cons_self _ _)) (ih (fun x hx => h x (List.mem_cons_of_mem _ hx)))

theorem AllThree.values_eq_nil {D : Type} {P : AggregateElement D → Int → TypedValue D → Prop}
    {es : List (AggregateElement D)} {cs : List Int} {vs : List (TypedValue D)}
    (h : AllThree P es cs vs) (hv : vs = []) : es = [] ∧ cs = [] := by
  cases h with
  | nil => exact ⟨rfl, rfl⟩
  | cons _ _ => cases hv

/-- The loop of `Update` takes a property of the vectors to the property that one
step of every aggregation establishes. -/
theorem updateAll_allThree {D : Type} (ops : TypedValueOps D) (frame : Frame D)
    {P Q : AggregateElement D → Int → TypedValue D → Prop}
    {es : List (AggregateElement D)} {cs : List Int} {vs : List (TypedValue D)}
    (h : AllThree P es cs vs) :
    (∀ e ∈ es, ∀ c v c1 v1, P e c v → updateElement ops frame e c v = .ok (c1, v1) → Q e c1 v1) →
    ∀ cs1 vs1, updateAll ops frame es cs vs = .ok (cs1, vs1) → AllThree Q es cs1 vs1 := by
  induction h with
  | nil =>
    intro _ cs1 vs1 hu
    simp only [updateAll, Except.ok.injEq, Prod.mk.injEq] at hu
    rw [← hu.1, ← hu.2]
    exact .nil
  | @cons e c v es cs vs hp _ ih =>
    intro hstep cs1 vs1 hu
    simp only [updateAll] at hu
    cases h1 : updateElement ops frame e c v with
    | error x => rw [h1] at hu; cases hu
    | ok r =>
      obtain ⟨c1, v1⟩ := r
      rw [h1] at hu
      simp only at hu
      cases h2 : updateAll ops frame es cs vs with
      | error x => rw [h2] at hu; cases hu
      | ok r2 =>
        obtain ⟨cs2, vs2⟩ := r2
        rw [h2] at hu
        simp only [Except.ok.injEq, Prod.mk.injEq] at hu
        rw [← hu.1, ← hu.2]
        exact .cons (hstep e (List.mem_cons_self _ _) c v c1 v1 hp h1)
          (ih (fun x hx => hstep x (List.mem_cons_of_mem _ hx)) cs2 vs2 h2)

/-- The loop of `Update` succeeds when the step of every aggregation does. -/
theorem updateAll_ok {D : Type} (ops : TypedValueOps D) (frame : Frame D)
    {P : AggregateElement D → Int → TypedValue D → Prop}
    {es : List (AggregateElement D)} {cs : List Int} {vs : List (TypedValue D)}
    (h : AllThree P es cs vs) :
    (∀ e ∈ es, ∀ c v, P e c v → ∃ r, updateElement ops frame e c v = .ok r) →
    ∃ r, updateAll ops frame es cs vs = .ok r := by
  induction h with
  | nil => intro _; exact ⟨_, rfl⟩
  | @cons e c v es cs vs hp _ ih =>
    intro hstep
    obtain ⟨⟨c1, v1⟩, h1⟩ := hstep e (List.mem_cons_self _ _) c v hp
    obtain ⟨⟨cs2, vs2⟩, h2⟩ := ih (fun x hx => hstep x (List.mem_cons_of_mem _ hx))
    exact ⟨(c1 :: cs2, v1 :: vs2), by simp only [updateAll, h1, h2]⟩

/-- The loop of `Update` raises `x` when the step of some aggregation raises `x`
and the step of every aggregation either raises `x` or succeeds. -/
theorem updateAll_raises {D : Type} (ops : TypedValueOps D) (frame : Frame D) (x : Exception)
    {P : AggregateElement D → Int → TypedValue D → Prop}
    {es : List (AggregateElement D)} {cs : List Int} {vs : List (TypedValue D)}
    (h : AllThree P es cs vs) :
    (∀ e ∈ es, ∀ c v, P e c v →
      updateElement ops frame e c v = .error x ∨ ∃ r, updateElement ops frame e c v = .ok r) →
    (∃ e ∈ es, ∀ c v, P e c v → updateElement ops frame e c v = .error x) →
    updateAll ops frame es cs vs = .error x := by
  induction h with
  | nil => rintro _ ⟨e, he, _⟩; cases he
  | @cons e c v es cs vs hp _ ih =>
    intro hstep hbad
    rcases hstep e (List.mem_cons_self _ _) c v hp with h1 | ⟨⟨c1, v1⟩, h1⟩
    · simp only [updateAll, h1]
    · obtain ⟨b, hb, hraise⟩ := hbad
      rcases List.mem_cons.mp hb with hbe | hbe
      · subst hbe
        rw [hraise c v hp] at h1
        cases h1
      · have h2 := ih (fun x hx => hstep x (List.mem_cons_of_mem _ hx)) ⟨b, hbe, hraise⟩
        simp only [updateAll, h1, h2]

/-! ### `EnsureInitialized` and `Update` -/

theorem EnsureInitialized_new {D : Type} (self : Aggregate D) (frame : Frame D) :
    EnsureInitialized self frame ⟨[], [], []⟩ =
      { counts_ := List.replicate self.aggregations.length 0,
        values_ := self.aggregations.map DefaultAggregationOpValue,
        remember_ := self.remember.map frame } := by
  simp [EnsureInitialized]

theorem EnsureInitialized_old {D : Type} (self : Aggregate D) (frame : Frame D)
    {P : AggregateElement D → Int → TypedValue D → Prop} (agg_value : AggregationValue D)
    (h : AllThree P self.aggregations agg_value.counts_ agg_value.values_) :
    (EnsureInitialized self frame agg_value).counts_ = agg_value.counts_ ∧
    (EnsureInitialized self frame agg_value).values_ = agg_value.values_ := by
  unfold EnsureInitialized
  by_cases hv : agg_value.values_ = []
  · obtain ⟨he, hc⟩ := h.values_eq_nil hv
    simp [hv, he, hc]
  · have : agg_value.values_.isEmpty = false := by
      cases hvs : agg_value.values_ with
      | nil => exact absurd hvs hv
      | cons a l => rfl
    simp [this]

/-- The vectors of the group that `EnsureInitialized` hands to `Update`: those of
the group when it has been initialized before, the defaults for a new group. -/
theorem EnsureInitialized_allThree {D : Type} (self : Aggregate D) (frame : Frame D)
    {P : AggregateElement D → Int → TypedValue D → Prop} (agg_value : AggregationValue D)
    (hinit : ∀ e ∈ self.aggregations, P e 0 (DefaultAggregationOpValue e))
    (h : agg_value = ⟨[], [], []⟩ ∨
      AllThree P self.aggregations agg_value.counts_ agg_value.values_) :
    AllThree P self.aggregations (EnsureInitialized self frame agg_value).counts_
      (EnsureInitialized self frame agg_value).values_ := by
  rcases h with h | h
  · rw [h, EnsureInitialized_new]
    exact AllThree.init _ hinit
  · obtain ⟨hc, hv⟩ := EnsureInitialized_old self frame agg_value h
    rw [hc, hv]
    exact h

/-! ### `ProcessOne` -/

/-- The group `try_emplace` hands to `EnsureInitialized` and `Update`: either the
first group of the cache whose key equals the key of the tuple, or a new, empty
group at the end of the cache when no key of the cache equals it. -/
theorem processGroup_eq {D : Type} (ops : TypedValueOps D) (self : Aggregate D) (frame : Frame D)
    (group_by : List (TypedValue D)) (aggregation : List (List (TypedValue D) × AggregationValue D)) :
    ∃ pre key agg_value post,
      ((aggregation = pre ++ (key, agg_value) :: post ∧
          TypedValueVectorEqual ops key group_by = true) ∨
        (aggregation = pre ∧ post = [] ∧ key = group_by ∧ agg_value = ⟨[], [], []⟩)) ∧
      (∀ g ∈ pre, TypedValueVectorEqual ops g.1 group_by = false) ∧
      processGroup ops self frame group_by aggregation =
        (AggregateCursor.Update ops self frame (EnsureInitialized self frame agg_value)).map
          (fun agg_value1 => pre ++ (key, agg_value1) :: post) := by
  induction aggregation with
  | nil =>
    refine ⟨[], group_by, ⟨[], [], []⟩, [], Or.inr ⟨rfl, rfl, rfl, rfl⟩, ?_, ?_⟩
    · intro g hg; cases hg
    · simp only [processGroup, List.nil_append]
      cases AggregateCursor.Update ops self frame (EnsureInitialized self frame ⟨[], [], []⟩) with
      | error e => rfl
      | ok a => rfl
  | cons g rest ih =>
    obtain ⟨key, agg_value⟩ := g
    by_cases heq : TypedValueVectorEqual ops key group_by = true
    · refine ⟨[], key, agg_value, rest, Or.inl ⟨rfl, heq⟩, ?_, ?_⟩
      · intro g hg; cases hg
      · simp only [processGroup, heq, if_true, List.nil_append]
        cases AggregateCursor.Update ops self frame (EnsureInitialized self frame agg_value) with
        | error e => rfl
        | ok a => rfl
    · obtain ⟨pre, key1, agg_value1, post, hcase, hpre, hproc⟩ := ih
      have heq1 : TypedValueVectorEqual ops key group_by = false := by
        cases h : TypedValueVectorEqual ops key group_by with
        | true => exact absurd h heq
        | false => rfl
      refine ⟨(key, agg_value) :: pre, key1, agg_value1, post, ?_, ?_, ?_⟩
      · rcases hcase with ⟨h1, h2⟩ | ⟨h1, h2, h3, h4⟩
        · exact Or.inl ⟨by rw [h1]; rfl, h2⟩
        · exact Or.inr ⟨by rw [h1], h2, h3, h4⟩
      · intro g hg
        rcases List.mem_cons.mp hg with h | h
        · rw [h]; exact heq1
        · exact hpre g h
      · simp only [processGroup, heq1, Bool.false_eq_true, if_false, hproc]
        cases AggregateCursor.Update ops self frame (EnsureInitialized self frame agg_value1) with
        | error e => rfl
        | ok a => rfl

theorem Update_allThree {D : Type} (ops : TypedValueOps D) (self : Aggregate D) (frame : Frame D)
    {P Q : AggregateElement D → Int → TypedValue D → Prop} (agg_value agg_value1 : AggregationValue D)
    (h : AllThree P self.aggregations agg_value.counts_ agg_value.values_)
    (hstep : ∀ e ∈ self.aggregations, ∀ c v c1 v1, P e c v →
      updateElement ops frame e c v = .ok (c1, v1) → Q e c1 v1)
    (hu : AggregateCursor.Update ops self frame agg_value = .ok agg_value1) :
    AllThree Q self.aggregations agg_value1.counts_ agg_value1.values_ ∧
      agg_value1.remember_ = agg_value.remember_ := by
  unfold AggregateCursor.Update at hu
  cases h1 : updateAll ops frame self.aggregations agg_value.counts_ agg_value.values_ with
  | error x => rw [h1] at hu; cases hu
  | ok r =>
    obtain ⟨cs1, vs1⟩ := r
    rw [h1] at hu
    simp only [Except.ok.injEq] at hu
    rw [← hu]
    exact ⟨updateAll_allThree ops frame h hstep cs1 vs1 h1, rfl⟩

theorem Update_ok {D : Type} (ops : TypedValueOps D) (self : Aggregate D) (frame : Frame D)
    {P : AggregateElement D → Int → TypedValue D → Prop} (agg_value : AggregationValue D)
    (h : AllThree P self.aggregations agg_value.counts_ agg_value.values_)
    (hstep : ∀ e ∈ self.aggregations, ∀ c v, P e c v → ∃ r, updateElement ops frame e c v = .ok r) :
    ∃ agg_value1, AggregateCursor.Update ops self frame agg_value = .ok agg_value1 := by
  obtain ⟨⟨cs1, vs1⟩, h1⟩ := updateAll_ok ops frame h hstep
  exact ⟨{ agg_value with counts_ := cs1, values_ := vs1 },
    by simp only [AggregateCursor.Update, h1]⟩

theorem Update_raises {D : Type} (ops : TypedValueOps D) (self : Aggregate D) (frame : Frame D)
    (x : Exception) {P : AggregateElement D → Int → TypedValue D → Prop}
    (agg_value : AggregationValue D)
    (h : AllThree P self.aggregations agg_value.counts_ agg_value.values_)
    (hstep : ∀ e ∈ self.aggregations, ∀ c v, P e c v →
      updateElement ops frame e c v = .error x ∨ ∃ r, updateElement ops frame e c v = .ok r)
    (hbad : ∃ e ∈ self.aggregations, ∀ c v, P e c v → updateElement ops frame e c v = .error x) :
    AggregateCursor.Update ops self frame agg_value = .error x := by
  simp only [AggregateCursor.Update, updateAll_raises ops frame x h hstep hbad]

/-- The group that `ProcessOne` works on satisfies the invariant of the cache
before `EnsureInitialized` runs on it, or is new. -/
theorem processGroup_target {D : Type} {P : AggregateElement D → Int → TypedValue D → Prop}
    (self : Aggregate D) (aggregation pre post : List (List (TypedValue D) × AggregationValue D))
    (key group_by : List (TypedValue D)) (agg_value : AggregationValue D)
    (ops : TypedValueOps D)
    (hinv : GroupsInv P self aggregation)
    (hcase : (aggregation = pre ++ (key, agg_value) :: post ∧
          TypedValueVectorEqual ops key group_by = true) ∨
        (aggregation = pre ∧ post = [] ∧ key = group_by ∧ agg_value = ⟨[], [], []⟩)) :
    (agg_value = ⟨[], [], []⟩ ∨
      AllThree P self.aggregations agg_value.counts_ agg_value.values_) ∧
    (∀ g ∈ pre ++ post, AllThree P self.aggregations g.2.counts_ g.2.values_) := by
  rcases hcase with ⟨h1, _⟩ | ⟨h1, h2, _, h4⟩
  · refine ⟨Or.inr (hinv (key, agg_value) (by rw [h1]; simp)), ?_⟩
    intro g hg
    apply hinv g
    rw [h1]
    rcases List.mem_append.mp hg with h | h
    · exact List.mem_append_left _ h
    · exact List.mem_append_right _ (List.mem_cons_of_mem _ h)
  · refine ⟨Or.inl h4, ?_⟩
    intro g hg
    apply hinv g
    rw [h1]
    rw [h2, List.append_nil] at hg
    exact hg

theorem ProcessOne_inv {D : Type} (ops : TypedValueOps D) (self : Aggregate D) (frame : Frame D)
    {P : AggregateElement D → Int → TypedValue D → Prop}
    (aggregation aggregation1 : List (List (TypedValue D) × AggregationValue D))
    (hinit : ∀ e ∈ self.aggregations, P e 0 (DefaultAggregationOpValue e))
    (hstep : ∀ e ∈ self.aggregations, ∀ c v c1 v1, P e c v →
      updateElement ops frame e c v = .ok (c1, v1) → P e c1 v1)
    (hinv : GroupsInv P self aggregation)
    (hp : AggregateCursor.ProcessOne ops self frame aggregation = .ok aggregation1) :
    GroupsInv P self aggregation1 := by
  obtain ⟨pre, key, agg_value, post, hcase, _, hproc⟩ :=
    processGroup_eq ops self frame (self.group_by.map (fun expression => expression frame))
      aggregation
  obtain ⟨htarget, hothers⟩ := processGroup_target self aggregation pre post key _ agg_value ops
    hinv hcase
  unfold AggregateCursor.ProcessOne at hp
  rw [hproc] at hp
  cases hu : AggregateCursor.Update ops self frame (EnsureInitialized self frame agg_value) with
  | error x => rw [hu] at hp; cases hp
  | ok agg_value1 =>
    rw [hu] at hp
    simp only [Except.map, Except.ok.injEq] at hp
    have h1 := (Update_allThree ops self frame _ agg_value1
      (EnsureInitialized_allThree self frame agg_value hinit htarget) hstep hu).1
    intro g hg
    rw [← hp] at hg
    rcases List.mem_append.mp hg with h | h
    · exact hothers g (List.mem_append_left _ h)
    · rcases List.mem_cons.mp h with h | h
      · rw [h]; exact h1
      · exact hothers g (List.mem_append_right _ h)

theorem ProcessOne_ok {D : Type} (ops : TypedValueOps D) (self : Aggregate D) (frame : Frame D)
    {P : AggregateElement D → Int → TypedValue D → Prop}
    (aggregation : List (List (TypedValue D) × AggregationValue D))
    (hinit : ∀ e ∈ self.aggregations, P e 0 (DefaultAggregationOpValue e))
    (hstep : ∀ e ∈ self.aggregations, ∀ c v, P e c v → ∃ r, updateElement ops frame e c v = .ok r)
    (hinv : GroupsInv P self aggregation) :
    ∃ aggregation1, AggregateCursor.ProcessOne ops self frame aggregation = .ok aggregation1 := by
  obtain ⟨pre, key, agg_value, post, hcase, _, hproc⟩ :=
    processGroup_eq ops self frame (self.group_by.map (fun expression => expression frame))
      aggregation
  obtain ⟨htarget, _⟩ := processGroup_target self aggregation pre post key _ agg_value ops
    hinv hcase
  obtain ⟨agg_value1, hu⟩ := Update_ok ops self frame _
    (EnsureInitialized_allThree self frame agg_value hinit htarget) hstep
  exact ⟨pre ++ (key, agg_value1) :: post,
    by simp only [AggregateCursor.ProcessOne, hproc, hu, Except.map]⟩

theorem ProcessOne_raises {D : Type} (ops : TypedValueOps D) (self : Aggregate D) (frame : Frame D)
    (x : Exception) {P : AggregateElement D → Int → TypedValue D → Prop}
    (aggregation : List (List (TypedValue D) × AggregationValue D))
    (hinit : ∀ e ∈ self.aggregations, P e 0 (DefaultAggregationOpValue e))
    (hstep : ∀ e ∈ self.aggregations, ∀ c v, P e c v →
      updateElement ops frame e c v = .error x ∨ ∃ r, updateElement ops frame e c v = .ok r)
    (hbad : ∃ e ∈ self.aggregations, ∀ c v, P e c v → updateElement ops frame e c v = .error x)
    (hinv : GroupsInv P self aggregation) :
    AggregateCursor.ProcessOne ops self frame aggregation = .error x := by
  obtain ⟨pre, key, agg_value, post, hcase, _, hproc⟩ :=
    processGroup_eq ops self frame (self.group_by.map (fun expression => expression frame))
      aggregation
  obtain ⟨htarget, _⟩ := processGroup_target self aggregation pre post key _ agg_value ops
    hinv hcase
  have hu := Update_raises ops self frame x _
    (EnsureInitialized_allThree self frame agg_value hinit htarget) hstep hbad
  simp only [AggregateCursor.ProcessOne, hproc, hu, Except.map]

/-! ### The first loop of `ProcessAll` -/

theorem processInput_ok {D : Type} (ops : TypedValueOps D) (self : Aggregate D)
    {P : AggregateElement D → Int → TypedValue D → Prop}
    (hinit : ∀ e ∈ self.aggregations, P e 0 (DefaultAggregationOpValue e))
    (input : List (Frame D → Frame D)) :
    ∀ (frame : Frame D) (aggregation : List (List (TypedValue D) × AggregationValue D)),
      (∀ f ∈ inputFrames input frame, ∀ e ∈ self.aggregations, ∀ c v c1 v1, P e c v →
        updateElement ops f e c v = .ok (c1, v1) → P e c1 v1) →
      (∀ f ∈ inputFrames input frame, ∀ e ∈ self.aggregations, ∀ c v, P e c v →
        ∃ r, updateElement ops f e c v = .ok r) →
      GroupsInv P self aggregation →
      ∃ frame1 aggregation1, processInput ops self input frame aggregation =
        .ok (frame1, aggregation1) ∧ GroupsInv P self aggregation1 := by
  induction input with
  | nil =>
    intro frame aggregation _ _ hinv
    exact ⟨frame, aggregation, rfl, hinv⟩
  | cons t rest ih =>
    intro frame aggregation hstep hprog hinv
    obtain ⟨aggregation2, h1⟩ := ProcessOne_ok ops self (t frame) aggregation hinit
      (hprog (t frame) (List.mem_cons_self _ _)) hinv
    obtain ⟨frame1, aggregation1, h2, hinv1⟩ := ih (t frame) aggregation2
      (fun f hf => hstep f (List.mem_cons_of_mem _ hf))
      (fun f hf => hprog f (List.mem_cons_of_mem _ hf))
      (ProcessOne_inv ops self (t frame) aggregation aggregation2 hinit
        (hstep (t frame) (List.mem_cons_self _ _)) hinv h1)
    exact ⟨frame1, aggregation1, by simp only [processInput, h1, h2], hinv1⟩

theorem averageAll_no_avg {D : Type} (ops : TypedValueOps D) (elems : List (AggregateElement D))
    (h : ∀ e ∈ elems, e.op ≠ AggregationOp.AVG) :
    ∀ pos aggregation, averageAll ops elems pos aggregation = .ok aggregation := by
  induction elems with
  | nil => intro pos aggregation; rfl
  | cons e elems ih =>
    intro pos aggregation
    simp only [averageAll, if_pos (h e (List.mem_cons_self _ _))]
    exact ih (fun x hx => h x (List.mem_cons_of_mem _ hx)) _ _

theorem divideAt_allThree {D : Type} (ops : TypedValueOps D) (count : Int)
    {P : AggregateElement D → Int → TypedValue D → Prop}
    {es : List (AggregateElement D)} {cs : List Int} {vs : List (TypedValue D)}
    (h : AllThree P es cs vs) :
    ∀ (pos : Nat) (vs1 : List (TypedValue D)), divideAt ops count pos vs = .ok vs1 →
      (∀ e c v v1, es.get? pos = some e → cs.get? pos = some c → P e c v →
        ops.divide v (.Double (ops.of_count count)) = .ok v1 → P e c v1) →
      AllThree P es cs vs1 := by
  induction h with
  | nil =>
    intro pos vs1 hd _
    cases pos <;> simp only [divideAt, Except.ok.injEq] at hd <;> rw [← hd] <;> exact .nil
  | @cons e c v es cs vs hp hrest ih =>
    intro pos vs1 hd hP
    cases pos with
    | zero =>
      simp only [divideAt] at hd
      cases h1 : ops.divide v (.Double (ops.of_count count)) with
      | error x => rw [h1] at hd; cases hd
      | ok v1 =>
        rw [h1] at hd
        simp only [Except.map, Except.ok.injEq] at hd
        rw [← hd]
        exact .cons (hP e c v v1 rfl rfl hp h1) hrest
    | succ pos =>
      simp only [divideAt] at hd
      cases h1 : divideAt ops count pos vs with
      | error x => rw [h1] at hd; cases hd
      | ok vs2 =>
        rw [h1] at hd
        simp only [Except.map, Except.ok.injEq] at hd
        rw [← hd]
        exact .cons hp (ih pos vs2 h1 (fun e c v v1 he hc => hP e c v v1 he hc))

theorem getD_count (cs : List Int) (pos : Nat) (c : Int) (hc : cs.get? pos = some c) :
    cs.getD pos 0 = c := by
  rw [List.getD_eq_getElem?_getD, ← List.get?_eq_getElem?, hc]
  rfl

theorem averageGroups_inv {D : Type} (ops : TypedValueOps D) (self : Aggregate D) (pos : Nat)
    {P : AggregateElement D → Int → TypedValue D → Prop}
    (hP : ∀ e c v v1, self.aggregations.get? pos = some e → P e c v → 0 < c →
      ops.divide v (.Double (ops.of_count c)) = .ok v1 → P e c v1)
    (aggregation : List (List (TypedValue D) × AggregationValue D)) :
    ∀ aggregation1, GroupsInv P self aggregation →
      averageGroups ops pos aggregation = .ok aggregation1 →
      GroupsInv P self aggregation1 ∧ aggregation1.map Prod.fst = aggregation.map Prod.fst := by
  induction aggregation with
  | nil =>
    intro aggregation1 _ ha
    simp only [averageGroups, Except.ok.injEq] at ha
    rw [← ha]
    exact ⟨fun g hg => (by cases hg), rfl⟩
  | cons g rest ih =>
    intro aggregation1 hinv ha
    obtain ⟨key, agg_value⟩ := g
    have hg := hinv (key, agg_value) (List.mem_cons_self _ _)
    have hrest : GroupsInv P self rest := fun x hx => hinv x (List.mem_cons_of_mem _ hx)
    simp only [averageGroups] at ha
    by_cases hc : agg_value.counts_.getD pos 0 > 0
    · rw [if_pos hc] at ha
      cases h1 : divideAt ops (agg_value.counts_.getD pos 0) pos agg_value.values_ with
      | error x => rw [h1] at ha; cases ha
      | ok vs1 =>
        rw [h1] at ha
        simp only [Except.map] at ha
        cases h2 : averageGroups ops pos rest with
        | error x => rw [h2] at ha; cases ha
        | ok rest1 =>
          rw [h2] at ha
          simp only [Except.ok.injEq] at ha
          obtain ⟨hi, hk⟩ := ih rest1 hrest h2
          have h3 := divideAt_allThree ops (agg_value.counts_.getD pos 0) hg pos vs1 h1
            (fun e c v v1 he hcs hp hd => by
              have hcc := getD_count _ pos c hcs
              rw [hcc] at hd hc
              exact hP e c v v1 he hp hc hd)
          rw [← ha]
          refine ⟨?_, by simp only [List.map_cons, hk]⟩
          intro x hx
          rcases List.mem_cons.mp hx with h | h
          · rw [h]; exact h3
          · exact hi x h
    · rw [if_neg hc] at ha
      cases h2 : averageGroups ops pos rest with
      | error x => rw [h2] at ha; cases ha
      | ok rest1 =>
        rw [h2] at ha
        simp only [Except.ok.injEq] at ha
        obtain ⟨hi, hk⟩ := ih rest1 hrest h2
        rw [← ha]
        refine ⟨?_, by simp only [List.map_cons, hk]⟩
        intro x hx
        rcases List.mem_cons.mp hx with h | h
        · rw [h]; exact hg
        · exact hi x h

theorem drop_eq_cons_get {α : Type} (l : List α) (pos : Nat) (a : α) (rest : List α)
    (h : l.drop pos = a :: rest) : l.get? pos = some a ∧ l.drop (pos + 1) = rest := by
  induction l generalizing pos with
  | nil => simp at h
  | cons b l ih =>
    cases pos with
    | zero =>
      simp only [List.drop_zero, List.cons.injEq] at h
      simp [h.1, h.2]
    | succ pos =>
      simp only [List.drop_succ_cons] at h
      simpa using ih pos h

/-- The second loop of `ProcessAll` keeps a property of the groups that the
division keeps for the `AVG` aggregations, and it keeps the keys. -/
theorem averageAll_inv {D : Type} (ops : TypedValueOps D) (self : Aggregate D)
    {P : AggregateElement D → Int → TypedValue D → Prop}
    (hP : ∀ e ∈ self.aggregations, e.op = AggregationOp.AVG → ∀ c v v1, P e c v → 0 < c →
      ops.divide v (.Double (ops.of_count c)) = .ok v1 → P e c v1)
    (elems : List (AggregateElement D)) :
    ∀ (pos : Nat) (aggregation aggregation1 : List (List (TypedValue D) × AggregationValue D)),
      self.aggregations.drop pos = elems → GroupsInv P self aggregation →
      averageAll ops elems pos aggregation = .ok aggregation1 →
      GroupsInv P self aggregation1 ∧ aggregation1.map Prod.fst = aggregation.map Prod.fst := by
  induction elems with
  | nil =>
    intro pos aggregation aggregation1 _ hinv ha
    simp only [averageAll, Except.ok.injEq] at ha
    rw [← ha]
    exact ⟨hinv, rfl⟩
  | cons e elems ih =>
    intro pos aggregation aggregation1 hdrop hinv ha
    obtain ⟨hget, hdrop1⟩ := drop_eq_cons_get _ pos e elems hdrop
    simp only [averageAll] at ha
    by_cases hop : e.op ≠ AggregationOp.AVG
    · rw [if_pos hop] at ha
      exact ih (pos + 1) aggregation aggregation1 hdrop1 hinv ha
    · rw [if_neg hop] at ha
      have hop1 : e.op = AggregationOp.AVG := not_not.mp hop
      cases h1 : averageGroups ops pos aggregation with
      | error x => rw [h1] at ha; cases ha
      | ok aggregation2 =>
        rw [h1] at ha
        have hmem : e ∈ self.aggregations := List.get?_mem hget
        obtain ⟨hi, hk⟩ := averageGroups_inv ops self pos
          (fun e1 c v v1 he1 hp hc hd => by
            rw [hget] at he1
            cases he1
            exact hP e hmem hop1 c v v1 hp hc hd) aggregation aggregation2 hinv h1
        obtain ⟨hi2, hk2⟩ := ih (pos + 1) aggregation2 aggregation1 hdrop1 hi ha
        exact ⟨hi2, hk2.trans hk⟩

theorem AggregateCursor_pull_raises_input {D : Type} (ops : TypedValueOps D) (self : Aggregate D)
    (input : List (Frame D → Frame D)) (frame : Frame D) (x : Exception)
    (h : processInput ops self input frame [] = .error x) :
    AggregateCursor.Pull ops self (AggregateCursor.init input) frame = .raised x := by
  simp [AggregateCursor.Pull, AggregateCursor.ProcessAll, AggregateCursor.init, h]

theorem AggregateCursor_first_pull {D : Type} (ops : TypedValueOps D) (self : Aggregate D)
    (input : List (Frame D → Frame D)) (frame frame1 : Frame D)
    (aggregation1 aggregation2 : List (List (TypedValue D) × AggregationValue D))
    (h1 : processInput ops self input frame [] = .ok (frame1, aggregation1))
    (h2 : averageAll ops self.aggregations 0 aggregation1 = .ok aggregation2)
    (hne : aggregation2 ≠ []) :
    AggregateCursor.Pull ops self (AggregateCursor.init input) frame =
      AggregateCursor.Pull ops self (AggregateCursor.filled aggregation2 0) frame1 := by
  have he : aggregation2.isEmpty = false := by
    cases aggregation2 with
    | nil => exact absurd rfl hne
    | cons a l => rfl
  simp [AggregateCursor.Pull, AggregateCursor.ProcessAll, AggregateCursor.init,
    AggregateCursor.filled, h1, h2, he]

theorem placeValues_other {D : Type} (syms : List Symbol) :
    ∀ (values : List (TypedValue D)) (frame : Frame D) (sym : Symbol), sym ∉ syms →
      placeValues frame syms values sym = frame sym := by
  induction syms with
  | nil => intro values frame sym _; cases values <;> rfl
  | cons a syms ih =>
    intro values frame sym h
    simp only [List.mem_cons, not_or] at h
    cases values with
    | nil => rfl
    | cons v values =>
      simp only [placeValues]
      rw [ih values _ sym h.2]
      simp only [Frame.set, if_neg h.1]

/-- When no two aggregations share their output symbol, the value of every
aggregation of a group is found under its output symbol once the values are
placed. -/
theorem placeValues_allThree {D : Type} {P : AggregateElement D → Int → TypedValue D → Prop}
    {es : List (AggregateElement D)} {cs : List Int} {vs : List (TypedValue D)}
    (h : AllThree P es cs vs) :
    ∀ (frame : Frame D), (es.map (fun e => e.output_sym)).Nodup →
      ∀ e ∈ es, ∃ c, P e c (placeValues frame (es.map (fun e => e.output_sym)) vs e.output_sym) := by
  induction h with
  | nil => intro frame _ e he; cases he
  | @cons e0 c0 v0 es cs vs hp _ ih =>
    intro frame hnd e he
    simp only [List.map_cons, List.nodup_cons] at hnd
    simp only [List.map_cons, placeValues]
    rcases List.mem_cons.mp he with h1 | h1
    · rw [h1, placeValues_other _ _ _ _ hnd.1]
      simp only [Frame.set, if_true]
      exact ⟨c0, hp⟩
    · exact ih _ hnd.2 e h1

theorem placeGroup_allThree {D : Type} {P : AggregateElement D → Int → TypedValue D → Prop}
    (self : Aggregate D) (agg_value : AggregationValue D) (frame : Frame D)
    (h : AllThree P self.aggregations agg_value.counts_ agg_value.values_)
    (hout : (self.aggregations.map (fun e => e.output_sym)).Nodup)
    (hrem : ∀ e ∈ self.aggregations, e.output_sym ∉ self.remember) :
    ∀ e ∈ self.aggregations, ∃ c, P e c (placeGroup self frame agg_value e.output_sym) := by
  intro e he
  unfold placeGroup
  rw [placeValues_other _ _ _ _ (hrem e he)]
  exact placeValues_allThree h frame hout e he

/-! ### One step of one aggregation -/

theorem updateElement_star {D : Type} (ops : TypedValueOps D) (frame : Frame D)
    (e : AggregateElement D) (c : Int) (v : TypedValue D) (hval : e.value = none) :
    updateElement ops frame e c v = .ok (c + 1, .Int (c + 1)) := by
  simp only [updateElement, hval]

theorem updateElement_null {D : Type} (ops : TypedValueOps D) (frame : Frame D)
    (e : AggregateElement D) (c : Int) (v : TypedValue D) (expr : Expression D)
    (hval : e.value = some expr) (hnull : isNull (expr frame) = true) :
    updateElement ops frame e c v = .ok (c, v) := by
  cases hv : expr frame <;> rw [hv] at hnull <;> simp [isNull] at hnull
  simp only [updateElement, hval, hv]

theorem updateElement_count {D : Type} (ops : TypedValueOps D) (frame : Frame D)
    (e : AggregateElement D) (c : Int) (v : TypedValue D) (expr : Expression D)
    (hval : e.value = some expr) (hnull : isNull (expr frame) = false)
    (hop : e.op = AggregationOp.COUNT) :
    updateElement ops frame e c v = .ok (c + 1, .Int (c + 1)) := by
  by_cases h1 : c + 1 = 1
  · cases hv : expr frame <;> rw [hv] at hnull <;> simp [isNull] at hnull <;>
      simp only [updateElement, hval, hv, hop, if_pos h1] <;> rw [h1]
  · cases hv : expr frame <;> rw [hv] at hnull <;> simp [isNull] at hnull <;>
      simp only [updateElement, hval, hv, hop, if_neg h1]

theorem isNull_or_not {D : Type} (v : TypedValue D) : isNull v = true ∨ isNull v = false := by
  cases isNull v <;> simp

theorem isNumeric_not_null {D : Type} (v : TypedValue D) (h : isNumeric v = true) :
    isNull v = false := by
  cases v <;> simp_all [isNumeric, isNull]

theorem AggregateCursor_pull_ok {D : Type} (ops : TypedValueOps D) (self : Aggregate D)
    (input : List (Frame D → Frame D)) (frame frame1 : Frame D)
    (aggregation1 aggregation2 : List (List (TypedValue D) × AggregationValue D))
    (h1 : processInput ops self input frame [] = .ok (frame1, aggregation1))
    (h2 : averageAll ops self.aggregations 0 aggregation1 = .ok aggregation2) :
    ∃ b s, AggregateCursor.Pull ops self (AggregateCursor.init input) frame = .ok b s := by
  simp only [AggregateCursor.Pull, AggregateCursor.ProcessAll, AggregateCursor.init, h1, h2,
    Bool.not_false, if_true]
  split
  · exact ⟨_, _, rfl⟩
  · simp only [emitGroup]
    split
    · exact ⟨_, _, rfl⟩
    · exact ⟨_, _, rfl⟩

theorem AggregateCursor_pull_raises_average {D : Type} (ops : TypedValueOps D)
    (self : Aggregate D) (input : List (Frame D → Frame D)) (frame frame1 : Frame D)
    (aggregation1 : List (List (TypedValue D) × AggregationValue D)) (x : Exception)
    (h1 : processInput ops self input frame [] = .ok (frame1, aggregation1))
    (h2 : averageAll ops self.aggregations 0 aggregation1 = .error x) :
    AggregateCursor.Pull ops self (AggregateCursor.init input) frame = .raised x := by
  simp [AggregateCursor.Pull, AggregateCursor.ProcessAll, AggregateCursor.init, h1, h2]

theorem CountInv_init {D : Type} (e : AggregateElement D) :
    CountInv ([] : List (Frame D)) e 0 (DefaultAggregationOpValue e) := by
  intro hop
  refine ⟨fun _ => rfl, fun _ _ => rfl, ?_⟩
  simp only [DefaultAggregationOpValue, hop]

theorem CountInv_step {D : Type} (ops : TypedValueOps D) (tuples : List (Frame D)) (f : Frame D)
    (e : AggregateElement D) (c : Int) (v : TypedValue D) (c1 : Int) (v1 : TypedValue D)
    (hP : CountInv tuples e c v) (hu : updateElement ops f e c v = .ok (c1, v1)) :
    CountInv (tuples ++ [f]) e c1 v1 := by
  intro hop
  obtain ⟨hstar, hexpr, hv⟩ := hP hop
  cases hval : e.value with
  | none =>
    rw [updateElement_star ops f e c v hval] at hu
    simp only [Except.ok.injEq, Prod.mk.injEq] at hu
    rw [← hu.1, ← hu.2]
    refine ⟨fun _ => ?_, fun expr h => (by cases h), rfl⟩
    rw [hstar hval, List.length_append]
    simp
  | some expr =>
    rcases isNull_or_not (expr f) with hnull | hnull
    · rw [updateElement_null ops f e c v expr hval hnull] at hu
      simp only [Except.ok.injEq, Prod.mk.injEq] at hu
      rw [← hu.1, ← hu.2]
      refine ⟨fun h => (by cases h), fun expr1 h => ?_, hv⟩
      cases h
      rw [hexpr expr hval, List.filter_append]
      simp [hnull]
    · rw [updateElement_count ops f e c v expr hval hnull hop] at hu
      simp only [Except.ok.injEq, Prod.mk.injEq] at hu
      rw [← hu.1, ← hu.2]
      refine ⟨fun h => (by cases h), fun expr1 h => ?_, rfl⟩
      cases h
      rw [hexpr expr hval, List.filter_append]
      simp [hnull]

/-- The first loop of `ProcessAll` on tuples that all belong to the one group of
the cache: the group stays the only one, and its vectors follow the tuples. -/
theorem processInput_one_group {D : Type} (ops : TypedValueOps D) (self : Aggregate D)
    (J : List (Frame D) → AggregateElement D → Int → TypedValue D → Prop)
    (hstep : ∀ tuples f, ∀ e ∈ self.aggregations, ∀ c v c1 v1, J tuples e c v →
      updateElement ops f e c v = .ok (c1, v1) → J (tuples ++ [f]) e c1 v1)
    (key : List (TypedValue D)) (input : List (Frame D → Frame D)) :
    ∀ (frame : Frame D) (tuples : List (Frame D)) (agg_value : AggregationValue D)
      (frame1 : Frame D) (aggregation1 : List (List (TypedValue D) × AggregationValue D)),
      AllThree (J tuples) self.aggregations agg_value.counts_ agg_value.values_ →
      (∀ f ∈ inputFrames input frame, TypedValueVectorEqual ops key (groupKey self f) = true) →
      processInput ops self input frame [(key, agg_value)] = .ok (frame1, aggregation1) →
      ∃ agg_value1, aggregation1 = [(key, agg_value1)] ∧
        AllThree (J (tuples ++ inputFrames input frame)) self.aggregations agg_value1.counts_
          agg_value1.values_ := by
  induction input with
  | nil =>
    intro frame tuples agg_value frame1 aggregation1 hinv _ hp
    simp only [processInput, Except.ok.injEq, Prod.mk.injEq] at hp
    refine ⟨agg_value, hp.2.symm, ?_⟩
    simpa [inputFrames] using hinv
  | cons t rest ih =>
    intro frame tuples agg_value frame1 aggregation1 hinv hkey hp
    have hk := hkey (t frame) (List.mem_cons_self _ _)
    unfold groupKey at hk
    simp only [processInput, AggregateCursor.ProcessOne, processGroup, hk, if_true] at hp
    cases hu : AggregateCursor.Update ops self (t frame)
        (EnsureInitialized self (t frame) agg_value) with
    | error x => rw [hu] at hp; cases hp
    | ok agg_value2 =>
      rw [hu] at hp
      simp only at hp
      obtain ⟨hc, hv⟩ := EnsureInitialized_old self (t frame) agg_value hinv
      have hinv2 := (Update_allThree ops self (t frame) _ agg_value2
        (by rw [hc, hv]; exact hinv) (hstep tuples (t frame)) hu).1
      obtain ⟨agg_value1, h1, h2⟩ := ih (t frame) (tuples ++ [t frame]) agg_value2 frame1
        aggregation1 hinv2 (fun f hf => hkey f (List.mem_cons_of_mem _ hf)) hp
      refine ⟨agg_value1, h1, ?_⟩
      simpa [inputFrames] using h2

/-- The first loop of `ProcessAll` from the empty cache on tuples that all belong
to the group of the first one. -/
theorem processInput_first_group {D : Type} (ops : TypedValueOps D) (self : Aggregate D)
    (J : List (Frame D) → AggregateElement D → Int → TypedValue D → Prop)
    (hinit : ∀ e ∈ self.aggregations, J [] e 0 (DefaultAggregationOpValue e))
    (hstep : ∀ tuples f, ∀ e ∈ self.aggregations, ∀ c v c1 v1, J tuples e c v →
      updateElement ops f e c v = .ok (c1, v1) → J (tuples ++ [f]) e c1 v1)
    (t : Frame D → Frame D) (rest : List (Frame D → Frame D)) (frame frame1 : Frame D)
    (aggregation1 : List (List (TypedValue D) × AggregationValue D))
    (hkey : ∀ f ∈ inputFrames rest (t frame),
      TypedValueVectorEqual ops (groupKey self (t frame)) (groupKey self f) = true)
    (hp : processInput ops self (t :: rest) frame [] = .ok (frame1, aggregation1)) :
    ∃ agg_value1, aggregation1 = [(groupKey self (t frame), agg_value1)] ∧
      AllThree (J (inputFrames (t :: rest) frame)) self.aggregations agg_value1.counts_
        agg_value1.values_ := by
  simp only [processInput, AggregateCursor.ProcessOne, processGroup] at hp
  cases hu : AggregateCursor.Update ops self (t frame)
      (EnsureInitialized self (t frame) ⟨[], [], []⟩) with
  | error x => rw [hu] at hp; cases hp
  | ok agg_value2 =>
    rw [hu] at hp
    simp only at hp
    have hinv2 := (Update_allThree ops self (t frame) _ agg_value2
      (EnsureInitialized_allThree self (t frame) ⟨[], [], []⟩ hinit (Or.inl rfl))
      (hstep [] (t frame)) hu).1
    obtain ⟨agg_value1, h1, h2⟩ := processInput_one_group ops self J hstep
      (groupKey self (t frame)) rest (t frame) ([] ++ [t frame]) agg_value2 frame1 aggregation1
      hinv2 hkey hp
    exact ⟨agg_value1, h1, by simpa [inputFrames] using h2⟩

theorem AggregateCursor_one_group_row {D : Type} (ops : TypedValueOps D) (self : Aggregate D)
    (t : Frame D → Frame D) (rest : List (Frame D → Frame D)) (frame : Frame D)
    (J : List (Frame D) → AggregateElement D → Int → TypedValue D → Prop)
    (hinit : ∀ e ∈ self.aggregations, J [] e 0 (DefaultAggregationOpValue e))
    (hstep : ∀ tuples f, ∀ e ∈ self.aggregations, ∀ c v c1 v1, J tuples e c v →
      updateElement ops f e c v = .ok (c1, v1) → J (tuples ++ [f]) e c1 v1)
    (havg : ∀ tuples, ∀ e ∈ self.aggregations, e.op = AggregationOp.AVG → ∀ c v v1,
      J tuples e c v → J tuples e c v1)
    (hkey : ∀ f ∈ inputFrames rest (t frame),
      TypedValueVectorEqual ops (groupKey self (t frame)) (groupKey self f) = true)
    (b : Bool) (cur1 : AggregateCursor D) (frame1 : Frame D)
    (hpull : AggregateCursor.Pull ops self (AggregateCursor.init (t :: rest)) frame =
      .ok b (cur1, frame1)) :
    b = true ∧
    (∀ k, pullLog (AggregateCursor.Pull ops self) k cur1 frame1 =
      List.replicate k Outcome.done) ∧
    ∃ agg_value, AllThree (J (inputFrames (t :: rest) frame)) self.aggregations
        agg_value.counts_ agg_value.values_ ∧
      ∃ frame0, frame1 = placeGroup self frame0 agg_value := by
  cases h1 : processInput ops self (t :: rest) frame [] with
  | error x =>
    rw [AggregateCursor_pull_raises_input ops self _ frame x h1] at hpull
    cases hpull
  | ok r =>
    obtain ⟨frameN, aggregation1⟩ := r
    obtain ⟨agg_value1, hagg1, hinv1⟩ := processInput_first_group ops self J hinit hstep t rest
      frame frameN aggregation1 hkey h1
    cases h2 : averageAll ops self.aggregations 0 aggregation1 with
    | error x =>
      rw [AggregateCursor_pull_raises_average ops self _ frame frameN aggregation1 x h1 h2]
        at hpull
      cases hpull
    | ok aggregation2 =>
      have hg1 : GroupsInv (J (inputFrames (t :: rest) frame)) self aggregation1 := by
        intro g hg
        rw [hagg1] at hg
        simp only [List.mem_singleton] at hg
        rw [hg]
        exact hinv1
      obtain ⟨hg2, hkeys⟩ := averageAll_inv ops self
        (fun e he hop c v v1 hP _ _ => havg _ e he hop c v v1 hP)
        self.aggregations 0 aggregation1 aggregation2 rfl hg1 h2
      rw [hagg1] at hkeys
      obtain ⟨agg_value2, hagg2⟩ : ∃ agg_value2,
          aggregation2 = [(groupKey self (t frame), agg_value2)] := by
        cases aggregation2 with
        | nil => simp at hkeys
        | cons g l =>
          cases l with
          | nil =>
            obtain ⟨k, a⟩ := g
            simp only [List.map_cons, List.map_nil, List.cons.injEq, and_true] at hkeys
            exact ⟨a, by rw [← hkeys]⟩
          | cons g2 l => simp at hkeys
      have hne : aggregation2 ≠ [] := by rw [hagg2]; simp
      rw [AggregateCursor_first_pull ops self _ frame frameN aggregation1 aggregation2 h1 h2 hne]
        at hpull
      have hp : AggregateCursor.Pull ops self (AggregateCursor.filled aggregation2 0) frameN =
          .ok true (AggregateCursor.filled aggregation2 1, placeGroup self frameN agg_value2) := by
        rw [hagg2]
        rfl
      rw [hp] at hpull
      simp only [PullResult.ok.injEq, Prod.mk.injEq] at hpull
      obtain ⟨hb, hcur, hframe⟩ := hpull
      refine ⟨hb.symm, ?_, agg_value2,
        hg2 (groupKey self (t frame), agg_value2) (by rw [hagg2]; simp), frameN, hframe.symm⟩
      intro k
      rw [← hcur, ← hframe]
      exact AggregateCursor_log_at_end ops self _ _ rfl (by rw [hagg2]; simp [AggregateCursor.filled]) k

theorem updateElement_count_ok {D : Type} (ops : TypedValueOps D) (frame : Frame D)
    (e : AggregateElement D) (c : Int) (v : TypedValue D) (hop : e.op = AggregationOp.COUNT) :
    ∃ r, updateElement ops frame e c v = .ok r := by
  cases hval : e.value with
  | none => exact ⟨_, updateElement_star ops frame e c v hval⟩
  | some expr =>
    rcases isNull_or_not (expr frame) with hnull | hnull
    · exact ⟨_, updateElement_null ops frame e c v expr hval hnull⟩
    · exact ⟨_, updateElement_count ops frame e c v expr hval hnull hop⟩

/-- C12. Let the tuples of the input all belong to one group: the key of every
tuple equals the key of the first one (which is so without group-by expressions),
and let the input be non-empty or the operator be without group-by expressions.
Whenever the first `Pull` raises nothing, it emits the one row of the group, and in
that row a `COUNT` without value expression is the number of the input tuples and a
`COUNT` with a value expression is the number of the input tuples on which the
expression is not null. The `Pull` raises nothing when every aggregation is a
`COUNT`. A null input leaves the count and the value of every aggregation with a
value expression as they are. (The output symbols of the aggregations are pairwise
different and none of them is remembered.) -/
theorem AggregateCursor_count_outputs {D : Type} (ops : TypedValueOps D) (self : Aggregate D)
    (input : List (Frame D → Frame D)) (frame : Frame D)
    (hone : ∀ f0 rest, inputFrames input frame = f0 :: rest → ∀ f ∈ rest,
      TypedValueVectorEqual ops (groupKey self f0) (groupKey self f) = true)
    (hrow : input ≠ [] ∨ self.group_by = [])
    (hout : (self.aggregations.map (fun e => e.output_sym)).Nodup)
    (hrem : ∀ e ∈ self.aggregations, e.output_sym ∉ self.remember) :
    (∀ b cur1 frame1,
      AggregateCursor.Pull ops self (AggregateCursor.init input) frame = .ok b (cur1, frame1) →
      b = true ∧
      (∀ k, pullLog (AggregateCursor.Pull ops self) k cur1 frame1 =
        List.replicate k Outcome.done) ∧
      ∀ e ∈ self.aggregations, e.op = AggregationOp.COUNT →
        (e.value = none →
          frame1 e.output_sym = .Int ((inputFrames input frame).length : Int)) ∧
        (∀ expr, e.value = some expr → frame1 e.output_sym =
          .Int (((inputFrames input frame).filter (fun f => !isNull (expr f))).length : Int))) ∧
    ((∀ e ∈ self.aggregations, e.op = AggregationOp.COUNT) →
      ∃ cur1 frame1,
        AggregateCursor.Pull ops self (AggregateCursor.init input) frame =
          .ok true (cur1, frame1)) ∧
    (∀ (e : AggregateElement D) (f : Frame D) (c : Int) (v : TypedValue D) (expr : Expression D),
      e.value = some expr → isNull (expr f) = true → updateElement ops f e c v = .ok (c, v)) := by
  have hmain : ∀ b cur1 frame1,
      AggregateCursor.Pull ops self (AggregateCursor.init input) frame = .ok b (cur1, frame1) →
      b = true ∧
      (∀ k, pullLog (AggregateCursor.Pull ops self) k cur1 frame1 =
        List.replicate k Outcome.done) ∧
      ∀ e ∈ self.aggregations, e.op = AggregationOp.COUNT →
        (e.value = none →
          frame1 e.output_sym = .Int ((inputFrames input frame).length : Int)) ∧
        (∀ expr, e.value = some expr → frame1 e.output_sym =
          .Int (((inputFrames input frame).filter (fun f => !isNull (expr f))).length : Int)) := by
    intro b cur1 frame1 hpull
    cases input with
    | nil =>
      have hgroup : self.group_by = [] := by
        rcases hrow with h | h
        · exact absurd rfl h
        · exact h
      have hp : AggregateCursor.Pull ops self (AggregateCursor.init []) frame =
          .ok true (AggregateCursor.filled [] 0,
            placeNulls (placeDefaults frame self.aggregations) self.remember) := by
        simp [AggregateCursor.Pull, AggregateCursor.ProcessAll, AggregateCursor.init,
          AggregateCursor.filled, processInput, averageAll_nil, hgroup]
      rw [hp] at hpull
      simp only [PullResult.ok.injEq, Prod.mk.injEq] at hpull
      obtain ⟨hb, hcur, hframe⟩ := hpull
      refine ⟨hb.symm, ?_, ?_⟩
      · intro k
        rw [← hcur]
        exact AggregateCursor_log_at_end ops self _ _ rfl (Nat.le_refl _) k
      · intro e he hop
        have hval : frame1 e.output_sym = .Int 0 := by
          rw [← hframe, placeNulls_other _ _ _ (hrem e he),
            placeDefaults_mem _ frame hout e he]
          simp only [DefaultAggregationOpValue, hop]
        exact ⟨fun _ => by rw [hval]; rfl, fun _ _ => by rw [hval]; rfl⟩
    | cons t rest =>
      obtain ⟨hb, hlog, agg_value, hall, frame0, hframe⟩ :=
        AggregateCursor_one_group_row ops self t rest frame CountInv
          (fun e _ => CountInv_init e)
          (fun tuples f e _ c v c1 v1 hP hu => CountInv_step ops tuples f e c v c1 v1 hP hu)
          (fun tuples e _ hop c v v1 _ hcount => by rw [hop] at hcount; cases hcount)
          (hone (t frame) (inputFrames rest (t frame)) rfl) b cur1 frame1 hpull
      refine ⟨hb, hlog, ?_⟩
      intro e he hop
      obtain ⟨c, hc⟩ := placeGroup_allThree self agg_value frame0 hall hout hrem e he
      obtain ⟨hstar, hexpr, hv⟩ := hc hop
      rw [hframe, hv]
      exact ⟨fun h => by rw [hstar h], fun expr h => by rw [hexpr expr h]⟩
  refine ⟨hmain, ?_, ?_⟩
  · intro hcount
    obtain ⟨frameN, aggregation1, h1, _⟩ := processInput_ok ops self
      (fun _ _ => (trivial : (fun (_ : AggregateElement D) (_ : Int) (_ : TypedValue D) => True)
        _ _ _)) input frame []
      (fun _ _ _ _ _ _ _ _ _ _ => trivial)
      (fun f _ e he c v _ => updateElement_count_ok ops f e c v (hcount e he))
      (fun g hg => by cases hg)
    have h2 := averageAll_no_avg ops self.aggregations
      (fun e he => by rw [hcount e he]; decide) 0 aggregation1
    obtain ⟨b, s, hp⟩ := AggregateCursor_pull_ok ops self input frame frameN aggregation1
      aggregation1 h1 h2
    obtain ⟨cur1, frame1⟩ := s
    have hb := (hmain b cur1 frame1 hp).1
    rw [hb] at hp
    exact ⟨cur1, frame1, hp⟩
  · intro e f c v expr hval hnull
    exact updateElement_null ops f e c v expr hval hnull

theorem AggregateCursor_count_outputs_witness :
    ∃ cur1 frame1,
      AggregateCursor.Pull documentedOps sampleCounts
        (AggregateCursor.init (sampleTuples [.Int 5, .Null, .String "a"])) sampleFrame =
          .ok true (cur1, frame1) ∧
      frame1 10 = .Int 3 ∧ frame1 11 = .Int 2 := by
  have h := AggregateCursor_count_outputs documentedOps sampleCounts
    (sampleTuples [.Int 5, .Null, .String "a"]) sampleFrame
    (fun _ _ _ _ _ => rfl) (Or.inr rfl) (by decide) (by decide)
  obtain ⟨cur1, frame1, hp⟩ := h.2.1 (by decide)
  obtain ⟨_, _, hvals⟩ := h.1 true cur1 frame1 hp
  refine ⟨cur1, frame1, hp, ?_, ?_⟩
  · exact (hvals ⟨none, none, .COUNT, 10⟩ (by simp [sampleCounts]) rfl).1 rfl
  · exact (hvals ⟨some (fun f => f 0), none, .COUNT, 11⟩ (by simp [sampleCounts]) rfl).2
      (fun f => f 0) rfl

/-! ### One step of `MIN` and `MAX` -/

theorem EnsureOkForMinMax_ok {D : Type} (value : TypedValue D) (h : isOkForMinMax value = true) :
    EnsureOkForMinMax value = .ok () := by
  cases value <;> simp [isOkForMinMax, isBool, isNumeric, isString] at h <;> rfl

theorem EnsureOkForMinMax_bad {D : Type} (value : TypedValue D)
    (h : isOkForMinMax value = false) :
    EnsureOkForMinMax value = .error .QueryRuntimeException := by
  cases value <;> simp [isOkForMinMax, isBool, isNumeric, isString] at h <;> rfl

theorem replaceWhen_bad {D : Type}
    (compare : TypedValue D → TypedValue D → Except Exception (TypedValue D))
    (value input_value : TypedValue D) (h : isOkForMinMax input_value = false) :
    replaceWhen compare value input_value = .error .QueryRuntimeException := by
  simp only [replaceWhen, EnsureOkForMinMax_bad input_value h]

theorem replaceWhen_bool {D : Type}
    (compare : TypedValue D → TypedValue D → Except Exception (TypedValue D))
    (value input_value : TypedValue D) (r : Bool) (h : isOkForMinMax input_value = true)
    (hc : compare input_value value = .ok (.Bool r)) :
    replaceWhen compare value input_value = .ok (if r then input_value else value) := by
  cases r <;> simp only [replaceWhen, EnsureOkForMinMax_ok input_value h, hc] <;> rfl

theorem replaceWhen_null {D : Type}
    (compare : TypedValue D → TypedValue D → Except Exception (TypedValue D))
    (value input_value : TypedValue D) (h : isOkForMinMax input_value = true)
    (hc : compare input_value value = .ok .Null) :
    replaceWhen compare value input_value = .error .QueryRuntimeException := by
  simp only [replaceWhen, EnsureOkForMinMax_ok input_value h, hc]

theorem replaceWhen_raises {D : Type}
    (compare : TypedValue D → TypedValue D → Except Exception (TypedValue D))
    (value input_value : TypedValue D) (h : isOkForMinMax input_value = true)
    (hc : compare input_value value = .error .TypedValueException) :
    replaceWhen compare value input_value = .error .QueryRuntimeException := by
  simp only [replaceWhen, EnsureOkForMinMax_ok input_value h, hc]

/-- With a comparison that behaves as documented, the comparison step of `MIN` and
`MAX` either keeps one of the two values or raises `QueryRuntimeException`. -/
theorem replaceWhen_cases {D : Type}
    (compare : TypedValue D → TypedValue D → Except Exception (TypedValue D))
    (hcmp : Comparison compare) (value input_value : TypedValue D) :
    replaceWhen compare value input_value = .error .QueryRuntimeException ∨
    replaceWhen compare value input_value = .ok input_value ∨
    replaceWhen compare value input_value = .ok value := by
  cases hok : isOkForMinMax input_value with
  | false => exact Or.inl (replaceWhen_bad compare value input_value hok)
  | true =>
    rcases hcmp input_value value with ⟨r, hr⟩ | hr | hr
    · rw [replaceWhen_bool compare value input_value r hok hr]
      cases r
      · exact Or.inr (Or.inr rfl)
      · exact Or.inr (Or.inl rfl)
    · exact Or.inl (replaceWhen_null compare value input_value hok hr)
    · exact Or.inl (replaceWhen_raises compare value input_value hok hr)

theorem updateElement_minmax_first {D : Type} (ops : TypedValueOps D) (frame : Frame D)
    (e : AggregateElement D) (c : Int) (v : TypedValue D) (expr : Expression D)
    (hval : e.value = some expr) (hnull : isNull (expr frame) = false)
    (hop : e.op = AggregationOp.MIN ∨ e.op = AggregationOp.MAX) (h1 : c + 1 = 1) :
    updateElement ops frame e c v =
      (EnsureOkForMinMax (expr frame)).map (fun _ => (c + 1, expr frame)) := by
  rcases hop with hop | hop <;>
    cases hv : expr frame <;> rw [hv] at hnull <;> simp [isNull] at hnull <;>
    simp only [updateElement, hval, hv, hop, if_pos h1]

theorem updateElement_min_later {D : Type} (ops : TypedValueOps D) (frame : Frame D)
    (e : AggregateElement D) (c : Int) (v : TypedValue D) (expr : Expression D)
    (hval : e.value = some expr) (hnull : isNull (expr frame) = false)
    (hop : e.op = AggregationOp.MIN) (h1 : ¬ c + 1 = 1) :
    updateElement ops frame e c v =
      (replaceWhen ops.less v (expr frame)).map (fun x => (c + 1, x)) := by
  cases hv : expr frame <;> rw [hv] at hnull <;> simp [isNull] at hnull <;>
    simp only [updateElement, hval, hv, hop, if_neg h1]

theorem updateElement_max_later {D : Type} (ops : TypedValueOps D) (frame : Frame D)
    (e : AggregateElement D) (c : Int) (v : TypedValue D) (expr : Expression D)
    (hval : e.value = some expr) (hnull : isNull (expr frame) = false)
    (hop : e.op = AggregationOp.MAX) (h1 : ¬ c + 1 = 1) :
    updateElement ops frame e c v =
      (replaceWhen ops.greater v (expr frame)).map (fun x => (c + 1, x)) := by
  cases hv : expr frame <;> rw [hv] at hnull <;> simp [isNull] at hnull <;>
    simp only [updateElement, hval, hv, hop, if_neg h1]

/-- The step of a `MIN` or `MAX` on a value that is neither null nor a boolean, a
number or a character string raises `QueryRuntimeException`, whatever the group
holds. -/
theorem updateElement_minmax_bad {D : Type} (ops : TypedValueOps D) (frame : Frame D)
    (e : AggregateElement D) (c : Int) (v : TypedValue D) (expr : Expression D)
    (hval : e.value = some expr) (hnull : isNull (expr frame) = false)
    (hbad : isOkForMinMax (expr frame) = false)
    (hop : e.op = AggregationOp.MIN ∨ e.op = AggregationOp.MAX) :
    updateElement ops frame e c v = .error .QueryRuntimeException := by
  by_cases h1 : c + 1 = 1
  · rw [updateElement_minmax_first ops frame e c v expr hval hnull hop h1,
      EnsureOkForMinMax_bad _ hbad]
    rfl
  · rcases hop with hop | hop
    · rw [updateElement_min_later ops frame e c v expr hval hnull hop h1,
        replaceWhen_bad _ _ _ hbad]
      rfl
    · rw [updateElement_max_later ops frame e c v expr hval hnull hop h1,
        replaceWhen_bad _ _ _ hbad]
      rfl

/-- With comparisons that behave as documented, the step of a `MIN` or `MAX`
either succeeds or raises `QueryRuntimeException`. -/
theorem updateElement_minmax_cases {D : Type} (ops : TypedValueOps D) (frame : Frame D)
    (hless : Comparison ops.less) (hgreater : Comparison ops.greater)
    (e : AggregateElement D) (c : Int) (v : TypedValue D)
    (hop : e.op = AggregationOp.MIN ∨ e.op = AggregationOp.MAX) :
    updateElement ops frame e c v = .error .QueryRuntimeException ∨
      ∃ r, updateElement ops frame e c v = .ok r := by
  cases hval : e.value with
  | none => exact Or.inr ⟨_, updateElement_star ops frame e c v hval⟩
  | some expr =>
    rcases isNull_or_not (expr frame) with hnull | hnull
    · exact Or.inr ⟨_, updateElement_null ops frame e c v expr hval hnull⟩
    · by_cases h1 : c + 1 = 1
      · rw [updateElement_minmax_first ops frame e c v expr hval hnull hop h1]
        cases hok : isOkForMinMax (expr frame) with
        | false => rw [EnsureOkForMinMax_bad _ hok]; exact Or.inl rfl
        | true => rw [EnsureOkForMinMax_ok _ hok]; exact Or.inr ⟨_, rfl⟩
      · rcases hop with hop | hop
        · rw [updateElement_min_later ops frame e c v expr hval hnull hop h1]
          rcases replaceWhen_cases ops.less hless v (expr frame) with h | h | h <;> rw [h]
          · exact Or.inl rfl
          · exact Or.inr ⟨_, rfl⟩
          · exact Or.inr ⟨_, rfl⟩
        · rw [updateElement_max_later ops frame e c v expr hval hnull hop h1]
          rcases replaceWhen_cases ops.greater hgreater v (expr frame) with h | h | h <;> rw [h]
          · exact Or.inl rfl
          · exact Or.inr ⟨_, rfl⟩
          · exact Or.inr ⟨_, rfl⟩

/-- While the non-null inputs of a `MIN` or `MAX` are of a kind on which the
comparisons yield booleans and which `EnsureOkForMinMax` lets pass, the step
succeeds and the value stays of that kind. -/
theorem kind_step {D : Type} (ops : TypedValueOps D) (frame : Frame D)
    (T : TypedValue D → Bool)
    (hT : ∀ a, T a = true → isOkForMinMax a = true)
    (hless : ∀ a b, T a = true → T b = true → ∃ r, ops.less a b = .ok (.Bool r))
    (hgreater : ∀ a b, T a = true → T b = true → ∃ r, ops.greater a b = .ok (.Bool r))
    (e : AggregateElement D) (hop : e.op = AggregationOp.MIN ∨ e.op = AggregationOp.MAX)
    (hin : ∀ expr, e.value = some expr → isNull (expr frame) = true ∨ T (expr frame) = true)
    (c : Int) (v : TypedValue D) (hP : KindInv T e c v) :
    ∃ c1 v1, updateElement ops frame e c v = .ok (c1, v1) ∧ KindInv T e c1 v1 := by
  cases hval : e.value with
  | none =>
    refine ⟨_, _, updateElement_star ops frame e c v hval, by have := hP.1; omega, ?_⟩
    intro h
    exact absurd hval h
  | some expr =>
    rcases isNull_or_not (expr frame) with hnull | hnull
    · exact ⟨_, _, updateElement_null ops frame e c v expr hval hnull, hP⟩
    · have hTin : T (expr frame) = true := by
        rcases hin expr hval with h | h
        · rw [h] at hnull; cases hnull
        · exact h
      by_cases h1 : c + 1 = 1
      · refine ⟨c + 1, expr frame, ?_, by have := hP.1; omega, fun _ _ => hTin⟩
        rw [updateElement_minmax_first ops frame e c v expr hval hnull hop h1,
          EnsureOkForMinMax_ok _ (hT _ hTin)]
        rfl
      · have hc : 0 < c := by have := hP.1; omega
        have hTv : T v = true := hP.2 (by rw [hval]; simp) hc
        rcases hop with hop | hop
        · obtain ⟨r, hr⟩ := hless (expr frame) v hTin hTv
          refine ⟨c + 1, if r then expr frame else v, ?_, by omega, fun _ _ => ?_⟩
          · rw [updateElement_min_later ops frame e c v expr hval hnull hop h1,
              replaceWhen_bool _ _ _ r (hT _ hTin) hr]
            rfl
          · cases r
            · exact hTv
            · exact hTin
        · obtain ⟨r, hr⟩ := hgreater (expr frame) v hTin hTv
          refine ⟨c + 1, if r then expr frame else v, ?_, by omega, fun _ _ => ?_⟩
          · rw [updateElement_max_later ops frame e c v expr hval hnull hop h1,
              replaceWhen_bool _ _ _ r (hT _ hTin) hr]
            rfl
          · cases r
            · exact hTv
            · exact hTin

/-! ### Steps that succeed or raise one exception -/

theorem updateAll_ok_or {D : Type} (ops : TypedValueOps D) (frame : Frame D) (x : Exception)
    {P : AggregateElement D → Int → TypedValue D → Prop}
    {es : List (AggregateElement D)} {cs : List Int} {vs : List (TypedValue D)}
    (h : AllThree P es cs vs) :
    (∀ e ∈ es, ∀ c v, P e c v →
      updateElement ops frame e c v = .error x ∨ ∃ r, updateElement ops frame e c v = .ok r) →
    updateAll ops frame es cs vs = .error x ∨ ∃ r, updateAll ops frame es cs vs = .ok r := by
  induction h with
  | nil => intro _; exact Or.inr ⟨_, rfl⟩
  | @cons e c v es cs vs hp _ ih =>
    intro hstep
    rcases hstep e (List.mem_cons_self _ _) c v hp with h1 | ⟨⟨c1, v1⟩, h1⟩
    · exact Or.inl (by simp only [updateAll, h1])
    · rcases ih (fun y hy => hstep y (List.mem_cons_of_mem _ hy)) with h2 | ⟨⟨cs2, vs2⟩, h2⟩
      · exact Or.inl (by simp only [updateAll, h1, h2])
      · exact Or.inr ⟨(c1 :: cs2, v1 :: vs2), by simp only [updateAll, h1, h2]⟩

theorem ProcessOne_ok_or {D : Type} (ops : TypedValueOps D) (self : Aggregate D) (frame : Frame D)
    (x : Exception) {P : AggregateElement D → Int → TypedValue D → Prop}
    (aggregation : List (List (TypedValue D) × AggregationValue D))
    (hinit : ∀ e ∈ self.aggregations, P e 0 (DefaultAggregationOpValue e))
    (hstep : ∀ e ∈ self.aggregations, ∀ c v, P e c v →
      updateElement ops frame e c v = .error x ∨ ∃ r, updateElement ops frame e c v = .ok r)
    (hinv : GroupsInv P self aggregation) :
    AggregateCursor.ProcessOne ops self frame aggregation = .error x ∨
      ∃ aggregation1, AggregateCursor.ProcessOne ops self frame aggregation = .ok aggregation1 := by
  obtain ⟨pre, key, agg_value, post, hcase, _, hproc⟩ :=
    processGroup_eq ops self frame (self.group_by.map (fun expression => expression frame))
      aggregation
  obtain ⟨htarget, _⟩ := processGroup_target self aggregation pre post key _ agg_value ops
    hinv hcase
  rcases updateAll_ok_or ops frame x
    (EnsureInitialized_allThree self frame agg_value hinit htarget) hstep with h | ⟨⟨cs1, vs1⟩, h⟩
  · exact Or.inl (by simp only [AggregateCursor.ProcessOne, hproc, AggregateCursor.Update, h,
      Except.map])
  · exact Or.inr ⟨pre ++ (key, { EnsureInitialized self frame agg_value with
        counts_ := cs1, values_ := vs1 }) :: post,
      by simp only [AggregateCursor.ProcessOne, hproc, AggregateCursor.Update, h, Except.map]⟩

/-- The first loop of `ProcessAll` raises `x` when on some tuple the step of some
aggregation raises `x` and every step on every tuple either succeeds or raises
`x`. -/
theorem processInput_raises_somewhere {D : Type} (ops : TypedValueOps D) (self : Aggregate D)
    (x : Exception) {P : AggregateElement D → Int → TypedValue D → Prop}
    (hinit : ∀ e ∈ self.aggregations, P e 0 (DefaultAggregationOpValue e))
    (input : List (Frame D → Frame D)) :
    ∀ (frame : Frame D) (aggregation : List (List (TypedValue D) × AggregationValue D)),
      (∀ f ∈ inputFrames input frame, ∀ e ∈ self.aggregations, ∀ c v c1 v1, P e c v →
        updateElement ops f e c v = .ok (c1, v1) → P e c1 v1) →
      (∀ f ∈ inputFrames input frame, ∀ e ∈ self.aggregations, ∀ c v, P e c v →
        updateElement ops f e c v = .error x ∨ ∃ r, updateElement ops f e c v = .ok r) →
      (∃ f ∈ inputFrames input frame, ∃ e ∈ self.aggregations, ∀ c v, P e c v →
        updateElement ops f e c v = .error x) →
      GroupsInv P self aggregation →
      processInput ops self input frame aggregation = .error x := by
  induction input with
  | nil =>
    intro frame aggregation _ _ hbad _
    obtain ⟨f, hf, _⟩ := hbad
    cases hf
  | cons t rest ih =>
    intro frame aggregation hstep hall hbad hinv
    rcases ProcessOne_ok_or ops self (t frame) x aggregation hinit
      (hall (t frame) (List.mem_cons_self _ _)) hinv with h1 | ⟨aggregation1, h1⟩
    · simp only [processInput, h1]
    · have hinv1 := ProcessOne_inv ops self (t frame) aggregation aggregation1 hinit
        (hstep (t frame) (List.mem_cons_self _ _)) hinv h1
      obtain ⟨f, hf, e, he, hraise⟩ := hbad
      rcases List.mem_cons.mp hf with hf1 | hf1
      · rw [hf1] at hraise
        rw [ProcessOne_raises ops self (t frame) x aggregation hinit
          (hall (t frame) (List.mem_cons_self _ _)) ⟨e, he, hraise⟩ hinv] at h1
        cases h1
      · have h2 := ih (t frame) aggregation1
          (fun g hg => hstep g (List.mem_cons_of_mem _ hg))
          (fun g hg => hall g (List.mem_cons_of_mem _ hg)) ⟨f, hf1, e, he, hraise⟩ hinv1
        simp only [processInput, h1, h2]

/-! ### Claim about `MIN` and `MAX` -/

theorem AggregateCursor_kind_ok {D : Type} (ops : TypedValueOps D) (self : Aggregate D)
    (input : List (Frame D → Frame D)) (frame : Frame D) (T : TypedValue D → Bool)
    (hops : ∀ e ∈ self.aggregations, e.op = AggregationOp.MIN ∨ e.op = AggregationOp.MAX)
    (hT : ∀ a, T a = true → isOkForMinMax a = true)
    (hless : ∀ a b, T a = true → T b = true → ∃ r, ops.less a b = .ok (.Bool r))
    (hgreater : ∀ a b, T a = true → T b = true → ∃ r, ops.greater a b = .ok (.Bool r))
    (hin : ∀ f ∈ inputFrames input frame, ∀ e ∈ self.aggregations, ∀ expr, e.value = some expr →
      isNull (expr f) = true ∨ T (expr f) = true) :
    ∃ b s, AggregateCursor.Pull ops self (AggregateCursor.init input) frame = .ok b s := by
  obtain ⟨frame1, aggregation1, h1, _⟩ := processInput_ok ops self
    (fun e _ => (⟨Int.le_refl 0, fun _ h => absurd h (Int.lt_irrefl 0)⟩ :
      KindInv T e 0 (DefaultAggregationOpValue e))) input frame []
    (fun f hf e he c v c1 v1 hP hu => by
      obtain ⟨c2, v2, hu2, hP2⟩ := kind_step ops f T hT hless hgreater e (hops e he)
        (hin f hf e he) c v hP
      rw [hu] at hu2
      simp only [Except.ok.injEq, Prod.mk.injEq] at hu2
      rw [hu2.1, hu2.2]
      exact hP2)
    (fun f hf e he c v hP => by
      obtain ⟨c2, v2, hu2, _⟩ := kind_step ops f T hT hless hgreater e (hops e he)
        (hin f hf e he) c v hP
      exact ⟨_, hu2⟩)
    (fun g hg => by cases hg)
  have h2 := averageAll_no_avg ops self.aggregations
    (fun e he => by rcases hops e he with h | h <;> rw [h] <;> decide) 0 aggregation1
  exact AggregateCursor_pull_ok ops self input frame frame1 aggregation1 aggregation1 h1 h2

/-- C15, as the code behaves. Let every aggregation of an `Aggregate` be a `MIN` or
a `MAX`, and let the comparisons `<` and `>` behave as `typed_value.hpp` documents
them: they return true, false or null, or throw `TypedValueException`.
* When the comparisons of two numbers yield booleans and every non-null input is a
  number, the first `Pull` raises nothing; likewise for character strings.
* When some input is neither null nor a boolean, a number or a character string (a
  list, a map, a vertex, an edge or a path), the first `Pull` raises
  `QueryRuntimeException`.
* When the comparisons of two booleans throw `TypedValueException`, as documented,
  then a `MIN` or `MAX` without grouping whose first two inputs are booleans raises
  `QueryRuntimeException`, although `EnsureOkForMinMax` lets both pass. -/
theorem AggregateCursor_min_max_types {D : Type} (ops : TypedValueOps D) (self : Aggregate D)
    (input : List (Frame D → Frame D)) (frame : Frame D)
    (hops : ∀ e ∈ self.aggregations, e.op = AggregationOp.MIN ∨ e.op = AggregationOp.MAX)
    (hless : Comparison ops.less) (hgreater : Comparison ops.greater) :
    ((∀ a b, isNumeric a = true → isNumeric b = true → ∃ r, ops.less a b = .ok (.Bool r)) →
      (∀ a b, isNumeric a = true → isNumeric b = true → ∃ r, ops.greater a b = .ok (.Bool r)) →
      (∀ f ∈ inputFrames input frame, ∀ e ∈ self.aggregations, ∀ expr, e.value = some expr →
        isNull (expr f) = true ∨ isNumeric (expr f) = true) →
      ∃ b s, AggregateCursor.Pull ops self (AggregateCursor.init input) frame = .ok b s) ∧
    ((∀ a b, isString a = true → isString b = true → ∃ r, ops.less a b = .ok (.Bool r)) →
      (∀ a b, isString a = true → isString b = true → ∃ r, ops.greater a b = .ok (.Bool r)) →
      (∀ f ∈ inputFrames input frame, ∀ e ∈ self.aggregations, ∀ expr, e.value = some expr →
        isNull (expr f) = true ∨ isString (expr f) = true) →
      ∃ b s, AggregateCursor.Pull ops self (AggregateCursor.init input) frame = .ok b s) ∧
    ((∃ f ∈ inputFrames input frame, ∃ e ∈ self.aggregations, ∃ expr, e.value = some expr ∧
        isNull (expr f) = false ∧ isOkForMinMax (expr f) = false) →
      AggregateCursor.Pull ops self (AggregateCursor.init input) frame =
        .raised .QueryRuntimeException) ∧
    ((∀ a b, ops.less (.Bool a) (.Bool b) = .error .TypedValueException) →
      (∀ a b, ops.greater (.Bool a) (.Bool b) = .error .TypedValueException) →
      ∀ e expr t1 t2 rest a b, self.aggregations = [e] → self.group_by = [] →
        e.value = some expr → input = t1 :: t2 :: rest →
        expr (t1 frame) = .Bool a → expr (t2 (t1 frame)) = .Bool b →
        EnsureOkForMinMax (expr (t1 frame)) = .ok () ∧
        EnsureOkForMinMax (expr (t2 (t1 frame))) = .ok () ∧
        AggregateCursor.Pull ops self (AggregateCursor.init input) frame =
          .raised .QueryRuntimeException) := by
  refine ⟨?_, ?_, ?_, ?_⟩
  · intro hl hg hin
    exact AggregateCursor_kind_ok ops self input frame isNumeric hops
      (fun a ha => by cases a <;> simp [isNumeric] at ha <;> rfl) hl hg hin
  · intro hl hg hin
    exact AggregateCursor_kind_ok ops self input frame isString hops
      (fun a ha => by cases a <;> simp [isString] at ha; rfl) hl hg hin
  · rintro ⟨f, hf, e, he, expr, hval, hnull, hbad⟩
    apply AggregateCursor_pull_raises_input
    exact processInput_raises_somewhere ops self .QueryRuntimeException
      (fun _ _ => (trivial : (fun (_ : AggregateElement D) (_ : Int) (_ : TypedValue D) => True)
        _ _ _)) input frame []
      (fun _ _ _ _ _ _ _ _ _ _ => trivial)
      (fun g _ e1 he1 c v _ =>
        updateElement_minmax_cases ops g hless hgreater e1 c v (hops e1 he1))
      ⟨f, hf, e, he, fun c v _ =>
        updateElement_minmax_bad ops f e c v expr hval hnull hbad (hops e he)⟩
      (fun g hg => by cases hg)
  · intro hlb hgb e expr t1 t2 rest a b hagg hgroup hval hin h1 h2
    have hop := hops e (by rw [hagg]; exact List.mem_cons_self _ _)
    refine ⟨by rw [h1]; rfl, by rw [h2]; rfl, ?_⟩
    apply AggregateCursor_pull_raises_input
    have hn1 : isNull (expr (t1 frame)) = false := by rw [h1]; rfl
    have hn2 : isNull (expr (t2 (t1 frame))) = false := by rw [h2]; rfl
    have hu1 : updateElement ops (t1 frame) e 0 (DefaultAggregationOpValue e) =
        .ok (1, .Bool a) := by
      rw [updateElement_minmax_first ops _ e 0 _ expr hval hn1 hop (by decide), h1]
      rfl
    have hu2 : updateElement ops (t2 (t1 frame)) e 1 (.Bool a) =
        .error .QueryRuntimeException := by
      rcases hop with hop | hop
      · rw [updateElement_min_later ops _ e 1 _ expr hval hn2 hop (by decide), h2,
          replaceWhen_raises ops.less (.Bool a) (.Bool b) rfl (hlb b a)]
        rfl
      · rw [updateElement_max_later ops _ e 1 _ expr hval hn2 hop (by decide), h2,
          replaceWhen_raises ops.greater (.Bool a) (.Bool b) rfl (hgb b a)]
        rfl
    rw [hin]
    simp [processInput, AggregateCursor.ProcessOne, processGroup, AggregateCursor.Update,
      EnsureInitialized, hagg, hgroup, updateAll, hu1, hu2, TypedValueVectorEqual]

theorem AggregateCursor_min_max_types_witness :
    (∃ b s, AggregateCursor.Pull documentedOps sampleMin
      (AggregateCursor.init (sampleTuples [.Int 5, .Null, .Double 2])) sampleFrame = .ok b s) ∧
    AggregateCursor.Pull documentedOps sampleMin
      (AggregateCursor.init (sampleTuples [.Int 5, .List []])) sampleFrame =
        .raised .QueryRuntimeException ∧
    AggregateCursor.Pull documentedOps sampleMin
      (AggregateCursor.init (sampleTuples [.Bool true, .Bool false])) sampleFrame =
        .raised .QueryRuntimeException := by
  have hl : Comparison documentedOps.less := by
    intro a b
    cases a <;> cases b <;>
      first
      | exact Or.inl ⟨_, rfl⟩
      | exact Or.inr (Or.inl rfl)
      | exact Or.inr (Or.inr rfl)
  have hg : Comparison documentedOps.greater := by
    intro a b
    cases a <;> cases b <;>
      first
      | exact Or.inl ⟨_, rfl⟩
      | exact Or.inr (Or.inl rfl)
      | exact Or.inr (Or.inr rfl)
  refine ⟨?_, ?_, ?_⟩
  · refine (AggregateCursor_min_max_types documentedOps sampleMin
      (sampleTuples [.Int 5, .Null, .Double 2]) sampleFrame (by decide) hl hg).1 ?_ ?_ ?_
    · intro a b ha hb
      cases a <;> cases b <;> simp [isNumeric] at ha hb <;> exact ⟨_, rfl⟩
    · intro a b ha hb
      cases a <;> cases b <;> simp [isNumeric] at ha hb <;> exact ⟨_, rfl⟩
    · intro f hf e he expr hval
      simp only [sampleMin, List.mem_singleton] at he
      simp only [sampleTuples, inputFrames, List.map, List.mem_cons, List.mem_singleton,
        List.not_mem_nil, or_false] at hf
      rw [he] at hval
      cases hval
      rcases hf with hf | hf | hf <;> rw [hf] <;> simp [Frame.set, isNull, isNumeric]
  · exact (AggregateCursor_min_max_types documentedOps sampleMin
      (sampleTuples [.Int 5, .List []]) sampleFrame (by decide) hl hg).2.2.1
      ⟨(sampleFrame.set 0 (.Int 5)).set 0 (.List []), by simp [sampleTuples, inputFrames],
        ⟨some (fun f => f 0), none, .MIN, 10⟩, by simp [sampleMin], fun f => f 0, rfl, rfl, rfl⟩
  · exact ((AggregateCursor_min_max_types documentedOps sampleMin
      (sampleTuples [.Bool true, .Bool false]) sampleFrame (by decide) hl hg).2.2.2
      (fun _ _ => rfl) (fun _ _ => rfl) ⟨some (fun f => f 0), none, .MIN, 10⟩ (fun f => f 0)
      _ _ [] true false rfl rfl rfl rfl rfl rfl).2.2

/-! ### The position of a key in the cache -/

mutual
theorem BoolEqual_refl {D : Type} [DecidableEq D] [IntCast D] :
    ∀ a : TypedValue D, BoolEqual a a = true
  | .Null => by simp [BoolEqual]
  | .Bool _ => by simp [BoolEqual]
  | .Int _ => by simp [BoolEqual]
  | .Double _ => by simp [BoolEqual]
  | .String _ => by simp [BoolEqual]
  | .List l => by
    rw [BoolEqual]
    exact BoolEqual_list_refl l
  | .Map m => by
    rw [BoolEqual]
    exact BoolEqual_map_refl m
  | .Vertex _ => by simp [BoolEqual]
  | .Edge _ => by simp [BoolEqual]
  | .Path _ _ => by simp [BoolEqual]

theorem BoolEqual_list_refl {D : Type} [DecidableEq D] [IntCast D] :
    ∀ l : List (TypedValue D), BoolEqual.list l l = true
  | [] => by simp [BoolEqual.list]
  | a :: l => by
    rw [BoolEqual.list]
    simp [BoolEqual_refl a, BoolEqual_list_refl l]

theorem BoolEqual_map_refl {D : Type} [DecidableEq D] [IntCast D] :
    ∀ m : List (String × TypedValue D), BoolEqual.map m m = true
  | [] => by simp [BoolEqual.map]
  | (k, a) :: m => by
    rw [BoolEqual.map]
    simp [BoolEqual_refl a, BoolEqual_map_refl m]
end
mutual
theorem BoolEqual_symm {D : Type} [DecidableEq D] [IntCast D] :
    ∀ a b : TypedValue D, BoolEqual a b = true → BoolEqual b a = true
  | .Null, b, h => by cases b <;> simp_all [BoolEqual]
  | .Bool _, b, h => by cases b <;> simp_all [BoolEqual]
  | .Int _, b, h => by
    cases b <;> simp_all [BoolEqual]
  | .Double _, b, h => by
    cases b <;> simp_all [BoolEqual]
  | .String _, b, h => by cases b <;> simp_all [BoolEqual]
  | .List l, b, h => by
    cases b with
    | List r =>
      rw [BoolEqual] at h ⊢
      exact BoolEqual_list_symm l r h
    | _ => simp [BoolEqual] at h
  | .Map m, b, h => by
    cases b with
    | Map n =>
      rw [BoolEqual] at h ⊢
      exact BoolEqual_map_symm m n h
    | _ => simp [BoolEqual] at h
  | .Vertex _, b, h => by cases b <;> simp_all [BoolEqual]
  | .Edge _, b, h => by cases b <;> simp_all [BoolEqual]
  | .Path _ _, b, h => by cases b <;> simp_all [BoolEqual]

theorem BoolEqual_list_symm {D : Type} [DecidableEq D] [IntCast D] :
    ∀ l r : List (TypedValue D), BoolEqual.list l r = true → BoolEqual.list r l = true
  | [], r, h => by cases r <;> simp_all [BoolEqual.list]
  | a :: l, r, h => by
    cases r with
    | nil => simp [BoolEqual.list] at h
    | cons b r =>
      rw [BoolEqual.list] at h ⊢
      simp only [Bool.and_eq_true] at h ⊢
      exact ⟨BoolEqual_symm a b h.1, BoolEqual_list_symm l r h.2⟩

theorem BoolEqual_map_symm {D : Type} [DecidableEq D] [IntCast D] :
    ∀ m n : List (String × TypedValue D), BoolEqual.map m n = true → BoolEqual.map n m = true
  | [], n, h => by cases n <;> simp_all [BoolEqual.map]
  | (k, a) :: m, n, h => by
    cases n with
    | nil => simp [BoolEqual.map] at h
    | cons e n =>
      obtain ⟨k1, b⟩ := e
      rw [BoolEqual.map] at h ⊢
      simp only [Bool.and_eq_true, decide_eq_true_eq] at h ⊢
      exact ⟨⟨h.1.1.symm, BoolEqual_symm a b h.1.2⟩, BoolEqual_map_symm m n h.2⟩
end

mutual
theorem BoolEqual_trans {D : Type} [DecidableEq D] [IntCast D]
    (hcast : Function.Injective (Int.cast : Int → D)) :
    ∀ a b c : TypedValue D, BoolEqual a b = true → BoolEqual b c = true →
      BoolEqual a c = true
  | .Null, b, c, h1, h2 => by cases b <;> cases c <;> simp_all [BoolEqual]
  | .Bool _, b, c, h1, h2 => by cases b <;> cases c <;> simp_all [BoolEqual]
  | .Int x, b, c, h1, h2 => by
    cases b with
    | Int y => cases c <;> simp_all [BoolEqual]
    | Double y =>
      cases c with
      | Int z =>
        simp only [BoolEqual, decide_eq_true_eq] at h1 h2 ⊢
        exact hcast (h1.trans h2)
      | Double z =>
        simp only [BoolEqual, decide_eq_true_eq] at h1 h2 ⊢
        exact h1.trans h2
      | _ => simp [BoolEqual] at h2
    | _ => simp [BoolEqual] at h1
  | .Double _, b, c, h1, h2 => by cases b <;> cases c <;> simp_all [BoolEqual]
  | .String _, b, c, h1, h2 => by cases b <;> cases c <;> simp_all [BoolEqual]
  | .List l, b, c, h1, h2 => by
    cases b with
    | List r =>
      cases c with
      | List t =>
        rw [BoolEqual] at h1 h2 ⊢
        exact BoolEqual_list_trans hcast l r t h1 h2
      | _ => simp [BoolEqual] at h2
    | _ => simp [BoolEqual] at h1
  | .Map m, b, c, h1, h2 => by
    cases b with
    | Map n =>
      cases c with
      | Map t =>
        rw [BoolEqual] at h1 h2 ⊢
        exact BoolEqual_map_trans hcast m n t h1 h2
      | _ => simp [BoolEqual] at h2
    | _ => simp [BoolEqual] at h1
  | .Vertex _, b, c, h1, h2 => by cases b <;> cases c <;> simp_all [BoolEqual]
  | .Edge _, b, c, h1, h2 => by cases b <;> cases c <;> simp_all [BoolEqual]
  | .Path _ _, b, c, h1, h2 => by cases b <;> cases c <;> simp_all [BoolEqual]

theorem BoolEqual_list_trans {D : Type} [DecidableEq D] [IntCast D]
    (hcast : Function.Injective (Int.cast : Int → D)) :
    ∀ l r t : List (TypedValue D), BoolEqual.list l r = true → BoolEqual.list r t = true →
      BoolEqual.list l t = true
  | [], r, t, h1, h2 => by cases r <;> cases t <;> simp_all [BoolEqual.list]
  | a :: l, r, t, h1, h2 => by
    cases r with
    | nil => simp [BoolEqual.list] at h1
    | cons b r =>
      cases t with
      | nil => simp [BoolEqual.list] at h2
      | cons c t =>
        rw [BoolEqual.list] at h1 h2 ⊢
        simp only [Bool.and_eq_true] at h1 h2 ⊢
        exact ⟨BoolEqual_trans hcast a b c h1.1 h2.1, BoolEqual_list_trans hcast l r t h1.2 h2.2⟩

theorem BoolEqual_map_trans {D : Type} [DecidableEq D] [IntCast D]
    (hcast : Function.Injective (Int.cast : Int → D)) :
    ∀ m n t : List (String × TypedValue D), BoolEqual.map m n = true →
      BoolEqual.map n t = true → BoolEqual.map m t = true
  | [], n, t, h1, h2 => by cases n <;> cases t <;> simp_all [BoolEqual.map]
  | (k, a) :: m, n, t, h1, h2 => by
    cases n with
    | nil => simp [BoolEqual.map] at h1
    | cons e n =>
      cases t with
      | nil =>
        obtain ⟨k1, b⟩ := e
        simp [BoolEqual.map] at h2
      | cons e2 t =>
        obtain ⟨k1, b⟩ := e
        obtain ⟨k2, c⟩ := e2
        rw [BoolEqual.map] at h1 h2 ⊢
        simp only [Bool.and_eq_true, decide_eq_true_eq] at h1 h2 ⊢
        exact ⟨⟨h1.1.1.trans h2.1.1, BoolEqual_trans hcast a b c h1.1.2 h2.1.2⟩,
          BoolEqual_map_trans hcast m n t h1.2 h2.2⟩
end
/-- What the specification says of `BoolEqual`: null equals null and nothing else,
an integer equals a double of the same value, and two lists are equal exactly
when they are element-wise equal. -/
theorem BoolEqual_documented {D : Type} [DecidableEq D] [IntCast D] :
    BoolEqual (D := D) .Null .Null = true ∧
    (∀ b : TypedValue D, BoolEqual .Null b = true → b = .Null) ∧
    (∀ a : TypedValue D, BoolEqual a .Null = true → a = .Null) ∧
    (∀ (x : Int) (y : D), BoolEqual (.Int x) (.Double y) = decide ((x : D) = y)) ∧
    (∀ (x : D) (y : Int), BoolEqual (.Double x) (.Int y) = decide (x = (y : D))) ∧
    (∀ l r : List (TypedValue D),
      BoolEqual (.List l) (.List r) = true ↔ List.Forall₂ (fun a b => BoolEqual a b = true) l r) := by
  refine ⟨by simp [BoolEqual], fun b h => ?_, fun a h => ?_, fun x y => by simp [BoolEqual],
    fun x y => by simp [BoolEqual], fun l r => ?_⟩
  · cases b <;> simp_all [BoolEqual]
  · cases a <;> simp_all [BoolEqual]
  · rw [BoolEqual]
    induction l generalizing r with
    | nil => cases r <;> simp [BoolEqual.list]
    | cons a l ih =>
      cases r with
      | nil => simp [BoolEqual.list]
      | cons b r =>
        rw [BoolEqual.list]
        simp only [Bool.and_eq_true, List.forall₂_cons, ih]

/-! ### The equality of key vectors and the specification's element-wise equality -/

theorem pendingEdges_cons (edges_ edges_it_ : Option (List EdgeAccessor)) (e : EdgeAccessor)
    (rest : List EdgeAccessor) (h : pendingEdges edges_ edges_it_ = e :: rest) :
    pendingEdges edges_ (some rest) = rest := by
  cases edges_ with
  | none => simp [pendingEdges] at h
  | some l => rfl

theorem expandRowsFor_getLastD {D : Type} (self : ExpandOperator) (frame : Frame D)
    (e : EdgeAccessor) (n : VertexAccessor) (pairs : List (EdgeAccessor × VertexAccessor)) :
    (expandRowsFor self frame ((e, n) :: pairs)).getLastD frame =
      (expandRowsFor self
        ((frame.set self.common_.edge_symbol (.Edge e)).set self.common_.node_symbol (.Vertex n))
        pairs).getLastD
        ((frame.set self.common_.edge_symbol (.Edge e)).set self.common_.node_symbol
          (.Vertex n)) := by
  simp only [expandRowsFor]
  cases expandRowsFor self
    ((frame.set self.common_.edge_symbol (.Edge e)).set self.common_.node_symbol (.Vertex n))
    pairs <;> rfl

/-- The rows a cursor has yet to emit when the next expansion is known. -/
theorem restRows_cons {D : Type} (self : ExpandOperator) (g : Graph) (cur cur1 : ExpandCursor D)
    (frame : Frame D) (e : EdgeAccessor) (n : VertexAccessor)
    (hpairs : pendingPairs cur = (e, n) :: pendingPairs cur1)
    (hinput : cur1.input_cursor = cur.input_cursor) :
    restRows self g cur frame =
      ((frame.set self.common_.edge_symbol (.Edge e)).set self.common_.node_symbol (.Vertex n)) ::
        restRows self g cur1
          ((frame.set self.common_.edge_symbol (.Edge e)).set self.common_.node_symbol
            (.Vertex n)) := by
  unfold restRows
  rw [hpairs, expandRowsFor_getLastD, hinput]
  simp only [expandRowsFor, List.cons_append]

theorem initSide_new {D : Type} (self : ExpandOperator) (frame : Frame D)
    (edges_ edges_it_ : Option (List EdgeAccessor)) (all : List EdgeAccessor)
    (towards : VertexAccessor → List EdgeAccessor) (hnew : self.common_.existing_node = false) :
    initSide self frame edges_ edges_it_ all towards = .ok (some all, some all) := by
  simp [initSide, hnew]

/-- `InitEdges` of an expansion in both directions to a new node: it returns false
at the end of an input without source vertices, and otherwise stops at the first
tuple with a source vertex, with the two iterators at the begin of its edges. -/
theorem InitEdges_spec {D : Type} (self : ExpandOperator) (g : Graph)
    (hdir : self.common_.direction = Direction.BOTH)
    (hnew : self.common_.existing_node = false) (input : List (Frame D → Frame D)) :
    ∀ (cur : ExpandCursor D) (frame : Frame D),
      (∀ t ∈ input, ∀ f, isVertexOrNull (t f self.input_symbol) = true) →
      (∃ frame1, ExpandCursor.InitEdges self g input cur frame =
          .ok (false, { cur with input_cursor := [] }, frame1) ∧
        expandRows self g input frame = []) ∨
      (∃ cur1 frame1, ExpandCursor.InitEdges self g input cur frame = .ok (true, cur1, frame1) ∧
        cur1.input_cursor.length < input.length ∧
        (∀ t ∈ cur1.input_cursor, ∀ f, isVertexOrNull (t f self.input_symbol) = true) ∧
        (pendingEdges cur1.out_edges_ cur1.out_edges_it_).length ≤ g.edges.length ∧
        restRows self g cur1 frame1 = expandRows self g input frame) := by
  induction input with
  | nil =>
    intro cur frame _
    exact Or.inl ⟨frame, rfl, rfl⟩
  | cons t rest ih =>
    intro cur frame hv
    have hrest : ∀ t ∈ rest, ∀ f, isVertexOrNull (t f self.input_symbol) = true :=
      fun x hx => hv x (List.mem_cons_of_mem _ hx)
    have hhead := hv t (List.mem_cons_self _ _) frame
    cases hval : t frame self.input_symbol with
    | Null =>
      rcases ih cur (t frame) hrest with ⟨frame1, h1, h2⟩ | ⟨cur1, frame1, h1, h2, h3, h4, h5⟩
      · refine Or.inl ⟨frame1, ?_, ?_⟩
        · simp only [ExpandCursor.InitEdges, hval, h1]
        · simp only [expandRows, hval, h2]
      · refine Or.inr ⟨cur1, frame1, ?_, ?_, h3, h4, ?_⟩
        · simp only [ExpandCursor.InitEdges, hval, h1]
        · simp only [List.length_cons]; omega
        · simp only [expandRows, hval, h5]
    | Vertex v =>
      refine Or.inr ⟨⟨rest, some (InEdges g v self.common_.edge_types),
        some (InEdges g v self.common_.edge_types), some (OutEdges g v self.common_.edge_types),
        some (OutEdges g v self.common_.edge_types)⟩, t frame, ?_, ?_, hrest, ?_, ?_⟩
      · simp [ExpandCursor.InitEdges, hval, hdir, initSide_new self _ _ _ _ _ hnew]
      · simp
      · simp only [pendingEdges, OutEdges]
        exact List.length_filter_le _ _
      · simp only [restRows, pendingPairs, pendingEdges, expandRows, hval, expansionOf]
    | Bool b => rw [hval] at hhead; simp [isVertexOrNull] at hhead
    | Int i => rw [hval] at hhead; simp [isVertexOrNull] at hhead
    | Double d => rw [hval] at hhead; simp [isVertexOrNull] at hhead
    | String s => rw [hval] at hhead; simp [isVertexOrNull] at hhead
    | List l => rw [hval] at hhead; simp [isVertexOrNull] at hhead
    | Map m => rw [hval] at hhead; simp [isVertexOrNull] at hhead
    | Edge e => rw [hval] at hhead; simp [isVertexOrNull] at hhead
    | Path s es => rw [hval] at hhead; simp [isVertexOrNull] at hhead

/-- One `Pull` of an expansion in both directions to a new node, with enough fuel:
it emits the first of the rows the cursor has yet to emit, or returns false when
there is none. -/
theorem ExpandCursor_pull_spec {D : Type} (self : ExpandOperator) (g : Graph)
    (context : ExecutionContext) (hdir : self.common_.direction = Direction.BOTH)
    (hnew : self.common_.existing_node = false) (habort : context.must_abort = false)
    (fuel : Nat) :
    ∀ (cur : ExpandCursor D) (frame : Frame D), expandMeasure g cur < fuel →
      (∀ t ∈ cur.input_cursor, ∀ f, isVertexOrNull (t f self.input_symbol) = true) →
      ∃ b cur1 frame1, ExpandCursor.Pull self g context fuel cur frame = .ok b (cur1, frame1) ∧
        expandMeasure g cur1 ≤ expandMeasure g cur ∧
        (∀ t ∈ cur1.input_cursor, ∀ f, isVertexOrNull (t f self.input_symbol) = true) ∧
        ((b = true ∧ restRows self g cur frame = frame1 :: restRows self g cur1 frame1) ∨
         (b = false ∧ restRows self g cur frame = [] ∧ restRows self g cur1 frame1 = [])) := by
  induction fuel with
  | zero => intro cur frame h _; exact absurd h (Nat.not_lt_zero _)
  | succ fuel ih =>
    intro cur frame hm hv
    have hab : MustAbort context = false := habort
    cases hin : pendingEdges cur.in_edges_ cur.in_edges_it_ with
    | cons e remaining =>
      have hpend := pendingEdges_cons _ _ e remaining hin
      refine ⟨true, { cur with in_edges_it_ := some remaining },
        (frame.set self.common_.edge_symbol (.Edge e)).set self.common_.node_symbol
          (.Vertex e.From), ?_, ?_, hv, Or.inl ⟨rfl, ?_⟩⟩
      · simp [ExpandCursor.Pull, ExpandCursor.Body, hab, hin, pull_node, hnew]
      · exact Nat.le_refl _
      · apply restRows_cons
        · simp only [pendingPairs, hin, hpend, List.map_cons, List.cons_append]
        · rfl
    | nil =>
      cases hout : pendingEdges cur.out_edges_ cur.out_edges_it_ with
      | cons e remaining =>
        have hpend := pendingEdges_cons _ _ e remaining hout
        by_cases hcycle : e.IsCycle = true
        · have hm1 : expandMeasure g { cur with out_edges_it_ := some remaining } < fuel := by
            simp only [expandMeasure, hpend]
            simp only [expandMeasure, hout, List.length_cons] at hm
            omega
          obtain ⟨b, cur1, frame1, hp, hle, hv1, hrows⟩ :=
            ih { cur with out_edges_it_ := some remaining } frame hm1 hv
          have hrest : restRows self g { cur with out_edges_it_ := some remaining } frame =
              restRows self g cur frame := by
            simp only [restRows, pendingPairs, hin, hout, hpend, List.filter_cons, hcycle,
              Bool.not_true, Bool.false_eq_true, if_false]
          refine ⟨b, cur1, frame1, ?_, ?_, hv1, ?_⟩
          · simp only [ExpandCursor.Pull, ExpandCursor.Body, hab, Bool.false_eq_true, if_false,
              hin, hout, hdir, hcycle, and_self, if_true]
            exact hp
          · refine Nat.le_trans hle ?_
            simp only [expandMeasure, hpend, hout, List.length_cons]
            omega
          · rw [← hrest]
            exact hrows
        · have hcyc : e.IsCycle = false := by
            cases h : e.IsCycle with
            | true => exact absurd h hcycle
            | false => rfl
          refine ⟨true, { cur with out_edges_it_ := some remaining },
            (frame.set self.common_.edge_symbol (.Edge e)).set self.common_.node_symbol
              (.Vertex e.To), ?_, ?_, hv, Or.inl ⟨rfl, ?_⟩⟩
          · simp [ExpandCursor.Pull, ExpandCursor.Body, hab, hin, hout, hcyc, pull_node, hnew]
          · simp only [expandMeasure, hpend, hout, List.length_cons]
            omega
          · apply restRows_cons
            · simp only [pendingPairs, hin, hout, hpend, List.filter_cons, hcyc, Bool.not_false,
                if_true, List.map_cons, List.map_nil, List.nil_append]
            · rfl
      | nil =>
        have hrows0 : restRows self g cur frame = expandRows self g cur.input_cursor frame := by
          simp only [restRows, pendingPairs, hin, hout, List.filter_nil, List.map_nil,
            List.append_nil, expandRowsFor, List.nil_append, List.getLastD_nil]
        rcases InitEdges_spec self g hdir hnew cur.input_cursor cur frame hv with
          ⟨frame1, h1, h2⟩ | ⟨cur1, frame1, h1, h2, h3, h4, h5⟩
        · refine ⟨false, { cur with input_cursor := [] }, frame1, ?_, ?_, ?_,
            Or.inr ⟨rfl, ?_, ?_⟩⟩
          · simp only [ExpandCursor.Pull, ExpandCursor.Body, hab, Bool.false_eq_true, if_false,
              hin, hout, h1]
          · simp only [expandMeasure, List.length_nil, Nat.zero_mul, Nat.add_zero]
            omega
          · intro t ht; cases ht
          · rw [hrows0, h2]
          · simp only [restRows, pendingPairs, hin, hout, List.filter_nil, List.map_nil,
              List.append_nil, expandRowsFor, expandRows]
        · have hlt : expandMeasure g cur1 < expandMeasure g cur := by
            simp only [expandMeasure, hout, List.length_nil, Nat.zero_add]
            have : (cur1.input_cursor.length + 1) * (g.edges.length + 1) ≤
                cur.input_cursor.length * (g.edges.length + 1) :=
              Nat.mul_le_mul_right _ h2
            rw [Nat.add_mul, Nat.one_mul] at this
            omega
          obtain ⟨b, cur2, frame2, hp, hle, hv2, hrows⟩ := ih cur1 frame1 (by omega) h3
          refine ⟨b, cur2, frame2, ?_, by omega, hv2, ?_⟩
          · simp only [ExpandCursor.Pull, ExpandCursor.Body, hab, Bool.false_eq_true, if_false,
              hin, hout, h1]
            exact hp
          · rw [hrows0, ← h5]
            exact hrows

/-- The log of an expansion in both directions to a new node. -/
theorem ExpandCursor_log {D : Type} (self : ExpandOperator) (g : Graph)
    (context : ExecutionContext) (hdir : self.common_.direction = Direction.BOTH)
    (hnew : self.common_.existing_node = false) (habort : context.must_abort = false)
    (fuel : Nat) (k : Nat) :
    ∀ (cur : ExpandCursor D) (frame : Frame D), expandMeasure g cur < fuel →
      (∀ t ∈ cur.input_cursor, ∀ f, isVertexOrNull (t f self.input_symbol) = true) →
      pullLog (ExpandCursor.Pull self g context fuel) k cur frame =
        rowsThenDone (restRows self g cur frame) k := by
  induction k with
  | zero => intro cur frame _ _; rw [rowsThenDone_zero]; rfl
  | succ k ih =>
    intro cur frame hm hv
    obtain ⟨b, cur1, frame1, hp, hle, hv1, hrows⟩ :=
      ExpandCursor_pull_spec self g context hdir hnew habort fuel cur frame hm hv
    rcases hrows with ⟨hb, hr⟩ | ⟨hb, hr, hr1⟩
    · rw [hb] at hp
      rw [pullLog_row _ k _ _ _ _ hp, ih cur1 frame1 (by omega) hv1, hr, rowsThenDone_cons]
    · rw [hb] at hp
      rw [pullLog_done _ k _ _ _ _ hp, ih cur1 frame1 (by omega) hv1, hr, hr1, rowsThenDone_nil]

/-! ### Claim about the expansion in both directions -/

theorem expandRowsFor_values {D : Type} (self : ExpandOperator)
    (hsym : self.common_.edge_symbol ≠ self.common_.node_symbol)
    (pairs : List (EdgeAccessor × VertexAccessor)) :
    ∀ frame : Frame D,
      (expandRowsFor self frame pairs).map
          (fun row => (row self.common_.edge_symbol, row self.common_.node_symbol)) =
        pairs.map (fun p => (TypedValue.Edge p.1, TypedValue.Vertex p.2)) := by
  induction pairs with
  | nil => intro frame; rfl
  | cons p pairs ih =>
    intro frame
    obtain ⟨e, n⟩ := p
    simp only [expandRowsFor, List.map_cons, ih]
    congr 1
    simp only [Frame.set, if_neg hsym, if_true]

theorem count_filter_nodup (l : List EdgeAccessor) (p : EdgeAccessor → Bool) (e : EdgeAccessor)
    (hnd : l.Nodup) (he : e ∈ l) : (l.filter p).count e = if p e = true then 1 else 0 := by
  by_cases hp : p e = true
  · rw [if_pos hp, List.count_filter hp]
    exact List.count_eq_one_of_mem hnd he
  · rw [if_neg hp]
    apply List.count_eq_zero_of_not_mem
    intro hmem
    exact hp (List.mem_filter.mp hmem).2

theorem expansionOf_edges (self : ExpandOperator) (g : Graph) (vertex : VertexAccessor) :
    (expansionOf self g vertex).map Prod.fst =
      g.edges.filter (fun e => decide (e.To = vertex) && typeOk self.common_.edge_types e) ++
        g.edges.filter (fun e => (decide (e.From = vertex) && typeOk self.common_.edge_types e) &&
          !e.IsCycle) := by
  simp only [expansionOf, InEdges, OutEdges, List.map_append, List.map_map, List.filter_filter]
  congr 1
  · exact List.map_id _
  · rw [show (Prod.fst ∘ fun e : EdgeAccessor => (e, e.To)) = id from rfl, List.map_id]
    congr 1
    funext e
    exact Bool.and_comm _ _

/-- In an expansion in both directions every incident edge of an admitted type
occurs exactly once. -/
theorem expansionOf_count (self : ExpandOperator) (g : Graph) (vertex : VertexAccessor)
    (e : EdgeAccessor) (hnd : g.edges.Nodup) (he : e ∈ g.edges)
    (htype : typeOk self.common_.edge_types e = true)
    (hinc : e.From = vertex ∨ e.To = vertex) :
    ((expansionOf self g vertex).map Prod.fst).count e = 1 := by
  rw [expansionOf_edges, List.count_append, count_filter_nodup _ _ e hnd he,
    count_filter_nodup _ _ e hnd he]
  simp only [htype, Bool.and_true, EdgeAccessor.IsCycle, decide_eq_true_eq,
    Bool.and_eq_true, Bool.not_eq_true', decide_eq_false_iff_not]
  by_cases hto : e.To = vertex
  · by_cases hfrom : e.From = vertex
    · simp [hto, hfrom]
    · simp [hto, hfrom]
  · rcases hinc with hfrom | h
    · have hne : ¬ e.From = e.To := by rw [hfrom]; exact fun h => hto h.symm
      have hne1 : ¬ vertex = e.To := fun h => hto h.symm
      simp [hto, hfrom, hne1]
    · exact absurd h hto

theorem expansionOf_mem (self : ExpandOperator) (g : Graph) (vertex : VertexAccessor)
    (p : EdgeAccessor × VertexAccessor) (hp : p ∈ expansionOf self g vertex) :
    p.1 ∈ g.edges ∧ typeOk self.common_.edge_types p.1 = true ∧
      ((p.1.To = vertex ∧ p.2 = p.1.From) ∨
        (p.1.From = vertex ∧ p.1.From ≠ p.1.To ∧ p.2 = p.1.To)) := by
  simp only [expansionOf, InEdges, OutEdges, List.mem_append, List.mem_map, List.mem_filter,
    Bool.and_eq_true, decide_eq_true_eq, EdgeAccessor.IsCycle, Bool.not_eq_true',
    decide_eq_false_iff_not] at hp
  rcases hp with ⟨e, ⟨he, hto, hty⟩, hpe⟩ | ⟨e, ⟨⟨he, hfrom, hty⟩, hne⟩, hpe⟩
  · rw [← hpe]
    exact ⟨he, hty, Or.inl ⟨hto, rfl⟩⟩
  · rw [← hpe]
    exact ⟨he, hty, Or.inr ⟨hfrom, hne, rfl⟩⟩

/-- C20. Let an `Expand` go in both directions to a node that is not bound yet, let
no abort be requested, and let every input tuple bind the input symbol to a vertex
or to null. With enough fuel, for every input sequence and every number `k` of
successive pulls, the cursor emits, for each input tuple with a source vertex in
turn, one row per in-edge of the vertex followed by one row per out-edge that is not
a self-loop, and returns false from then on. Each row binds the edge symbol to the
edge and the node symbol to the vertex at the other end. Among the edges of the rows
of one tuple every incident edge of an admitted type occurs exactly once, a
self-loop included (the storage holds no edge twice). -/
theorem ExpandCursor_both_emits_each_edge_once {D : Type} (self : ExpandOperator) (g : Graph)
    (context : ExecutionContext) (input : List (Frame D → Frame D)) (frame : Frame D)
    (fuel : Nat) (hdir : self.common_.direction = Direction.BOTH)
    (hnew : self.common_.existing_node = false) (habort : context.must_abort = false)
    (hvertex : ∀ t ∈ input, ∀ f, isVertexOrNull (t f self.input_symbol) = true)
    (hfuel : input.length * (g.edges.length + 1) < fuel) :
    (∀ k, pullLog (ExpandCursor.Pull self g context fuel) k (ExpandCursor.init input) frame =
      rowsThenDone (expandRows self g input frame) k) ∧
    (self.common_.edge_symbol ≠ self.common_.node_symbol →
      ∀ (f : Frame D) (pairs : List (EdgeAccessor × VertexAccessor)),
        (expandRowsFor self f pairs).map
            (fun row => (row self.common_.edge_symbol, row self.common_.node_symbol)) =
          pairs.map (fun p => (TypedValue.Edge p.1, TypedValue.Vertex p.2))) ∧
    (g.edges.Nodup → ∀ vertex e, e ∈ g.edges → typeOk self.common_.edge_types e = true →
      (e.From = vertex ∨ e.To = vertex) →
      ((expansionOf self g vertex).map Prod.fst).count e = 1) ∧
    (∀ vertex p, p ∈ expansionOf self g vertex →
      p.1 ∈ g.edges ∧ typeOk self.common_.edge_types p.1 = true ∧
        ((p.1.To = vertex ∧ p.2 = p.1.From) ∨
          (p.1.From = vertex ∧ p.1.From ≠ p.1.To ∧ p.2 = p.1.To))) := by
  refine ⟨?_, ?_, ?_, ?_⟩
  · intro k
    have h := ExpandCursor_log self g context hdir hnew habort fuel k (ExpandCursor.init input)
      frame (by simpa [expandMeasure, ExpandCursor.init, pendingEdges] using hfuel) hvertex
    rw [h]
    rfl
  · intro hsym f pairs
    exact expandRowsFor_values self hsym pairs f
  · intro hnd vertex e he htype hinc
    exact expansionOf_count self g vertex e hnd he htype hinc
  · intro vertex p hp
    exact expansionOf_mem self g vertex p hp

theorem ExpandCursor_both_emits_each_edge_once_witness :
    pullLog (ExpandCursor.Pull sampleExpandBoth loopGraph ⟨false⟩ 10) 5
        (ExpandCursor.init (sampleInput 0)) sampleFrame =
      [Outcome.row ((((sampleFrame.set 0 (.Vertex 0)).set 2 (.Edge ⟨0, 0, 0, 0⟩)).set 1
          (.Vertex 0))),
        Outcome.row ((((((sampleFrame.set 0 (.Vertex 0)).set 2 (.Edge ⟨0, 0, 0, 0⟩)).set 1
          (.Vertex 0)).set 2 (.Edge ⟨2, 1, 0, 0⟩)).set 1 (.Vertex 1))),
        Outcome.row ((((((((sampleFrame.set 0 (.Vertex 0)).set 2 (.Edge ⟨0, 0, 0, 0⟩)).set 1
          (.Vertex 0)).set 2 (.Edge ⟨2, 1, 0, 0⟩)).set 1 (.Vertex 1)).set 2
          (.Edge ⟨1, 0, 1, 0⟩)).set 1 (.Vertex 1))),
        Outcome.done, Outcome.done] ∧
    ((expansionOf sampleExpandBoth loopGraph 0).map Prod.fst).count ⟨0, 0, 0, 0⟩ = 1 :=
  ⟨(ExpandCursor_both_emits_each_edge_once sampleExpandBoth loopGraph ⟨false⟩ (sampleInput 0)
      sampleFrame 10 rfl rfl rfl
      (by
        intro t ht f
        simp only [sampleInput, List.mem_singleton] at ht
        rw [ht]
        rfl)
      (by decide)).1 5,
   (ExpandCursor_both_emits_each_edge_once sampleExpandBoth loopGraph ⟨false⟩ (sampleInput 0)
      sampleFrame 10 rfl rfl rfl
      (by
        intro t ht f
        simp only [sampleInput, List.mem_singleton] at ht
        rw [ht]
        rfl)
      (by decide)).2.2.1 (by decide) 0 ⟨0, 0, 0, 0⟩ (by decide) rfl (Or.inl rfl)⟩

/-! ### `EdgeUniquenessFilter` -/

theorem compare_to_list_edge {D : Type} (x : EdgeAccessor) :
    ∀ list : List (TypedValue D), isEdges (.List list) = true →
      compare_to_list list (.Edge x) = .ok ((edgesOf (.List list)).contains x) := by
  intro list
  induction list with
  | nil => intro _; rw [compare_to_list]; rfl
  | cons tv rest ih =>
    intro h
    simp only [isEdges, List.all_cons, Bool.and_eq_true] at h
    have hrest : isEdges (TypedValue.List rest) = true := h.2
    cases tv with
    | Edge y =>
      rw [compare_to_list, ContainsSameEdge.eq_3]
      simp only [edgesOf, List.filterMap_cons, List.contains_cons]
      by_cases hxy : y = x
      · subst hxy
        simp
      · have hne : (x == y) = false := by
          simp only [beq_eq_false_iff_ne, ne_eq]
          exact fun h => hxy h.symm
        simp only [hxy, decide_False, hne, Bool.false_or]
        exact ih hrest
    | _ => simp at h

theorem ContainsSameEdge_edge {D : Type} (x : EdgeAccessor) (b : TypedValue D)
    (hb : isEdges b = true) :
    ContainsSameEdge (.Edge x) b = .ok ((containedEdges b).contains x) := by
  cases b with
  | Edge y =>
    rw [ContainsSameEdge.eq_3]
    simp only [containedEdges, List.contains_cons, List.contains_nil, Bool.or_false]
    by_cases hxy : x = y
    · subst hxy; simp
    · simp [hxy]
  | List list =>
    rw [ContainsSameEdge.eq_2 _ _ (fun l h => by cases h), compare_to_list_edge x list hb]
    rfl
  | _ => simp [isEdges] at hb

theorem compare_to_list_edges {D : Type} (b : TypedValue D) (hb : isEdges b = true) :
    ∀ list : List (TypedValue D), isEdges (.List list) = true →
      compare_to_list list b =
        .ok ((edgesOf (.List list)).any (fun e => (containedEdges b).contains e)) := by
  intro list
  induction list with
  | nil => intro _; rw [compare_to_list]; rfl
  | cons tv rest ih =>
    intro h
    simp only [isEdges, List.all_cons, Bool.and_eq_true] at h
    have hrest : isEdges (TypedValue.List rest) = true := h.2
    cases tv with
    | Edge y =>
      rw [compare_to_list, ContainsSameEdge_edge y b hb]
      simp only [edgesOf, List.filterMap_cons, List.any_cons]
      cases hc : (containedEdges b).contains y with
      | true => rfl
      | false =>
        simp only [Bool.false_or]
        exact ih hrest
    | _ => simp at h

theorem ContainsSameEdge_edges {D : Type} (a b : TypedValue D) (ha : isEdges a = true)
    (hb : isEdges b = true) :
    ContainsSameEdge a b =
      .ok ((containedEdges a).any (fun e => (containedEdges b).contains e)) := by
  cases a with
  | Edge x =>
    rw [ContainsSameEdge_edge x b hb]
    simp [containedEdges]
  | List list =>
    rw [ContainsSameEdge.eq_1, compare_to_list_edges b hb list ha]
    rfl
  | _ => simp [isEdges] at ha

theorem expansion_ok_edges {D : Type} (expand_symbol : Symbol) (frame : Frame D)
    (hexp : isEdges (frame expand_symbol) = true) :
    ∀ previous_symbols : List Symbol, (∀ s ∈ previous_symbols, isEdges (frame s) = true) →
      expansion_ok expand_symbol frame previous_symbols =
        .ok (!sharesEdge ⟨expand_symbol, previous_symbols⟩ frame) := by
  intro previous_symbols
  induction previous_symbols with
  | nil => intro _; rfl
  | cons s rest ih =>
    intro h
    have hs := h s (List.mem_cons_self _ _)
    have hrest := ih (fun s1 hs1 => h s1 (List.mem_cons_of_mem _ hs1))
    simp only [expansion_ok, ContainsSameEdge_edges _ _ hs hexp, sharesEdge, List.any_cons]
    cases hc : (containedEdges (frame s)).any
        (fun e => (containedEdges (frame expand_symbol)).contains e) with
    | true => rfl
    | false =>
      simp only [Bool.false_or]
      exact hrest

theorem EdgeUniquenessFilterCursor_log_nil {D : Type} (self : EdgeUniquenessFilter)
    (frame : Frame D) (k : Nat) :
    pullLog (EdgeUniquenessFilterCursor.Pull self) k (EdgeUniquenessFilterCursor.init [])
      frame = rowsThenDone [] k := by
  induction k with
  | zero => rw [rowsThenDone_zero]; rfl
  | succ k ih =>
    rw [pullLog_done _ k _ (EdgeUniquenessFilterCursor.init []) frame frame rfl, ih,
      rowsThenDone_nil]

theorem EdgeUniquenessFilterCursor_log {D : Type} (self : EdgeUniquenessFilter)
    (input : List (Frame D → Frame D)) :
    ∀ (frame : Frame D) (k : Nat),
      (∀ f ∈ inputFrames input frame, isEdges (f self.expand_symbol) = true ∧
        ∀ s ∈ self.previous_symbols, isEdges (f s) = true) →
      pullLog (EdgeUniquenessFilterCursor.Pull self) k (EdgeUniquenessFilterCursor.init input)
          frame =
        rowsThenDone ((inputFrames input frame).filter (fun f => !sharesEdge self f)) k := by
  induction input with
  | nil => intro frame k _; exact EdgeUniquenessFilterCursor_log_nil self frame k
  | cons t rest ih =>
    intro frame k hall
    have hrest : ∀ f ∈ inputFrames rest (t frame), isEdges (f self.expand_symbol) = true ∧
        ∀ s ∈ self.previous_symbols, isEdges (f s) = true :=
      fun f hf => hall f (List.mem_cons_of_mem _ hf)
    have hhead := hall (t frame) (List.mem_cons_self _ _)
    have hok := expansion_ok_edges self.expand_symbol (t frame) hhead.1 self.previous_symbols
      hhead.2
    simp only [inputFrames, List.filter_cons]
    cases hs : sharesEdge self (t frame) with
    | true =>
      have hs1 : sharesEdge ⟨self.expand_symbol, self.previous_symbols⟩ (t frame) = true := hs
      rw [hs1] at hok
      have hskip : pullLog (EdgeUniquenessFilterCursor.Pull self) k
            (EdgeUniquenessFilterCursor.init (t :: rest)) frame =
          pullLog (EdgeUniquenessFilterCursor.Pull self) k
            (EdgeUniquenessFilterCursor.init rest) (t frame) := by
        apply pullLog_congr
        simp only [EdgeUniquenessFilterCursor.Pull, EdgeUniquenessFilterCursor.init,
          EdgeUniquenessFilterCursor.PullFrom, hok, Bool.not_true]
      rw [hskip, ih _ _ hrest]
      simp
    | false =>
      have hs1 : sharesEdge ⟨self.expand_symbol, self.previous_symbols⟩ (t frame) = false := hs
      rw [hs1] at hok
      have hp : EdgeUniquenessFilterCursor.Pull self (EdgeUniquenessFilterCursor.init (t :: rest))
          frame = .ok true (EdgeUniquenessFilterCursor.init rest, t frame) := by
        simp only [EdgeUniquenessFilterCursor.Pull, EdgeUniquenessFilterCursor.init,
          EdgeUniquenessFilterCursor.PullFrom, hok, Bool.not_false]
      cases k with
      | zero => rw [rowsThenDone_zero]; rfl
      | succ k =>
        rw [pullLog_row _ k _ _ _ _ hp, ih _ _ hrest]
        simp only [Bool.not_false, if_true, rowsThenDone_cons]

theorem sharesEdge_eq_false {D : Type} (self : EdgeUniquenessFilter) (frame : Frame D) :
    sharesEdge self frame = false ↔
      ∀ s ∈ self.previous_symbols, ∀ e ∈ containedEdges (frame s),
        e ∉ containedEdges (frame self.expand_symbol) := by
  simp [sharesEdge]

/-- C21. Let the expand symbol and each previous symbol hold a single edge or a
list of edges on every input tuple. For every input sequence and every number `k`
of successive pulls, the cursor of an `EdgeUniquenessFilter` emits exactly the input
tuples on which no edge contained in the value of a previous symbol equals an edge
contained in the value of the expand symbol, in the order of the input, and returns
false from then on: every other tuple is dropped. -/
theorem EdgeUniquenessFilterCursor_emits_edge_unique_tuples {D : Type}
    (self : EdgeUniquenessFilter) (input : List (Frame D → Frame D)) (frame : Frame D)
    (hedges : ∀ f ∈ inputFrames input frame, isEdges (f self.expand_symbol) = true ∧
      ∀ s ∈ self.previous_symbols, isEdges (f s) = true) :
    (∀ k, pullLog (EdgeUniquenessFilterCursor.Pull self) k
        (EdgeUniquenessFilterCursor.init input) frame =
      rowsThenDone ((inputFrames input frame).filter (fun f => !sharesEdge self f)) k) ∧
    (∀ f : Frame D, (!sharesEdge self f) = true ↔
      ∀ s ∈ self.previous_symbols, ∀ e ∈ containedEdges (f s),
        e ∉ containedEdges (f self.expand_symbol)) :=
  ⟨fun k => EdgeUniquenessFilterCursor_log self input frame k hedges,
   fun f => by
     rw [Bool.not_eq_true', sharesEdge_eq_false]⟩

theorem EdgeUniquenessFilterCursor_emits_edge_unique_tuples_witness :
    pullLog (EdgeUniquenessFilterCursor.Pull sampleUniqueness) 3
        (EdgeUniquenessFilterCursor.init (sampleTriples sampleEdgeRows)) sampleFrame =
      rowsThenDone ((inputFrames (sampleTriples sampleEdgeRows) sampleFrame).filter
        (fun f => !sharesEdge sampleUniqueness f)) 3 ∧
    ((inputFrames (sampleTriples sampleEdgeRows) sampleFrame).map
        (fun f => !sharesEdge sampleUniqueness f)) = [false, true, false] :=
  ⟨(EdgeUniquenessFilterCursor_emits_edge_unique_tuples sampleUniqueness
      (sampleTriples sampleEdgeRows) sampleFrame (by
        intro f hf
        simp only [sampleTriples, sampleEdgeRows, List.map_cons, List.map_nil, inputFrames,
          List.mem_cons, List.mem_singleton, List.not_mem_nil, or_false] at hf
        rcases hf with h | h | h <;> subst h <;> decide)).1 3,
   by decide⟩

/-! ### `Accumulate` -/

theorem pullRun_ok_state {σ D : Type} (pull : σ → Frame D → PullResult (σ × Frame D)) (k : Nat)
    (s s1 : σ) (frame frame1 : Frame D) (b : Bool) (h : pull s frame = .ok b (s1, frame1)) :
    (pullRun pull (k + 1) s frame).2 = (pullRun pull k s1 frame1).2 := by
  cases b <;> simp only [pullRun, h]

theorem AccumulateCursor_cacheAll_eq {D : Type} (self : Accumulate)
    (input : List (Frame D → Frame D)) :
    ∀ (pulls : Nat) (cache_ : List (List (TypedValue D))) (frame : Frame D),
      AccumulateCursor.cacheAll self input pulls cache_ frame =
        ({ input_cursor := [], pulls := pulls + input.length + 1 },
          cache_ ++ (inputFrames input frame).map
            (fun f => self.symbols_.map (fun symbol => f symbol)),
          applyInputs input frame) := by
  induction input with
  | nil => intro pulls cache_ frame; simp [AccumulateCursor.cacheAll, inputFrames, applyInputs]
  | cons t rest ih =>
    intro pulls cache_ frame
    rw [AccumulateCursor.cacheAll, ih]
    simp only [inputFrames, applyInputs, List.foldl_cons, List.map_cons, List.append_assoc,
      List.singleton_append, List.length_cons]
    congr 2
    omega

/-- The state the first pull works on once the caching loop is through. -/
theorem AccumulateCursor_pull_fresh {D : Type} (self : Accumulate) (context : ExecutionContext)
    (input : List (Frame D → Frame D)) (n : Nat) (frame : Frame D) :
    AccumulateCursor.Pull self context (AccumulateCursor.init input, n) frame =
      AccumulateCursor.Pull self context
        ({ input_cursor := { input_cursor := [], pulls := input.length + 1 },
           cache_ := (inputFrames input frame).map
             (fun f => self.symbols_.map (fun symbol => f symbol)),
           cache_it_ := 0, pulled_all_input_ := true },
          if self.advance_command_ then n + 1 else n) (applyInputs input frame) := by
  simp only [AccumulateCursor.Pull, AccumulateCursor.init, Bool.not_false, if_true,
    AccumulateCursor_cacheAll_eq, List.nil_append, Nat.zero_add, Bool.not_true,
    Bool.false_eq_true, if_false]

theorem AccumulateCursor_run_cached {D : Type} (self : Accumulate) (context : ExecutionContext)
    (habort : context.must_abort = false) (fs : List (Frame D)) :
    ∀ (k : Nat) (s : AccumulateCursor D × Nat) (frame : Frame D),
      s.1.pulled_all_input_ = true →
      s.1.cache_.drop s.1.cache_it_ =
        fs.map (fun f => self.symbols_.map (fun symbol => f symbol)) →
      pullLog (AccumulateCursor.Pull self context) k s frame =
          rowsThenDone (accumulatedRows self.symbols_ fs frame) k ∧
        (pullRun (AccumulateCursor.Pull self context) k s frame).2.1.1.input_cursor =
          s.1.input_cursor ∧
        (pullRun (AccumulateCursor.Pull self context) k s frame).2.1.2 = s.2 := by
  induction fs with
  | nil =>
    intro k s frame hall hdrop
    have hnone : s.1.cache_.get? s.1.cache_it_ = none := by
      rw [List.get?_eq_none]
      have h1 := congrArg List.length hdrop
      rw [List.length_drop, List.map_nil, List.length_nil] at h1
      omega
    have hp : AccumulateCursor.Pull self context s frame = .ok false (s, frame) := by
      simp only [AccumulateCursor.Pull, hall, Bool.not_true, Bool.false_eq_true, if_false,
        MustAbort, habort, hnone]
    induction k with
    | zero => exact ⟨by rw [rowsThenDone_zero]; rfl, rfl, rfl⟩
    | succ k ih =>
      refine ⟨?_, ?_, ?_⟩
      · rw [pullLog_done _ k _ _ _ _ hp, ih.1]
        simp only [accumulatedRows, rowsThenDone_nil]
      · rw [pullRun_ok_state _ k _ _ _ _ _ hp]
        exact ih.2.1
      · rw [pullRun_ok_state _ k _ _ _ _ _ hp]
        exact ih.2.2
  | cons f rest ih =>
    intro k s frame hall hdrop
    have hlt : s.1.cache_it_ < s.1.cache_.length := by
      have h1 := congrArg List.length hdrop
      rw [List.length_drop, List.length_map, List.length_cons] at h1
      omega
    have hsome : s.1.cache_.get? s.1.cache_it_ =
        some (self.symbols_.map (fun symbol => f symbol)) := by
      have h1 : (s.1.cache_.drop s.1.cache_it_).get? 0 =
          some (self.symbols_.map (fun symbol => f symbol)) := by
        rw [hdrop]; rfl
      rw [List.get?_eq_getElem?, List.getElem?_drop, Nat.add_zero] at h1
      rw [List.get?_eq_getElem?]
      exact h1
    have hdrop1 : s.1.cache_.drop (s.1.cache_it_ + 1) =
        rest.map (fun f => self.symbols_.map (fun symbol => f symbol)) := by
      have h1 : (s.1.cache_.drop s.1.cache_it_).drop 1 =
          rest.map (fun f => self.symbols_.map (fun symbol => f symbol)) := by
        rw [hdrop]; rfl
      rw [List.drop_drop] at h1
      rw [← h1]
    have hp : AccumulateCursor.Pull self context s frame =
        .ok true (({ s.1 with cache_it_ := s.1.cache_it_ + 1 }, s.2),
          placeValues frame self.symbols_ (self.symbols_.map (fun symbol => f symbol))) := by
      simp only [AccumulateCursor.Pull, hall, Bool.not_true, Bool.false_eq_true, if_false,
        MustAbort, habort, hsome]
    cases k with
    | zero => exact ⟨by rw [rowsThenDone_zero]; rfl, rfl, rfl⟩
    | succ k =>
      have h := ih k ({ s.1 with cache_it_ := s.1.cache_it_ + 1 }, s.2)
        (placeValues frame self.symbols_ (self.symbols_.map (fun symbol => f symbol)))
        hall hdrop1
      refine ⟨?_, ?_, ?_⟩
      · rw [pullLog_row _ k _ _ _ _ hp, h.1]
        simp only [accumulatedRows, rowsThenDone_cons]
      · rw [pullRun_ok_state _ k _ _ _ _ _ hp]
        exact h.2.1
      · rw [pullRun_ok_state _ k _ _ _ _ _ hp]
        exact h.2.2

theorem AccumulateCursor_pull_ok {D : Type} (self : Accumulate) (context : ExecutionContext)
    (habort : context.must_abort = false) (s : AccumulateCursor D × Nat) (frame : Frame D) :
    ∃ b s1 frame1, AccumulateCursor.Pull self context s frame = .ok b (s1, frame1) := by
  simp only [AccumulateCursor.Pull, MustAbort, habort, Bool.false_eq_true, if_false]
  split
  · exact ⟨_, _, _, rfl⟩
  · exact ⟨_, _, _, rfl⟩

theorem placeValues_map_mem {D : Type} (f : Frame D) (symbols : List Symbol) :
    ∀ (frame : Frame D) (symbol : Symbol), symbol ∈ symbols →
      placeValues frame symbols (symbols.map (fun symbol => f symbol)) symbol = f symbol := by
  induction symbols with
  | nil => intro frame symbol h; cases h
  | cons a syms ih =>
    intro frame symbol h
    simp only [List.map_cons, placeValues]
    by_cases hin : symbol ∈ syms
    · exact ih _ symbol hin
    · have ha : symbol = a := by
        rcases List.mem_cons.mp h with h1 | h1
        · exact h1
        · exact absurd h1 hin
      rw [placeValues_other syms _ _ symbol hin, ha]
      simp only [Frame.set, if_true]

theorem accumulatedRows_length {D : Type} (symbols : List Symbol) (fs : List (Frame D)) :
    ∀ frame : Frame D, (accumulatedRows symbols fs frame).length = fs.length := by
  induction fs with
  | nil => intro frame; rfl
  | cons f rest ih => intro frame; simp only [accumulatedRows, List.length_cons, ih]

theorem accumulatedRows_values {D : Type} (symbols : List Symbol) (symbol : Symbol)
    (h : symbol ∈ symbols) (fs : List (Frame D)) :
    ∀ frame : Frame D, (accumulatedRows symbols fs frame).map (fun row => row symbol) =
      fs.map (fun f => f symbol) := by
  induction fs with
  | nil => intro frame; rfl
  | cons f rest ih =>
    intro frame
    simp only [accumulatedRows, List.map_cons, ih, placeValues_map_mem f symbols frame symbol h]

/-- C22. Let no abort be requested. For every input sequence, the first pull of
the cursor of an `Accumulate` pulls its input until the input returns false, once
per tuple and once more, and no later pull pulls the input again. For every number
`k` of successive pulls the cursor emits one row per input tuple and returns false
from then on, and under each accumulated symbol the rows hold, in the order of the
input, the values the input tuples held under it. -/
theorem AccumulateCursor_materialises_input {D : Type} (self : Accumulate)
    (context : ExecutionContext) (input : List (Frame D → Frame D)) (n : Nat)
    (frame : Frame D) (habort : context.must_abort = false) :
    (∀ k, (pullRun (AccumulateCursor.Pull self context) (k + 1) (AccumulateCursor.init input, n)
        frame).2.1.1.input_cursor.input_cursor = [] ∧
      (pullRun (AccumulateCursor.Pull self context) (k + 1) (AccumulateCursor.init input, n)
        frame).2.1.1.input_cursor.pulls = input.length + 1) ∧
    (∀ k, pullLog (AccumulateCursor.Pull self context) k (AccumulateCursor.init input, n) frame =
      rowsThenDone
        (accumulatedRows self.symbols_ (inputFrames input frame) (applyInputs input frame)) k) ∧
    (accumulatedRows self.symbols_ (inputFrames input frame) (applyInputs input frame)).length =
      input.length ∧
    (∀ symbol ∈ self.symbols_,
      (accumulatedRows self.symbols_ (inputFrames input frame) (applyInputs input frame)).map
          (fun row => row symbol) =
        (inputFrames input frame).map (fun f => f symbol)) := by
  have hfresh := AccumulateCursor_pull_fresh self context input n frame
  refine ⟨?_, ?_, ?_, ?_⟩
  · intro k
    obtain ⟨b, s1, frame1, hp⟩ := AccumulateCursor_pull_ok self context habort
      ({ input_cursor := { input_cursor := [], pulls := input.length + 1 },
         cache_ := (inputFrames input frame).map
           (fun f => self.symbols_.map (fun symbol => f symbol)),
         cache_it_ := 0, pulled_all_input_ := true },
        if self.advance_command_ then n + 1 else n) (applyInputs input frame)
    have h := (AccumulateCursor_run_cached self context habort (inputFrames input frame) (k + 1)
      (⟨⟨[], input.length + 1⟩,
        (inputFrames input frame).map (fun f => self.symbols_.map (fun symbol => f symbol)), 0,
        true⟩, if self.advance_command_ then n + 1 else n)
      (applyInputs input frame) rfl rfl).2.1
    rw [pullRun_ok_state _ k _ _ _ _ _ hp] at h
    rw [pullRun_ok_state _ k _ _ _ _ _ (hfresh.trans hp), h]
    exact ⟨rfl, rfl⟩
  · intro k
    rw [pullLog_congr _ k _ _ _ _ hfresh]
    exact (AccumulateCursor_run_cached self context habort (inputFrames input frame) k
      (⟨⟨[], input.length + 1⟩,
        (inputFrames input frame).map (fun f => self.symbols_.map (fun symbol => f symbol)), 0,
        true⟩, if self.advance_command_ then n + 1 else n)
      (applyInputs input frame) rfl rfl).1
  · rw [accumulatedRows_length, inputFrames_length]
  · intro symbol h
    exact accumulatedRows_values self.symbols_ symbol h _ _

theorem AccumulateCursor_materialises_input_witness :
    (pullRun (AccumulateCursor.Pull sampleAccumulate ⟨false⟩) 1
        (AccumulateCursor.init (sampleTuples [.Int 5, .Int 6]), 0)
        sampleFrame).2.1.1.input_cursor.pulls = (sampleTuples [.Int 5, .Int 6]).length + 1 ∧
    pullLog (AccumulateCursor.Pull sampleAccumulate ⟨false⟩) 4
        (AccumulateCursor.init (sampleTuples [.Int 5, .Int 6]), 0) sampleFrame =
      rowsThenDone (accumulatedRows sampleAccumulate.symbols_
        (inputFrames (sampleTuples [.Int 5, .Int 6]) sampleFrame)
        (applyInputs (sampleTuples [.Int 5, .Int 6]) sampleFrame)) 4 ∧
    (accumulatedRows sampleAccumulate.symbols_
        (inputFrames (sampleTuples [.Int 5, .Int 6]) sampleFrame)
        (applyInputs (sampleTuples [.Int 5, .Int 6]) sampleFrame)).map (fun row => row 0) =
      (inputFrames (sampleTuples [.Int 5, .Int 6]) sampleFrame).map (fun f => f 0) :=
  ⟨((AccumulateCursor_materialises_input sampleAccumulate ⟨false⟩
      (sampleTuples [.Int 5, .Int 6]) 0 sampleFrame rfl).1 0).2,
   (AccumulateCursor_materialises_input sampleAccumulate ⟨false⟩
      (sampleTuples [.Int 5, .Int 6]) 0 sampleFrame rfl).2.1 4,
   (AccumulateCursor_materialises_input sampleAccumulate ⟨false⟩
      (sampleTuples [.Int 5, .Int 6]) 0 sampleFrame rfl).2.2.2 0 (by decide)⟩

/-! ### `Unwind` -/

theorem drop_eq_nil_get? {α : Type} (l : List α) (i : Nat) (h : l.drop i = []) :
    l.get? i = none := by
  rw [List.get?_eq_none]
  have h1 := congrArg List.length h
  rw [List.length_drop, List.length_nil] at h1
  omega

theorem drop_eq_cons_get? {α : Type} (l : List α) (i : Nat) (a : α) (rest : List α)
    (h : l.drop i = a :: rest) : l.get? i = some a ∧ l.drop (i + 1) = rest := by
  constructor
  · have h1 : (l.drop i).get? 0 = some a := by rw [h]; rfl
    rw [List.get?_eq_getElem?, List.getElem?_drop, Nat.add_zero] at h1
    rw [List.get?_eq_getElem?]
    exact h1
  · have h1 : (l.drop i).drop 1 = rest := by rw [h]; rfl
    rw [List.drop_drop] at h1
    rw [← h1]

theorem UnwindCursor_pull_pending {D : Type} (self : Unwind D) (context : ExecutionContext)
    (habort : context.must_abort = false) (cur : UnwindCursor D) (frame : Frame D)
    (value : TypedValue D) (h : cur.input_value_.get? cur.input_value_it_ = some value) :
    UnwindCursor.Pull self context cur frame =
      .ok true ({ cur with input_value_it_ := cur.input_value_it_ + 1 },
        frame.set self.output_symbol_ value) := by
  rw [UnwindCursor.Pull, UnwindCursor.PullFrom.eq_def]
  simp only [MustAbort, habort, Bool.false_eq_true, if_false, h]

theorem UnwindCursor_pull_exhausted {D : Type} (self : Unwind D) (context : ExecutionContext)
    (habort : context.must_abort = false) (cur : UnwindCursor D) (frame : Frame D)
    (hin : cur.input_cursor = [])
    (h : cur.input_value_.get? cur.input_value_it_ = none) :
    UnwindCursor.Pull self context cur frame = .ok false (cur, frame) := by
  rw [UnwindCursor.Pull, UnwindCursor.PullFrom.eq_def]
  simp only [MustAbort, habort, Bool.false_eq_true, if_false, h, hin]
  cases cur
  simp only at hin
  subst hin
  rfl

theorem UnwindCursor_pull_empty_list {D : Type} (self : Unwind D) (context : ExecutionContext)
    (habort : context.must_abort = false) (cur : UnwindCursor D) (frame : Frame D)
    (t : Frame D → Frame D) (rest : List (Frame D → Frame D))
    (hin : cur.input_cursor = t :: rest)
    (h : cur.input_value_.get? cur.input_value_it_ = none)
    (hl : self.input_expression_ (t frame) = .List []) :
    UnwindCursor.Pull self context cur frame =
      UnwindCursor.Pull self context (UnwindCursor.init rest) (t frame) := by
  rw [UnwindCursor.Pull, UnwindCursor.PullFrom.eq_def]
  simp only [MustAbort, habort, Bool.false_eq_true, if_false, h, hin, hl]
  rfl

theorem UnwindCursor_pull_list {D : Type} (self : Unwind D) (context : ExecutionContext)
    (habort : context.must_abort = false) (cur : UnwindCursor D) (frame : Frame D)
    (t : Frame D → Frame D) (rest : List (Frame D → Frame D))
    (value : TypedValue D) (values : List (TypedValue D))
    (hin : cur.input_cursor = t :: rest)
    (h : cur.input_value_.get? cur.input_value_it_ = none)
    (hl : self.input_expression_ (t frame) = .List (value :: values)) :
    UnwindCursor.Pull self context cur frame =
      .ok true ({ input_cursor := rest, input_value_ := value :: values, input_value_it_ := 1 },
        (t frame).set self.output_symbol_ value) := by
  rw [UnwindCursor.Pull, UnwindCursor.PullFrom.eq_def]
  simp only [MustAbort, habort, Bool.false_eq_true, if_false, h, hin, hl]

theorem UnwindCursor_pull_no_list {D : Type} (self : Unwind D) (context : ExecutionContext)
    (habort : context.must_abort = false) (cur : UnwindCursor D) (frame : Frame D)
    (t : Frame D → Frame D) (rest : List (Frame D → Frame D))
    (hin : cur.input_cursor = t :: rest)
    (h : cur.input_value_.get? cur.input_value_it_ = none)
    (hl : isList (self.input_expression_ (t frame)) = false) :
    UnwindCursor.Pull self context cur frame = .raised .QueryRuntimeException := by
  rw [UnwindCursor.Pull, UnwindCursor.PullFrom.eq_def]
  simp only [MustAbort, habort, Bool.false_eq_true, if_false, h, hin]
  cases hv : self.input_expression_ (t frame) with
  | List l => rw [hv] at hl; simp [isList] at hl
  | _ => rfl

theorem UnwindCursor_pull_abort {D : Type} (self : Unwind D) (context : ExecutionContext)
    (habort : context.must_abort = true) (cur : UnwindCursor D) (frame : Frame D) :
    UnwindCursor.Pull self context cur frame = .raised .HintedAbortError := by
  rw [UnwindCursor.Pull, UnwindCursor.PullFrom.eq_def]
  simp only [MustAbort, habort, if_true]

theorem getLastD_cons {α : Type} (a d : α) (l : List α) :
    (a :: l).getLastD d = l.getLastD a := by
  cases l <;> rfl

/-- The log of a cursor with values pending: the rows of the pending values, then
the rows of the remaining input. -/
theorem UnwindCursor_log {D : Type} (self : Unwind D) (context : ExecutionContext)
    (habort : context.must_abort = false) (input : List (Frame D → Frame D)) :
    (∀ t ∈ input, ∀ f, isList (self.input_expression_ (t f)) = true) →
    ∀ (pending : List (TypedValue D)) (cur : UnwindCursor D) (frame : Frame D) (k : Nat),
      cur.input_cursor = input →
      cur.input_value_.drop cur.input_value_it_ = pending →
      pullLog (UnwindCursor.Pull self context) k cur frame =
        rowsThenDone (unwindRowsFor self.output_symbol_ frame pending ++
          unwindRows self input
            ((unwindRowsFor self.output_symbol_ frame pending).getLastD frame)) k := by
  induction input with
  | nil =>
    intro _ pending
    induction pending with
    | nil =>
      intro cur frame k hin hdrop
      have hp := UnwindCursor_pull_exhausted self context habort cur frame hin
        (drop_eq_nil_get? _ _ hdrop)
      simp only [unwindRowsFor, unwindRows, List.append_nil]
      induction k with
      | zero => rw [rowsThenDone_zero]; rfl
      | succ k ih => rw [pullLog_done _ k _ _ _ _ hp, ih, rowsThenDone_nil]
    | cons value values ih =>
      intro cur frame k hin hdrop
      have hd := drop_eq_cons_get? _ _ _ _ hdrop
      have hp := UnwindCursor_pull_pending self context habort cur frame value hd.1
      cases k with
      | zero => rw [rowsThenDone_zero]; rfl
      | succ k =>
        rw [pullLog_row _ k _ _ _ _ hp,
          ih ⟨cur.input_cursor, cur.input_value_, cur.input_value_it_ + 1⟩ _ k hin hd.2]
        simp only [unwindRowsFor, List.cons_append, rowsThenDone_cons, getLastD_cons]
  | cons t rest ihin =>
    intro hlist pending
    have hrest : ∀ t1 ∈ rest, ∀ f, isList (self.input_expression_ (t1 f)) = true :=
      fun t1 h1 => hlist t1 (List.mem_cons_of_mem _ h1)
    induction pending with
    | nil =>
      intro cur frame k hin hdrop
      have hnone := drop_eq_nil_get? _ _ hdrop
      have hl := hlist t (List.mem_cons_self _ _) frame
      simp only [unwindRowsFor, List.nil_append, List.getLastD_nil, unwindRows]
      cases hv : self.input_expression_ (t frame) with
      | List l =>
        cases l with
        | nil =>
          rw [pullLog_congr _ k _ _ _ _
            (UnwindCursor_pull_empty_list self context habort cur frame t rest hin hnone hv),
            ihin hrest [] (UnwindCursor.init rest) (t frame) k rfl rfl]
        | cons value values =>
          have hp := UnwindCursor_pull_list self context habort cur frame t rest value values
            hin hnone hv
          cases k with
          | zero => rw [rowsThenDone_zero]; rfl
          | succ k =>
            rw [pullLog_row _ k _ _ _ _ hp, ihin hrest values ⟨rest, value :: values, 1⟩ _ k rfl rfl]
            simp only [unwindRowsFor, List.cons_append, rowsThenDone_cons, getLastD_cons]
      | _ => rw [hv] at hl; simp [isList] at hl
    | cons value values ih =>
      intro cur frame k hin hdrop
      have hd := drop_eq_cons_get? _ _ _ _ hdrop
      have hp := UnwindCursor_pull_pending self context habort cur frame value hd.1
      cases k with
      | zero => rw [rowsThenDone_zero]; rfl
      | succ k =>
        rw [pullLog_row _ k _ _ _ _ hp,
          ih ⟨cur.input_cursor, cur.input_value_, cur.input_value_it_ + 1⟩ _ k hin hd.2]
        simp only [unwindRowsFor, List.cons_append, rowsThenDone_cons, getLastD_cons]

/-- The log of a cursor whose input reaches a tuple on which the expression yields
no list: the rows up to that tuple, then the exception. -/
theorem UnwindCursor_log_raises {D : Type} (self : Unwind D) (context : ExecutionContext)
    (habort : context.must_abort = false) (t : Frame D → Frame D)
    (post : List (Frame D → Frame D))
    (hbad : ∀ f, isList (self.input_expression_ (t f)) = false)
    (pre : List (Frame D → Frame D)) :
    (∀ t1 ∈ pre, ∀ f, isList (self.input_expression_ (t1 f)) = true) →
    ∀ (pending : List (TypedValue D)) (cur : UnwindCursor D) (frame : Frame D) (k : Nat),
      cur.input_cursor = pre ++ t :: post →
      cur.input_value_.drop cur.input_value_it_ = pending →
      (unwindRowsFor self.output_symbol_ frame pending ++
        unwindRows self pre
          ((unwindRowsFor self.output_symbol_ frame pending).getLastD frame)).length < k →
      pullLog (UnwindCursor.Pull self context) k cur frame =
        (unwindRowsFor self.output_symbol_ frame pending ++
          unwindRows self pre
            ((unwindRowsFor self.output_symbol_ frame pending).getLastD frame)).map
              Outcome.row ++ [Outcome.raised .QueryRuntimeException] := by
  induction pre with
  | nil =>
    intro _ pending
    induction pending with
    | nil =>
      intro cur frame k hin hdrop hk
      have hp := UnwindCursor_pull_no_list self context habort cur frame t post hin
        (drop_eq_nil_get? _ _ hdrop) (hbad frame)
      cases k with
      | zero => simp at hk
      | succ k =>
        rw [pullLog_raised _ k _ _ _ hp]
        rfl
    | cons value values ih =>
      intro cur frame k hin hdrop hk
      have hd := drop_eq_cons_get? _ _ _ _ hdrop
      have hp := UnwindCursor_pull_pending self context habort cur frame value hd.1
      cases k with
      | zero => simp at hk
      | succ k =>
        simp only [unwindRowsFor, List.cons_append, getLastD_cons, List.length_cons,
          Nat.add_lt_add_iff_right] at hk
        rw [pullLog_row _ k _ _ _ _ hp,
          ih ⟨cur.input_cursor, cur.input_value_, cur.input_value_it_ + 1⟩ _ k hin hd.2 hk]
        simp only [unwindRowsFor, List.cons_append, getLastD_cons, List.map_cons]
  | cons t1 rest ihin =>
    intro hlist pending
    have hrest : ∀ t2 ∈ rest, ∀ f, isList (self.input_expression_ (t2 f)) = true :=
      fun t2 h2 => hlist t2 (List.mem_cons_of_mem _ h2)
    induction pending with
    | nil =>
      intro cur frame k hin hdrop hk
      have hnone := drop_eq_nil_get? _ _ hdrop
      have hl := hlist t1 (List.mem_cons_self _ _) frame
      rw [List.cons_append] at hin
      simp only [unwindRowsFor, List.nil_append, List.getLastD_nil, unwindRows] at hk ⊢
      cases hv : self.input_expression_ (t1 frame) with
      | List l =>
        rw [hv] at hk
        simp only at hk
        cases l with
        | nil =>
          rw [pullLog_congr _ k _ _ _ _
            (UnwindCursor_pull_empty_list self context habort cur frame t1 _ hin hnone hv),
            ihin hrest [] (UnwindCursor.init (rest ++ t :: post)) (t1 frame) k rfl rfl hk]
        | cons value values =>
          have hp := UnwindCursor_pull_list self context habort cur frame t1 _ value values
            hin hnone hv
          cases k with
          | zero => simp at hk
          | succ k =>
            simp only [unwindRowsFor, List.cons_append, getLastD_cons, List.length_cons,
              Nat.add_lt_add_iff_right] at hk
            rw [pullLog_row _ k _ _ _ _ hp,
              ihin hrest values ⟨rest ++ t :: post, value :: values, 1⟩ _ k rfl rfl hk]
            simp only [unwindRowsFor, List.cons_append, getLastD_cons, List.map_cons]
      | _ => rw [hv] at hl; simp [isList] at hl
    | cons value values ih =>
      intro cur frame k hin hdrop hk
      have hd := drop_eq_cons_get? _ _ _ _ hdrop
      have hp := UnwindCursor_pull_pending self context habort cur frame value hd.1
      cases k with
      | zero => simp at hk
      | succ k =>
        simp only [unwindRowsFor, List.cons_append, getLastD_cons, List.length_cons,
          Nat.add_lt_add_iff_right] at hk
        rw [pullLog_row _ k _ _ _ _ hp,
          ih ⟨cur.input_cursor, cur.input_value_, cur.input_value_it_ + 1⟩ _ k hin hd.2 hk]
        simp only [unwindRowsFor, List.cons_append, getLastD_cons, List.map_cons]

theorem unwindRowsFor_length {D : Type} (output_symbol : Symbol) (l : List (TypedValue D)) :
    ∀ frame : Frame D, (unwindRowsFor output_symbol frame l).length = l.length := by
  induction l with
  | nil => intro frame; rfl
  | cons value values ih => intro frame; simp only [unwindRowsFor, List.length_cons, ih]

theorem unwindRowsFor_values {D : Type} (output_symbol : Symbol) (l : List (TypedValue D)) :
    ∀ frame : Frame D,
      (unwindRowsFor output_symbol frame l).map (fun row => row output_symbol) = l := by
  induction l with
  | nil => intro frame; rfl
  | cons value values ih =>
    intro frame
    simp only [unwindRowsFor, List.map_cons, ih, Frame.set, if_true]

theorem unwindRows_length {D : Type} (self : Unwind D) (input : List (Frame D → Frame D)) :
    ∀ frame : Frame D,
      (unwindRows self input frame).length =
        ((unwindLists self input frame).map List.length).sum := by
  induction input with
  | nil => intro frame; rfl
  | cons t rest ih =>
    intro frame
    simp only [unwindRows, unwindLists]
    cases hv : self.input_expression_ (t frame) with
    | List l =>
      simp only [List.length_append, unwindRowsFor_length, ih, List.map_cons, List.sum_cons]
    | _ => rfl

/-- C24. Let no abort be requested. When the expression of an `Unwind` yields a
list on every input tuple, the cursor emits, for each input tuple in turn, one row
per element of the list in list order, none for an empty list, and returns false
from then on; each row binds the output symbol to its element, and the number of
rows is the sum of the lengths of the lists. When the expression yields a value
that is no list on an input tuple, the cursor emits the rows of the tuples before
it and then raises `QueryRuntimeException`. -/
theorem UnwindCursor_emits_one_row_per_element {D : Type} (self : Unwind D)
    (context : ExecutionContext) (input : List (Frame D → Frame D)) (frame : Frame D)
    (habort : context.must_abort = false) :
    ((∀ t ∈ input, ∀ f, isList (self.input_expression_ (t f)) = true) →
      ∀ k, pullLog (UnwindCursor.Pull self context) k (UnwindCursor.init input) frame =
        rowsThenDone (unwindRows self input frame) k) ∧
    (∀ (f : Frame D) (l : List (TypedValue D)),
      (unwindRowsFor self.output_symbol_ f l).map (fun row => row self.output_symbol_) = l) ∧
    (unwindRows self input frame).length =
      ((unwindLists self input frame).map List.length).sum ∧
    (∀ pre t post, input = pre ++ t :: post →
      (∀ t1 ∈ pre, ∀ f, isList (self.input_expression_ (t1 f)) = true) →
      (∀ f, isList (self.input_expression_ (t f)) = false) →
      ∀ k, (unwindRows self pre frame).length < k →
        pullLog (UnwindCursor.Pull self context) k (UnwindCursor.init input) frame =
          (unwindRows self pre frame).map Outcome.row ++
            [Outcome.raised .QueryRuntimeException]) := by
  refine ⟨?_, ?_, ?_, ?_⟩
  · intro hlist k
    exact UnwindCursor_log self context habort input hlist [] (UnwindCursor.init input) frame k
      rfl rfl
  · intro f l
    exact unwindRowsFor_values self.output_symbol_ l f
  · exact unwindRows_length self input frame
  · intro pre t post hin hlist hbad k hk
    exact UnwindCursor_log_raises self context habort t post hbad pre hlist []
      (UnwindCursor.init input) frame k (by rw [hin]; rfl) rfl hk

theorem UnwindCursor_emits_one_row_per_element_witness :
    pullLog (UnwindCursor.Pull sampleUnwind ⟨false⟩) 5
        (UnwindCursor.init (sampleTuples [.List [.Int 1, .Bool true], .List [], .List [.Int 2]]))
        sampleFrame =
      rowsThenDone (unwindRows sampleUnwind
        (sampleTuples [.List [.Int 1, .Bool true], .List [], .List [.Int 2]]) sampleFrame) 5 ∧
    (unwindRows sampleUnwind
        (sampleTuples [.List [.Int 1, .Bool true], .List [], .List [.Int 2]])
        sampleFrame).length = 3 ∧
    pullLog (UnwindCursor.Pull sampleUnwind ⟨false⟩) 3
        (UnwindCursor.init (sampleTuples [.List [.Int 1], .Int 7])) sampleFrame =
      (unwindRows sampleUnwind (sampleTuples [.List [.Int 1]]) sampleFrame).map Outcome.row ++
        [Outcome.raised .QueryRuntimeException] :=
  ⟨(UnwindCursor_emits_one_row_per_element sampleUnwind ⟨false⟩
      (sampleTuples [.List [.Int 1, .Bool true], .List [], .List [.Int 2]]) sampleFrame rfl).1
      (by
        intro t ht f
        simp only [sampleTuples, List.map_cons, List.map_nil, List.mem_cons, List.mem_singleton,
          List.not_mem_nil, or_false] at ht
        rcases ht with h | h | h <;> subst h <;> rfl) 5,
   (UnwindCursor_emits_one_row_per_element sampleUnwind ⟨false⟩
      (sampleTuples [.List [.Int 1, .Bool true], .List [], .List [.Int 2]]) sampleFrame
      rfl).2.2.1,
   (UnwindCursor_emits_one_row_per_element sampleUnwind ⟨false⟩
      (sampleTuples [.List [.Int 1], .Int 7]) sampleFrame rfl).2.2.2
      (sampleTuples [.List [.Int 1]]) (fun frame => frame.set 0 (.Int 7)) [] rfl
      (by
        intro t ht f
        simp only [sampleTuples, List.map_cons, List.map_nil, List.mem_singleton] at ht
        subst ht
        rfl)
      (fun f => rfl) 3 (by decide)⟩

/-! ### `ScanAllByLabelPropertyRange` -/

theorem convert_range_value {D : Type} (frame : Frame D) (bound : Option (Bound D))
    (h : yieldsRangeValue bound frame = true) :
    ∃ r, ScanAllByLabelPropertyRange.convert frame bound = .ok r ∧
      boundIsNull r = yieldsNull bound frame := by
  cases bound with
  | none => exact ⟨none, rfl, rfl⟩
  | some b =>
    simp only [yieldsRangeValue] at h
    simp only [ScanAllByLabelPropertyRange.convert, yieldsNull]
    cases hv : b.value frame with
    | Null => exact ⟨_, rfl, rfl⟩
    | Int i => exact ⟨_, rfl, rfl⟩
    | Double d => exact ⟨_, rfl, rfl⟩
    | String s => exact ⟨_, rfl, rfl⟩
    | _ => rw [hv] at h; simp [isRangeValue] at h

theorem convert_other_value {D : Type} (frame : Frame D) (bound : Option (Bound D))
    (h : yieldsRangeValue bound frame = false) :
    ScanAllByLabelPropertyRange.convert frame bound = .error .QueryRuntimeException := by
  cases bound with
  | none => simp [yieldsRangeValue] at h
  | some b =>
    simp only [yieldsRangeValue] at h
    simp only [ScanAllByLabelPropertyRange.convert]
    cases hv : b.value frame with
    | Null => rw [hv] at h; simp [isRangeValue] at h
    | Int i => rw [hv] at h; simp [isRangeValue] at h
    | Double d => rw [hv] at h; simp [isRangeValue] at h
    | String s => rw [hv] at h; simp [isRangeValue] at h
    | Bool b => simp only [IsPropertyValue]; rfl
    | List l => split <;> rfl
    | Map m => split <;> rfl
    | Vertex v => simp only [IsPropertyValue]; rfl
    | Edge e => simp only [IsPropertyValue]; rfl
    | Path start es => simp only [IsPropertyValue]; rfl

theorem convert_ok_or_raises {D : Type} (frame : Frame D) (bound : Option (Bound D)) :
    (∃ r, ScanAllByLabelPropertyRange.convert frame bound = .ok r) ∨
      ScanAllByLabelPropertyRange.convert frame bound = .error .QueryRuntimeException := by
  cases h : yieldsRangeValue bound frame with
  | true =>
    obtain ⟨r, hr, _⟩ := convert_range_value frame bound h
    exact Or.inl ⟨r, hr⟩
  | false => exact Or.inr (convert_other_value frame bound h)

theorem vertices_null_bound {D : Type} (self : ScanAllByLabelPropertyRange D)
    (Vertices : Nat → Nat → Option (PropertyBound D) → Option (PropertyBound D) →
      List VertexAccessor)
    (frame : Frame D)
    (hlower : yieldsRangeValue self.lower_bound_ frame = true)
    (hupper : yieldsRangeValue self.upper_bound_ frame = true)
    (hnull : yieldsNull self.lower_bound_ frame = true ∨
      yieldsNull self.upper_bound_ frame = true) :
    self.vertices Vertices frame = .ok none := by
  obtain ⟨r1, h1, hn1⟩ := convert_range_value frame self.lower_bound_ hlower
  obtain ⟨r2, h2, hn2⟩ := convert_range_value frame self.upper_bound_ hupper
  simp only [ScanAllByLabelPropertyRange.vertices, h1, h2, hn1, hn2]
  rcases hnull with h | h
  · simp only [h, if_true]
  · simp only [h, if_true, ite_self]

theorem vertices_other_value {D : Type} (self : ScanAllByLabelPropertyRange D)
    (Vertices : Nat → Nat → Option (PropertyBound D) → Option (PropertyBound D) →
      List VertexAccessor)
    (frame : Frame D)
    (hbad : yieldsRangeValue self.lower_bound_ frame = false ∨
      yieldsRangeValue self.upper_bound_ frame = false) :
    self.vertices Vertices frame = .error .QueryRuntimeException := by
  rcases hbad with h | h
  · simp only [ScanAllByLabelPropertyRange.vertices, convert_other_value _ _ h]
  · rcases convert_ok_or_raises frame self.lower_bound_ with ⟨r, hr⟩ | hr
    · simp only [ScanAllByLabelPropertyRange.vertices, hr, convert_other_value _ _ h]
    · simp only [ScanAllByLabelPropertyRange.vertices, hr]

theorem ScanAllCursor_pull_skip {D : Type} (output_symbol : Symbol)
    (get_vertices : Frame D → Except Exception (Option (List VertexAccessor)))
    (context : ExecutionContext) (cur : ScanAllCursor D) (frame : Frame D)
    (t : Frame D → Frame D) (rest : List (Frame D → Frame D))
    (hin : cur.input_cursor = t :: rest) (hex : cur.exhausted = true)
    (hget : get_vertices (t frame) = .ok none) :
    ScanAllCursor.Pull output_symbol get_vertices context cur frame =
      ScanAllCursor.Pull output_symbol get_vertices context { cur with input_cursor := rest }
        (t frame) := by
  simp only [ScanAllCursor.Pull, hin]
  split
  · rfl
  · cases cur with
    | mk input vs it =>
      simp only [ScanAllCursor.exhausted] at hex
      cases vs with
      | none => rw [ScanAllCursor.PullFrom] <;> simp [hget]
      | some vertices =>
        cases it with
        | none => rw [ScanAllCursor.PullFrom] <;> simp [hget]
        | some more =>
          cases more with
          | nil => rw [ScanAllCursor.PullFrom] <;> simp [hget]
          | cons v more => simp at hex

theorem ScanAllCursor_pull_raises {D : Type} (output_symbol : Symbol)
    (get_vertices : Frame D → Except Exception (Option (List VertexAccessor)))
    (context : ExecutionContext) (habort : context.must_abort = false)
    (cur : ScanAllCursor D) (frame : Frame D)
    (t : Frame D → Frame D) (rest : List (Frame D → Frame D))
    (hin : cur.input_cursor = t :: rest) (hex : cur.exhausted = true) (e : Exception)
    (hget : get_vertices (t frame) = .error e) :
    ScanAllCursor.Pull output_symbol get_vertices context cur frame = .raised e := by
  simp only [ScanAllCursor.Pull, hin, MustAbort, habort, Bool.false_eq_true, if_false]
  cases cur with
  | mk input vs it =>
    simp only [ScanAllCursor.exhausted] at hex
    cases vs with
    | none => rw [ScanAllCursor.PullFrom] <;> simp [hget]
    | some vertices =>
      cases it with
      | none => rw [ScanAllCursor.PullFrom] <;> simp [hget]
      | some more =>
        cases more with
        | nil => rw [ScanAllCursor.PullFrom] <;> simp [hget]
        | cons v more => simp at hex

theorem ScanAllCursor_log_skips {D : Type} (output_symbol : Symbol)
    (get_vertices : Frame D → Except Exception (Option (List VertexAccessor)))
    (context : ExecutionContext) (habort : context.must_abort = false)
    (input : List (Frame D → Frame D)) :
    (∀ t ∈ input, ∀ f, get_vertices (t f) = .ok none) →
    ∀ (cur : ScanAllCursor D) (frame : Frame D) (k : Nat),
      cur.input_cursor = input → cur.exhausted = true →
      pullLog (ScanAllCursor.Pull output_symbol get_vertices context) k cur frame =
        rowsThenDone [] k := by
  induction input with
  | nil =>
    intro _ cur frame k hin hex
    have hp : ScanAllCursor.Pull output_symbol get_vertices context cur frame =
        .ok false (cur, frame) := by
      simp only [ScanAllCursor.Pull, hin, MustAbort, habort, Bool.false_eq_true, if_false]
      cases cur with
      | mk input vs it =>
        simp only at hin
        subst hin
        simp only [ScanAllCursor.exhausted] at hex
        cases vs with
        | none => rw [ScanAllCursor.PullFrom]; simp
        | some vertices =>
          cases it with
          | none => rw [ScanAllCursor.PullFrom]; simp
          | some more =>
            cases more with
            | nil => rw [ScanAllCursor.PullFrom]; simp
            | cons v more => simp at hex
    induction k with
    | zero => rw [rowsThenDone_zero]; rfl
    | succ k ih => rw [pullLog_done _ k _ _ _ _ hp, ih, rowsThenDone_nil]
  | cons t rest ih =>
    intro hall cur frame k hin hex
    rw [pullLog_congr _ k _ _ _ _
      (ScanAllCursor_pull_skip output_symbol get_vertices context cur frame t rest hin hex
        (hall t (List.mem_cons_self _ _) frame))]
    exact ih (fun t1 h1 => hall t1 (List.mem_cons_of_mem _ h1)) _ _ k rfl hex

/-- C23, as stated, fails when the other bound yields a boolean: on the sample
tuple the lower bound of the sample scan yields null and its upper bound yields the
boolean true, and the pull raises `QueryRuntimeException`. -/
theorem ScanAllByLabelPropertyRange_null_bound_counterexample :
    yieldsNull (sampleRange (.Bool true)).lower_bound_ (sampleFrame.set 0 .Null) = true ∧
    ScanAllCursor.Pull (sampleRange (.Bool true)).output_symbol_
        ((sampleRange (.Bool true)).vertices sampleVertices) ⟨false⟩
        (ScanAllCursor.init (sampleTuples [.Null])) sampleFrame =
      .raised .QueryRuntimeException :=
  ⟨rfl, rfl⟩

/-- C23, amended. Let each bound expression of a `ScanAllByLabelPropertyRange`
that is there yield null, a number or a string on an input tuple, and let one of
them yield null. Then the lookup of the vertices for the tuple yields none and
raises nothing, and the cursor passes over the tuple: its pull goes on with the rest
of the input as if the tuple had not been there, so no vertex is emitted for it;
over an input of such tuples alone every pull returns false. When a bound
expression yields another value on the tuple (a boolean, a list, a map, a vertex, an
edge or a path), the pull that reaches the tuple raises `QueryRuntimeException`,
also when the other bound yields null. -/
theorem ScanAllByLabelPropertyRange_null_bound_emits_nothing {D : Type}
    (self : ScanAllByLabelPropertyRange D)
    (Vertices : Nat → Nat → Option (PropertyBound D) → Option (PropertyBound D) →
      List VertexAccessor)
    (context : ExecutionContext) :
    (∀ frame : Frame D, yieldsRangeValue self.lower_bound_ frame = true →
      yieldsRangeValue self.upper_bound_ frame = true →
      (yieldsNull self.lower_bound_ frame = true ∨ yieldsNull self.upper_bound_ frame = true) →
      self.vertices Vertices frame = .ok none) ∧
    (∀ (cur : ScanAllCursor D) (frame : Frame D) (t : Frame D → Frame D)
      (rest : List (Frame D → Frame D)),
      cur.input_cursor = t :: rest → cur.exhausted = true →
      yieldsRangeValue self.lower_bound_ (t frame) = true →
      yieldsRangeValue self.upper_bound_ (t frame) = true →
      (yieldsNull self.lower_bound_ (t frame) = true ∨
        yieldsNull self.upper_bound_ (t frame) = true) →
      ScanAllCursor.Pull self.output_symbol_ (self.vertices Vertices) context cur frame =
        ScanAllCursor.Pull self.output_symbol_ (self.vertices Vertices) context
          { cur with input_cursor := rest } (t frame)) ∧
    (∀ (input : List (Frame D → Frame D)) (frame : Frame D), context.must_abort = false →
      (∀ t ∈ input, ∀ f, yieldsRangeValue self.lower_bound_ (t f) = true ∧
        yieldsRangeValue self.upper_bound_ (t f) = true ∧
        (yieldsNull self.lower_bound_ (t f) = true ∨
          yieldsNull self.upper_bound_ (t f) = true)) →
      ∀ k, pullLog (ScanAllCursor.Pull self.output_symbol_ (self.vertices Vertices) context) k
        (ScanAllCursor.init input) frame = rowsThenDone [] k) ∧
    (∀ (cur : ScanAllCursor D) (frame : Frame D) (t : Frame D → Frame D)
      (rest : List (Frame D → Frame D)),
      context.must_abort = false → cur.input_cursor = t :: rest → cur.exhausted = true →
      (yieldsRangeValue self.lower_bound_ (t frame) = false ∨
        yieldsRangeValue self.upper_bound_ (t frame) = false) →
      ScanAllCursor.Pull self.output_symbol_ (self.vertices Vertices) context cur frame =
        .raised .QueryRuntimeException) := by
  refine ⟨?_, ?_, ?_, ?_⟩
  · intro frame hl hu hn
    exact vertices_null_bound self Vertices frame hl hu hn
  · intro cur frame t rest hin hex hl hu hn
    exact ScanAllCursor_pull_skip _ _ context cur frame t rest hin hex
      (vertices_null_bound self Vertices (t frame) hl hu hn)
  · intro input frame habort hall k
    exact ScanAllCursor_log_skips _ _ context habort input
      (fun t ht f => vertices_null_bound self Vertices (t f) (hall t ht f).1 (hall t ht f).2.1
        (hall t ht f).2.2) _ frame k rfl rfl
  · intro cur frame t rest habort hin hex hbad
    exact ScanAllCursor_pull_raises _ _ context habort cur frame t rest hin hex _
      (vertices_other_value self Vertices (t frame) hbad)

theorem ScanAllByLabelPropertyRange_null_bound_emits_nothing_witness :
    (∀ k, pullLog (ScanAllCursor.Pull (sampleRange (.Int 3)).output_symbol_
        ((sampleRange (.Int 3)).vertices sampleVertices) ⟨false⟩) k
        (ScanAllCursor.init (sampleTuples [.Null, .Null])) sampleFrame = rowsThenDone [] k) ∧
    ScanAllCursor.Pull (sampleRange (.List [])).output_symbol_
        ((sampleRange (.List [])).vertices sampleVertices) ⟨false⟩
        (ScanAllCursor.init (sampleTuples [.Null])) sampleFrame =
      .raised .QueryRuntimeException :=
  ⟨(ScanAllByLabelPropertyRange_null_bound_emits_nothing (sampleRange (.Int 3)) sampleVertices
      ⟨false⟩).2.2.1 (sampleTuples [.Null, .Null]) sampleFrame rfl (by
        intro t ht f
        simp only [sampleTuples, List.map_cons, List.map_nil, List.mem_cons, List.mem_singleton,
          List.not_mem_nil, or_false, or_self] at ht
        subst ht
        exact ⟨rfl, rfl, Or.inl rfl⟩),
   (ScanAllByLabelPropertyRange_null_bound_emits_nothing (sampleRange (.List [])) sampleVertices
      ⟨false⟩).2.2.2 (ScanAllCursor.init (sampleTuples [.Null])) sampleFrame
      (fun frame => frame.set 0 .Null) [] rfl rfl rfl (Or.inr rfl)⟩

/-! ### The cancellation check of the compositional operators -/

theorem CartesianCursor_pull_abort {D : Type} (self : Cartesian) (context : ExecutionContext)
    (habort : MustAbort context = true) (cur : CartesianCursor D) (frame : Frame D) :
    (∃ s, CartesianCursor.Pull self context cur frame = .ok false s) ∨
      CartesianCursor.Pull self context cur frame = .raised .HintedAbortError := by
  simp only [CartesianCursor.Pull, habort, if_true]
  split
  · exact Or.inl ⟨_, rfl⟩
  · split
    · split
      · exact Or.inl ⟨_, rfl⟩
      · exact Or.inr rfl
    · exact Or.inr rfl

theorem CartesianCursor_pull_abort_init {D : Type} (self : Cartesian)
    (context : ExecutionContext) (habort : MustAbort context = true)
    (left right : List (Frame D → Frame D)) (frame : Frame D) :
    ((left.isEmpty || right.isEmpty) = true →
      ∃ s, CartesianCursor.Pull self context (CartesianCursor.init left right) frame =
        .ok false s) ∧
    ((left.isEmpty || right.isEmpty) = false →
      CartesianCursor.Pull self context (CartesianCursor.init left right) frame =
        .raised .HintedAbortError) := by
  cases left with
  | nil =>
    refine ⟨fun _ => ⟨_, rfl⟩, fun h => ?_⟩
    simp at h
  | cons l left =>
    cases right with
    | nil =>
      refine ⟨fun _ => ⟨_, rfl⟩, fun h => ?_⟩
      simp at h
    | cons r right =>
      refine ⟨fun h => ?_, fun _ => ?_⟩
      · simp at h
      · simp only [CartesianCursor.Pull, CartesianCursor.pullLeft, CartesianCursor.init,
          Bool.not_false, if_true, List.nil_append, inputFrames, habort]

theorem OptionalCursor_pull_emits {D : Type} (self : Optional D) (context : ExecutionContext)
    (t : Frame D → Frame D) (rest : List (Frame D → Frame D)) (frame : Frame D) (fuel : Nat) :
    ∃ s, OptionalCursor.Pull self context (fuel + 1) (OptionalCursor.init self (t :: rest))
      frame = .ok true s := by
  simp only [OptionalCursor.Pull, OptionalCursor.Body, OptionalCursor.init, if_true,
    OptionalCursor.pullOptional]
  cases self.optional_ with
  | nil => exact ⟨_, rfl⟩
  | cons o more => exact ⟨_, rfl⟩

theorem MergeCursor_pull_emits {D : Type} (self : Merge D) (context : ExecutionContext)
    (t : Frame D → Frame D) (rest : List (Frame D → Frame D)) (frame : Frame D) (fuel : Nat) :
    ∃ s, MergeCursor.Pull self context (fuel + 1) (MergeCursor.init self (t :: rest))
      frame = .ok true s := by
  simp only [MergeCursor.Pull, MergeCursor.Body, MergeCursor.init, if_true,
    MergeCursor.pullMatch]
  cases self.merge_match_ with
  | nil =>
    cases self.merge_create_ with
    | nil => exact ⟨_, rfl⟩
    | cons c more => exact ⟨_, rfl⟩
  | cons m more => exact ⟨_, rfl⟩

theorem DistinctCursor_pull_any_context {D : Type} (ops : TypedValueOps D) (self : Distinct)
    (context1 context2 : ExecutionContext) (input : List (Frame D → Frame D)) :
    ∀ (seen_rows_ : List (List (TypedValue D))) (frame : Frame D),
      DistinctCursor.PullFrom ops self context1 input seen_rows_ frame =
        DistinctCursor.PullFrom ops self context2 input seen_rows_ frame := by
  induction input with
  | nil => intro seen_rows_ frame; rfl
  | cons t rest ih =>
    intro seen_rows_ frame
    simp only [DistinctCursor.PullFrom, ih]

theorem MergeCursor_pull_any_context {D : Type} (self : Merge D)
    (context1 context2 : ExecutionContext) (fuel : Nat) :
    ∀ (cur : MergeCursor D) (frame : Frame D),
      MergeCursor.Pull self context1 fuel cur frame =
        MergeCursor.Pull self context2 fuel cur frame := by
  induction fuel with
  | zero => intro cur frame; rfl
  | succ fuel ih =>
    intro cur frame
    simp only [MergeCursor.Pull, MergeCursor.Body, ih]

theorem OptionalCursor_pull_any_context {D : Type} (self : Optional D)
    (context1 context2 : ExecutionContext) (fuel : Nat) :
    ∀ (cur : OptionalCursor D) (frame : Frame D),
      OptionalCursor.Pull self context1 fuel cur frame =
        OptionalCursor.Pull self context2 fuel cur frame := by
  induction fuel with
  | zero => intro cur frame; rfl
  | succ fuel ih =>
    intro cur frame
    simp only [OptionalCursor.Pull, OptionalCursor.Body, ih]

/-- C25, as stated, fails for `Distinct`, `Union`, `Optional` and `Merge`, which
emit a tuple while the abort flag is set, and for `Cartesian` over an empty left
child, which returns false and raises nothing. -/
theorem compositional_cursors_abort_counterexample :
    MustAbort ⟨true⟩ = true ∧
    DistinctCursor.Pull sampleOps sampleDistinct ⟨true⟩
        (DistinctCursor.init (sampleTuples [.Int 5])) sampleFrame =
      .ok true (⟨[], [[.Int 5]]⟩, sampleFrame.set 0 (.Int 5)) ∧
    UnionCursor.Pull (fun _ => "x") sampleUnion ⟨true⟩ ⟨sampleTuples [.Int 5], []⟩ sampleFrame =
      .ok true (⟨[], []⟩, (sampleFrame.set 0 (.Int 5)).set 1 (.Int 5)) ∧
    OptionalCursor.Pull sampleOptional ⟨true⟩ 1
        (OptionalCursor.init sampleOptional (sampleTuples [.Int 5])) sampleFrame =
      .ok true (⟨[], [], true⟩, (sampleFrame.set 0 (.Int 5)).set 1 .Null) ∧
    MergeCursor.Pull sampleMerge ⟨true⟩ 1
        (MergeCursor.init sampleMerge (sampleTuples [.Int 5])) sampleFrame =
      .ok true (⟨[], [], [], true⟩, (sampleFrame.set 0 (.Int 5)).set 1 (.Vertex 9)) ∧
    CartesianCursor.Pull sampleCartesian ⟨true⟩
        (CartesianCursor.init [] (sampleTuples [.Int 5])) sampleFrame =
      .ok false (⟨[], fun _ => .Null, [], sampleTuples [.Int 5], [], true⟩, sampleFrame) :=
  ⟨rfl, rfl, rfl, rfl, rfl, rfl⟩

/-- C25, amended. Let the abort flag of the execution context be set. Of the six
operators only `Unwind` raises `HintedAbortError` on every pull, whatever its state
and its input. A pull of `Cartesian` emits no tuple: it raises `HintedAbortError`
when both of its children yield a tuple, and returns false, raising nothing, when
one of them yields none. `Distinct`, `Union`, `Optional` and `Merge` make no check
of their own: their pull is the same for every execution context, and over children
that make no check either the first pull over a non-empty input emits a tuple. -/
theorem compositional_cursors_abort_check {D : Type} (context : ExecutionContext)
    (habort : MustAbort context = true) :
    (∀ (self : Unwind D) (cur : UnwindCursor D) (frame : Frame D),
      UnwindCursor.Pull self context cur frame = .raised .HintedAbortError) ∧
    (∀ (self : Cartesian) (cur : CartesianCursor D) (frame : Frame D),
      (∃ s, CartesianCursor.Pull self context cur frame = .ok false s) ∨
        CartesianCursor.Pull self context cur frame = .raised .HintedAbortError) ∧
    (∀ (self : Cartesian) (left right : List (Frame D → Frame D)) (frame : Frame D),
      ((left.isEmpty || right.isEmpty) = true →
        ∃ s, CartesianCursor.Pull self context (CartesianCursor.init left right) frame =
          .ok false s) ∧
      ((left.isEmpty || right.isEmpty) = false →
        CartesianCursor.Pull self context (CartesianCursor.init left right) frame =
          .raised .HintedAbortError)) ∧
    (∀ (ops : TypedValueOps D) (self : Distinct) (t : Frame D → Frame D)
      (rest : List (Frame D → Frame D)) (frame : Frame D),
      DistinctCursor.Pull ops self context (DistinctCursor.init (t :: rest)) frame =
        .ok true (⟨rest, [self.value_symbols_.map (fun symbol => t frame symbol)]⟩, t frame)) ∧
    (∀ (name : Symbol → String) (self : Union) (l : Frame D → Frame D)
      (more right : List (Frame D → Frame D)) (frame : Frame D),
      ∃ frame1, UnionCursor.Pull name self context ⟨l :: more, right⟩ frame =
        .ok true (⟨more, right⟩, frame1)) ∧
    (∀ (self : Optional D) (t : Frame D → Frame D) (rest : List (Frame D → Frame D))
      (frame : Frame D) (fuel : Nat),
      ∃ s, OptionalCursor.Pull self context (fuel + 1) (OptionalCursor.init self (t :: rest))
        frame = .ok true s) ∧
    (∀ (self : Merge D) (t : Frame D → Frame D) (rest : List (Frame D → Frame D))
      (frame : Frame D) (fuel : Nat),
      ∃ s, MergeCursor.Pull self context (fuel + 1) (MergeCursor.init self (t :: rest))
        frame = .ok true s) ∧
    (∀ (other : ExecutionContext),
      (∀ (ops : TypedValueOps D) (self : Distinct) (cur : DistinctCursor D) (frame : Frame D),
        DistinctCursor.Pull ops self context cur frame =
          DistinctCursor.Pull ops self other cur frame) ∧
      (∀ (name : Symbol → String) (self : Union) (cur : UnionCursor D) (frame : Frame D),
        UnionCursor.Pull name self context cur frame =
          UnionCursor.Pull name self other cur frame) ∧
      (∀ (self : Optional D) (fuel : Nat) (cur : OptionalCursor D) (frame : Frame D),
        OptionalCursor.Pull self context fuel cur frame =
          OptionalCursor.Pull self other fuel cur frame) ∧
      (∀ (self : Merge D) (fuel : Nat) (cur : MergeCursor D) (frame : Frame D),
        MergeCursor.Pull self context fuel cur frame =
          MergeCursor.Pull self other fuel cur frame)) := by
  refine ⟨?_, ?_, ?_, ?_, ?_, ?_, ?_, ?_⟩
  · intro self cur frame
    exact UnwindCursor_pull_abort self context habort cur frame
  · intro self cur frame
    exact CartesianCursor_pull_abort self context habort cur frame
  · intro self left right frame
    exact CartesianCursor_pull_abort_init self context habort left right frame
  · intro ops self t rest frame
    simp [DistinctCursor.Pull, DistinctCursor.init, DistinctCursor.PullFrom]
  · intro name self l more right frame
    exact ⟨_, rfl⟩
  · intro self t rest frame fuel
    exact OptionalCursor_pull_emits self context t rest frame fuel
  · intro self t rest frame fuel
    exact MergeCursor_pull_emits self context t rest frame fuel
  · intro other
    refine ⟨?_, ?_, ?_, ?_⟩
    · intro ops self cur frame
      exact DistinctCursor_pull_any_context ops self context other _ _ _
    · intro name self cur frame
      rfl
    · intro self fuel cur frame
      exact OptionalCursor_pull_any_context self context other fuel cur frame
    · intro self fuel cur frame
      exact MergeCursor_pull_any_context self context other fuel cur frame

theorem compositional_cursors_abort_check_witness :
    UnwindCursor.Pull sampleUnwind ⟨true⟩ (UnwindCursor.init (sampleTuples [.List [.Int 1]]))
        sampleFrame = .raised .HintedAbortError ∧
    CartesianCursor.Pull sampleCartesian ⟨true⟩
        (CartesianCursor.init (sampleTuples [.Int 5])
          [fun frame => frame.set 1 (.Int 6)]) sampleFrame = .raised .HintedAbortError ∧
    DistinctCursor.Pull sampleOps sampleDistinct ⟨true⟩
        (DistinctCursor.init (sampleTuples [.Int 5])) sampleFrame =
      DistinctCursor.Pull sampleOps sampleDistinct ⟨false⟩
        (DistinctCursor.init (sampleTuples [.Int 5])) sampleFrame :=
  ⟨(compositional_cursors_abort_check ⟨true⟩ rfl).1 sampleUnwind
      (UnwindCursor.init (sampleTuples [.List [.Int 1]])) sampleFrame,
   ((compositional_cursors_abort_check ⟨true⟩ rfl).2.2.1 sampleCartesian
      (sampleTuples [.Int 5]) [fun frame => frame.set 1 (.Int 6)] sampleFrame).2 rfl,
   ((compositional_cursors_abort_check ⟨true⟩ rfl).2.2.2.2.2.2.2 ⟨false⟩).1 sampleOps
      sampleDistinct (DistinctCursor.init (sampleTuples [.Int 5])) sampleFrame⟩

/-! ### Recovery: the skip predicate and the id passed on by `RecoverSnapshot` -/

/-- C27. For a snapshot whose list of active transactions is not empty and a
transaction id in the list, the skip predicate of `RecoverWal` is true exactly when
the id is less than the first element of the list: `first_to_recover` is the first
element, not the least. So the predicate is false for every id of a list whose first
element is its least, as in a list in ascending order, and it is true for the id 3
of the list 5, 3 of a snapshot written by the transaction 6: the records of that
active transaction are skipped. -/
theorem RecoverWal_should_skip_active_transaction (snapshooter_tx_id wal_max : TransactionId)
    (first : TransactionId) (rest : List TransactionId) (indexes : List (String × String))
    (tx_id : TransactionId) (hmem : tx_id ∈ first :: rest) :
    should_skip ⟨snapshooter_tx_id, wal_max, first :: rest, indexes⟩ tx_id =
      decide (tx_id < first) ∧
    ((∀ id ∈ rest, first ≤ id) →
      should_skip ⟨snapshooter_tx_id, wal_max, first :: rest, indexes⟩ tx_id = false) ∧
    should_skip ⟨6, 0, [5, 3], []⟩ 3 = true := by
  have hc : (first :: rest).contains tx_id = true := by
    simpa using hmem
  have h1 : should_skip ⟨snapshooter_tx_id, wal_max, first :: rest, indexes⟩ tx_id =
      decide (tx_id < first) := by
    simp only [should_skip, first_to_recover, hc, Bool.not_true, Bool.and_false, Bool.or_false]
  refine ⟨h1, ?_, by decide⟩
  intro hleast
  rw [h1, decide_eq_false_iff_not, Nat.not_lt]
  rcases List.mem_cons.mp hmem with h | h
  · exact Nat.le_of_eq h.symm
  · exact hleast tx_id h

theorem RecoverWal_should_skip_active_transaction_witness :
    should_skip ⟨6, 0, [3, 5], []⟩ 5 = decide (5 < 3) ∧
    should_skip ⟨6, 0, [3, 5], []⟩ 5 = false :=
  ⟨(RecoverWal_should_skip_active_transaction 6 0 3 [5] [] 5 (by decide)).1,
   (RecoverWal_should_skip_active_transaction 6 0 3 [5] [] 5 (by decide)).2.1 (by decide)⟩

theorem max_element_spec (rest : List TransactionId) :
    ∀ first : TransactionId, first ≤ max_element first rest ∧
      (∀ id ∈ rest, id ≤ max_element first rest) ∧
      max_element first rest ∈ first :: rest := by
  induction rest with
  | nil =>
    intro first
    exact ⟨Nat.le_refl _, fun _ h => absurd h (List.not_mem_nil _), List.mem_cons_self _ _⟩
  | cons a rest ih =>
    intro first
    simp only [max_element, List.foldl_cons]
    by_cases h : first < a
    · simp only [h, if_true]
      have h1 := ih a
      simp only [max_element] at h1
      refine ⟨Nat.le_trans (Nat.le_of_lt h) h1.1, ?_, List.mem_cons_of_mem _ h1.2.2⟩
      intro id hid
      rcases List.mem_cons.mp hid with h2 | h2
      · rw [h2]; exact h1.1
      · exact h1.2.1 id h2
    · simp only [h, if_false]
      have h1 := ih first
      simp only [max_element] at h1
      refine ⟨h1.1, ?_, ?_⟩
      · intro id hid
        rcases List.mem_cons.mp hid with h2 | h2
        · rw [h2]; exact Nat.le_trans (Nat.not_lt.mp h) h1.1
        · exact h1.2.1 id h2
      · rcases List.mem_cons.mp h1.2.2 with h2 | h2
        · rw [h2]; exact List.mem_cons_self _ _
        · exact List.mem_cons_of_mem _ (List.mem_cons_of_mem _ h2)

theorem RecoverSnapshot_finish_success (snapshot_file : SnapshotFile)
    (recovery_data : RecoveryData)
    (h : (RecoverSnapshot.finish snapshot_file recovery_data).success = true) :
    (RecoverSnapshot.finish snapshot_file recovery_data).ensured =
      some (RecoverSnapshot.max_id
        (RecoverSnapshot.finish snapshot_file recovery_data).recovery_data) := by
  revert h
  unfold RecoverSnapshot.finish
  cases snapshot_file.graph <;> cases snapshot_file.hash <;> simp

theorem RecoverSnapshot_lists_success (snapshot_file : SnapshotFile)
    (recovery_data : RecoveryData) (values : List DecodedValue)
    (h : (RecoverSnapshot.lists snapshot_file recovery_data values).success = true) :
    (RecoverSnapshot.lists snapshot_file recovery_data values).ensured =
      some (RecoverSnapshot.max_id
        (RecoverSnapshot.lists snapshot_file recovery_data values).recovery_data) := by
  revert h
  unfold RecoverSnapshot.lists
  split
  · dsimp only
    split
    · intro h; cases h
    · split
      · split
        · intro h; cases h
        · exact RecoverSnapshot_finish_success _ _
      · intro h; cases h
  · intro h; cases h

theorem RecoverSnapshot_success (kVersion WorkerId : Int) (snapshot_file : SnapshotFile)
    (recovery_data : RecoveryData)
    (h : (RecoverSnapshot kVersion WorkerId snapshot_file recovery_data).success = true) :
    (RecoverSnapshot kVersion WorkerId snapshot_file recovery_data).ensured =
      some (RecoverSnapshot.max_id
        (RecoverSnapshot kVersion WorkerId snapshot_file recovery_data).recovery_data) := by
  revert h
  unfold RecoverSnapshot
  split
  · intro h; cases h
  · split
    · intro h; cases h
    · split
      · intro h; cases h
      · split
        · split
          · intro h; cases h
          · split
            · intro h; cases h
            · exact RecoverSnapshot_lists_success _ _ _
        · intro h; cases h

theorem RecoverSnapshot_max_id_spec (recovery_data : RecoveryData) :
    (∀ id ∈ recovery_data.snapshooter_tx_snapshot, id ≤ RecoverSnapshot.max_id recovery_data) ∧
    (recovery_data.snapshooter_tx_snapshot = [] →
      RecoverSnapshot.max_id recovery_data = recovery_data.snapshooter_tx_id) ∧
    (recovery_data.snapshooter_tx_snapshot ≠ [] →
      RecoverSnapshot.max_id recovery_data ∈ recovery_data.snapshooter_tx_snapshot) := by
  unfold RecoverSnapshot.max_id
  cases recovery_data.snapshooter_tx_snapshot with
  | nil =>
    exact ⟨fun _ h => absurd h (List.not_mem_nil _), fun _ => rfl, fun h => absurd rfl h⟩
  | cons first rest =>
    have h1 := max_element_spec rest first
    refine ⟨?_, fun h => absurd h (List.cons_ne_nil _ _), fun _ => h1.2.2⟩
    intro id hid
    rcases List.mem_cons.mp hid with h2 | h2
    · rw [h2]; exact h1.1
    · exact h1.2.1 id h2

/-- C28. When `RecoverSnapshot` succeeds, the id it passes to
`EnsureNextIdGreater` is at least every id of the transaction snapshot of the
snapshooter; it is the id of the snapshooter when the transaction snapshot is empty
and an id of the transaction snapshot otherwise. So it is less than the id of the
snapshooter whenever the transaction snapshot is not empty and holds lesser ids
only: for the sample snapshot, written by the transaction 10 while the transactions
3 and 5 were active, the id passed is 5. -/
theorem RecoverSnapshot_ensures_greatest_snapshot_id (kVersion WorkerId : Int)
    (snapshot_file : SnapshotFile) (recovery_data : RecoveryData)
    (h : (RecoverSnapshot kVersion WorkerId snapshot_file recovery_data).success = true) :
    (∃ max_id, (RecoverSnapshot kVersion WorkerId snapshot_file recovery_data).ensured =
        some max_id ∧
      (∀ id ∈ (RecoverSnapshot kVersion WorkerId snapshot_file
          recovery_data).recovery_data.snapshooter_tx_snapshot, id ≤ max_id) ∧
      ((RecoverSnapshot kVersion WorkerId snapshot_file
          recovery_data).recovery_data.snapshooter_tx_snapshot = [] →
        max_id = (RecoverSnapshot kVersion WorkerId snapshot_file
          recovery_data).recovery_data.snapshooter_tx_id) ∧
      ((RecoverSnapshot kVersion WorkerId snapshot_file
          recovery_data).recovery_data.snapshooter_tx_snapshot ≠ [] →
        max_id ∈ (RecoverSnapshot kVersion WorkerId snapshot_file
          recovery_data).recovery_data.snapshooter_tx_snapshot)) ∧
    RecoverSnapshot 6 0 sampleSnapshot RecoveryData.init = ⟨true, ⟨10, 0, [3, 5], []⟩, some 5⟩ :=
  ⟨⟨_, RecoverSnapshot_success kVersion WorkerId snapshot_file recovery_data h,
    RecoverSnapshot_max_id_spec _⟩, by decide⟩

theorem RecoverSnapshot_ensures_greatest_snapshot_id_witness :
    (RecoverSnapshot 6 0 sampleSnapshot RecoveryData.init).success = true ∧
    ∃ max_id, (RecoverSnapshot 6 0 sampleSnapshot RecoveryData.init).ensured = some max_id ∧
      max_id ∈ (RecoverSnapshot 6 0 sampleSnapshot
        RecoveryData.init).recovery_data.snapshooter_tx_snapshot :=
  ⟨by decide,
   ((RecoverSnapshot_ensures_greatest_snapshot_id 6 0 sampleSnapshot RecoveryData.init
      (by decide)).1).imp (fun _ hm => ⟨hm.1, hm.2.2.2 (by decide)⟩)⟩

/-! ### Recovery: the transactions `RecoverWal` commits -/

theorem lookup_some_mem {α β : Type} [BEq α] [LawfulBEq α] (l : List (α × β)) (k : α) (v : β)
    (h : l.lookup k = some v) : (k, v) ∈ l := by
  induction l with
  | nil => cases h
  | cons p l ih =>
    obtain ⟨a, b⟩ := p
    rw [List.lookup_cons] at h
    cases hk : (k == a) with
    | true =>
      rw [hk] at h
      have hka : k = a := eq_of_beq hk
      cases h
      rw [hka]
      exact List.mem_cons_self _ _
    | false =>
      rw [hk] at h
      exact List.mem_cons_of_mem _ (ih h)

theorem WalSound_mono (skip : TransactionId → Bool) (seen seen1 : List StateDelta)
    (s : WalRecovery) (hsub : ∀ d ∈ seen, d ∈ seen1) (h : WalSound skip seen s) :
    WalSound skip seen1 s := by
  refine ⟨?_, ?_⟩
  · intro p hp
    obtain ⟨h1, ⟨d, hd, hd1⟩, h3⟩ := h.1 p hp
    exact ⟨h1, ⟨d, hsub d hd, hd1⟩, fun d1 hd1 => ⟨(h3 d1 hd1).1, hsub _ (h3 d1 hd1).2⟩⟩
  · intro p hp
    obtain ⟨h1, h3⟩ := h.2 p hp
    exact ⟨h1, fun d1 hd1 => ⟨(h3 d1 hd1).1, hsub _ (h3 d1 hd1).2⟩⟩

theorem readDelta_sound (skip : TransactionId → Bool) (seen : List StateDelta)
    (s s1 : WalRecovery) (delta : StateDelta) (h : WalSound skip seen s)
    (hr : readDelta skip s delta = some s1) : WalSound skip (seen ++ [delta]) s1 := by
  have hm := WalSound_mono skip seen (seen ++ [delta]) s
    (fun d hd => List.mem_append_left _ hd) h
  have hlast : delta ∈ seen ++ [delta] := List.mem_append_right _ (List.mem_singleton_self _)
  unfold readDelta at hr
  simp only at hr
  by_cases hskip : skip delta.transaction_id = true
  · simp only [hskip, if_true, Option.some.injEq] at hr
    subst hr
    exact hm
  · have hns : skip delta.transaction_id = false := by
      cases hk : skip delta.transaction_id with
      | true => exact absurd hk hskip
      | false => rfl
    simp only [hskip, Bool.false_eq_true, if_false] at hr
    cases htype : delta.type with
    | TRANSACTION_BEGIN =>
      simp only [htype] at hr
      cases hl : List.lookup delta.transaction_id s.accessors with
      | some acc =>
        simp only [hl, Option.some.injEq, Bool.false_eq_true, if_false, if_true] at hr
        subst hr
        exact hm
      | none =>
        simp only [hl, Option.some.injEq, Bool.false_eq_true, if_false, if_true] at hr
        subst hr
        refine ⟨hm.1, ?_⟩
        intro p hp
        rcases List.mem_append.mp hp with h1 | h1
        · exact hm.2 p h1
        · rw [List.mem_singleton] at h1
          subst h1
          exact ⟨hns, fun d hd => absurd hd (List.not_mem_nil _)⟩
    | TRANSACTION_ABORT =>
      simp only [htype] at hr
      cases hl : List.lookup delta.transaction_id s.accessors with
      | none => simp [hl] at hr
      | some acc =>
        simp only [hl, Option.some.injEq, Bool.false_eq_true, if_false, if_true] at hr
        subst hr
        exact ⟨hm.1, fun p hp => hm.2 p (List.mem_of_mem_filter hp)⟩
    | TRANSACTION_COMMIT =>
      simp only [htype] at hr
      cases hl : List.lookup delta.transaction_id s.accessors with
      | none => simp [hl] at hr
      | some acc =>
        simp only [hl, Option.some.injEq, Bool.false_eq_true, if_false, if_true] at hr
        subst hr
        refine ⟨?_, fun p hp => hm.2 p (List.mem_of_mem_filter hp)⟩
        intro p hp
        rcases List.mem_append.mp hp with h1 | h1
        · exact hm.1 p h1
        · rw [List.mem_singleton] at h1
          subst h1
          have hacc := hm.2 _ (lookup_some_mem _ _ _ hl)
          exact ⟨hns, ⟨delta, hlast, htype, rfl⟩, hacc.2⟩
    | BUILD_INDEX =>
      simp only [htype, Option.some.injEq, Bool.false_eq_true, if_false] at hr
      subst hr
      exact hm
    | OTHER change =>
      simp only [htype] at hr
      cases hl : List.lookup delta.transaction_id s.accessors with
      | none => simp [hl] at hr
      | some acc =>
        simp only [hl, Option.some.injEq, Bool.false_eq_true, if_false, if_true] at hr
        subst hr
        refine ⟨hm.1, ?_⟩
        intro p hp
        obtain ⟨q, hq, hqp⟩ := List.mem_map.mp hp
        have hq1 := hm.2 q hq
        by_cases hkey : q.1 = delta.transaction_id
        · simp only [hkey, if_true] at hqp
          subst hqp
          refine ⟨hns, ?_⟩
          intro d hd
          rcases List.mem_append.mp hd with h1 | h1
          · exact ⟨(hq1.2 d h1).1.trans hkey, (hq1.2 d h1).2⟩
          · rw [List.mem_singleton] at h1
            subst h1
            exact ⟨rfl, hlast⟩
        · simp only [hkey, if_false] at hqp
          subst hqp
          exact hq1

theorem readDelta_committed (skip : TransactionId → Bool) (s s1 : WalRecovery)
    (delta : StateDelta) (hr : readDelta skip s delta = some s1) :
    (∀ p ∈ s.committed, p ∈ s1.committed) ∧
    (delta.type = .TRANSACTION_COMMIT → skip delta.transaction_id = false →
      ∃ ds, (delta.transaction_id, ds) ∈ s1.committed) := by
  unfold readDelta at hr
  simp only at hr
  by_cases hskip : skip delta.transaction_id = true
  · simp only [hskip, if_true, Option.some.injEq] at hr
    subst hr
    exact ⟨fun p hp => hp, fun _ h => by rw [hskip] at h; cases h⟩
  · simp only [hskip, Bool.false_eq_true, if_false] at hr
    cases htype : delta.type with
    | TRANSACTION_BEGIN =>
      simp only [htype] at hr
      cases hl : List.lookup delta.transaction_id s.accessors with
      | some acc =>
        simp only [hl, Option.some.injEq, Bool.false_eq_true, if_false, if_true] at hr
        subst hr
        exact ⟨fun p hp => hp, fun h => by cases h⟩
      | none =>
        simp only [hl, Option.some.injEq, Bool.false_eq_true, if_false, if_true] at hr
        subst hr
        exact ⟨fun p hp => hp, fun h => by cases h⟩
    | TRANSACTION_ABORT =>
      simp only [htype] at hr
      cases hl : List.lookup delta.transaction_id s.accessors with
      | none => simp [hl] at hr
      | some acc =>
        simp only [hl, Option.some.injEq, Bool.false_eq_true, if_false, if_true] at hr
        subst hr
        exact ⟨fun p hp => hp, fun h => by cases h⟩
    | TRANSACTION_COMMIT =>
      simp only [htype] at hr
      cases hl : List.lookup delta.transaction_id s.accessors with
      | none => simp [hl] at hr
      | some acc =>
        simp only [hl, Option.some.injEq, Bool.false_eq_true, if_false, if_true] at hr
        subst hr
        exact ⟨fun p hp => List.mem_append_left _ hp,
          fun _ _ => ⟨acc, List.mem_append_right _ (List.mem_singleton_self _)⟩⟩
    | BUILD_INDEX =>
      simp only [htype, Option.some.injEq, Bool.false_eq_true, if_false] at hr
      subst hr
      exact ⟨fun p hp => hp, fun h => by cases h⟩
    | OTHER change =>
      simp only [htype] at hr
      cases hl : List.lookup delta.transaction_id s.accessors with
      | none => simp [hl] at hr
      | some acc =>
        simp only [hl, Option.some.injEq, Bool.false_eq_true, if_false, if_true] at hr
        subst hr
        exact ⟨fun p hp => hp, fun h => by cases h⟩

theorem readDeltas_sound (skip : TransactionId → Bool) (deltas : List StateDelta) :
    ∀ (seen : List StateDelta) (s : WalRecovery), WalSound skip seen s →
      (∀ s1, readDeltas skip s deltas = .ok s1 → WalSound skip (seen ++ deltas) s1) ∧
      (∀ s1, readDeltas skip s deltas = .error s1 → WalSound skip (seen ++ deltas) s1) := by
  induction deltas with
  | nil =>
    intro seen s h
    rw [List.append_nil]
    refine ⟨?_, ?_⟩
    · intro s1 h1
      simp only [readDeltas, Except.ok.injEq] at h1
      rw [← h1]
      exact h
    · intro s1 h1
      simp only [readDeltas] at h1
      cases h1
  | cons delta deltas ih =>
    intro seen s h
    simp only [readDeltas]
    cases hr : readDelta skip s delta with
    | none =>
      refine ⟨?_, ?_⟩
      · intro s1 h1
        cases h1
      · intro s1 h1
        cases h1
        exact WalSound_mono skip seen _ s (fun d hd => List.mem_append_left _ hd) h
    | some s2 =>
      have h2 := ih (seen ++ [delta]) s2 (readDelta_sound skip seen s s2 delta h hr)
      simp only [List.append_assoc, List.singleton_append] at h2
      exact h2

theorem readDeltas_complete (skip : TransactionId → Bool) (deltas : List StateDelta) :
    ∀ (seen : List StateDelta) (s s1 : WalRecovery), readDeltas skip s deltas = .ok s1 →
      WalComplete skip seen s → WalComplete skip (seen ++ deltas) s1 := by
  induction deltas with
  | nil =>
    intro seen s s1 hr h
    simp only [readDeltas] at hr
    cases hr
    rw [List.append_nil]
    exact h
  | cons delta deltas ih =>
    intro seen s s1 hr h
    simp only [readDeltas] at hr
    cases hd : readDelta skip s delta with
    | none => rw [hd] at hr; cases hr
    | some s2 =>
      rw [hd] at hr
      have hc := readDelta_committed skip s s2 delta hd
      have h2 : WalComplete skip (seen ++ [delta]) s2 := by
        intro d hmem htype hskip
        rcases List.mem_append.mp hmem with h1 | h1
        · obtain ⟨ds, hds⟩ := h d h1 htype hskip
          exact ⟨ds, hc.1 _ hds⟩
        · rw [List.mem_singleton] at h1
          subst h1
          exact hc.2 htype hskip
      have h3 := ih (seen ++ [delta]) s2 s1 hr h2
      simp only [List.append_assoc, List.singleton_append] at h3
      exact h3

theorem readFiles_sound (first : TransactionId) (skip : TransactionId → Bool)
    (wal_files : List WalFile) :
    ∀ (seen : List StateDelta) (s : WalRecovery), WalSound skip seen s →
      WalSound skip (seen ++ walDeltas first wal_files) (readFiles first skip s wal_files).state := by
  induction wal_files with
  | nil =>
    intro seen s h
    simp only [readFiles, walDeltas, List.append_nil, WalResult.state]
    exact h
  | cons wal_file wal_files ih =>
    intro seen s h
    simp only [readFiles, walDeltas]
    cases hmax : wal_file.max_tx_id with
    | none => exact ih seen s h
    | some wal_file_max_tx_id =>
      simp only
      by_cases hlt : wal_file_max_tx_id < first
      · simp only [hlt, if_true]
        exact ih seen s h
      · simp only [hlt, if_false]
        cases hopen : wal_file.opens with
        | false =>
          simp only [Bool.not_false, if_true, List.append_nil, WalResult.state]
          exact h
        | true =>
          simp only [Bool.not_true, Bool.false_eq_true, if_false]
          have hd := readDeltas_sound skip wal_file.deltas seen s h
          cases hr : readDeltas skip s wal_file.deltas with
          | error s1 =>
            simp only [WalResult.state]
            exact WalSound_mono skip (seen ++ wal_file.deltas) _ s1
              (fun d hmem => by
                rw [← List.append_assoc]
                exact List.mem_append_left _ hmem)
              (hd.2 s1 hr)
          | ok s1 =>
            have h2 := ih (seen ++ wal_file.deltas) s1 (hd.1 s1 hr)
            rw [List.append_assoc] at h2
            exact h2

theorem readFiles_complete (first : TransactionId) (skip : TransactionId → Bool)
    (wal_files : List WalFile) :
    ∀ (seen : List StateDelta) (s s1 : WalRecovery) (r : Bool),
      readFiles first skip s wal_files = .returned r s1 → WalComplete skip seen s →
      WalComplete skip (seen ++ walDeltas first wal_files) s1 := by
  induction wal_files with
  | nil =>
    intro seen s s1 r hr h
    simp only [readFiles, WalResult.returned.injEq] at hr
    rw [← hr.2]
    simp only [walDeltas, List.append_nil]
    exact h
  | cons wal_file wal_files ih =>
    intro seen s s1 r hr h
    simp only [readFiles] at hr
    simp only [walDeltas]
    cases hmax : wal_file.max_tx_id with
    | none =>
      rw [hmax] at hr
      exact ih seen s s1 r hr h
    | some wal_file_max_tx_id =>
      rw [hmax] at hr
      simp only at hr ⊢
      by_cases hlt : wal_file_max_tx_id < first
      · simp only [hlt, if_true] at hr ⊢
        exact ih seen s s1 r hr h
      · simp only [hlt, if_false] at hr ⊢
        cases hopen : wal_file.opens with
        | false =>
          rw [hopen] at hr
          simp only [Bool.not_false, if_true, WalResult.returned.injEq] at hr
          simp only [Bool.not_false, if_true, List.append_nil]
          rw [← hr.2]
          exact h
        | true =>
          rw [hopen] at hr
          simp only [Bool.not_true, Bool.false_eq_true, if_false] at hr ⊢
          cases hd : readDeltas skip s wal_file.deltas with
          | error s2 => rw [hd] at hr; cases hr
          | ok s2 =>
            rw [hd] at hr
            have h2 := ih (seen ++ wal_file.deltas) s2 s1 r hr
              (readDeltas_complete skip wal_file.deltas seen s s2 hd h)
            rw [List.append_assoc] at h2
            exact h2

/-- C26. For every sequence of WAL files and every recovery data, however
`RecoverWal` ends, every accessor it has committed belongs to a transaction that is
not skipped and of which a `TRANSACTION_COMMIT` record is among the records of the
files, and holds records of that transaction only. When `RecoverWal` returns, a
transaction that is not skipped has a committed accessor if and only if a
`TRANSACTION_COMMIT` record of it is among the records read. So no record of a
transaction without a `TRANSACTION_COMMIT` record, be it ended by
`TRANSACTION_ABORT` or not ended at all, is in a committed accessor. -/
theorem RecoverWal_commits_committed_transactions (wal_files : List WalFile)
    (recovery_data : RecoveryData) :
    (∀ p ∈ (RecoverWal wal_files recovery_data).state.committed,
      should_skip recovery_data p.1 = false ∧
      (∃ d ∈ walDeltas (first_to_recover recovery_data) wal_files,
        d.type = .TRANSACTION_COMMIT ∧ d.transaction_id = p.1) ∧
      ∀ d ∈ p.2, d.transaction_id = p.1 ∧
        d ∈ walDeltas (first_to_recover recovery_data) wal_files) ∧
    (∀ r s, RecoverWal wal_files recovery_data = .returned r s →
      ∀ tx_id, should_skip recovery_data tx_id = false →
        ((∃ ds, (tx_id, ds) ∈ s.committed) ↔
          ∃ d ∈ walDeltas (first_to_recover recovery_data) wal_files,
            d.type = .TRANSACTION_COMMIT ∧ d.transaction_id = tx_id)) ∧
    (∀ tx_id,
      (∀ d ∈ walDeltas (first_to_recover recovery_data) wal_files,
        d.transaction_id = tx_id → d.type ≠ .TRANSACTION_COMMIT) →
      ∀ p ∈ (RecoverWal wal_files recovery_data).state.committed,
        p.1 ≠ tx_id ∧ ∀ d ∈ p.2, d.transaction_id ≠ tx_id) := by
  have hsound := readFiles_sound (first_to_recover recovery_data) (should_skip recovery_data)
    wal_files [] (WalRecovery.init recovery_data)
    ⟨fun p hp => absurd hp (List.not_mem_nil _), fun p hp => absurd hp (List.not_mem_nil _)⟩
  rw [List.nil_append] at hsound
  refine ⟨hsound.1, ?_, ?_⟩
  · intro r s hr tx_id hskip
    have hcomplete := readFiles_complete (first_to_recover recovery_data)
      (should_skip recovery_data) wal_files [] (WalRecovery.init recovery_data) s r hr
      (fun d hd => absurd hd (List.not_mem_nil _))
    rw [List.nil_append] at hcomplete
    have hstate : (RecoverWal wal_files recovery_data).state = s := by
      rw [RecoverWal] at hr ⊢
      rw [hr]
      rfl
    constructor
    · rintro ⟨ds, hds⟩
      rw [← hstate] at hds
      exact (hsound.1 _ hds).2.1
    · rintro ⟨d, hd, htype, htx⟩
      rw [← htx]
      exact hcomplete d hd htype (by rw [htx]; exact hskip)
  · intro tx_id hno p hp
    obtain ⟨_, ⟨d, hd, htype, htx⟩, hown⟩ := hsound.1 p hp
    have hne : p.1 ≠ tx_id := by
      intro heq
      exact hno d hd (htx.trans heq) htype
    exact ⟨hne, fun d1 hd1 h1 => hne ((hown d1 hd1).1.symm.trans h1)⟩

theorem RecoverWal_commits_committed_transactions_witness :
    RecoverWal sampleWal RecoveryData.init =
      .returned true
        ⟨[(3, [sampleDelta (.OTHER 2) 3])], [(1, [sampleDelta (.OTHER 0) 1])],
          [(2, [sampleDelta (.OTHER 1) 2])], ⟨0, 1, [], []⟩, 3, [3]⟩ ∧
    ((∃ ds, (1, ds) ∈ (RecoverWal sampleWal RecoveryData.init).state.committed) ↔
      ∃ d ∈ walDeltas (first_to_recover RecoveryData.init) sampleWal,
        d.type = .TRANSACTION_COMMIT ∧ d.transaction_id = 1) ∧
    ∀ p ∈ (RecoverWal sampleWal RecoveryData.init).state.committed,
      p.1 ≠ 2 ∧ ∀ d ∈ p.2, d.transaction_id ≠ 2 :=
  ⟨by decide,
   (RecoverWal_commits_committed_transactions sampleWal RecoveryData.init).2.1 true
     (RecoverWal sampleWal RecoveryData.init).state (by decide) 1 (by decide),
   (RecoverWal_commits_committed_transactions sampleWal RecoveryData.init).2.2 2
     (by decide)⟩

/-! ### Storage: removal of a vertex and creation of an edge -/

/-- C29. `VertexAccessor::remove` returns false and leaves the database as it is
when the vertex has an out-edge or an in-edge; it returns true exactly when
`out_degree` and `in_degree` are both 0, and then the record of the vertex, and
nothing else, is removed. -/
theorem VertexAccessor_remove_requires_isolated (db_accessor_ : GraphDbAccessor)
    (self : VertexAccessor) :
    ((VertexAccessor.out_degree db_accessor_ self > 0 ∨
        VertexAccessor.in_degree db_accessor_ self > 0) →
      VertexAccessor.remove db_accessor_ self = (false, db_accessor_)) ∧
    ((VertexAccessor.remove db_accessor_ self).1 = true ↔
      VertexAccessor.out_degree db_accessor_ self = 0 ∧
        VertexAccessor.in_degree db_accessor_ self = 0) ∧
    ((VertexAccessor.remove db_accessor_ self).1 = true →
      VertexAccessor.remove db_accessor_ self =
        (true, { db_accessor_ with removed := db_accessor_.removed ++ [self] })) := by
  by_cases h : VertexAccessor.out_degree db_accessor_ self > 0 ∨
      VertexAccessor.in_degree db_accessor_ self > 0
  · have hr : VertexAccessor.remove db_accessor_ self = (false, db_accessor_) := by
      simp only [VertexAccessor.remove, h, if_true]
    refine ⟨fun _ => hr, ?_, ?_⟩
    · rw [hr]
      constructor
      · intro h1; cases h1
      · intro h1; omega
    · rw [hr]
      intro h1; cases h1
  · have hr : VertexAccessor.remove db_accessor_ self =
        (true, { db_accessor_ with removed := db_accessor_.removed ++ [self] }) := by
      simp only [VertexAccessor.remove, h, if_false, VersionList.remove]
    refine ⟨fun h1 => absurd h1 h, ?_, fun _ => hr⟩
    rw [hr]
    constructor
    · intro _; omega
    · intro _; rfl

theorem VertexAccessor_remove_requires_isolated_witness :
    VertexAccessor.remove sampleDb 0 = (false, sampleDb) ∧
    ((VertexAccessor.remove sampleDb 2).1 = true ↔
      VertexAccessor.out_degree sampleDb 2 = 0 ∧ VertexAccessor.in_degree sampleDb 2 = 0) ∧
    VertexAccessor.remove sampleDb 2 =
      (true, { sampleDb with removed := sampleDb.removed ++ [2] }) :=
  ⟨(VertexAccessor_remove_requires_isolated sampleDb 0).1 (Or.inl (by decide)),
   (VertexAccessor_remove_requires_isolated sampleDb 2).2.1,
   (VertexAccessor_remove_requires_isolated sampleDb 2).2.2 rfl⟩

theorem insertAttempts_true_iff (insert : List Nat → Nat → Bool × List Nat) (vlist : Nat) :
    ∀ (attempts : Nat) (container : List Nat),
      (insertAttempts insert attempts container vlist).1 = true ↔
        ∃ i, i < attempts ∧
          (insert ((fun c => (insert c vlist).2)^[i] container) vlist).1 = true := by
  intro attempts
  induction attempts with
  | zero =>
    intro container
    simp [insertAttempts]
  | succ attempts ih =>
    intro container
    rw [insertAttempts]
    by_cases h : (insert container vlist).1 = true
    · simp only [h, if_true, true_iff]
      exact ⟨0, Nat.succ_pos _, h⟩
    · simp only [h, if_false, Bool.false_eq_true]
      rw [ih]
      constructor
      · rintro ⟨i, hi, hins⟩
        exact ⟨i + 1, Nat.succ_lt_succ hi, by simpa [Function.iterate_succ] using hins⟩
      · rintro ⟨i, hi, hins⟩
        cases i with
        | zero => exact absurd hins h
        | succ i =>
          exact ⟨i, Nat.lt_of_succ_lt_succ hi, by simpa [Function.iterate_succ] using hins⟩

/-- C30. For every database, all vertices `from` and `to` and every edge type,
`insert_edge` returns if and only if one of its five attempts to insert the new
version list into the container of the edges succeeds. When it returns, the record
of the new edge has the given type and the endpoints `from` and `to`, the out-edges
of `from` contain the new edge and the in-edges of `to` contain the new edge. -/
theorem GraphDbAccessor_insert_edge_connects (insert : List Nat → Nat → Bool × List Nat)
    (self : GraphDbAccessor) (from_vertex to_vertex : VertexAccessor) (type : Nat) :
    ((∃ r, GraphDbAccessor.insert_edge insert self from_vertex to_vertex type = .ok r) ↔
      ∃ i, i < 5 ∧
        (insert ((fun c => (insert c self.next_address).2)^[i] self.edges_)
          self.next_address).1 = true) ∧
    (∀ edge_vlist db,
      GraphDbAccessor.insert_edge insert self from_vertex to_vertex type =
        .ok (edge_vlist, db) →
      (db.edge_record edge_vlist).edge_type_ = type ∧
      (db.edge_record edge_vlist).from_ = from_vertex ∧
      (db.edge_record edge_vlist).to_ = to_vertex ∧
      edge_vlist ∈ (db.vertex_record from_vertex).out_ ∧
      edge_vlist ∈ (db.vertex_record to_vertex).in_) := by
  have hiff := insertAttempts_true_iff insert self.next_address 5 self.edges_
  refine ⟨?_, ?_⟩
  · rw [← hiff]
    simp only [GraphDbAccessor.insert_edge, VertexAccessor.add_to_out, VertexAccessor.add_to_in,
      VertexAccessor.attach_out, VertexAccessor.attach_in]
    cases hins : (insertAttempts insert 5 self.edges_ self.next_address).1 with
    | true => simp
    | false => simp
  · intro edge_vlist db hr
    simp only [GraphDbAccessor.insert_edge, VertexAccessor.add_to_out, VertexAccessor.add_to_in,
      VertexAccessor.attach_out, VertexAccessor.attach_in] at hr
    cases hins : (insertAttempts insert 5 self.edges_ self.next_address).1 with
    | false => simp [hins] at hr
    | true =>
      simp only [hins, if_true, Except.ok.injEq, Prod.mk.injEq] at hr
      obtain ⟨h1, h2⟩ := hr
      subst h1
      subst h2
      simp only [if_true, true_and]
      constructor
      · by_cases hft : from_vertex = to_vertex
        · simp [hft]
        · simp [hft]
      · simp

theorem GraphDbAccessor_insert_edge_connects_witness :
    (∃ r, GraphDbAccessor.insert_edge sampleInsert sampleDb 2 0 7 = .ok r) ∧
    ∃ db, GraphDbAccessor.insert_edge sampleInsert sampleDb 2 0 7 = .ok (11, db) ∧
      (db.edge_record 11).edge_type_ = 7 ∧ (db.edge_record 11).from_ = 2 ∧
      (db.edge_record 11).to_ = 0 ∧ 11 ∈ (db.vertex_record 2).out_ ∧
      11 ∈ (db.vertex_record 0).in_ :=
  ⟨(GraphDbAccessor_insert_edge_connects sampleInsert sampleDb 2 0 7).1.mpr
      ⟨0, by decide, by decide⟩,
   ⟨_, rfl, (GraphDbAccessor_insert_edge_connects sampleInsert sampleDb 2 0 7).2 11 _ rfl⟩⟩

/-! ### `utils/math.hpp`: rounding to a multiple -/

/-- Without the reductions: for operands below `2^64` and a non-zero `multiple`,
`RoundUint64ToMultiple` fails exactly when `val + multiple - 1` does not fit, and
otherwise divides and multiplies that sum. -/
theorem RoundUint64ToMultiple_eq (val multiple : Nat) (hv : val < 2 ^ 64)
    (hm : multiple < 2 ^ 64) (h0 : multiple ≠ 0) :
    RoundUint64ToMultiple val multiple =
      if 2 ^ 64 ≤ val + multiple - 1 then none
      else some ((val + multiple - 1) / multiple * multiple) := by
  unfold RoundUint64ToMultiple
  rw [if_neg h0]
  by_cases hov : 2 ^ 64 ≤ val + multiple - 1
  · have hn : (val + multiple + 2 ^ 64 - 1) % 2 ^ 64 = val + multiple - 1 - 2 ^ 64 := by
      omega
    simp only [hn, if_pos hov]
    rw [if_pos (by omega)]
  · have hn : (val + multiple + 2 ^ 64 - 1) % 2 ^ 64 = val + multiple - 1 := by
      omega
    simp only [hn, if_neg hov]
    rw [if_neg (by omega)]
    have hle : (val + multiple - 1) / multiple * multiple ≤ val + multiple - 1 :=
      Nat.div_mul_le_self _ _
    rw [Nat.mod_eq_of_lt (by omega)]

/-- Rounding up by dividing and multiplying: the least multiple at or above
`val`. -/
theorem roundUp_least (val multiple : Nat) (h0 : multiple ≠ 0) :
    multiple ∣ (val + multiple - 1) / multiple * multiple ∧
      val ≤ (val + multiple - 1) / multiple * multiple ∧
      (val + multiple - 1) / multiple * multiple < val + multiple ∧
      ∀ m, multiple ∣ m → val ≤ m → (val + multiple - 1) / multiple * multiple ≤ m := by
  have hpos : 0 < multiple := Nat.pos_of_ne_zero h0
  have hle : (val + multiple - 1) / multiple * multiple ≤ val + multiple - 1 :=
    Nat.div_mul_le_self _ _
  have hlt : val + multiple - 1 < ((val + multiple - 1) / multiple + 1) * multiple := by
    have := Nat.lt_succ_self ((val + multiple - 1) / multiple)
    exact (Nat.div_lt_iff_lt_mul hpos).mp this
  refine ⟨Dvd.intro_left _ rfl, ?_, by omega, ?_⟩
  · rw [Nat.add_mul, Nat.one_mul] at hlt
    omega
  · rintro m ⟨q, rfl⟩ hq
    rw [Nat.mul_comm multiple q]
    apply Nat.mul_le_mul_right
    have h1 : (val + multiple - 1) / multiple < q + 1 := by
      apply (Nat.div_lt_iff_lt_mul hpos).mpr
      rw [Nat.add_mul, Nat.one_mul, Nat.mul_comm q multiple]
      omega
    omega

/-- Claim C32: for every 64-bit `val` and every non-zero 64-bit `multiple`, a
value `r` that `RoundUint64ToMultiple` returns is the smallest multiple of
`multiple` that is at least `val`: it is a multiple, it is at least `val`, no
smaller multiple is at least `val`, it is below `val + multiple`, and it is `val`
when `val` is a multiple. -/
theorem RoundUint64ToMultiple_returns_smallest_multiple (val multiple r : Nat)
    (hv : val < 2 ^ 64) (hm : multiple < 2 ^ 64) (h0 : multiple ≠ 0)
    (hr : RoundUint64ToMultiple val multiple = some r) :
    multiple ∣ r ∧ val ≤ r ∧ (∀ m, multiple ∣ m → val ≤ m → r ≤ m) ∧
      r < val + multiple ∧ (multiple ∣ val → r = val) := by
  rw [RoundUint64ToMultiple_eq val multiple hv hm h0] at hr
  split at hr
  · cases hr
  · cases hr
    obtain ⟨h1, h2, h3, h4⟩ := roundUp_least val multiple h0
    exact ⟨h1, h2, h4, h3, fun hd => Nat.le_antisymm (h4 val hd (Nat.le_refl _)) h2⟩

/-- The examples of claim C32: `(5, 8)` gives 8, `(8, 8)` gives 8 and `(9, 8)`
gives 16; applied to the first of them, the returned value is the smallest
multiple. -/
theorem RoundUint64ToMultiple_returns_smallest_multiple_witness :
    RoundUint64ToMultiple 5 8 = some 8 ∧ RoundUint64ToMultiple 8 8 = some 8 ∧
      RoundUint64ToMultiple 9 8 = some 16 ∧
      (8 ∣ 8 ∧ 5 ≤ 8 ∧ (∀ m, 8 ∣ m → 5 ≤ m → 8 ≤ m) ∧ 8 < 5 + 8 ∧ (8 ∣ 5 → 8 = 5)) :=
  ⟨by decide, by decide, by decide,
    RoundUint64ToMultiple_returns_smallest_multiple 5 8 8 (by norm_num) (by norm_num)
      (by decide) (by decide)⟩

/-- Claim C33, as the code has it: for 64-bit operands `RoundUint64ToMultiple`
returns `std::nullopt` exactly when `multiple` is 0 or the intermediate sum
`val + multiple - 1` does not fit in 64 bits; in every other case it returns the
smallest multiple at or above `val`. Whenever that smallest multiple does not
fit, the sum does not fit either, so `std::nullopt` is returned. -/
theorem RoundUint64ToMultiple_nullopt_iff (val multiple : Nat)
    (hv : val < 2 ^ 64) (hm : multiple < 2 ^ 64) :
    (RoundUint64ToMultiple val multiple = none ↔
        multiple = 0 ∨ 2 ^ 64 ≤ val + multiple - 1) ∧
      (multiple ≠ 0 → 2 ^ 64 ≤ (val + multiple - 1) / multiple * multiple →
        RoundUint64ToMultiple val multiple = none) ∧
      (multiple ≠ 0 → val + multiple - 1 < 2 ^ 64 →
        RoundUint64ToMultiple val multiple =
          some ((val + multiple - 1) / multiple * multiple)) := by
  by_cases h0 : multiple = 0
  · subst h0
    simp [RoundUint64ToMultiple]
  · rw [RoundUint64ToMultiple_eq val multiple hv hm h0]
    have hle : (val + multiple - 1) / multiple * multiple ≤ val + multiple - 1 :=
      Nat.div_mul_le_self _ _
    refine ⟨?_, ?_, ?_⟩
    · by_cases hov : 2 ^ 64 ≤ val + multiple - 1
      · simp only [if_pos hov, true_iff]
        exact Or.inr hov
      · simp [hov, h0]
    · intro _ h
      rw [if_pos (by omega)]
    · intro _ h
      rw [if_neg (by omega)]

/-- The characterisation applied to `val = 5`, `multiple = 8`. -/
theorem RoundUint64ToMultiple_nullopt_iff_witness :
    (RoundUint64ToMultiple 5 8 = none ↔ 8 = 0 ∨ 2 ^ 64 ≤ 5 + 8 - 1) ∧
      (8 ≠ 0 → 2 ^ 64 ≤ (5 + 8 - 1) / 8 * 8 → RoundUint64ToMultiple 5 8 = none) ∧
      (8 ≠ 0 → 5 + 8 - 1 < 2 ^ 64 →
        RoundUint64ToMultiple 5 8 = some ((5 + 8 - 1) / 8 * 8)) :=
  RoundUint64ToMultiple_nullopt_iff 5 8 (by norm_num) (by norm_num)

/-- Claim C33 fails as stated: for `val = 2` and `multiple = 2^64 - 1` the smallest
multiple at or above `val` is `2^64 - 1`, which fits in 64 bits, and `multiple` is
not 0, yet `RoundUint64ToMultiple` returns `std::nullopt`. -/
theorem RoundUint64ToMultiple_nullopt_counterexample :
    RoundUint64ToMultiple 2 (2 ^ 64 - 1) = none ∧ 2 ^ 64 - 1 ≠ 0 ∧
      (2 ^ 64 - 1) ∣ (2 ^ 64 - 1) ∧ 2 ≤ 2 ^ 64 - 1 ∧ 2 ^ 64 - 1 < 2 ^ 64 ∧
      ∀ m, (2 ^ 64 - 1) ∣ m → 2 ≤ m → 2 ^ 64 - 1 ≤ m := by
  refine ⟨by decide, by norm_num, dvd_refl _, by norm_num, by norm_num, ?_⟩
  intro m hd h2
  exact Nat.le_of_dvd (by omega) hd

/-! ### `utils/math.hpp`: `Log2` and `Ceil2` -/

/-- The scan for leading zeros finds the highest set bit: for a non-zero `val`
below `2^bits` the count `c` is below `bits` and
`2^(bits - 1 - c) ≤ val < 2^(bits - c)`. -/
theorem clzFrom_spec (bits val : Nat) (h0 : val ≠ 0) (hlt : val < 2 ^ bits) :
    clzFrom bits val < bits ∧ 2 ^ (bits - 1 - clzFrom bits val) ≤ val ∧
      val < 2 ^ (bits - clzFrom bits val) := by
  induction bits with
  | zero => simp at hlt; omega
  | succ k ih =>
    rw [clzFrom]
    by_cases hk : 2 ^ k ≤ val
    · have hq : val / 2 ^ k = 1 := by
        apply Nat.div_eq_of_lt_le
        · simpa using hk
        · rw [Nat.pow_succ] at hlt
          omega
      rw [hq]
      simp only [Nat.one_mod, if_true]
      exact ⟨Nat.succ_pos _, by simpa using hk, by simpa using hlt⟩
    · have hlt2 : val < 2 ^ k := Nat.lt_of_not_le hk
      have hq : val / 2 ^ k = 0 := Nat.div_eq_of_lt hlt2
      rw [hq]
      simp only [Nat.zero_mod, Nat.zero_ne_one, if_false]
      obtain ⟨h1, h2, h3⟩ := ih hlt2
      refine ⟨by omega, ?_, ?_⟩
      · have : k + 1 - 1 - (1 + clzFrom k val) = k - 1 - clzFrom k val := by omega
        rw [this]
        exact h2
      · have : k + 1 - (1 + clzFrom k val) = k - clzFrom k val := by omega
        rw [this]
        exact h3

/-- The function `Log2` returns the position of the highest set bit: for a
non-zero 64-bit `val`, `2^(Log2 val) ≤ val < 2^(Log2 val + 1)` and the result is
at most 63. -/
theorem Log2_spec (val : Nat) (h0 : val ≠ 0) (hlt : val < 2 ^ 64) :
    Log2 val ≤ 63 ∧ 2 ^ Log2 val ≤ val ∧ val < 2 ^ (Log2 val + 1) := by
  obtain ⟨h1, h2, h3⟩ := clzFrom_spec 64 val h0 hlt
  have hL : Log2 val = 63 - clzFrom 64 val := by
    unfold Log2 builtin_clzl
    rw [if_neg h0]
    simp only
    omega
  rw [hL]
  refine ⟨by omega, by simpa using h2, ?_⟩
  have : 63 - clzFrom 64 val + 1 = 64 - clzFrom 64 val := by omega
  rw [this]
  exact h3

/-- The value of `Ceil2` from 2 on: one shifted by one more than the position of
the highest set bit of `val - 1`. -/
theorem Ceil2_eq (overshift : Nat → Nat → Nat) (val : Nat) (h2 : 2 ≤ val)
    (hlt : val < 2 ^ 64) :
    Ceil2 overshift val = shiftLeft64 overshift 1 (Log2 (val - 1) + 1) := by
  unfold Ceil2
  rw [if_neg (by omega)]
  have h1 : (val + 2 ^ 64 - 1) % 2 ^ 64 = val - 1 := by omega
  rw [h1]
  have hL := (Log2_spec (val - 1) (by omega) (by omega)).1
  rw [Nat.mod_eq_of_lt (a := Log2 (val - 1) + 1) (by omega)]

/-- Claim C34, as far as the code decides it: whatever a shift by 64 yields,
`Ceil2 0` is 1, and for every `val` with `1 ≤ val ≤ 2^63` the result is a power
of two at or above `val` and no power of two at or above `val` is smaller, so a
power of two is returned unchanged. For every 64-bit `val` above `2^63` the
source shifts `1ULL` by 64, which C++ leaves undefined: the result is what that
shift yields, and it is 1 exactly when the shift yields 1. -/
theorem Ceil2_next_power_of_two (overshift : Nat → Nat → Nat) :
    Ceil2 overshift 0 = 1 ∧
      (∀ val, 1 ≤ val → val ≤ 2 ^ 63 →
        (∃ k, Ceil2 overshift val = 2 ^ k) ∧ val ≤ Ceil2 overshift val ∧
          ∀ j, val ≤ 2 ^ j → Ceil2 overshift val ≤ 2 ^ j) ∧
      (∀ k, k ≤ 63 → Ceil2 overshift (2 ^ k) = 2 ^ k) ∧
      (∀ val, 2 ^ 63 < val → val < 2 ^ 64 →
        Log2 (val - 1) + 1 = 64 ∧ Ceil2 overshift val = overshift 1 64 ∧
          (Ceil2 overshift val = 1 ↔ overshift 1 64 = 1)) := by
  have hmain : ∀ val, 1 ≤ val → val ≤ 2 ^ 63 →
      (∃ k, Ceil2 overshift val = 2 ^ k) ∧ val ≤ Ceil2 overshift val ∧
        ∀ j, val ≤ 2 ^ j → Ceil2 overshift val ≤ 2 ^ j := by
    intro val h1 h63
    by_cases hv : val = 1
    · subst hv
      refine ⟨⟨0, by simp [Ceil2]⟩, by simp [Ceil2], fun j _ => ?_⟩
      simp only [Ceil2, or_true, if_true]
      exact Nat.one_le_two_pow
    · have h2 : 2 ≤ val := by omega
      have hlt : val < 2 ^ 64 := by omega
      obtain ⟨hL, hlo, hhi⟩ := Log2_spec (val - 1) (by omega) (by omega)
      have hL62 : Log2 (val - 1) ≤ 62 := by
        by_contra hcon
        have h63eq : Log2 (val - 1) = 63 := by omega
        rw [h63eq] at hlo
        omega
      have hC : Ceil2 overshift val = 2 ^ (Log2 (val - 1) + 1) := by
        rw [Ceil2_eq overshift val h2 hlt]
        unfold shiftLeft64
        rw [if_pos (by omega), Nat.one_mul]
        apply Nat.mod_eq_of_lt
        exact Nat.pow_lt_pow_right (by norm_num) (by omega)
      rw [hC]
      refine ⟨⟨_, rfl⟩, by omega, fun j hj => ?_⟩
      apply Nat.pow_le_pow_right (by norm_num)
      by_contra hcon
      have hjl : j ≤ Log2 (val - 1) := by omega
      have : 2 ^ j ≤ 2 ^ Log2 (val - 1) := Nat.pow_le_pow_right (by norm_num) hjl
      omega
  refine ⟨by simp [Ceil2], hmain, ?_, ?_⟩
  · intro k hk
    have hle : 2 ^ k ≤ 2 ^ 63 := Nat.pow_le_pow_right (by norm_num) hk
    obtain ⟨_, h2, h3⟩ := hmain (2 ^ k) Nat.one_le_two_pow hle
    exact Nat.le_antisymm (h3 k (Nat.le_refl _)) h2
  · intro val h63 hlt
    obtain ⟨hL, hlo, hhi⟩ := Log2_spec (val - 1) (by omega) (by omega)
    have h63eq : Log2 (val - 1) = 63 := by
      by_contra hcon
      have hL62 : Log2 (val - 1) + 1 ≤ 63 := by omega
      have : 2 ^ (Log2 (val - 1) + 1) ≤ 2 ^ 63 := Nat.pow_le_pow_right (by norm_num) hL62
      omega
    have hC : Ceil2 overshift val = overshift 1 64 := by
      rw [Ceil2_eq overshift val (by omega) hlt, h63eq]
      unfold shiftLeft64
      rw [if_neg (by omega)]
    exact ⟨by omega, hC, by rw [hC]⟩

/-- The least power of two at or above 5, and the values of `Ceil2` at 0, 5, 8 and
`2^63`, whatever a shift by 64 yields (here 0). -/
theorem Ceil2_next_power_of_two_witness :
    ((∃ k, Ceil2 (fun _ _ => 0) 5 = 2 ^ k) ∧ 5 ≤ Ceil2 (fun _ _ => 0) 5 ∧
        ∀ j, 5 ≤ 2 ^ j → Ceil2 (fun _ _ => 0) 5 ≤ 2 ^ j) ∧
      Ceil2 (fun _ _ => 0) 0 = 1 ∧ Ceil2 (fun _ _ => 0) 5 = 8 ∧
      Ceil2 (fun _ _ => 0) 8 = 8 ∧ Ceil2 (fun _ _ => 0) (2 ^ 63) = 2 ^ 63 :=
  ⟨(Ceil2_next_power_of_two (fun _ _ => 0)).2.1 5 (by norm_num) (by norm_num),
    by decide, by decide, by decide, by decide⟩

/-- The failing input of claim C34: for `val = 2^63 + 1` the shift count is 64.
Where a shift by 64 yields 0 the result of `Ceil2` is 0, not the 1 its
documentation promises; it is 1 where the shift takes its count modulo 64. -/
theorem Ceil2_above_two_pow_63 :
    Log2 (2 ^ 63 + 1 - 1) + 1 = 64 ∧
      Ceil2 (fun _ _ => 0) (2 ^ 63 + 1) = 0 ∧
      Ceil2 (fun x n => x * 2 ^ (n % 64) % 2 ^ 64) (2 ^ 63 + 1) = 1 := by
  refine ⟨by decide, by decide, by decide⟩

/-- The test `IsPow2` accepts every power of two below `2^64`. -/
theorem IsPow2_two_pow (k : Nat) (hk : k ≤ 63) : IsPow2 (2 ^ k) = true := by
  have hlt : 2 ^ k < 2 ^ 64 := Nat.pow_lt_pow_right (by norm_num) (by omega)
  have hpos : 0 < 2 ^ k := Nat.two_pow_pos k
  have h1 : (2 ^ k + 2 ^ 64 - 1) % 2 ^ 64 = 2 ^ k - 1 := by omega
  unfold IsPow2
  rw [h1, Nat.and_pow_two_sub_one_eq_mod]
  simp

/-! ### Storage: creation of a vertex and failure of the creation of an edge -/

/-- The loop over the attempts, when every one of them fails: all `attempts` calls
of `insert` are made. -/
theorem insertAttempts_all_fail (insert : List Nat → Nat → Bool × List Nat) (vlist : Nat) :
    ∀ (attempts : Nat) (container : List Nat),
      (∀ i, i < attempts →
        (insert ((fun c => (insert c vlist).2)^[i] container) vlist).1 = false) →
      insertAttempts insert attempts container vlist =
        (false, (fun c => (insert c vlist).2)^[attempts] container) := by
  intro attempts
  induction attempts with
  | zero =>
    intro container _
    simp [insertAttempts]
  | succ attempts ih =>
    intro container hall
    rw [insertAttempts]
    have h0 : (insert container vlist).1 = false := hall 0 (Nat.succ_pos _)
    simp only [h0, Bool.false_eq_true, if_false]
    rw [ih]
    · simp [Function.iterate_succ]
    · intro i hi
      have := hall (i + 1) (Nat.succ_lt_succ hi)
      simpa [Function.iterate_succ] using this

/-- The loop over the attempts, when the attempt of index `i` is the first that
succeeds: exactly `i + 1` calls of `insert` are made. -/
theorem insertAttempts_first_success (insert : List Nat → Nat → Bool × List Nat)
    (vlist : Nat) :
    ∀ (attempts : Nat) (container : List Nat) (i : Nat), i < attempts →
      (insert ((fun c => (insert c vlist).2)^[i] container) vlist).1 = true →
      (∀ j, j < i →
        (insert ((fun c => (insert c vlist).2)^[j] container) vlist).1 = false) →
      insertAttempts insert attempts container vlist =
        (true, (fun c => (insert c vlist).2)^[i + 1] container) := by
  intro attempts
  induction attempts with
  | zero =>
    intro container i hi
    exact absurd hi (Nat.not_lt_zero _)
  | succ attempts ih =>
    intro container i hi hsucc hfail
    rw [insertAttempts]
    cases i with
    | zero =>
      have h0 : (insert container vlist).1 = true := hsucc
      simp [h0]
    | succ i =>
      have h0 : (insert container vlist).1 = false := hfail 0 (Nat.succ_pos _)
      simp only [h0, Bool.false_eq_true, if_false]
      rw [ih _ i (Nat.lt_of_succ_lt_succ hi)]
      · simp [Function.iterate_succ]
      · simpa [Function.iterate_succ] using hsucc
      · intro j hj
        have := hfail (j + 1) (Nat.succ_lt_succ hj)
        simpa [Function.iterate_succ] using this

/-- Claim C31: `insert_vertex` returns if and only if one of its five attempts to
insert the new version list into the container of the vertices succeeds, and
throws `CreationException` if and only if all five fail. When the attempt of
index `i` is the first to succeed, the call returns the accessor of the new
vertex after exactly `i + 1` insertions, so no attempt follows a success; when it
throws, exactly five insertions were made. -/
theorem GraphDbAccessor_insert_vertex_attempts (insert : List Nat → Nat → Bool × List Nat)
    (self : GraphDbAccessor) :
    ((∃ r, GraphDbAccessor.insert_vertex insert self = .ok r) ↔
      ∃ i, i < 5 ∧
        (insert ((fun c => (insert c self.next_address).2)^[i] self.vertices_)
          self.next_address).1 = true) ∧
    ((∃ e, GraphDbAccessor.insert_vertex insert self = .error e) ↔
      ∀ i, i < 5 →
        (insert ((fun c => (insert c self.next_address).2)^[i] self.vertices_)
          self.next_address).1 = false) ∧
    (∀ i, i < 5 →
      (insert ((fun c => (insert c self.next_address).2)^[i] self.vertices_)
        self.next_address).1 = true →
      (∀ j, j < i →
        (insert ((fun c => (insert c self.next_address).2)^[j] self.vertices_)
          self.next_address).1 = false) →
      ∃ db, GraphDbAccessor.insert_vertex insert self = .ok (self.next_address, db) ∧
        db.vertices_ = (fun c => (insert c self.next_address).2)^[i + 1] self.vertices_) ∧
    ((∀ i, i < 5 →
        (insert ((fun c => (insert c self.next_address).2)^[i] self.vertices_)
          self.next_address).1 = false) →
      ∃ db, GraphDbAccessor.insert_vertex insert self =
          .error (⟨"Unable to create a Vertex after 5 attempts"⟩, db) ∧
        db.vertices_ = (fun c => (insert c self.next_address).2)^[5] self.vertices_) := by
  have hiff := insertAttempts_true_iff insert self.next_address 5 self.vertices_
  have hok : (∃ r, GraphDbAccessor.insert_vertex insert self = .ok r) ↔
      (insertAttempts insert 5 self.vertices_ self.next_address).1 = true := by
    simp only [GraphDbAccessor.insert_vertex]
    cases hins : (insertAttempts insert 5 self.vertices_ self.next_address).1 with
    | true => simp
    | false => simp
  have herr : (∃ e, GraphDbAccessor.insert_vertex insert self = .error e) ↔
      (insertAttempts insert 5 self.vertices_ self.next_address).1 = false := by
    simp only [GraphDbAccessor.insert_vertex]
    cases hins : (insertAttempts insert 5 self.vertices_ self.next_address).1 with
    | true => simp
    | false => simp
  refine ⟨hok.trans hiff, ?_, ?_, ?_⟩
  · rw [herr]
    constructor
    · intro hf i hi
      cases hi5 : (insert ((fun c => (insert c self.next_address).2)^[i] self.vertices_)
          self.next_address).1 with
      | false => rfl
      | true =>
        have := hiff.mpr ⟨i, hi, hi5⟩
        rw [hf] at this
        cases this
    · intro hall
      rw [insertAttempts_all_fail insert self.next_address 5 self.vertices_ hall]
  · intro i hi hsucc hfail
    have h := insertAttempts_first_success insert self.next_address 5 self.vertices_ i hi
      hsucc hfail
    simp only [GraphDbAccessor.insert_vertex, h, if_true]
    exact ⟨_, rfl, rfl⟩
  · intro hall
    have h := insertAttempts_all_fail insert self.next_address 5 self.vertices_ hall
    simp only [GraphDbAccessor.insert_vertex, h, Bool.false_eq_true, if_false]
    exact ⟨_, rfl, rfl⟩

/-- On the sample database, with an insertion that succeeds at its third attempt,
`insert_vertex` returns the new vertex after three insertions; the two attempts
before it fail. -/
theorem GraphDbAccessor_insert_vertex_attempts_witness :
    (∀ j, j < 2 →
      ((sampleInsertLate 5) ((fun c => ((sampleInsertLate 5) c sampleDb.next_address).2)^[j]
        sampleDb.vertices_) sampleDb.next_address).1 = false) ∧
    ∃ db, GraphDbAccessor.insert_vertex (sampleInsertLate 5) sampleDb = .ok (11, db) ∧
      db.vertices_ = [0, 1, 2, 0, 0, 11] :=
  have hfail : ∀ j, j < 2 →
      ((sampleInsertLate 5) ((fun c => ((sampleInsertLate 5) c sampleDb.next_address).2)^[j]
        sampleDb.vertices_) sampleDb.next_address).1 = false := by decide
  ⟨hfail,
    (GraphDbAccessor_insert_vertex_attempts (sampleInsertLate 5) sampleDb).2.2.1 2 (by decide)
      (by decide) hfail⟩

/-- Claim C39, as the code has it: `insert_edge` connects the new edge to its
endpoints before the attempts to insert it, so when it throws `CreationException`
because all 5 attempts fail, the out-edges of `from` are the ones before the call
followed by the new edge, and the in-edges of `to` are the ones before the call
followed by the new edge; the container of the edges has seen the five
insertions. -/
theorem GraphDbAccessor_insert_edge_failure_keeps_connections
    (insert : List Nat → Nat → Bool × List Nat)
    (self : GraphDbAccessor) (from_vertex to_vertex : VertexAccessor) (type : Nat)
    (hall : ∀ i, i < 5 →
      (insert ((fun c => (insert c self.next_address).2)^[i] self.edges_)
        self.next_address).1 = false) :
    ∃ db, GraphDbAccessor.insert_edge insert self from_vertex to_vertex type =
        .error (⟨"Unable to create an Edge after 5 attempts"⟩, db) ∧
      (db.vertex_record from_vertex).out_ =
        (self.vertex_record from_vertex).out_ ++ [self.next_address] ∧
      (db.vertex_record to_vertex).in_ =
        (self.vertex_record to_vertex).in_ ++ [self.next_address] ∧
      db.edges_ = (fun c => (insert c self.next_address).2)^[5] self.edges_ := by
  have h := insertAttempts_all_fail insert self.next_address 5 self.edges_ hall
  simp only [GraphDbAccessor.insert_edge, VertexAccessor.add_to_out, VertexAccessor.add_to_in,
    VertexAccessor.attach_out, VertexAccessor.attach_in, h, Bool.false_eq_true, if_false]
  refine ⟨_, rfl, ?_, ?_, rfl⟩
  · by_cases hft : from_vertex = to_vertex
    · simp [hft]
    · simp [hft]
  · by_cases hft : to_vertex = from_vertex
    · simp [hft]
    · simp [hft]

/-- On the sample database, with an insertion that never succeeds, `insert_edge`
from vertex 2 to vertex 0 throws and leaves the new edge 11 among the out-edges
of 2 and the in-edges of 0. -/
theorem GraphDbAccessor_insert_edge_failure_keeps_connections_witness :
    ∃ db, GraphDbAccessor.insert_edge sampleInsertFails sampleDb 2 0 7 =
        .error (⟨"Unable to create an Edge after 5 attempts"⟩, db) ∧
      (db.vertex_record 2).out_ = (sampleDb.vertex_record 2).out_ ++ [sampleDb.next_address] ∧
      (db.vertex_record 0).in_ = (sampleDb.vertex_record 0).in_ ++ [sampleDb.next_address] ∧
      db.edges_ =
        (fun c => (sampleInsertFails c sampleDb.next_address).2)^[5] sampleDb.edges_ :=
  GraphDbAccessor_insert_edge_failure_keeps_connections sampleInsertFails sampleDb 2 0 7
    (by decide)

/-- Claim C39 fails as stated: on the sample database, with an insertion that
never succeeds, `insert_edge` from vertex 2 to vertex 0 throws
`CreationException` after its 5 attempts, and afterwards the out-edges of 2 are
`[11]` where they were empty and the in-edges of 0 are `[11]` where they were
empty. -/
theorem GraphDbAccessor_insert_edge_failure_counterexample :
    (∀ i, i < 5 →
      (sampleInsertFails ((fun c => (sampleInsertFails c sampleDb.next_address).2)^[i]
        sampleDb.edges_) sampleDb.next_address).1 = false) ∧
    ∃ db, GraphDbAccessor.insert_edge sampleInsertFails sampleDb 2 0 7 =
        .error (⟨"Unable to create an Edge after 5 attempts"⟩, db) ∧
      (sampleDb.vertex_record 2).out_ = [] ∧ (db.vertex_record 2).out_ = [11] ∧
      (sampleDb.vertex_record 0).in_ = [] ∧ (db.vertex_record 0).in_ = [11] ∧
      (db.vertex_record 2).out_ ≠ (sampleDb.vertex_record 2).out_ ∧
      (db.vertex_record 0).in_ ≠ (sampleDb.vertex_record 0).in_ :=
  ⟨by decide, _, rfl, rfl, rfl, rfl, rfl, by decide, by decide⟩

/-! ### Recovery: the transaction id `Recover` reports for the WAL -/

/-- The end of `RecoverSnapshot` leaves `wal_max_recovered_tx_id` as it is. -/
theorem RecoverSnapshot_finish_wal_max (snapshot_file : SnapshotFile)
    (recovery_data : RecoveryData) :
    (RecoverSnapshot.finish snapshot_file recovery_data).recovery_data.wal_max_recovered_tx_id
      = recovery_data.wal_max_recovered_tx_id := by
  unfold RecoverSnapshot.finish
  cases snapshot_file.graph <;> cases snapshot_file.hash <;> rfl

/-- The reading of the lists of a snapshot leaves `wal_max_recovered_tx_id` as it
is. -/
theorem RecoverSnapshot_lists_wal_max (snapshot_file : SnapshotFile)
    (recovery_data : RecoveryData) (values : List DecodedValue) :
    (RecoverSnapshot.lists snapshot_file recovery_data values).recovery_data.wal_max_recovered_tx_id
      = recovery_data.wal_max_recovered_tx_id := by
  unfold RecoverSnapshot.lists
  split
  · dsimp only
    split
    · rfl
    · split
      · split
        · rfl
        · rw [RecoverSnapshot_finish_wal_max]
      · rfl
  · rfl

/-- `RecoverSnapshot` leaves `wal_max_recovered_tx_id` as it is. -/
theorem RecoverSnapshot_wal_max (kVersion WorkerId : Int) (snapshot_file : SnapshotFile)
    (recovery_data : RecoveryData) :
    (RecoverSnapshot kVersion WorkerId snapshot_file recovery_data).recovery_data.wal_max_recovered_tx_id
      = recovery_data.wal_max_recovered_tx_id := by
  unfold RecoverSnapshot
  split
  · rfl
  · split
    · rfl
    · split
      · rfl
      · split
        · split
          · rfl
          · split
            · rfl
            · rw [RecoverSnapshot_lists_wal_max]
        · rfl

/-- The loop of `Recover` over the snapshot files leaves `wal_max_recovered_tx_id`
as it is. -/
theorem recoverSnapshots_wal_max (kVersion WorkerId : Int)
    (required_recovery_info : Option RecoveryInfo)
    (snapshot_files : List (Option TransactionId × SnapshotFile)) :
    ∀ recovery_data : RecoveryData,
      (recoverSnapshots kVersion WorkerId required_recovery_info recovery_data
        snapshot_files).wal_max_recovered_tx_id = recovery_data.wal_max_recovered_tx_id := by
  induction snapshot_files with
  | nil => intro recovery_data; rfl
  | cons snapshot_file snapshot_files ih =>
    intro recovery_data
    rw [recoverSnapshots]
    split
    · exact ih _
    · simp only
      split
      · rw [ih]
        exact RecoverSnapshot_wal_max _ _ _ _
      · exact RecoverSnapshot_wal_max _ _ _ _

/-- One record of the WAL keeps `wal_max_recovered_tx_id` at the id of the
transaction committed last, or at its initial value while none is committed. -/
theorem readDelta_last_commit (skip : TransactionId → Bool) (initial : TransactionId)
    (s s1 : WalRecovery) (delta : StateDelta)
    (h : s.recovery_data.wal_max_recovered_tx_id =
      (s.committed.map Prod.fst).getLastD initial)
    (hr : readDelta skip s delta = some s1) :
    s1.recovery_data.wal_max_recovered_tx_id =
      (s1.committed.map Prod.fst).getLastD initial := by
  unfold readDelta at hr
  simp only at hr
  by_cases hskip : skip delta.transaction_id = true
  · simp only [hskip, if_true, Option.some.injEq] at hr
    subst hr
    exact h
  · simp only [hskip, Bool.false_eq_true, if_false] at hr
    cases htype : delta.type with
    | TRANSACTION_BEGIN =>
      simp only [htype] at hr
      cases hl : List.lookup delta.transaction_id s.accessors with
      | none =>
        simp only [hl, Option.some.injEq] at hr
        subst hr
        exact h
      | some accessor =>
        simp only [hl, Option.some.injEq] at hr
        subst hr
        exact h
    | TRANSACTION_ABORT =>
      simp only [htype] at hr
      cases hl : List.lookup delta.transaction_id s.accessors with
      | none => simp [hl] at hr
      | some accessor =>
        simp only [hl, Option.some.injEq] at hr
        subst hr
        exact h
    | TRANSACTION_COMMIT =>
      simp only [htype] at hr
      cases hl : List.lookup delta.transaction_id s.accessors with
      | none => simp [hl] at hr
      | some accessor =>
        simp only [hl, Option.some.injEq] at hr
        subst hr
        simp [List.getLastD_concat]
    | BUILD_INDEX =>
      simp only [htype, Option.some.injEq] at hr
      subst hr
      exact h
    | OTHER change =>
      simp only [htype] at hr
      cases hl : List.lookup delta.transaction_id s.accessors with
      | none => simp [hl] at hr
      | some accessor =>
        simp only [hl, Option.some.injEq] at hr
        subst hr
        exact h

/-- The records of a file keep `wal_max_recovered_tx_id` at the id of the
transaction committed last. -/
theorem readDeltas_last_commit (skip : TransactionId → Bool) (initial : TransactionId)
    (deltas : List StateDelta) :
    ∀ (s s1 : WalRecovery),
      s.recovery_data.wal_max_recovered_tx_id = (s.committed.map Prod.fst).getLastD initial →
      readDeltas skip s deltas = .ok s1 →
      s1.recovery_data.wal_max_recovered_tx_id =
        (s1.committed.map Prod.fst).getLastD initial := by
  induction deltas with
  | nil =>
    intro s s1 h hr
    simp only [readDeltas, Except.ok.injEq] at hr
    subst hr
    exact h
  | cons delta deltas ih =>
    intro s s1 h hr
    rw [readDeltas] at hr
    cases hd : readDelta skip s delta with
    | none => simp [hd] at hr
    | some s2 =>
      simp only [hd] at hr
      exact ih s2 s1 (readDelta_last_commit skip initial s s2 delta h hd) hr

/-- The WAL files keep `wal_max_recovered_tx_id` at the id of the transaction
committed last. -/
theorem readFiles_last_commit (first : TransactionId) (skip : TransactionId → Bool)
    (initial : TransactionId) (wal_files : List WalFile) :
    ∀ (s s1 : WalRecovery) (r : Bool),
      s.recovery_data.wal_max_recovered_tx_id = (s.committed.map Prod.fst).getLastD initial →
      readFiles first skip s wal_files = .returned r s1 →
      s1.recovery_data.wal_max_recovered_tx_id =
        (s1.committed.map Prod.fst).getLastD initial := by
  induction wal_files with
  | nil =>
    intro s s1 r h hr
    simp only [readFiles, WalResult.returned.injEq] at hr
    obtain ⟨_, hs⟩ := hr
    subst hs
    exact h
  | cons wal_file wal_files ih =>
    intro s s1 r h hr
    rw [readFiles] at hr
    cases hmax : wal_file.max_tx_id with
    | none =>
      simp only [hmax] at hr
      exact ih s s1 r h hr
    | some wal_file_max_tx_id =>
      simp only [hmax] at hr
      by_cases hlt : wal_file_max_tx_id < first
      · simp only [hlt, if_true] at hr
        exact ih s s1 r h hr
      · simp only [hlt, if_false] at hr
        cases hopen : wal_file.opens with
        | false =>
          simp only [hopen, Bool.not_false, if_true, WalResult.returned.injEq] at hr
          obtain ⟨_, hs⟩ := hr
          subst hs
          exact h
        | true =>
          simp only [hopen, Bool.not_true, Bool.false_eq_true, if_false] at hr
          cases hd : readDeltas skip s wal_file.deltas with
          | error s2 => simp [hd] at hr
          | ok s2 =>
            simp only [hd] at hr
            exact ih s2 s1 r (readDeltas_last_commit skip initial _ s s2 h hd) hr

/-- Claim C40, as the code has it: the `wal_max_recovered_tx_id` that `Recover`
reports is 0 when the required snapshot was not recovered, and otherwise the id
of the transaction whose `TRANSACTION_COMMIT` record `RecoverWal` processed last,
which every commit overwrites, and 0 when no transaction was committed from the
WAL. It is the greatest id among the committed transactions when the last of them
has the greatest id. -/
theorem Recover_reports_last_committed_tx_id (kVersion WorkerId : Int)
    (snapshot_files : List (Option TransactionId × SnapshotFile)) (wal_files : List WalFile)
    (required_recovery_info : Option RecoveryInfo) (info : RecoveryInfo)
    (hr : Recover kVersion WorkerId snapshot_files wal_files required_recovery_info =
      some info) :
    info.max_wal_tx_id = 0 ∨
    ∃ r s, RecoverWal wal_files
        (recoverSnapshots kVersion WorkerId required_recovery_info RecoveryData.init
          snapshot_files) = .returned r s ∧
      s.committed ≠ [] ∧
      info.max_wal_tx_id = (s.committed.map Prod.fst).getLastD 0 ∧
      ((∀ p ∈ s.committed, p.1 ≤ (s.committed.map Prod.fst).getLastD 0) →
        (∀ p ∈ s.committed, p.1 ≤ info.max_wal_tx_id) ∧
        info.max_wal_tx_id ∈ s.committed.map Prod.fst) := by
  unfold Recover at hr
  simp only at hr
  split at hr
  · simp only [Option.some.injEq] at hr
    subst hr
    exact Or.inl rfl
  · cases hw : RecoverWal wal_files
        (recoverSnapshots kVersion WorkerId required_recovery_info RecoveryData.init
          snapshot_files) with
    | check_failed s => simp [hw] at hr
    | returned r s =>
      simp only [hw, Option.some.injEq] at hr
      subst hr
      have h0 : (recoverSnapshots kVersion WorkerId required_recovery_info RecoveryData.init
          snapshot_files).wal_max_recovered_tx_id = 0 :=
        recoverSnapshots_wal_max _ _ _ _ _
      have hlast := readFiles_last_commit _ _ 0 wal_files _ s r
        (by simp only [WalRecovery.init, List.map_nil, List.getLastD]; exact h0) hw
      by_cases hc : s.committed = []
      · left
        simp only [hlast, hc, List.map_nil, List.getLastD]
      · right
        refine ⟨r, s, rfl, hc, hlast, fun hle => ⟨fun p hp => ?_, ?_⟩⟩
        · simp only [hlast]
          exact hle p hp
        · simp only [hlast]
          have hne : s.committed.map Prod.fst ≠ [] := by
            simpa using hc
          rw [List.getLastD_eq_getLast?, List.getLast?_eq_getLast _ hne]
          exact List.getLast_mem hne

/-- The sample WAL in which the transaction 5 commits before the transaction 3:
`Recover` reports the id 3 of the commit it processed last. -/
theorem Recover_reports_last_committed_tx_id_witness :
    Recover 6 0 [] sampleWalCommits none = some ⟨0, 3⟩ ∧
    ((⟨0, 3⟩ : RecoveryInfo).max_wal_tx_id = 0 ∨
    ∃ r s, RecoverWal sampleWalCommits
        (recoverSnapshots 6 0 none RecoveryData.init []) = .returned r s ∧
      s.committed ≠ [] ∧
      (⟨0, 3⟩ : RecoveryInfo).max_wal_tx_id = (s.committed.map Prod.fst).getLastD 0 ∧
      ((∀ p ∈ s.committed, p.1 ≤ (s.committed.map Prod.fst).getLastD 0) →
        (∀ p ∈ s.committed, p.1 ≤ (⟨0, 3⟩ : RecoveryInfo).max_wal_tx_id) ∧
        (⟨0, 3⟩ : RecoveryInfo).max_wal_tx_id ∈ s.committed.map Prod.fst)) :=
  ⟨by decide, Recover_reports_last_committed_tx_id 6 0 [] sampleWalCommits none ⟨0, 3⟩
    (by decide)⟩

/-- The failing input of claim C40: on the sample WAL `RecoverWal` returns after
committing the transactions 5 and 3, in this order, and `Recover` reports 3 as the
greatest recovered transaction id although the transaction 5 was committed; the
sibling `max_observed_tx_id` is 5. -/
theorem Recover_reports_less_than_greatest_commit :
    RecoverWal sampleWalCommits RecoveryData.init =
      .returned true (RecoverWal sampleWalCommits RecoveryData.init).state ∧
    (RecoverWal sampleWalCommits RecoveryData.init).state.committed.map Prod.fst = [5, 3] ∧
    (RecoverWal sampleWalCommits RecoveryData.init).state.max_observed_tx_id = 5 ∧
    Recover 6 0 [] sampleWalCommits none = some ⟨0, 3⟩ := by
  refine ⟨by decide, by decide, by decide, by decide⟩

/-! ### Depth-first variable expansion: a self-loop expanded in both directions -/

/-- The failing input of claim C38: on the storage with the self-loop `0 → 0` and
the edge `1 → 0`, expanding from the vertex 0 in both directions, the cursor
emits five tuples for the one input tuple and is then exhausted; the first and
the fourth carry the same edge list, the self-loop alone, and so do the second
and the fifth. `ExpandFromVertex` lists the self-loop among the in-edges and
again among the out-edges, and when the second occurrence is reached the list on
the frame holds the other edge. -/
theorem ExpandVariableCursor_self_loop_emitted_twice :
    ExpandFromVertex selfLoopGraph 0 .BOTH [] =
      [(⟨0, 0, 0, 0⟩, .IN), (⟨1, 1, 0, 0⟩, .IN), (⟨0, 0, 0, 0⟩, .OUT)] ∧
    emittedEdgeLists sampleVariableBoth selfLoopGraph ⟨false⟩ 20 5
        (ExpandVariableCursor.init (sampleInput 0), sampleFrame) =
      [[⟨0, 0, 0, 0⟩], [⟨0, 0, 0, 0⟩, ⟨1, 1, 0, 0⟩], [⟨1, 1, 0, 0⟩], [⟨0, 0, 0, 0⟩],
        [⟨0, 0, 0, 0⟩, ⟨1, 1, 0, 0⟩]] ∧
    exhaustedAfter sampleVariableBoth selfLoopGraph ⟨false⟩ 20 5
        (ExpandVariableCursor.init (sampleInput 0), sampleFrame) = true ∧
    ¬ (emittedEdgeLists sampleVariableBoth selfLoopGraph ⟨false⟩ 20 5
        (ExpandVariableCursor.init (sampleInput 0), sampleFrame)).Nodup := by
  refine ⟨by decide, by decide, by decide, by decide⟩

/-! ### The two breadth-first cursors on a negative lower bound -/

/-- A negative `int64_t` converts to an unsigned value above every non-negative
`int64_t`. -/
theorem toUInt64_negative (lower upper : Int) (hneg : lower < 0)
    (hmin : -9223372036854775808 ≤ lower) (h0 : 0 ≤ upper) (hmax : upper ≤ INT64_MAX) :
    toUInt64 upper < toUInt64 lower := by
  unfold toUInt64
  unfold INT64_MAX at hmax
  omega

/-- When the two searches meet within the upper bound and the lower bound is
negative, `FindPath` returns false. -/
theorem onMeeting_negative (lower : Int) (bound current_length : Nat) (v : VertexAccessor)
    (in_edge out_edge : VertexEdgeMapT) (hlt : bound < toUInt64 lower)
    (hle : ¬ current_length > bound) :
    onMeeting lower current_length v in_edge out_edge = .not_found := by
  unfold onMeeting
  rw [if_neg (by omega)]

/-- The loop of `FindPath` never returns a path when the lower bound converts to
an unsigned value above the upper bound. -/
theorem FindPathLoop_negative {D : Type} (self : ExpandVariable D) (g : Graph)
    (context : ExecutionContext) (frame : Frame D) (lower upper : Int)
    (hlt : toUInt64 upper < toUInt64 lower) :
    ∀ (fuel : Nat) (st : FindPathState) (p : List EdgeAccessor),
      FindPathLoop self g context frame lower upper fuel st ≠ .found p := by
  intro fuel
  induction fuel with
  | zero =>
    intro st p h
    simp [FindPathLoop] at h
  | succ fuel ih =>
    intro st p h
    rw [FindPathLoop] at h
    split at h
    · cases h
    · simp only at h
      split at h
      · cases h
      · next hl1 =>
        split at h
        · cases h
        · rw [onMeeting_negative lower _ _ _ _ _ hlt hl1] at h
          cases h
        · split at h
          · cases h
          · split at h
            · cases h
            · next hl2 =>
              split at h
              · cases h
              · rw [onMeeting_negative lower _ _ _ _ _ hlt hl2] at h
                cases h
              · split at h
                · cases h
                · exact ih _ p h

/-- With a negative lower bound `FindPath` returns false, whatever the graph, the
source and the sink. -/
theorem FindPath_negative {D : Type} (self : ExpandVariable D) (g : Graph)
    (context : ExecutionContext) (ha : context.must_abort = false)
    (hf : self.filter_lambda.expression = none) (frame : Frame D)
    (source sink : VertexAccessor) (lower upper : Int) (hneg : lower < 0)
    (hmin : -9223372036854775808 ≤ lower) (h0 : 0 ≤ upper) (hmax : upper ≤ INT64_MAX) :
    FindPath self g context frame source sink lower upper = .not_found := by
  have hpost := FindPath_post self g context frame lower upper ha hf source sink
  cases hr : FindPath self g context frame source sink lower upper with
  | found p =>
    exfalso
    unfold FindPath at hr
    split at hr
    · cases hr
    · exact FindPathLoop_negative self g context frame lower upper
        (toUInt64_negative lower upper hneg hmin h0 hmax) _ _ p hr
  | not_found => rfl
  | raised e => rw [hr] at hpost; exact hpost.elim
  | out_of_fuel => rw [hr] at hpost; exact hpost.elim

/-- Claim C36 fails on negative lower bounds. For every graph, every direction and
edge-type filter (no filter lambda), every input tuple that binds the source to a
vertex `s` and the sink to a vertex, and all bounds `lower < 0` and
`1 ≤ upper`: the s-t cursor, made for the operator with `existing_node` set,
emits nothing for the tuple, because `FindPath` compares the unsigned
`current_length` with the lower bound converted to unsigned; the single-source
cursor, made for the same operator without `existing_node`, emits for the tuple
exactly the vertices other than `s` whose breadth-first distance from `s` is at
most `upper`, each once, because it compares after a cast to `int64_t`. So
whenever the sink is another vertex within `upper` steps of the source, the
single-source cursor emits a tuple whose node is the sink and the s-t cursor
emits none. -/
theorem breadth_first_cursors_negative_lower_bound {D : Type}
    (self : ExpandVariable D) (g : Graph) (context : ExecutionContext)
    (cur : SingleSourceShortestPathCursor D) (frame : Frame D) (t : Frame D → Frame D)
    (s sink : VertexAccessor) (lower upper : Int)
    (ha : context.must_abort = false) (hf : self.filter_lambda.expression = none)
    (hex : self.existing_node = true)
    (hsym : self.node_symbol ≠ self.edge_symbol)
    (hq1 : cur.to_visit_current_ = []) (hq2 : cur.to_visit_next_ = [])
    (hin : cur.input_cursor = [t]) (hs : t frame self.input_symbol = .Vertex s)
    (hsink : t frame self.node_symbol = .Vertex sink)
    (hlo : bfsBound (t frame) self.lower_bound 1 = .ok lower)
    (hup : bfsBound (t frame) self.upper_bound INT64_MAX = .ok upper)
    (hneg : lower < 0) (hmin : -9223372036854775808 ≤ lower)
    (h1 : 1 ≤ upper) (hmax : upper ≤ INT64_MAX) :
    self.existing_node = true ∧
    STShortestPathCursor.Pull self g context [t] frame = .ok false ([], t frame) ∧
    ∃ L : List VertexAccessor,
      Emissions { self with existing_node := false } g context (cur, frame)
        (L.map TypedValue.Vertex) ∧
      (∀ l, Emissions { self with existing_node := false } g context (cur, frame) l →
        l = L.map TypedValue.Vertex) ∧
      L.Nodup ∧
      (∀ v, v ∈ L ↔
        (v ≠ s ∧ ∃ d : Nat, IsDist g self.direction self.edge_types s v d ∧
          (d : Int) ≤ upper)) ∧
      ((sink ≠ s ∧ ∃ d : Nat, IsDist g self.direction self.edge_types s sink d ∧
          (d : Int) ≤ upper) → sink ∈ L) := by
  refine ⟨hex, ?_, ?_⟩
  · conv_lhs => unfold STShortestPathCursor.Pull
    simp only [hs, hsink, hlo, hup]
    rw [if_neg (by omega),
      FindPath_negative self g context ha hf (t frame) s sink lower upper hneg hmin (by omega)
        hmax]
    simp only [STShortestPathCursor.Pull]
  · obtain ⟨cur1, frame1, hbody, hc1, hi1, hl1, hu1, hstart, hrec⟩ :=
      SingleSourceBody_start { self with existing_node := false } g context ha hf cur frame t s
        lower upper [] hq1 hq2 hin hs hlo hup h1 (by omega)
    obtain ⟨L, htr, hnd, hmem⟩ := levels_run { self with existing_node := false } g context ha
      hf hsym s lower upper [] (upper - 1).toNat 1 cur1 frame1 (by omega) hc1 hi1 hl1 hu1
      hstart hrec
    have htrace : BodyTrace { self with existing_node := false } g context [] (cur, frame)
        (L.map TypedValue.Vertex) :=
      BodyTrace.step (cur, frame) (cur1, frame1) _ hbody htr
    have hem := Emissions_of_trace { self with existing_node := false } g context ha _ _ htrace
    have hiff : ∀ v, v ∈ L ↔
        (v ≠ s ∧ ∃ d : Nat, IsDist g self.direction self.edge_types s v d ∧
          (d : Int) ≤ upper) := by
      intro v
      rw [hmem v]
      constructor
      · rintro ⟨d, hd, h3, _, h5⟩
        refine ⟨fun hvs => ?_, d, hd, h5⟩
        have := hd.2 [] ((IsWalk_nil g self.direction self.edge_types s v).mpr hvs.symm)
        simp at this
        omega
      · rintro ⟨hvs, d, hd, h5⟩
        refine ⟨d, hd, ?_, by omega, h5⟩
        by_contra hcon
        have hd0 : d = 0 := by omega
        obtain ⟨⟨p, hp, hlen⟩, _⟩ := hd
        rw [hd0] at hlen
        have hnil : p = [] := List.eq_nil_of_length_eq_zero hlen
        rw [hnil] at hp
        exact hvs ((IsWalk_nil g self.direction self.edge_types s v).mp hp).symm
    exact ⟨L, hem, fun l hl => Emissions_unique _ g context _ _ hl _ hem, hnd, hiff,
      fun h => (hiff sink).mpr h⟩

/-- The failing input of claim C36 as an instance: on the storage with the edge
`0 → 1`, source 0, sink 1 and the lower bound -1, the s-t cursor emits nothing and
the single-source cursor emits the vertices within reach of 0, among them 1. -/
theorem breadth_first_cursors_negative_lower_bound_witness :
    sampleNegativeSink.existing_node = true ∧
    STShortestPathCursor.Pull sampleNegativeSink oneEdgeGraph ⟨false⟩
        [fun f => (f.set 0 (.Vertex 0)).set 1 (.Vertex 1)] sampleFrame =
      .ok false ([], (fun f => (f.set 0 (.Vertex 0)).set 1 (.Vertex 1)) sampleFrame) ∧
    ∃ L : List VertexAccessor,
      Emissions { sampleNegativeSink with existing_node := false } oneEdgeGraph ⟨false⟩
        (SingleSourceShortestPathCursor.init (sampleInputPair 0 1), sampleFrame)
        (L.map TypedValue.Vertex) ∧
      (∀ l, Emissions { sampleNegativeSink with existing_node := false } oneEdgeGraph ⟨false⟩
        (SingleSourceShortestPathCursor.init (sampleInputPair 0 1), sampleFrame) l →
        l = L.map TypedValue.Vertex) ∧
      L.Nodup ∧
      (∀ v, v ∈ L ↔
        (v ≠ 0 ∧ ∃ d : Nat,
          IsDist oneEdgeGraph sampleNegativeSink.direction sampleNegativeSink.edge_types 0 v d ∧
          (d : Int) ≤ INT64_MAX)) ∧
      ((1 ≠ 0 ∧ ∃ d : Nat,
          IsDist oneEdgeGraph sampleNegativeSink.direction sampleNegativeSink.edge_types 0 1 d ∧
          (d : Int) ≤ INT64_MAX) → 1 ∈ L) :=
  breadth_first_cursors_negative_lower_bound sampleNegativeSink oneEdgeGraph ⟨false⟩
    (SingleSourceShortestPathCursor.init (sampleInputPair 0 1)) sampleFrame
    (fun f => (f.set 0 (.Vertex 0)).set 1 (.Vertex 1)) 0 1 (-1) INT64_MAX rfl rfl rfl
    (by decide) rfl rfl rfl rfl rfl rfl rfl (by decide) (by decide) (by decide) (by decide)

/-- The two cursors evaluated at the failing input of claim C36: on the storage
with the edge `0 → 1`, source 0, sink 1, lower bound -1 and no upper bound, the
s-t cursor returns false on its first pull, and the single-source cursor returns
true on its first pull with the node 1 and the edge list of length 1 on the
frame; with the lower bound 1 the s-t cursor emits that path. -/
theorem breadth_first_cursors_disagree_at_minus_one :
    STShortestPathCursor.Pull sampleNegativeSink oneEdgeGraph ⟨false⟩ (sampleInputPair 0 1)
        sampleFrame = .ok false ([], ((sampleFrame.set 0 (.Vertex 0)).set 1 (.Vertex 1))) ∧
    (∃ s1, SingleSourceShortestPathCursor.Pull { sampleNegativeSink with existing_node := false }
        oneEdgeGraph ⟨false⟩ 10 (SingleSourceShortestPathCursor.init (sampleInputPair 0 1))
        sampleFrame = .ok true s1 ∧
      s1.2 sampleNegativeSink.node_symbol = .Vertex 1 ∧
      edgesOf (s1.2 sampleNegativeSink.edge_symbol) = [⟨0, 0, 1, 0⟩]) ∧
    (∃ frame1, STShortestPathCursor.Pull sampleKnownSink oneEdgeGraph ⟨false⟩
        (sampleInputPair 0 1) sampleFrame = .ok true ([], frame1) ∧
      edgesOf (frame1 sampleKnownSink.edge_symbol) = [⟨0, 0, 1, 0⟩]) :=
  ⟨rfl, ⟨_, rfl, rfl, by decide⟩, ⟨_, rfl, by decide⟩⟩

/-! ### Termination of the depth-first expansion -/

theorem expandWeight_pos (n r : Nat) : 0 < expandWeight n r := by
  cases r with
  | zero => simp [expandWeight]
  | succ r => simp only [expandWeight]; omega

theorem expandWeight_le_succ (n r : Nat) : expandWeight n r ≤ expandWeight n (r + 1) := by
  rw [expandWeight]
  rcases Nat.eq_zero_or_pos n with h | h
  · subst h
    cases r with
    | zero => simp [expandWeight]
    | succ r => simp [expandWeight]
  · have : expandWeight n r ≤ 2 * n * expandWeight n r :=
      Nat.le_mul_of_pos_left _ (by omega)
    omega

theorem expandWeight_mono (n : Nat) {r r1 : Nat} (h : r ≤ r1) :
    expandWeight n r ≤ expandWeight n r1 := by
  induction h with
  | refl => exact Nat.le_refl _
  | step _ ih => exact Nat.le_trans ih (expandWeight_le_succ n _)

theorem stackMeasure_popExhausted {α : Type} (n : Nat) (s : List (List α)) :
    stackMeasure n (popExhausted s) = stackMeasure n s := by
  induction s with
  | nil => rfl
  | cons a t ih =>
    cases a with
    | nil => simp only [popExhausted, stackMeasure, List.length_nil, Nat.zero_mul, Nat.zero_add, ih]
    | cons x xs => rfl

/-- The measure of a stack whose levels hold at most `2 * n` edges. -/
theorem stackMeasure_le {α : Type} (n : Nat) (s : List (List α))
    (h : ∀ level ∈ s, level.length ≤ 2 * n) :
    stackMeasure n s ≤ s.length * (2 * n * expandWeight n n) := by
  induction s with
  | nil => simp [stackMeasure]
  | cons a t ih =>
    simp only [stackMeasure, List.length_cons]
    rw [Nat.succ_mul]
    have h1 := ih (fun level hl => h level (List.mem_cons_of_mem _ hl))
    have h2 : a.length ≤ 2 * n := h a (List.mem_cons_self _ _)
    have h3 : expandWeight n (n - t.length) ≤ expandWeight n n :=
      expandWeight_mono n (Nat.sub_le _ _)
    have h4 : a.length * expandWeight n (n - t.length) ≤ 2 * n * expandWeight n n :=
      Nat.mul_le_mul h2 h3
    omega

/-- Pushing a level onto a stack that has room costs less than the edge taken
from the level below. -/
theorem stackMeasure_push {α : Type} (n : Nat) (new it : List α) (c : α)
    (rest : List (List α)) (hnew : new.length ≤ 2 * n) (hroom : rest.length + 1 ≤ n) :
    stackMeasure n (new :: it :: rest) < stackMeasure n ((c :: it) :: rest) := by
  simp only [stackMeasure, List.length_cons]
  have hw : expandWeight n (n - rest.length) =
      1 + 2 * n * expandWeight n (n - (rest.length + 1)) := by
    have : n - rest.length = (n - (rest.length + 1)) + 1 := by omega
    rw [this, expandWeight]
  have h1 : new.length * expandWeight n (n - (rest.length + 1)) ≤
      2 * n * expandWeight n (n - (rest.length + 1)) := Nat.mul_le_mul_right _ hnew
  rw [Nat.succ_mul]
  omega

theorem stackMeasure_advance {α : Type} (n : Nat) (it : List α) (c : α)
    (rest : List (List α)) :
    stackMeasure n (it :: rest) < stackMeasure n ((c :: it) :: rest) := by
  simp only [stackMeasure, List.length_cons, Nat.succ_mul]
  have := expandWeight_pos n (n - rest.length)
  omega

theorem keepEdges_length {α : Type} (r : Bool) (n : Nat) (l : List α) :
    (keepEdges r n l).length = min n l.length := by
  cases r
  · simp [keepEdges_false]
  · simp [keepEdges_true]; omega

/-- A list of edges of the graph without repetition is no longer than the list of
the edges of the graph. -/
theorem nodup_edges_length_le (g : Graph) (p : List EdgeAccessor) (hn : p.Nodup)
    (hs : ∀ e ∈ p, e ∈ g.edges) : p.length ≤ g.edges.length :=
  (List.subperm_of_subset hn hs).length_le

theorem ExpandFromVertex_bounded (g : Graph) (v : VertexAccessor) (direction : Direction)
    (edge_types : List Nat) :
    (ExpandFromVertex g v direction edge_types).length ≤ 2 * g.edges.length ∧
      ∀ c ∈ ExpandFromVertex g v direction edge_types, c.1 ∈ g.edges := by
  constructor
  · unfold ExpandFromVertex InEdges OutEdges
    have h1 := List.length_filter_le
      (fun e => decide (e.To = v) && typeOk edge_types e) g.edges
    have h2 := List.length_filter_le
      (fun e => decide (e.From = v) && typeOk edge_types e) g.edges
    rw [List.length_append]
    split_ifs <;> simp only [List.length_map, List.length_nil] <;> omega
  · intro c hc
    exact ((mem_ExpandFromVertex g v direction edge_types c.1 c.2).mp hc).1

/-- The list `AppendEdge` leaves behind when the edge is new: it has as many
edges as the stack has levels, all of the graph, none repeated. -/
theorem appendEdges_bounded (g : Graph) (r : Bool) (size : Nat) (hpos : 0 < size)
    (e : EdgeAccessor) (es : List EdgeAccessor) (he : e ∈ g.edges)
    (hlen : size - 1 ≤ es.length) (hn : (keepEdges r size es).Nodup)
    (hs : ∀ x ∈ keepEdges r size es, x ∈ g.edges) (hnew : e ∉ keepEdges r size es) :
    (appendEdges r size e (keepEdges r size es)).Nodup ∧
      (appendEdges r size e (keepEdges r size es)).length = size ∧
      ∀ x ∈ appendEdges r size e (keepEdges r size es), x ∈ g.edges := by
  have hk : keepEdges r (size - 1) (keepEdges r size es) = keepEdges r (size - 1) es :=
    keepEdges_keepEdges r _ _ (Nat.sub_le _ _) es
  have hsub : (keepEdges r (size - 1) es).Sublist (keepEdges r size es) := by
    rw [← hk]; exact keepEdges_sublist _ _ _
  have hl : (keepEdges r (size - 1) es).length = size - 1 := by
    rw [keepEdges_length]; omega
  refine ⟨appendEdges_nodup r size e es hn hnew, ?_, ?_⟩
  · cases r
    · simp only [appendEdges, Bool.false_eq_true, if_false, hk, List.length_append, hl,
        List.length_singleton]
      omega
    · simp only [appendEdges, if_true, hk, List.length_cons, hl]
      omega
  · intro x hx
    cases r
    · simp only [appendEdges, Bool.false_eq_true, if_false, hk, List.mem_append,
        List.mem_singleton] at hx
      rcases hx with hx | hx
      · exact hs x (hsub.subset hx)
      · rw [hx]; exact he
    · simp only [appendEdges, if_true, hk, List.mem_cons] at hx
      rcases hx with hx | hx
      · rw [hx]; exact he
      · exact hs x (hsub.subset hx)

/-- The bounds hold of a state whose frame holds a list of edges of the graph
without repetition that is as long as the stack is deep, or one shorter. -/
theorem Bounded_of_list {D : Type} (self : ExpandVariable D) (g : Graph)
    (cur : ExpandVariableCursor D) (frame : Frame D) (app : List EdgeAccessor)
    (hdepth : cur.edges_.length ≤ g.edges.length + 1)
    (hlev : ∀ level ∈ cur.edges_, level.length ≤ 2 * g.edges.length ∧
      ∀ c ∈ level, c.1 ∈ g.edges)
    (hfr : ∀ l, frame self.edge_symbol = .List l → l = app.map .Edge)
    (hlo : cur.edges_.length - 1 ≤ app.length) (hhi : app.length ≤ cur.edges_.length)
    (hn : app.Nodup) (hs : ∀ e ∈ app, e ∈ g.edges) :
    ExpandVariableCursor.Bounded self g cur frame := by
  refine ⟨hdepth, hlev, fun _ l hl => ⟨app, hfr l hl, hlo, ?_, ?_⟩⟩
  · rw [keepEdges_of_length_le _ _ _ hhi]; exact hn
  · rw [keepEdges_of_length_le _ _ _ hhi]; exact hs
/-- The end of an iteration of `Expand` keeps the bounds: the stack has room for
the level it may push, because the list on the frame holds as many distinct edges
of the graph as the stack has levels. -/
theorem expandAccepted_bounded {D : Type} (self : ExpandVariable D) (g : Graph)
    (cur1 : ExpandVariableCursor D) (size : Nat) (v : VertexAccessor) (frame3 : Frame D)
    (before : Nat) (hsize : cur1.edges_.length = size) (hroom : size ≤ g.edges.length)
    (hlev : ∀ level ∈ cur1.edges_, level.length ≤ 2 * g.edges.length ∧
      ∀ c ∈ level, c.1 ∈ g.edges)
    (app : List EdgeAccessor) (happ : app.Nodup) (hlen : app.length = size)
    (hsub : ∀ e ∈ app, e ∈ g.edges)
    (hfr : ∀ l, frame3 self.edge_symbol = .List l → l = app.map .Edge)
    (hm0 : stackMeasure g.edges.length cur1.edges_ < before)
    (hm1 : ∀ new : List (EdgeAccessor × Direction), new.length ≤ 2 * g.edges.length →
      stackMeasure g.edges.length (new :: cur1.edges_) < before) :
    ExpandVariableCursor.StepBounded self g before
      (expandAccepted self g cur1 size v frame3) := by
  have hb2 : ExpandVariableCursor.Bounded self g
      (if cur1.upper_bound_ > (size : Int) then
        { cur1 with edges_ :=
            ExpandFromVertex g v self.direction self.edge_types :: cur1.edges_ }
      else cur1) frame3 ∧
      stackMeasure g.edges.length
        (if cur1.upper_bound_ > (size : Int) then
          { cur1 with edges_ :=
              ExpandFromVertex g v self.direction self.edge_types :: cur1.edges_ }
        else cur1).edges_ < before := by
    have hnew := ExpandFromVertex_bounded g v self.direction self.edge_types
    split_ifs with hgt
    · refine ⟨Bounded_of_list self g _ frame3 app ?_ ?_ hfr ?_ ?_ happ hsub, hm1 _ hnew.1⟩
      · simp only [List.length_cons, hsize]; omega
      · intro level hl
        rcases List.mem_cons.mp hl with h | h
        · rw [h]; exact hnew
        · exact hlev level h
      · simp only [List.length_cons, hsize]; omega
      · simp only [List.length_cons, hsize]; omega
    · refine ⟨Bounded_of_list self g _ frame3 app ?_ hlev hfr ?_ ?_ happ hsub, hm0⟩
      · rw [hsize]; omega
      · rw [hsize]; omega
      · rw [hsize]; omega
  unfold expandAccepted
  simp only
  generalize (if cur1.upper_bound_ > (size : Int) then
        { cur1 with edges_ :=
            ExpandFromVertex g v self.direction self.edge_types :: cur1.edges_ }
      else cur1) = cur2 at hb2 ⊢
  split
  · trivial
  · exact hb2
  · split
    · split_ifs
      · exact hb2.1
      · exact hb2
    · trivial

/-- One iteration of `Expand` from the point where the current edge is taken
keeps the bounds and lowers the measure. -/
theorem expandEdge_bounded {D : Type} (self : ExpandVariable D) (g : Graph)
    (cur1 : ExpandVariableCursor D) (size : Nat) (current_edge : EdgeAccessor × Direction)
    (es : List EdgeAccessor) (frame : Frame D) (before : Nat)
    (hsize : cur1.edges_.length = size) (hpos : 0 < size)
    (hdepth : size ≤ g.edges.length + 1)
    (hlev : ∀ level ∈ cur1.edges_, level.length ≤ 2 * g.edges.length ∧
      ∀ c ∈ level, c.1 ∈ g.edges)
    (he : current_edge.1 ∈ g.edges) (hlen : size - 1 ≤ es.length)
    (hn : (keepEdges self.is_reverse size es).Nodup)
    (hs : ∀ x ∈ keepEdges self.is_reverse size es, x ∈ g.edges)
    (hm0 : stackMeasure g.edges.length cur1.edges_ < before)
    (hm1 : size ≤ g.edges.length → ∀ new : List (EdgeAccessor × Direction),
      new.length ≤ 2 * g.edges.length →
      stackMeasure g.edges.length (new :: cur1.edges_) < before) :
    ExpandVariableCursor.StepBounded self g before
      (expandEdge self g cur1 size current_edge (es.map .Edge) frame) := by
  unfold expandEdge
  simp only [keepEdges_map, found_existing_map, AppendEdge_map, decide_eq_true_eq]
  split_ifs with hfound
  · refine ⟨Bounded_of_list self g cur1 _ (keepEdges self.is_reverse size es) ?_ hlev ?_ ?_ ?_
      hn hs, hm0⟩
    · rw [hsize]; exact hdepth
    · intro l hl
      simp only [Frame.set, if_true] at hl
      injection hl with hl
      exact hl.symm
    · rw [hsize, keepEdges_length]; omega
    · rw [hsize]; exact keepEdges_length_le _ _ _
  · obtain ⟨happ, hal, hasub⟩ := appendEdges_bounded g self.is_reverse size hpos
      current_edge.1 es he hlen hn hs hfound
    have hroom : size ≤ g.edges.length := by
      have := nodup_edges_length_le g _ happ hasub
      omega
    have hfr : ∀ l, placeOnFrame self frame
        ((appendEdges self.is_reverse size current_edge.1
          (keepEdges self.is_reverse size es)).map TypedValue.Edge) current_edge.1
        (arrival current_edge) self.edge_symbol = .List l →
        l = (appendEdges self.is_reverse size current_edge.1
          (keepEdges self.is_reverse size es)).map TypedValue.Edge :=
      fun l hl => placeOnFrame_list self frame _ l _ _ hl
    split
    · trivial
    · refine ⟨Bounded_of_list self g cur1 _ _ ?_ hlev hfr ?_ ?_ happ hasub, hm0⟩
      · rw [hsize]; exact hdepth
      · rw [hsize, hal]; omega
      · rw [hsize, hal]
    · exact expandAccepted_bounded self g cur1 size _ _ before hsize hroom hlev _ happ hal
        hasub hfr hm0 (hm1 hroom)

/-- One iteration of the loop of `Expand` keeps the bounds and, when the loop goes
on, lowers the measure. -/
theorem ExpandBody_bounded {D : Type} (self : ExpandVariable D) (g : Graph)
    (context : ExecutionContext) (cur : ExpandVariableCursor D) (frame : Frame D)
    (hinv : ExpandVariableCursor.Bounded self g cur frame) :
    ExpandVariableCursor.StepBounded self g (stackMeasure g.edges.length cur.edges_)
      (ExpandBody self g context cur frame) := by
  obtain ⟨hdepth, hlev, hlist⟩ := hinv
  unfold ExpandBody
  split
  · trivial
  · have hlen := popExhausted_length_le cur.edges_
    have hmeasure := stackMeasure_popExhausted g.edges.length cur.edges_
    obtain ⟨pre, hpre⟩ := popExhausted_suffix cur.edges_
    split
    · exact ⟨rfl, Nat.zero_le _, fun level hl => absurd hl (List.not_mem_nil _),
        fun hne => absurd rfl hne⟩
    · next rest hpop => exact absurd hpop (popExhausted_head_ne_nil _ _)
    · next current_edge it rest hpop =>
      rw [hpop] at hlen hmeasure hpre
      have hne : cur.edges_ ≠ [] := by
        intro h; rw [h] at hlen; simp at hlen
      have hsz : rest.length + 1 ≤ cur.edges_.length := by simpa using hlen
      have hmem : ∀ level ∈ (current_edge :: it) :: rest, level ∈ cur.edges_ := by
        intro level hl
        rw [hpre]
        exact List.mem_append_right _ hl
      have htop := hlev _ (hmem _ (List.mem_cons_self _ _))
      split
      · next on_frame hfe =>
        obtain ⟨es, rfl, hlo, hnd, hsub⟩ := hlist hne _ hfe
        refine expandEdge_bounded self g _ (rest.length + 1) current_edge es frame _ ?_ ?_ ?_
          ?_ ?_ ?_ ?_ ?_ ?_ ?_
        · simp
        · omega
        · omega
        · intro level hl
          rcases List.mem_cons.mp hl with h | h
          · rw [h]
            refine ⟨?_, fun c hc => htop.2 c (List.mem_cons_of_mem _ hc)⟩
            have := htop.1
            simp only [List.length_cons] at this
            omega
          · exact hlev level (hmem level (List.mem_cons_of_mem _ h))
        · exact htop.2 current_edge (List.mem_cons_self _ _)
        · omega
        · exact keepEdges_nodup_mono _ _ _ hsz _ hnd
        · intro x hx
          rw [← keepEdges_keepEdges self.is_reverse _ _ hsz es] at hx
          exact hsub x ((keepEdges_sublist _ _ _).subset hx)
        · rw [← hmeasure]
          exact stackMeasure_advance _ _ _ _
        · intro hroom new hnew
          rw [← hmeasure]
          exact stackMeasure_push _ _ _ _ _ hnew hroom
      · trivial

/-- A call of `Expand` that returns keeps the bounds, and leaves the stack empty
when it returns false. -/
theorem Expand_keeps_bounded {D : Type} (self : ExpandVariable D) (g : Graph)
    (context : ExecutionContext) (fuel : Nat) :
    ∀ (cur : ExpandVariableCursor D) (frame : Frame D),
      ExpandVariableCursor.Bounded self g cur frame →
      ∀ b s, Expand self g context fuel cur frame = .ok b s →
        ExpandVariableCursor.Bounded self g s.1 s.2 ∧ (b = false → s.1.edges_ = []) := by
  induction fuel with
  | zero => intro cur frame _ b s h; simp [Expand] at h
  | succ n ih =>
    intro cur frame hinv b s h
    have hpost := ExpandBody_bounded self g context cur frame hinv
    unfold Expand at h
    split at h
    · next cur1 frame1 hbody =>
      rw [hbody] at hpost
      exact ih cur1 frame1 hpost.1 b s h
    · next b1 s1 hbody =>
      rw [hbody] at hpost
      injection h with hb hs
      subst hb; subst hs
      cases b1
      · exact ⟨hpost.2, fun _ => hpost.1⟩
      · exact ⟨hpost, fun h => absurd h (by decide)⟩
    · cases h

/-- A call of `Expand` with more fuel than the measure of the stack does not run
out of fuel. -/
theorem Expand_fuel_suffices {D : Type} (self : ExpandVariable D) (g : Graph)
    (context : ExecutionContext) (fuel : Nat) :
    ∀ (cur : ExpandVariableCursor D) (frame : Frame D),
      ExpandVariableCursor.Bounded self g cur frame →
      stackMeasure g.edges.length cur.edges_ < fuel →
      Expand self g context fuel cur frame ≠ .out_of_fuel := by
  induction fuel with
  | zero => intro cur frame _ h; exact absurd h (Nat.not_lt_zero _)
  | succ n ih =>
    intro cur frame hinv hlt
    have hpost := ExpandBody_bounded self g context cur frame hinv
    unfold Expand
    split
    · next cur1 frame1 hbody =>
      rw [hbody] at hpost
      exact ih cur1 frame1 hpost.1 (by have := hpost.2; simp only at this; omega)
    · intro h; cases h
    · intro h; cases h

/-- The loop of `Expand` passes through states in which the bounds hold. -/
theorem ExpandPasses_bounded {D : Type} (self : ExpandVariable D) (g : Graph)
    (context : ExecutionContext) (s s1 : ExpandVariableCursor D × Frame D)
    (h : ExpandPasses self g context s s1)
    (hinv : ExpandVariableCursor.Bounded self g s.1 s.2) :
    ExpandVariableCursor.Bounded self g s1.1 s1.2 := by
  induction h with
  | start s => exact hinv
  | step s s1 s2 hbody _ ih =>
    have hpost := ExpandBody_bounded self g context s.1 s.2 hinv
    rw [hbody] at hpost
    exact ih hpost.1
  | stop s s1 b hbody =>
    have hpost := ExpandBody_bounded self g context s.1 s.2 hinv
    rw [hbody] at hpost
    cases b
    · exact hpost.2
    · exact hpost

/-- The bounds hold of a state with an empty stack. -/
theorem Bounded_of_empty {D : Type} (self : ExpandVariable D) (g : Graph)
    (cur : ExpandVariableCursor D) (frame : Frame D) (h : cur.edges_ = []) :
    ExpandVariableCursor.Bounded self g cur frame := by
  refine ⟨by rw [h]; exact Nat.zero_le _, fun level hl => ?_, fun hne => absurd h hne⟩
  rw [h] at hl
  exact absurd hl (List.not_mem_nil _)

/-- The bounds survive the assignment of a vertex to a symbol of the frame. -/
theorem Bounded_set_vertex {D : Type} (self : ExpandVariable D) (g : Graph)
    (cur : ExpandVariableCursor D) (frame : Frame D) (sym : Symbol) (v : VertexAccessor)
    (h : ExpandVariableCursor.Bounded self g cur frame) :
    ExpandVariableCursor.Bounded self g cur (frame.set sym (.Vertex v)) := by
  obtain ⟨h1, h2, h3⟩ := h
  refine ⟨h1, h2, fun hne l hl => ?_⟩
  simp only [Frame.set] at hl
  split_ifs at hl
  exact h3 hne l hl

/-- `PullInput`, called with an empty stack, leaves a state in which the bounds
hold. -/
theorem PullInput_bounded {D : Type} (self : ExpandVariable D) (g : Graph)
    (context : ExecutionContext) (input : List (Frame D → Frame D)) :
    ∀ (cur : ExpandVariableCursor D) (frame : Frame D), cur.edges_ = [] →
      ∀ b s, PullInput self g context input cur frame = .ok b s →
        ExpandVariableCursor.Bounded self g s.1 s.2 := by
  induction input with
  | nil =>
    intro cur frame hcur b s h
    unfold PullInput at h
    split_ifs at h
    injection h with hb hs
    subst hb; subst hs
    exact Bounded_of_empty self g _ _ hcur
  | cons t rest ih =>
    intro cur frame hcur b s h
    unfold PullInput at h
    split_ifs at h
    simp only at h
    split at h
    · exact ih cur (t frame) hcur b s h
    · next vertex hvx =>
      split at h
      · cases h
      · next lower_bound_ hlow =>
        split at h
        · cases h
        · next upper_bound_ hup =>
          injection h with hb hs
          subst hb; subst hs
          have hnew := ExpandFromVertex_bounded g vertex self.direction self.edge_types
          refine Bounded_of_list self g _ _ [] ?_ ?_ ?_ ?_ ?_ List.nodup_nil
            (fun e he => absurd he (List.not_mem_nil _))
          · simp only [hcur]; split_ifs <;> simp
          · intro level hl
            simp only [hcur] at hl
            split_ifs at hl
            · rw [List.mem_singleton] at hl
              rw [hl]; exact hnew
            · exact absurd hl (List.not_mem_nil _)
          · intro l hl
            simp only [Frame.set, if_true] at hl
            injection hl with hl
            rw [← hl]; rfl
          · simp only [hcur]; split_ifs <;> simp
          · simp
    · cases h

/-- A call of `Pull` that returns leaves a state in which the bounds hold. -/
theorem Pull_bounded {D : Type} (self : ExpandVariable D) (g : Graph)
    (context : ExecutionContext) (fuel : Nat) :
    ∀ (cur : ExpandVariableCursor D) (frame : Frame D),
      ExpandVariableCursor.Bounded self g cur frame →
      ∀ b s, ExpandVariableCursor.Pull self g context fuel cur frame = .ok b s →
        ExpandVariableCursor.Bounded self g s.1 s.2 := by
  induction fuel with
  | zero => intro cur frame _ b s h; simp [ExpandVariableCursor.Pull] at h
  | succ n ih =>
    intro cur frame hinv b s h
    unfold ExpandVariableCursor.Pull at h
    split at h
    · next s1 hexp =>
      injection h with hb hs
      subst hb; subst hs
      exact (Expand_keeps_bounded self g context _ cur frame hinv true s1 hexp).1
    · cases h
    · cases h
    · next cur1 frame1 hexp =>
      have hnil := (Expand_keeps_bounded self g context _ cur frame hinv false _ hexp).2 rfl
      split at h
      · next s1 hpi =>
        injection h with hb hs
        subst hb; subst hs
        exact PullInput_bounded self g context _ cur1 frame1 hnil false s1 hpi
      · cases h
      · cases h
      · next cur2 frame2 hpi =>
        have hinv2 : ExpandVariableCursor.Bounded self g cur2 frame2 :=
          PullInput_bounded self g context _ cur1 frame1 hnil true _ hpi
        by_cases hzero : cur2.lower_bound_ = 0
        · rw [if_pos hzero] at h
          split at h
          · next start_vertex hsv =>
            cases hex : self.existing_node
            · simp only [hex, Bool.not_false, if_true] at h
              injection h with hb hs
              subst hb; subst hs
              exact Bounded_set_vertex self g cur2 frame2 _ _ hinv2
            · simp only [hex, Bool.not_true, Bool.false_eq_true, if_false] at h
              split at h
              · cases h
              · injection h with hb hs
                subst hb; subst hs
                exact hinv2
              · exact ih cur2 frame2 hinv2 b s h
          · cases h
        · rw [if_neg hzero] at h
          exact ih cur2 frame2 hinv2 b s h

/-- The bounds hold of every state of the cursor between two calls of `Pull`. -/
theorem Reachable_bounded {D : Type} (self : ExpandVariable D) (g : Graph)
    (context : ExecutionContext) (s : ExpandVariableCursor D × Frame D)
    (h : ExpandVariableCursor.Reachable self g context s) :
    ExpandVariableCursor.Bounded self g s.1 s.2 := by
  induction h with
  | fresh input frame => exact Bounded_of_empty self g _ _ rfl
  | pull fuel b s s1 _ hpull ih => exact Pull_bounded self g context fuel s.1 s.2 ih b s1 hpull
  | touch cur frame frame1 _ hsame ih =>
    obtain ⟨h1, h2, h3⟩ := ih
    exact ⟨h1, h2, fun hne l hl => h3 hne l (hsame.symm.trans hl)⟩
/-- Claim C37: on every finite graph and for every operator, with or without an
upper bound, the bounds hold of every state of the cursor between two calls of
`Pull` and of the state `PullInput` leaves for an input tuple; and in every state
in which they hold, a call of `Expand` returns (or raises) within
`expandFuel` of the number of edges iterations of its loop, leaving a state in
which they hold again, and in every state the loop passes through the stack of
iterators has at most one level more than the graph has edges. -/
theorem ExpandVariableCursor_Expand_terminates {D : Type} (self : ExpandVariable D)
    (g : Graph) (context : ExecutionContext) :
    (∀ s, ExpandVariableCursor.Reachable self g context s →
      ExpandVariableCursor.Bounded self g s.1 s.2) ∧
    (∀ (cur : ExpandVariableCursor D) (frame : Frame D) b s1, cur.edges_ = [] →
      PullInput self g context cur.input_cursor cur frame = .ok b s1 →
      ExpandVariableCursor.Bounded self g s1.1 s1.2) ∧
    (∀ (cur : ExpandVariableCursor D) (frame : Frame D),
      ExpandVariableCursor.Bounded self g cur frame →
      (∀ fuel, expandFuel g.edges.length ≤ fuel →
        (∃ b s1, Expand self g context fuel cur frame = .ok b s1 ∧
          ExpandVariableCursor.Bounded self g s1.1 s1.2) ∨
        ∃ e, Expand self g context fuel cur frame = .raised e) ∧
      ∀ s1, ExpandPasses self g context (cur, frame) s1 →
        s1.1.edges_.length ≤ g.edges.length + 1) := by
  refine ⟨fun s h => Reachable_bounded self g context s h,
    fun cur frame b s1 hnil h => PullInput_bounded self g context _ cur frame hnil b s1 h,
    fun cur frame hinv => ⟨fun fuel hfuel => ?_, fun s1 hpass => ?_⟩⟩
  · have hm : stackMeasure g.edges.length cur.edges_ < fuel := by
      have h1 := stackMeasure_le g.edges.length cur.edges_ (fun level hl => (hinv.2.1 level hl).1)
      have h2 : cur.edges_.length * (2 * g.edges.length * expandWeight g.edges.length
          g.edges.length) ≤ (g.edges.length + 1) * (2 * g.edges.length *
          expandWeight g.edges.length g.edges.length) := Nat.mul_le_mul_right _ hinv.1
      unfold expandFuel at hfuel
      omega
    have hne := Expand_fuel_suffices self g context fuel cur frame hinv hm
    cases hr : Expand self g context fuel cur frame with
    | ok b s1 =>
      exact Or.inl ⟨b, s1, rfl, (Expand_keeps_bounded self g context fuel cur frame hinv b s1 hr).1⟩
    | raised e => exact Or.inr ⟨e, rfl⟩
    | out_of_fuel => exact absurd hr hne
  · exact (ExpandPasses_bounded self g context (cur, frame) s1 hpass hinv).1

/-- On the sample storage, in the state after the first pull of the depth-first
expansion from the vertex 0 without an upper bound, the stack is within its bound
and the next call of `Expand` returns. -/
theorem ExpandVariableCursor_Expand_terminates_witness :
    ExpandVariableCursor.Bounded sampleExpand sampleGraph sampleFirstPull.1 sampleFirstPull.2 ∧
    ((∃ b s1, Expand sampleExpand sampleGraph ⟨false⟩ (expandFuel sampleGraph.edges.length)
        sampleFirstPull.1 sampleFirstPull.2 = .ok b s1 ∧
        ExpandVariableCursor.Bounded sampleExpand sampleGraph s1.1 s1.2) ∨
      ∃ e, Expand sampleExpand sampleGraph ⟨false⟩ (expandFuel sampleGraph.edges.length)
        sampleFirstPull.1 sampleFirstPull.2 = .raised e) ∧
    sampleFirstPull.1.edges_.length ≤ sampleGraph.edges.length + 1 :=
  have hb : ExpandVariableCursor.Bounded sampleExpand sampleGraph sampleFirstPull.1
      sampleFirstPull.2 :=
    (ExpandVariableCursor_Expand_terminates sampleExpand sampleGraph ⟨false⟩).1 sampleFirstPull
      (ExpandVariableCursor.Reachable.pull 5 true
        (ExpandVariableCursor.init (sampleInput 0), sampleFrame) sampleFirstPull
        (ExpandVariableCursor.Reachable.fresh _ _) rfl)
  ⟨hb,
    ((ExpandVariableCursor_Expand_terminates sampleExpand sampleGraph ⟨false⟩).2.2
      sampleFirstPull.1 sampleFirstPull.2 hb).1 _ (Nat.le_refl _),
    ((ExpandVariableCursor_Expand_terminates sampleExpand sampleGraph ⟨false⟩).2.2
      sampleFirstPull.1 sampleFirstPull.2 hb).2 sampleFirstPull (ExpandPasses.start _)⟩

end Memgraph
